import Mathlib

/-!
# A shallow embedding of the `demangle.c` symbol demangler

The C functions of `src/demangle.c` are translated one by one, in the order of the
source, into Lean functions over an explicit parse state `Mangle`.

Conventions of the embedding
* A C string is a `List Char`; the terminating NUL is not stored.  A pointer into
  `plain` or `mangled` is the natural-number offset from the start of the buffer.
* `plain` holds the text in front of the terminating NUL of the output buffer, so
  `*mark = 0` is `List.take mark`.
* A failed `assert`, undefined behaviour (a read past the terminating NUL of the
  input, an index outside `parameter_base`, signed overflow) and an exhausted step
  budget are reported as a `Fault`; the parser then has no return value.
* Integer widths: `short` is 16 bits, `int` 32 bits, `long` and `size_t` 64 bits.
* The parser is recursive and one of its loops does not advance; every production of
  the mutual recursion takes a step budget (`fuel`) that decreases at each call.
-/

namespace Demangle

/-! ## Results and the parser monad -/

/-- Ways in which a run ends without a return value. -/
inductive Fault where
  /-- an `assert` of the source failed (the program aborts) -/
  | assertion
  /-- undefined behaviour: access outside an object, signed overflow -/
  | undefined
  /-- the step budget is used up -/
  | fuel
deriving DecidableEq, Repr

/-- Outcome of a computation: a value, or a fault. -/
inductive Res (α : Type) where
  | ok (a : α)
  | error (e : Fault)
deriving DecidableEq, Repr

/-- The parse state, `struct mangle` of the source.  The two tables are lists; their
lengths are `subst_count` and `tpl_subst_count`. -/
structure Mangle where
  valid : Bool
  plain : List Char
  size : Nat
  mangled : List Char
  mpos : Nat
  nest : Int
  is_typecast_op : Bool
  qualifiers : List Char
  func_nest : Int
  parameter_base : List (Option Nat)
  substitions : List (List Char)
  tpl_subst : List (List Char)
deriving DecidableEq, Repr

/-- A computation on the parse state that may fault. -/
def M (α : Type) : Type := Mangle → Res (α × Mangle)

/-- Return a value, leaving the state alone. -/
def M.pure {α : Type} (a : α) : M α := fun s => Res.ok (a, s)

/-- Sequencing; a fault ends the computation. -/
def M.bind {α β : Type} (m : M α) (f : α → M β) : M β := fun s =>
  match m s with
  | Res.ok (a, t) => f a t
  | Res.error e => Res.error e

instance : Monad M where
  pure := M.pure
  bind := M.bind

/-- Read the state. -/
def getS : M Mangle := fun s => Res.ok (s, s)

/-- Replace the state. -/
def setS (t : Mangle) : M Unit := fun _ => Res.ok ((), t)

/-- Update the state. -/
def modifyS (f : Mangle → Mangle) : M Unit := fun s => Res.ok ((), f s)

/-- End the computation with a fault. -/
def fault {α : Type} (e : Fault) : M α := fun _ => Res.error e

/-- The `assert` of C. -/
def cassert (b : Bool) : M Unit := if b then pure () else fault Fault.assertion

/-! ## Machine integers and `<ctype.h>` -/

def MAX_SUBSTITUTIONS : Nat := 20
def MAX_TEMPLATE_SUBST : Nat := 10
def MAX_FUNC_NESTING : Nat := 5
def MAX_EXTQ : Nat := 10
def MAX_ARRAYDIM : Nat := 10

/-- Largest `int`. -/
def INT_MAX : Int := 2147483647
/-- Largest `long` (64 bits). -/
def LONG_MAX : Int := 9223372036854775807
/-- Smallest `long`. -/
def LONG_MIN : Int := -9223372036854775808
/-- Largest `unsigned long`. -/
def ULONG_MAX : Nat := 18446744073709551615
/-- Modulus of `size_t` arithmetic. -/
def SIZE_MOD : Nat := 18446744073709551616

/-- Conversion to `short`: reduction modulo 2^16 into the signed range. -/
def toShort (x : Int) : Int := (x + 32768) % 65536 - 32768

/-- Conversion to `int`: reduction modulo 2^32 into the signed range. -/
def toInt32 (x : Int) : Int := (x + 2147483648) % 4294967296 - 2147483648

/-- Conversion of an `int` to `size_t`. -/
def toSize (x : Int) : Nat := (x % (SIZE_MOD : Int)).toNat

/-- The NUL character. -/
def NUL : Char := Char.ofNat 0

def isdigit (c : Char) : Bool := 48 ≤ c.toNat && c.toNat ≤ 57
def isupper (c : Char) : Bool := 65 ≤ c.toNat && c.toNat ≤ 90
def islower (c : Char) : Bool := 97 ≤ c.toNat && c.toNat ≤ 122
def isalpha (c : Char) : Bool := isupper c || islower c
def isxdigit (c : Char) : Bool :=
  isdigit c || (65 ≤ c.toNat && c.toNat ≤ 70) || (97 ≤ c.toNat && c.toNat ≤ 102)
def isspace (c : Char) : Bool := c.toNat = 32 || (9 ≤ c.toNat && c.toNat ≤ 13)

/-- Value of a decimal digit character. -/
def digitVal (c : Char) : Nat := c.toNat - 48

/-- The C string denoted by a list of characters: the part in front of the first NUL. -/
def cstr (l : List Char) : List Char := l.takeWhile (fun c => c != NUL)

/-- The maximal run of decimal digits at the head of a string. -/
def digitRun (l : List Char) : List Char := l.takeWhile isdigit

/-- Value of a string of decimal digits. -/
def decVal (l : List Char) : Nat := l.foldl (fun acc c => acc * 10 + digitVal c) 0

/-- The function `strtol(p, &end, 10)`: optional white space, optional sign, digits;
the value saturates at `LONG_MIN` and `LONG_MAX`.  The result is the value and the number
of characters consumed (none when there is no digit). -/
def strtol (l : List Char) : Int × Nat :=
  let ws := l.takeWhile isspace
  let r := l.drop ws.length
  let neg := r.head? = some '-'
  let sgn := if r.head? = some '-' || r.head? = some '+' then 1 else 0
  let ds := digitRun (r.drop sgn)
  if ds.length = 0 then (0, 0)
  else
    let v : Int := if neg then - (decVal ds : Int) else (decVal ds : Int)
    (max LONG_MIN (min LONG_MAX v), ws.length + sgn + ds.length)

/-- The function `strtoul(p, NULL, 10)` on a string that starts with a digit: the value
saturates at `ULONG_MAX`. -/
def strtoul (l : List Char) : Nat := min ULONG_MAX (decVal (digitRun l))

/-! ## The lexical tables -/

def operators : List (String × String) :=
  [ ("cv", "(?)"), ("nw", "new"), ("na", "new[]"), ("dl", "delete"), ("da", "delete[]"),
    ("ng", "-"), ("ad", "&"), ("de", "*"), ("co", "~"), ("pl", "+"), ("mi", "-"),
    ("ml", "*"), ("dv", "/"), ("rm", "%"), ("an", "&"), ("or", "|"), ("eo", "^"),
    ("aS", "="), ("pL", "+="), ("mI", "-="), ("mL", "*="), ("dV", "/="), ("rM", "%="),
    ("aN", "&="), ("oR", "|="), ("eO", "^="), ("ls", "<<"), ("rs", ">>"), ("lS", "<<="),
    ("rS", ">>="), ("eq", "=="), ("ne", "!="), ("lt", "<"), ("gt", ">"), ("le", "<="),
    ("ge", ">="), ("ss", "<=>"), ("nt", "!"), ("aa", "&&"), ("oo", "||"), ("pp", "++"),
    ("mm", "--"), ("cm", ","), ("pm", "->*"), ("pt", "->"), ("cl", "()"), ("ix", "[]"),
    ("qu", "?") ]

def types : List (String × String) :=
  [ ("v", "void"), ("w", "wchar_t"), ("b", "bool"), ("c", "char"), ("a", "signed char"),
    ("h", "unsigned char"), ("s", "short"), ("t", "unsigned short"), ("i", "int"),
    ("j", "unsigned int"), ("l", "long"), ("m", "unsigned long"), ("x", "long long"),
    ("y", "unsigned long long"), ("n", "__int128"), ("o", "unsigned __int128"),
    ("f", "float"), ("d", "double"), ("e", "long double"), ("g", "__float128"),
    ("z", "ellipsis"), ("Da", "auto"), ("Dc", "decltype(auto)"), ("Dn", "std::nullptr_t"),
    ("Dh", "decimal16"), ("Df", "decimal32"), ("Dd", "decimal64"), ("De", "decimal128"),
    ("Du", "char8_t"), ("Ds", "char16_t"), ("Di", "char32_t") ]

def abbreviations : List (String × String) :=
  [ ("St", "std"), ("Sa", "std::allocator"), ("Sb", "std::basic_string"),
    ("Ss", "std::string"), ("Si", "std::istream"), ("So", "std::ostream"),
    ("Sd", "std::iostream") ]

/-- Record `i` of a table (the index comes from a successful look-up). -/
def entry (tab : List (String × String)) (i : Nat) : String × String :=
  tab.getD i ("", "")

/-! ## Primitive updates of the parse state

Every change of the parse state made by the parser is one of the following updates. -/

/-- The assignment `mangle->valid = 0`. -/
def Mangle.invalidate (s : Mangle) : Mangle := { s with valid := false }

/-- Assignment to `mangle->mpos`. -/
def Mangle.setMpos (s : Mangle) (p : Nat) : Mangle := { s with mpos := p }

/-- The body of `append`: `strcpy` behind the text when it fits, `valid = 0` otherwise. -/
def Mangle.append (s : Mangle) (text : List Char) : Mangle :=
  if s.valid then
    if s.plain.length + text.length < s.size then { s with plain := s.plain ++ text }
    else { s with valid := false }
  else s

/-- The two `memmove`s of `insert`, made only when the text fits. -/
def Mangle.splice (s : Mangle) (mark : Nat) (text : List Char) : Mangle :=
  if s.plain.length + text.length < s.size then
    { s with plain := s.plain.take mark ++ text ++ s.plain.drop mark }
  else s

/-- The assignment `*mark = 0` for a pointer `mark` into `plain`. -/
def Mangle.truncate (s : Mangle) (mark : Nat) : Mangle := { s with plain := s.plain.take mark }

/-- Assignment to `mangle->nest`. -/
def Mangle.setNest (s : Mangle) (n : Int) : Mangle := { s with nest := n }

/-- Assignment to `mangle->func_nest`. -/
def Mangle.setFuncNest (s : Mangle) (n : Int) : Mangle := { s with func_nest := n }

/-- The assignment `mangle->is_typecast_op = 1`. -/
def Mangle.setTypecast (s : Mangle) : Mangle := { s with is_typecast_op := true }

/-- The copy `strcpy(mangle->qualifiers, q)`. -/
def Mangle.setQualifiers (s : Mangle) (q : List Char) : Mangle := { s with qualifiers := q }

/-- The assignment `mangle->parameter_base[i] = mark` for an index inside the array. -/
def Mangle.setParamBase (s : Mangle) (i : Nat) (mark : Nat) : Mangle :=
  { s with parameter_base := s.parameter_base.set i (some mark) }

/-- A new entry at the end of the substitution table. -/
def Mangle.pushSubst (s : Mangle) (text : List Char) : Mangle :=
  { s with substitions := s.substitions ++ [text] }

/-- A new entry at the end of the template-parameter table. -/
def Mangle.pushTpl (s : Mangle) (text : List Char) : Mangle :=
  { s with tpl_subst := s.tpl_subst ++ [text] }

/-- The end of `_template_args`: the first `k` template parameters are freed and the
others move down. -/
def Mangle.dropTpl (s : Mangle) (k : Nat) : Mangle := { s with tpl_subst := s.tpl_subst.drop k }

/-! ## Cursor primitives -/

/-- The character `mangle->mpos[k]`.  The terminating NUL can be read; a read behind it
is undefined. -/
def look (k : Nat) : M Char := fun s =>
  if s.mpos + k < s.mangled.length then Res.ok (s.mangled.getD (s.mpos + k) NUL, s)
  else if s.mpos + k = s.mangled.length then Res.ok (NUL, s)
  else Res.error Fault.undefined

/-- The C string at `mangle->mpos`. -/
def rest : M (List Char) := fun s =>
  if s.mpos ≤ s.mangled.length then Res.ok (s.mangled.drop s.mpos, s)
  else Res.error Fault.undefined

/-- The statement `mangle->mpos += k`. -/
def advance (k : Nat) : M Unit := modifyS (fun s => s.setMpos (s.mpos + k))

/-- The statement `mangle->valid = 0`. -/
def invalidate : M Unit := modifyS Mangle.invalidate

/-- The statement `mangle->mpos = p` for a saved cursor position. -/
def set_mpos (p : Nat) : M Unit := modifyS (fun s => s.setMpos p)

/-- Source `peek`: match, but do not change the current position. -/
def peek (keyword : String) : M Bool := do
  let s ← getS
  if s.valid then do
    let r ← rest
    pure (keyword.toList.isPrefixOf r)
  else pure false

/-- Source `match`: advance the current position on a match. -/
def match_ (keyword : String) : M Bool := do
  let result ← peek keyword
  if result then do
    advance keyword.length
    pure true
  else pure false

/-- Source `expect`: advance on a match, flag as invalid on a mismatch. -/
def expect (keyword : String) : M Bool := do
  let s ← getS
  if s.valid then do
    let r ← match_ keyword
    if r then pure true
    else do
      invalidate
      pure false
  else pure false

/-- Source `on_sentinel`: arrived at the end of the mangled symbol. -/
def on_sentinel : M Bool := do
  let s ← getS
  if s.valid then do
    let c ← look 0
    if c == NUL || c == '.' then pure true
    else if c == '@' then do
      let d ← look 1
      pure (d == '@')
    else pure false
  else pure true

/-! ## Scanning the output text -/

/-- The character `plain[i]`; the terminating NUL at the end of the text. -/
def pchar (txt : List Char) (i : Nat) : Char := txt.getD i NUL

/-- The partner of a bracket and the direction of the search (`true` is forward). -/
def bracket (c : Char) : Option (Char × Bool) :=
  if c == '(' then some (')', true)
  else if c == ')' then some ('(', false)
  else if c == '[' then some (']', true)
  else if c == ']' then some ('[', false)
  else if c == '<' then some ('>', true)
  else if c == '>' then some ('<', false)
  else none

/-- The `while` loops of `find_matching`: `iter` steps towards `stop` until it stands on
`m` with no nesting open.  The first argument bounds the number of steps. -/
def find_matching_scan (txt : List Char) (c m : Char) (fwd : Bool) (stop : Nat) :
    Nat → Nat → Int → Nat
  | 0, iter, _ => iter
  | n + 1, iter, nest =>
    if iter != stop && (pchar txt iter != m || nest > 0) then
      let iter1 := if fwd then iter + 1 else iter - 1
      let nest1 :=
        if pchar txt iter1 == c then nest + 1
        else if pchar txt iter1 == m then nest - 1
        else nest
      find_matching_scan txt c m fwd stop n iter1 nest1
    else iter

/-- Source `find_matching` on the text `txt`, with `head` and `tail` as offsets. -/
def find_matching (txt : List Char) (head tail : Nat) (c : Char) : M (Option Nat) := do
  cassert (head ≤ tail)
  match bracket c with
  | none => fault Fault.assertion
  | some (m, fwd) =>
    let iter := find_matching_scan txt c m fwd (if fwd then tail else head)
      (tail - head + 1) (if fwd then head else tail) 0
    pure (if pchar txt iter == m then some iter else none)

/-- The loop `while (*p == ']')` of `check_func_array`. -/
def check_array_loop (txt : List Char) (base : Nat) : Nat → Nat → M Nat
  | 0, _ => fault Fault.fuel
  | n + 1, p =>
    if pchar txt p == ']' then do
      let r ← find_matching txt 0 p ']'
      match r with
      | none => fault Fault.assertion
      | some q => do
        cassert (pchar txt q == '[')
        check_array_loop txt base n (if q > base && pchar txt (q - 1) == ']' then q - 1 else q)
    else pure p

/-- Source `check_func_array`; `base` is an offset that is not behind the text. -/
def check_func_array (base : Nat) : M (Option Nat) := do
  let s ← getS
  let txt := s.plain
  if !s.valid || txt.length - base = 0 then pure none
  else do
    let p0 := txt.length - 1
    let p1 ← (if pchar txt base == '(' then do
        let r ← find_matching txt base p0 '('
        match r with
        | none => fault Fault.assertion
        | some q => pure (q - 1)
      else pure p0)
    let p2 := if p1 ≥ 5 && txt.drop (p1 - 4) == "const".toList then p1 - 5 else p1
    let p3 := if p2 > 0 && pchar txt p2 == ' ' then p2 - 1 else p2
    let p4 ← (if pchar txt p3 == ')' then do
        let r ← find_matching txt 0 p3 ')'
        match r with
        | none => fault Fault.assertion
        | some q => do
          cassert (pchar txt q == '(')
          pure q
      else if pchar txt p3 == ']' then check_array_loop txt base (p3 + 1) p3
      else pure p3)
    pure (if p4 ≥ base && (pchar txt p4 == '(' || pchar txt p4 == '[') then some p4 else none)

/-- The loop `while (*(tail + 1) == '*') tail++`. -/
def skip_stars (txt : List Char) (tail : Nat) : Nat :=
  tail + ((txt.drop (tail + 1)).takeWhile (fun c => c == '*')).length

/-- The inner loop of `insertion_point`: move `head` to the next `(` that is not behind a
`<`, or to the end of the text. -/
def skip_to_paren (txt : List Char) : Nat → Nat → Nat
  | 0, head => head
  | n + 1, head =>
    if pchar txt head != NUL then
      if pchar txt head == '(' then head
      else
        let head1 :=
          if pchar txt head == '<' then
            head + ((txt.drop head).takeWhile (fun c => c != '>')).length
          else head
        let head2 := if pchar txt head1 != NUL then head1 + 1 else head1
        skip_to_paren txt n head2
    else head

/-- The loop `for ( ;; )` of `insertion_point`: the result is `mark` and `post_mark`. -/
def insertion_loop (txt : List Char) : Nat → Nat → Nat → Nat → Nat × Nat
  | 0, mark, post_mark, _ => (mark, post_mark)
  | n + 1, mark, post_mark, adv =>
    let head := skip_to_paren txt (txt.length + 2) (mark + adv)
    if pchar txt head != '(' then (mark, post_mark)
    else
      let tail0 := head + 1
      let tail :=
        if pchar txt tail0 == '*' then skip_stars txt tail0
        else if isalpha (pchar txt tail0) || pchar txt tail0 == '_' then
          let t1 := tail0 + ((txt.drop tail0).takeWhile (fun c => c != ')' && c != ':')).length
          if pchar txt t1 == ':' && pchar txt (t1 + 1) == ':' && pchar txt (t1 + 2) == '*' then
            skip_stars txt (t1 + 2)
          else t1
        else tail0
      if pchar txt tail != '*' then (mark, post_mark)
      else insertion_loop txt n head tail 1

/-- Source `insertion_point`.  When `base` lies behind the terminating NUL (a stale entry
of `parameter_base`), the source scans text left over from earlier writes and returns a
pointer that is not in front of `base`; that pointer is only handed to `insert`, which
rejects it by its assertion when `valid` holds and ignores it otherwise.  The embedding
returns `base` itself in that case. -/
def insertion_point (base : Nat) : M Nat := do
  let s ← getS
  if base > s.plain.length then pure base
  else do
    let mp := insertion_loop s.plain (s.plain.length + 2) base base 0
    let r ← check_func_array mp.1
    match r with
    | some p => pure p
    | none =>
      if pchar s.plain mp.1 == '(' && pchar s.plain mp.2 == '*' then pure (mp.2 + 1)
      else pure (if mp.1 = base then s.plain.length else mp.1)

/-! ## Output assembler and tables -/

/-- Source `append`: append text at the end of the result string. -/
def append (text : List Char) : M Unit := modifyS (fun s => s.append text)

/-- Source `append_space`: add a space unless the last character is a separator. -/
def append_space : M Unit := do
  let s ← getS
  if s.plain.length > 0 then
    if " ([<,:".toList.contains (pchar s.plain (s.plain.length - 1)) then pure ()
    else append " ".toList
  else pure ()

/-- Source `insert`: insert `text` at the offset `mark`. -/
def insert (mark : Nat) (text : List Char) : M Unit := do
  let s ← getS
  if s.valid then do
    cassert (mark ≤ s.plain.length)
    if mark = s.plain.length then append text
    else do
      cassert (0 < text.length)
      modifyS (fun s => s.splice mark text)
  else pure ()

/-- Source `current_position`: the offset of the end of the text. -/
def current_position : M Nat := do
  let s ← getS
  pure s.plain.length

/-- The C string at the offset `mark` of `plain`. -/
def text_at (mark : Nat) : M (List Char) := do
  let s ← getS
  pure (s.plain.drop mark)

/-- The assignment `*mark = 0`. -/
def truncate (mark : Nat) : M Unit := modifyS (fun s => s.truncate mark)

/-- Source `add_substitution`; `malloc` is taken to succeed. -/
def add_substitution (text : List Char) (tpl : Bool) : M Unit := do
  let s ← getS
  if s.valid then
    if tpl then do
      cassert (s.tpl_subst.length < MAX_TEMPLATE_SUBST)
      if s.substitions.length < MAX_TEMPLATE_SUBST then modifyS (fun s => s.pushTpl text)
      else pure ()
    else do
      cassert (s.substitions.length < MAX_SUBSTITUTIONS)
      if s.substitions.length < MAX_SUBSTITUTIONS then modifyS (fun s => s.pushSubst text)
      else pure ()
  else pure ()

/-- The call `add_substitution(mangle, mark, tpl)` for a pointer `mark` into `plain`. -/
def add_substitution_at (mark : Nat) (tpl : Bool) : M Unit := do
  let text ← text_at mark
  add_substitution text tpl

/-- Source `free_tpl_subst`: only its assertion is observable. -/
def free_tpl_subst (top : Nat) : M Unit := do
  let s ← getS
  cassert (top ≤ s.tpl_subst.length)

/-- The end of `_template_args` for `tpl_base > 0`: the parameters in front of `tpl_base`
are freed, the others move down and `tpl_subst_count` decreases by `tpl_base`. -/
def shift_tpl_subst (tpl_base : Nat) : M Unit := do
  free_tpl_subst tpl_base
  modifyS (fun t => t.dropTpl tpl_base)

/-- The statement `mangle->is_typecast_op = 1`. -/
def set_typecast : M Unit := modifyS Mangle.setTypecast

/-- The statement `strcpy(mangle->qualifiers, qualifiers)`. -/
def set_qualifiers (q : List Char) : M Unit := modifyS (fun s => s.setQualifiers q)

/-! ## Productions that do not recurse -/

/-- The statement `mangle->nest += d` on a `short`. -/
def add_nest (d : Int) : M Unit := modifyS (fun s => s.setNest (toShort (s.nest + d)))

/-- The statement `mangle->func_nest += d` on a `short`. -/
def add_func_nest (d : Int) : M Unit :=
  modifyS (fun s => s.setFuncNest (toShort (s.func_nest + d)))

/-- The read `mangle->parameter_base[mangle->func_nest]`. -/
def get_parameter_base : M (Option Nat) := do
  let s ← getS
  if 0 ≤ s.func_nest && s.func_nest < (MAX_FUNC_NESTING : Int) then
    pure (s.parameter_base.getD s.func_nest.toNat none)
  else fault Fault.undefined

/-- The assignment `mangle->parameter_base[mangle->func_nest] = mark`. -/
def set_parameter_base (mark : Nat) : M Unit := do
  let s ← getS
  if 0 ≤ s.func_nest && s.func_nest < (MAX_FUNC_NESTING : Int) then
    modifyS (fun s => s.setParamBase s.func_nest.toNat mark)
  else fault Fault.undefined

/-- Source `_qualifier_pre`: the codes are returned as the list `qualifiers`. -/
def _qualifier_pre (size : Nat) (include_ref : Bool) : M (List Char) := do
  let l ← rest
  let q1 := (l.takeWhile (fun c => c == 'r' || c == 'V' || c == 'K')).take (size - 1)
  let q2 :=
    if include_ref then
      ((l.drop q1.length).takeWhile (fun c => c == 'R' || c == 'O')).take (size - 1 - q1.length)
    else []
  advance (q1.length + q2.length)
  pure (q1 ++ q2)

/-- Source `_qualifier_post`. -/
def _qualifier_post : List Char → M Unit
  | [] => pure ()
  | c :: q => do
    if c != 'R' && c != 'O' then append_space else pure ()
    if c == 'r' then append "restrict".toList
    else if c == 'V' then append "volatile".toList
    else if c == 'K' then append "const".toList
    else if c == 'R' then append "&".toList
    else if c == 'O' then append "&&".toList
    else pure ()
    _qualifier_post q

/-- Source `_discriminator`. -/
def _discriminator : M Unit := do
  let m ← match_ "_"
  if m then do
    let m2 ← match_ "_"
    if m2 then do
      let l ← rest
      advance (digitRun l).length
      let _ ← expect "_"
      pure ()
    else advance 1
  else pure ()

/-- Source `_source_name`. -/
def _source_name : M Unit := do
  let s ← getS
  if s.valid then do
    let c ← look 0
    if isdigit c then do
      let l ← rest
      let count := toInt32 (strtol l).1
      advance (strtol l).2
      let l2 ← rest
      if toInt32 (l2.length : Int) < count then invalidate
      else if count < 0 || count = INT_MAX then fault Fault.undefined
      else do
        append (l2.take count.toNat)
        advance count.toNat
    else invalidate
  else pure ()

/-- Source `_decltype`. -/
def _decltype : M Unit := do
  let m ← match_ "Dt"
  if m then pure () else do
    let _ ← expect "DT"
    pure ()
  let s ← getS
  if s.valid then do
    let _ ← expect "E"
    pure ()
  else pure ()

/-- Index of the first record of a table whose code satisfies `p`. -/
def table_index (p : String → Bool) : List (String × String) → Nat → Option Nat
  | [], _ => none
  | e :: tab, i => if p e.1 then some i else table_index p tab (i + 1)

/-- Source `is_abbreviation`: the index of the record, `none` for -1. -/
def is_abbreviation : M (Option Nat) := do
  let l ← rest
  if l.length < 2 then pure none
  else pure (table_index (fun a => a.toList == l.take 2) abbreviations 0)

/-- Source `is_operator`: the index of the record, `none` for -1. -/
def is_operator : M (Option Nat) := do
  let l ← rest
  if l.length < 2 then pure none
  else pure (table_index (fun a => a.toList == l.take 2) operators 0)

/-- Source `is_builtin_type`: the index of the record, `none` for -1. -/
def is_builtin_type : M (Option Nat) := do
  let l ← rest
  if l.length < 1 then pure none
  else pure (table_index (fun a => a.length ≤ l.length && a.toList.isPrefixOf l) types 0)

/-- The loop of `_substitution` that reads the base-36 number; `none` is the early return
after `valid = 0`. -/
def subst_seq_loop : Nat → Nat → M (Option Nat)
  | 0, _ => fault Fault.fuel
  | n + 1, index => do
    let c ← look 0
    if c != '_' then do
      let e ← on_sentinel
      if e then pure (some index)
      else if isdigit c then do
        advance 1
        subst_seq_loop n ((index * 36 + (c.toNat - 48)) % SIZE_MOD)
      else if isupper c then do
        advance 1
        subst_seq_loop n ((index * 36 + (c.toNat - 65 + 10)) % SIZE_MOD)
      else do
        invalidate
        pure none
    else pure (some index)

/-- Source `_substitution`. -/
def _substitution : M Unit := do
  let e ← expect "S"
  if e then do
    let c ← look 0
    let l ← rest
    let r ← (if c != '_' then do
        let r ← subst_seq_loop (l.length + 1) 0
        pure (r.map (fun i => (i + 1) % SIZE_MOD))
      else pure (some 0))
    match r with
    | none => pure ()
    | some index => do
      let _ ← expect "_"
      let s ← getS
      if index ≥ s.substitions.length then invalidate
      else append (s.substitions.getD index [])
  else pure ()

/-- Source `_template_param`. -/
def _template_param : M Unit := do
  let e ← expect "T"
  if e then do
    let c ← look 0
    let l ← rest
    let index ← (if c != '_' then do
        advance (strtol l).2
        if toInt32 (strtol l).1 = INT_MAX then fault Fault.undefined
        else pure (toSize (toInt32 (strtol l).1 + 1))
      else pure 0)
    let _ ← expect "_"
    let s ← getS
    if index ≥ s.tpl_subst.length then invalidate
    else do
      append (s.tpl_subst.getD index [])
      add_substitution (s.tpl_subst.getD index []) false
  else pure ()

/-- Source `_unnamed_type_name`. -/
def _unnamed_type_name : M Unit := do
  let e ← expect "Ut"
  if e then do
    let l ← rest
    advance (digitRun l).length
    let _ ← expect "_"
    append "{unnamed type}".toList
  else pure ()

/-- Source `_ctor_dtor_name`. -/
def _ctor_dtor_name : M Unit := do
  let s ← getS
  if s.valid then do
    let len := s.plain.length
    let tail :=
      if len > 2 && pchar s.plain (len - 1) == ':' && pchar s.plain (len - 2) == ':' then len - 2
      else len
    let head := tail - (((s.plain.take tail).reverse.takeWhile
      (fun c => isalpha c || isdigit c || c == '_')).length)
    if head = tail then invalidate
    else do
      let cname := (s.plain.take tail).drop head
      if pchar s.plain tail != ':' then append "::".toList else pure ()
      let c ← look 0
      cassert (c == 'C' || c == 'D')
      if c == 'D' then append "~".toList else pure ()
      append cname
      advance 1
      let c2 ← look 0
      if c2 == 'I' then advance 1 else pure ()
      let c3 ← look 0
      cassert (isdigit c3)
      advance 1
  else pure ()

/-- The loop of `get_number`.  The arguments are the step bound, the counter `i`, the
buffer `field` (its text in front of the first NUL), the input at the cursor and the number
of characters consumed.  A character is consumed only while `i < size - 1`; from then on
the source only counts `i` up, on the same character, until the `size_t` counter wraps to
zero, which is taken here as one step. -/
def get_number_loop (size : Nat) (hex : Bool) :
    Nat → Nat → List Char → List Char → Nat → Nat × List Char × Nat
  | 0, i, field, _, k => (i, field, k)
  | _ + 1, i, field, [], k => (i, field, k)
  | n + 1, i, field, c :: l, k =>
    if isdigit c || (hex && isxdigit c) then
      if i < size - 1 then
        get_number_loop size hex n (i + 1)
          (if i < field.length then field.set i c else field ++ [c]) l (k + 1)
      else get_number_loop size hex n 0 field (c :: l) k
    else (i, field, k)

/-- Source `get_number`: the result is the text of `field`. -/
def get_number (size : Nat) (hex : Bool) : M (List Char) := do
  let l ← rest
  let r := get_number_loop size hex (2 * l.length + 2) 0 [] l 0
  advance r.2.2
  pure r.2.1

/-- Repetition of `append(mangle, "?")`. -/
def append_marks : Nat → M Unit
  | 0 => pure ()
  | n + 1 => do
    append "?".toList
    append_marks n

/-- Source `_expr_primary`. -/
def _expr_primary : M Unit := do
  let e ← expect "L"
  if e then do
    let t ← look 0
    if t == 's' || t == 'i' || t == 'l' || t == 'x' then do
      advance 1
      let c ← look 0
      if c == 'n' then do
        append "-".toList
        advance 1
      else pure ()
      let field ← get_number 64 false
      append field
      let _ ← expect "E"
      pure ()
    else if t == 't' || t == 'j' || t == 'm' || t == 'y' then do
      advance 1
      let field ← get_number 64 false
      append field
      let _ ← expect "E"
      pure ()
    else if t == 'f' || t == 'd' || t == 'e' then do
      advance 1
      let field ← get_number 64 true
      if t == 'f' then append "(float)\x7b".toList
      else if t == 'd' then append "(double)\x7b".toList
      else append "(long double)\x7b".toList
      append field
      append "\x7d".toList
      let _ ← expect "E"
      pure ()
    else if t == 'c' || t == 'a' || t == 'h' then do
      advance 1
      let field ← get_number 64 false
      if t == 'c' then append "(char)".toList
      else if t == 'a' then append "(signed char)".toList
      else append "(unsigned char)".toList
      append field
      let _ ← expect "E"
      pure ()
    else if t == 'A' then do
      advance 1
      let l ← rest
      advance (strtol l).2
      let _ ← expect "_"
      let kc ← match_ "Kc"
      if kc then append "\"".toList
      else do
        let kw ← match_ "Kw"
        if kw then append "L\"".toList else pure ()
      append_marks (strtol l).1.toNat
      append "\"".toList
      let _ ← expect "E"
      pure ()
    else do
      let dn ← match_ "Dn"
      if dn then do
        append "nullptr".toList
        let _ ← expect "E"
        pure ()
      else invalidate
  else pure ()

/-- The test `peek(mangle, "S") && (isdigit(mpos[1]) || isupper(mpos[1]) || mpos[1] == '_')`. -/
def peek_substitution : M Bool := do
  let p ← peek "S"
  if p then do
    let c ← look 1
    pure (isdigit c || isupper c || c == '_')
  else pure false

/-- The test `peek(mangle, "T") && (isdigit(mpos[1]) || mpos[1] == '_')`. -/
def peek_template_param : M Bool := do
  let p ← peek "T"
  if p then do
    let c ← look 1
    pure (isdigit c || c == '_')
  else pure false

/-- The test for the codes `C1 C2 C3 CI1 CI2 D0 D1 D2`. -/
def peek_ctor_dtor : M Bool := do
  let s ← getS
  if s.valid then do
    let l ← rest
    pure (["C1", "C2", "C3", "CI1", "CI2", "D0", "D1", "D2"].any
      (fun k => k.toList.isPrefixOf l))
  else pure false

/-- The loop `while (isdigit(*mangle->mpos)) _source_name(mangle)` of the `DC` names. -/
def source_names : Nat → M Unit
  | 0 => fault Fault.fuel
  | n + 1 => do
    let c ← look 0
    if isdigit c then do
      _source_name
      source_names n
    else pure ()

/-- The `DC` branch of `_name` and `_unqualified_name`, after the match of `DC`. -/
def structured_binding : M Unit := do
  let s ← getS
  source_names (s.mangled.length + 2)
  let _ ← expect "E"
  pure ()

/-- The second loop of `_extended_qualifier`, over the saved cursor positions from the
last to the first. -/
def extq_emit (base : Nat) : List Nat → M Unit
  | [] => pure ()
  | p :: ps => do
    set_mpos p
    append_space
    _source_name
    add_substitution_at base false
    extq_emit base ps

/-- The loop `while (*mangle->mpos != '_')` of `_array`. -/
def array_scan : Nat → M Unit
  | 0 => fault Fault.fuel
  | n + 1 => do
    let c ← look 0
    if c != '_' then do
      let e ← on_sentinel
      if e then invalidate else pure ()
      advance 1
      array_scan n
    else pure ()

/-- The first loop of `_array`: the cursor positions of the dimensions are collected. -/
def array_dims : Nat → List Nat → M (List Nat)
  | 0, _ => fault Fault.fuel
  | n + 1, stack => do
    let s ← getS
    array_scan (s.mangled.length - s.mpos + 2)
    let _ ← expect "_"
    if (stack ++ [s.mpos]).length < MAX_ARRAYDIM then do
      let m ← match_ "A"
      if m then array_dims n (stack ++ [s.mpos]) else pure (stack ++ [s.mpos])
    else pure (stack ++ [s.mpos])

/-- The second loop of `_array`, over the saved cursor positions from the last to the
first. -/
def array_emit (mark insert_pos : Nat) : List Nat → M Unit
  | [] => pure ()
  | p :: ps => do
    set_mpos p
    let c ← look 0
    let l ← rest
    let field :=
      if isdigit c then "[".toList ++ Nat.toDigits 10 (strtoul l) ++ "]".toList
      else "[]".toList
    insert insert_pos field
    add_substitution_at mark false
    array_emit mark insert_pos ps

/-! ## The recursive productions

Every function of the mutual recursion takes the step budget as its first argument and
hands the budget less one to the productions it calls; a loop of the source whose body
calls a production is a function of its own. -/

mutual

/-- The first loop (`do ... while`) of `_extended_qualifier`. -/
def extq_loop : Nat → List Nat → M (List Nat)
  | 0, _ => fault Fault.fuel
  | fuel + 1, stack => do
    let s ← getS
    _source_name
    _template_args fuel
    if (stack ++ [s.mpos]).length < MAX_EXTQ then do
      let t ← getS
      if t.valid then do
        let m ← match_ "U"
        if m then extq_loop fuel (stack ++ [s.mpos]) else pure (stack ++ [s.mpos])
      else pure (stack ++ [s.mpos])
    else pure (stack ++ [s.mpos])
termination_by structural n _ => n

/-- Source `_extended_qualifier`. -/
def _extended_qualifier : Nat → M Unit
  | 0 => fault Fault.fuel
  | fuel + 1 => do
    let m ← match_ "U"
    if m then do
      let base ← current_position
      let stack ← extq_loop fuel []
      truncate base
      _type fuel
      let s ← getS
      extq_emit base stack.reverse
      set_mpos s.mpos
    else pure ()
termination_by structural n => n

/-- The loop of `_template_args`. -/
def template_args_loop : Nat → Nat → M Unit
  | 0, _ => fault Fault.fuel
  | fuel + 1, count => do
    let s ← getS
    if s.valid then do
      let e ← match_ "E"
      if e then pure ()
      else do
        if count > 0 then append ",".toList else pure ()
        let mark ← current_position
        _type fuel
        add_substitution_at mark true
        template_args_loop fuel (count + 1)
    else pure ()
termination_by structural n _ => n

/-- Source `_template_args`. -/
def _template_args : Nat → M Unit
  | 0 => fault Fault.fuel
  | fuel + 1 => do
    let m ← match_ "I"
    if m then do
      let s ← getS
      append "<".toList
      template_args_loop fuel 0
      append ">".toList
      if s.tpl_subst.length > 0 then shift_tpl_subst s.tpl_subst.length
      else pure ()
    else pure ()
termination_by structural n => n

/-- Source `_unqualified_name`. -/
def _unqualified_name : Nat → M Unit
  | 0 => fault Fault.fuel
  | fuel + 1 => do
    let s ← getS
    if s.valid then do
      let dc ← match_ "DC"
      if dc then structured_binding
      else do
        let ut ← peek "Ut"
        if ut then _unnamed_type_name
        else do
          let c ← look 0
          if isdigit c then _source_name
          else do
            let l ← match_ "L"
            if l then do
              _source_name
              _discriminator
            else do
              let cd ← peek_ctor_dtor
              if cd then _ctor_dtor_name
              else do
                let op ← is_operator
                if op.isSome then _operator fuel
                else invalidate
    else pure ()
termination_by structural n => n

/-- The loop of `_function_type`. -/
def function_type_loop : Nat → Nat → M Unit
  | 0, _ => fault Fault.fuel
  | fuel + 1, count => do
    let s ← getS
    let e ← peek "E"
    if s.valid && !e then do
      let mark ← current_position
      set_parameter_base mark
      if count > 0 then append ",".toList else pure ()
      _type fuel
      let txt ← text_at mark
      if count = 0 && txt == "void".toList then do
        let e2 ← peek "E"
        if e2 then truncate mark else pure ()
      else pure ()
      function_type_loop fuel (count + 1)
    else pure ()
termination_by structural n _ => n

/-- Source `_function_type`. -/
def _function_type : Nat → M Unit
  | 0 => fault Fault.fuel
  | fuel + 1 => do
    let e ← expect "F"
    if e then do
      _type fuel
      let plist ← current_position
      add_func_nest 1
      let s ← getS
      cassert (s.func_nest < (MAX_FUNC_NESTING : Int))
      append "(".toList
      function_type_loop fuel 0
      append ")".toList
      let _ ← expect "E"
      add_func_nest (-1)
      let pb ← get_parameter_base
      match pb with
      | some b => do
        let buffer ← text_at plist
        truncate plist
        let pos ← insertion_point b
        insert pos buffer
      | none => pure ()
    else pure ()
termination_by structural n => n

/-- Source `_pointer_to_member_type`. -/
def _pointer_to_member_type : Nat → M Unit
  | 0 => fault Fault.fuel
  | fuel + 1 => do
    let e ← expect "M"
    if e then do
      let mark ← current_position
      _type fuel
      let txt ← text_at mark
      truncate mark
      _type fuel
      let p ← insertion_point mark
      let s ← getS
      if pchar s.plain p == '(' then do
        insert p " ()".toList
        insert (p + 2) (txt ++ "::*".toList)
      else do
        insert p " ".toList
        insert (p + 1) (txt ++ "::*".toList)
      add_substitution_at mark false
    else pure ()
termination_by structural n => n

/-- Source `_array`. -/
def _array : Nat → M Unit
  | 0 => fault Fault.fuel
  | fuel + 1 => do
    let e ← expect "A"
    if e then do
      let stack ← array_dims MAX_ARRAYDIM []
      let mark ← current_position
      _type fuel
      let s ← getS
      if s.valid then do
        array_emit mark s.plain.length stack.reverse
        set_mpos s.mpos
      else pure ()
    else pure ()
termination_by structural n => n

/-- Source `_local_name`. -/
def _local_name : Nat → M Unit
  | 0 => fault Fault.fuel
  | fuel + 1 => do
    let e ← expect "Z"
    if e then do
      add_func_nest 1
      _function_encoding fuel
      add_func_nest (-1)
      append "::".toList
      let _ ← expect "E"
      let m ← match_ "s"
      if m then append "{string-literal}".toList else _name fuel
      _discriminator
    else pure ()
termination_by structural n => n

/-- Source `_operator`. -/
def _operator : Nat → M Unit
  | 0 => fault Fault.fuel
  | fuel + 1 => do
    let s ← getS
    if s.valid then do
      let l ← rest
      if l.length < 2 then invalidate
      else do
        let op ← is_operator
        match op with
        | none => invalidate
        | some i => do
          advance 2
          append_space
          append "operator".toList
          if i = 0 then do
            append " ".toList
            _type fuel
            set_typecast
          else do
            if isalpha (pchar (entry operators i).2.toList 0) then append " ".toList
            else pure ()
            append (entry operators i).2.toList
    else pure ()
termination_by structural n => n

/-- The loop (`do ... while`) of `_nested_name`.  The `continue` of the closure branch
goes to the test `mangle->valid && !sentinel`, which holds there, so the body runs again
from the same state. -/
def nested_name_loop : Nat → Nat → M Unit
  | 0, _ => fault Fault.fuel
  | fuel + 1, mark => do
    let m ← peek "M"
    if m then nested_name_loop fuel mark
    else do
      let i ← peek "I"
      if i then _template_args fuel
      else do
        append "::".toList
        _unqualified_name fuel
      let sentinel ← match_ "E"
      let s ← getS
      if !sentinel || s.nest > 1 then add_substitution_at mark false else pure ()
      let t ← getS
      if t.valid && !sentinel then nested_name_loop fuel mark else pure ()
termination_by structural n _ => n

/-- Source `_nested_name`. -/
def _nested_name : Nat → M Unit
  | 0 => fault Fault.fuel
  | fuel + 1 => do
    let e ← expect "N"
    if e then do
      add_nest 1
      let qualifiers ← _qualifier_pre 8 true
      let mark ← current_position
      let dt ← peek "Dt"
      let dT ← peek "DT"
      if dt || dT then do
        _decltype
        add_substitution_at mark false
      else do
        let ab ← is_abbreviation
        match ab with
        | some i => do
          advance 2
          append (entry abbreviations i).2.toList
        | none => do
          let su ← peek_substitution
          if su then _substitution
          else do
            let tp ← peek_template_param
            if tp then _template_param
            else do
              _unqualified_name fuel
              add_substitution_at mark false
      let e2 ← match_ "E"
      if e2 then invalidate
      else do
        nested_name_loop fuel mark
        let s ← getS
        if s.nest > 1 then _qualifier_post qualifiers
        else set_qualifiers qualifiers
        add_nest (-1)
    else pure ()
termination_by structural n => n

/-- Source `_name`. -/
def _name : Nat → M Unit
  | 0 => fault Fault.fuel
  | fuel + 1 => do
    let mark ← current_position
    let s ← getS
    let is_unscoped ← (if s.valid then do
        let n ← peek "N"
        if n then do
          _nested_name fuel
          pure false
        else do
          let z ← peek "Z"
          if z then do
            _local_name fuel
            pure false
          else do
            let ab ← is_abbreviation
            if ab = some 0 then do
              advance 2
              append (entry abbreviations 0).2.toList
              append "::".toList
              _unqualified_name fuel
              pure true
            else do
              let su ← peek_substitution
              if su then do
                _substitution
                pure true
              else do
                let op ← is_operator
                if op.isSome then do
                  _operator fuel
                  pure true
                else do
                  let cd ← peek_ctor_dtor
                  if cd then do
                    _ctor_dtor_name
                    pure true
                  else do
                    let c ← look 0
                    if isdigit c then do
                      _source_name
                      pure true
                    else do
                      let l ← match_ "L"
                      if l then do
                        _source_name
                        _discriminator
                        pure true
                      else do
                        let dc ← match_ "DC"
                        if dc then do
                          structured_binding
                          pure true
                        else do
                          let ut ← peek "Ut"
                          if ut then do
                            _unnamed_type_name
                            pure true
                          else do
                            invalidate
                            pure true
      else pure true)
    if is_unscoped then do
      let i ← peek "I"
      if i then do
        add_substitution_at mark false
        _template_args fuel
      else pure ()
    else pure ()
termination_by structural n => n

/-- Source `_type`. -/
def _type : Nat → M Unit
  | 0 => fault Fault.fuel
  | fuel + 1 => do
    let s ← getS
    if s.valid then do
      let mark ← current_position
      let bt ← is_builtin_type
      match bt with
      | some i => do
        advance (entry types i).1.length
        append (entry types i).2.toList
      | none => do
        let pr ← peek "r"
        let pV ← peek "V"
        let pK ← peek "K"
        if pr || pV || pK then do
          let qualifiers ← _qualifier_pre 8 false
          _type fuel
          _qualifier_post qualifiers
          add_substitution_at mark false
        else if (← peek "U") then _extended_qualifier fuel
        else if (← peek "F") then do
          _function_type fuel
          add_substitution_at mark false
        else if (← peek "A") then _array fuel
        else if (← match_ "P") then do
          _type fuel
          let p ← insertion_point mark
          let t ← getS
          if pchar t.plain p == '(' || pchar t.plain p == '[' then insert p "(*)".toList
          else insert p "*".toList
          add_substitution_at mark false
        else if (← match_ "R") then do
          _type fuel
          let p ← insertion_point mark
          let t ← getS
          if pchar t.plain p == '(' || pchar t.plain p == '[' then insert p "(&)".toList
          else insert p "&".toList
          add_substitution_at mark false
        else if (← match_ "O") then do
          _type fuel
          append "&&".toList
          add_substitution_at mark false
        else do
          let ab ← is_abbreviation
          match ab with
          | some i => do
            advance 2
            append (entry abbreviations i).2.toList
            if i = 0 then do
              append "::".toList
              _unqualified_name fuel
              add_substitution_at mark false
            else pure ()
            let pi ← peek "I"
            if pi then do
              _template_args fuel
              add_substitution_at mark false
            else pure ()
          | none => do
            if (← peek_substitution) then do
              _substitution
              _template_args fuel
            else if (← peek_template_param) then do
              _template_param
              _template_args fuel
            else if (← peek "N") then _nested_name fuel
            else if (← peek "Z") then _local_name fuel
            else if (← peek "M") then _pointer_to_member_type fuel
            else if (← peek "L") then _expr_primary
            else do
              let c ← look 0
              if isdigit c then do
                _source_name
                add_substitution_at mark false
                _template_args fuel
              else if c == 'u' then do
                let d ← look 1
                if isdigit d then do
                  advance 1
                  _source_name
                  add_substitution_at mark false
                  _template_args fuel
                else invalidate
              else invalidate
    else pure ()
termination_by structural n => n

/-- The parameter loop of `_function_encoding`. -/
def function_encoding_loop : Nat → Nat → M Unit
  | 0, _ => fault Fault.fuel
  | fuel + 1, count => do
    let os ← on_sentinel
    if os then pure ()
    else do
      let s ← getS
      let e ← (if s.func_nest > 0 then peek "E" else pure false)
      if e then pure ()
      else do
        let mark ← current_position
        set_parameter_base mark
        if count > 0 then append ",".toList else pure ()
        _type fuel
        let txt ← text_at mark
        if count = 0 && txt == "void".toList then do
          let os2 ← on_sentinel
          let t ← getS
          let e2 ← (if os2 then pure true
            else if t.func_nest > 0 then peek "E" else pure false)
          if e2 then truncate mark else pure ()
        else pure ()
        function_encoding_loop fuel (count + 1)
termination_by structural n _ => n

/-- Source `_function_encoding`. -/
def _function_encoding : Nat → M Unit
  | 0 => fault Fault.fuel
  | fuel + 1 => do
    _name fuel
    let os ← on_sentinel
    let s ← getS
    let done ← (if os then pure true
      else if s.nest > 0 then match_ "E" else pure false)
    if done then do
      let t ← getS
      if t.func_nest > 0 then invalidate else pure ()
    else do
      let t ← getS
      if t.plain.length = 0 then invalidate
      else do
        add_nest 1
        let ret ← (if pchar t.plain (t.plain.length - 1) == '>' && !t.is_typecast_op then do
            let mark ← current_position
            _type fuel
            let type_string ← text_at mark
            let ipos ← insertion_point mark
            truncate mark
            pure (some (type_string, ipos - mark))
          else pure none)
        append "(".toList
        function_encoding_loop fuel 0
        add_nest (-1)
        append ")".toList
        let u ← getS
        if u.nest = 0 then _qualifier_post u.qualifiers else pure ()
        match ret with
        | some (type_string, type_ins_point) => do
          cassert (type_ins_point ≤ type_string.length)
          if type_ins_point = type_string.length then insert 0 (type_string ++ " ".toList)
          else do
            append (type_string.drop type_ins_point)
            insert 0 (type_string.take type_ins_point)
        | none => pure ()
termination_by structural n => n

end

/-- Source `_encoding`. -/
def _encoding (fuel : Nat) : M Unit := do
  if (← match_ "TV") then do
    append "vtable for ".toList
    _type fuel
  else if (← match_ "TT") then do
    append "vtable index for ".toList
    _type fuel
  else if (← match_ "TI") then do
    append "typeinfo for ".toList
    _type fuel
  else if (← match_ "TS") then do
    append "typeinfo name for ".toList
    _type fuel
  else _function_encoding fuel

/-- The parse state that `demangle` sets up before it calls `_encoding`. -/
def initial (size : Nat) (mangled : List Char) : Mangle :=
  { valid := true, plain := [], size := size, mangled := mangled, mpos := 2, nest := 0,
    is_typecast_op := false, qualifiers := [], func_nest := 0,
    parameter_base := List.replicate MAX_FUNC_NESTING none, substitions := [],
    tpl_subst := [] }

/-- Source `demangle`.  `plain` is the content of the caller's buffer before the call and
`size` its capacity; the input is the C string denoted by `mangled`.  The result is the
returned flag and the text in the buffer after the call. -/
def demangle (fuel : Nat) (plain : List Char) (size : Nat) (mangled : List Char) :
    Res (Bool × List Char) :=
  if size = 0 then Res.error Fault.assertion
  else if pchar (cstr mangled) 0 != '_' || pchar (cstr mangled) 1 != 'Z' then
    Res.ok (false, plain)
  else
    match _encoding fuel (initial size (cstr mangled)) with
    | Res.ok (_, s) => Res.ok (s.valid, s.plain)
    | Res.error e => Res.error e

/-! ## Primitive steps

The updates of the parse state as a relation, and the property of a computation that it
changes the state by such updates only. -/

/-- One primitive update of the parse state, with the guard under which the source makes it. -/
inductive Step : Mangle → Mangle → Prop
  | invalidate (s : Mangle) : Step s s.invalidate
  | setMpos (s : Mangle) (p : Nat) : Step s (s.setMpos p)
  | append (s : Mangle) (text : List Char) : Step s (s.append text)
  | splice (s : Mangle) (mark : Nat) (text : List Char) :
      s.valid = true → mark < s.plain.length → 0 < text.length → Step s (s.splice mark text)
  | truncate (s : Mangle) (mark : Nat) : Step s (s.truncate mark)
  | setNest (s : Mangle) (n : Int) : Step s (s.setNest n)
  | setFuncNest (s : Mangle) (n : Int) : Step s (s.setFuncNest n)
  | setTypecast (s : Mangle) : Step s s.setTypecast
  | setQualifiers (s : Mangle) (q : List Char) : Step s (s.setQualifiers q)
  | setParamBase (s : Mangle) (i mark : Nat) : i < MAX_FUNC_NESTING → Step s (s.setParamBase i mark)
  | pushSubst (s : Mangle) (text : List Char) :
      s.valid = true → s.substitions.length < MAX_SUBSTITUTIONS → Step s (s.pushSubst text)
  | pushTpl (s : Mangle) (text : List Char) :
      s.valid = true → s.tpl_subst.length < MAX_TEMPLATE_SUBST →
      s.substitions.length < MAX_TEMPLATE_SUBST → Step s (s.pushTpl text)
  | dropTpl (s : Mangle) (k : Nat) : k ≤ s.tpl_subst.length → Step s (s.dropTpl k)

/-- Reachability by primitive updates. -/
def Reach : Mangle → Mangle → Prop := Relation.ReflTransGen Step

/-- A computation changes the state only by primitive updates. -/
class Sound {α : Type} (f : M α) : Prop where
  run : ∀ s a t, f s = Res.ok (a, t) → Reach s t

/-- Continuation of a result, the `match` of `M.bind`. -/
def andThen {α β : Type} (r : Res (α × Mangle)) (f : α → M β) : Res (β × Mangle) :=
  match r with
  | Res.ok (a, t) => f a t
  | Res.error e => Res.error e

/-- Every production of the mutual recursion changes the state only by primitive updates. -/
structure ProductionsSound (fuel : Nat) : Prop where
  p_extq_loop : ∀ st, Sound (extq_loop fuel st)
  p_extended_qualifier : Sound (_extended_qualifier fuel)
  p_template_args_loop : ∀ c, Sound (template_args_loop fuel c)
  p_template_args : Sound (_template_args fuel)
  p_unqualified_name : Sound (_unqualified_name fuel)
  p_function_type_loop : ∀ c, Sound (function_type_loop fuel c)
  p_function_type : Sound (_function_type fuel)
  p_pointer_to_member_type : Sound (_pointer_to_member_type fuel)
  p_array : Sound (_array fuel)
  p_local_name : Sound (_local_name fuel)
  p_operator : Sound (_operator fuel)
  p_nested_name_loop : ∀ m, Sound (nested_name_loop fuel m)
  p_nested_name : Sound (_nested_name fuel)
  p_name : Sound (_name fuel)
  p_type : Sound (_type fuel)
  p_function_encoding_loop : ∀ c, Sound (function_encoding_loop fuel c)
  p_function_encoding : Sound (_function_encoding fuel)

/-! ## Notions used by the claims -/

/-- Depth scan for one kind of bracket, opener `o` and closer `c`: the depth after the
text, `none` when a closer stands where no opener is open. -/
def bracket_scan (o c : Char) : List Char → Nat → Option Nat
  | [], d => some d
  | x :: l, d =>
    if x = o then bracket_scan o c l (d + 1)
    else if x = c then (if d = 0 then none else bracket_scan o c l (d - 1))
    else bracket_scan o c l d

/-- The pair `o`, `c` occurs in `l` as properly matched opener/closer pairs. -/
def balanced (o c : Char) (l : List Char) : Bool := bracket_scan o c l 0 == some 0

/-- The parse state at the return of `_encoding` inside `demangle`, when it returns. -/
def final_state (fuel size : Nat) (mangled : List Char) : Option Mangle :=
  match _encoding fuel (initial size (cstr mangled)) with
  | Res.ok (_, s) => some s
  | Res.error _ => none

/-- The parse state of the input `_ZN1aM` in front of the `do ... while` loop of
`_nested_name`: the prefix `a` is parsed and the cursor stands on `M`. -/
def loop_state : Mangle :=
  { valid := true, plain := "a".toList, size := 256, mangled := "_ZN1aM".toList, mpos := 5,
    nest := 1, is_typecast_op := false, qualifiers := [], func_nest := 0,
    parameter_base := List.replicate MAX_FUNC_NESTING none, substitions := ["a".toList],
    tpl_subst := [] }

/-! ## Functions with a source name and builtin parameter types -/

/-- The input at the cursor of `s` is the string `l`. -/
def At (s : Mangle) (l : List Char) : Prop :=
  s.mpos ≤ s.mangled.length ∧ s.mangled.drop s.mpos = l

/-- Name of the builtin type with the one-letter code `c`, from the table `types`. -/
def builtin_name (c : Char) : Option (List Char) :=
  (table_index (fun a => a.toList == [c]) types 0).map (fun i => (entry types i).2.toList)

/-- Text that the parameter loop appends for the codes `cs` when `count` parameters
precede them: every name but the very first is preceded by a comma. -/
def params_text : Nat → List Char → List Char
  | _, [] => []
  | count, c :: r =>
    (if count > 0 then ",".toList else []) ++ (builtin_name c).getD [] ++ params_text (count + 1) r

/-- A C identifier: a letter or underscore followed by letters, digits and underscores. -/
def is_identifier (w : List Char) : Bool :=
  match w with
  | [] => false
  | c :: r => (isalpha c || c == '_') && r.all (fun x => isalpha x || isdigit x || x == '_')

/-- Text of a function with builtin parameter types: the name, then the names of the
codes joined by commas between parentheses. -/
def function_text (name codes : List Char) : List Char :=
  name ++ "(".toList ++ ",".toList.intercalate (codes.map (fun c => (builtin_name c).getD []))
    ++ ")".toList

/-- The parameter list as it stands when the parameter loop has finished: a lone `v` is
erased again. -/
def shown_params (codes : List Char) : List Char :=
  if codes = ['v'] then [] else params_text 0 codes

/-- Text of a function with builtin parameter types as the parser leaves it. -/
def rendered (name codes : List Char) : List Char :=
  name ++ ("(".toList ++ (shown_params codes ++ ")".toList))

/-- The mangled name of a function with a source name and one-letter builtin parameter
codes. -/
def simple_mangled (name codes : List Char) : List Char :=
  "_Z".toList ++ (Nat.toDigits 10 name.length ++ (name ++ codes))

/-- A character that is not one of the six brackets. -/
def plain_char (x : Char) : Bool :=
  x != '(' && x != ')' && x != '[' && x != ']' && x != '<' && x != '>'

/-! ## Inputs with a suffix -/

/-- An input `base` together with a suffix that begins with `.` or with `@@`; the two
together are shorter than the range of `int`. -/
structure Suffixed where
  base : List Char
  first : Char
  more : List Char
  start : first = '.' ∨ (first = '@' ∧ more.head? = some '@')
  bound : base.length + (first :: more).length < 2147483648

/-- The suffix. -/
def Suffixed.sfx (X : Suffixed) : List Char := X.first :: X.more

/-- The parse state with the suffix behind the input. -/
def Suffixed.lift (X : Suffixed) (s : Mangle) : Mangle := { s with mangled := X.base ++ X.sfx }

/-- The computation `g` on the input with the suffix follows the computation `f` on the
input `base`: a run of `f` keeps the input, and when it ends with `valid` set it started
with `valid` set and `g` makes the same run. -/
def Sim2 (X : Suffixed) {α : Type} (f g : M α) : Prop :=
  ∀ s a t, s.mangled = X.base → f s = Res.ok (a, t) →
    t.mangled = X.base ∧
      (t.valid = true → s.valid = true ∧ g (X.lift s) = Res.ok (a, X.lift t))

/-- A computation does not see the suffix. -/
class Sim (X : Suffixed) {α : Type} (f : M α) : Prop where
  run : Sim2 X f f

/-- The test of `on_sentinel` on the C string at the cursor. -/
def at_sentinel (l : List Char) : Bool :=
  match l with
  | [] => true
  | c :: r => c == NUL || c == '.' || (c == '@' && r.headD NUL == '@')

/-- No production of the mutual recursion sees the suffix. -/
structure ProductionsSim (X : Suffixed) (fuel : Nat) : Prop where
  p_extq_loop : ∀ st, Sim X (extq_loop fuel st)
  p_extended_qualifier : Sim X (_extended_qualifier fuel)
  p_template_args_loop : ∀ c, Sim X (template_args_loop fuel c)
  p_template_args : Sim X (_template_args fuel)
  p_unqualified_name : Sim X (_unqualified_name fuel)
  p_function_type_loop : ∀ c, Sim X (function_type_loop fuel c)
  p_function_type : Sim X (_function_type fuel)
  p_pointer_to_member_type : Sim X (_pointer_to_member_type fuel)
  p_array : Sim X (_array fuel)
  p_local_name : Sim X (_local_name fuel)
  p_operator : Sim X (_operator fuel)
  p_nested_name_loop : ∀ m, Sim X (nested_name_loop fuel m)
  p_nested_name : Sim X (_nested_name fuel)
  p_name : Sim X (_name fuel)
  p_type : Sim X (_type fuel)
  p_function_encoding_loop : ∀ c, Sim X (function_encoding_loop fuel c)
  p_function_encoding : Sim X (_function_encoding fuel)

/-- A keyword without `.` and `@`. -/
def plain_keyword (kw : List Char) : Bool := kw.all (fun c => c != '.' && c != '@')

/-- The number that the loop of `_substitution` computes from the characters `w` of a
seq-id, in `size_t` arithmetic, starting from `index`. -/
def seq_value (w : List Char) (index : Nat) : Nat :=
  w.foldl (fun i c =>
    (i * 36 + (if isdigit c then c.toNat - 48 else c.toNat - 65 + 10)) % SIZE_MOD) index

/-- The table index that `_substitution` computes for the seq-id `w`: 0 for the empty
seq-id, otherwise the number of the seq-id plus one, in `size_t` arithmetic. -/
def seq_index (w : List Char) : Nat :=
  if w = [] then 0 else (seq_value w 0 + 1) % SIZE_MOD

/-- The mangled form of a source name: the decimal length, then the characters. -/
def source_code (w : List Char) : List Char := Nat.toDigits 10 w.length ++ w

/-- The text of a qualified name: the components joined by `::`. -/
def qualified (ws : List (List Char)) : List Char := "::".toList.intercalate ws

/-- The proper prefixes of a qualified name, shortest first. -/
def scope_prefixes (ws : List (List Char)) : List (List Char) :=
  (List.range (ws.length - 1)).map (fun j => qualified (ws.take (j + 1)))

/-- The offset that `check_func_array` inspects when the text does not start with `(`:
the last character, or the one in front of a trailing `const` and of one space. -/
def array_probe (txt : List Char) : Nat :=
  let p1 := txt.length - 1
  let p2 := if p1 ≥ 5 && txt.drop (p1 - 4) == "const".toList then p1 - 5 else p1
  if p2 > 0 && pchar txt p2 == ' ' then p2 - 1 else p2

/-- A character of the name of a builtin type: a letter, a digit, an underscore or a
space. -/
def name_char (x : Char) : Bool := isalpha x || isdigit x || x == '_' || x == ' '

/-- Name of the builtin type with the code `cd` of one or two letters, from the table
`types`. -/
def code_name (cd : List Char) : Option (List Char) :=
  (table_index (fun a => a.toList == cd) types 0).map (fun i => (entry types i).2.toList)

/-- Text that the parameter loop appends for the builtin codes `cds` when `count`
parameters precede them: every name but the very first is preceded by a comma. -/
def codes_text : Nat → List (List Char) → List Char
  | _, [] => []
  | count, cd :: r =>
    (if count > 0 then ",".toList else []) ++ (code_name cd).getD [] ++ codes_text (count + 1) r

/-- The parameter list of builtin codes as it stands when the parameter loop has finished:
a lone `v` is erased again. -/
def shown_codes (cds : List (List Char)) : List Char :=
  if cds = [['v']] then [] else codes_text 0 cds

/-- The bounds of the two tables: `subst_count <= MAX_SUBSTITUTIONS` and
`tpl_subst_count <= MAX_TEMPLATE_SUBST`. -/
def tables_bounded (s : Mangle) : Prop :=
  s.substitions.length ≤ MAX_SUBSTITUTIONS ∧ s.tpl_subst.length ≤ MAX_TEMPLATE_SUBST

/-- The state `t` is the state at the return of one of the productions of the parser (the
source functions whose names begin with an underscore), entered in the state `s`. -/
def production_run (fuel : Nat) (s t : Mangle) : Prop :=
  _encoding fuel s = Res.ok ((), t) ∨
  _function_encoding fuel s = Res.ok ((), t) ∨
  _name fuel s = Res.ok ((), t) ∨
  _nested_name fuel s = Res.ok ((), t) ∨
  _local_name fuel s = Res.ok ((), t) ∨
  _unqualified_name fuel s = Res.ok ((), t) ∨
  _operator fuel s = Res.ok ((), t) ∨
  _type fuel s = Res.ok ((), t) ∨
  _function_type fuel s = Res.ok ((), t) ∨
  _pointer_to_member_type fuel s = Res.ok ((), t) ∨
  _array fuel s = Res.ok ((), t) ∨
  _template_args fuel s = Res.ok ((), t) ∨
  _extended_qualifier fuel s = Res.ok ((), t) ∨
  _source_name s = Res.ok ((), t) ∨
  _substitution s = Res.ok ((), t) ∨
  _template_param s = Res.ok ((), t) ∨
  _ctor_dtor_name s = Res.ok ((), t) ∨
  _unnamed_type_name s = Res.ok ((), t) ∨
  _expr_primary s = Res.ok ((), t) ∨
  _discriminator s = Res.ok ((), t) ∨
  _decltype s = Res.ok ((), t) ∨
  (∃ q, _qualifier_post q s = Res.ok ((), t)) ∨
  (∃ n b q, _qualifier_pre n b s = Res.ok (q, t))

/-- The space that `append_space` writes: one space when the text is not empty and does
not end in one of the separators, nothing otherwise. -/
def lead_space (plain : List Char) : List Char :=
  if plain.length > 0 ∧ " ([<,:".toList.contains (pchar plain (plain.length - 1)) = false
  then " ".toList else []

/-- The text that `_operator` writes for an operator with the symbol `sym`: the word
`operator`, a space when the symbol begins with a letter, and the symbol. -/
def operator_text (sym : List Char) : List Char :=
  "operator".toList ++ (if isalpha (pchar sym 0) then " ".toList else []) ++ sym

/-! ## Array types with literal dimensions -/

/-- Mangled text of an array dimension: a decimal number, or nothing. -/
def dim_code : Option Nat → List Char
  | none => []
  | some n => Nat.toDigits 10 n

/-- Rendering of an array dimension. -/
def dim_text : Option Nat → List Char
  | none => "[]".toList
  | some n => "[".toList ++ Nat.toDigits 10 n ++ "]".toList

/-- Mangled text of the dimensions behind the first `A`: `d1 _ A d2 _ ... A dk _`. -/
def dims_code : List (Option Nat) → List Char
  | [] => []
  | [d] => dim_code d ++ ['_']
  | d :: e :: ds => dim_code d ++ '_' :: 'A' :: dims_code (e :: ds)

/-- Rendering of the dimensions in source order: `[d1][d2]...[dk]`. -/
def dims_text : List (Option Nat) → List Char
  | [] => []
  | d :: ds => dim_text d ++ dims_text ds

/-- The cursor positions of the dimensions when the first one stands at `p`. -/
def dim_positions : Nat → List (Option Nat) → List Nat
  | _, [] => []
  | p, d :: ds => p :: dim_positions (p + (dim_code d).length + 2) ds

/-- The substitutions of an array type with the element text `T`: the inner arrays
first, the array itself last. -/
def array_subs (T : List Char) : List (Option Nat) → List (List Char)
  | [] => []
  | d :: ds => array_subs T ds ++ [T ++ dims_text (d :: ds)]

/-! ## The primitives in the words of the specification -/

/-- The answer of `peek` in the words of the specification: `valid` holds and the input at
the cursor starts with the keyword. -/
def starts_with (s : Mangle) (kw : String) : Bool :=
  s.valid && kw.toList.isPrefixOf (s.mangled.drop s.mpos)

/-- The separators of `append_space`: the characters of the string ` ([<,:`. -/
def separators : List Char := [' ', '(', '[', '<', ',', ':']

/-- Value of a base-36 digit: `0` to `9` are 0 to 9, `A` to `Z` are 10 to 35. -/
def base36_digit (c : Char) : Nat := if isdigit c then c.toNat - 48 else c.toNat - 65 + 10

/-- Value of a base-36 numeral, most significant digit first. -/
def base36 (w : List Char) : Nat := w.foldl (fun v c => v * 36 + base36_digit c) 0

/-- The table index of a seq-id in the words of the specification: 0 for the empty seq-id,
the value of the base-36 numeral plus one otherwise. -/
def spec_index (w : List Char) : Nat := if w = [] then 0 else base36 w + 1

/-- A computation that does nothing on a state with `valid` clear: it returns and leaves
the whole state as it is. -/
def Inert (f : M Unit) : Prop := ∀ s : Mangle, s.valid = false → f s = Res.ok ((), s)

/-! ## Every production is made of primitive steps -/

theorem Reach.refl (s : Mangle) : Reach s s := Relation.ReflTransGen.refl
theorem Reach.trans {a b c : Mangle} (h1 : Reach a b) (h2 : Reach b c) : Reach a c :=
  Relation.ReflTransGen.trans h1 h2
theorem Reach.step {a b : Mangle} (h : Step a b) : Reach a b := Relation.ReflTransGen.single h

/-- A computation that returns the state it was given is sound. -/
theorem Sound.of_readonly {α : Type} {f : M α} (h : ∀ s a t, f s = Res.ok (a, t) → t = s) :
    Sound f :=
  ⟨fun s a t e => by rw [h s a t e]; exact Reach.refl _⟩

@[instance] theorem Sound.pure {α : Type} (a : α) : Sound (pure a : M α) :=
  Sound.of_readonly (fun s b t h => by
    simp only [Pure.pure, M.pure, Res.ok.injEq, Prod.mk.injEq] at h; exact h.2.symm)

theorem Sound.bind {α β : Type} {m : M α} {f : α → M β} (hm : Sound m) (hf : ∀ a, Sound (f a)) :
    Sound (m >>= f) := by
  constructor
  intro s b t h
  simp only [Bind.bind, M.bind] at h
  cases hms : m s with
  | ok r =>
    obtain ⟨a, u⟩ := r
    rw [hms] at h
    exact Reach.trans (hm.run s a u hms) ((hf a).run u b t h)
  | error e => rw [hms] at h; cases h

theorem Sound.ite {α : Type} {c : Prop} [Decidable c] {m1 m2 : M α} (h1 : Sound m1)
    (h2 : Sound m2) : Sound (if c then m1 else m2) := by
  split <;> assumption

@[instance] theorem Sound.getS : Sound getS :=
  Sound.of_readonly (fun s a t h => by
    simp only [Demangle.getS, Res.ok.injEq, Prod.mk.injEq] at h; exact h.2.symm)

@[instance] theorem Sound.fault {α : Type} (e : Fault) : Sound (fault e : M α) :=
  ⟨fun s a t h => by cases h⟩

theorem Sound.modifyS {g : Mangle → Mangle} (hg : ∀ s, Step s (g s)) : Sound (modifyS g) := by
  constructor
  intro s a t h
  simp only [Demangle.modifyS, Res.ok.injEq, Prod.mk.injEq] at h
  rw [← h.2]; exact Reach.step (hg s)

@[instance] theorem Sound.cassert (b : Bool) : Sound (cassert b) := by
  unfold Demangle.cassert; exact Sound.ite inferInstance inferInstance

@[instance] theorem Sound.look (k : Nat) : Sound (look k) :=
  Sound.of_readonly (fun s a t h => by
    unfold Demangle.look at h
    split at h
    · simp only [Res.ok.injEq, Prod.mk.injEq] at h; exact h.2.symm
    · split at h
      · simp only [Res.ok.injEq, Prod.mk.injEq] at h; exact h.2.symm
      · cases h)

@[instance] theorem Sound.rest : Sound rest :=
  Sound.of_readonly (fun s a t h => by
    unfold Demangle.rest at h
    split at h
    · simp only [Res.ok.injEq, Prod.mk.injEq] at h; exact h.2.symm
    · cases h)

@[instance] theorem Sound.advance (k : Nat) : Sound (advance k) :=
  Sound.modifyS (fun s => Step.setMpos s _)

@[instance] theorem Sound.invalidate : Sound invalidate :=
  Sound.modifyS (fun s => Step.invalidate s)

@[instance] theorem Sound.append (text : List Char) : Sound (append text) :=
  Sound.modifyS (fun s => Step.append s text)

@[instance] theorem Sound.truncate (mark : Nat) : Sound (truncate mark) :=
  Sound.modifyS (fun s => Step.truncate s mark)

@[instance] theorem Sound.add_nest (d : Int) : Sound (add_nest d) :=
  Sound.modifyS (fun s => Step.setNest s _)

@[instance] theorem Sound.add_func_nest (d : Int) : Sound (add_func_nest d) :=
  Sound.modifyS (fun s => Step.setFuncNest s _)

@[instance] theorem Sound.peek (kw : String) : Sound (peek kw) := by
  unfold Demangle.peek
  repeat' first | infer_instance | apply Sound.bind | apply Sound.ite | intro _ | split

@[instance] theorem Sound.match_ (kw : String) : Sound (match_ kw) := by
  unfold Demangle.match_
  repeat' first | infer_instance | apply Sound.bind | apply Sound.ite | intro _ | split

@[instance] theorem Sound.expect (kw : String) : Sound (expect kw) := by
  unfold Demangle.expect
  repeat' first | infer_instance | apply Sound.bind | apply Sound.ite | intro _ | split

@[instance] theorem Sound.on_sentinel : Sound on_sentinel := by
  unfold Demangle.on_sentinel
  repeat' first | infer_instance | apply Sound.bind | apply Sound.ite | intro _ | split

@[instance] theorem Sound.find_matching (txt : List Char) (h t : Nat) (c : Char) :
    Sound (find_matching txt h t c) := by
  unfold Demangle.find_matching
  repeat' first | infer_instance | apply Sound.bind | apply Sound.ite | intro _ | split

@[instance] theorem Sound.check_array_loop (txt : List Char) (base : Nat) :
    ∀ n p, Sound (check_array_loop txt base n p) := by
  intro n
  induction n with
  | zero => intro p; unfold Demangle.check_array_loop; infer_instance
  | succ n ih =>
    intro p
    unfold Demangle.check_array_loop
    repeat' first | infer_instance | apply Sound.bind | apply Sound.ite | intro _ | split

@[instance] theorem Sound.check_func_array (base : Nat) : Sound (check_func_array base) := by
  unfold Demangle.check_func_array
  repeat' first | infer_instance | apply Sound.bind | apply Sound.ite | intro _ | split

/-! ## Evaluation of the monad operations on a state -/

theorem andThen_ok {α β : Type} (a : α) (t : Mangle) (f : α → M β) :
    andThen (Res.ok (a, t)) f = f a t := rfl

theorem andThen_error {α β : Type} (e : Fault) (f : α → M β) :
    andThen (Res.error e : Res (α × Mangle)) f = Res.error e := rfl

theorem andThen_ite {α β : Type} (c : Prop) [Decidable c] (x y : Res (α × Mangle))
    (f : α → M β) : andThen (if c then x else y) f = if c then andThen x f else andThen y f := by
  split <;> rfl

theorem run_bind {α β : Type} (m : M α) (f : α → M β) (s : Mangle) :
    (m >>= f) s = andThen (m s) f := rfl

theorem run_pure {α : Type} (a : α) (s : Mangle) : (pure a : M α) s = Res.ok (a, s) := rfl

theorem run_getS (s : Mangle) : getS s = Res.ok (s, s) := rfl

theorem run_modifyS (g : Mangle → Mangle) (s : Mangle) : modifyS g s = Res.ok ((), g s) := rfl

theorem run_fault {α : Type} (e : Fault) (s : Mangle) : (fault e : M α) s = Res.error e := rfl

theorem run_cassert (b : Bool) (s : Mangle) :
    cassert b s = if b then Res.ok ((), s) else Res.error Fault.assertion := by
  unfold cassert; split <;> rfl

theorem run_ite {α : Type} (c : Prop) [Decidable c] (m1 m2 : M α) (s : Mangle) :
    (if c then m1 else m2) s = if c then m1 s else m2 s := by
  split <;> rfl

@[instance] theorem Sound.insert (mark : Nat) (text : List Char) : Sound (insert mark text) := by
  constructor
  intro s a t h
  simp only [Demangle.insert, Demangle.append, run_bind, run_getS, run_cassert, run_ite,
    run_pure, run_modifyS, andThen_ok, andThen_error, andThen_ite, decide_eq_true_eq] at h
  split_ifs at h with h1 h2 h3 h4 <;>
    simp only [Res.ok.injEq, Prod.mk.injEq, reduceCtorEq] at h <;> rw [← h.2]
  · exact Reach.step (Step.append _ _)
  · exact Reach.step (Step.splice _ _ _ h1 (by omega) h4)
  · exact Reach.refl _

@[instance] theorem Sound.add_substitution (text : List Char) (tpl : Bool) :
    Sound (add_substitution text tpl) := by
  constructor
  intro s a t h
  simp only [Demangle.add_substitution, run_bind, run_getS, run_cassert, run_ite,
    run_pure, run_modifyS, andThen_ok, andThen_error, andThen_ite, decide_eq_true_eq] at h
  split_ifs at h with h1 h2 h3 h4 h5 h6 <;>
    simp only [Res.ok.injEq, Prod.mk.injEq, reduceCtorEq] at h <;> rw [← h.2]
  · exact Reach.step (Step.pushTpl _ _ h1 h3 h4)
  · exact Reach.refl _
  · exact Reach.step (Step.pushSubst _ _ h1 h5)
  · exact Reach.refl _

@[instance] theorem Sound.set_parameter_base (mark : Nat) : Sound (set_parameter_base mark) := by
  constructor
  intro s a t h
  simp only [Demangle.set_parameter_base, run_bind, run_getS, run_ite, run_fault,
    run_pure, run_modifyS, andThen_ok, andThen_error, andThen_ite, Bool.and_eq_true,
    decide_eq_true_eq] at h
  split_ifs at h with h1 <;>
    simp only [Res.ok.injEq, Prod.mk.injEq, reduceCtorEq] at h <;> rw [← h.2]
  refine Reach.step (Step.setParamBase _ _ _ ?_)
  have := h1.2
  simp only [MAX_FUNC_NESTING] at *
  omega

@[instance] theorem Sound.shift_tpl_subst (k : Nat) : Sound (shift_tpl_subst k) := by
  constructor
  intro s a t h
  simp only [Demangle.shift_tpl_subst, Demangle.free_tpl_subst, run_bind, run_getS, run_cassert,
    run_ite, run_pure, run_modifyS, andThen_ok, andThen_error, andThen_ite,
    decide_eq_true_eq] at h
  split_ifs at h with h1
  simp only [Res.ok.injEq, Prod.mk.injEq, reduceCtorEq] at h
  rw [← h.2]
  exact Reach.step (Step.dropTpl _ _ h1)

@[instance] theorem Sound.set_mpos (p : Nat) : Sound (set_mpos p) :=
  Sound.modifyS (fun s => Step.setMpos s _)

@[instance] theorem Sound.set_typecast : Sound set_typecast :=
  Sound.modifyS (fun s => Step.setTypecast s)

@[instance] theorem Sound.set_qualifiers (q : List Char) : Sound (set_qualifiers q) :=
  Sound.modifyS (fun s => Step.setQualifiers s q)

@[instance] theorem Sound.current_position : Sound current_position := by
  unfold Demangle.current_position
  repeat' first | infer_instance | apply Sound.bind | apply Sound.ite | intro _ | split

@[instance] theorem Sound.text_at (mark : Nat) : Sound (text_at mark) := by
  unfold Demangle.text_at
  repeat' first | infer_instance | apply Sound.bind | apply Sound.ite | intro _ | split

@[instance] theorem Sound.add_substitution_at (mark : Nat) (tpl : Bool) :
    Sound (add_substitution_at mark tpl) := by
  unfold Demangle.add_substitution_at
  repeat' first | infer_instance | apply Sound.bind | apply Sound.ite | intro _ | split

@[instance] theorem Sound.get_parameter_base : Sound get_parameter_base := by
  unfold Demangle.get_parameter_base
  repeat' first | infer_instance | apply Sound.bind | apply Sound.ite | intro _ | split

@[instance] theorem Sound.qualifier_pre (size : Nat) (r : Bool) : Sound (_qualifier_pre size r) := by
  unfold Demangle._qualifier_pre
  repeat' first | infer_instance | apply Sound.bind | apply Sound.ite | intro _ | split

@[instance] theorem Sound.qualifier_post (q : List Char) : Sound (_qualifier_post q) := by
  induction q with
  | nil => unfold Demangle._qualifier_post; infer_instance
  | cons c q ih =>
    unfold Demangle._qualifier_post
    repeat' first | infer_instance | apply Sound.bind | apply Sound.ite | intro _ | split

@[instance] theorem Sound.discriminator : Sound _discriminator := by
  unfold Demangle._discriminator
  repeat' first | infer_instance | apply Sound.bind | apply Sound.ite | intro _ | split

@[instance] theorem Sound.source_name : Sound _source_name := by
  unfold Demangle._source_name
  repeat' first | infer_instance | apply Sound.bind | apply Sound.ite | intro _ | split

@[instance] theorem Sound.decltype : Sound _decltype := by
  unfold Demangle._decltype
  repeat' first | infer_instance | apply Sound.bind | apply Sound.ite | intro _ | split

@[instance] theorem Sound.is_abbreviation : Sound is_abbreviation := by
  unfold Demangle.is_abbreviation
  repeat' first | infer_instance | apply Sound.bind | apply Sound.ite | intro _ | split

@[instance] theorem Sound.is_operator : Sound is_operator := by
  unfold Demangle.is_operator
  repeat' first | infer_instance | apply Sound.bind | apply Sound.ite | intro _ | split

@[instance] theorem Sound.is_builtin_type : Sound is_builtin_type := by
  unfold Demangle.is_builtin_type
  repeat' first | infer_instance | apply Sound.bind | apply Sound.ite | intro _ | split

@[instance] theorem Sound.subst_seq_loop : ∀ n i, Sound (subst_seq_loop n i) := by
  intro n
  induction n with
  | zero => intro i; unfold Demangle.subst_seq_loop; infer_instance
  | succ n ih =>
    intro i
    unfold Demangle.subst_seq_loop
    repeat' first | infer_instance | apply Sound.bind | apply Sound.ite | intro _ | split

@[instance] theorem Sound.substitution : Sound _substitution := by
  unfold Demangle._substitution
  repeat' first | infer_instance | apply Sound.bind | apply Sound.ite | intro _ | split

@[instance] theorem Sound.template_param : Sound _template_param := by
  unfold Demangle._template_param
  repeat' first | infer_instance | apply Sound.bind | apply Sound.ite | intro _ | split

@[instance] theorem Sound.unnamed_type_name : Sound _unnamed_type_name := by
  unfold Demangle._unnamed_type_name
  repeat' first | infer_instance | apply Sound.bind | apply Sound.ite | intro _ | split

@[instance] theorem Sound.ctor_dtor_name : Sound _ctor_dtor_name := by
  unfold Demangle._ctor_dtor_name
  repeat' first | infer_instance | apply Sound.bind | apply Sound.ite | intro _ | split

@[instance] theorem Sound.get_number (size : Nat) (hex : Bool) : Sound (get_number size hex) := by
  unfold Demangle.get_number
  repeat' first | infer_instance | apply Sound.bind | apply Sound.ite | intro _ | split

@[instance] theorem Sound.append_marks : ∀ n, Sound (append_marks n) := by
  intro n
  induction n with
  | zero => unfold Demangle.append_marks; infer_instance
  | succ n ih =>
    unfold Demangle.append_marks
    repeat' first | infer_instance | apply Sound.bind | apply Sound.ite | intro _ | split

@[instance] theorem Sound.expr_primary : Sound _expr_primary := by
  unfold Demangle._expr_primary
  repeat' first | infer_instance | apply Sound.bind | apply Sound.ite | intro _ | split

@[instance] theorem Sound.peek_substitution : Sound peek_substitution := by
  unfold Demangle.peek_substitution
  repeat' first | infer_instance | apply Sound.bind | apply Sound.ite | intro _ | split

@[instance] theorem Sound.peek_template_param : Sound peek_template_param := by
  unfold Demangle.peek_template_param
  repeat' first | infer_instance | apply Sound.bind | apply Sound.ite | intro _ | split

@[instance] theorem Sound.peek_ctor_dtor : Sound peek_ctor_dtor := by
  unfold Demangle.peek_ctor_dtor
  repeat' first | infer_instance | apply Sound.bind | apply Sound.ite | intro _ | split

@[instance] theorem Sound.source_names : ∀ n, Sound (source_names n) := by
  intro n
  induction n with
  | zero => unfold Demangle.source_names; infer_instance
  | succ n ih =>
    unfold Demangle.source_names
    repeat' first | infer_instance | apply Sound.bind | apply Sound.ite | intro _ | split

@[instance] theorem Sound.structured_binding : Sound structured_binding := by
  unfold Demangle.structured_binding
  repeat' first | infer_instance | apply Sound.bind | apply Sound.ite | intro _ | split

@[instance] theorem Sound.extq_emit (base : Nat) : ∀ l, Sound (extq_emit base l) := by
  intro l
  induction l with
  | nil => unfold Demangle.extq_emit; infer_instance
  | cons p ps ih =>
    unfold Demangle.extq_emit
    repeat' first | infer_instance | apply Sound.bind | apply Sound.ite | intro _ | split

@[instance] theorem Sound.array_scan : ∀ n, Sound (array_scan n) := by
  intro n
  induction n with
  | zero => unfold Demangle.array_scan; infer_instance
  | succ n ih =>
    unfold Demangle.array_scan
    repeat' first | infer_instance | apply Sound.bind | apply Sound.ite | intro _ | split

@[instance] theorem Sound.array_dims : ∀ n st, Sound (array_dims n st) := by
  intro n
  induction n with
  | zero => intro st; unfold Demangle.array_dims; infer_instance
  | succ n ih =>
    intro st
    unfold Demangle.array_dims
    repeat' first | infer_instance | apply Sound.bind | apply Sound.ite | intro _ | split

@[instance] theorem Sound.array_emit (mark ip : Nat) : ∀ l, Sound (array_emit mark ip l) := by
  intro l
  induction l with
  | nil => unfold Demangle.array_emit; infer_instance
  | cons p ps ih =>
    unfold Demangle.array_emit
    repeat' first | infer_instance | apply Sound.bind | apply Sound.ite | intro _ | split

theorem productions_sound : ∀ fuel, ProductionsSound fuel := by
  intro fuel
  induction fuel with
  | zero =>
    constructor
    · intro x; unfold Demangle.extq_loop; infer_instance
    · unfold Demangle._extended_qualifier; infer_instance
    · intro x; unfold Demangle.template_args_loop; infer_instance
    · unfold Demangle._template_args; infer_instance
    · unfold Demangle._unqualified_name; infer_instance
    · intro x; unfold Demangle.function_type_loop; infer_instance
    · unfold Demangle._function_type; infer_instance
    · unfold Demangle._pointer_to_member_type; infer_instance
    · unfold Demangle._array; infer_instance
    · unfold Demangle._local_name; infer_instance
    · unfold Demangle._operator; infer_instance
    · intro x; unfold Demangle.nested_name_loop; infer_instance
    · unfold Demangle._nested_name; infer_instance
    · unfold Demangle._name; infer_instance
    · unfold Demangle._type; infer_instance
    · intro x; unfold Demangle.function_encoding_loop; infer_instance
    · unfold Demangle._function_encoding; infer_instance
  | succ fuel ih =>
    obtain ⟨i0, i1, i2, i3, i4, i5, i6, i7, i8, i9, i10, i11, i12, i13, i14, i15, i16⟩ := ih
    constructor
    · intro x
      unfold Demangle.extq_loop
      repeat' first | infer_instance | apply Sound.bind | apply Sound.ite | intro _ | split
    · unfold Demangle._extended_qualifier
      repeat' first | infer_instance | apply Sound.bind | apply Sound.ite | intro _ | split
    · intro x
      unfold Demangle.template_args_loop
      repeat' first | infer_instance | apply Sound.bind | apply Sound.ite | intro _ | split
    · unfold Demangle._template_args
      repeat' first | infer_instance | apply Sound.bind | apply Sound.ite | intro _ | split
    · unfold Demangle._unqualified_name
      repeat' first | infer_instance | apply Sound.bind | apply Sound.ite | intro _ | split
    · intro x
      unfold Demangle.function_type_loop
      repeat' first | infer_instance | apply Sound.bind | apply Sound.ite | intro _ | split
    · unfold Demangle._function_type
      repeat' first | infer_instance | apply Sound.bind | apply Sound.ite | intro _ | split
    · unfold Demangle._pointer_to_member_type
      repeat' first | infer_instance | apply Sound.bind | apply Sound.ite | intro _ | split
    · unfold Demangle._array
      repeat' first | infer_instance | apply Sound.bind | apply Sound.ite | intro _ | split
    · unfold Demangle._local_name
      repeat' first | infer_instance | apply Sound.bind | apply Sound.ite | intro _ | split
    · unfold Demangle._operator
      repeat' first | infer_instance | apply Sound.bind | apply Sound.ite | intro _ | split
    · intro x
      unfold Demangle.nested_name_loop
      repeat' first | infer_instance | apply Sound.bind | apply Sound.ite | intro _ | split
    · unfold Demangle._nested_name
      repeat' first | infer_instance | apply Sound.bind | apply Sound.ite | intro _ | split
    · unfold Demangle._name
      repeat' first | infer_instance | apply Sound.bind | apply Sound.ite | intro _ | split
    · unfold Demangle._type
      repeat' first | infer_instance | apply Sound.bind | apply Sound.ite | intro _ | split
    · intro x
      unfold Demangle.function_encoding_loop
      repeat' first | infer_instance | apply Sound.bind | apply Sound.ite | intro _ | split
    · unfold Demangle._function_encoding
      repeat' first | infer_instance | apply Sound.bind | apply Sound.ite | intro _ | split


@[instance] theorem Sound.encoding (fuel : Nat) : Sound (_encoding fuel) := by
  have h := (productions_sound fuel).p_type
  have h2 := (productions_sound fuel).p_function_encoding
  unfold Demangle._encoding
  repeat' first | infer_instance | apply Sound.bind | apply Sound.ite | intro _ | split

/-! ## The capacity of the output buffer -/

theorem Step.size_eq {s t : Mangle} (h : Step s t) : t.size = s.size := by
  cases h <;> try rfl
  · unfold Mangle.append; split_ifs <;> rfl
  · unfold Mangle.splice; split_ifs <;> rfl

theorem Step.keeps_fit {s t : Mangle} (h : Step s t) (hs : s.plain.length < s.size) :
    t.plain.length < t.size := by
  cases h <;> try exact hs
  · unfold Mangle.append
    split_ifs
    · simp only [List.length_append]; omega
    · exact hs
    · exact hs
  · unfold Mangle.splice
    split_ifs
    · simp only [List.length_append, List.length_take, List.length_drop]; omega
    · exact hs
  · simp only [Mangle.truncate, List.length_take]; omega

theorem Reach.text_fits {s t : Mangle} (h : Reach s t) (hs : s.plain.length < s.size) :
    t.plain.length < t.size ∧ t.size = s.size := by
  induction h with
  | refl => exact ⟨hs, rfl⟩
  | tail _ hst ih => exact ⟨hst.keeps_fit ih.1, by rw [hst.size_eq, ih.2]⟩

/-! ## The entry point -/

theorem cstr_cons (a : Char) (l : List Char) :
    cstr (a :: l) = if a = NUL then [] else a :: cstr l := by
  unfold cstr
  by_cases h : a = NUL <;> simp [List.takeWhile_cons, h]

/-- C1: for an input whose first two characters are not `_Z`, whatever the content of the
output buffer and its capacity (positive, as the entry assertion demands), `demangle`
returns false and the buffer is as it was before the call. -/
theorem demangle_without_prefix (fuel : Nat) (plain : List Char) (size : Nat)
    (mangled : List Char) (hsize : 0 < size) (h : mangled.take 2 ≠ "_Z".toList) :
    demangle fuel plain size mangled = Res.ok (false, plain) := by
  have hc : (pchar (cstr mangled) 0 != '_' || pchar (cstr mangled) 1 != 'Z') = true := by
    match mangled, h with
    | [], _ => decide
    | [a], _ =>
      rw [cstr_cons]
      by_cases ha : a = NUL
      · rw [if_pos ha]; decide
      · rw [if_neg ha]
        by_cases hu : a = '_'
        · subst hu; decide
        · simp [pchar, hu]
    | a :: b :: l, h =>
      rw [cstr_cons, cstr_cons]
      by_cases ha : a = NUL
      · rw [if_pos ha]; decide
      · rw [if_neg ha]
        by_cases hu : a = '_'
        · subst hu
          have hb : b ≠ 'Z' := by
            intro hb; subst hb; exact h rfl
          by_cases hbn : b = NUL
          · rw [if_pos hbn]; decide
          · rw [if_neg hbn]; simp [pchar, hb]
        · simp [pchar, hu]
  unfold demangle
  rw [if_neg (by omega), if_pos hc]

theorem demangle_without_prefix_witness :
    0 < 256 ∧ "Z3funi".toList.take 2 ≠ "_Z".toList ∧
      demangle 0 "abc".toList 256 "Z3funi".toList = Res.ok (false, "abc".toList) :=
  ⟨by decide, by decide,
    demangle_without_prefix 0 "abc".toList 256 "Z3funi".toList (by decide) (by decide)⟩

/-! ## The loop of `_nested_name` that does not advance -/

theorem nested_name_loop_stuck :
    ∀ n, nested_name_loop n 0 loop_state = Res.error Fault.fuel := by
  intro n
  induction n with
  | zero => rfl
  | succ n ih =>
    have h : nested_name_loop (n + 1) 0 loop_state = nested_name_loop n 0 loop_state := rfl
    rw [h, ih]

theorem nested_name_stuck (n : Nat) :
    _nested_name (n + 1) (initial 256 "_ZN1aM".toList) = Res.error Fault.fuel := by
  cases n with
  | zero => rfl
  | succ n =>
    have h : _nested_name (n + 1 + 1) (initial 256 "_ZN1aM".toList)
        = andThen (nested_name_loop (n + 1) 0 loop_state) (fun _ => do
            let s ← getS
            if s.nest > 1 then _qualifier_post [] else set_qualifiers []
            add_nest (-1)) := rfl
    rw [h, nested_name_loop_stuck]; rfl

theorem name_stuck (n : Nat) :
    _name (n + 2) (initial 256 "_ZN1aM".toList) = Res.error Fault.fuel := by
  have h1 : current_position (initial 256 "_ZN1aM".toList)
      = Res.ok (0, initial 256 "_ZN1aM".toList) := rfl
  have h2 : peek "N" (initial 256 "_ZN1aM".toList)
      = Res.ok (true, initial 256 "_ZN1aM".toList) := rfl
  have h3 : (initial 256 "_ZN1aM".toList).valid = true := rfl
  rw [_name, run_bind, h1, andThen_ok, run_bind, run_getS, andThen_ok, run_bind, h3, if_pos rfl,
    run_bind, h2, andThen_ok, if_pos rfl, run_bind, nested_name_stuck]
  rfl

theorem function_encoding_stuck (n : Nat) :
    _function_encoding (n + 3) (initial 256 "_ZN1aM".toList) = Res.error Fault.fuel := by
  rw [_function_encoding, run_bind, name_stuck]; rfl

theorem encoding_stuck (n : Nat) :
    _encoding (n + 3) (initial 256 "_ZN1aM".toList) = Res.error Fault.fuel := by
  have h : _encoding (n + 3) (initial 256 "_ZN1aM".toList)
      = _function_encoding (n + 3) (initial 256 "_ZN1aM".toList) := rfl
  rw [h, function_encoding_stuck]

/-- C2: on the input `_ZN1aM` the parser does not terminate: whatever the step budget,
the run of `demangle` uses it up, because the `do ... while` loop of `_nested_name` repeats
its closure branch (`continue` on `M`) without consuming input and without clearing
`valid`. -/
theorem demangle_diverges (fuel : Nat) :
    demangle fuel [] 256 "_ZN1aM".toList = Res.error Fault.fuel := by
  have hc : cstr "_ZN1aM".toList = "_ZN1aM".toList := by decide
  match fuel with
  | 0 => rfl
  | 1 => rfl
  | 2 => rfl
  | n + 3 =>
    unfold demangle
    rw [hc, if_neg (by decide), if_neg (by decide), encoding_stuck]

/-- C3: when `demangle` returns true, the text in the output buffer is shorter than the
capacity `size`, so the text and its terminating NUL lie inside the buffer. -/
theorem demangle_output_fits (fuel : Nat) (plain : List Char) (size : Nat)
    (mangled out : List Char)
    (h : demangle fuel plain size mangled = Res.ok (true, out)) : out.length < size := by
  unfold demangle at h
  split_ifs at h with h1 h2
  · simp at h
  · cases he : _encoding fuel (initial size (cstr mangled)) with
    | error e => rw [he] at h; simp at h
    | ok r =>
      obtain ⟨a, s⟩ := r
      rw [he] at h
      simp only [Res.ok.injEq, Prod.mk.injEq] at h
      have hr := (Sound.encoding fuel).run _ _ _ he
      have := hr.text_fits (by simp only [initial, List.length_nil]; omega)
      rw [← h.2]
      simpa [initial] using this.1.trans_eq this.2

theorem demangle_output_fits_witness :
    demangle 20 [] 9 "_Z3funi".toList = Res.ok (true, "fun(int)".toList) ∧
      "fun(int)".toList.length < 9 :=
  ⟨by decide,
    demangle_output_fits 20 [] 9 "_Z3funi".toList "fun(int)".toList (by decide)⟩

/-- C4: on the input `_ZTVii` the run of `demangle` returns true with the text
`vtable for int` while the cursor stands on the second `i`, which is not a sentinel: the
branches of `_encoding` for `TV`, `TT`, `TI` and `TS` parse one type and return. -/
theorem special_name_stops_early :
    demangle 20 [] 256 "_ZTVii".toList = Res.ok (true, "vtable for int".toList) ∧
    (final_state 20 256 "_ZTVii".toList).map (fun s => (s.valid, s.mangled.drop s.mpos))
      = some (true, "i".toList) ∧
    (final_state 20 256 "_ZTVii".toList).map (fun s => on_sentinel s)
      = (final_state 20 256 "_ZTVii".toList).map (fun s => Res.ok (false, s)) := by
  decide

/-- C5: the result of `demangle` does not depend on the content of the output buffer
before the call: two calls on the same input and capacity return the same flag and, when
the flag is true, leave the same text. -/
theorem demangle_ignores_buffer (fuel : Nat) (p1 p2 : List Char) (size : Nat)
    (mangled : List Char) (b : Bool) (out : List Char)
    (h : demangle fuel p1 size mangled = Res.ok (b, out)) :
    ∃ out2, demangle fuel p2 size mangled = Res.ok (b, out2) ∧ (b = true → out2 = out) := by
  unfold demangle at h ⊢
  split_ifs at h ⊢ with h1 h2
  · simp only [Res.ok.injEq, Prod.mk.injEq] at h
    exact ⟨p2, by rw [← h.1], by rw [← h.1]; intro hh; cases hh⟩
  · exact ⟨out, h, fun _ => rfl⟩

theorem demangle_ignores_buffer_witness :
    demangle 20 "old text".toList 256 "_Z3funi".toList = Res.ok (true, "fun(int)".toList) ∧
    ∃ out2, demangle 20 [] 256 "_Z3funi".toList = Res.ok (true, out2) ∧
      (true = true → out2 = "fun(int)".toList) :=
  ⟨by decide, demangle_ignores_buffer 20 "old text".toList [] 256 "_Z3funi".toList true
    "fun(int)".toList (by decide)⟩

/-- C8: with capacity 12 the input `_Z1fPFiiE` makes `insert` (of `(*)`, in front of the
parameter list) find no room; `valid` stays true and `demangle` returns true with the text
`f(int(int))`, while a large buffer gives `f(int(*)(int))`. -/
theorem insert_overflow_keeps_valid :
    demangle 20 [] 12 "_Z1fPFiiE".toList = Res.ok (true, "f(int(int))".toList) ∧
    demangle 20 [] 256 "_Z1fPFiiE".toList = Res.ok (true, "f(int(*)(int))".toList) := by
  decide

/-! ## Symbolic runs of the primitives -/

theorem At.run_rest {s : Mangle} {l : List Char} (h : At s l) : rest s = Res.ok (l, s) := by
  unfold rest
  rw [if_pos h.1, h.2]

theorem At.run_look0 {s : Mangle} {l : List Char} (h : At s l) :
    look 0 s = Res.ok (l.headD NUL, s) := by
  obtain ⟨h1, h2⟩ := h
  unfold look
  simp only [Nat.add_zero]
  by_cases hlt : s.mpos < s.mangled.length
  · rw [if_pos hlt]
    have : l.headD NUL = s.mangled.getD s.mpos NUL := by
      rw [← h2, List.getD_eq_getElem _ _ hlt]
      rw [List.drop_eq_getElem_cons hlt]
      rfl
    rw [this]
  · have heq : s.mpos = s.mangled.length := by omega
    rw [if_neg hlt, if_pos heq]
    have : l = [] := by rw [← h2, heq, List.drop_length]
    rw [this]; rfl

theorem At.run_look1 {s : Mangle} {c : Char} {l : List Char} (h : At s (c :: l)) :
    look 1 s = Res.ok (l.headD NUL, s) := by
  obtain ⟨h1, h2⟩ := h
  have hlt : s.mpos < s.mangled.length := by
    by_contra hc
    have : s.mpos = s.mangled.length := by omega
    rw [this, List.drop_length] at h2
    cases h2
  have h3 : s.mangled.drop (s.mpos + 1) = l := by
    have := congrArg (List.drop 1) h2
    simpa [List.drop_drop, Nat.add_comm] using this
  have hat : At (s.setMpos (s.mpos + 1)) l := ⟨by simp only [Mangle.setMpos]; omega, h3⟩
  have := hat.run_look0
  unfold look at this ⊢
  simp only [Mangle.setMpos, Nat.add_zero] at this
  split_ifs at this ⊢ with a b
  · simp only [Res.ok.injEq, Prod.mk.injEq] at this ⊢
    exact ⟨this.1, trivial⟩
  · simp only [Res.ok.injEq, Prod.mk.injEq] at this ⊢
    exact ⟨this.1, trivial⟩

theorem At.moved {s : Mangle} {l : List Char} (h : At s l) (k : Nat) (hk : k ≤ l.length) :
    At (s.setMpos (s.mpos + k)) (l.drop k) := by
  obtain ⟨h1, h2⟩ := h
  have hl : l.length = s.mangled.length - s.mpos := by rw [← h2, List.length_drop]
  refine ⟨by simp only [Mangle.setMpos]; omega, ?_⟩
  simp only [Mangle.setMpos]
  rw [← h2, List.drop_drop, Nat.add_comm]

theorem At.run_peek {s : Mangle} {l : List Char} (h : At s l) (hv : s.valid = true)
    (kw : String) : peek kw s = Res.ok (kw.toList.isPrefixOf l, s) := by
  simp only [peek, run_bind, run_getS, andThen_ok, hv, if_true, h.run_rest, run_pure]

theorem At.run_match_false {s : Mangle} {l : List Char} (h : At s l) (hv : s.valid = true)
    (kw : String) (hk : kw.toList.isPrefixOf l = false) : match_ kw s = Res.ok (false, s) := by
  simp only [match_, run_bind, h.run_peek hv, andThen_ok, hk, run_pure]
  rfl

theorem At.run_on_sentinel_false {s : Mangle} {c : Char} {l : List Char} (h : At s (c :: l))
    (hv : s.valid = true) (h1 : c ≠ NUL) (h2 : c ≠ '.') (h3 : c ≠ '@') :
    on_sentinel s = Res.ok (false, s) := by
  have e1 : (c == NUL) = false := beq_eq_false_iff_ne.mpr h1
  have e2 : (c == '.') = false := beq_eq_false_iff_ne.mpr h2
  have e3 : (c == '@') = false := beq_eq_false_iff_ne.mpr h3
  simp only [on_sentinel, run_bind, run_getS, andThen_ok, hv, if_true, h.run_look0,
    List.headD_cons, e1, e2, e3, Bool.or_self, Bool.false_eq_true, if_false, run_pure, run_ite]

theorem At.run_on_sentinel_nil {s : Mangle} (h : At s []) :
    on_sentinel s = Res.ok (true, s) := by
  by_cases hv : s.valid = true
  · simp only [on_sentinel, run_bind, run_getS, andThen_ok, hv, if_true, h.run_look0,
      List.headD_nil, beq_self_eq_true, Bool.true_or, run_pure, run_ite]
  · simp only [on_sentinel, run_bind, run_getS, andThen_ok, hv, if_false, run_pure, run_ite,
      Bool.false_eq_true]

theorem digitChar_isdigit (k : Nat) (h : k < 10) :
    isdigit (Nat.digitChar k) = true ∧ digitVal (Nat.digitChar k) = k := by
  interval_cases k <;> decide

theorem decVal_append (a : List Char) (c : Char) :
    decVal (a ++ [c]) = decVal a * 10 + digitVal c := by
  simp [decVal, List.foldl_append]

theorem toDigitsCore_spec : ∀ (f n : Nat) (acc : List Char), n < f →
    ∃ ds, Nat.toDigitsCore 10 f n acc = ds ++ acc ∧ ds ≠ [] ∧
      (∀ c ∈ ds, isdigit c = true) ∧ decVal ds = n := by
  intro f
  induction f with
  | zero => intro n acc h; omega
  | succ f ih =>
    intro n acc h
    have hd := digitChar_isdigit (n % 10) (Nat.mod_lt _ (by decide))
    simp only [Nat.toDigitsCore]
    by_cases h0 : n / 10 = 0
    · rw [if_pos h0]
      refine ⟨[Nat.digitChar (n % 10)], rfl, by simp, ?_, ?_⟩
      · intro c hc
        simp only [List.mem_singleton] at hc
        rw [hc]; exact hd.1
      · have : decVal [Nat.digitChar (n % 10)] = digitVal (Nat.digitChar (n % 10)) := by
          simp [decVal]
        rw [this, hd.2]
        omega
    · rw [if_neg h0]
      obtain ⟨ds, e, hne, hall, hval⟩ := ih (n / 10) (Nat.digitChar (n % 10) :: acc) (by omega)
      refine ⟨ds ++ [Nat.digitChar (n % 10)], by rw [e]; simp, by simp, ?_, ?_⟩
      · intro c hc
        rcases List.mem_append.mp hc with hc | hc
        · exact hall c hc
        · simp only [List.mem_singleton] at hc
          rw [hc]; exact hd.1
      · rw [decVal_append, hval, hd.2]
        omega

theorem toDigits_spec (n : Nat) :
    Nat.toDigits 10 n ≠ [] ∧ (∀ c ∈ Nat.toDigits 10 n, isdigit c = true) ∧
      decVal (Nat.toDigits 10 n) = n := by
  obtain ⟨ds, e, hne, hall, hval⟩ := toDigitsCore_spec (n + 1) n [] (by omega)
  unfold Nat.toDigits
  rw [e, List.append_nil]
  exact ⟨hne, hall, hval⟩

theorem takeWhile_append_stop {p : Char → Bool} (a b : List Char) (ha : ∀ c ∈ a, p c = true)
    (hb : ∀ c, b.head? = some c → p c = false) : (a ++ b).takeWhile p = a := by
  induction a with
  | nil =>
    cases b with
    | nil => rfl
    | cons c b => simp [List.takeWhile_cons, hb c rfl]
  | cons x a ih =>
    simp only [List.cons_append, List.takeWhile_cons, ha x (List.mem_cons_self _ _), if_true]
    rw [ih (fun c hc => ha c (List.mem_cons_of_mem _ hc))]

/-- Run of `strtol` on a decimal numeral that is followed by a character that is not a digit. -/
theorem strtol_toDigits (n : Nat) (w : List Char) (hw : ∀ c, w.head? = some c → isdigit c = false)
    (hn : (n : Int) ≤ LONG_MAX) :
    strtol (Nat.toDigits 10 n ++ w) = ((n : Int), (Nat.toDigits 10 n).length) := by
  obtain ⟨hne, hall, hval⟩ := toDigits_spec n
  obtain ⟨d, ds, hd⟩ := List.exists_cons_of_ne_nil hne
  have hdd : isdigit d = true := hall d (by rw [hd]; exact List.mem_cons_self _ _)
  have hsp : isspace d = false := by
    simp only [isdigit, isspace, Bool.and_eq_true, decide_eq_true_eq] at hdd ⊢
    simp only [Bool.or_eq_false_iff, decide_eq_false_iff_not, Bool.and_eq_false_iff]
    omega
  have hm : d ≠ '-' := by intro h; rw [h] at hdd; exact absurd hdd (by decide)
  have hp : d ≠ '+' := by intro h; rw [h] at hdd; exact absurd hdd (by decide)
  have hrun : digitRun (Nat.toDigits 10 n ++ w) = Nat.toDigits 10 n :=
    takeWhile_append_stop _ _ hall hw
  have hlen : 0 < (Nat.toDigits 10 n).length := by rw [hd]; simp
  unfold strtol
  have hws : (Nat.toDigits 10 n ++ w).takeWhile isspace = [] := by
    rw [hd]; simp [List.takeWhile_cons, hsp]
  simp only [hws, List.length_nil, List.drop_zero]
  have hh : (Nat.toDigits 10 n ++ w).head? = some d := by rw [hd]; rfl
  simp only [hh, Option.some.injEq, hm, hp, decide_False, Bool.or_self, Bool.false_eq_true,
    if_false, List.drop_zero, hrun, hval]
  rw [if_neg (by omega)]
  simp only [Nat.zero_add, Prod.mk.injEq, and_true]
  have : (0 : Int) ≤ n := Int.ofNat_nonneg n
  simp only [LONG_MIN, LONG_MAX] at *
  omega

theorem toInt32_of_lt (n : Nat) (h : n < 2147483648) : toInt32 (n : Int) = (n : Int) := by
  unfold toInt32
  omega

theorem Mangle.append_fits (s : Mangle) (t : List Char) (hv : s.valid = true)
    (h : s.plain.length + t.length < s.size) : s.append t = { s with plain := s.plain ++ t } := by
  unfold Mangle.append
  rw [if_pos hv, if_pos h]

/-- Run of `_source_name` on a decimal length followed by that many characters. -/
theorem source_name_run {s : Mangle} (w r : List Char) (hv : s.valid = true)
    (h : At s (Nat.toDigits 10 w.length ++ (w ++ r)))
    (hw : ∀ c, (w ++ r).head? = some c → isdigit c = false)
    (hlen : (w ++ r).length < 2147483647)
    (hfit : s.plain.length + w.length < s.size) :
    _source_name s = Res.ok ((), { s with
      plain := s.plain ++ w,
      mpos := s.mpos + (Nat.toDigits 10 w.length).length + w.length }) := by
  obtain ⟨hne, hall, hval⟩ := toDigits_spec w.length
  obtain ⟨d, ds, hd⟩ := List.exists_cons_of_ne_nil hne
  have hdd : isdigit d = true := hall d (by rw [hd]; exact List.mem_cons_self _ _)
  have hwl : w.length < 2147483647 := by
    have := List.length_append w r
    omega
  have hst := strtol_toDigits w.length (w ++ r) hw (by simp only [LONG_MAX]; omega)
  have h1 := h.moved (Nat.toDigits 10 w.length).length (by simp)
  simp only [List.drop_left] at h1
  have hl0 : look 0 s = Res.ok (d, s) := by
    rw [h.run_look0, hd]; rfl
  have hnl : ¬ (toInt32 ((w ++ r).length : Int) < toInt32 (w.length : Int)) := by
    rw [toInt32_of_lt _ (by omega), toInt32_of_lt _ (by omega)]
    have := List.length_append w r
    omega
  have hc2 : ¬ (toInt32 (w.length : Int) < 0 ∨ toInt32 (w.length : Int) = INT_MAX) := by
    rw [toInt32_of_lt _ (by omega)]
    simp only [INT_MAX]
    omega
  have htn : (toInt32 (w.length : Int)).toNat = w.length := by
    rw [toInt32_of_lt _ (by omega)]; rfl
  have hc3 : (decide (toInt32 (w.length : Int) < 0) ||
      decide (toInt32 (w.length : Int) = INT_MAX)) = false := by
    rw [Bool.or_eq_false_iff]
    constructor
    · exact decide_eq_false (fun hh => hc2 (Or.inl hh))
    · exact decide_eq_false (fun hh => hc2 (Or.inr hh))
  simp only [_source_name, run_bind, run_getS, andThen_ok, hv, if_true, hl0, hdd]
  simp only [h.run_rest, andThen_ok, hst, run_bind]
  simp only [advance, run_modifyS, andThen_ok, h1.run_rest]
  rw [run_bind, h1.run_rest, andThen_ok]
  rw [run_ite, if_neg hnl, run_ite, if_neg (by rw [hc3]; exact Bool.false_ne_true), htn,
    List.take_left, run_bind]
  simp only [Demangle.append, run_modifyS, andThen_ok]
  rw [Mangle.append_fits _ _ (by simpa [Mangle.setMpos] using hv)
    (by simpa [Mangle.setMpos] using hfit)]
  simp only [Mangle.setMpos, hv]

theorem table_index_none (p : String → Bool) (tab : List (String × String))
    (h : ∀ e ∈ tab, p e.1 = false) : ∀ i, table_index p tab i = none := by
  induction tab with
  | nil => intro i; rfl
  | cons e tab ih =>
    intro i
    unfold table_index
    rw [h e (List.mem_cons_self _ _)]
    exact ih (fun e he => h e (List.mem_cons_of_mem _ he)) (i + 1)

/-- No code of the tables of operators and abbreviations starts with a digit. -/
theorem codes_start_without_digit :
    (∀ e ∈ operators, ∀ c, e.1.toList.head? = some c → isdigit c = false) ∧
    (∀ e ∈ abbreviations, ∀ c, e.1.toList.head? = some c → isdigit c = false) := by
  decide

theorem beq_take_two_false (a : List Char) (d : Char) (x : List Char)
    (hd : isdigit d = true) (ha : ∀ c, a.head? = some c → isdigit c = false) :
    (a == (d :: x).take 2) = false := by
  cases a with
  | nil => rfl
  | cons c t =>
    have hc := ha c rfl
    have : c ≠ d := by intro e; rw [e, hd] at hc; cases hc
    simp [this]

theorem At.run_is_abbreviation_digit {s : Mangle} {d : Char} {x : List Char}
    (h : At s (d :: x)) (hd : isdigit d = true) : is_abbreviation s = Res.ok (none, s) := by
  simp only [is_abbreviation, run_bind, h.run_rest, andThen_ok, run_ite, run_pure]
  rw [table_index_none _ _ (fun e he =>
    beq_take_two_false _ d x hd (codes_start_without_digit.2 e he))]
  simp

theorem At.run_is_operator_digit {s : Mangle} {d : Char} {x : List Char}
    (h : At s (d :: x)) (hd : isdigit d = true) : is_operator s = Res.ok (none, s) := by
  simp only [is_operator, run_bind, h.run_rest, andThen_ok, run_ite, run_pure]
  rw [table_index_none _ _ (fun e he =>
    beq_take_two_false _ d x hd (codes_start_without_digit.1 e he))]
  simp

theorem isPrefixOf_cons_ne (a b : Char) (k x : List Char) (h : a ≠ b) :
    (a :: k).isPrefixOf (b :: x) = false := by
  simp [List.isPrefixOf, h]

/-- Run of `_name` on a source name: a decimal length followed by that many characters, not
followed by template arguments. -/
theorem name_source_run (fuel : Nat) {s : Mangle} (w r : List Char) (hv : s.valid = true)
    (h : At s (Nat.toDigits 10 w.length ++ (w ++ r)))
    (hw : ∀ c, (w ++ r).head? = some c → isdigit c = false)
    (hlen : (w ++ r).length < 2147483647)
    (hfit : s.plain.length + w.length < s.size)
    (hI : "I".toList.isPrefixOf r = false) :
    _name (fuel + 1) s = Res.ok ((), { s with
      plain := s.plain ++ w,
      mpos := s.mpos + (Nat.toDigits 10 w.length).length + w.length }) := by
  obtain ⟨hne, hall, hval⟩ := toDigits_spec w.length
  obtain ⟨d, ds, hd⟩ := List.exists_cons_of_ne_nil hne
  have hdd : isdigit d = true := hall d (by rw [hd]; exact List.mem_cons_self _ _)
  have h' : At s (d :: (ds ++ (w ++ r))) := by rw [hd] at h; exact h
  have hne' : ∀ c : Char, isdigit c = false → c ≠ d := by
    intro c hc e; rw [e, hdd] at hc; cases hc
  have pN : peek "N" s = Res.ok (false, s) := by
    rw [h'.run_peek hv]; congr 2
    exact isPrefixOf_cons_ne _ _ _ _ (hne' _ (by decide))
  have pZ : peek "Z" s = Res.ok (false, s) := by
    rw [h'.run_peek hv]; congr 2
    exact isPrefixOf_cons_ne _ _ _ _ (hne' _ (by decide))
  have pS : peek_substitution s = Res.ok (false, s) := by
    have : peek "S" s = Res.ok (false, s) := by
      rw [h'.run_peek hv]; congr 2
      exact isPrefixOf_cons_ne _ _ _ _ (hne' _ (by decide))
    simp only [peek_substitution, run_bind, this, andThen_ok, Bool.false_eq_true, if_false,
      run_pure]
  have pC : peek_ctor_dtor s = Res.ok (false, s) := by
    have hC := hne' 'C' (by decide)
    have hD := hne' 'D' (by decide)
    simp only [peek_ctor_dtor, run_bind, run_getS, andThen_ok, hv, if_true, h'.run_rest,
      run_pure]
    congr 2
    simp [List.isPrefixOf, hC, hD]
  have hl0 : look 0 s = Res.ok (d, s) := by rw [h'.run_look0]; rfl
  have hsn := source_name_run w r hv h hw hlen hfit
  have hat : At ({ s with
      plain := s.plain ++ w,
      mpos := s.mpos + (Nat.toDigits 10 w.length).length + w.length } : Mangle) r := by
    have := h.moved ((Nat.toDigits 10 w.length).length + w.length) (by simp)
    refine ⟨?_, ?_⟩
    · have := this.1; simp only [Mangle.setMpos] at this ⊢; omega
    · have := this.2
      simp only [Mangle.setMpos] at this ⊢
      rw [Nat.add_assoc, this, List.drop_append, List.drop_left]
  have pI := hat.run_peek (by simpa using hv) "I"
  rw [hI] at pI
  simp only [hv] at pI hsn
  simp only [_name, run_bind, current_position, run_getS, andThen_ok, run_pure, hv, if_true,
    pN, pZ, h'.run_is_abbreviation_digit hdd, pS, h'.run_is_operator_digit hdd, pC, hl0, hdd,
    hsn, pI, Bool.false_eq_true, if_false, Option.isSome_none, reduceCtorEq, run_ite]

theorem table_index_congr (p q : String → Bool) (tab : List (String × String))
    (h : ∀ e ∈ tab, p e.1 = q e.1) : ∀ i, table_index p tab i = table_index q tab i := by
  induction tab with
  | nil => intro i; rfl
  | cons e tab ih =>
    intro i
    unfold table_index
    rw [h e (List.mem_cons_self _ _), ih (fun e he => h e (List.mem_cons_of_mem _ he))]

theorem table_index_some (p : String → Bool) (tab : List (String × String)) :
    ∀ i j, table_index p tab i = some j → i ≤ j ∧ p (tab.getD (j - i) ("", "")).1 = true := by
  induction tab with
  | nil => intro i j h; cases h
  | cons e tab ih =>
    intro i j h
    unfold table_index at h
    by_cases hp : p e.1 = true
    · rw [if_pos hp] at h
      cases h
      simpa using hp
    · rw [if_neg hp] at h
      obtain ⟨h1, h2⟩ := ih (i + 1) j h
      refine ⟨by omega, ?_⟩
      have : j - i = (j - (i + 1)) + 1 := by omega
      rw [this]
      simpa using h2

/-- The codes of `types` have one character, or two of which the first is `D`. -/
theorem types_code_lengths :
    ∀ e ∈ types, e.1.toList.length = 1 ∨
      (e.1.toList.length = 2 ∧ e.1.toList.head? = some 'D') := by
  decide

theorem types_code_shape (e : String × String) (he : e ∈ types) :
    (∃ x, e.1.toList = [x]) ∨ (∃ y, e.1.toList = ['D', y]) := by
  rcases types_code_lengths e he with h | ⟨h1, h2⟩
  · left
    match hl : e.1.toList, h with
    | [x], _ => exact ⟨x, rfl⟩
  · right
    match hl : e.1.toList, h1, h2 with
    | [a, y], _, h2 =>
      simp only [List.head?_cons, Option.some.injEq] at h2
      exact ⟨y, by rw [h2]⟩

theorem builtin_name_D : builtin_name 'D' = none := by decide

/-- Run of `is_builtin_type` in front of a one-letter code. -/
theorem At.run_is_builtin_type {s : Mangle} {c : Char} {r nm : List Char} (h : At s (c :: r))
    (hc : builtin_name c = some nm) :
    ∃ i, is_builtin_type s = Res.ok (some i, s) ∧ (entry types i).1.length = 1 ∧
      (entry types i).2.toList = nm := by
  have hD : c ≠ 'D' := by
    intro e; rw [e, builtin_name_D] at hc; cases hc
  unfold builtin_name at hc
  cases hi : table_index (fun a => a.toList == [c]) types 0 with
  | none => rw [hi] at hc; cases hc
  | some i =>
    rw [hi] at hc
    simp only [Option.map_some', Option.some.injEq] at hc
    have hq := (table_index_some _ _ _ _ hi).2
    simp only [Nat.sub_zero] at hq
    refine ⟨i, ?_, ?_, hc⟩
    · simp only [is_builtin_type, run_bind, h.run_rest, andThen_ok, List.length_cons, run_ite,
        run_pure]
      rw [if_neg (by omega)]
      congr 2
      rw [← hi]
      apply table_index_congr
      intro e he
      rcases types_code_shape e he with ⟨x, hx⟩ | ⟨y, hy⟩
      · have hl : e.1.length = 1 := by
          show e.1.data.length = 1
          have : e.1.data = [x] := hx
          rw [this]; rfl
        rw [hx, hl]
        by_cases hxc : x = c
        · subst hxc; simp [List.isPrefixOf]
        · simp [List.isPrefixOf, hxc]
      · rw [hy]
        have : ('D' == c) = false := by simpa using hD.symm
        simp [List.isPrefixOf, hD.symm]
    · have : (entry types i).1.toList = [c] := by simpa [entry] using hq
      show (entry types i).1.data.length = 1
      have h2 : (entry types i).1.data = [c] := this
      rw [h2]; rfl

/-- Run of `_type` on a one-letter builtin code. -/
theorem type_builtin_run (fuel : Nat) {s : Mangle} {c : Char} {r n : List Char}
    (hv : s.valid = true) (h : At s (c :: r)) (hc : builtin_name c = some n)
    (hfit : s.plain.length + n.length < s.size) :
    _type (fuel + 1) s = Res.ok ((), { s with
      valid := true, plain := s.plain ++ n, mpos := s.mpos + 1 }) := by
  obtain ⟨i, h1, h2, h3⟩ := h.run_is_builtin_type hc
  simp only [_type, run_bind, run_getS, andThen_ok, hv, if_true, current_position, run_pure, h1,
    h2, h3, advance, run_modifyS, Demangle.append]
  rw [Mangle.append_fits _ _ (by simpa [Mangle.setMpos] using hv)
    (by simpa [Mangle.setMpos] using hfit)]
  simp only [Mangle.setMpos, hv]

theorem getD_mem_or_default {α : Type} (l : List α) (i : Nat) (d : α) :
    l.getD i d ∈ l ∨ l.getD i d = d := by
  by_cases h : i < l.length
  · left; rw [List.getD_eq_getElem _ _ h]; exact List.getElem_mem _
  · right; exact List.getD_eq_default _ _ (by omega)

theorem builtin_name_spec (c : Char) (nm : List Char) (h : builtin_name c = some nm) :
    ∃ e ∈ types, e.1.toList = [c] ∧ e.2.toList = nm := by
  unfold builtin_name at h
  cases hi : table_index (fun a => a.toList == [c]) types 0 with
  | none => rw [hi] at h; cases h
  | some i =>
    rw [hi] at h
    simp only [Option.map_some', Option.some.injEq] at h
    have hq := (table_index_some _ _ _ _ hi).2
    simp only [Nat.sub_zero, beq_iff_eq] at hq
    rcases getD_mem_or_default types i ("", "") with hm | hm
    · exact ⟨_, hm, hq, h⟩
    · rw [hm] at hq; cases hq

theorem types_codes_lower :
    ∀ e ∈ types, e.1.toList.length = 1 → e.1.toList.all islower = true := by
  decide

theorem types_void : ∀ e ∈ types, e.2 = "void" → e.1 = "v" := by
  decide

theorem builtin_name_lower (c : Char) (nm : List Char) (h : builtin_name c = some nm) :
    islower c = true := by
  obtain ⟨e, he, h1, _⟩ := builtin_name_spec c nm h
  have := types_codes_lower e he (by rw [h1]; rfl)
  rw [h1] at this
  simpa using this

theorem builtin_name_void (c : Char) (h : builtin_name c = some "void".toList) : c = 'v' := by
  obtain ⟨e, he, h1, h2⟩ := builtin_name_spec c _ h
  have h3 : e.2 = "void" := String.ext h2
  have h4 := types_void e he h3
  rw [h4] at h1
  cases h1
  rfl

theorem builtin_name_not_special (c : Char) (nm : List Char) (h : builtin_name c = some nm) :
    c ≠ NUL ∧ c ≠ '.' ∧ c ≠ '@' ∧ c ≠ 'E' ∧ c ≠ 'I' ∧ isdigit c = false := by
  have hl := builtin_name_lower c nm h
  refine ⟨?_, ?_, ?_, ?_, ?_, ?_⟩
  · intro e; rw [e] at hl; exact absurd hl (by decide)
  · intro e; rw [e] at hl; exact absurd hl (by decide)
  · intro e; rw [e] at hl; exact absurd hl (by decide)
  · intro e; rw [e] at hl; exact absurd hl (by decide)
  · intro e; rw [e] at hl; exact absurd hl (by decide)
  · simp only [islower, isdigit, Bool.and_eq_true, decide_eq_true_eq] at hl ⊢
    simp only [Bool.and_eq_false_iff, decide_eq_false_iff_not]
    omega

theorem cond_append_run (count : Nat) (s : Mangle) (hv : s.valid = true)
    (hfit : s.plain.length + (if count > 0 then ",".toList else []).length < s.size) :
    (if count > 0 then append ",".toList else pure ()) s = Res.ok ((), { s with
      plain := s.plain ++ (if count > 0 then ",".toList else []) }) := by
  by_cases hc : count > 0
  · simp only [hc, if_true] at hfit ⊢
    simp only [Demangle.append, run_modifyS]
    rw [Mangle.append_fits _ _ hv hfit]
  · simp only [hc, if_false, run_pure, List.append_nil]

theorem ite_bind_run {α β : Type} (c : Prop) [Decidable c] (a b : M α) (k : α → M β)
    (s : Mangle) : (if c then a >>= k else b >>= k) s = andThen ((if c then a else b) s) k := by
  split <;> rfl

theorem function_encoding_loop_run : ∀ (cs : List Char) (fuel count : Nat) (s : Mangle),
    cs.length + 1 ≤ fuel → s.valid = true → At s cs → s.func_nest = 0 →
    (∀ c ∈ cs, (builtin_name c).isSome = true) →
    (count = 0 → cs ≠ ['v']) →
    s.plain.length + (params_text count cs).length < s.size →
    ∃ pb, function_encoding_loop fuel count s = Res.ok ((), { s with
      valid := true, plain := s.plain ++ params_text count cs, mpos := s.mpos + cs.length,
      parameter_base := pb }) := by
  intro cs
  induction cs with
  | nil =>
    intro fuel count s hf hv h hfn _ _ _
    obtain ⟨f, rfl⟩ : ∃ f, fuel = f + 1 := ⟨fuel - 1, by simp at hf; omega⟩
    refine ⟨s.parameter_base, ?_⟩
    simp only [function_encoding_loop, run_bind, h.run_on_sentinel_nil, andThen_ok, if_true,
      run_pure, params_text, List.append_nil, List.length_nil, Nat.add_zero, ← hv]
  | cons c r ih =>
    intro fuel count s hf hv h hfn hcodes hcv hfit
    obtain ⟨f, rfl⟩ : ∃ f, fuel = f + 1 + 1 := ⟨fuel - 2, by simp at hf; omega⟩
    obtain ⟨nm, hnm⟩ := Option.isSome_iff_exists.mp (hcodes c (List.mem_cons_self _ _))
    obtain ⟨n1, n2, n3, n4, n5, n6⟩ := builtin_name_not_special c nm hnm
    have hos := h.run_on_sentinel_false hv n1 n2 n3
    simp only [params_text, hnm, Option.getD_some, List.length_append] at hfit
    obtain ⟨v, p, sz, m, k, n, tc, q, fn, pb0, ss, ts⟩ := s
    simp only at hv hfn hfit
    subst hv hfn
    have hspb : set_parameter_base p.length ⟨true, p, sz, m, k, n, tc, q, 0, pb0, ss, ts⟩
        = Res.ok ((), ⟨true, p, sz, m, k, n, tc, q, 0, pb0.set 0 (some p.length), ss, ts⟩) := by
      simp only [set_parameter_base, run_bind, run_getS, andThen_ok, run_ite]
      rw [if_pos (by decide), run_modifyS]
      rfl
    have hca := cond_append_run count
      ⟨true, p, sz, m, k, n, tc, q, 0, pb0.set 0 (some p.length), ss, ts⟩ rfl (by simp only; omega)
    simp only at hca
    have hty := type_builtin_run f
      (s := ⟨true, p ++ (if count > 0 then ",".toList else []), sz, m, k, n, tc, q, 0,
        pb0.set 0 (some p.length), ss, ts⟩) (c := c) (r := r) (n := nm)
      rfl ⟨h.1, h.2⟩ hnm (by simp only [List.length_append]; omega)
    simp only at hty
    have hz : ¬ ((0 : Int) > 0) := by decide
    have hat3 : At ⟨true, p ++ ((if count > 0 then ",".toList else []) ++ nm), sz, m, k + 1, n,
        tc, q, 0, pb0.set 0 (some p.length), ss, ts⟩ r := by
      have := h.moved 1 (by simp)
      exact ⟨this.1, this.2⟩
    obtain ⟨pb, hih⟩ := ih (f + 1) (count + 1)
      ⟨true, p ++ ((if count > 0 then ",".toList else []) ++ nm), sz, m, k + 1, n,
        tc, q, 0, pb0.set 0 (some p.length), ss, ts⟩
      (by simp only [List.length_cons] at hf; omega) rfl hat3 rfl
      (fun c hc => hcodes c (List.mem_cons_of_mem _ hc)) (fun h0 => by omega)
      (by simp only [List.length_append]; omega)
    simp only at hih
    refine ⟨pb, ?_⟩
    rw [function_encoding_loop]
    simp only [run_bind, hos, andThen_ok, Bool.false_eq_true, if_false,
      run_getS, hz, run_pure, current_position, hspb, ite_bind_run, hca, hty,
      text_at, List.drop_append_of_le_length, List.append_assoc, List.drop_left]
    have hfin : (⟨true, p ++ ((if count > 0 then ",".toList else []) ++
          (nm ++ params_text (count + 1) r)), sz, m, k + 1 + r.length, n, tc, q, 0, pb, ss, ts⟩
          : Mangle)
        = ⟨true, p ++ params_text count (c :: r), sz, m, k + (c :: r).length, n, tc, q, 0,
            pb, ss, ts⟩ := by
      simp only [params_text, hnm, Option.getD_some, List.append_assoc, List.length_cons,
        Mangle.mk.injEq, true_and, and_true]
      omega
    by_cases hcond : (decide (count = 0) &&
        (if count > 0 then ",".toList else []) ++ nm == "void".toList) = true
    · rw [run_ite, if_pos hcond]
      simp only [Bool.and_eq_true, decide_eq_true_eq, beq_iff_eq] at hcond
      obtain ⟨hc0, hvoid⟩ := hcond
      subst hc0
      simp only [gt_iff_lt, lt_self_iff_false, if_false, List.nil_append] at hvoid
      subst hvoid
      have hcv' := builtin_name_void c hnm
      subst hcv'
      cases r with
      | nil => exact absurd rfl (hcv rfl)
      | cons c2 r2 =>
        obtain ⟨nm2, hnm2⟩ :=
          Option.isSome_iff_exists.mp (hcodes c2 (List.mem_cons_of_mem _ (List.mem_cons_self _ _)))
        obtain ⟨m1, m2, m3, _, _, _⟩ := builtin_name_not_special c2 nm2 hnm2
        have hos2 := hat3.run_on_sentinel_false rfl m1 m2 m3
        simp only [gt_iff_lt, lt_self_iff_false, if_false, List.nil_append] at hos2 hih hfin ⊢
        simp only [run_bind, hos2, andThen_ok, run_getS, Bool.false_eq_true, if_false, hz,
          run_pure, hih, List.append_assoc, gt_iff_lt, lt_self_iff_false]
        rw [← hfin]
    · rw [run_ite, if_neg hcond]
      simp only [run_bind, run_pure, andThen_ok, hih, List.append_assoc]
      rw [← hfin]

theorem builtin_name_v : builtin_name 'v' = some "void".toList := by decide

/-- The parameter loop on the single code `v`: the text `void` is written and erased. -/
theorem function_encoding_loop_void (fuel : Nat) (s : Mangle) (hf : 2 ≤ fuel)
    (hv : s.valid = true) (h : At s ['v']) (hfn : s.func_nest = 0)
    (hfit : s.plain.length + 4 < s.size) :
    ∃ pb, function_encoding_loop fuel 0 s = Res.ok ((), { s with
      valid := true, mpos := s.mpos + 1, parameter_base := pb }) := by
  obtain ⟨f, rfl⟩ : ∃ f, fuel = f + 1 + 1 := ⟨fuel - 2, by omega⟩
  have hos := h.run_on_sentinel_false hv (by decide) (by decide) (by decide)
  obtain ⟨v, p, sz, m, k, n, tc, q, fn, pb0, ss, ts⟩ := s
  simp only at hv hfn hfit
  subst hv hfn
  have hspb : set_parameter_base p.length ⟨true, p, sz, m, k, n, tc, q, 0, pb0, ss, ts⟩
      = Res.ok ((), ⟨true, p, sz, m, k, n, tc, q, 0, pb0.set 0 (some p.length), ss, ts⟩) := by
    simp only [set_parameter_base, run_bind, run_getS, andThen_ok, run_ite]
    rw [if_pos (by decide), run_modifyS]
    rfl
  have hty := type_builtin_run f
    (s := ⟨true, p, sz, m, k, n, tc, q, 0, pb0.set 0 (some p.length), ss, ts⟩)
    (c := 'v') (r := []) (n := "void".toList) rfl ⟨h.1, h.2⟩ builtin_name_v
    (by simp only [String.toList]; simp only [List.length_cons, List.length_nil]; omega)
  simp only at hty
  have hz : ¬ ((0 : Int) > 0) := by decide
  have hz2 : ¬ (0 > 0) := by decide
  have hat3 : At ⟨true, p ++ "void".toList, sz, m, k + 1, n, tc, q, 0,
      pb0.set 0 (some p.length), ss, ts⟩ [] := by
    have := h.moved 1 (by simp)
    exact ⟨this.1, this.2⟩
  have hat4 : At ⟨true, p, sz, m, k + 1, n, tc, q, 0,
      pb0.set 0 (some p.length), ss, ts⟩ [] := ⟨hat3.1, hat3.2⟩
  refine ⟨pb0.set 0 (some p.length), ?_⟩
  rw [function_encoding_loop]
  simp only [run_bind, hos, andThen_ok, Bool.false_eq_true, if_false,
    run_getS, hz, run_pure, current_position, hspb, hz2, hty,
    text_at, List.drop_left, decide_True, Bool.true_and, beq_self_eq_true, if_true,
    hat3.run_on_sentinel_nil, truncate, run_modifyS, Mangle.truncate, List.take_left]
  rw [function_encoding_loop]
  simp only [run_bind, hat4.run_on_sentinel_nil, andThen_ok, if_true, run_pure]

/-- The parameter loop of a function encoding at nesting level zero, from the first
parameter on. -/
theorem function_encoding_loop_top (cs : List Char) (fuel : Nat) (s : Mangle)
    (hf : cs.length + 1 ≤ fuel) (hv : s.valid = true) (h : At s cs) (hfn : s.func_nest = 0)
    (hcodes : ∀ c ∈ cs, (builtin_name c).isSome = true) (hne : cs ≠ [])
    (hfit : s.plain.length + (params_text 0 cs).length < s.size) :
    ∃ pb, function_encoding_loop fuel 0 s = Res.ok ((), { s with
      valid := true, plain := s.plain ++ shown_params cs, mpos := s.mpos + cs.length,
      parameter_base := pb }) := by
  by_cases hvd : cs = ['v']
  · subst hvd
    obtain ⟨pb, hl⟩ := function_encoding_loop_void fuel s hf hv h hfn hfit
    refine ⟨pb, ?_⟩
    rw [hl]
    simp only [shown_params, if_true, List.append_nil, List.length_cons, List.length_nil]
  · obtain ⟨pb, hl⟩ := function_encoding_loop_run cs fuel 0 s hf hv h hfn hcodes
      (fun _ => hvd) hfit
    refine ⟨pb, ?_⟩
    rw [hl]
    simp only [shown_params, if_neg hvd]

theorem params_text_succ (count : Nat) (cs : List Char) :
    params_text (count + 1) cs
      = (cs.map (fun c => ",".toList ++ (builtin_name c).getD [])).flatten := by
  induction cs generalizing count with
  | nil => rfl
  | cons c r ih =>
    simp only [params_text, Nat.succ_pos, gt_iff_lt, if_true, ih, List.map_cons, List.flatten_cons,
      List.append_assoc]

theorem intercalate_cons (sep x : List Char) (xs : List (List Char)) :
    sep.intercalate (x :: xs) = x ++ (xs.map (fun y => sep ++ y)).flatten := by
  induction xs generalizing x with
  | nil => simp [List.intercalate]
  | cons y ys ih =>
    have := ih y
    simp only [List.intercalate, List.intersperse, List.flatten_cons, List.map_cons,
      List.append_assoc] at this ⊢
    rw [this]

theorem params_text_zero (cs : List Char) :
    params_text 0 cs = ",".toList.intercalate (cs.map (fun c => (builtin_name c).getD [])) := by
  cases cs with
  | nil => rfl
  | cons c r =>
    rw [List.map_cons, intercalate_cons, List.map_map]
    simp only [params_text, gt_iff_lt, lt_self_iff_false, if_false, List.nil_append,
      params_text_succ, Nat.zero_add]
    rfl

theorem is_identifier_spec (w : List Char) (h : is_identifier w = true) :
    ∃ c r, w = c :: r ∧ isdigit c = false ∧
      (∀ x ∈ w, isalpha x = true ∨ isdigit x = true ∨ x = '_') := by
  cases w with
  | nil => cases h
  | cons c r =>
    simp only [is_identifier, Bool.and_eq_true, Bool.or_eq_true, beq_iff_eq, List.all_eq_true] at h
    refine ⟨c, r, rfl, ?_, ?_⟩
    · rcases h.1 with h1 | h1
      · simp only [isalpha, isupper, islower, isdigit, Bool.or_eq_true, Bool.and_eq_true,
          decide_eq_true_eq] at h1 ⊢
        simp only [Bool.and_eq_false_iff, decide_eq_false_iff_not]
        omega
      · rw [h1]; decide
    · intro x hx
      rcases List.mem_cons.mp hx with hx | hx
      · rw [hx]
        rcases h.1 with h1 | h1
        · exact Or.inl h1
        · exact Or.inr (Or.inr h1)
      · rcases h.2 x hx with (h1 | h1) | h1
        · exact Or.inl h1
        · exact Or.inr (Or.inl h1)
        · exact Or.inr (Or.inr h1)

theorem ident_char_ne (x : Char) (h : isalpha x = true ∨ isdigit x = true ∨ x = '_') (y : Char)
    (hy : isalpha y = false) (hy2 : isdigit y = false) (hy3 : y ≠ '_') : x ≠ y := by
  intro e
  subst e
  rcases h with h | h | h
  · rw [h] at hy; cases hy
  · rw [h] at hy2; cases hy2
  · exact hy3 h

theorem pchar_last_mem (p w : List Char) (hw : w ≠ []) :
    pchar (p ++ w) ((p ++ w).length - 1) ∈ w := by
  have hlen : 0 < w.length := List.length_pos.mpr hw
  unfold pchar
  rw [List.getD_eq_getElem _ _ (by simp only [List.length_append]; omega)]
  rw [List.getElem_append_right (by simp only [List.length_append]; omega)]
  exact List.getElem_mem _

/-- Run of `_function_encoding` on a source name followed by one-letter builtin codes. -/
theorem function_encoding_run (fuel : Nat) (s : Mangle) (name codes : List Char)
    (hv : s.valid = true) (hn : s.nest = 0) (hfn : s.func_nest = 0) (hq : s.qualifiers = [])
    (htc : s.is_typecast_op = false)
    (h : At s (Nat.toDigits 10 name.length ++ (name ++ codes)))
    (hid : is_identifier name = true)
    (hcodes : ∀ c ∈ codes, (builtin_name c).isSome = true)
    (hne : codes ≠ [])
    (hlen : name.length + codes.length < 2147483647)
    (hfit : s.plain.length + name.length + 1 + (params_text 0 codes).length < s.size)
    (hsize : s.plain.length + name.length + 1 + (shown_params codes).length + 1 < s.size)
    (hfuel : codes.length + 1 ≤ fuel) :
    ∃ pb k, _function_encoding (fuel + 1) s = Res.ok ((), { s with
      valid := true, plain := s.plain ++ rendered name codes, mpos := k,
      parameter_base := pb }) := by
  obtain ⟨c0, r0, hname, hc0, hchars⟩ := is_identifier_spec name hid
  obtain ⟨c1, r1, hcs⟩ := List.exists_cons_of_ne_nil hne
  obtain ⟨nm1, hnm1⟩ := Option.isSome_iff_exists.mp (hcodes c1 (by rw [hcs]; exact List.mem_cons_self _ _))
  obtain ⟨n1, n2, n3, n4, n5, n6⟩ := builtin_name_not_special c1 nm1 hnm1
  obtain ⟨f, rfl⟩ : ∃ f, fuel = f + 1 := ⟨fuel - 1, by omega⟩
  obtain ⟨v, p, sz, m, k, n, tc, q, fn, pb0, ss, ts⟩ := s
  simp only at hv hn hfn hq htc hsize hfit
  subst hv hn hfn hq htc
  have hnm := name_source_run f (w := name) (r := codes) rfl h
    (by intro c hc; rw [hname] at hc; simp only [List.cons_append, List.head?_cons,
          Option.some.injEq] at hc; rw [← hc]; exact hc0)
    (by simp only [List.length_append]; omega) (by simp only; omega)
    (by rw [hcs]; exact isPrefixOf_cons_ne _ _ _ _ (Ne.symm n5))
  simp only at hnm
  have hat : At ⟨true, p ++ name, sz, m, k + (Nat.toDigits 10 name.length).length + name.length,
      0, false, [], 0, pb0, ss, ts⟩ codes := by
    have := h.moved ((Nat.toDigits 10 name.length).length + name.length) (by simp)
    refine ⟨?_, ?_⟩
    · have := this.1; simp only [Mangle.setMpos] at this ⊢; omega
    · have := this.2
      simp only [Mangle.setMpos] at this ⊢
      rw [Nat.add_assoc, this, List.drop_append, List.drop_left]
  have hos : on_sentinel ⟨true, p ++ name, sz, m,
      k + (Nat.toDigits 10 name.length).length + name.length, 0, false, [], 0, pb0, ss, ts⟩
      = Res.ok (false, ⟨true, p ++ name, sz, m,
      k + (Nat.toDigits 10 name.length).length + name.length, 0, false, [], 0, pb0, ss, ts⟩) := by
    rw [hcs] at hat
    exact hat.run_on_sentinel_false rfl n1 n2 n3
  have hz : ¬ ((0 : Int) > 0) := by decide
  have hlast : (pchar (p ++ name) ((p ++ name).length - 1) == '>') = false := by
    have hm := pchar_last_mem p name (by rw [hname]; exact List.cons_ne_nil _ _)
    exact beq_eq_false_iff_ne.mpr
      (ident_char_ne _ (hchars _ hm) '>' (by decide) (by decide) (by decide))
  have hnl : ¬ ((p ++ name).length = 0) := by
    rw [hname]; simp
  obtain ⟨pb, hloop⟩ := function_encoding_loop_top codes (f + 1)
    ⟨true, p ++ name ++ "(".toList, sz, m,
      k + (Nat.toDigits 10 name.length).length + name.length, 1, false, [], 0, pb0, ss, ts⟩
    (by omega) rfl ⟨hat.1, hat.2⟩ rfl hcodes hne
    (by simp only [List.length_append, String.toList]; simp only [List.length_cons,
          List.length_nil]; omega)
  simp only at hloop
  refine ⟨pb, k + (Nat.toDigits 10 name.length).length + name.length + codes.length, ?_⟩
  rw [_function_encoding]
  simp only [run_bind, hnm, andThen_ok, hos, run_getS, Bool.false_eq_true, if_false, hz, run_pure,
    hnl, add_nest, run_modifyS, Mangle.setNest, hlast, Bool.false_and, Demangle.append]
  rw [Mangle.append_fits _ _ rfl (by
    simp only [String.toList]; simp only [List.length_append, List.length_cons, List.length_nil]
    omega)]
  have hs1 : toShort (0 + 1) = 1 := by decide
  have hs0 : toShort (1 + -1) = 0 := by decide
  simp only [hs1, hloop, andThen_ok, run_bind, run_modifyS, hs0, run_getS]
  rw [Mangle.append_fits _ _ rfl (by
    simp only [String.toList]; simp only [List.length_append, List.length_cons, List.length_nil]
    omega)]
  simp only [if_true, _qualifier_post, run_bind, run_pure, andThen_ok]
  simp only [rendered, List.append_assoc, Nat.add_assoc]

theorem cstr_of_no_nul (l : List Char) (h : ∀ c ∈ l, c ≠ NUL) : cstr l = l := by
  unfold cstr
  rw [List.takeWhile_eq_self_iff]
  intro c hc
  simp only [bne_iff_ne, ne_eq]
  exact h c hc

/-- The four special-name prefixes of `_encoding` do not match before a digit. -/
theorem encoding_digit_run (fuel : Nat) (s : Mangle) (d : Char) (l : List Char)
    (hv : s.valid = true) (h : At s (d :: l)) (hd : isdigit d = true) :
    _encoding fuel s = _function_encoding fuel s := by
  have hT : 'T' ≠ d := by
    intro e; rw [← e] at hd; exact absurd hd (by decide)
  unfold _encoding
  simp only [run_bind, h.run_match_false hv "TV" (isPrefixOf_cons_ne _ _ _ _ hT),
    h.run_match_false hv "TT" (isPrefixOf_cons_ne _ _ _ _ hT),
    h.run_match_false hv "TI" (isPrefixOf_cons_ne _ _ _ _ hT),
    h.run_match_false hv "TS" (isPrefixOf_cons_ne _ _ _ _ hT), andThen_ok,
    Bool.false_eq_true, if_false]

theorem simple_mangled_no_nul (name codes : List Char) (hid : is_identifier name = true)
    (hcodes : ∀ c ∈ codes, (builtin_name c).isSome = true) :
    cstr (simple_mangled name codes) = simple_mangled name codes := by
  obtain ⟨c0, r0, hname, hc0, hchars⟩ := is_identifier_spec name hid
  apply cstr_of_no_nul
  intro c hc
  simp only [simple_mangled, List.mem_append] at hc
  rcases hc with hc | hc | hc | hc
  · intro e; rw [e] at hc; exact absurd hc (by decide)
  · intro e
    have := (toDigits_spec name.length).2.1 c hc
    rw [e] at this; exact absurd this (by decide)
  · exact ident_char_ne c (hchars c hc) NUL (by decide) (by decide) (by decide)
  · obtain ⟨nm, hnm⟩ := Option.isSome_iff_exists.mp (hcodes c hc)
    exact (builtin_name_not_special c nm hnm).1

/-- The whole of `demangle` on a source name followed by builtin parameter codes. -/
theorem demangle_simple_run (fuel : Nat) (plain : List Char) (size : Nat)
    (name codes : List Char)
    (hid : is_identifier name = true)
    (hcodes : ∀ c ∈ codes, (builtin_name c).isSome = true)
    (hne : codes ≠ [])
    (hlen : name.length + codes.length < 2147483647)
    (hfit : name.length + 1 + (params_text 0 codes).length < size)
    (hsize : (rendered name codes).length < size)
    (hfuel : codes.length + 2 ≤ fuel) :
    demangle fuel plain size (simple_mangled name codes)
      = Res.ok (true, rendered name codes) := by
  obtain ⟨f, rfl⟩ : ∃ f, fuel = f + 1 := ⟨fuel - 1, by omega⟩
  obtain ⟨hdne, hdig, -⟩ := toDigits_spec name.length
  obtain ⟨d, dr, hd⟩ := List.exists_cons_of_ne_nil hdne
  have hdd : isdigit d = true := hdig d (by rw [hd]; exact List.mem_cons_self _ _)
  have hat : At (initial size (simple_mangled name codes))
      (Nat.toDigits 10 name.length ++ (name ++ codes)) := by
    refine ⟨?_, ?_⟩
    · simp only [initial, simple_mangled, List.length_append, String.toList]
      simp only [List.length_cons, List.length_nil]; omega
    · simp only [initial, simple_mangled, String.toList]
      rfl
  have hat2 := hat
  rw [hd, List.cons_append] at hat2
  have hrl : (rendered name codes).length = name.length + 1 + (shown_params codes).length + 1 := by
    simp only [rendered, List.length_append, String.toList, List.length_cons, List.length_nil]
    omega
  obtain ⟨pb, k, hfe⟩ := function_encoding_run f (initial size (simple_mangled name codes))
    name codes rfl rfl rfl rfl rfl hat hid hcodes hne hlen
    (by simp only [initial, List.length_nil]; omega)
    (by simp only [initial, List.length_nil]; omega) (by omega)
  unfold demangle
  rw [simple_mangled_no_nul name codes hid hcodes, if_neg (by omega)]
  rw [if_neg (by
    simp only [simple_mangled, String.toList, List.cons_append, List.nil_append, pchar,
      List.getD_cons_zero, List.getD_cons_succ]
    decide)]
  rw [encoding_digit_run (f + 1) _ d _ rfl hat2 hdd, hfe]
  simp only [initial, List.nil_append]

theorem rendered_eq_function_text (name codes : List Char) (hvoid : codes ≠ ['v']) :
    rendered name codes = function_text name codes := by
  simp only [rendered, shown_params, if_neg hvoid, function_text, params_text_zero,
    List.append_assoc]

theorem rendered_void (name : List Char) : rendered name ['v'] = name ++ "()".toList := by
  simp only [rendered, shown_params, if_true, List.nil_append]
  rfl

theorem rendered_void_first (name : List Char) (c : Char) (r : List Char) :
    rendered name ('v' :: c :: r) = name ++ "(void,".toList ++
      ",".toList.intercalate ((c :: r).map (fun c => (builtin_name c).getD [])) ++ ")".toList := by
  have hv : 'v' :: c :: r ≠ ['v'] := by simp
  rw [rendered_eq_function_text _ _ hv]
  simp only [function_text, List.map_cons, intercalate_cons, builtin_name_v, Option.getD_some,
    List.append_assoc, String.toList, List.flatten_cons, List.cons_append, List.nil_append]

/-! ## Bracket balance of the text of a simple function -/

theorem bracket_scan_plain (o c : Char) (l r : List Char) (d : Nat)
    (h : ∀ x ∈ l, x ≠ o ∧ x ≠ c) : bracket_scan o c (l ++ r) d = bracket_scan o c r d := by
  induction l with
  | nil => rfl
  | cons x l ih =>
    obtain ⟨h1, h2⟩ := h x (List.mem_cons_self _ _)
    rw [List.cons_append, bracket_scan, if_neg h1, if_neg h2]
    exact ih (fun y hy => h y (List.mem_cons_of_mem _ hy))

theorem types_names_plain :
    ∀ e ∈ types, e.1.toList.length = 1 → e.2.toList.all plain_char = true := by
  decide

theorem builtin_name_plain (c : Char) (nm : List Char) (h : builtin_name c = some nm) :
    ∀ x ∈ nm, plain_char x = true := by
  obtain ⟨e, he, h1, h2⟩ := builtin_name_spec c nm h
  have := types_names_plain e he (by rw [h1]; rfl)
  rw [h2, List.all_eq_true] at this
  exact this

theorem params_text_plain : ∀ (cs : List Char) (count : Nat),
    (∀ c ∈ cs, (builtin_name c).isSome = true) →
    ∀ x ∈ params_text count cs, plain_char x = true := by
  intro cs
  induction cs with
  | nil => intro _ _ x hx; cases hx
  | cons c r ih =>
    intro count hcodes x hx
    obtain ⟨nm, hnm⟩ := Option.isSome_iff_exists.mp (hcodes c (List.mem_cons_self _ _))
    simp only [params_text, hnm, Option.getD_some, List.mem_append] at hx
    rcases hx with (hx | hx) | hx
    · split at hx
      · simp only [String.toList, List.mem_singleton] at hx
        rw [hx]; rfl
      · cases hx
    · exact builtin_name_plain c nm hnm x hx
    · exact ih (count + 1) (fun c hc => hcodes c (List.mem_cons_of_mem _ hc)) x hx

theorem shown_params_plain (cs : List Char) (hcodes : ∀ c ∈ cs, (builtin_name c).isSome = true) :
    ∀ x ∈ shown_params cs, plain_char x = true := by
  intro x hx
  unfold shown_params at hx
  split at hx
  · cases hx
  · exact params_text_plain cs 0 hcodes x hx

theorem ident_char_plain (x : Char) (h : isalpha x = true ∨ isdigit x = true ∨ x = '_') :
    plain_char x = true := by
  have h1 := ident_char_ne x h '(' (by decide) (by decide) (by decide)
  have h2 := ident_char_ne x h ')' (by decide) (by decide) (by decide)
  have h3 := ident_char_ne x h '[' (by decide) (by decide) (by decide)
  have h4 := ident_char_ne x h ']' (by decide) (by decide) (by decide)
  have h5 := ident_char_ne x h '<' (by decide) (by decide) (by decide)
  have h6 := ident_char_ne x h '>' (by decide) (by decide) (by decide)
  simp only [plain_char, Bool.and_eq_true, bne_iff_ne, ne_eq]
  exact ⟨⟨⟨⟨⟨h1, h2⟩, h3⟩, h4⟩, h5⟩, h6⟩

theorem plain_char_ne (x : Char) (h : plain_char x = true) :
    x ≠ '(' ∧ x ≠ ')' ∧ x ≠ '[' ∧ x ≠ ']' ∧ x ≠ '<' ∧ x ≠ '>' := by
  simp only [plain_char, Bool.and_eq_true, bne_iff_ne, ne_eq] at h
  obtain ⟨⟨⟨⟨⟨h1, h2⟩, h3⟩, h4⟩, h5⟩, h6⟩ := h
  exact ⟨h1, h2, h3, h4, h5, h6⟩

theorem rendered_balanced (name codes : List Char) (hid : is_identifier name = true)
    (hcodes : ∀ c ∈ codes, (builtin_name c).isSome = true) :
    balanced '(' ')' (rendered name codes) = true ∧
      balanced '[' ']' (rendered name codes) = true ∧
      balanced '<' '>' (rendered name codes) = true := by
  obtain ⟨_, _, _, _, hchars⟩ := is_identifier_spec name hid
  have hn := fun x hx => plain_char_ne x (ident_char_plain x (hchars x hx))
  have hs := fun x hx => plain_char_ne x (shown_params_plain codes hcodes x hx)
  refine ⟨?_, ?_, ?_⟩
  · unfold balanced rendered
    rw [bracket_scan_plain _ _ _ _ _ (fun x hx => ⟨(hn x hx).1, (hn x hx).2.1⟩)]
    simp only [String.toList, List.cons_append, List.nil_append]
    rw [bracket_scan, if_pos rfl,
      bracket_scan_plain _ _ _ _ _ (fun x hx => ⟨(hs x hx).1, (hs x hx).2.1⟩)]
    rfl
  · unfold balanced rendered
    rw [bracket_scan_plain _ _ _ _ _ (fun x hx => ⟨(hn x hx).2.2.1, (hn x hx).2.2.2.1⟩)]
    simp only [String.toList, List.cons_append, List.nil_append]
    rw [bracket_scan, if_neg (by decide), if_neg (by decide),
      bracket_scan_plain _ _ _ _ _ (fun x hx => ⟨(hs x hx).2.2.1, (hs x hx).2.2.2.1⟩)]
    rfl
  · unfold balanced rendered
    rw [bracket_scan_plain _ _ _ _ _ (fun x hx => ⟨(hn x hx).2.2.2.2.1, (hn x hx).2.2.2.2.2⟩)]
    simp only [String.toList, List.cons_append, List.nil_append]
    rw [bracket_scan, if_neg (by decide), if_neg (by decide),
      bracket_scan_plain _ _ _ _ _ (fun x hx => ⟨(hs x hx).2.2.2.2.1, (hs x hx).2.2.2.2.2⟩)]
    rfl

/-! ## Functions with a source name and builtin parameter types -/

/-- C9: for a C identifier `name` and a non-empty list `codes` of one-letter builtin type
codes other than the list `v` alone, `demangle` on `_Z`, the decimal length of the name, the
name and the codes returns true with the name followed by the builtin names joined by commas
between parentheses, when the text fits the buffer, the input is shorter than the range of
`int` and the step budget covers the parameters. -/
theorem demangle_builtin_parameters (fuel : Nat) (plain : List Char) (size : Nat)
    (name codes : List Char)
    (hid : is_identifier name = true)
    (hcodes : ∀ c ∈ codes, (builtin_name c).isSome = true)
    (hne : codes ≠ []) (hvoid : codes ≠ ['v'])
    (hlen : name.length + codes.length < 2147483647)
    (hsize : (function_text name codes).length < size)
    (hfuel : codes.length + 2 ≤ fuel) :
    demangle fuel plain size
        ("_Z".toList ++ (Nat.toDigits 10 name.length ++ (name ++ codes)))
      = Res.ok (true, name ++ "(".toList ++
          ",".toList.intercalate (codes.map (fun c => (builtin_name c).getD [])) ++
          ")".toList) := by
  have hr := rendered_eq_function_text name codes hvoid
  have h := demangle_simple_run fuel plain size name codes hid hcodes hne hlen
    (by
      have : (function_text name codes).length
          = name.length + 1 + (params_text 0 codes).length + 1 := by
        simp only [function_text, params_text_zero, List.length_append, String.toList]
        rfl
      omega)
    (by rw [hr]; exact hsize) hfuel
  rw [hr] at h
  exact h

theorem demangle_builtin_parameters_witness :
    demangle 20 [] 256 "_Z3funi".toList = Res.ok (true, "fun(int)".toList) ∧
      demangle 20 [] 256 "_Z3foocis".toList = Res.ok (true, "foo(char,int,short)".toList) :=
  ⟨demangle_builtin_parameters 20 [] 256 "fun".toList "i".toList (by decide) (by decide)
      (by decide) (by decide) (by decide) (by decide) (by decide),
    demangle_builtin_parameters 20 [] 256 "foo".toList "cis".toList (by decide) (by decide)
      (by decide) (by decide) (by decide) (by decide) (by decide)⟩

/-- C10: for a C identifier `name`, `demangle` on `_Z`, the decimal length of the name, the
name and the single code `v` returns true with the name followed by `()`; and when `v` is
followed by further one-letter builtin codes it is rendered as `void` in front of the names
of the others.  The buffer has to hold the text `void` before it is erased. -/
theorem demangle_void_parameter (fuel : Nat) (plain : List Char) (size : Nat)
    (name : List Char) (hid : is_identifier name = true) :
    (name.length + 1 < 2147483647 → name.length + 5 < size → 3 ≤ fuel →
      demangle fuel plain size
          ("_Z".toList ++ (Nat.toDigits 10 name.length ++ (name ++ "v".toList)))
        = Res.ok (true, name ++ "()".toList)) ∧
    (∀ (c : Char) (r : List Char), (∀ x ∈ c :: r, (builtin_name x).isSome = true) →
      name.length + (r.length + 2) < 2147483647 →
      (function_text name ('v' :: c :: r)).length < size → r.length + 4 ≤ fuel →
      demangle fuel plain size
          ("_Z".toList ++ (Nat.toDigits 10 name.length ++ (name ++ 'v' :: c :: r)))
        = Res.ok (true, name ++ "(void,".toList ++
            ",".toList.intercalate ((c :: r).map (fun x => (builtin_name x).getD [])) ++
            ")".toList)) := by
  refine ⟨?_, ?_⟩
  · intro hlen hsize hfuel
    have h := demangle_simple_run fuel plain size name ['v'] hid (by decide) (by decide)
      hlen (by
        have : (params_text 0 ['v']).length = 4 := by decide
        omega)
      (by rw [rendered_void]; simp only [List.length_append, String.toList]
          simp only [List.length_cons, List.length_nil]; omega) hfuel
    rw [rendered_void] at h
    exact h
  · intro c r hcodes hlen hsize hfuel
    have hv : 'v' :: c :: r ≠ ['v'] := by simp
    have hr := rendered_eq_function_text name _ hv
    have hall : ∀ x ∈ 'v' :: c :: r, (builtin_name x).isSome = true := by
      intro x hx
      rcases List.mem_cons.mp hx with hx | hx
      · rw [hx]; decide
      · exact hcodes x hx
    have h := demangle_simple_run fuel plain size name ('v' :: c :: r) hid hall
      (by simp) (by simp only [List.length_cons]; omega)
      (by
        have : (function_text name ('v' :: c :: r)).length
            = name.length + 1 + (params_text 0 ('v' :: c :: r)).length + 1 := by
          simp only [function_text, params_text_zero, List.length_append, String.toList]
          rfl
        omega)
      (by rw [hr]; exact hsize) (by simp only [List.length_cons]; omega)
    rw [rendered_void_first] at h
    exact h

theorem demangle_void_parameter_witness :
    is_identifier "fun".toList = true ∧
      demangle 20 [] 256 "_Z3funv".toList = Res.ok (true, "fun()".toList) ∧
      demangle 20 [] 256 "_Z3funvi".toList = Res.ok (true, "fun(void,int)".toList) :=
  ⟨by decide,
    (demangle_void_parameter 20 [] 256 "fun".toList (by decide)).1 (by decide) (by decide)
      (by decide),
    (demangle_void_parameter 20 [] 256 "fun".toList (by decide)).2 'i' [] (by decide)
      (by decide) (by decide) (by decide)⟩

/-! ## Bracket balance of the output -/

/-- Operator names are written as the table `operators` has them, with the characters
`<` and `>` of the name: on the input `_ZlsRK1XS1_` the run of `demangle` returns true with
the text `operator<<(X const&,X const&)`, in which the pair `<>` is not balanced. -/
theorem operator_output_not_balanced :
    demangle 20 [] 256 "_ZlsRK1XS1_".toList
        = Res.ok (true, "operator<<(X const&,X const&)".toList) ∧
      balanced '<' '>' "operator<<(X const&,X const&)".toList = false := by
  decide

/-- For a function with a C identifier as its name and one-letter builtin
parameter codes, in a buffer that holds the name, the parentheses and the names of all the
parameters, `demangle` returns true with a text that is balanced in each of the pairs `()`,
`[]` and `<>`. -/
theorem simple_output_balanced (fuel : Nat) (plain : List Char) (size : Nat)
    (name codes : List Char)
    (hid : is_identifier name = true)
    (hcodes : ∀ c ∈ codes, (builtin_name c).isSome = true)
    (hne : codes ≠ [])
    (hlen : name.length + codes.length < 2147483647)
    (hsize : name.length + 2 + (params_text 0 codes).length < size)
    (hfuel : codes.length + 2 ≤ fuel) :
    ∃ out, demangle fuel plain size
        ("_Z".toList ++ (Nat.toDigits 10 name.length ++ (name ++ codes)))
        = Res.ok (true, out) ∧
      balanced '(' ')' out = true ∧ balanced '[' ']' out = true ∧
      balanced '<' '>' out = true := by
  have hle : (shown_params codes).length ≤ (params_text 0 codes).length := by
    unfold shown_params
    split
    · exact Nat.zero_le _
    · exact Nat.le_refl _
  have hrl : (rendered name codes).length = name.length + 1 + (shown_params codes).length + 1 := by
    simp only [rendered, List.length_append, String.toList, List.length_cons, List.length_nil]
    omega
  exact ⟨rendered name codes,
    demangle_simple_run fuel plain size name codes hid hcodes hne hlen (by omega) (by omega)
      hfuel,
    rendered_balanced name codes hid hcodes⟩

theorem simple_output_balanced_witness :
    ∃ out, demangle 20 [] 256 "_Z3foocis".toList = Res.ok (true, out) ∧
      balanced '(' ')' out = true ∧ balanced '[' ']' out = true ∧
      balanced '<' '>' out = true :=
  simple_output_balanced 20 [] 256 "foo".toList "cis".toList (by decide) (by decide)
    (by decide) (by decide) (by decide) (by decide)

/-! ## The suffix of an input is not seen -/

theorem Step.valid_before {s t : Mangle} (h : Step s t) (ht : t.valid = true) :
    s.valid = true := by
  cases h <;> try exact ht
  · exact absurd ht (by simp [Mangle.invalidate])
  · unfold Mangle.append at ht
    split_ifs at ht with h1 h2 <;> first | exact h1 | exact ht | exact absurd ht (by simp)
  · unfold Mangle.splice at ht
    split_ifs at ht <;> exact ht

theorem Step.same_input {s t : Mangle} (h : Step s t) : t.mangled = s.mangled := by
  cases h <;> try rfl
  · unfold Mangle.append; split_ifs <;> rfl
  · unfold Mangle.splice; split_ifs <;> rfl

theorem Reach.valid_at_start {s t : Mangle} (h : Reach s t) (ht : t.valid = true) :
    s.valid = true := by
  induction h with
  | refl => exact ht
  | tail _ hst ih => exact ih (hst.valid_before ht)

theorem Reach.input_kept {s t : Mangle} (h : Reach s t) : t.mangled = s.mangled := by
  induction h with
  | refl => rfl
  | tail _ hst ih => rw [hst.same_input, ih]

theorem Reach.stays_invalid {s t : Mangle} (h : Reach s t) (hs : s.valid = false) :
    t.valid = false := by
  cases ht : t.valid with
  | false => rfl
  | true => rw [h.valid_at_start ht] at hs; cases hs

/-- For a sound computation only the run on the input with the suffix has to be shown. -/
theorem sim_of_sound {X : Suffixed} {α : Type} {f : M α} [hs : Sound f]
    (h : ∀ s a t, s.mangled = X.base → f s = Res.ok (a, t) → t.valid = true →
      f (X.lift s) = Res.ok (a, X.lift t)) : Sim X f :=
  ⟨fun s a t hm e => ⟨by rw [(hs.run s a t e).input_kept, hm],
    fun ht => ⟨(hs.run s a t e).valid_at_start ht, h s a t hm e ht⟩⟩⟩

@[instance] theorem sim_pure {X : Suffixed} {α : Type} (a : α) : Sim X (pure a : M α) :=
  sim_of_sound (fun s b t _ e _ => by
    simp only [Pure.pure, M.pure, Res.ok.injEq, Prod.mk.injEq] at e ⊢
    exact ⟨e.1, by rw [e.2]⟩)

@[instance] theorem sim_fault {X : Suffixed} {α : Type} (e : Fault) : Sim X (fault e : M α) :=
  ⟨fun s a t _ h => by cases h⟩

theorem sim_bind {X : Suffixed} {α β : Type} {m : M α} {f : α → M β} (hm : Sim X m)
    (hf : ∀ a, Sim X (f a)) : Sim X (m >>= f) := by
  constructor
  intro s b t hs h
  simp only [Bind.bind, M.bind] at h ⊢
  cases hms : m s with
  | ok r =>
    obtain ⟨a, u⟩ := r
    rw [hms] at h
    obtain ⟨h1, h2⟩ := hm.run s a u hs hms
    obtain ⟨h3, h4⟩ := (hf a).run u b t h1 h
    refine ⟨h3, fun ht => ?_⟩
    obtain ⟨h5, h6⟩ := h4 ht
    obtain ⟨h7, h8⟩ := h2 h5
    exact ⟨h7, by rw [h8]; exact h6⟩
  | error e => rw [hms] at h; cases h

theorem sim_ite {X : Suffixed} {α : Type} {c : Prop} [Decidable c] {m1 m2 : M α}
    (h1 : Sim X m1) (h2 : Sim X m2) : Sim X (if c then m1 else m2) := by
  split <;> assumption

/-- A state update that does not touch the input and does not set `valid`. -/
theorem sim_modifyS {X : Suffixed} {g : Mangle → Mangle} (hg : ∀ s, Step s (g s))
    (hl : ∀ s, g (X.lift s) = X.lift (g s)) : Sim X (modifyS g) := by
  have := Sound.modifyS hg
  refine sim_of_sound (fun s a t _ e _ => ?_)
  simp only [Demangle.modifyS, Res.ok.injEq, Prod.mk.injEq] at e ⊢
  exact ⟨e.1, by rw [hl, e.2]⟩

/-- A continuation of `getS` that does not look at the input. -/
theorem sim_getS_bind {X : Suffixed} {β : Type} {f : Mangle → M β}
    (h : ∀ x, f (X.lift x) = f x) (hf : ∀ x, Sim X (f x)) : Sim X (getS >>= f) := by
  constructor
  intro s b t hs e
  simp only [Bind.bind, M.bind, Demangle.getS] at e ⊢
  obtain ⟨h1, h2⟩ := (hf s).run s b t hs e
  refine ⟨h1, fun ht => ?_⟩
  rw [h]
  exact h2 ht

@[instance] theorem sim_cassert {X : Suffixed} (b : Bool) : Sim X (cassert b) := by
  unfold Demangle.cassert; exact sim_ite inferInstance inferInstance

theorem Suffixed.first_ne (X : Suffixed) : X.first = '.' ∨ X.first = '@' := by
  rcases X.start with h | h
  · exact Or.inl h
  · exact Or.inr h.1

theorem Suffixed.getD_lift (X : Suffixed) (i : Nat) (h : i < X.base.length) :
    (X.base ++ X.sfx).getD i NUL = X.base.getD i NUL := by
  rw [List.getD_eq_getElem _ _ (by rw [List.length_append]; omega),
    List.getD_eq_getElem _ _ h, List.getElem_append_left h]

theorem Suffixed.getD_first (X : Suffixed) : (X.base ++ X.sfx).getD X.base.length NUL = X.first := by
  rw [List.getD_eq_getElem _ _ (by simp only [List.length_append, Suffixed.sfx, List.length_cons]; omega)]
  rw [List.getElem_append_right (Nat.le_refl _)]
  simp only [Nat.sub_self, Suffixed.sfx, List.getElem_cons_zero]

/-- A continuation of `look k` that treats `.` and `@` as it treats the NUL. -/
theorem sim_look_bind {X : Suffixed} {β : Type} (k : Nat) {f : Char → M β}
    (h1 : f '.' = f NUL) (h2 : f '@' = f NUL) (hf : ∀ c, Sim X (f c)) :
    Sim X (look k >>= f) := by
  constructor
  intro s b t hs e
  simp only [Bind.bind, M.bind, Demangle.look] at e ⊢
  simp only [Suffixed.lift, List.length_append, Suffixed.sfx, List.length_cons]
  rw [hs] at e
  by_cases hlt : s.mpos + k < X.base.length
  · rw [if_pos hlt] at e
    rw [if_pos (by omega)]
    simp only at e ⊢
    obtain ⟨r1, r2⟩ := (hf _).run s b t hs e
    refine ⟨r1, fun ht => ?_⟩
    have := X.getD_lift _ hlt
    simp only [Suffixed.sfx] at this
    rw [this]
    exact r2 ht
  · rw [if_neg hlt] at e
    by_cases heq : s.mpos + k = X.base.length
    · rw [if_pos heq] at e
      rw [if_pos (by omega)]
      simp only at e ⊢
      obtain ⟨r1, r2⟩ := (hf _).run s b t hs e
      refine ⟨r1, fun ht => ?_⟩
      have := X.getD_first
      simp only [Suffixed.sfx] at this
      rw [heq, this]
      have hfe : f X.first = f NUL := by
        rcases X.first_ne with h | h <;> rw [h] <;> assumption
      rw [hfe]
      exact r2 ht
    · rw [if_neg heq] at e; cases e

theorem Suffixed.drop_lift (X : Suffixed) (p : Nat) (h : p ≤ X.base.length) :
    (X.base ++ X.sfx).drop p = X.base.drop p ++ X.sfx := by
  rw [List.drop_append_of_le_length h]

/-- A continuation of `rest` that gives the same run on the C string with the suffix. -/
theorem sim_rest_bind {X : Suffixed} {β : Type} {f : List Char → M β}
    (hf : ∀ (l : List Char) s b t, s.mangled = X.base → s.mpos ≤ X.base.length →
      l = X.base.drop s.mpos → f l s = Res.ok (b, t) →
      t.mangled = X.base ∧ (t.valid = true → s.valid = true ∧
        f (l ++ X.sfx) (X.lift s) = Res.ok (b, X.lift t))) :
    Sim X (rest >>= f) := by
  constructor
  intro s b t hs e
  simp only [Bind.bind, M.bind, Demangle.rest] at e ⊢
  rw [hs] at e
  by_cases hle : s.mpos ≤ X.base.length
  · rw [if_pos hle] at e
    simp only at e
    have hl : (X.lift s).mpos ≤ (X.lift s).mangled.length := by
      simp only [Suffixed.lift, List.length_append]; omega
    rw [if_pos hl]
    simp only
    have hd : (X.lift s).mangled.drop (X.lift s).mpos = X.base.drop s.mpos ++ X.sfx :=
      X.drop_lift _ hle
    rw [hd]
    exact hf _ s b t hs hle rfl e
  · rw [if_neg hle] at e; cases e

/-- A continuation of `rest` that is the same on the C string with the suffix. -/
theorem sim_rest_bind_eq {X : Suffixed} {β : Type} {f : List Char → M β}
    (h : ∀ l, f (l ++ X.sfx) = f l) (hf : ∀ l, Sim X (f l)) : Sim X (rest >>= f) :=
  sim_rest_bind (fun l s b t hs _ _ e => by
    obtain ⟨r1, r2⟩ := (hf l).run s b t hs e
    refine ⟨r1, fun ht => ?_⟩
    rw [h]
    exact r2 ht)

/-! ### The primitives -/

@[instance] theorem sim_advance {X : Suffixed} (k : Nat) : Sim X (advance k) :=
  sim_modifyS (fun s => Step.setMpos s _) (fun _ => rfl)

@[instance] theorem sim_invalidate {X : Suffixed} : Sim X invalidate :=
  sim_modifyS (fun s => Step.invalidate s) (fun _ => rfl)

@[instance] theorem sim_set_mpos {X : Suffixed} (p : Nat) : Sim X (set_mpos p) :=
  sim_modifyS (fun s => Step.setMpos s _) (fun _ => rfl)

@[instance] theorem sim_append {X : Suffixed} (text : List Char) : Sim X (append text) :=
  sim_modifyS (fun s => Step.append s text) (fun s => by
    simp only [Mangle.append, Suffixed.lift]
    split_ifs <;> rfl)

@[instance] theorem sim_truncate {X : Suffixed} (mark : Nat) : Sim X (truncate mark) :=
  sim_modifyS (fun s => Step.truncate s mark) (fun _ => rfl)

@[instance] theorem sim_add_nest {X : Suffixed} (d : Int) : Sim X (add_nest d) :=
  sim_modifyS (fun s => Step.setNest s _) (fun _ => rfl)

@[instance] theorem sim_add_func_nest {X : Suffixed} (d : Int) : Sim X (add_func_nest d) :=
  sim_modifyS (fun s => Step.setFuncNest s _) (fun _ => rfl)

@[instance] theorem sim_set_typecast {X : Suffixed} : Sim X set_typecast :=
  sim_modifyS (fun s => Step.setTypecast s) (fun _ => rfl)

@[instance] theorem sim_set_qualifiers {X : Suffixed} (q : List Char) :
    Sim X (set_qualifiers q) :=
  sim_modifyS (fun s => Step.setQualifiers s q) (fun _ => rfl)

theorem isPrefixOf_append_other (x : Char) (t : List Char) :
    ∀ (k l : List Char), (∀ c ∈ k, c ≠ x) → k.isPrefixOf (l ++ x :: t) = k.isPrefixOf l := by
  intro k
  induction k with
  | nil => intro l _; simp
  | cons c k ih =>
    intro l h
    cases l with
    | nil =>
      have := h c (List.mem_cons_self _ _)
      simp [List.isPrefixOf, this]
    | cons d l =>
      simp only [List.cons_append, List.isPrefixOf]
      exact congrArg (fun b => (c == d && b)) (ih l (fun c hc => h c (List.mem_cons_of_mem _ hc)))

theorem Suffixed.isPrefixOf_lift (X : Suffixed) (kw l : List Char)
    (h : plain_keyword kw = true) : kw.isPrefixOf (l ++ X.sfx) = kw.isPrefixOf l := by
  apply isPrefixOf_append_other
  intro c hc e
  simp only [plain_keyword, List.all_eq_true, Bool.and_eq_true, bne_iff_ne, ne_eq] at h
  rcases X.first_ne with h1 | h1
  · exact (h c hc).1 (by rw [e, h1])
  · exact (h c hc).2 (by rw [e, h1])

theorem sim_peek (X : Suffixed) (kw : String) (h : plain_keyword kw.toList = true) :
    Sim X (peek kw) := by
  unfold Demangle.peek
  refine sim_getS_bind (fun _ => rfl) (fun _ => sim_ite ?_ inferInstance)
  exact sim_rest_bind_eq (fun l => by rw [X.isPrefixOf_lift _ _ h]) (fun _ => inferInstance)

theorem sim_match_ (X : Suffixed) (kw : String) (h : plain_keyword kw.toList = true) :
    Sim X (match_ kw) := by
  unfold Demangle.match_
  refine sim_bind (sim_peek X kw h) (fun _ => ?_)
  repeat' first | infer_instance | ((with_reducible refine sim_getS_bind ?_ ?_); exact fun _ => rfl) | ((with_reducible refine sim_look_bind _ ?_ ?_ ?_); rfl; rfl) | ((with_reducible refine sim_rest_bind_eq ?_ ?_); exact fun _ => by simp only [Suffixed.strtol_lift, Suffixed.digitRun_lift, Suffixed.strtoul_lift]) | with_reducible apply sim_bind | with_reducible apply sim_ite | intro _ | split

theorem sim_expect (X : Suffixed) (kw : String) (h : plain_keyword kw.toList = true) :
    Sim X (expect kw) := by
  unfold Demangle.expect
  refine sim_getS_bind (fun _ => rfl) (fun _ => sim_ite ?_ inferInstance)
  refine sim_bind (sim_match_ X kw h) (fun _ => ?_)
  repeat' first | infer_instance | ((with_reducible refine sim_getS_bind ?_ ?_); exact fun _ => rfl) | ((with_reducible refine sim_look_bind _ ?_ ?_ ?_); rfl; rfl) | ((with_reducible refine sim_rest_bind_eq ?_ ?_); exact fun _ => by simp only [Suffixed.strtol_lift, Suffixed.digitRun_lift, Suffixed.strtoul_lift]) | with_reducible apply sim_bind | with_reducible apply sim_ite | intro _ | split

@[instance] theorem sim_find_matching {X : Suffixed} (txt : List Char) (h t : Nat) (c : Char) :
    Sim X (find_matching txt h t c) := by
  unfold Demangle.find_matching
  repeat' first | infer_instance | ((with_reducible refine sim_getS_bind ?_ ?_); exact fun _ => rfl) | ((with_reducible refine sim_look_bind _ ?_ ?_ ?_); rfl; rfl) | ((with_reducible refine sim_rest_bind_eq ?_ ?_); exact fun _ => by simp only [Suffixed.strtol_lift, Suffixed.digitRun_lift, Suffixed.strtoul_lift]) | with_reducible apply sim_bind | with_reducible apply sim_ite | intro _ | split

@[instance] theorem sim_check_array_loop {X : Suffixed} (txt : List Char) (base : Nat) :
    ∀ n p, Sim X (check_array_loop txt base n p) := by
  intro n
  induction n with
  | zero => intro p; unfold Demangle.check_array_loop; infer_instance
  | succ n ih =>
    intro p
    unfold Demangle.check_array_loop
    repeat' first | infer_instance | ((with_reducible refine sim_getS_bind ?_ ?_); exact fun _ => rfl) | ((with_reducible refine sim_look_bind _ ?_ ?_ ?_); rfl; rfl) | ((with_reducible refine sim_rest_bind_eq ?_ ?_); exact fun _ => by simp only [Suffixed.strtol_lift, Suffixed.digitRun_lift, Suffixed.strtoul_lift]) | with_reducible apply sim_bind | with_reducible apply sim_ite | intro _ | split

@[instance] theorem sim_check_func_array {X : Suffixed} (base : Nat) :
    Sim X (check_func_array base) := by
  unfold Demangle.check_func_array
  refine sim_getS_bind (fun _ => rfl) (fun _ => ?_)
  repeat' first | infer_instance | ((with_reducible refine sim_getS_bind ?_ ?_); exact fun _ => rfl) | ((with_reducible refine sim_look_bind _ ?_ ?_ ?_); rfl; rfl) | ((with_reducible refine sim_rest_bind_eq ?_ ?_); exact fun _ => by simp only [Suffixed.strtol_lift, Suffixed.digitRun_lift, Suffixed.strtoul_lift]) | with_reducible apply sim_bind | with_reducible apply sim_ite | intro _ | split

/-- A sound computation that makes the same run whatever the input (it does not read it). -/
theorem sim_of_blind {X : Suffixed} {α : Type} {f : M α} [Sound f]
    (h : ∀ s, f (X.lift s) = andThen (f s) (fun a t => Res.ok (a, X.lift t))) : Sim X f :=
  sim_of_sound (fun s a t _ e _ => by rw [h, e]; rfl)

@[instance] theorem sim_insert {X : Suffixed} (mark : Nat) (text : List Char) :
    Sim X (insert mark text) := by
  apply sim_of_blind
  intro s
  have hl : ∀ s : Mangle, (X.lift s).splice mark text = X.lift (s.splice mark text) := by
    intro s
    simp only [Mangle.splice, Suffixed.lift]
    split_ifs <;> rfl
  have ha : ∀ s : Mangle, (X.lift s).append text = X.lift (s.append text) := by
    intro s
    simp only [Mangle.append, Suffixed.lift]
    split_ifs <;> rfl
  simp only [Demangle.insert, run_bind, run_getS, andThen_ok, Demangle.cassert,
    Demangle.append, run_ite, run_modifyS, run_pure, run_fault, andThen_ite, andThen_error]
  have e1 : (X.lift s).valid = s.valid := rfl
  have e2 : (X.lift s).plain = s.plain := rfl
  rw [e1, e2, hl, ha]

@[instance] theorem sim_insertion_point {X : Suffixed} (base : Nat) :
    Sim X (insertion_point base) := by
  unfold Demangle.insertion_point
  refine sim_getS_bind (fun _ => rfl) (fun _ => ?_)
  repeat' first | infer_instance | ((with_reducible refine sim_getS_bind ?_ ?_); exact fun _ => rfl) | ((with_reducible refine sim_look_bind _ ?_ ?_ ?_); rfl; rfl) | ((with_reducible refine sim_rest_bind_eq ?_ ?_); exact fun _ => by simp only [Suffixed.strtol_lift, Suffixed.digitRun_lift, Suffixed.strtoul_lift]) | with_reducible apply sim_bind | with_reducible apply sim_ite | intro _ | split

@[instance] theorem sim_append_space {X : Suffixed} : Sim X append_space := by
  unfold Demangle.append_space
  refine sim_getS_bind (fun _ => rfl) (fun _ => ?_)
  repeat' first | infer_instance | ((with_reducible refine sim_getS_bind ?_ ?_); exact fun _ => rfl) | ((with_reducible refine sim_look_bind _ ?_ ?_ ?_); rfl; rfl) | ((with_reducible refine sim_rest_bind_eq ?_ ?_); exact fun _ => by simp only [Suffixed.strtol_lift, Suffixed.digitRun_lift, Suffixed.strtoul_lift]) | with_reducible apply sim_bind | with_reducible apply sim_ite | intro _ | split

/-- A state update that keeps the input and the flag `valid`. -/
theorem sim_modifyS_keep {X : Suffixed} {g : Mangle → Mangle}
    (hl : ∀ s, g (X.lift s) = X.lift (g s)) (hv : ∀ s, (g s).valid = s.valid)
    (hm : ∀ s, (g s).mangled = s.mangled) : Sim X (Demangle.modifyS g) := by
  constructor
  intro s a t hs e
  simp only [Demangle.modifyS, Res.ok.injEq, Prod.mk.injEq] at e ⊢
  obtain ⟨e1, e2⟩ := e
  subst e2
  exact ⟨by rw [hm, hs], fun ht => ⟨by rw [← hv]; exact ht, e1, hl s⟩⟩

@[instance] theorem sim_current_position {X : Suffixed} : Sim X current_position := by
  unfold Demangle.current_position
  exact sim_getS_bind (fun _ => rfl) (fun _ => inferInstance)

@[instance] theorem sim_text_at {X : Suffixed} (mark : Nat) : Sim X (text_at mark) := by
  unfold Demangle.text_at
  exact sim_getS_bind (fun _ => rfl) (fun _ => inferInstance)

@[instance] theorem sim_add_substitution {X : Suffixed} (text : List Char) (tpl : Bool) :
    Sim X (add_substitution text tpl) := by
  have h1 : Sim X (Demangle.modifyS (fun s => s.pushTpl text)) :=
    sim_modifyS_keep (fun _ => rfl) (fun _ => rfl) (fun _ => rfl)
  have h2 : Sim X (Demangle.modifyS (fun s => s.pushSubst text)) :=
    sim_modifyS_keep (fun _ => rfl) (fun _ => rfl) (fun _ => rfl)
  unfold Demangle.add_substitution
  refine sim_getS_bind (fun _ => rfl) (fun _ => ?_)
  repeat' first | infer_instance | ((with_reducible refine sim_getS_bind ?_ ?_); exact fun _ => rfl) | ((with_reducible refine sim_look_bind _ ?_ ?_ ?_); rfl; rfl) | ((with_reducible refine sim_rest_bind_eq ?_ ?_); exact fun _ => by simp only [Suffixed.strtol_lift, Suffixed.digitRun_lift, Suffixed.strtoul_lift]) | with_reducible apply sim_bind | with_reducible apply sim_ite | intro _ | split

@[instance] theorem sim_add_substitution_at {X : Suffixed} (mark : Nat) (tpl : Bool) :
    Sim X (add_substitution_at mark tpl) := by
  unfold Demangle.add_substitution_at
  repeat' first | infer_instance | ((with_reducible refine sim_getS_bind ?_ ?_); exact fun _ => rfl) | ((with_reducible refine sim_look_bind _ ?_ ?_ ?_); rfl; rfl) | ((with_reducible refine sim_rest_bind_eq ?_ ?_); exact fun _ => by simp only [Suffixed.strtol_lift, Suffixed.digitRun_lift, Suffixed.strtoul_lift]) | with_reducible apply sim_bind | with_reducible apply sim_ite | intro _ | split

@[instance] theorem sim_free_tpl_subst {X : Suffixed} (top : Nat) :
    Sim X (free_tpl_subst top) := by
  unfold Demangle.free_tpl_subst
  exact sim_getS_bind (fun _ => rfl) (fun _ => inferInstance)

@[instance] theorem sim_shift_tpl_subst {X : Suffixed} (k : Nat) :
    Sim X (shift_tpl_subst k) := by
  have h1 : Sim X (Demangle.modifyS (fun s => s.dropTpl k)) :=
    sim_modifyS_keep (fun _ => rfl) (fun _ => rfl) (fun _ => rfl)
  unfold Demangle.shift_tpl_subst
  repeat' first | infer_instance | ((with_reducible refine sim_getS_bind ?_ ?_); exact fun _ => rfl) | ((with_reducible refine sim_look_bind _ ?_ ?_ ?_); rfl; rfl) | ((with_reducible refine sim_rest_bind_eq ?_ ?_); exact fun _ => by simp only [Suffixed.strtol_lift, Suffixed.digitRun_lift, Suffixed.strtoul_lift]) | with_reducible apply sim_bind | with_reducible apply sim_ite | intro _ | split

@[instance] theorem sim_get_parameter_base {X : Suffixed} : Sim X get_parameter_base := by
  unfold Demangle.get_parameter_base
  refine sim_getS_bind (fun _ => rfl) (fun _ => ?_)
  repeat' first | infer_instance | ((with_reducible refine sim_getS_bind ?_ ?_); exact fun _ => rfl) | ((with_reducible refine sim_look_bind _ ?_ ?_ ?_); rfl; rfl) | ((with_reducible refine sim_rest_bind_eq ?_ ?_); exact fun _ => by simp only [Suffixed.strtol_lift, Suffixed.digitRun_lift, Suffixed.strtoul_lift]) | with_reducible apply sim_bind | with_reducible apply sim_ite | intro _ | split

@[instance] theorem sim_set_parameter_base {X : Suffixed} (mark : Nat) :
    Sim X (set_parameter_base mark) := by
  have h1 : Sim X (Demangle.modifyS (fun s => s.setParamBase s.func_nest.toNat mark)) :=
    sim_modifyS_keep (fun _ => rfl) (fun _ => rfl) (fun _ => rfl)
  unfold Demangle.set_parameter_base
  refine sim_getS_bind (fun _ => rfl) (fun _ => ?_)
  repeat' first | infer_instance | ((with_reducible refine sim_getS_bind ?_ ?_); exact fun _ => rfl) | ((with_reducible refine sim_look_bind _ ?_ ?_ ?_); rfl; rfl) | ((with_reducible refine sim_rest_bind_eq ?_ ?_); exact fun _ => by simp only [Suffixed.strtol_lift, Suffixed.digitRun_lift, Suffixed.strtoul_lift]) | with_reducible apply sim_bind | with_reducible apply sim_ite | intro _ | split

@[instance] theorem sim__qualifier_post {X : Suffixed} :
    ∀ q, Sim X (_qualifier_post q) := by
  intro q
  induction q with
  | nil => unfold Demangle._qualifier_post; infer_instance
  | cons c q ih =>
    unfold Demangle._qualifier_post
    repeat' first | infer_instance | ((with_reducible refine sim_getS_bind ?_ ?_); exact fun _ => rfl) | ((with_reducible refine sim_look_bind _ ?_ ?_ ?_); rfl; rfl) | ((with_reducible refine sim_rest_bind_eq ?_ ?_); exact fun _ => by simp only [Suffixed.strtol_lift, Suffixed.digitRun_lift, Suffixed.strtoul_lift]) | with_reducible apply sim_bind | with_reducible apply sim_ite | intro _ | split

@[instance] theorem sim_append_marks {X : Suffixed} : ∀ n, Sim X (append_marks n) := by
  intro n
  induction n with
  | zero => unfold Demangle.append_marks; infer_instance
  | succ n ih =>
    unfold Demangle.append_marks
    repeat' first | infer_instance | ((with_reducible refine sim_getS_bind ?_ ?_); exact fun _ => rfl) | ((with_reducible refine sim_look_bind _ ?_ ?_ ?_); rfl; rfl) | ((with_reducible refine sim_rest_bind_eq ?_ ?_); exact fun _ => by simp only [Suffixed.strtol_lift, Suffixed.digitRun_lift, Suffixed.strtoul_lift]) | with_reducible apply sim_bind | with_reducible apply sim_ite | intro _ | split

/-! ### Scanning the input in front of the suffix -/

theorem takeWhile_append_other (p : Char → Bool) (x : Char) (t : List Char) (hx : p x = false) :
    ∀ l : List Char, (l ++ x :: t).takeWhile p = l.takeWhile p := by
  intro l
  induction l with
  | nil => simp [List.takeWhile_cons, hx]
  | cons c l ih =>
    simp only [List.cons_append, List.takeWhile_cons]
    rw [ih]

theorem length_takeWhile_le_length (p : Char → Bool) (l : List Char) :
    (l.takeWhile p).length ≤ l.length := (List.takeWhile_prefix p).length_le

theorem Suffixed.takeWhile_lift (X : Suffixed) (p : Char → Bool) (h1 : p '.' = false)
    (h2 : p '@' = false) (l : List Char) : (l ++ X.sfx).takeWhile p = l.takeWhile p := by
  apply takeWhile_append_other
  rcases X.first_ne with h | h <;> rw [h] <;> assumption

theorem Suffixed.digitRun_lift (X : Suffixed) (l : List Char) :
    digitRun (l ++ X.sfx) = digitRun l :=
  X.takeWhile_lift isdigit (by decide) (by decide) l

theorem Suffixed.head_lift (X : Suffixed) (l : List Char) (c : Char) (h1 : c ≠ '.')
    (h2 : c ≠ '@') : ((l ++ X.sfx).head? = some c) = (l.head? = some c) := by
  cases l with
  | nil =>
    simp only [List.nil_append, Suffixed.sfx, List.head?_cons, List.head?_nil,
      Option.some.injEq, eq_iff_iff]
    constructor
    · intro e
      rcases X.first_ne with h | h
      · exact absurd (by rw [← e, h]) h1
      · exact absurd (by rw [← e, h]) h2
    · intro e; cases e
  | cons d l => rfl

theorem Suffixed.strtol_lift (X : Suffixed) (l : List Char) : strtol (l ++ X.sfx) = strtol l := by
  unfold strtol
  simp only [X.takeWhile_lift isspace (by decide) (by decide)]
  have hle : (l.takeWhile isspace).length ≤ l.length := length_takeWhile_le_length _ _
  rw [List.drop_append_of_le_length hle]
  simp only [X.head_lift _ '-' (by decide) (by decide), X.head_lift _ '+' (by decide) (by decide)]
  have hs : (if (l.drop (l.takeWhile isspace).length).head? = some '-' ∨
      (l.drop (l.takeWhile isspace).length).head? = some '+' then 1 else 0)
      ≤ (l.drop (l.takeWhile isspace).length).length := by
    split
    · rename_i h
      cases hr : l.drop (l.takeWhile isspace).length with
      | nil => rw [hr] at h; simp at h
      | cons _ _ => simp
    · exact Nat.zero_le _
  simp only [Bool.or_eq_true, decide_eq_true_eq] at hs ⊢
  rw [List.drop_append_of_le_length hs, X.digitRun_lift]

theorem Suffixed.strtoul_lift (X : Suffixed) (l : List Char) :
    strtoul (l ++ X.sfx) = strtoul l := by
  unfold strtoul
  rw [X.digitRun_lift]

@[instance] theorem sim__qualifier_pre {X : Suffixed} (size : Nat) (r : Bool) :
    Sim X (_qualifier_pre size r) := by
  unfold Demangle._qualifier_pre
  refine sim_rest_bind_eq (fun l => ?_) (fun l => ?_)
  · simp only [X.takeWhile_lift (fun c => c == 'r' || c == 'V' || c == 'K') (by decide)
      (by decide)]
    have hle : ((l.takeWhile (fun c => c == 'r' || c == 'V' || c == 'K')).take (size - 1)).length
        ≤ l.length :=
      (List.length_take_le' _ _).trans (length_takeWhile_le_length _ _)
    rw [List.drop_append_of_le_length hle]
    simp only [X.takeWhile_lift (fun c => c == 'R' || c == 'O') (by decide) (by decide)]
  · repeat' first | infer_instance | ((with_reducible refine sim_getS_bind ?_ ?_); exact fun _ => rfl) | ((with_reducible refine sim_look_bind _ ?_ ?_ ?_); rfl; rfl) | ((with_reducible refine sim_rest_bind_eq ?_ ?_); exact fun _ => by simp only [Suffixed.strtol_lift, Suffixed.digitRun_lift, Suffixed.strtoul_lift]) | with_reducible apply sim_bind | with_reducible apply sim_ite | intro _ | split

@[instance] theorem sim__discriminator {X : Suffixed} : Sim X _discriminator := by
  have h1 := sim_match_ X "_" (by decide)
  have h2 := sim_expect X "_" (by decide)
  unfold Demangle._discriminator
  apply sim_bind h1
  intro _
  apply sim_ite
  · apply sim_bind h1
    intro _
    apply sim_ite
    · refine sim_rest_bind_eq (fun l => by rw [X.digitRun_lift]) (fun l => ?_)
      repeat' first | infer_instance | ((with_reducible refine sim_getS_bind ?_ ?_); exact fun _ => rfl) | ((with_reducible refine sim_look_bind _ ?_ ?_ ?_); rfl; rfl) | ((with_reducible refine sim_rest_bind_eq ?_ ?_); exact fun _ => by simp only [Suffixed.strtol_lift, Suffixed.digitRun_lift, Suffixed.strtoul_lift]) | with_reducible apply sim_bind | with_reducible apply sim_ite | intro _ | split
    · infer_instance
  · infer_instance

@[instance] theorem sim__decltype {X : Suffixed} : Sim X _decltype := by
  have h1 := sim_match_ X "Dt" (by decide)
  have h2 := sim_expect X "DT" (by decide)
  have h3 := sim_expect X "E" (by decide)
  unfold Demangle._decltype
  repeat' first | infer_instance | ((with_reducible refine sim_getS_bind ?_ ?_); exact fun _ => rfl) | ((with_reducible refine sim_look_bind _ ?_ ?_ ?_); rfl; rfl) | ((with_reducible refine sim_rest_bind_eq ?_ ?_); exact fun _ => by simp only [Suffixed.strtol_lift, Suffixed.digitRun_lift, Suffixed.strtoul_lift]) | with_reducible apply sim_bind | with_reducible apply sim_ite | intro _ | split

@[instance] theorem sim__unnamed_type_name {X : Suffixed} : Sim X _unnamed_type_name := by
  have h1 := sim_expect X "Ut" (by decide)
  have h2 := sim_expect X "_" (by decide)
  unfold Demangle._unnamed_type_name
  apply sim_bind h1
  intro _
  apply sim_ite
  · refine sim_rest_bind_eq (fun l => by rw [X.digitRun_lift]) (fun l => ?_)
    repeat' first | infer_instance | ((with_reducible refine sim_getS_bind ?_ ?_); exact fun _ => rfl) | ((with_reducible refine sim_look_bind _ ?_ ?_ ?_); rfl; rfl) | ((with_reducible refine sim_rest_bind_eq ?_ ?_); exact fun _ => by simp only [Suffixed.strtol_lift, Suffixed.digitRun_lift, Suffixed.strtoul_lift]) | with_reducible apply sim_bind | with_reducible apply sim_ite | intro _ | split
  · infer_instance

/-! ### Look-ups in the tables -/

theorem abbreviations_plain : ∀ e ∈ abbreviations, plain_keyword e.1.toList = true := by
  decide

theorem operators_plain : ∀ e ∈ operators, plain_keyword e.1.toList = true := by
  decide

theorem types_plain :
    ∀ e ∈ types, plain_keyword e.1.toList = true ∧ e.1.toList ≠ [] := by
  decide

theorem Suffixed.not_plain_of_mem (X : Suffixed) (k : List Char) (h : X.first ∈ k) :
    plain_keyword k = false := by
  cases hk : plain_keyword k with
  | false => rfl
  | true =>
    simp only [plain_keyword, List.all_eq_true, Bool.and_eq_true, bne_iff_ne, ne_eq] at hk
    rcases X.first_ne with h1 | h1
    · exact absurd h1 (hk _ h).1
    · exact absurd h1 (hk _ h).2

theorem Suffixed.first_mem_take (X : Suffixed) (l : List Char) (n : Nat) (h : l.length < n) :
    X.first ∈ (l ++ X.sfx).take n := by
  rw [List.take_append_eq_append_take, List.take_of_length_le (Nat.le_of_lt h)]
  apply List.mem_append_right
  obtain ⟨k, hk⟩ : ∃ k, n - l.length = k + 1 := ⟨n - l.length - 1, by omega⟩
  rw [hk, Suffixed.sfx, List.take_succ_cons]
  exact List.mem_cons_self _ _

/-- Look-up of the two characters at the cursor in a table of codes without `.` and `@`. -/
theorem Suffixed.table_take_lift (X : Suffixed) (tab : List (String × String))
    (ht : ∀ e ∈ tab, plain_keyword e.1.toList = true) (l : List Char) :
    (if (l ++ X.sfx).length < 2 then (none : Option Nat)
      else table_index (fun a => a.toList == (l ++ X.sfx).take 2) tab 0)
    = if l.length < 2 then none else table_index (fun a => a.toList == l.take 2) tab 0 := by
  by_cases h : l.length < 2
  · rw [if_pos h]
    split
    · rfl
    · apply table_index_none
      intro e he
      apply beq_eq_false_iff_ne.mpr
      intro e2
      have := X.not_plain_of_mem _ (X.first_mem_take l 2 h)
      rw [← e2, ht e he] at this
      cases this
  · rw [if_neg h, if_neg (by rw [List.length_append]; omega)]
    rw [List.take_append_of_le_length (by omega)]

@[instance] theorem sim_is_abbreviation {X : Suffixed} : Sim X is_abbreviation := by
  unfold Demangle.is_abbreviation
  have h : ∀ l : List Char, (if l.length < 2 then (Pure.pure none : M (Option Nat))
        else Pure.pure (table_index (fun a => a.toList == l.take 2) abbreviations 0))
      = Pure.pure (if l.length < 2 then none
        else table_index (fun a => a.toList == l.take 2) abbreviations 0) := by
    intro l; split <;> rfl
  simp only [h]
  exact sim_rest_bind_eq (fun l => by rw [X.table_take_lift _ abbreviations_plain])
    (fun _ => inferInstance)

@[instance] theorem sim_is_operator {X : Suffixed} : Sim X is_operator := by
  unfold Demangle.is_operator
  have h : ∀ l : List Char, (if l.length < 2 then (Pure.pure none : M (Option Nat))
        else Pure.pure (table_index (fun a => a.toList == l.take 2) operators 0))
      = Pure.pure (if l.length < 2 then none
        else table_index (fun a => a.toList == l.take 2) operators 0) := by
    intro l; split <;> rfl
  simp only [h]
  exact sim_rest_bind_eq (fun l => by rw [X.table_take_lift _ operators_plain])
    (fun _ => inferInstance)

theorem isPrefixOf_length_le (k l : List Char) (h : k.isPrefixOf l = true) :
    k.length ≤ l.length :=
  (List.isPrefixOf_iff_prefix.mp h).length_le

theorem Suffixed.builtin_lift (X : Suffixed) (l : List Char) :
    (if (l ++ X.sfx).length < 1 then (none : Option Nat)
      else table_index (fun a => decide (a.length ≤ (l ++ X.sfx).length) &&
        a.toList.isPrefixOf (l ++ X.sfx)) types 0)
    = if l.length < 1 then none
      else table_index (fun a => decide (a.length ≤ l.length) && a.toList.isPrefixOf l)
        types 0 := by
  rw [if_neg (by simp only [List.length_append, Suffixed.sfx, List.length_cons]; omega)]
  by_cases h : l.length < 1
  · rw [if_pos h]
    have hl : l = [] := List.length_eq_zero.mp (by omega)
    subst hl
    apply table_index_none
    intro e he
    obtain ⟨h1, h2⟩ := types_plain e he
    have := X.isPrefixOf_lift _ [] h1
    rw [this]
    cases hc : e.1.toList with
    | nil => exact absurd hc h2
    | cons c r => simp [List.isPrefixOf]
  · rw [if_neg h]
    apply table_index_congr
    intro e he
    obtain ⟨h1, _⟩ := types_plain e he
    rw [X.isPrefixOf_lift _ _ h1]
    cases hp : e.1.toList.isPrefixOf l with
    | false => simp
    | true =>
      have := isPrefixOf_length_le _ _ hp
      have e1 : e.1.length = e.1.toList.length := rfl
      simp only [Bool.and_true, List.length_append, decide_eq_decide]
      omega

@[instance] theorem sim_is_builtin_type {X : Suffixed} : Sim X is_builtin_type := by
  unfold Demangle.is_builtin_type
  have h : ∀ l : List Char, (if l.length < 1 then (Pure.pure none : M (Option Nat))
        else Pure.pure (table_index (fun a => decide (a.length ≤ l.length) && a.toList.isPrefixOf l)
          types 0))
      = Pure.pure (if l.length < 1 then none
        else table_index (fun a => decide (a.length ≤ l.length) && a.toList.isPrefixOf l)
          types 0) := by
    intro l; split <;> rfl
  simp only [h]
  exact sim_rest_bind_eq (fun l => by rw [X.builtin_lift]) (fun _ => inferInstance)

theorem sim_peek_ctor_dtor (X : Suffixed) : Sim X peek_ctor_dtor := by
  unfold Demangle.peek_ctor_dtor
  refine sim_getS_bind (fun _ => rfl) (fun _ => sim_ite ?_ inferInstance)
  refine sim_rest_bind_eq (fun l => ?_) (fun _ => inferInstance)
  simp only [List.any_cons, List.any_nil, X.isPrefixOf_lift _ l (by decide : plain_keyword "C1".toList = true),
    X.isPrefixOf_lift _ l (by decide : plain_keyword "C2".toList = true),
    X.isPrefixOf_lift _ l (by decide : plain_keyword "C3".toList = true),
    X.isPrefixOf_lift _ l (by decide : plain_keyword "CI1".toList = true),
    X.isPrefixOf_lift _ l (by decide : plain_keyword "CI2".toList = true),
    X.isPrefixOf_lift _ l (by decide : plain_keyword "D0".toList = true),
    X.isPrefixOf_lift _ l (by decide : plain_keyword "D1".toList = true),
    X.isPrefixOf_lift _ l (by decide : plain_keyword "D2".toList = true)]

/-! ### Computations that differ in the step budget or in the C string they were given -/

theorem sim2_of_sim {X : Suffixed} {α : Type} {f : M α} (h : Sim X f) : Sim2 X f f := h.run

theorem sim2_bind {X : Suffixed} {α β : Type} {m m2 : M α} {f f2 : α → M β}
    (hm : Sim2 X m m2) (hf : ∀ a, Sim2 X (f a) (f2 a)) : Sim2 X (m >>= f) (m2 >>= f2) := by
  intro s b t hs h
  simp only [Bind.bind, M.bind] at h ⊢
  cases hms : m s with
  | ok r =>
    obtain ⟨a, u⟩ := r
    rw [hms] at h
    obtain ⟨h1, h2⟩ := hm s a u hs hms
    obtain ⟨h3, h4⟩ := hf a u b t h1 h
    refine ⟨h3, fun ht => ?_⟩
    obtain ⟨h5, h6⟩ := h4 ht
    obtain ⟨h7, h8⟩ := h2 h5
    exact ⟨h7, by rw [h8]; exact h6⟩
  | error e => rw [hms] at h; cases h

theorem sim2_ite {X : Suffixed} {α : Type} {c : Prop} [Decidable c] {m1 m2 n1 n2 : M α}
    (h1 : Sim2 X m1 n1) (h2 : Sim2 X m2 n2) :
    Sim2 X (if c then m1 else m2) (if c then n1 else n2) := by
  split <;> assumption

theorem sim2_getS_bind {X : Suffixed} {β : Type} {f f2 : Mangle → M β}
    (hf : ∀ x, x.mangled = X.base → Sim2 X (f x) (f2 (X.lift x))) :
    Sim2 X (getS >>= f) (getS >>= f2) := by
  intro s b t hs e
  simp only [Bind.bind, M.bind, Demangle.getS] at e ⊢
  exact hf s hs s b t hs e

/-- The cursor of a state on the input `base`: on a character, at the end, or behind it. -/
theorem Suffixed.cursor_cases (X : Suffixed) (s : Mangle) (hs : s.mangled = X.base) :
    (∃ c r, At s (c :: r) ∧ At (X.lift s) (c :: (r ++ X.sfx))) ∨
      (At s [] ∧ At (X.lift s) X.sfx) ∨ X.base.length < s.mpos := by
  by_cases h1 : s.mpos < X.base.length
  · left
    have hd : s.mangled.drop s.mpos ≠ [] := by
      rw [hs]; intro e
      have := congrArg List.length e
      simp only [List.length_drop, List.length_nil] at this
      omega
    obtain ⟨c, r, hcr⟩ := List.exists_cons_of_ne_nil hd
    refine ⟨c, r, ⟨by rw [hs]; omega, hcr⟩, ?_, ?_⟩
    · simp only [Suffixed.lift, List.length_append]; omega
    · simp only [Suffixed.lift]
      rw [X.drop_lift _ (by omega), ← hs, hcr]
      rfl
  · by_cases h2 : s.mpos = X.base.length
    · right; left
      refine ⟨⟨by rw [hs]; omega, by rw [hs, h2, List.drop_length]⟩, ?_, ?_⟩
      · simp only [Suffixed.lift, List.length_append]; omega
      · simp only [Suffixed.lift]
        rw [h2, List.drop_left]
    · right; right; omega

theorem look_behind (k : Nat) (s : Mangle) (h : s.mangled.length < s.mpos + k) :
    look k s = Res.error Fault.undefined := by
  unfold look
  rw [if_neg (by omega), if_neg (by omega)]

theorem rest_behind (s : Mangle) (h : s.mangled.length < s.mpos) :
    rest s = Res.error Fault.undefined := by
  unfold rest
  rw [if_neg (by omega)]

theorem At.run_on_sentinel {s : Mangle} {l : List Char} (h : At s l) (hv : s.valid = true) :
    on_sentinel s = Res.ok (at_sentinel l, s) := by
  cases l with
  | nil => exact h.run_on_sentinel_nil
  | cons c r =>
    have h0 := h.run_look0
    have h1 := h.run_look1
    simp only [List.headD_cons] at h0 h1
    simp only [on_sentinel, run_bind, run_getS, andThen_ok, hv, if_true, h0, at_sentinel,
      run_ite, h1, run_pure]
    split_ifs with a b
    · simp only [Bool.or_eq_true] at a
      rcases a with a | a <;> simp [a]
    · simp only [Bool.or_eq_true, not_or, Bool.not_eq_true] at a
      simp [a.1, a.2, b]
    · simp only [Bool.or_eq_true, not_or, Bool.not_eq_true] at a b
      simp [a.1, a.2, b]

theorem run_on_sentinel_invalid (s : Mangle) (hv : s.valid = false) :
    on_sentinel s = Res.ok (true, s) := by
  simp only [on_sentinel, run_bind, run_getS, andThen_ok, hv, run_pure, run_ite,
    Bool.false_eq_true, if_false]

theorem Suffixed.at_sentinel_sfx (X : Suffixed) : at_sentinel X.sfx = true := by
  unfold Suffixed.sfx at_sentinel
  rcases X.start with h | ⟨h1, h2⟩
  · simp [h]
  · cases hm : X.more with
    | nil => rw [hm] at h2; cases h2
    | cons d r =>
      rw [hm] at h2
      simp only [List.head?_cons, Option.some.injEq] at h2
      simp [h1, h2]

/-- In front of the suffix `on_sentinel` gives the same answer, except on a `@` that is the
last character of the input when the suffix begins with `@@`. -/
theorem Suffixed.at_sentinel_lift (X : Suffixed) (c : Char) (r : List Char)
    (h : ¬ (c = '@' ∧ r = [] ∧ X.first = '@')) :
    at_sentinel (c :: (r ++ X.sfx)) = at_sentinel (c :: r) := by
  unfold at_sentinel
  cases r with
  | nil =>
    simp only [List.nil_append, Suffixed.sfx, List.headD_cons, List.headD_nil]
    by_cases hc : c = '@'
    · have hf : X.first ≠ '@' := fun e => h ⟨hc, rfl, e⟩
      have hf2 : X.first = '.' := by
        rcases X.first_ne with h1 | h1
        · exact h1
        · exact absurd h1 hf
      subst hc
      rw [hf2]
      decide
    · have hc2 : (c == '@') = false := beq_eq_false_iff_ne.mpr hc
      rw [hc2]
      rfl
  | cons d r => rfl

/-! ### Productions that read the input -/

@[instance] theorem sim__source_name {X : Suffixed} : Sim X _source_name := by
  unfold Demangle._source_name
  refine sim_getS_bind (fun _ => rfl) (fun _ => sim_ite ?_ inferInstance)
  refine sim_look_bind 0 rfl rfl (fun c => sim_ite ?_ inferInstance)
  refine sim_rest_bind_eq (fun l => by simp only [X.strtol_lift]) (fun l => ?_)
  dsimp only
  refine sim_bind inferInstance (fun _ => ?_)
  refine sim_rest_bind (fun l2 s b t hs hle hl e => ?_)
  have hlen : l2.length ≤ X.base.length := by rw [hl, List.length_drop]; omega
  have hb := X.bound
  have e1 : toInt32 (l2.length : Int) = l2.length := toInt32_of_lt _ (by omega)
  have e2 : toInt32 ((l2 ++ X.sfx).length : Int) = ((l2 ++ X.sfx).length : Int) :=
    toInt32_of_lt _ (by
      simp only [List.length_append, Suffixed.sfx] at hb ⊢
      omega)
  rw [e1] at e
  rw [e2]
  by_cases c1 : (l2.length : Int) < toInt32 (strtol l).1
  · rw [if_pos c1] at e
    simp only [Demangle.invalidate, Demangle.modifyS, Res.ok.injEq, Prod.mk.injEq] at e
    obtain ⟨-, rfl⟩ := e
    exact ⟨hs, fun ht => absurd ht (by simp [Mangle.invalidate])⟩
  · rw [if_neg c1] at e
    rw [if_neg (by simp only [List.length_append, Nat.cast_add]; omega)]
    by_cases c2 : (decide (toInt32 (strtol l).1 < 0) || decide (toInt32 (strtol l).1 = INT_MAX)) = true
    · rw [if_pos c2] at e; cases e
    · rw [if_neg c2] at e ⊢
      simp only [Bool.or_eq_true, decide_eq_true_eq, not_or, not_lt] at c2
      have hk : (toInt32 (strtol l).1).toNat ≤ l2.length := by omega
      rw [List.take_append_of_le_length hk]
      have hsim : Sim X (Demangle.append (l2.take (toInt32 (strtol l).1).toNat) >>= fun _ =>
          Demangle.advance (toInt32 (strtol l).1).toNat) :=
        sim_bind (sim_append _) (fun _ => sim_advance _)
      exact hsim.run s b t hs e

@[instance] theorem sim__template_param {X : Suffixed} : Sim X _template_param := by
  have h1 := sim_expect X "T" (by decide)
  have h2 := sim_expect X "_" (by decide)
  unfold Demangle._template_param
  repeat' first | infer_instance | ((with_reducible refine sim_getS_bind ?_ ?_); exact fun _ => rfl) | ((with_reducible refine sim_look_bind _ ?_ ?_ ?_); rfl; rfl) | ((with_reducible refine sim_rest_bind_eq ?_ ?_); exact fun _ => by simp only [Suffixed.strtol_lift, Suffixed.digitRun_lift, Suffixed.strtoul_lift]) | with_reducible apply sim_bind | with_reducible apply sim_ite | intro _ | split

@[instance] theorem sim__ctor_dtor_name {X : Suffixed} : Sim X _ctor_dtor_name := by
  unfold Demangle._ctor_dtor_name
  repeat' first | infer_instance | ((with_reducible refine sim_getS_bind ?_ ?_); exact fun _ => rfl) | ((with_reducible refine sim_look_bind _ ?_ ?_ ?_); rfl; rfl) | ((with_reducible refine sim_rest_bind_eq ?_ ?_); exact fun _ => by simp only [Suffixed.strtol_lift, Suffixed.digitRun_lift, Suffixed.strtoul_lift]) | with_reducible apply sim_bind | with_reducible apply sim_ite | intro _ | split

@[instance] theorem sim_peek_substitution {X : Suffixed} : Sim X peek_substitution := by
  have h1 := sim_peek X "S" (by decide)
  unfold Demangle.peek_substitution
  repeat' first | infer_instance | ((with_reducible refine sim_getS_bind ?_ ?_); exact fun _ => rfl) | ((with_reducible refine sim_look_bind _ ?_ ?_ ?_); rfl; rfl) | ((with_reducible refine sim_rest_bind_eq ?_ ?_); exact fun _ => by simp only [Suffixed.strtol_lift, Suffixed.digitRun_lift, Suffixed.strtoul_lift]) | with_reducible apply sim_bind | with_reducible apply sim_ite | intro _ | split

@[instance] theorem sim_peek_template_param {X : Suffixed} : Sim X peek_template_param := by
  have h1 := sim_peek X "T" (by decide)
  unfold Demangle.peek_template_param
  repeat' first | infer_instance | ((with_reducible refine sim_getS_bind ?_ ?_); exact fun _ => rfl) | ((with_reducible refine sim_look_bind _ ?_ ?_ ?_); rfl; rfl) | ((with_reducible refine sim_rest_bind_eq ?_ ?_); exact fun _ => by simp only [Suffixed.strtol_lift, Suffixed.digitRun_lift, Suffixed.strtoul_lift]) | with_reducible apply sim_bind | with_reducible apply sim_ite | intro _ | split

/-- The loop of `get_number` stops in front of the suffix as it stops at the end of the
input, when the step bound covers the input. -/
theorem Suffixed.get_number_loop_lift (X : Suffixed) (size : Nat) (hex : Bool)
    (hsize : 2 ≤ size) : ∀ (l : List Char) (n n2 i : Nat) (field : List Char) (k : Nat),
    2 * l.length + 1 ≤ n → 2 * l.length + 1 ≤ n2 →
    get_number_loop size hex n2 i field (l ++ X.sfx) k
      = get_number_loop size hex n i field l k := by
  have hfirst : (isdigit X.first || (hex && isxdigit X.first)) = false := by
    rcases X.first_ne with h | h <;> rw [h] <;> cases hex <;> decide
  intro l
  induction l with
  | nil =>
    intro n n2 i field k hn hn2
    obtain ⟨m, rfl⟩ : ∃ m, n = m + 1 := ⟨n - 1, by omega⟩
    obtain ⟨m2, rfl⟩ : ∃ m, n2 = m + 1 := ⟨n2 - 1, by omega⟩
    simp only [List.nil_append, Suffixed.sfx, get_number_loop, hfirst, Bool.false_eq_true,
      if_false]
  | cons c l ih =>
    intro n n2 i field k hn hn2
    simp only [List.length_cons] at hn hn2
    obtain ⟨m, rfl⟩ : ∃ m, n = m + 1 + 1 := ⟨n - 2, by omega⟩
    obtain ⟨m2, rfl⟩ : ∃ m, n2 = m + 1 + 1 := ⟨n2 - 2, by omega⟩
    rw [List.cons_append]
    have h0 : 0 < size - 1 := by omega
    by_cases hd : (isdigit c || (hex && isxdigit c)) = true
    · by_cases hi : i < size - 1
      · simp only [get_number_loop, hd, hi, if_true]
        exact ih _ _ _ _ _ (by omega) (by omega)
      · simp only [get_number_loop, hd, hi, h0, if_true, if_false]
        exact ih _ _ _ _ _ (by omega) (by omega)
    · simp only [get_number_loop, hd, if_false, Bool.false_eq_true]

@[instance] theorem sim_get_number {X : Suffixed} (hex : Bool) : Sim X (get_number 64 hex) := by
  unfold Demangle.get_number
  refine sim_rest_bind_eq (fun l => ?_) (fun l => ?_)
  · dsimp only
    rw [X.get_number_loop_lift 64 hex (by decide) l (2 * l.length + 2)
      (2 * (l ++ X.sfx).length + 2) 0 [] 0 (by omega)
      (by simp only [List.length_append]; omega)]
  · dsimp only
    repeat' first | infer_instance | ((with_reducible refine sim_getS_bind ?_ ?_); exact fun _ => rfl) | ((with_reducible refine sim_look_bind _ ?_ ?_ ?_); rfl; rfl) | ((with_reducible refine sim_rest_bind_eq ?_ ?_); exact fun _ => by simp only [Suffixed.strtol_lift, Suffixed.digitRun_lift, Suffixed.strtoul_lift]) | with_reducible apply sim_bind | with_reducible apply sim_ite | intro _ | split

@[instance] theorem sim__expr_primary {X : Suffixed} : Sim X _expr_primary := by
  have h1 := sim_expect X "L" (by decide)
  have h2 := sim_expect X "E" (by decide)
  have h3 := sim_expect X "_" (by decide)
  have h4 := sim_match_ X "Kc" (by decide)
  have h5 := sim_match_ X "Kw" (by decide)
  have h6 := sim_match_ X "Dn" (by decide)
  unfold Demangle._expr_primary
  repeat' first | infer_instance | ((with_reducible refine sim_getS_bind ?_ ?_); exact fun _ => rfl) | ((with_reducible refine sim_look_bind _ ?_ ?_ ?_); rfl; rfl) | ((with_reducible refine sim_rest_bind_eq ?_ ?_); exact fun _ => by simp only [Suffixed.strtol_lift, Suffixed.digitRun_lift, Suffixed.strtoul_lift]) | with_reducible apply sim_bind | with_reducible apply sim_ite | intro _ | split

/-! ### The loops whose step bound depends on the input -/

theorem Suffixed.lift_valid (X : Suffixed) (s : Mangle) : (X.lift s).valid = s.valid := rfl

theorem Suffixed.first_not_underscore (X : Suffixed) : (X.first != '_') = true := by
  rcases X.first_ne with h | h <;> rw [h] <;> decide

theorem sim2_subst_seq_loop (X : Suffixed) : ∀ (n n2 index : Nat), n ≤ n2 →
    Sim2 X (subst_seq_loop n index) (subst_seq_loop n2 index) := by
  intro n
  induction n with
  | zero => intro n2 index _ s a t _ e; cases e
  | succ n ih =>
    intro n2 index hn s a t hs e
    obtain ⟨m, rfl⟩ : ∃ m, n2 = m + 1 := ⟨n2 - 1, by omega⟩
    rw [Demangle.subst_seq_loop] at e ⊢
    rcases X.cursor_cases s hs with ⟨c, r, h1, h2⟩ | ⟨h1, h2⟩ | h3
    · have l1 := h1.run_look0
      have l2 := h2.run_look0
      simp only [List.headD_cons] at l1 l2
      simp only [run_bind, l1, l2, andThen_ok] at e ⊢
      by_cases hc : (c != '_') = true
      · rw [run_ite, if_pos hc, run_bind] at e
        rw [run_ite, if_pos hc, run_bind]
        by_cases hv : s.valid = true
        · rw [h1.run_on_sentinel hv, andThen_ok] at e
          rw [h2.run_on_sentinel hv, andThen_ok]
          by_cases hd : c = '@' ∧ r = [] ∧ X.first = '@'
          · obtain ⟨rfl, rfl, -⟩ := hd
            have e3 : at_sentinel ['@'] = false := by decide
            have e4 : isdigit '@' = false := by decide
            have e5 : isupper '@' = false := by decide
            simp only [e3, e4, e5, run_ite, Bool.false_eq_true, if_false, run_bind,
              Demangle.invalidate, run_modifyS, andThen_ok, run_pure, Res.ok.injEq,
              Prod.mk.injEq] at e
            obtain ⟨-, rfl⟩ := e
            exact ⟨hs, fun ht => absurd ht (by simp [Mangle.invalidate])⟩
          · rw [X.at_sentinel_lift c r hd]
            by_cases h5 : at_sentinel (c :: r) = true
            · rw [run_ite, if_pos h5, run_pure] at e
              rw [run_ite, if_pos h5, run_pure]
              simp only [Res.ok.injEq, Prod.mk.injEq] at e ⊢
              obtain ⟨rfl, rfl⟩ := e
              exact ⟨hs, fun _ => ⟨hv, rfl, rfl⟩⟩
            · rw [run_ite, if_neg h5] at e
              rw [run_ite, if_neg h5]
              by_cases h6 : isdigit c = true
              · rw [run_ite, if_pos h6, run_bind, Demangle.advance, run_modifyS,
                  andThen_ok] at e
                rw [run_ite, if_pos h6, run_bind, Demangle.advance, run_modifyS, andThen_ok]
                exact ih m _ (by omega) (s.setMpos (s.mpos + 1)) a t hs e
              · rw [run_ite, if_neg h6] at e
                rw [run_ite, if_neg h6]
                by_cases h7 : isupper c = true
                · rw [run_ite, if_pos h7, run_bind, Demangle.advance, run_modifyS,
                    andThen_ok] at e
                  rw [run_ite, if_pos h7, run_bind, Demangle.advance, run_modifyS,
                    andThen_ok]
                  exact ih m _ (by omega) (s.setMpos (s.mpos + 1)) a t hs e
                · rw [run_ite, if_neg h7] at e
                  simp only [run_bind, Demangle.invalidate, run_modifyS, andThen_ok,
                    run_pure, Res.ok.injEq, Prod.mk.injEq] at e
                  obtain ⟨-, rfl⟩ := e
                  exact ⟨hs, fun ht => absurd ht (by simp [Mangle.invalidate])⟩
        · simp only [Bool.not_eq_true] at hv
          rw [run_on_sentinel_invalid s hv, andThen_ok] at e
          simp only [run_ite, if_true, run_pure, Res.ok.injEq, Prod.mk.injEq] at e
          obtain ⟨-, rfl⟩ := e
          exact ⟨hs, fun ht => absurd ht (by simp [hv])⟩
      · rw [run_ite, if_neg hc, run_pure] at e
        rw [run_ite, if_neg hc, run_pure]
        simp only [Res.ok.injEq, Prod.mk.injEq] at e ⊢
        obtain ⟨rfl, rfl⟩ := e
        exact ⟨hs, fun ht => ⟨ht, rfl, rfl⟩⟩
    · have l1 := h1.run_look0
      have l2 := h2.run_look0
      simp only [List.headD_nil, Suffixed.sfx, List.headD_cons] at l1 l2
      have hn : (NUL != '_') = true := by decide
      simp only [run_bind, l1, andThen_ok, run_ite, hn, if_true, h1.run_on_sentinel_nil,
        run_pure, Res.ok.injEq, Prod.mk.injEq] at e
      obtain ⟨rfl, rfl⟩ := e
      refine ⟨hs, fun ht => ⟨ht, ?_⟩⟩
      simp only [run_bind, l2, andThen_ok, run_ite, X.first_not_underscore, if_true,
        h2.run_on_sentinel ht, X.at_sentinel_sfx, run_pure]
    · rw [run_bind, look_behind 0 s (by rw [hs]; omega)] at e
      cases e

theorem sim_rest_bind2 {X : Suffixed} {β : Type} {f : List Char → M β}
    (hf : ∀ l, Sim2 X (f l) (f (l ++ X.sfx))) : Sim X (rest >>= f) :=
  sim_rest_bind (fun l s b t hs _ _ e => hf l s b t hs e)

theorem sim2_look_bind {X : Suffixed} {β : Type} (k : Nat) {f f2 : Char → M β}
    (h1 : f2 '.' = f2 NUL) (h2 : f2 '@' = f2 NUL) (hf : ∀ c, Sim2 X (f c) (f2 c)) :
    Sim2 X (look k >>= f) (look k >>= f2) := by
  intro s b t hs e
  simp only [Bind.bind, M.bind, Demangle.look] at e ⊢
  simp only [Suffixed.lift, List.length_append, Suffixed.sfx, List.length_cons]
  rw [hs] at e
  by_cases hlt : s.mpos + k < X.base.length
  · rw [if_pos hlt] at e
    rw [if_pos (by omega)]
    simp only at e ⊢
    obtain ⟨r1, r2⟩ := hf _ s b t hs e
    refine ⟨r1, fun ht => ?_⟩
    have := X.getD_lift _ hlt
    simp only [Suffixed.sfx] at this
    rw [this]
    exact r2 ht
  · rw [if_neg hlt] at e
    by_cases heq : s.mpos + k = X.base.length
    · rw [if_pos heq] at e
      rw [if_pos (by omega)]
      simp only at e ⊢
      obtain ⟨r1, r2⟩ := hf _ s b t hs e
      refine ⟨r1, fun ht => ?_⟩
      have := X.getD_first
      simp only [Suffixed.sfx] at this
      rw [heq, this]
      have hfe : f2 X.first = f2 NUL := by
        rcases X.first_ne with h | h <;> rw [h] <;> assumption
      rw [hfe]
      exact r2 ht
    · rw [if_neg heq] at e; cases e

@[instance] theorem sim__substitution {X : Suffixed} : Sim X _substitution := by
  have h1 := sim_expect X "S" (by decide)
  have h2 := sim_expect X "_" (by decide)
  unfold Demangle._substitution
  apply sim_bind h1
  intro _
  apply sim_ite _ inferInstance
  refine sim_look_bind 0 rfl rfl (fun c => ?_)
  refine sim_rest_bind2 (fun l => sim2_bind ?_ (fun r => sim2_of_sim ?_))
  · exact sim2_ite (sim2_bind (sim2_subst_seq_loop X _ _ 0
      (by simp only [List.length_append]; omega)) (fun _ => sim2_of_sim inferInstance))
      (sim2_of_sim inferInstance)
  · repeat' first | infer_instance | ((with_reducible refine sim_getS_bind ?_ ?_); exact fun _ => rfl) | ((with_reducible refine sim_look_bind _ ?_ ?_ ?_); rfl; rfl) | ((with_reducible refine sim_rest_bind_eq ?_ ?_); exact fun _ => by simp only [Suffixed.strtol_lift, Suffixed.digitRun_lift, Suffixed.strtoul_lift]) | with_reducible apply sim_bind | with_reducible apply sim_ite | intro _ | split

theorem sim2_source_names (X : Suffixed) : ∀ (n n2 : Nat), n ≤ n2 →
    Sim2 X (source_names n) (source_names n2) := by
  intro n
  induction n with
  | zero => intro n2 _ s a t _ e; cases e
  | succ n ih =>
    intro n2 hn
    obtain ⟨m, rfl⟩ : ∃ m, n2 = m + 1 := ⟨n2 - 1, by omega⟩
    unfold Demangle.source_names
    refine sim2_look_bind 0 rfl rfl (fun c => sim2_ite ?_ (sim2_of_sim inferInstance))
    exact sim2_bind (sim2_of_sim inferInstance) (fun _ => ih m (by omega))

@[instance] theorem sim_structured_binding {X : Suffixed} : Sim X structured_binding := by
  have h1 := sim_expect X "E" (by decide)
  unfold Demangle.structured_binding
  constructor
  refine sim2_getS_bind (fun x hx => sim2_bind (sim2_source_names X _ _ ?_)
    (fun _ => sim2_of_sim ?_))
  · simp only [Suffixed.lift, List.length_append, hx]; omega
  · repeat' first | infer_instance | ((with_reducible refine sim_getS_bind ?_ ?_); exact fun _ => rfl) | ((with_reducible refine sim_look_bind _ ?_ ?_ ?_); rfl; rfl) | ((with_reducible refine sim_rest_bind_eq ?_ ?_); exact fun _ => by simp only [Suffixed.strtol_lift, Suffixed.digitRun_lift, Suffixed.strtoul_lift]) | with_reducible apply sim_bind | with_reducible apply sim_ite | intro _ | split

@[instance] theorem sim_extq_emit {X : Suffixed} (base : Nat) :
    ∀ ps, Sim X (extq_emit base ps) := by
  intro ps
  induction ps with
  | nil => unfold Demangle.extq_emit; infer_instance
  | cons p ps ih =>
    unfold Demangle.extq_emit
    repeat' first | infer_instance | ((with_reducible refine sim_getS_bind ?_ ?_); exact fun _ => rfl) | ((with_reducible refine sim_look_bind _ ?_ ?_ ?_); rfl; rfl) | ((with_reducible refine sim_rest_bind_eq ?_ ?_); exact fun _ => by simp only [Suffixed.strtol_lift, Suffixed.digitRun_lift, Suffixed.strtoul_lift]) | with_reducible apply sim_bind | with_reducible apply sim_ite | intro _ | split

@[instance] theorem sim_array_emit {X : Suffixed} (mark pos : Nat) :
    ∀ ps, Sim X (array_emit mark pos ps) := by
  intro ps
  induction ps with
  | nil => unfold Demangle.array_emit; infer_instance
  | cons p ps ih =>
    unfold Demangle.array_emit
    repeat' first | infer_instance | ((with_reducible refine sim_getS_bind ?_ ?_); exact fun _ => rfl) | ((with_reducible refine sim_look_bind _ ?_ ?_ ?_); rfl; rfl) | ((with_reducible refine sim_rest_bind_eq ?_ ?_); exact fun _ => by simp only [Suffixed.strtol_lift, Suffixed.digitRun_lift, Suffixed.strtoul_lift]) | with_reducible apply sim_bind | with_reducible apply sim_ite | intro _ | split

/-- A run of a sound computation from a state with `valid` clear ends with `valid` clear. -/
theorem invalid_run {α : Type} (f : M α) [hf : Sound f] (s : Mangle) (a : α) (t : Mangle)
    (hv : s.valid = false) (e : f s = Res.ok (a, t)) : t.valid = false :=
  (hf.run s a t e).stays_invalid hv

theorem sound_mangled {α : Type} (f : M α) [hf : Sound f] (s : Mangle) (a : α) (t : Mangle)
    (e : f s = Res.ok (a, t)) : t.mangled = s.mangled :=
  (hf.run s a t e).input_kept

/-- At the end of the input the loop of `_array` clears `valid`. -/
theorem array_scan_end (n : Nat) (s : Mangle) (a : Unit) (t : Mangle) (h : At s [])
    (e : array_scan n s = Res.ok (a, t)) : t.valid = false := by
  cases n with
  | zero => cases e
  | succ n =>
    rw [Demangle.array_scan] at e
    have l1 := h.run_look0
    have hn : (NUL != '_') = true := by decide
    simp only [List.headD_nil] at l1
    simp only [run_bind, l1, andThen_ok, run_ite, hn, if_true, h.run_on_sentinel_nil,
      Demangle.invalidate, run_modifyS, Demangle.advance] at e
    exact invalid_run (Demangle.array_scan n) _ a t rfl e

theorem sim2_array_scan (X : Suffixed) : ∀ (n n2 : Nat), n ≤ n2 →
    Sim2 X (array_scan n) (array_scan n2) := by
  intro n
  induction n with
  | zero => intro n2 _ s a t _ e; cases e
  | succ n ih =>
    intro n2 hn s a t hs e
    obtain ⟨m, rfl⟩ : ∃ m, n2 = m + 1 := ⟨n2 - 1, by omega⟩
    have hm : t.mangled = X.base := by rw [sound_mangled _ s a t e, hs]
    refine ⟨hm, fun ht => ?_⟩
    have hv : s.valid = true := by
      cases hv : s.valid with
      | true => rfl
      | false => rw [invalid_run _ s a t hv e] at ht; cases ht
    refine ⟨hv, ?_⟩
    rcases X.cursor_cases s hs with ⟨c, r, h1, h2⟩ | ⟨h1, h2⟩ | h3
    · rw [Demangle.array_scan] at e ⊢
      have l1 := h1.run_look0
      have l2 := h2.run_look0
      simp only [List.headD_cons] at l1 l2
      simp only [run_bind, l1, l2, andThen_ok] at e ⊢
      by_cases hc : (c != '_') = true
      · rw [run_ite, if_pos hc, run_bind, h1.run_on_sentinel hv, andThen_ok] at e
        rw [run_ite, if_pos hc, run_bind, h2.run_on_sentinel hv, andThen_ok]
        by_cases h5 : at_sentinel (c :: r) = true
        · simp only [h5, if_true, run_bind, Demangle.invalidate, run_modifyS, andThen_ok,
            Demangle.advance] at e
          rw [invalid_run (Demangle.array_scan n) _ a t rfl e] at ht
          cases ht
        · by_cases hd : c = '@' ∧ r = [] ∧ X.first = '@'
          · obtain ⟨rfl, rfl, -⟩ := hd
            simp only [h5, if_false, run_bind, run_pure, andThen_ok,
              Demangle.advance, run_modifyS, Bool.false_eq_true] at e
            have hend : At (s.setMpos (s.mpos + 1)) [] := by
              have := h1.moved 1 (by simp)
              exact this
            rw [array_scan_end n _ a t hend e] at ht
            cases ht
          · rw [X.at_sentinel_lift c r hd]
            simp only [h5, if_false, run_bind, run_pure, andThen_ok,
              Demangle.advance, run_modifyS, Bool.false_eq_true] at e ⊢
            exact ((ih m (by omega) (s.setMpos (s.mpos + 1)) a t hs e).2 ht).2
      · rw [run_ite, if_neg hc, run_pure] at e
        rw [run_ite, if_neg hc, run_pure]
        simp only [Res.ok.injEq, Prod.mk.injEq] at e ⊢
        obtain ⟨-, rfl⟩ := e
        exact ⟨trivial, rfl⟩
    · rw [array_scan_end _ s a t h1 e] at ht
      cases ht
    · rw [Demangle.array_scan, run_bind, look_behind 0 s (by rw [hs]; omega)] at e
      cases e

@[instance] theorem sim_array_dims {X : Suffixed} :
    ∀ n stack, Sim X (array_dims n stack) := by
  have h1 := sim_expect X "_" (by decide)
  have h2 := sim_match_ X "A" (by decide)
  intro n
  induction n with
  | zero => intro stack; unfold Demangle.array_dims; infer_instance
  | succ n ih =>
    intro stack
    unfold Demangle.array_dims
    constructor
    refine sim2_getS_bind (fun x hx => sim2_bind (sim2_array_scan X _ _ ?_)
      (fun _ => sim2_of_sim ?_))
    · simp only [Suffixed.lift, List.length_append, hx]; omega
    · repeat' first | infer_instance | ((with_reducible refine sim_getS_bind ?_ ?_); exact fun _ => rfl) | ((with_reducible refine sim_look_bind _ ?_ ?_ ?_); rfl; rfl) | ((with_reducible refine sim_rest_bind_eq ?_ ?_); exact fun _ => by simp only [Suffixed.strtol_lift, Suffixed.digitRun_lift, Suffixed.strtoul_lift]) | with_reducible apply sim_bind | with_reducible apply sim_ite | intro _ | split

/-! ### The runs from a `@` at the end of the input -/

theorem At.peek_at_sign {s : Mangle} (h : At s ['@']) (hv : s.valid = true) (kw : String)
    (hk : kw.toList.isPrefixOf ['@'] = false) : peek kw s = Res.ok (false, s) := by
  rw [h.run_peek hv, hk]

/-- On a `@` that is the last character of the input `_type` clears `valid`. -/
theorem type_at_sign (fuel : Nat) (s : Mangle) (a : Unit) (t : Mangle) (h : At s ['@'])
    (e : _type fuel s = Res.ok (a, t)) : t.valid = false := by
  have hsound := (productions_sound fuel).p_type
  cases hv : s.valid with
  | false => exact invalid_run _ s a t hv e
  | true =>
    cases fuel with
    | zero => cases e
    | succ fuel =>
      have hb : is_builtin_type s = Res.ok (none, s) := by
        simp only [is_builtin_type, run_bind, h.run_rest, andThen_ok]
        rfl
      have ha : is_abbreviation s = Res.ok (none, s) := by
        simp only [is_abbreviation, run_bind, h.run_rest, andThen_ok]
        rfl
      have hps : peek_substitution s = Res.ok (false, s) := by
        simp only [peek_substitution, run_bind, h.peek_at_sign hv "S" (by decide), andThen_ok]
        rfl
      have hpt : peek_template_param s = Res.ok (false, s) := by
        simp only [peek_template_param, run_bind, h.peek_at_sign hv "T" (by decide),
          andThen_ok]
        rfl
      have l0 := h.run_look0
      simp only [List.headD_cons] at l0
      have d1 : isdigit '@' = false := by decide
      have d2 : ('@' == 'u') = false := by decide
      rw [_type] at e
      simp only [run_bind, run_getS, andThen_ok, hv, if_true, current_position, run_pure, hb,
        h.peek_at_sign hv "r" (by decide), h.peek_at_sign hv "V" (by decide),
        h.peek_at_sign hv "K" (by decide), h.peek_at_sign hv "U" (by decide),
        h.peek_at_sign hv "F" (by decide), h.peek_at_sign hv "A" (by decide),
        h.run_match_false hv "P" (by decide), h.run_match_false hv "R" (by decide),
        h.run_match_false hv "O" (by decide), ha, hps, hpt,
        h.peek_at_sign hv "N" (by decide), h.peek_at_sign hv "Z" (by decide),
        h.peek_at_sign hv "M" (by decide), h.peek_at_sign hv "L" (by decide),
        l0, d1, d2, Bool.or_self, Bool.false_eq_true, if_false, run_ite,
        Demangle.invalidate, run_modifyS, Res.ok.injEq, Prod.mk.injEq] at e
      obtain ⟨-, rfl⟩ := e
      rfl

theorem andThen_invalid {α β : Type} (r : Res (α × Mangle)) (f : α → M β) (b : β)
    (t : Mangle) (e : andThen r f = Res.ok (b, t))
    (hr : ∀ a u, r = Res.ok (a, u) → u.valid = false) (hf : ∀ a, Sound (f a)) :
    t.valid = false := by
  cases r with
  | ok p =>
    obtain ⟨a, u⟩ := p
    exact invalid_run (f a) u b t (hr a u rfl) e
  | error x => cases e

theorem At.after_append {s : Mangle} {l : List Char} (h : At s l) (text : List Char) :
    At (s.append text) l := by
  unfold Mangle.append
  split_ifs <;> exact ⟨h.1, h.2⟩

/-- On a `@` that is the last character of the input the parameter loop clears `valid`. -/
theorem loop_at_sign (fuel count : Nat) (s : Mangle) (a : Unit) (t : Mangle)
    (h : At s ['@']) (e : function_encoding_loop fuel count s = Res.ok (a, t)) :
    t.valid = false := by
  have hsound := (productions_sound fuel).p_function_encoding_loop count
  cases hv : s.valid with
  | false => exact invalid_run _ s a t hv e
  | true =>
    cases fuel with
    | zero => cases e
    | succ fuel =>
      obtain ⟨i0, i1, i2, i3, i4, i5, i6, i7, i8, i9, i10, i11, i12, i13, i14, i15, i16⟩ :=
        productions_sound fuel
      have hE : (if s.func_nest > 0 then peek "E" else pure false) s = Res.ok (false, s) := by
        split
        · exact h.peek_at_sign hv "E" (by decide)
        · rfl
      have hos : at_sentinel ['@'] = false := by decide
      rw [function_encoding_loop] at e
      simp only [run_bind, h.run_on_sentinel hv, hos, andThen_ok, Bool.false_eq_true, if_false,
        run_getS, hE, current_position, run_pure, set_parameter_base, run_ite] at e
      split at e
      · simp only [run_modifyS, andThen_ok] at e
        have h1 : At (s.setParamBase s.func_nest.toNat s.plain.length) ['@'] := ⟨h.1, h.2⟩
        by_cases hc : count > 0
        · simp only [hc, if_true, Demangle.append, run_modifyS, andThen_ok] at e
          refine andThen_invalid _ _ a t e (fun a u hu => type_at_sign fuel _ a u
            (h1.after_append _) hu) (fun _ => ?_)
          repeat' first | infer_instance | apply Sound.bind | apply Sound.ite | intro _ | split
        · simp only [hc, if_false, run_pure, andThen_ok] at e
          refine andThen_invalid _ _ a t e (fun a u hu => type_at_sign fuel _ a u h1 hu)
            (fun _ => ?_)
          repeat' first | infer_instance | apply Sound.bind | apply Sound.ite | intro _ | split
      · cases e

theorem run_on_sentinel_behind (s : Mangle) (hv : s.valid = true)
    (h : s.mangled.length < s.mpos) : on_sentinel s = Res.error Fault.undefined := by
  simp only [on_sentinel, run_bind, run_getS, andThen_ok, hv, if_true,
    look_behind 0 s (by omega), andThen_error]

theorem bind_assoc_run {α β γ : Type} (m : M α) (f : α → M β) (g : β → M γ) (s : Mangle) :
    ((m >>= f) >>= g) s = (m >>= fun a => f a >>= g) s := by
  simp only [run_bind]
  cases m s <;> rfl

/-- A continuation of `on_sentinel` whose run with the answer `false` from a `@` at the end
of the input clears `valid`. -/
theorem sim2_on_sentinel_bind {X : Suffixed} {β : Type} {f f2 : Bool → M β}
    (hf : ∀ b, Sim2 X (f b) (f2 b))
    (hk : ∀ s b t, s.valid = true → At s ['@'] → f false s = Res.ok (b, t) → t.valid = false) :
    Sim2 X (on_sentinel >>= f) (on_sentinel >>= f2) := by
  intro s b t hs e
  rw [run_bind] at e
  rw [run_bind]
  cases hv : s.valid with
  | false =>
    rw [run_on_sentinel_invalid s hv, andThen_ok] at e
    obtain ⟨r1, r2⟩ := hf true s b t hs e
    exact ⟨r1, fun ht => absurd (r2 ht).1 (by simp [hv])⟩
  | true =>
    rcases X.cursor_cases s hs with ⟨c, r, h1, h2⟩ | ⟨h1, h2⟩ | h3
    · rw [h1.run_on_sentinel hv, andThen_ok] at e
      rw [h2.run_on_sentinel hv, andThen_ok]
      by_cases hd : c = '@' ∧ r = [] ∧ X.first = '@'
      · obtain ⟨rfl, rfl, -⟩ := hd
        have hos : at_sentinel ['@'] = false := by decide
        rw [hos] at e
        have hk2 := hk s b t hv h1 e
        exact ⟨(hf false s b t hs e).1, fun ht => absurd ht (by simp [hk2])⟩
      · rw [X.at_sentinel_lift c r hd]
        obtain ⟨r1, r2⟩ := hf _ s b t hs e
        exact ⟨r1, fun ht => ⟨rfl, (r2 ht).2⟩⟩
    · rw [h1.run_on_sentinel_nil, andThen_ok] at e
      rw [h2.run_on_sentinel hv, X.at_sentinel_sfx, andThen_ok]
      obtain ⟨r1, r2⟩ := hf _ s b t hs e
      exact ⟨r1, fun ht => ⟨rfl, (r2 ht).2⟩⟩
    · rw [run_on_sentinel_behind s hv (by rw [hs]; omega)] at e
      cases e

theorem sim_function_encoding_loop_step (X : Suffixed) (fuel count : Nat)
    (hT : Sim X (_type fuel)) (hL : ∀ c, Sim X (function_encoding_loop fuel c)) :
    Sim X (function_encoding_loop (fuel + 1) count) := by
  have p_E := sim_peek X "E" (by decide)
  constructor
  rw [Demangle.function_encoding_loop]
  refine sim2_on_sentinel_bind (fun b => sim2_of_sim ?_) ?_
  · apply sim_ite inferInstance
    refine sim_getS_bind (fun _ => rfl) (fun x => ?_)
    apply sim_bind (sim_ite p_E inferInstance)
    intro e
    apply sim_ite inferInstance
    apply sim_bind inferInstance
    intro mark
    apply sim_bind inferInstance
    intro _
    dsimp only
    apply sim_ite <;> apply sim_bind inferInstance <;> intro _ <;> apply sim_bind hT <;>
      intro _ <;> apply sim_bind inferInstance <;> intro txt <;> dsimp only <;> apply sim_ite
    all_goals first | exact sim_bind inferInstance (fun _ => hL _) | skip
    all_goals (constructor; refine sim2_on_sentinel_bind (fun b => sim2_of_sim ?_) ?_)
    all_goals first
      | (intro s b t hv h e
         have hE : (if s.func_nest > 0 then Demangle.peek "E" else Pure.pure false) s
             = Res.ok (false, s) := by
           split
           · exact h.peek_at_sign hv "E" (by decide)
           · rfl
         simp only [run_bind, run_getS, andThen_ok, Bool.false_eq_true, if_false, hE,
           run_pure] at e
         exact loop_at_sign fuel (count + 1) s b t h e)
      | (repeat' first | infer_instance | ((with_reducible refine sim_getS_bind ?_ ?_); exact fun _ => rfl) | ((with_reducible refine sim_look_bind _ ?_ ?_ ?_); rfl; rfl) | ((with_reducible refine sim_rest_bind_eq ?_ ?_); exact fun _ => by simp only [Suffixed.strtol_lift, Suffixed.digitRun_lift, Suffixed.strtoul_lift]) | with_reducible apply sim_bind | with_reducible apply sim_ite | intro _ | split)
  · intro s b t hv h e
    refine loop_at_sign (fuel + 1) count s b t h ?_
    have hos : at_sentinel ['@'] = false := by decide
    rw [Demangle.function_encoding_loop, run_bind, h.run_on_sentinel hv, hos, andThen_ok]
    exact e

theorem sim_function_encoding_step (X : Suffixed) (fuel : Nat) (hN : Sim X (_name fuel))
    (hT : Sim X (_type fuel)) (hL : ∀ c, Sim X (function_encoding_loop fuel c)) :
    Sim X (_function_encoding (fuel + 1)) := by
  have k_E := sim_match_ X "E" (by decide)
  constructor
  rw [Demangle._function_encoding]
  refine sim2_bind hN.run (fun _ => sim2_on_sentinel_bind (fun b => sim2_of_sim ?_) ?_)
  · repeat' first | infer_instance | ((with_reducible refine sim_getS_bind ?_ ?_); exact fun _ => rfl) | ((with_reducible refine sim_look_bind _ ?_ ?_ ?_); rfl; rfl) | ((with_reducible refine sim_rest_bind_eq ?_ ?_); exact fun _ => by simp only [Suffixed.strtol_lift, Suffixed.digitRun_lift, Suffixed.strtoul_lift]) | with_reducible apply sim_bind | with_reducible apply sim_ite | intro _ | split
  · intro s b t hv h e
    obtain ⟨i0, i1, i2, i3, i4, i5, i6, i7, i8, i9, i10, i11, i12, i13, i14, i15, i16⟩ :=
      productions_sound fuel
    have hD : (if s.nest > 0 then Demangle.match_ "E" else Pure.pure false) s
        = Res.ok (false, s) := by
      split
      · exact h.run_match_false hv "E" (by decide)
      · rfl
    simp only [run_bind, run_getS, andThen_ok, Bool.false_eq_true, if_false, hD, run_pure,
      run_ite] at e
    split at e
    · simp only [Demangle.invalidate, run_modifyS, Res.ok.injEq, Prod.mk.injEq] at e
      obtain ⟨-, rfl⟩ := e
      rfl
    · have h1 : At (s.setNest (toShort (s.nest + 1))) ['@'] := ⟨h.1, h.2⟩
      have ha : add_nest 1 s = Res.ok ((), s.setNest (toShort (s.nest + 1))) := rfl
      have hap : ∀ u : Mangle, Demangle.append "(".toList u
          = Res.ok ((), u.append "(".toList) := fun _ => rfl
      simp only [ha, andThen_ok, run_bind] at e
      by_cases hr : (pchar s.plain (s.plain.length - 1) == '>' && !s.is_typecast_op) = true
      · simp only [hr, if_true, run_bind, Demangle.current_position, run_getS, run_pure,
          andThen_ok] at e
        refine andThen_invalid _ _ b t e (fun a u hu => andThen_invalid _ _ a u hu
          (fun a2 u2 h2 => type_at_sign fuel _ a2 u2 h1 h2) (fun _ => ?_)) (fun _ => ?_)
        · repeat' first | infer_instance | apply Sound.bind | apply Sound.ite | intro _ | split
        · repeat' first | infer_instance | apply Sound.bind | apply Sound.ite | intro _ | split
      · simp only [hr, if_false, Bool.false_eq_true, run_pure, andThen_ok, run_bind,
          hap] at e
        refine andThen_invalid _ _ b t e (fun a u hu => loop_at_sign fuel 0 _ a u
          (h1.after_append _) hu) (fun _ => ?_)
        repeat' first | infer_instance | apply Sound.bind | apply Sound.ite | intro _ | split

/-! ### The recursive productions -/

theorem sim2_of_invalidate {X : Suffixed} (g : M Unit) : Sim2 X invalidate g := by
  intro s a t hs e
  simp only [Demangle.invalidate, Demangle.modifyS, Res.ok.injEq, Prod.mk.injEq] at e
  obtain ⟨-, rfl⟩ := e
  exact ⟨hs, fun ht => absurd ht (by simp [Mangle.invalidate])⟩

theorem productions_sim (X : Suffixed) : ∀ fuel, ProductionsSim X fuel := by
  have k_E := sim_match_ X "E" (by decide)
  have k_U := sim_match_ X "U" (by decide)
  have k_I := sim_match_ X "I" (by decide)
  have k_DC := sim_match_ X "DC" (by decide)
  have k_L := sim_match_ X "L" (by decide)
  have k_P := sim_match_ X "P" (by decide)
  have k_R := sim_match_ X "R" (by decide)
  have k_O := sim_match_ X "O" (by decide)
  have k_s := sim_match_ X "s" (by decide)
  have p_Ut := sim_peek X "Ut" (by decide)
  have p_E := sim_peek X "E" (by decide)
  have p_M := sim_peek X "M" (by decide)
  have p_I := sim_peek X "I" (by decide)
  have p_Dt := sim_peek X "Dt" (by decide)
  have p_DT := sim_peek X "DT" (by decide)
  have p_N := sim_peek X "N" (by decide)
  have p_Z := sim_peek X "Z" (by decide)
  have p_r := sim_peek X "r" (by decide)
  have p_V := sim_peek X "V" (by decide)
  have p_K := sim_peek X "K" (by decide)
  have p_U := sim_peek X "U" (by decide)
  have p_F := sim_peek X "F" (by decide)
  have p_A := sim_peek X "A" (by decide)
  have p_L := sim_peek X "L" (by decide)
  have e_F := sim_expect X "F" (by decide)
  have e_E := sim_expect X "E" (by decide)
  have e_M := sim_expect X "M" (by decide)
  have e_A := sim_expect X "A" (by decide)
  have e_Z := sim_expect X "Z" (by decide)
  have e_N := sim_expect X "N" (by decide)
  have h_cd := sim_peek_ctor_dtor X
  intro fuel
  induction fuel with
  | zero =>
    constructor
    · intro x; unfold Demangle.extq_loop; infer_instance
    · unfold Demangle._extended_qualifier; infer_instance
    · intro x; unfold Demangle.template_args_loop; infer_instance
    · unfold Demangle._template_args; infer_instance
    · unfold Demangle._unqualified_name; infer_instance
    · intro x; unfold Demangle.function_type_loop; infer_instance
    · unfold Demangle._function_type; infer_instance
    · unfold Demangle._pointer_to_member_type; infer_instance
    · unfold Demangle._array; infer_instance
    · unfold Demangle._local_name; infer_instance
    · unfold Demangle._operator; infer_instance
    · intro x; unfold Demangle.nested_name_loop; infer_instance
    · unfold Demangle._nested_name; infer_instance
    · unfold Demangle._name; infer_instance
    · unfold Demangle._type; infer_instance
    · intro x; unfold Demangle.function_encoding_loop; infer_instance
    · unfold Demangle._function_encoding; infer_instance
  | succ fuel ih =>
    obtain ⟨i0, i1, i2, i3, i4, i5, i6, i7, i8, i9, i10, i11, i12, i13, i14, i15, i16⟩ := ih
    constructor
    · intro x
      unfold Demangle.extq_loop
      repeat' first | infer_instance | ((with_reducible refine sim_getS_bind ?_ ?_); exact fun _ => rfl) | ((with_reducible refine sim_look_bind _ ?_ ?_ ?_); rfl; rfl) | ((with_reducible refine sim_rest_bind_eq ?_ ?_); exact fun _ => by simp only [Suffixed.strtol_lift, Suffixed.digitRun_lift, Suffixed.strtoul_lift]) | with_reducible apply sim_bind | with_reducible apply sim_ite | intro _ | split
    · unfold Demangle._extended_qualifier
      repeat' first | infer_instance | ((with_reducible refine sim_getS_bind ?_ ?_); exact fun _ => rfl) | ((with_reducible refine sim_look_bind _ ?_ ?_ ?_); rfl; rfl) | ((with_reducible refine sim_rest_bind_eq ?_ ?_); exact fun _ => by simp only [Suffixed.strtol_lift, Suffixed.digitRun_lift, Suffixed.strtoul_lift]) | with_reducible apply sim_bind | with_reducible apply sim_ite | intro _ | split
    · intro x
      unfold Demangle.template_args_loop
      repeat' first | infer_instance | ((with_reducible refine sim_getS_bind ?_ ?_); exact fun _ => rfl) | ((with_reducible refine sim_look_bind _ ?_ ?_ ?_); rfl; rfl) | ((with_reducible refine sim_rest_bind_eq ?_ ?_); exact fun _ => by simp only [Suffixed.strtol_lift, Suffixed.digitRun_lift, Suffixed.strtoul_lift]) | with_reducible apply sim_bind | with_reducible apply sim_ite | intro _ | split
    · unfold Demangle._template_args
      repeat' first | infer_instance | ((with_reducible refine sim_getS_bind ?_ ?_); exact fun _ => rfl) | ((with_reducible refine sim_look_bind _ ?_ ?_ ?_); rfl; rfl) | ((with_reducible refine sim_rest_bind_eq ?_ ?_); exact fun _ => by simp only [Suffixed.strtol_lift, Suffixed.digitRun_lift, Suffixed.strtoul_lift]) | with_reducible apply sim_bind | with_reducible apply sim_ite | intro _ | split
    · unfold Demangle._unqualified_name
      repeat' first | infer_instance | ((with_reducible refine sim_getS_bind ?_ ?_); exact fun _ => rfl) | ((with_reducible refine sim_look_bind _ ?_ ?_ ?_); rfl; rfl) | ((with_reducible refine sim_rest_bind_eq ?_ ?_); exact fun _ => by simp only [Suffixed.strtol_lift, Suffixed.digitRun_lift, Suffixed.strtoul_lift]) | with_reducible apply sim_bind | with_reducible apply sim_ite | intro _ | split
    · intro x
      unfold Demangle.function_type_loop
      repeat' first | infer_instance | ((with_reducible refine sim_getS_bind ?_ ?_); exact fun _ => rfl) | ((with_reducible refine sim_look_bind _ ?_ ?_ ?_); rfl; rfl) | ((with_reducible refine sim_rest_bind_eq ?_ ?_); exact fun _ => by simp only [Suffixed.strtol_lift, Suffixed.digitRun_lift, Suffixed.strtoul_lift]) | with_reducible apply sim_bind | with_reducible apply sim_ite | intro _ | split
    · unfold Demangle._function_type
      repeat' first | infer_instance | ((with_reducible refine sim_getS_bind ?_ ?_); exact fun _ => rfl) | ((with_reducible refine sim_look_bind _ ?_ ?_ ?_); rfl; rfl) | ((with_reducible refine sim_rest_bind_eq ?_ ?_); exact fun _ => by simp only [Suffixed.strtol_lift, Suffixed.digitRun_lift, Suffixed.strtoul_lift]) | with_reducible apply sim_bind | with_reducible apply sim_ite | intro _ | split
    · unfold Demangle._pointer_to_member_type
      repeat' first | infer_instance | ((with_reducible refine sim_getS_bind ?_ ?_); exact fun _ => rfl) | ((with_reducible refine sim_look_bind _ ?_ ?_ ?_); rfl; rfl) | ((with_reducible refine sim_rest_bind_eq ?_ ?_); exact fun _ => by simp only [Suffixed.strtol_lift, Suffixed.digitRun_lift, Suffixed.strtoul_lift]) | with_reducible apply sim_bind | with_reducible apply sim_ite | intro _ | split
    · unfold Demangle._array
      repeat' first | infer_instance | ((with_reducible refine sim_getS_bind ?_ ?_); exact fun _ => rfl) | ((with_reducible refine sim_look_bind _ ?_ ?_ ?_); rfl; rfl) | ((with_reducible refine sim_rest_bind_eq ?_ ?_); exact fun _ => by simp only [Suffixed.strtol_lift, Suffixed.digitRun_lift, Suffixed.strtoul_lift]) | with_reducible apply sim_bind | with_reducible apply sim_ite | intro _ | split
    · unfold Demangle._local_name
      repeat' first | infer_instance | ((with_reducible refine sim_getS_bind ?_ ?_); exact fun _ => rfl) | ((with_reducible refine sim_look_bind _ ?_ ?_ ?_); rfl; rfl) | ((with_reducible refine sim_rest_bind_eq ?_ ?_); exact fun _ => by simp only [Suffixed.strtol_lift, Suffixed.digitRun_lift, Suffixed.strtoul_lift]) | with_reducible apply sim_bind | with_reducible apply sim_ite | intro _ | split
    · unfold Demangle._operator
      refine sim_getS_bind (fun _ => rfl) (fun _ => sim_ite ?_ inferInstance)
      refine sim_rest_bind2 (fun l => ?_)
      by_cases hl : l.length < 2
      · rw [if_pos hl]
        exact sim2_of_invalidate _
      · rw [if_neg hl, if_neg (by rw [List.length_append]; omega)]
        apply sim2_of_sim
        repeat' first | infer_instance | ((with_reducible refine sim_getS_bind ?_ ?_); exact fun _ => rfl) | ((with_reducible refine sim_look_bind _ ?_ ?_ ?_); rfl; rfl) | ((with_reducible refine sim_rest_bind_eq ?_ ?_); exact fun _ => by simp only [Suffixed.strtol_lift, Suffixed.digitRun_lift, Suffixed.strtoul_lift]) | with_reducible apply sim_bind | with_reducible apply sim_ite | intro _ | split
    · intro x
      unfold Demangle.nested_name_loop
      repeat' first | infer_instance | ((with_reducible refine sim_getS_bind ?_ ?_); exact fun _ => rfl) | ((with_reducible refine sim_look_bind _ ?_ ?_ ?_); rfl; rfl) | ((with_reducible refine sim_rest_bind_eq ?_ ?_); exact fun _ => by simp only [Suffixed.strtol_lift, Suffixed.digitRun_lift, Suffixed.strtoul_lift]) | with_reducible apply sim_bind | with_reducible apply sim_ite | intro _ | split
    · unfold Demangle._nested_name
      repeat' first | infer_instance | ((with_reducible refine sim_getS_bind ?_ ?_); exact fun _ => rfl) | ((with_reducible refine sim_look_bind _ ?_ ?_ ?_); rfl; rfl) | ((with_reducible refine sim_rest_bind_eq ?_ ?_); exact fun _ => by simp only [Suffixed.strtol_lift, Suffixed.digitRun_lift, Suffixed.strtoul_lift]) | with_reducible apply sim_bind | with_reducible apply sim_ite | intro _ | split
    · unfold Demangle._name
      repeat' first | infer_instance | ((with_reducible refine sim_getS_bind ?_ ?_); exact fun _ => rfl) | ((with_reducible refine sim_look_bind _ ?_ ?_ ?_); rfl; rfl) | ((with_reducible refine sim_rest_bind_eq ?_ ?_); exact fun _ => by simp only [Suffixed.strtol_lift, Suffixed.digitRun_lift, Suffixed.strtoul_lift]) | with_reducible apply sim_bind | with_reducible apply sim_ite | intro _ | split
    · unfold Demangle._type
      repeat' first | infer_instance | ((with_reducible refine sim_getS_bind ?_ ?_); exact fun _ => rfl) | ((with_reducible refine sim_look_bind _ ?_ ?_ ?_); rfl; rfl) | ((with_reducible refine sim_rest_bind_eq ?_ ?_); exact fun _ => by simp only [Suffixed.strtol_lift, Suffixed.digitRun_lift, Suffixed.strtoul_lift]) | with_reducible apply sim_bind | with_reducible apply sim_ite | intro _ | split
    · intro x
      exact sim_function_encoding_loop_step X fuel x i14 i15
    · exact sim_function_encoding_step X fuel i13 i14 i15

theorem sim_encoding (X : Suffixed) (fuel : Nat) : Sim X (_encoding fuel) := by
  have h1 := (productions_sim X fuel).p_type
  have h2 := (productions_sim X fuel).p_function_encoding
  have k1 := sim_match_ X "TV" (by decide)
  have k2 := sim_match_ X "TT" (by decide)
  have k3 := sim_match_ X "TI" (by decide)
  have k4 := sim_match_ X "TS" (by decide)
  unfold Demangle._encoding
  repeat' first | infer_instance | ((with_reducible refine sim_getS_bind ?_ ?_); exact fun _ => rfl) | ((with_reducible refine sim_look_bind _ ?_ ?_ ?_); rfl; rfl) | ((with_reducible refine sim_rest_bind_eq ?_ ?_); exact fun _ => by simp only [Suffixed.strtol_lift, Suffixed.digitRun_lift, Suffixed.strtoul_lift]) | with_reducible apply sim_bind | with_reducible apply sim_ite | intro _ | split

/-! ### The entry point on an input with a suffix -/

theorem cstr_append_of_mem (m x : List Char) (h : NUL ∈ m) : cstr (m ++ x) = cstr m := by
  induction m with
  | nil => cases h
  | cons c m ih =>
    rw [List.cons_append, cstr_cons, cstr_cons]
    by_cases hc : c = NUL
    · rw [if_pos hc, if_pos hc]
    · rw [if_neg hc, if_neg hc]
      rcases List.mem_cons.mp h with h1 | h1
      · exact absurd h1.symm hc
      · rw [ih h1]

theorem cstr_append_of_not_mem (m x : List Char) (h : NUL ∉ m) :
    cstr (m ++ x) = m ++ cstr x := by
  induction m with
  | nil => rfl
  | cons c m ih =>
    rw [List.cons_append, cstr_cons]
    have hc : c ≠ NUL := fun e => h (by rw [e]; exact List.mem_cons_self _ _)
    rw [if_neg hc, ih (fun hm => h (List.mem_cons_of_mem _ hm))]
    rfl

theorem cstr_length_le (x : List Char) : (cstr x).length ≤ x.length :=
  length_takeWhile_le_length _ _

theorem pchar_append_left (m x : List Char) (i : Nat) (h : pchar m i ≠ NUL) :
    pchar (m ++ x) i = pchar m i := by
  unfold pchar at h ⊢
  by_cases hi : i < m.length
  · rw [List.getD_eq_getElem _ _ hi, List.getD_eq_getElem _ _ (by rw [List.length_append]; omega),
      List.getElem_append_left hi]
  · exact absurd (List.getD_eq_default _ _ (by omega)) h

/-- The run of `demangle` on an input with a suffix in terms of a `Suffixed`. -/
theorem demangle_suffixed (X : Suffixed) (fuel : Nat) (plain : List Char) (size : Nat)
    (t : List Char) (h : demangle fuel plain size X.base = Res.ok (true, t))
    (hb : cstr X.base = X.base) (hx : cstr X.sfx = X.sfx) :
    demangle fuel plain size (X.base ++ X.sfx) = Res.ok (true, t) := by
  have hnul : NUL ∉ X.base := by
    intro hm
    have := List.mem_takeWhile_imp (p := fun c => c != NUL) (l := X.base) (by
      unfold cstr at hb; rw [hb]; exact hm)
    simp at this
  unfold demangle at h ⊢
  rw [cstr_append_of_not_mem _ _ hnul, hx]
  rw [hb] at h
  by_cases hsz : size = 0
  · rw [if_pos hsz] at h; cases h
  · rw [if_neg hsz] at h ⊢
    by_cases hp : (pchar X.base 0 != '_' || pchar X.base 1 != 'Z') = true
    · rw [if_pos hp] at h; cases h
    · rw [if_neg hp] at h
      simp only [Bool.or_eq_true, bne_iff_ne, ne_eq, not_or, not_not] at hp
      have h0 : pchar (X.base ++ X.sfx) 0 = '_' := by
        rw [pchar_append_left _ _ _ (by rw [hp.1]; decide), hp.1]
      have h1 : pchar (X.base ++ X.sfx) 1 = 'Z' := by
        rw [pchar_append_left _ _ _ (by rw [hp.2]; decide), hp.2]
      rw [if_neg (by rw [h0, h1]; decide)]
      cases he : _encoding fuel (initial size X.base) with
      | error e => rw [he] at h; cases h
      | ok r =>
        obtain ⟨a, s⟩ := r
        rw [he] at h
        simp only [Res.ok.injEq, Prod.mk.injEq] at h
        have := ((sim_encoding X fuel).run (initial size X.base) a s rfl he).2 h.1
        have hl : X.lift (initial size X.base) = initial size (X.base ++ X.sfx) := rfl
        rw [hl] at this
        rw [this.2]
        simp only [Suffixed.lift, h.1, h.2]

theorem cstr_idem (x : List Char) : cstr (cstr x) = cstr x := by
  apply cstr_of_no_nul
  intro c hc e
  have := List.mem_takeWhile_imp (p := fun c => c != NUL) (l := x) hc
  rw [e] at this
  simp at this

theorem demangle_cstr (fuel : Nat) (plain : List Char) (size : Nat) (x : List Char) :
    demangle fuel plain size (cstr x) = demangle fuel plain size x := by
  unfold demangle
  rw [cstr_idem]

/-- When `demangle` returns true with the text `t` on the input `m`, it returns true
with the same text, in a buffer of the same capacity, on `m` followed by a suffix that
begins with `.` or with `@@`.  The input with its suffix is shorter than 2^31 characters,
the range of `int` in which the parser compares lengths. -/
theorem demangle_ignores_suffix (fuel : Nat) (plain : List Char) (size : Nat)
    (m s t : List Char)
    (hs : (∃ r, s = '.' :: r) ∨ (∃ r, s = '@' :: '@' :: r))
    (hlen : m.length + s.length < 2147483648)
    (h : demangle fuel plain size m = Res.ok (true, t)) :
    demangle fuel plain size (m ++ s) = Res.ok (true, t) := by
  by_cases hn : NUL ∈ m
  · unfold demangle at h ⊢
    rw [cstr_append_of_mem _ _ hn]
    exact h
  · have hm : cstr m = m := cstr_of_no_nul m (fun c hc e => hn (by rw [← e]; exact hc))
    rw [← demangle_cstr, cstr_append_of_not_mem _ _ hn]
    rcases hs with ⟨r, rfl⟩ | ⟨r, rfl⟩
    · have hc : cstr ('.' :: r) = '.' :: cstr r := by
        rw [cstr_cons, if_neg (by decide)]
      have hle := cstr_length_le r
      rw [hc]
      exact demangle_suffixed ⟨m, '.', cstr r, Or.inl rfl,
        by simp only [List.length_cons] at hlen ⊢; omega⟩ fuel plain size t h hm
        (by
          show cstr ('.' :: cstr r) = '.' :: cstr r
          rw [cstr_cons, if_neg (by decide), cstr_idem])
    · have hc : cstr ('@' :: '@' :: r) = '@' :: '@' :: cstr r := by
        rw [cstr_cons, if_neg (by decide), cstr_cons, if_neg (by decide)]
      have hle := cstr_length_le r
      rw [hc]
      exact demangle_suffixed ⟨m, '@', '@' :: cstr r, Or.inr ⟨rfl, rfl⟩,
        by simp only [List.length_cons] at hlen ⊢; omega⟩ fuel plain size t h hm
        (by
          show cstr ('@' :: '@' :: cstr r) = '@' :: '@' :: cstr r
          rw [cstr_cons, if_neg (by decide), cstr_cons, if_neg (by decide), cstr_idem])

theorem demangle_ignores_suffix_witness :
    demangle 20 [] 256 ("_Z3fooPKi".toList ++ "@@WXU_3.0".toList)
        = Res.ok (true, "foo(int const*)".toList) ∧
      demangle 20 [] 256 ("_Z3funi".toList ++ ".constprop.0".toList)
        = Res.ok (true, "fun(int)".toList) :=
  ⟨demangle_ignores_suffix 20 [] 256 _ _ _ (Or.inr ⟨_, rfl⟩) (by decide) (by decide),
    demangle_ignores_suffix 20 [] 256 _ _ _ (Or.inl ⟨_, rfl⟩) (by decide) (by decide)⟩

/-! ## More runs of the cursor primitives -/

theorem At.congr {s t : Mangle} {l : List Char} (h : At s l) (h1 : t.mpos = s.mpos)
    (h2 : t.mangled = s.mangled) : At t l := by
  unfold At at h ⊢
  rw [h1, h2]
  exact h

theorem At.next {s : Mangle} {c : Char} {l : List Char} (h : At s (c :: l)) :
    At (s.setMpos (s.mpos + 1)) l :=
  h.moved 1 (by simp)

theorem isPrefixOf_single (c : Char) (l : List Char) : [c].isPrefixOf (c :: l) = true := by
  simp [List.isPrefixOf]

theorem At.run_match_true {s : Mangle} {l : List Char} (h : At s l) (hv : s.valid = true)
    (kw : String) (hk : kw.toList.isPrefixOf l = true) :
    match_ kw s = Res.ok (true, s.setMpos (s.mpos + kw.length)) := by
  simp only [match_, run_bind, h.run_peek hv, andThen_ok, hk, if_true, advance, run_modifyS,
    run_pure]

theorem At.run_expect_true {s : Mangle} {l : List Char} (h : At s l) (hv : s.valid = true)
    (kw : String) (hk : kw.toList.isPrefixOf l = true) :
    expect kw s = Res.ok (true, s.setMpos (s.mpos + kw.length)) := by
  simp only [expect, run_bind, run_getS, andThen_ok, hv, if_true, h.run_match_true hv kw hk,
    run_pure]

theorem At.run_expect_false {s : Mangle} {l : List Char} (h : At s l) (hv : s.valid = true)
    (kw : String) (hk : kw.toList.isPrefixOf l = false) :
    expect kw s = Res.ok (false, s.invalidate) := by
  simp only [expect, run_bind, run_getS, andThen_ok, hv, if_true, h.run_match_false hv kw hk,
    Bool.false_eq_true, if_false, invalidate, run_modifyS, run_pure]

theorem run_expect_invalid (s : Mangle) (hv : s.valid = false) (kw : String) :
    expect kw s = Res.ok (false, s) := by
  simp only [expect, run_bind, run_getS, andThen_ok, hv, Bool.false_eq_true, if_false,
    run_pure]

/-! ## The seq-id of a substitution -/

theorem seq_value_cons (c : Char) (w : List Char) (index : Nat) :
    seq_value (c :: w) index = seq_value w
      ((index * 36 + (if isdigit c then c.toNat - 48 else c.toNat - 65 + 10)) % SIZE_MOD) :=
  rfl

theorem base36_not_special (c : Char) (h : isdigit c = true ∨ isupper c = true) :
    c ≠ NUL ∧ c ≠ '.' ∧ c ≠ '@' ∧ c ≠ '_' := by
  refine ⟨?_, ?_, ?_, ?_⟩ <;> intro e <;> rw [e] at h <;> revert h <;> decide

/-- The loop of `_substitution` on a seq-id that is followed by `_`. -/
theorem subst_seq_loop_run (r : List Char) : ∀ (w : List Char) (n index : Nat) (s : Mangle),
    w.length + 1 ≤ n → s.valid = true → At s (w ++ '_' :: r) →
    (∀ c ∈ w, isdigit c = true ∨ isupper c = true) →
    subst_seq_loop n index s
      = Res.ok (some (seq_value w index), s.setMpos (s.mpos + w.length)) := by
  intro w
  induction w with
  | nil =>
    intro n index s hn hv h _
    obtain ⟨m, rfl⟩ : ∃ m, n = m + 1 := ⟨n - 1, by simp at hn; omega⟩
    have l0 := h.run_look0
    simp only [List.nil_append, List.headD_cons] at l0
    rw [subst_seq_loop]
    simp only [run_bind, l0, andThen_ok, bne_self_eq_false, Bool.false_eq_true, if_false,
      run_pure, seq_value, List.foldl_nil, List.length_nil, Nat.add_zero]
    rfl
  | cons c w ih =>
    intro n index s hn hv h hw
    obtain ⟨m, rfl⟩ : ∃ m, n = m + 1 := ⟨n - 1, by simp at hn; omega⟩
    have hc := hw c (List.mem_cons_self _ _)
    obtain ⟨c1, c2, c3, c4⟩ := base36_not_special c hc
    have l0 := h.run_look0
    simp only [List.cons_append, List.headD_cons] at l0 h
    have hne : (c != '_') = true := bne_iff_ne.mpr c4
    have hos := h.run_on_sentinel_false hv c1 c2 c3
    have ih2 := ih m ((index * 36 + (if isdigit c then c.toNat - 48 else c.toNat - 65 + 10))
        % SIZE_MOD) (s.setMpos (s.mpos + 1))
      (by simp only [List.length_cons] at hn; omega) hv h.next
      (fun x hx => hw x (List.mem_cons_of_mem _ hx))
    have hfin : (s.setMpos (s.mpos + 1)).setMpos ((s.setMpos (s.mpos + 1)).mpos + w.length)
        = s.setMpos (s.mpos + (c :: w).length) := by
      simp only [Mangle.setMpos, List.length_cons, Mangle.mk.injEq, true_and, and_true]
      omega
    rw [hfin] at ih2
    rw [subst_seq_loop]
    simp only [run_bind, l0, andThen_ok, hne, if_true, hos, Bool.false_eq_true, if_false]
    by_cases hd : isdigit c = true
    · simp only [hd, if_true, run_bind, advance, run_modifyS, andThen_ok] at ih2 ⊢
      rw [seq_value_cons]
      simp only [hd, if_true]
      exact ih2
    · have hu : isupper c = true := by
        rcases hc with h1 | h1
        · exact absurd h1 hd
        · exact h1
      simp only [hd, hu, if_true, if_false, run_bind, advance, run_modifyS, andThen_ok,
        Bool.false_eq_true] at ih2 ⊢
      rw [seq_value_cons]
      simp only [hd, if_false, Bool.false_eq_true]
      exact ih2

/-- The run of `_substitution` on `S`, a seq-id and `_`. -/
theorem substitution_run (s : Mangle) (w r : List Char) (hv : s.valid = true)
    (h : At s ('S' :: (w ++ '_' :: r)))
    (hw : ∀ c ∈ w, isdigit c = true ∨ isupper c = true) :
    _substitution s = Res.ok ((),
      if seq_index w ≥ s.substitions.length then
        (s.setMpos (s.mpos + (w.length + 2))).invalidate
      else (s.setMpos (s.mpos + (w.length + 2))).append
        (s.substitions.getD (seq_index w) [])) := by
  have e1 := h.run_expect_true hv "S" (isPrefixOf_single 'S' _)
  have h1 : At (s.setMpos (s.mpos + 1)) (w ++ '_' :: r) := h.next
  have hlen : "S".length = 1 := rfl
  rw [hlen] at e1
  have hfin : ∀ k, ((s.setMpos (s.mpos + 1)).setMpos ((s.setMpos (s.mpos + 1)).mpos + k)).setMpos
      (((s.setMpos (s.mpos + 1)).setMpos ((s.setMpos (s.mpos + 1)).mpos + k)).mpos + 1)
      = s.setMpos (s.mpos + (k + 2)) := by
    intro k
    simp only [Mangle.setMpos, Mangle.mk.injEq, true_and, and_true]
    omega
  have hlen2 : "_".length = 1 := rfl
  cases w with
  | nil =>
    have l0 := h1.run_look0
    simp only [List.nil_append, List.headD_cons] at l0 h1
    have e2 := h1.run_expect_true hv "_" (isPrefixOf_single '_' _)
    rw [hlen2] at e2
    have hfin0 := hfin 0
    simp only [Nat.add_zero] at hfin0
    have hs0 : (s.setMpos (s.mpos + 1)).setMpos ((s.setMpos (s.mpos + 1)).mpos + 1)
        = s.setMpos (s.mpos + (0 + 2)) := by
      simp only [Mangle.setMpos, Mangle.mk.injEq, true_and, and_true]
    rw [hs0] at e2
    simp only [_substitution, run_bind, e1, andThen_ok, if_true, l0, h1.run_rest,
      bne_self_eq_false, Bool.false_eq_true, if_false, run_pure, e2, run_getS, seq_index,
      List.length_nil, run_ite, invalidate, run_modifyS, Demangle.append]
    have hsl : ∀ k, (s.setMpos k).substitions = s.substitions := fun _ => rfl
    simp only [hsl]
    by_cases hi : 0 ≥ s.substitions.length
    · rw [if_pos hi, if_pos hi]
    · rw [if_neg hi, if_neg hi]
  | cons c w =>
    have hc := hw c (List.mem_cons_self _ _)
    obtain ⟨c1, c2, c3, c4⟩ := base36_not_special c hc
    have l0 := h1.run_look0
    simp only [List.cons_append, List.headD_cons] at l0
    have hne : (c != '_') = true := bne_iff_ne.mpr c4
    have hloop := subst_seq_loop_run r (c :: w) ((c :: w ++ '_' :: r).length + 1) 0
      (s.setMpos (s.mpos + 1)) (by simp only [List.length_append, List.length_cons]; omega)
      hv h1 hw
    have h2 : At ((s.setMpos (s.mpos + 1)).setMpos ((s.setMpos (s.mpos + 1)).mpos
        + (c :: w).length)) ('_' :: r) := by
      have := h1.moved (c :: w).length (by simp)
      rw [List.drop_left] at this
      exact this
    have e2 := h2.run_expect_true hv "_" (isPrefixOf_single '_' _)
    rw [hlen2, hfin] at e2
    have hidx : seq_index (c :: w) = (seq_value (c :: w) 0 + 1) % SIZE_MOD := by
      simp only [seq_index, if_false, reduceCtorEq]
    simp only [_substitution, run_bind, e1, andThen_ok, if_true, l0, h1.run_rest, hne,
      hloop, run_pure, Option.map_some', e2, run_getS, hidx, run_ite, invalidate,
      run_modifyS, Demangle.append]
    have hsl : ∀ k, (s.setMpos k).substitions = s.substitions := fun _ => rfl
    simp only [hsl]
    by_cases hi : (seq_value (c :: w) 0 + 1) % SIZE_MOD ≥ s.substitions.length
    · rw [if_pos hi, if_pos hi]
    · rw [if_neg hi, if_neg hi]

/-- C16: this source has no branch for closure types: on the inputs `_ZUlisE_` and
`_ZZ3aaavENUlvE_3bbbE` the run of `demangle` returns false. -/
theorem closure_type_rejected :
    demangle 20 [] 256 "_ZUlisE_".toList = Res.ok (false, []) ∧
      demangle 20 [] 256 "_ZZ3aaavENUlvE_3bbbE".toList = Res.ok (false, "aaa()::".toList) := by
  decide

/-- C17: `_expr_primary` has no branch for the type code `b`: on the inputs
`_Z3fooILb0EEvi`, `_Z3fooILb1EEvi` and `_Z3fooILb2EEvi` the run of `demangle` returns
false. -/
theorem bool_literal_rejected :
    demangle 20 [] 256 "_Z3fooILb0EEvi".toList = Res.ok (false, "foo<".toList) ∧
      demangle 20 [] 256 "_Z3fooILb1EEvi".toList = Res.ok (false, "foo<".toList) ∧
      demangle 20 [] 256 "_Z3fooILb2EEvi".toList = Res.ok (false, "foo<".toList) := by
  decide

/-- C20: on the input `_Z3fooISt6vectorIiEEvT_` the template-parameter table after the
argument list holds the argument `int` of the inner list at index 0 and the argument
`std::vector<int>` of the list itself at index 1, and `T_` is rendered as `int`. -/
theorem inner_template_args_stay :
    demangle 20 [] 256 "_Z3fooISt6vectorIiEEvT_".toList
        = Res.ok (true, "void foo<std::vector<int>>(int)".toList) ∧
      (match _name 20 (initial 256 "_Z3fooISt6vectorIiEEvT_".toList) with
        | Res.ok (_, s) => some (s.valid, s.plain, s.tpl_subst, s.mangled.drop s.mpos)
        | Res.error _ => none)
        = some (true, "foo<std::vector<int>>".toList,
            ["int".toList, "std::vector<int>".toList], "vT_".toList) := by
  decide

/-! ## Symbolic runs of the output primitives -/

/-- Run of `insert` when the text fits: the text stands at the offset `p` afterwards. -/
theorem run_insert (t : Mangle) (p : Nat) (text : List Char) (hv : t.valid = true)
    (hp : p ≤ t.plain.length) (hne : text ≠ [])
    (hfit : t.plain.length + text.length < t.size) :
    insert p text t
      = Res.ok ((), { t with plain := t.plain.take p ++ text ++ t.plain.drop p }) := by
  have hpos : 0 < text.length := List.length_pos.mpr hne
  by_cases he : p = t.plain.length
  · simp only [insert, run_bind, run_getS, andThen_ok, hv, if_true, run_cassert, hp,
      decide_True, he, le_refl, Demangle.append, run_modifyS, run_ite]
    rw [Mangle.append_fits _ _ hv hfit]
    simp [hv]
  · simp only [insert, run_bind, run_getS, andThen_ok, hv, if_true, run_cassert, hp,
      decide_True, he, if_false, hpos, run_modifyS, run_ite, Mangle.splice, hfit]

/-- Run of `add_substitution` for a substitution when the table has room. -/
theorem run_add_substitution_at (t : Mangle) (mark : Nat) (hv : t.valid = true)
    (hroom : t.substitions.length < 20) :
    add_substitution_at mark false t
      = Res.ok ((), { t with substitions := t.substitions ++ [t.plain.drop mark] }) := by
  simp only [add_substitution_at, text_at, add_substitution, run_bind, run_getS, andThen_ok,
    run_pure, hv, if_true, Bool.false_eq_true, if_false, run_cassert, MAX_SUBSTITUTIONS, hroom,
    decide_True, run_modifyS, Mangle.pushSubst, run_ite]

/-- Run of `add_substitution` for a template parameter when the tables have room. -/
theorem run_add_template_at (t : Mangle) (mark : Nat) (hv : t.valid = true)
    (h1 : t.tpl_subst.length < 10) (h2 : t.substitions.length < 10) :
    add_substitution_at mark true t
      = Res.ok ((), { t with tpl_subst := t.tpl_subst ++ [t.plain.drop mark] }) := by
  simp only [add_substitution_at, text_at, add_substitution, run_bind, run_getS, andThen_ok,
    run_pure, hv, if_true, run_cassert, MAX_TEMPLATE_SUBST, h1, h2,
    decide_True, run_modifyS, Mangle.pushTpl, run_ite]

/-- Run of `append_space` behind a character that is not a separator. -/
theorem run_append_space (t : Mangle) (hv : t.valid = true) (hne : t.plain ≠ [])
    (hlast : " ([<,:".toList.contains (pchar t.plain (t.plain.length - 1)) = false)
    (hfit : t.plain.length + 1 < t.size) :
    append_space t = Res.ok ((), { t with plain := t.plain ++ " ".toList }) := by
  have hpos : t.plain.length > 0 := List.length_pos.mpr hne
  simp only [append_space, run_bind, run_getS, andThen_ok, hpos, if_true, hlast,
    Bool.false_eq_true, if_false, Demangle.append, run_modifyS, run_ite]
  rw [Mangle.append_fits _ _ hv (by
    simp only [String.toList]; simp only [List.length_cons, List.length_nil]
    omega)]

/-- Run of `_qualifier_post` for the single qualifier `K`. -/
theorem run_qualifier_post_const (t : Mangle) (hv : t.valid = true) (hne : t.plain ≠ [])
    (hlast : " ([<,:".toList.contains (pchar t.plain (t.plain.length - 1)) = false)
    (hfit : t.plain.length + 6 < t.size) :
    _qualifier_post ['K'] t = Res.ok ((), { t with plain := t.plain ++ " const".toList }) := by
  have h1 := run_append_space t hv hne hlast (by omega)
  have hk1 : (('K' : Char) != 'R' && ('K' : Char) != 'O') = true := by decide
  have hk2 : (('K' : Char) == 'r') = false := by decide
  have hk3 : (('K' : Char) == 'V') = false := by decide
  simp only [_qualifier_post, run_bind, hk1, if_true, h1, andThen_ok, hk2, hk3,
    Bool.false_eq_true, if_false, beq_self_eq_true, Demangle.append, run_modifyS, run_pure,
    run_ite]
  rw [Mangle.append_fits _ _ (by simpa using hv) (by
    simp only [String.toList]; simp only [List.length_append, List.length_cons, List.length_nil]
    omega)]
  simp only [List.append_assoc]
  rfl

/-- Run of `_qualifier_post` for no qualifier. -/
theorem run_qualifier_post_nil (t : Mangle) : _qualifier_post [] t = Res.ok ((), t) := rfl

/-! ## Symbolic runs of the name productions -/

/-- Run of `_qualifier_pre` in front of a character that is not a qualifier. -/
theorem run_qualifier_pre_none {s : Mangle} {c : Char} {r : List Char} (b : Bool)
    (h : At s (c :: r))
    (hc : c ≠ 'r' ∧ c ≠ 'V' ∧ c ≠ 'K' ∧ c ≠ 'R' ∧ c ≠ 'O') :
    _qualifier_pre 8 b s = Res.ok ([], s) := by
  obtain ⟨h1, h2, h3, h4, h5⟩ := hc
  simp only [_qualifier_pre, run_bind, h.run_rest, andThen_ok, advance, run_modifyS, run_pure]
  have e1 : (c :: r).takeWhile (fun c => c == 'r' || c == 'V' || c == 'K') = [] := by
    simp [List.takeWhile_cons, h1, h2, h3]
  have e2 : (c :: r).takeWhile (fun c => c == 'R' || c == 'O') = [] := by
    simp [List.takeWhile_cons, h4, h5]
  rw [e1]
  simp only [List.take_nil, List.length_nil, List.drop_zero, e2, ite_self, Nat.add_zero,
    List.append_nil]
  rfl

/-- Run of `_qualifier_pre` on the qualifier `K` in front of a character that is not a
qualifier. -/
theorem run_qualifier_pre_const {s : Mangle} {c : Char} {r : List Char} (b : Bool)
    (h : At s ('K' :: c :: r))
    (hc : c ≠ 'r' ∧ c ≠ 'V' ∧ c ≠ 'K' ∧ c ≠ 'R' ∧ c ≠ 'O') :
    _qualifier_pre 8 b s = Res.ok (['K'], s.setMpos (s.mpos + 1)) := by
  obtain ⟨h1, h2, h3, h4, h5⟩ := hc
  simp only [_qualifier_pre, run_bind, h.run_rest, andThen_ok, advance, run_modifyS, run_pure]
  have e1 : ('K' :: c :: r).takeWhile (fun c => c == 'r' || c == 'V' || c == 'K') = ['K'] := by
    simp [List.takeWhile_cons, h1, h2, h3]
  have e2 : (c :: r).takeWhile (fun c => c == 'R' || c == 'O') = [] := by
    simp [List.takeWhile_cons, h4, h5]
  rw [e1]
  have e3 : (['K'] : List Char).take (8 - 1) = ['K'] := rfl
  rw [e3]
  simp only [List.length_cons, List.length_nil, List.drop_succ_cons, List.drop_zero, e2,
    List.take_nil, ite_self, Nat.add_zero, List.append_nil, Nat.zero_add]

theorem digit_ne_of_not_digit {d : Char} (hd : isdigit d = true) (c : Char)
    (hc : isdigit c = false) : c ≠ d := by
  intro e; rw [e, hd] at hc; cases hc

/-- Run of `_unqualified_name` on a source name. -/
theorem unqualified_source_run (fuel : Nat) {s : Mangle} (w r : List Char) (hv : s.valid = true)
    (h : At s (Nat.toDigits 10 w.length ++ (w ++ r)))
    (hw : ∀ c, (w ++ r).head? = some c → isdigit c = false)
    (hlen : (w ++ r).length < 2147483647)
    (hfit : s.plain.length + w.length < s.size) :
    _unqualified_name (fuel + 1) s = Res.ok ((), { s with
      plain := s.plain ++ w,
      mpos := s.mpos + (Nat.toDigits 10 w.length).length + w.length }) := by
  obtain ⟨hne, hall, hval⟩ := toDigits_spec w.length
  obtain ⟨d, ds, hd⟩ := List.exists_cons_of_ne_nil hne
  have hdd : isdigit d = true := hall d (by rw [hd]; exact List.mem_cons_self _ _)
  have h' : At s (d :: (ds ++ (w ++ r))) := by rw [hd] at h; exact h
  have mDC := h'.run_match_false hv "DC"
    (isPrefixOf_cons_ne _ _ _ _ (digit_ne_of_not_digit hdd 'D' (by decide)))
  have pUt : peek "Ut" s = Res.ok (false, s) := by
    rw [h'.run_peek hv]; congr 2
    exact isPrefixOf_cons_ne _ _ _ _ (digit_ne_of_not_digit hdd 'U' (by decide))
  have hl0 : look 0 s = Res.ok (d, s) := by rw [h'.run_look0]; rfl
  have hsn := source_name_run w r hv h hw hlen hfit
  simp only [_unqualified_name, run_bind, run_getS, andThen_ok, hv, if_true, mDC, pUt, hl0, hdd,
    hsn, Bool.false_eq_true, if_false]

/-- The class name that `_ctor_dtor_name` finds in front of a trailing `::`. -/
theorem class_name_scan (pre C : List Char)
    (hC : ∀ x ∈ C, (isalpha x || isdigit x || x == '_') = true)
    (hpre : ∀ x, pre.getLast? = some x → (isalpha x || isdigit x || x == '_') = false) :
    ((pre ++ C).reverse.takeWhile (fun c => isalpha c || isdigit c || c == '_')).length
      = C.length := by
  rw [List.reverse_append, takeWhile_append_stop, List.length_reverse]
  · intro c hc
    exact hC c (List.mem_reverse.mp hc)
  · intro c hc
    apply hpre
    rw [← List.head?_reverse]
    exact hc

theorem pchar_append_right (a b : List Char) (i : Nat) :
    pchar (a ++ b) (a.length + i) = pchar b i := by
  unfold pchar
  simp only [List.getD_eq_getElem?_getD]
  rw [List.getElem?_append_right (by omega)]
  congr 2
  omega

/-- Run of `_ctor_dtor_name` behind a class name and `::`. -/
theorem ctor_dtor_run {s : Mangle} (pre C : List Char) (k d : Char) (r : List Char)
    (hv : s.valid = true) (h : At s (k :: d :: r))
    (hplain : s.plain = pre ++ C ++ "::".toList) (hne : C ≠ [])
    (hC : ∀ x ∈ C, (isalpha x || isdigit x || x == '_') = true)
    (hpre : ∀ x, pre.getLast? = some x → (isalpha x || isdigit x || x == '_') = false)
    (hk : k = 'C' ∨ k = 'D') (hd : isdigit d = true)
    (hfit : s.plain.length + 1 + C.length < s.size) :
    _ctor_dtor_name s = Res.ok ((), { s with
      plain := s.plain ++ ((if k = 'D' then "~".toList else []) ++ C),
      mpos := s.mpos + 2 }) := by
  have hCl : 0 < C.length := List.length_pos.mpr hne
  have hlen : s.plain.length = pre.length + C.length + 2 := by
    rw [hplain]; simp only [List.length_append, String.toList]; rfl
  have hgt : s.plain.length > 2 := by omega
  have hp1 : pchar s.plain (s.plain.length - 1) = ':' := by
    have : s.plain.length - 1 = (pre ++ C).length + 1 := by
      simp only [List.length_append]; omega
    rw [this, hplain, pchar_append_right]; rfl
  have hp2 : pchar s.plain (s.plain.length - 2) = ':' := by
    have : s.plain.length - 2 = (pre ++ C).length + 0 := by
      simp only [List.length_append]; omega
    rw [this, hplain, pchar_append_right]; rfl
  have htake : s.plain.take (s.plain.length - 2) = pre ++ C := by
    have : s.plain.length - 2 = (pre ++ C).length := by
      simp only [List.length_append]; omega
    rw [this, hplain, List.take_left]
  have hscan := class_name_scan pre C hC hpre
  have hhead : s.plain.length - 2 - C.length = pre.length := by omega
  have hnehead : ¬ (pre.length = s.plain.length - 2) := by omega
  have hcname : (pre ++ C).drop pre.length = C := List.drop_left _ _
  have l0 : look 0 s = Res.ok (k, s) := by rw [h.run_look0]; rfl
  have hk2 : (k == 'C' || k == 'D') = true := by
    rcases hk with e | e <;> rw [e] <;> decide
  have hdI : (d == 'I') = false := by
    have := digit_ne_of_not_digit hd 'I' (by decide)
    exact beq_eq_false_iff_ne.mpr (Ne.symm this)
  obtain ⟨v, p, sz, m, mp, n, tc, q, fn, pb0, ss, ts⟩ := s
  simp only at hv hplain hlen hgt hp1 hp2 htake hhead hnehead hfit l0
  subst hv
  have l1 : ∀ p2, look 0 (⟨true, p2, sz, m, mp + 1, n, tc, q, fn, pb0, ss, ts⟩ : Mangle)
      = Res.ok (d, ⟨true, p2, sz, m, mp + 1, n, tc, q, fn, pb0, ss, ts⟩) := by
    intro p2
    have hat : At (⟨true, p2, sz, m, mp + 1, n, tc, q, fn, pb0, ss, ts⟩ : Mangle) (d :: r) :=
      ⟨h.next.1, h.next.2⟩
    rw [hat.run_look0]; rfl
  have hpt : pchar p (p.length - 2) = ':' := hp2
  simp only [_ctor_dtor_name, run_bind, run_getS, andThen_ok, if_true, hgt, hp1, hp2,
    decide_True, beq_self_eq_true, Bool.and_self, htake, hscan, hhead, hnehead, if_false,
    hcname, bne_self_eq_false, Bool.false_eq_true, run_pure, l0, run_cassert, hk2, run_ite]
  rcases hk with e | e
  · subst e
    have e1 : (('C' : Char) == 'D') = false := by decide
    have e2 : ¬ (('C' : Char) = 'D') := by decide
    simp only [e1, Bool.false_eq_true, if_false, run_pure, andThen_ok, Demangle.append,
      run_modifyS, run_bind, advance, e2, List.nil_append]
    rw [Mangle.append_fits _ _ rfl (by simp only; omega)]
    simp only [Mangle.setMpos, l1, andThen_ok, hdI, Bool.false_eq_true, if_false, run_pure,
      run_bind, run_cassert, hd, if_true, run_modifyS, run_ite]
  · subst e
    simp only [beq_self_eq_true, if_true, run_pure, andThen_ok, Demangle.append,
      run_modifyS, run_bind, advance]
    rw [Mangle.append_fits ⟨true, p, sz, m, mp, n, tc, q, fn, pb0, ss, ts⟩ "~".toList rfl (by
      simp only [String.toList]; simp only [List.length_cons, List.length_nil]; omega)]
    rw [Mangle.append_fits _ _ rfl (by
      simp only [String.toList]; simp only [List.length_append, List.length_cons,
        List.length_nil]; omega)]
    simp only [Mangle.setMpos, l1, andThen_ok, hdI, Bool.false_eq_true, if_false, run_pure,
      run_bind, run_cassert, hd, if_true, run_modifyS, run_ite, List.append_assoc]

/-- The codes of constructors and destructors that `_unqualified_name` looks for. -/
theorem At.run_peek_ctor_dtor {s : Mangle} {k d : Char} {r : List Char}
    (h : At s (k :: d :: r)) (hv : s.valid = true)
    (hcd : (k = 'C' ∧ (d = '1' ∨ d = '2' ∨ d = '3')) ∨
      (k = 'D' ∧ (d = '0' ∨ d = '1' ∨ d = '2'))) :
    peek_ctor_dtor s = Res.ok (true, s) := by
  simp only [peek_ctor_dtor, run_bind, run_getS, andThen_ok, hv, if_true, h.run_rest, run_pure]
  congr 2
  rcases hcd with ⟨rfl, rfl | rfl | rfl⟩ | ⟨rfl, rfl | rfl | rfl⟩ <;>
    simp [List.isPrefixOf, String.toList]

/-- Run of `_unqualified_name` on the code of a constructor or destructor behind a class
name and `::`. -/
theorem unqualified_ctor_run (fuel : Nat) {s : Mangle} (pre C : List Char) (k d : Char)
    (r : List Char) (hv : s.valid = true) (h : At s (k :: d :: r))
    (hplain : s.plain = pre ++ C ++ "::".toList) (hne : C ≠ [])
    (hC : ∀ x ∈ C, (isalpha x || isdigit x || x == '_') = true)
    (hpre : ∀ x, pre.getLast? = some x → (isalpha x || isdigit x || x == '_') = false)
    (hcd : (k = 'C' ∧ (d = '1' ∨ d = '2' ∨ d = '3')) ∨
      (k = 'D' ∧ (d = '0' ∨ d = '1' ∨ d = '2')))
    (hfit : s.plain.length + 1 + C.length < s.size) :
    _unqualified_name (fuel + 1) s = Res.ok ((), { s with
      plain := s.plain ++ ((if k = 'D' then "~".toList else []) ++ C),
      mpos := s.mpos + 2 }) := by
  have hk : k = 'C' ∨ k = 'D' := by
    rcases hcd with ⟨e, _⟩ | ⟨e, _⟩
    · exact Or.inl e
    · exact Or.inr e
  have hd : isdigit d = true := by
    rcases hcd with ⟨_, e | e | e⟩ | ⟨_, e | e | e⟩ <;> rw [e] <;> decide
  have hkd : isdigit k = false := by
    rcases hk with e | e <;> rw [e] <;> decide
  have mDC : match_ "DC" s = Res.ok (false, s) := by
    apply h.run_match_false hv
    rcases hk with e | e
    · rw [e]; exact isPrefixOf_cons_ne _ _ _ _ (by decide)
    · have hdc : ('C' == d) = false :=
        beq_eq_false_iff_ne.mpr (digit_ne_of_not_digit hd 'C' (by decide))
      rw [e]
      simp [List.isPrefixOf, String.toList, hdc]
  have pUt : peek "Ut" s = Res.ok (false, s) := by
    rw [h.run_peek hv]; congr 2
    rcases hk with e | e <;> rw [e] <;> exact isPrefixOf_cons_ne _ _ _ _ (by decide)
  have mL : match_ "L" s = Res.ok (false, s) := by
    apply h.run_match_false hv
    rcases hk with e | e <;> rw [e] <;> exact isPrefixOf_cons_ne _ _ _ _ (by decide)
  have l0 : look 0 s = Res.ok (k, s) := by rw [h.run_look0]; rfl
  simp only [_unqualified_name, run_bind, run_getS, andThen_ok, hv, if_true, mDC, pUt, l0, hkd,
    mL, h.run_peek_ctor_dtor hv hcd, Bool.false_eq_true, if_false,
    ctor_dtor_run pre C k d r hv h hplain hne hC hpre hk hd hfit]

/-- One round of the loop of `_nested_name` for a component that is not the last one. -/
theorem nested_name_loop_next (fuel mark : Nat) {s t : Mangle} {c c2 : Char}
    {r r2 : List Char} (hv : s.valid = true) (h : At s (c :: r)) (hc : c ≠ 'M' ∧ c ≠ 'I')
    (hfit : s.plain.length + 2 < s.size)
    (hun : _unqualified_name fuel { s with plain := s.plain ++ "::".toList } = Res.ok ((), t))
    (htv : t.valid = true) (ht : At t (c2 :: r2)) (hc2 : c2 ≠ 'E')
    (hroom : t.substitions.length < 20) :
    nested_name_loop (fuel + 1) mark s
      = nested_name_loop fuel mark
          { t with substitions := t.substitions ++ [t.plain.drop mark] } := by
  have pM : peek "M" s = Res.ok (false, s) := by
    rw [h.run_peek hv]; congr 2
    exact isPrefixOf_cons_ne _ _ _ _ (Ne.symm hc.1)
  have pI : peek "I" s = Res.ok (false, s) := by
    rw [h.run_peek hv]; congr 2
    exact isPrefixOf_cons_ne _ _ _ _ (Ne.symm hc.2)
  have hap : Demangle.append "::".toList s
      = Res.ok ((), { s with plain := s.plain ++ "::".toList }) := by
    simp only [Demangle.append, run_modifyS]
    rw [Mangle.append_fits _ _ hv (by
      simp only [String.toList]; simp only [List.length_cons, List.length_nil]; omega)]
  have mE := ht.run_match_false htv "E" (isPrefixOf_cons_ne _ _ _ _ (Ne.symm hc2))
  have hsub := run_add_substitution_at t mark htv hroom
  rw [nested_name_loop]
  simp only [run_bind, pM, pI, andThen_ok, Bool.false_eq_true, if_false, hap, hun, mE, run_getS,
    Bool.not_false, Bool.true_or, if_true, hsub, htv, Bool.and_self]

/-- The last round of the loop of `_nested_name`: the component is followed by `E`. -/
theorem nested_name_loop_last (fuel mark : Nat) {s t : Mangle} {c : Char}
    {r r2 : List Char} (hv : s.valid = true) (h : At s (c :: r)) (hc : c ≠ 'M' ∧ c ≠ 'I')
    (hfit : s.plain.length + 2 < s.size)
    (hun : _unqualified_name fuel { s with plain := s.plain ++ "::".toList } = Res.ok ((), t))
    (htv : t.valid = true) (ht : At t ('E' :: r2))
    (hroom : t.substitions.length < 20) :
    nested_name_loop (fuel + 1) mark s
      = Res.ok ((), { t with
          mpos := t.mpos + 1,
          substitions :=
            if t.nest > 1 then t.substitions ++ [t.plain.drop mark] else t.substitions }) := by
  have pM : peek "M" s = Res.ok (false, s) := by
    rw [h.run_peek hv]; congr 2
    exact isPrefixOf_cons_ne _ _ _ _ (Ne.symm hc.1)
  have pI : peek "I" s = Res.ok (false, s) := by
    rw [h.run_peek hv]; congr 2
    exact isPrefixOf_cons_ne _ _ _ _ (Ne.symm hc.2)
  have hap : Demangle.append "::".toList s
      = Res.ok ((), { s with plain := s.plain ++ "::".toList }) := by
    simp only [Demangle.append, run_modifyS]
    rw [Mangle.append_fits _ _ hv (by
      simp only [String.toList]; simp only [List.length_cons, List.length_nil]; omega)]
  have mE := ht.run_match_true htv "E" (isPrefixOf_single _ _)
  have hsub := run_add_substitution_at (t.setMpos (t.mpos + "E".length)) mark htv hroom
  rw [nested_name_loop]
  simp only [run_bind, pM, pI, andThen_ok, Bool.false_eq_true, if_false, hap, hun, mE, run_getS,
    Bool.not_true, Bool.false_or, decide_eq_true_eq, run_ite]
  by_cases hn : t.nest > 1
  · have hn2 : (t.setMpos (t.mpos + "E".length)).nest > 1 := hn
    rw [if_pos hn2, hsub, if_pos hn]
    simp only [andThen_ok, run_bind, run_getS, Bool.and_false, Bool.false_eq_true, if_false,
      run_pure]
    rfl
  · have hn2 : ¬ (t.setMpos (t.mpos + "E".length)).nest > 1 := hn
    rw [if_neg hn2, if_neg hn]
    simp only [andThen_ok, run_bind, run_getS, Bool.and_false, Bool.false_eq_true, if_false,
      run_pure]
    rfl

theorem source_code_cons (w : List Char) :
    ∃ d ds, source_code w = d :: ds ∧ isdigit d = true := by
  obtain ⟨hne, hall, -⟩ := toDigits_spec w.length
  obtain ⟨d, ds, hd⟩ := List.exists_cons_of_ne_nil hne
  refine ⟨d, ds ++ w, ?_, hall d (by rw [hd]; exact List.mem_cons_self _ _)⟩
  simp only [source_code, hd, List.cons_append]

theorem qualified_snoc (done : List (List Char)) (w : List Char) (hne : done ≠ []) :
    qualified (done ++ [w]) = qualified done ++ ("::".toList ++ w) := by
  obtain ⟨x, xs, rfl⟩ := List.exists_cons_of_ne_nil hne
  simp only [qualified, List.cons_append, intercalate_cons, List.map_append, List.map_cons,
    List.map_nil, List.flatten_append, List.flatten_cons, List.flatten_nil, List.append_nil,
    List.append_assoc]

theorem identifier_head (w r : List Char) (hid : is_identifier w = true) :
    ∀ c, (w ++ r).head? = some c → isdigit c = false := by
  obtain ⟨c0, r0, hname, hc0, -⟩ := is_identifier_spec w hid
  intro c hc
  rw [hname] at hc
  simp only [List.cons_append, List.head?_cons, Option.some.injEq] at hc
  rw [← hc]; exact hc0

/-- Position of the cursor behind a source name. -/
theorem At.after_source {s : Mangle} {w r : List Char} (h : At s (source_code w ++ r))
    (p : List Char) :
    At ({ s with plain := p, mpos := s.mpos + (Nat.toDigits 10 w.length).length + w.length }
      : Mangle) r := by
  have := h.moved ((Nat.toDigits 10 w.length).length + w.length) (by simp [source_code])
  refine ⟨?_, ?_⟩
  · have := this.1; simp only [Mangle.setMpos] at this ⊢; omega
  · have := this.2
    simp only [Mangle.setMpos] at this ⊢
    rw [Nat.add_assoc, this]
    have : (Nat.toDigits 10 w.length).length + w.length = (source_code w).length := by
      simp [source_code]
    rw [this, List.drop_left]

/-- The loop of `_nested_name` on source names up to the closing `E`: every name is
appended behind `::`, and the text from `mark` is recorded after every name but the last;
after the last one it is recorded only inside another nesting level. -/
theorem nested_name_loop_run (pre : List Char) : ∀ (todo done : List (List Char))
    (fuel : Nat) (s : Mangle) (r : List Char),
    todo ≠ [] → done ≠ [] → todo.length + 1 ≤ fuel → s.valid = true →
    s.plain = pre ++ qualified done →
    At s ((todo.map source_code).flatten ++ 'E' :: r) →
    (∀ w ∈ todo, is_identifier w = true) →
    (todo.map source_code).flatten.length + 1 + r.length < 2147483647 →
    s.plain.length + ((todo.map (fun w => "::".toList ++ w)).flatten).length < s.size →
    s.substitions.length + todo.length ≤ 20 →
    nested_name_loop fuel pre.length s = Res.ok ((), { s with
      plain := pre ++ qualified (done ++ todo),
      mpos := s.mpos + (todo.map source_code).flatten.length + 1,
      substitions := s.substitions ++
        (List.range (todo.length - 1)).map (fun j => qualified (done ++ todo.take (j + 1))) ++
        (if s.nest > 1 then [qualified (done ++ todo)] else []) }) := by
  intro todo
  induction todo with
  | nil => intro done fuel s r h; exact absurd rfl h
  | cons w rest ih =>
    intro done fuel s r _ hdone hf hv hplain h hid hlen hfit hroom
    obtain ⟨f, rfl⟩ : ∃ f, fuel = f + 1 + 1 := ⟨fuel - 2, by simp at hf; omega⟩
    obtain ⟨d, ds, hd, hdd⟩ := source_code_cons w
    have hidw := hid w (List.mem_cons_self _ _)
    have h1 : At s (Nat.toDigits 10 w.length ++ (w ++ ((rest.map source_code).flatten
        ++ 'E' :: r))) := by
      simpa [source_code, List.append_assoc] using h
    have h0 : At s (d :: (ds ++ ((rest.map source_code).flatten ++ 'E' :: r))) := by
      have : At s (source_code w ++ ((rest.map source_code).flatten ++ 'E' :: r)) := by
        simpa [List.append_assoc] using h
      rw [hd] at this
      exact this
    have hcMI : d ≠ 'M' ∧ d ≠ 'I' :=
      ⟨Ne.symm (digit_ne_of_not_digit hdd 'M' (by decide)),
        Ne.symm (digit_ne_of_not_digit hdd 'I' (by decide))⟩
    simp only [List.map_cons, List.flatten_cons, List.length_append, List.length_cons] at hfit hlen
    have hcl : (source_code w).length = (Nat.toDigits 10 w.length).length + w.length := by
      simp [source_code]
    have hcolon : "::".toList.length = 2 := rfl
    have hun := unqualified_source_run f (s := { s with plain := s.plain ++ "::".toList })
      w ((rest.map source_code).flatten ++ 'E' :: r) hv ⟨h1.1, h1.2⟩
      (identifier_head _ _ hidw)
      (by simp only [List.length_append, List.length_cons]; omega)
      (by simp only [List.length_append]; omega)
    simp only at hun
    have hat2 : At ({ s with
        plain := s.plain ++ "::".toList ++ w,
        mpos := s.mpos + (Nat.toDigits 10 w.length).length + w.length } : Mangle)
        ((rest.map source_code).flatten ++ 'E' :: r) :=
      At.after_source (w := w) (by simpa [List.append_assoc] using h) _
    have htext : s.plain ++ "::".toList ++ w = pre ++ qualified (done ++ [w]) := by
      rw [hplain, qualified_snoc _ _ hdone]; simp only [List.append_assoc]
    cases rest with
    | nil =>
      simp only [List.map_nil, List.flatten_nil, List.nil_append] at hat2
      rw [nested_name_loop_last (f + 1) pre.length hv h0 hcMI (by omega) hun hv hat2
        (by show s.substitions.length < 20
            simp only [List.length_cons, List.length_nil] at hroom; omega)]
      simp only [htext, List.length_cons, List.length_nil, Nat.zero_add, Nat.sub_self,
        List.range_zero, List.map_nil, List.append_nil, List.map_cons, List.flatten_cons,
        List.flatten_nil, List.length_append, List.drop_left, hcl]
      congr 2
      have hm : s.mpos + (Nat.toDigits 10 w.length).length + w.length + 1
          = s.mpos + ((Nat.toDigits 10 w.length).length + w.length) + 1 := by omega
      rw [hm]
      by_cases hn : s.nest > 1 <;> simp [hn]
    | cons w2 rest2 =>
      obtain ⟨d2, ds2, hd2, hdd2⟩ := source_code_cons w2
      have hat3 : At ({ s with
          plain := s.plain ++ "::".toList ++ w,
          mpos := s.mpos + (Nat.toDigits 10 w.length).length + w.length } : Mangle)
          (d2 :: (ds2 ++ ((rest2.map source_code).flatten ++ 'E' :: r))) := by
        simpa [hd2, List.append_assoc] using hat2
      rw [nested_name_loop_next (f + 1) pre.length hv h0 hcMI (by omega) hun hv hat3
        (Ne.symm (digit_ne_of_not_digit hdd2 'E' (by decide)))
        (by show s.substitions.length < 20
            simp only [List.length_cons] at hroom; omega)]
      simp only [htext, List.drop_left]
      have hih := ih (done ++ [w]) (f + 1)
        ({ s with
          plain := pre ++ qualified (done ++ [w]),
          mpos := s.mpos + (Nat.toDigits 10 w.length).length + w.length,
          substitions := s.substitions ++ [qualified (done ++ [w])] } : Mangle) r
        (List.cons_ne_nil _ _) (by simp) (by simp only [List.length_cons] at hf ⊢; omega) hv rfl
        ⟨hat2.1, hat2.2⟩ (fun x hx => hid x (List.mem_cons_of_mem _ hx))
        (by omega)
        (by
          rw [← htext]
          simp only [List.length_append, hcolon] at hfit ⊢
          omega)
        (by simp only [List.length_append, List.length_cons, List.length_nil] at hroom ⊢; omega)
      rw [hih]
      simp only [List.append_assoc, List.singleton_append, List.length_cons, Nat.add_sub_cancel,
        List.map_cons, List.flatten_cons, List.length_append, hcl]
      congr 2
      have hm : s.mpos + (Nat.toDigits 10 w.length).length + w.length +
          ((source_code w2).length + (List.map source_code rest2).flatten.length) + 1
          = s.mpos + ((Nat.toDigits 10 w.length).length + w.length +
          ((source_code w2).length + (List.map source_code rest2).flatten.length)) + 1 := by
        omega
      rw [hm]
      have hr : (List.range (rest2.length + 1)).map
            (fun j => qualified (done ++ (w :: w2 :: rest2).take (j + 1)))
          = qualified (done ++ [w]) :: (List.range rest2.length).map
            (fun j => qualified (done ++ w :: (w2 :: rest2).take (j + 1))) := by
        rw [List.range_succ_eq_map, List.map_cons, List.map_map]
        rfl
      rw [hr]

theorem At.run_peek_ne {s : Mangle} {c : Char} {r : List Char} (h : At s (c :: r))
    (hv : s.valid = true) (k : Char) (x : List Char) (hk : k ≠ c) :
    peek (String.mk (k :: x)) s = Res.ok (false, s) := by
  rw [h.run_peek hv]; congr 2
  exact isPrefixOf_cons_ne _ _ _ _ hk

theorem At.run_peek_substitution_ne {s : Mangle} {c : Char} {r : List Char}
    (h : At s (c :: r)) (hv : s.valid = true) (hc : c ≠ 'S') :
    peek_substitution s = Res.ok (false, s) := by
  have : peek "S" s = Res.ok (false, s) := h.run_peek_ne hv 'S' [] (Ne.symm hc)
  simp only [peek_substitution, run_bind, this, andThen_ok, Bool.false_eq_true, if_false,
    run_pure]

theorem At.run_peek_template_param_ne {s : Mangle} {c : Char} {r : List Char}
    (h : At s (c :: r)) (hv : s.valid = true) (hc : c ≠ 'T') :
    peek_template_param s = Res.ok (false, s) := by
  have : peek "T" s = Res.ok (false, s) := h.run_peek_ne hv 'T' [] (Ne.symm hc)
  simp only [peek_template_param, run_bind, this, andThen_ok, Bool.false_eq_true, if_false,
    run_pure]

/-- Run of `_qualifier_pre` on no qualifier or on `K`, in front of a digit. -/
theorem run_qualifier_pre_opt {s : Mangle} {d : Char} {r : List Char} (b : Bool)
    (q : List Char) (hq : q = [] ∨ q = ['K']) (h : At s (q ++ d :: r))
    (hd : isdigit d = true) :
    _qualifier_pre 8 b s = Res.ok (q, s.setMpos (s.mpos + q.length)) := by
  have hc : d ≠ 'r' ∧ d ≠ 'V' ∧ d ≠ 'K' ∧ d ≠ 'R' ∧ d ≠ 'O' :=
    ⟨Ne.symm (digit_ne_of_not_digit hd _ (by decide)),
      Ne.symm (digit_ne_of_not_digit hd _ (by decide)),
      Ne.symm (digit_ne_of_not_digit hd _ (by decide)),
      Ne.symm (digit_ne_of_not_digit hd _ (by decide)),
      Ne.symm (digit_ne_of_not_digit hd _ (by decide))⟩
  rcases hq with rfl | rfl
  · rw [run_qualifier_pre_none b h hc]; rfl
  · rw [run_qualifier_pre_const b h hc]; rfl

/-- Run of `_nested_name` at nesting level zero around its loop, when the first component
is a source name that is not followed by `E`. -/
theorem nested_name_head (fuel : Nat) {s u : Mangle} (q w r : List Char) (c : Char)
    (hq : q = [] ∨ q = ['K']) (hv : s.valid = true) (hn : s.nest = 0)
    (h : At s ('N' :: (q ++ (source_code w ++ c :: r))))
    (hid : is_identifier w = true) (hc : c ≠ 'E')
    (hlen : w.length + 1 + r.length < 2147483647)
    (hfit : s.plain.length + w.length < s.size)
    (hroom : s.substitions.length < 20)
    (hloop : nested_name_loop (fuel + 1) s.plain.length { s with
        plain := s.plain ++ w,
        mpos := s.mpos + 1 + q.length + (Nat.toDigits 10 w.length).length + w.length,
        nest := 1, substitions := s.substitions ++ [w] } = Res.ok ((), u))
    (hun : u.nest = 1) :
    _nested_name (fuel + 2) s = Res.ok ((), { u with nest := 0, qualifiers := q }) := by
  obtain ⟨d, ds, hd, hdd⟩ := source_code_cons w
  obtain ⟨v, p, sz, m, mp, n, tc, q0, fn, pb0, ss, ts⟩ := s
  simp only at hv hn hfit hroom hloop
  subst hv hn
  have hN := h.run_expect_true rfl "N" (isPrefixOf_single _ _)
  have hs1 : toShort (0 + 1) = 1 := by decide
  have hs0 : toShort (1 + -1) = 0 := by decide
  have hNl : "N".length = 1 := rfl
  have hat1 : At (⟨true, p, sz, m, mp + 1, 1, tc, q0, fn, pb0, ss, ts⟩ : Mangle)
      (q ++ d :: (ds ++ c :: r)) := by
    have := h.next
    rw [hd] at this
    exact ⟨this.1, by simpa [List.append_assoc] using this.2⟩
  have hqp := run_qualifier_pre_opt true q hq hat1 hdd
  have hat2 : At (⟨true, p, sz, m, mp + 1 + q.length, 1, tc, q0, fn, pb0, ss, ts⟩ : Mangle)
      (d :: (ds ++ c :: r)) := by
    have := hat1.moved q.length (by simp)
    simp only [List.drop_left] at this
    exact ⟨this.1, this.2⟩
  have hat2s : At (⟨true, p, sz, m, mp + 1 + q.length, 1, tc, q0, fn, pb0, ss, ts⟩ : Mangle)
      (Nat.toDigits 10 w.length ++ (w ++ c :: r)) := by
    have e : d :: (ds ++ c :: r) = Nat.toDigits 10 w.length ++ (w ++ c :: r) := by
      have := congrArg (fun l => l ++ c :: r) hd
      simp only [source_code, List.append_assoc, List.cons_append] at this
      exact this.symm
    rw [← e]; exact hat2
  have ne := fun (k : Char) (hk : isdigit k = false) => digit_ne_of_not_digit hdd k hk
  have pDt := hat2.run_peek_ne rfl 'D' ['t'] (ne _ (by decide))
  have pDT := hat2.run_peek_ne rfl 'D' ['T'] (ne _ (by decide))
  have pS := hat2.run_peek_substitution_ne rfl (Ne.symm (ne _ (by decide)))
  have pT := hat2.run_peek_template_param_ne rfl (Ne.symm (ne _ (by decide)))
  have hun2 := unqualified_source_run fuel w (c :: r) rfl hat2s (identifier_head _ _ hid)
    (by simp only [List.length_append, List.length_cons]; omega) (by simp only; omega)
  simp only at hun2
  have hsub := run_add_substitution_at
    (⟨true, p ++ w, sz, m, mp + 1 + q.length + (Nat.toDigits 10 w.length).length + w.length,
      1, tc, q0, fn, pb0, ss, ts⟩ : Mangle) p.length rfl hroom
  simp only [List.drop_left] at hsub
  have hat3 : At (⟨true, p ++ w, sz, m,
      mp + 1 + q.length + (Nat.toDigits 10 w.length).length + w.length,
      1, tc, q0, fn, pb0, ss ++ [w], ts⟩ : Mangle) (c :: r) := by
    have := At.after_source (w := w) (r := c :: r) (by simpa [source_code] using hat2s) (p ++ w)
    exact ⟨this.1, this.2⟩
  have mE := hat3.run_match_false rfl "E" (isPrefixOf_cons_ne _ _ _ _ (Ne.symm hc))
  rw [_nested_name]
  simp only [run_bind, hN, andThen_ok, if_true, add_nest, run_modifyS, Mangle.setMpos,
    Mangle.setNest, hs1, hNl, hqp, current_position, run_getS, run_pure, pDt, pDT, Bool.or_self,
    Bool.false_eq_true, if_false, hat2.run_is_abbreviation_digit hdd, pS, pT, hun2, hsub, mE,
    hloop, set_qualifiers, Mangle.setQualifiers, hun]
  rw [run_ite, if_neg (by decide)]
  simp only [run_bind, run_modifyS, andThen_ok, hun, hs0]

/-! ## Symbolic runs of a function encoding -/

/-- The four special-name prefixes of `_encoding` do not match in front of a character other
than `T`. -/
theorem encoding_plain_run (fuel : Nat) (s : Mangle) (c : Char) (l : List Char)
    (hv : s.valid = true) (h : At s (c :: l)) (hc : c ≠ 'T') :
    _encoding fuel s = _function_encoding fuel s := by
  unfold _encoding
  simp only [run_bind, h.run_match_false hv "TV" (isPrefixOf_cons_ne _ _ _ _ (Ne.symm hc)),
    h.run_match_false hv "TT" (isPrefixOf_cons_ne _ _ _ _ (Ne.symm hc)),
    h.run_match_false hv "TI" (isPrefixOf_cons_ne _ _ _ _ (Ne.symm hc)),
    h.run_match_false hv "TS" (isPrefixOf_cons_ne _ _ _ _ (Ne.symm hc)), andThen_ok,
    Bool.false_eq_true, if_false]

/-- Run of `_name` on a nested name. -/
theorem name_nested_run (fuel : Nat) {s t : Mangle} {r : List Char} (hv : s.valid = true)
    (h : At s ('N' :: r)) (hn : _nested_name fuel s = Res.ok ((), t)) :
    _name (fuel + 1) s = Res.ok ((), t) := by
  have pN : peek "N" s = Res.ok (true, s) := by
    rw [h.run_peek hv]; congr 2
    exact isPrefixOf_single _ _
  simp only [_name, run_bind, current_position, run_getS, andThen_ok, run_pure, hv, if_true, pN,
    hn, Bool.false_eq_true, if_false]

/-- Run of `_function_encoding` around its parameter loop, for a name at nesting level zero
that does not end in template arguments: the parameter list is closed and a deferred
qualifier `K` is written behind it. -/
theorem function_encoding_frame (fuel : Nat) {s t u : Mangle} {c : Char} {r : List Char}
    (hname : _name fuel s = Res.ok ((), t)) (htv : t.valid = true) (htn : t.nest = 0)
    (hat : At t (c :: r)) (hc : c ≠ NUL ∧ c ≠ '.' ∧ c ≠ '@')
    (hne : t.plain ≠ []) (hlast : (pchar t.plain (t.plain.length - 1) == '>') = false)
    (hfit1 : t.plain.length + 1 < t.size)
    (hloop : function_encoding_loop fuel 0 { t with plain := t.plain ++ "(".toList, nest := 1 }
      = Res.ok ((), u))
    (huv : u.valid = true) (hun : u.nest = 1)
    (hq : u.qualifiers = [] ∨ u.qualifiers = ['K'])
    (hfit2 : u.plain.length + 1 + (if u.qualifiers = [] then 0 else 6) < u.size) :
    _function_encoding (fuel + 1) s = Res.ok ((), { u with
      nest := 0,
      plain := u.plain ++ ")".toList ++ (if u.qualifiers = [] then [] else " const".toList) }) := by
  have hos := hat.run_on_sentinel_false htv hc.1 hc.2.1 hc.2.2
  have hz : ¬ ((0 : Int) > 0) := by decide
  have hnl : ¬ (t.plain.length = 0) := by
    intro e; exact hne (List.length_eq_zero.mp e)
  have hs1 : toShort (0 + 1) = 1 := by decide
  have hs0 : toShort (1 + -1) = 0 := by decide
  have hap1 : (({ t with nest := 1 } : Mangle).append "(".toList)
      = { t with plain := t.plain ++ "(".toList, nest := 1 } := by
    rw [Mangle.append_fits ({ t with nest := 1 } : Mangle) _ htv (by
      simp only [String.toList]; simp only [List.length_cons, List.length_nil]; omega)]
  have hap2 : (({ u with nest := 0 } : Mangle).append ")".toList)
      = { u with plain := u.plain ++ ")".toList, nest := 0 } := by
    rw [Mangle.append_fits ({ u with nest := 0 } : Mangle) _ huv (by
      simp only [String.toList]; simp only [List.length_cons, List.length_nil]
      split at hfit2 <;> omega)]
  rw [_function_encoding]
  simp only [run_bind, hname, andThen_ok, hos, run_getS, Bool.false_eq_true, if_false, hz,
    run_pure, hnl, add_nest, run_modifyS, Mangle.setNest, hlast, Bool.false_and, Demangle.append,
    htn, hs1, hap1, hloop, hun, hs0, hap2, if_true]
  rcases hq with e | e
  · simp only [e, run_qualifier_post_nil, andThen_ok, run_pure, if_true, List.append_nil]
  · have hlen : (u.plain ++ ")".toList).length = u.plain.length + 1 := by
      simp only [List.length_append, String.toList]; rfl
    have hqp := run_qualifier_post_const
      ({ u with plain := u.plain ++ ")".toList, nest := 0 } : Mangle) huv (by simp)
      (by
        show " ([<,:".toList.contains (pchar (u.plain ++ ")".toList)
          ((u.plain ++ ")".toList).length - 1)) = false
        have : (u.plain ++ ")".toList).length - 1 = u.plain.length + 0 := by rw [hlen]; rfl
        rw [this, pchar_append_right]
        decide)
      (by
        show (u.plain ++ ")".toList).length + 6 < u.size
        rw [hlen]; rw [if_neg (by rw [e]; simp)] at hfit2; omega)
    have hne2 : ¬ (['K'] = ([] : List Char)) := by simp
    simp only [e] at hqp
    simp only [e, hqp, andThen_ok, run_pure, hne2, if_false, List.append_assoc]

theorem cstr_of_no_nul_chars (l : List Char) (h : ∀ c ∈ l, c ≠ NUL) : cstr l = l :=
  cstr_of_no_nul l h

/-- The frame of `demangle` around `_encoding` for an input without a NUL character that
begins with `_Z`. -/
theorem demangle_of_encoding (fuel : Nat) (plain : List Char) (size : Nat)
    (body : List Char) (t : Mangle) (hsize : 0 < size)
    (hnul : ∀ c ∈ body, c ≠ NUL)
    (henc : _encoding fuel (initial size ("_Z".toList ++ body)) = Res.ok ((), t)) :
    demangle fuel plain size ("_Z".toList ++ body) = Res.ok (t.valid, t.plain) := by
  have hc : cstr ("_Z".toList ++ body) = "_Z".toList ++ body := by
    apply cstr_of_no_nul
    intro c hc
    rcases List.mem_append.mp hc with hc | hc
    · intro e; rw [e] at hc; exact absurd hc (by decide)
    · exact hnul c hc
  unfold demangle
  rw [hc, if_neg (by omega)]
  rw [if_neg (by
    simp only [String.toList, List.cons_append, List.nil_append, pchar,
      List.getD_cons_zero, List.getD_cons_succ]
    decide)]
  rw [henc]

/-- The cursor of the initial state stands behind `_Z`. -/
theorem initial_at (size : Nat) (body : List Char) :
    At (initial size ("_Z".toList ++ body)) body := by
  refine ⟨?_, ?_⟩
  · simp only [initial, List.length_append, String.toList]
    simp only [List.length_cons, List.length_nil]; omega
  · simp only [initial, String.toList]
    rfl

/-! ## Constructors and destructors -/

theorem identifier_chars (w : List Char) (hid : is_identifier w = true) :
    w ≠ [] ∧ (∀ x ∈ w, (isalpha x || isdigit x || x == '_') = true) ∧
      (∀ x ∈ w, x ≠ NUL) := by
  obtain ⟨c0, r0, hname, -, hchars⟩ := is_identifier_spec w hid
  refine ⟨by rw [hname]; exact List.cons_ne_nil _ _, ?_, ?_⟩
  · intro x hx
    rcases hchars x hx with h | h | h
    · simp [h]
    · simp [h]
    · simp [h]
  · intro x hx
    exact ident_char_ne x (hchars x hx) NUL (by decide) (by decide) (by decide)

theorem source_code_no_nul (w : List Char) (hid : is_identifier w = true) :
    ∀ c ∈ source_code w, c ≠ NUL := by
  intro c hc
  simp only [source_code, List.mem_append] at hc
  rcases hc with hc | hc
  · intro e
    have := (toDigits_spec w.length).2.1 c hc
    rw [e] at this; exact absurd this (by decide)
  · exact (identifier_chars w hid).2.2 c hc

theorem pchar_last_ident (p w : List Char) (hid : is_identifier w = true) :
    (pchar (p ++ w) ((p ++ w).length - 1) == '>') = false ∧
      " ([<,:".toList.contains (pchar (p ++ w) ((p ++ w).length - 1)) = false := by
  obtain ⟨c0, r0, hname, -, hchars⟩ := is_identifier_spec w hid
  have hm := pchar_last_mem p w (by rw [hname]; exact List.cons_ne_nil _ _)
  have hx := hchars _ hm
  generalize pchar (p ++ w) ((p ++ w).length - 1) = x at hx ⊢
  refine ⟨beq_eq_false_iff_ne.mpr (ident_char_ne _ hx '>' (by decide) (by decide) (by decide)),
    ?_⟩
  have n1 := ident_char_ne _ hx ' ' (by decide) (by decide) (by decide)
  have n2 := ident_char_ne _ hx '(' (by decide) (by decide) (by decide)
  have n3 := ident_char_ne _ hx '[' (by decide) (by decide) (by decide)
  have n4 := ident_char_ne _ hx '<' (by decide) (by decide) (by decide)
  have n5 := ident_char_ne _ hx ',' (by decide) (by decide) (by decide)
  have n6 := ident_char_ne _ hx ':' (by decide) (by decide) (by decide)
  simp [String.toList, n1, n2, n3, n4, n5, n6]

/-- Run of `_function_encoding` on the nested name of a constructor (`k` is `C`) or a
destructor (`k` is `D`) of the class `C`, followed by one-letter builtin codes. -/
theorem ctor_encoding_run (g : Nat) (s : Mangle) (C codes : List Char) (k : Char)
    (hk : k = 'C' ∨ k = 'D')
    (hv : s.valid = true) (hp : s.plain = []) (hn : s.nest = 0) (hfn : s.func_nest = 0)
    (htc : s.is_typecast_op = false) (hss : s.substitions = [])
    (h : At s ('N' :: ([] ++ (source_code C ++ k :: '1' :: 'E' :: codes))))
    (hid : is_identifier C = true)
    (hcodes : ∀ c ∈ codes, (builtin_name c).isSome = true) (hne : codes ≠ [])
    (hlen : C.length + codes.length < 2147483640)
    (hfit : C.length + 3 + C.length + 1 + (params_text 0 codes).length + 1 < s.size)
    (hfuel : codes.length ≤ g + 3) :
    ∃ t, _function_encoding (g + 5) s = Res.ok ((), t) ∧ t.valid = true ∧
      t.plain = rendered (C ++ "::".toList ++ ((if k = 'D' then "~".toList else []) ++ C))
        codes := by
  obtain ⟨hCne, hCid, -⟩ := identifier_chars C hid
  obtain ⟨c1, r1, hcs⟩ := List.exists_cons_of_ne_nil hne
  obtain ⟨nm1, hnm1⟩ :=
    Option.isSome_iff_exists.mp (hcodes c1 (by rw [hcs]; exact List.mem_cons_self _ _))
  obtain ⟨n1, n2, n3, n4, n5, n6⟩ := builtin_name_not_special c1 nm1 hnm1
  obtain ⟨v, p, sz, m, mp, n, tc, q0, fn, pb0, ss, ts⟩ := s
  simp only at hv hp hn hfn htc hss hfit
  subst hv hp hn hfn htc hss
  have htl : (if k = 'D' then "~".toList else []).length ≤ 1 := by
    split <;> simp [String.toList]
  have hcolon : "::".toList.length = 2 := rfl
  have hkMI : k ≠ 'M' ∧ k ≠ 'I' := by
    rcases hk with e | e <;> rw [e] <;> decide
  have hkE : k ≠ 'E' := by
    rcases hk with e | e <;> rw [e] <;> decide
  have hcd : (k = 'C' ∧ (('1' : Char) = '1' ∨ ('1' : Char) = '2' ∨ ('1' : Char) = '3')) ∨
      (k = 'D' ∧ (('1' : Char) = '0' ∨ ('1' : Char) = '1' ∨ ('1' : Char) = '2')) := by
    rcases hk with e | e
    · exact Or.inl ⟨e, Or.inl rfl⟩
    · exact Or.inr ⟨e, Or.inr (Or.inl rfl)⟩
  -- the cursor behind the class name
  have hat1 : At (⟨true, [] ++ C, sz, m,
      mp + 1 + ([] : List Char).length + (Nat.toDigits 10 C.length).length + C.length, 1, false,
      q0, 0, pb0, [] ++ [C], ts⟩ : Mangle) (k :: '1' :: 'E' :: codes) := by
    have h2 : At (⟨true, [], sz, m, mp + 1, 0, false, q0, 0, pb0, [], ts⟩ : Mangle)
        (source_code C ++ k :: '1' :: 'E' :: codes) := ⟨h.next.1, h.next.2⟩
    have := At.after_source (w := C) h2 ([] ++ C)
    exact ⟨this.1, this.2⟩
  have hun := unqualified_ctor_run g (s := ⟨true, [] ++ C ++ "::".toList, sz, m,
      mp + 1 + ([] : List Char).length + (Nat.toDigits 10 C.length).length + C.length, 1, false,
      q0, 0, pb0, [] ++ [C], ts⟩) [] C k '1' ('E' :: codes) rfl ⟨hat1.1, hat1.2⟩ rfl hCne hCid
    (by intro x hx; cases hx) hcd
    (by simp only [List.length_append, List.nil_append, hcolon]; omega)
  simp only at hun
  have hat2 : At (⟨true, [] ++ C ++ "::".toList ++ ((if k = 'D' then "~".toList else []) ++ C),
      sz, m,
      mp + 1 + ([] : List Char).length + (Nat.toDigits 10 C.length).length + C.length + 2, 1,
      false, q0, 0, pb0, [] ++ [C], ts⟩ : Mangle) ('E' :: codes) := by
    have := hat1.moved 2 (by simp)
    exact ⟨this.1, this.2⟩
  have hloop := nested_name_loop_last (g + 1) ([] : List Char).length (s := ⟨true, [] ++ C, sz, m,
      mp + 1 + ([] : List Char).length + (Nat.toDigits 10 C.length).length + C.length, 1, false,
      q0, 0, pb0, [] ++ [C], ts⟩) rfl hat1 hkMI
    (by simp only [List.length_append, List.nil_append]; omega) hun rfl hat2
    (by simp)
  have h1gt : ¬ ((1 : Int) > 1) := by decide
  simp only [h1gt, if_false] at hloop
  have hnn := nested_name_head (g + 1) (s := ⟨true, [], sz, m, mp, 0, false, q0, 0, pb0, [], ts⟩)
    [] C ('1' :: 'E' :: codes) k (Or.inl rfl) rfl rfl h hid hkE
    (by simp only [List.length_cons]; omega)
    (by simp only [List.length_nil]; omega) (by simp) hloop rfl
  simp only at hnn
  have hname := name_nested_run (g + 3) rfl h hnn
  have hat3 : At (⟨true, [] ++ C ++ "::".toList ++ ((if k = 'D' then "~".toList else []) ++ C),
      sz, m,
      mp + 1 + ([] : List Char).length + (Nat.toDigits 10 C.length).length + C.length + 2 + 1,
      0, false, [], 0, pb0, [] ++ [C], ts⟩ : Mangle) (c1 :: r1) := by
    have := hat2.next
    rw [hcs] at this
    exact ⟨this.1, this.2⟩
  have hlast := (pchar_last_ident
    ([] ++ C ++ "::".toList ++ (if k = 'D' then "~".toList else [])) C hid).1
  simp only [← List.append_assoc] at hlast
  have hplen : ([] ++ C ++ "::".toList ++ ((if k = 'D' then "~".toList else []) ++ C)).length
      ≤ C.length + 3 + C.length := by
    simp only [List.length_append, List.nil_append, hcolon]; omega
  obtain ⟨pb, hfl⟩ := function_encoding_loop_top codes (g + 4)
    ⟨true, [] ++ C ++ "::".toList ++ ((if k = 'D' then "~".toList else []) ++ C) ++ "(".toList,
      sz, m,
      mp + 1 + ([] : List Char).length + (Nat.toDigits 10 C.length).length + C.length + 2 + 1,
      1, false, [], 0, pb0, [] ++ [C], ts⟩
    (by omega) rfl (by rw [hcs]; exact ⟨hat3.1, hat3.2⟩) rfl hcodes hne
    (by
      have : ("(".toList).length = 1 := rfl
      simp only [List.length_append, this] at hplen ⊢
      omega)
  simp only at hfl
  have hsl : (shown_params codes).length ≤ (params_text 0 codes).length := by
    unfold shown_params; split
    · simp
    · exact Nat.le_refl _
  have hfr := function_encoding_frame (g + 4) hname rfl rfl hat3 ⟨n1, n2, n3⟩
    (by simp [hCne])
    (by simpa [List.append_assoc] using hlast)
    (by simp only at hplen ⊢; omega) hfl rfl rfl (Or.inl rfl)
    (by
      have : ("(".toList).length = 1 := rfl
      simp only [List.length_append, this, if_true] at hplen ⊢
      omega)
  refine ⟨_, hfr, rfl, ?_⟩
  simp only [rendered, List.nil_append, if_true, List.append_nil, List.append_assoc]

theorem codes_no_nul (codes : List Char)
    (hcodes : ∀ c ∈ codes, (builtin_name c).isSome = true) : ∀ c ∈ codes, c ≠ NUL := by
  intro c hc
  obtain ⟨nm, hnm⟩ := Option.isSome_iff_exists.mp (hcodes c hc)
  exact (builtin_name_not_special c nm hnm).1

theorem params_length (codes : List Char) :
    (params_text 0 codes).length
      = (",".toList.intercalate (codes.map (fun c => (builtin_name c).getD []))).length := by
  rw [params_text_zero]

theorem rendered_shown (name codes : List Char) :
    rendered name codes = name ++ "(".toList ++
      (if codes = ['v'] then []
        else ",".toList.intercalate (codes.map (fun c => (builtin_name c).getD []))) ++
      ")".toList := by
  simp only [rendered, shown_params, params_text_zero, List.append_assoc]

/-- The whole of `demangle` on the nested name of a constructor or destructor. -/
theorem demangle_ctor_run (fuel : Nat) (plain : List Char) (size : Nat) (C codes : List Char)
    (k : Char) (hk : k = 'C' ∨ k = 'D')
    (hid : is_identifier C = true)
    (hcodes : ∀ c ∈ codes, (builtin_name c).isSome = true) (hne : codes ≠ [])
    (hlen : C.length + codes.length < 2147483640)
    (hsize : 2 * C.length + 5 +
      (",".toList.intercalate (codes.map (fun c => (builtin_name c).getD []))).length < size)
    (hfuel : 5 ≤ fuel ∧ codes.length + 2 ≤ fuel) :
    demangle fuel plain size ("_Z".toList ++ ('N' :: ([] ++ (source_code C ++
        k :: '1' :: 'E' :: codes))))
      = Res.ok (true,
          rendered (C ++ "::".toList ++ ((if k = 'D' then "~".toList else []) ++ C)) codes) := by
  obtain ⟨g, rfl⟩ : ∃ g, fuel = g + 5 := ⟨fuel - 5, by omega⟩
  have hat := initial_at size ('N' :: ([] ++ (source_code C ++ k :: '1' :: 'E' :: codes)))
  obtain ⟨t, ht, htv, htp⟩ := ctor_encoding_run g _ C codes k hk rfl rfl rfl rfl rfl rfl hat
    hid hcodes hne hlen
    (by rw [params_length]; simp only [initial]; omega) (by omega)
  have henc := encoding_plain_run (g + 5) _ 'N' _ rfl hat (by decide)
  rw [ht] at henc
  have hd := demangle_of_encoding (g + 5) plain size _ t (by omega)
    (by
      intro c hc
      simp only [List.nil_append, List.mem_cons, List.mem_append] at hc
      rcases hc with e | hc | e | e | e | hc
      · rw [e]; decide
      · exact source_code_no_nul C hid c hc
      · rw [e]; rcases hk with e2 | e2 <;> rw [e2] <;> decide
      · rw [e]; decide
      · rw [e]; decide
      · exact codes_no_nul codes hcodes c hc) henc
  rw [hd, htv, htp]

theorem qualified_cons (w : List Char) (rest : List (List Char)) :
    qualified (w :: rest) = w ++ (rest.map (fun x => "::".toList ++ x)).flatten := by
  simp only [qualified, intercalate_cons]

theorem scope_prefixes_cons (w : List Char) (rest : List (List Char)) (hrest : rest ≠ []) :
    scope_prefixes (w :: rest)
      = [w] ++ (List.range (rest.length - 1)).map
          (fun j => qualified ([w] ++ rest.take (j + 1))) := by
  obtain ⟨x, xs, rfl⟩ := List.exists_cons_of_ne_nil hrest
  simp only [scope_prefixes, List.length_cons, Nat.add_sub_cancel]
  rw [List.range_succ_eq_map, List.map_cons, List.map_map]
  simp only [List.take_succ_cons, List.take_zero, List.singleton_append, List.cons_append,
    List.nil_append, List.cons.injEq]
  refine ⟨?_, ?_⟩
  · simp [qualified, List.intercalate]
  · rfl

/-- Run of `_nested_name` at nesting level zero on two or more source names: the names are
written with `::` between them, every proper prefix is recorded as a substitution and the
qualifiers are kept for the end of the parameter list. -/
theorem nested_name_run (g : Nat) (s : Mangle) (q w : List Char) (rest : List (List Char))
    (r : List Char) (hq : q = [] ∨ q = ['K']) (hv : s.valid = true) (hn : s.nest = 0)
    (h : At s ('N' :: (q ++ (((w :: rest).map source_code).flatten ++ 'E' :: r))))
    (hws : ∀ x ∈ w :: rest, is_identifier x = true) (hrest : rest ≠ [])
    (hlen : (((w :: rest).map source_code).flatten).length + 1 + r.length < 2147483647)
    (hfit : s.plain.length + (qualified (w :: rest)).length < s.size)
    (hroom : s.substitions.length + (w :: rest).length ≤ 20)
    (hfuel : rest.length ≤ g) :
    _nested_name (g + 2) s = Res.ok ((), { s with
      plain := s.plain ++ qualified (w :: rest),
      mpos := s.mpos + 1 + q.length + (((w :: rest).map source_code).flatten).length + 1,
      qualifiers := q,
      substitions := s.substitions ++ scope_prefixes (w :: rest) }) := by
  obtain ⟨w2, rest2, hr2⟩ := List.exists_cons_of_ne_nil hrest
  obtain ⟨d2, ds2, hd2, hdd2⟩ := source_code_cons w2
  have hidw := hws w (List.mem_cons_self _ _)
  have hcl : (source_code w).length = (Nat.toDigits 10 w.length).length + w.length := by
    simp [source_code]
  simp only [List.map_cons, List.flatten_cons, List.length_append, List.length_cons] at hlen
  rw [qualified_cons, List.length_append] at hfit
  have hflat : (rest.map source_code).flatten ++ 'E' :: r
      = d2 :: (ds2 ++ ((rest2.map source_code).flatten ++ 'E' :: r)) := by
    rw [hr2]
    simp only [List.map_cons, List.flatten_cons, hd2, List.cons_append, List.append_assoc]
  have h' : At s ('N' :: (q ++ (source_code w ++ d2 ::
      (ds2 ++ ((rest2.map source_code).flatten ++ 'E' :: r))))) := by
    rw [← hflat]
    simpa [List.append_assoc] using h
  have hat1 : At ({ s with
      plain := s.plain ++ w,
      mpos := s.mpos + 1 + q.length + (Nat.toDigits 10 w.length).length + w.length,
      nest := 1, substitions := s.substitions ++ [w] } : Mangle)
      ((rest.map source_code).flatten ++ 'E' :: r) := by
    have h1 := h.next
    have h2 := h1.moved q.length (by simp)
    simp only [List.drop_left] at h2
    have h3 := At.after_source (w := w)
      (r := (rest.map source_code).flatten ++ 'E' :: r)
      (by simpa [List.append_assoc] using h2) (s.plain ++ w)
    exact ⟨h3.1, h3.2⟩
  have hloop := nested_name_loop_run s.plain rest [w] (g + 1)
    ({ s with
      plain := s.plain ++ w,
      mpos := s.mpos + 1 + q.length + (Nat.toDigits 10 w.length).length + w.length,
      nest := 1, substitions := s.substitions ++ [w] } : Mangle) r hrest (by simp) (by omega) hv
    (by simp [qualified, List.intercalate]) hat1
    (fun x hx => hws x (List.mem_cons_of_mem _ hx))
    (by omega)
    (by simp only [List.length_append]; omega)
    (by simp only [List.length_append, List.length_cons, List.length_nil] at hroom ⊢; omega)
  have h1gt : ¬ ((1 : Int) > 1) := by decide
  simp only [h1gt, if_false, List.append_nil] at hloop
  have hnn := nested_name_head g q w (ds2 ++ ((rest2.map source_code).flatten ++ 'E' :: r)) d2
    hq hv hn h' hidw (Ne.symm (digit_ne_of_not_digit hdd2 'E' (by decide)))
    (by
      rw [hr2] at hlen
      simp only [List.map_cons, List.flatten_cons, List.length_append, List.length_cons, hd2]
        at hlen ⊢
      omega)
    (by omega)
    (by simp only [List.length_cons] at hroom; omega) hloop rfl
  rw [hnn]
  simp only [scope_prefixes_cons w rest hrest, List.append_assoc, List.singleton_append,
    List.map_cons, List.flatten_cons, List.length_append, hcl, hn]
  simp only [Nat.add_assoc]

theorem qualified_last (w : List Char) (rest : List (List Char)) (hrest : rest ≠ []) :
    ∃ x l, l ∈ rest ∧ qualified (w :: rest) = x ++ l := by
  have := List.dropLast_append_getLast hrest
  refine ⟨qualified (w :: rest.dropLast) ++ "::".toList, rest.getLast hrest,
    List.getLast_mem hrest, ?_⟩
  conv_lhs => rw [← this]
  rw [← List.cons_append, qualified_snoc _ _ (List.cons_ne_nil _ _), List.append_assoc]

theorem shown_params_le (codes : List Char) :
    (shown_params codes).length ≤ (params_text 0 codes).length := by
  unfold shown_params; split
  · simp
  · exact Nat.le_refl _

/-- Run of `_function_encoding` on a nested name of two or more source names, with or
without the qualifier `K`, followed by one-letter builtin codes. -/
theorem nested_encoding_run (g : Nat) (s : Mangle) (q w : List Char) (rest : List (List Char))
    (codes : List Char) (hq : q = [] ∨ q = ['K']) (hv : s.valid = true) (hn : s.nest = 0)
    (hfn : s.func_nest = 0)
    (h : At s ('N' :: (q ++ (((w :: rest).map source_code).flatten ++ 'E' :: codes))))
    (hws : ∀ x ∈ w :: rest, is_identifier x = true) (hrest : rest ≠ [])
    (hcodes : ∀ c ∈ codes, (builtin_name c).isSome = true) (hne : codes ≠ [])
    (hlen : (((w :: rest).map source_code).flatten).length + 1 + codes.length < 2147483647)
    (hfit : s.plain.length + (qualified (w :: rest)).length + 1 +
      (params_text 0 codes).length < s.size)
    (hfit2 : s.plain.length + (qualified (w :: rest)).length + 1 +
      (shown_params codes).length + 1 + (if q = [] then 0 else 6) < s.size)
    (hroom : s.substitions.length + (w :: rest).length ≤ 20)
    (hfuel : rest.length ≤ g ∧ codes.length ≤ g + 2) :
    ∃ t, _function_encoding (g + 4) s = Res.ok ((), t) ∧ t.valid = true ∧
      t.plain = s.plain ++ qualified (w :: rest) ++ "(".toList ++ shown_params codes ++
        ")".toList ++ (if q = [] then [] else " const".toList) ∧
      t.substitions = s.substitions ++ scope_prefixes (w :: rest) := by
  obtain ⟨c1, r1, hcs⟩ := List.exists_cons_of_ne_nil hne
  obtain ⟨nm1, hnm1⟩ :=
    Option.isSome_iff_exists.mp (hcodes c1 (by rw [hcs]; exact List.mem_cons_self _ _))
  obtain ⟨n1, n2, n3, n4, n5, n6⟩ := builtin_name_not_special c1 nm1 hnm1
  have hnn := nested_name_run g s q w rest codes hq hv hn h hws hrest hlen (by omega) hroom
    hfuel.1
  have hname := name_nested_run (g + 2) hv h hnn
  have hat : At ({ s with
      plain := s.plain ++ qualified (w :: rest),
      mpos := s.mpos + 1 + q.length + (((w :: rest).map source_code).flatten).length + 1,
      qualifiers := q,
      substitions := s.substitions ++ scope_prefixes (w :: rest) } : Mangle) (c1 :: r1) := by
    have h1 := h.next
    have h2 := h1.moved (q.length + (((w :: rest).map source_code).flatten).length + 1)
      (by simp only [List.length_append, List.length_cons]; omega)
    have e : (q ++ (((w :: rest).map source_code).flatten ++ 'E' :: codes)).drop
        (q.length + (((w :: rest).map source_code).flatten).length + 1) = codes := by
      rw [Nat.add_assoc, ← List.drop_drop, List.drop_left, ← List.drop_drop, List.drop_left]
      rfl
    rw [e, hcs] at h2
    refine ⟨?_, ?_⟩
    · have := h2.1; simp only [Mangle.setMpos] at this ⊢; omega
    · have := h2.2; simp only [Mangle.setMpos] at this ⊢
      rw [← this]; congr 1; omega
  obtain ⟨x, l, hl, hxl⟩ := qualified_last w rest hrest
  have hidl := hws l (List.mem_cons_of_mem _ hl)
  have hlast := (pchar_last_ident (s.plain ++ x) l hidl).1
  rw [List.append_assoc, ← hxl] at hlast
  have hwne := (identifier_chars w (hws w (List.mem_cons_self _ _))).1
  have hsl := shown_params_le codes
  have hp1 : ("(".toList).length = 1 := rfl
  obtain ⟨pb, hfl⟩ := function_encoding_loop_top codes (g + 3)
    ({ s with
      plain := s.plain ++ qualified (w :: rest) ++ "(".toList,
      mpos := s.mpos + 1 + q.length + (((w :: rest).map source_code).flatten).length + 1,
      nest := 1,
      qualifiers := q,
      substitions := s.substitions ++ scope_prefixes (w :: rest) } : Mangle)
    (by omega) hv (by rw [hcs]; exact ⟨hat.1, hat.2⟩) hfn hcodes hne
    (by simp only [List.length_append, hp1]; omega)
  simp only at hfl
  have hfr := function_encoding_frame (g + 3) hname hv hn hat ⟨n1, n2, n3⟩
    (by
      rw [qualified_cons]
      intro e
      have := congrArg List.length e
      simp only [List.length_append, List.length_nil] at this
      have := List.length_pos.mpr hwne
      omega)
    hlast
    (by simp only [List.length_append]; omega) hfl rfl rfl hq
    (by
      simp only [List.length_append, hp1]
      omega)
  refine ⟨_, hfr, rfl, ?_, rfl⟩
  simp only [List.append_assoc]

/-- C18: for C identifiers `C` and `m`, `demangle` on `_ZNK`, the two source names, `E` and
the code `v` returns true with `C::m() const`: the qualifier `K` of the nested name is
written behind the parameter list.  The capacity is taken above the length of that text
(the transient `void` is not longer than ` const`), the input shorter than the range of
`int` and the step budget at least five.  The symbol
`_ZNKSt15_Deque_iteratorIP15memory_block_stRKS1_PS2_EeqERKS5_` gives the text of the test
suite, which ends in `const&) const`. -/
theorem const_member_function :
    (∀ (fuel : Nat) (plain : List Char) (size : Nat) (C m : List Char),
      is_identifier C = true → is_identifier m = true →
      ((Nat.toDigits 10 C.length ++ C) ++ (Nat.toDigits 10 m.length ++ m)).length
        < 2147483600 →
      (C ++ "::".toList ++ m ++ "() const".toList).length < size →
      5 ≤ fuel →
      demangle fuel plain size
          ("_ZNK".toList ++ (Nat.toDigits 10 C.length ++ C) ++ (Nat.toDigits 10 m.length ++ m)
            ++ "Ev".toList)
        = Res.ok (true, C ++ "::".toList ++ m ++ "() const".toList)) ∧
    demangle 40 [] 256 "_ZNKSt15_Deque_iteratorIP15memory_block_stRKS1_PS2_EeqERKS5_".toList
      = Res.ok (true, ("std::_Deque_iterator<memory_block_st*,memory_block_st* const&," ++
          "memory_block_st* const*>::operator==(std::_Deque_iterator<memory_block_st*," ++
          "memory_block_st* const&,memory_block_st* const*> const&) const").toList) := by
  refine ⟨?_, by decide!⟩
  intro fuel plain size C m hC hm hlen hsize hfuel
  obtain ⟨g, rfl⟩ : ∃ g, fuel = g + 1 + 4 := ⟨fuel - 5, by omega⟩
  have e1 : "_ZNK".toList ++ (Nat.toDigits 10 C.length ++ C) ++ (Nat.toDigits 10 m.length ++ m)
        ++ "Ev".toList
      = "_Z".toList ++ ('N' :: (['K'] ++ ((([C, m] : List (List Char)).map source_code).flatten
          ++ 'E' :: ['v']))) := by
    simp [String.toList, source_code]
  have hq : qualified [C, m] = C ++ "::".toList ++ m := by
    simp [qualified, List.intercalate, String.toList]
  have hws : ∀ x ∈ [C, m], is_identifier x = true := by
    intro x hx
    simp only [List.mem_cons, List.mem_singleton, List.not_mem_nil, or_false] at hx
    rcases hx with e | e <;> rw [e] <;> assumption
  have hat := initial_at size ('N' :: (['K'] ++ ((([C, m] : List (List Char)).map
    source_code).flatten ++ 'E' :: ['v'])))
  obtain ⟨t, ht, htv, htp, -⟩ := nested_encoding_run (g + 1) _ ['K'] C [m] ['v'] (Or.inr rfl) rfl rfl
    rfl hat hws (by simp) (by decide) (by simp)
    (by
      simp only [List.map_cons, List.map_nil, List.flatten_cons, List.flatten_nil,
        List.append_nil, source_code, List.length_append, List.length_cons, List.length_nil]
        at hlen ⊢
      omega)
    (by
      rw [hq]
      have : (params_text 0 ['v']).length = 4 := by decide
      rw [this]
      simp only [initial, List.length_append, List.length_nil, String.toList, List.length_cons]
        at hsize ⊢
      omega)
    (by
      rw [hq]
      have : (shown_params ['v']).length = 0 := by decide
      rw [this]
      simp only [initial, List.length_append, List.length_nil, String.toList, List.length_cons]
        at hsize ⊢
      simp only [reduceCtorEq, if_false]
      omega)
    (by simp [initial]) (by simp)
  have henc := encoding_plain_run (g + 1 + 4) _ 'N' _ rfl hat (by decide)
  rw [ht] at henc
  have hd := demangle_of_encoding (g + 1 + 4) plain size _ t (by omega)
    (by
      intro c hc
      simp only [List.map_cons, List.map_nil, List.flatten_cons, List.flatten_nil,
        List.append_nil, List.mem_cons, List.mem_append, List.singleton_append,
        List.mem_singleton, List.not_mem_nil, or_false] at hc
      rcases hc with e | e | (hc | hc) | e | e
      · rw [e]; decide
      · rw [e]; decide
      · exact source_code_no_nul C hC c hc
      · exact source_code_no_nul m hm c hc
      · rw [e]; decide
      · rw [e]; decide) henc
  rw [e1, hd, htv, htp, hq]
  simp [initial, shown_params, String.toList]

theorem const_member_function_witness :
    demangle 20 [] 256 "_ZNK1C1mEv".toList = Res.ok (true, "C::m() const".toList) :=
  const_member_function.1 20 [] 256 "C".toList "m".toList (by decide) (by decide) (by decide)
    (by decide) (by decide)

/-! ## The insertion point in a text without brackets -/

theorem skip_to_paren_ge (txt : List Char) : ∀ (n head : Nat),
    head ≤ skip_to_paren txt n head := by
  intro n
  induction n with
  | zero => intro head; exact Nat.le_refl _
  | succ n ih =>
    intro head
    rw [skip_to_paren]
    split
    · split
      · exact Nat.le_refl _
      · refine Nat.le_trans ?_ (ih _)
        split_ifs <;> omega
    · exact Nat.le_refl _

theorem pchar_mem_right (pre w : List Char) (i : Nat) (h1 : pre.length ≤ i)
    (h2 : i < (pre ++ w).length) : pchar (pre ++ w) i ∈ w := by
  obtain ⟨j, rfl⟩ : ∃ j, i = pre.length + j := ⟨i - pre.length, by omega⟩
  rw [pchar_append_right]
  unfold pchar
  simp only [List.length_append] at h2
  rw [List.getD_eq_getElem _ _ (by omega)]
  exact List.getElem_mem _

theorem pchar_beyond (txt : List Char) (i : Nat) (h : txt.length ≤ i) : pchar txt i = NUL := by
  unfold pchar
  exact List.getD_eq_default _ _ h

/-- Behind the offset `pre.length` the text `pre ++ w` has no bracket when `w` has none. -/
theorem pchar_plain_right (pre w : List Char) (hpl : ∀ x ∈ w, plain_char x = true) (i : Nat)
    (h1 : pre.length ≤ i) : plain_char (pchar (pre ++ w) i) = true := by
  by_cases h2 : i < (pre ++ w).length
  · exact hpl _ (pchar_mem_right pre w i h1 h2)
  · rw [pchar_beyond _ _ (by omega)]; decide

/-- The loop of `insertion_point` on a text without brackets behind `base`: there is no
`(` to stop at, so the mark stays where it is. -/
theorem insertion_loop_word (pre w : List Char) (hpl : ∀ x ∈ w, plain_char x = true)
    (n : Nat) :
    insertion_loop (pre ++ w) (n + 1) pre.length pre.length 0 = (pre.length, pre.length) := by
  rw [insertion_loop]
  have hge := skip_to_paren_ge (pre ++ w) ((pre ++ w).length + 2) (pre.length + 0)
  have := (plain_char_ne _ (pchar_plain_right pre w hpl _ (by omega : pre.length ≤
    skip_to_paren (pre ++ w) ((pre ++ w).length + 2) (pre.length + 0)))).1
  simp only [bne_iff_ne, ne_eq, this, not_false_eq_true, if_true]

theorem array_probe_le (txt : List Char) : array_probe txt ≤ txt.length - 1 := by
  unfold array_probe
  simp only
  split <;> split <;> omega

theorem array_probe_ge (txt : List Char) : txt.length ≤ array_probe txt + 7 := by
  unfold array_probe
  simp only
  split <;> split <;> omega

/-- For a text that does not end in `const` nor in a space, `check_func_array` inspects
the last character. -/
theorem array_probe_last (x : List Char) (a b : Char) (hab : ¬ (a = 's' ∧ b = 't'))
    (hb : b ≠ ' ') : array_probe (x ++ [a, b]) = (x ++ [a, b]).length - 1 := by
  have hlen : (x ++ [a, b]).length = x.length + 2 := by simp
  have hnc : ((x ++ [a, b]).drop ((x ++ [a, b]).length - 1 - 4) == "const".toList) = false := by
    rw [beq_eq_false_iff_ne]
    intro e
    have h1 : (x ++ [a, b]) = (x ++ [a, b]).take ((x ++ [a, b]).length - 1 - 4)
        ++ ['c', 'o', 'n'] ++ ['s', 't'] := by
      conv_lhs => rw [← List.take_append_drop ((x ++ [a, b]).length - 1 - 4) (x ++ [a, b]), e]
      simp [String.toList]
    have h2 := List.append_inj' h1 rfl
    have h3 := h2.2
    simp only [List.cons.injEq, and_true] at h3
    exact hab h3
  have hlast : pchar (x ++ [a, b]) ((x ++ [a, b]).length - 1) = b := by
    have : (x ++ [a, b]).length - 1 = x.length + 1 := by omega
    rw [this, pchar_append_right]; rfl
  unfold array_probe
  simp only [hnc, Bool.and_false, Bool.false_eq_true, if_false, hlast]
  have : (b == ' ') = false := beq_eq_false_iff_ne.mpr hb
  simp only [this, Bool.and_false, Bool.false_eq_true, if_false]

/-- Run of `check_func_array` on a text without brackets behind `base`: it is neither a
function nor an array. -/
theorem check_func_array_word (t : Mangle) (pre w : List Char) (hv : t.valid = true)
    (hplain : t.plain = pre ++ w) (hw : w ≠ []) (hpl : ∀ x ∈ w, plain_char x = true)
    (hprobe : pre.length ≤ array_probe (pre ++ w)) :
    check_func_array pre.length t = Res.ok (none, t) := by
  have hwl : 0 < w.length := List.length_pos.mpr hw
  have hnz : ¬ ((pre ++ w).length - pre.length = 0) := by
    simp only [List.length_append]; omega
  have h0 := (plain_char_ne _ (pchar_plain_right pre w hpl pre.length (Nat.le_refl _))).1
  have h3 := plain_char_ne _ (pchar_plain_right pre w hpl (array_probe (pre ++ w)) hprobe)
  have e0 : (pchar (pre ++ w) pre.length == '(') = false := beq_eq_false_iff_ne.mpr h0
  have e1 : (pchar (pre ++ w) (array_probe (pre ++ w)) == ')') = false :=
    beq_eq_false_iff_ne.mpr h3.2.1
  have e2 : (pchar (pre ++ w) (array_probe (pre ++ w)) == ']') = false :=
    beq_eq_false_iff_ne.mpr h3.2.2.2.1
  have e3 : (pchar (pre ++ w) (array_probe (pre ++ w)) == '(') = false :=
    beq_eq_false_iff_ne.mpr h3.1
  have e4 : (pchar (pre ++ w) (array_probe (pre ++ w)) == '[') = false :=
    beq_eq_false_iff_ne.mpr h3.2.2.1
  simp only [check_func_array, run_bind, run_getS, andThen_ok, hv, Bool.not_true, Bool.false_or,
    decide_eq_true_eq, hnz, if_false, hplain, e0, Bool.false_eq_true, run_pure, run_ite]
  have hfold : (if (decide ((if (decide ((pre ++ w).length - 1 ≥ 5) &&
        (pre ++ w).drop ((pre ++ w).length - 1 - 4) == "const".toList) = true
      then (pre ++ w).length - 1 - 5 else (pre ++ w).length - 1) > 0) &&
      pchar (pre ++ w) (if (decide ((pre ++ w).length - 1 ≥ 5) &&
        (pre ++ w).drop ((pre ++ w).length - 1 - 4) == "const".toList) = true
      then (pre ++ w).length - 1 - 5 else (pre ++ w).length - 1) == ' ') = true
      then (if (decide ((pre ++ w).length - 1 ≥ 5) &&
        (pre ++ w).drop ((pre ++ w).length - 1 - 4) == "const".toList) = true
      then (pre ++ w).length - 1 - 5 else (pre ++ w).length - 1) - 1
      else (if (decide ((pre ++ w).length - 1 ≥ 5) &&
        (pre ++ w).drop ((pre ++ w).length - 1 - 4) == "const".toList) = true
      then (pre ++ w).length - 1 - 5 else (pre ++ w).length - 1)) = array_probe (pre ++ w) := rfl
  rw [hfold]
  simp only [e1, e2, e3, e4, Bool.false_eq_true, if_false, run_pure, andThen_ok, Bool.or_self,
    Bool.and_false]

/-- Run of `insertion_point` on a text without brackets behind `base`: a decorator goes
to the end of the text. -/
theorem insertion_point_word (t : Mangle) (pre w : List Char) (hv : t.valid = true)
    (hplain : t.plain = pre ++ w) (hw : w ≠ []) (hpl : ∀ x ∈ w, plain_char x = true)
    (hprobe : pre.length ≤ array_probe (pre ++ w)) :
    insertion_point pre.length t = Res.ok (t.plain.length, t) := by
  have hng : ¬ (pre.length > (pre ++ w).length) := by
    simp only [List.length_append]; omega
  have h0 := (plain_char_ne _ (pchar_plain_right pre w hpl pre.length (Nat.le_refl _))).1
  have e0 : (pchar (pre ++ w) pre.length == '(') = false := beq_eq_false_iff_ne.mpr h0
  have hc := check_func_array_word t pre w hv hplain hw hpl hprobe
  have hl : (pre ++ w).length + 2 = ((pre ++ w).length + 1) + 1 := rfl
  simp only [insertion_point, run_bind, run_getS, andThen_ok, hplain, hng, if_false, hl,
    insertion_loop_word pre w hpl, hc, e0, Bool.false_and, Bool.false_eq_true, run_pure,
    if_true, run_ite]

theorem types_names_tail :
    ∀ e ∈ types, e.1.toList.length = 1 →
      (match e.2.toList.reverse with
        | b :: a :: _ => !(a == 's' && b == 't') && b != ' '
        | _ => false) = true := by
  decide

/-- The name of a builtin type does not end in `const` nor in a space. -/
theorem builtin_name_tail (c : Char) (nm : List Char) (h : builtin_name c = some nm) :
    ∃ x a b, nm = x ++ [a, b] ∧ ¬ (a = 's' ∧ b = 't') ∧ b ≠ ' ' := by
  obtain ⟨e, he, h1, h2⟩ := builtin_name_spec c nm h
  have := types_names_tail e he (by rw [h1]; rfl)
  rw [h2] at this
  cases hr : nm.reverse with
  | nil => rw [hr] at this; cases this
  | cons b l =>
    cases l with
    | nil => rw [hr] at this; cases this
    | cons a l2 =>
      rw [hr] at this
      simp only [Bool.and_eq_true, Bool.not_eq_true', Bool.and_eq_false_iff, beq_eq_false_iff_ne,
        bne_iff_ne, ne_eq] at this
      refine ⟨l2.reverse, a, b, ?_, ?_, this.2⟩
      · have := congrArg List.reverse hr
        simpa using this
      · intro hab
        rcases this.1 with h3 | h3
        · exact h3 hab.1
        · exact h3 hab.2

/-- Run of `insertion_point` on the name of a builtin type. -/
theorem insertion_point_builtin (t : Mangle) (pre nm : List Char) (c : Char)
    (hv : t.valid = true) (hplain : t.plain = pre ++ nm) (hc : builtin_name c = some nm) :
    insertion_point pre.length t = Res.ok (t.plain.length, t) := by
  obtain ⟨x, a, b, hnm, hab, hb⟩ := builtin_name_tail c nm hc
  apply insertion_point_word t pre nm hv hplain (by rw [hnm]; simp)
    (builtin_name_plain c nm hc)
  rw [hnm, ← List.append_assoc, array_probe_last _ _ _ hab hb]
  simp only [List.length_append, List.length_cons, List.length_nil]
  omega

/-- Run of `insertion_point` on the name of a builtin type followed by ` const`. -/
theorem insertion_point_const (t : Mangle) (pre nm : List Char) (c : Char)
    (hv : t.valid = true) (hplain : t.plain = pre ++ (nm ++ " const".toList))
    (hc : builtin_name c = some nm) :
    insertion_point pre.length t = Res.ok (t.plain.length, t) := by
  obtain ⟨x, a, b, hnm, -, -⟩ := builtin_name_tail c nm hc
  apply insertion_point_word t pre (nm ++ " const".toList) hv hplain (by simp [String.toList])
  · intro y hy
    rcases List.mem_append.mp hy with hy | hy
    · exact builtin_name_plain c nm hc y hy
    · have hall : ∀ z ∈ " const".toList, plain_char z = true := by decide
      exact hall y hy
  · have h7 := array_probe_ge (pre ++ (nm ++ " const".toList))
    have h6 : (" const".toList).length = 6 := rfl
    have h2 : nm.length = x.length + 2 := by rw [hnm]; simp
    simp only [List.length_append, h6, h2] at h7
    omega

/-! ## Symbolic runs of the type productions -/

theorem abbreviations_shape :
    ∀ e ∈ abbreviations,
      (match e.1.toList with
        | [a, y] => a == 'S' && islower y
        | _ => false) = true := by
  decide

theorem abbreviations_start (e : String × String) (he : e ∈ abbreviations) :
    ∃ y, e.1.toList = ['S', y] ∧ islower y = true := by
  have := abbreviations_shape e he
  match hl : e.1.toList, this with
  | [a, y], h2 =>
    simp only [Bool.and_eq_true, beq_iff_eq] at h2
    exact ⟨y, by rw [h2.1], h2.2⟩

/-- No builtin code starts with a character that is neither a lower-case letter nor `D`. -/
theorem At.run_is_builtin_none {s : Mangle} {c : Char} {r : List Char} (h : At s (c :: r))
    (hc : islower c = false) (hD : c ≠ 'D') : is_builtin_type s = Res.ok (none, s) := by
  simp only [is_builtin_type, run_bind, h.run_rest, andThen_ok, List.length_cons, run_ite,
    run_pure]
  rw [if_neg (by omega)]
  congr 2
  apply table_index_none
  intro e he
  rcases types_code_shape e he with ⟨x, hx⟩ | ⟨y, hy⟩
  · have hl := types_codes_lower e he (by rw [hx]; rfl)
    rw [hx] at hl
    have hxl : islower x = true := by simpa using hl
    have hne : x ≠ c := by intro e2; rw [e2, hc] at hxl; cases hxl
    rw [hx]
    simp [List.isPrefixOf, hne]
  · rw [hy]
    simp [List.isPrefixOf, hD.symm]

/-- No abbreviation starts with a character other than `S`. -/
theorem At.run_is_abbreviation_ne {s : Mangle} {c : Char} {r : List Char} (h : At s (c :: r))
    (hc : c ≠ 'S') : is_abbreviation s = Res.ok (none, s) := by
  simp only [is_abbreviation, run_bind, h.run_rest, andThen_ok, run_ite, run_pure]
  split
  · rfl
  · congr 2
    apply table_index_none
    intro e he
    obtain ⟨y, hy, -⟩ := abbreviations_start e he
    rw [hy]
    cases r with
    | nil => simp
    | cons c2 r2 => simp [hc.symm]

/-- No abbreviation has a second character that is not a lower-case letter. -/
theorem At.run_is_abbreviation_seq {s : Mangle} {c2 : Char} {r : List Char}
    (h : At s ('S' :: c2 :: r)) (hc : islower c2 = false) :
    is_abbreviation s = Res.ok (none, s) := by
  simp only [is_abbreviation, run_bind, h.run_rest, andThen_ok, run_ite, run_pure,
    List.length_cons]
  rw [if_neg (by omega)]
  congr 2
  apply table_index_none
  intro e he
  obtain ⟨y, hy, hyl⟩ := abbreviations_start e he
  have hne : y ≠ c2 := by intro e2; rw [e2, hc] at hyl; cases hyl
  rw [hy]
  simp [hne]

/-- Run of `_template_args` when no `I` follows. -/
theorem template_args_skip (fuel : Nat) {t : Mangle} {l : List Char} (h : At t l)
    (hI : "I".toList.isPrefixOf l = false) : _template_args (fuel + 1) t = Res.ok ((), t) := by
  by_cases hv : t.valid = true
  · simp only [_template_args, run_bind, h.run_match_false hv "I" hI, andThen_ok,
      Bool.false_eq_true, if_false, run_pure]
  · have hm : match_ "I" t = Res.ok (false, t) := by
      simp only [match_, peek, run_bind, run_getS, andThen_ok, hv, if_false, run_pure,
        Bool.false_eq_true]
    simp only [_template_args, run_bind, hm, andThen_ok, Bool.false_eq_true, if_false, run_pure]

/-- The tests of `_type` in front of the branch for `P` fail on the characters named
here. -/
theorem type_front_peeks {s : Mangle} {c : Char} {r : List Char} (hv : s.valid = true)
    (h : At s (c :: r)) (hl : islower c = false)
    (hc : c ≠ 'D' ∧ c ≠ 'V' ∧ c ≠ 'K' ∧ c ≠ 'U' ∧ c ≠ 'F' ∧ c ≠ 'A') :
    is_builtin_type s = Res.ok (none, s) ∧ peek "r" s = Res.ok (false, s) ∧
      peek "V" s = Res.ok (false, s) ∧ peek "K" s = Res.ok (false, s) ∧
      peek "U" s = Res.ok (false, s) ∧ peek "F" s = Res.ok (false, s) ∧
      peek "A" s = Res.ok (false, s) := by
  obtain ⟨h1, h2, h3, h4, h5, h6⟩ := hc
  have hr : 'r' ≠ c := by intro e; rw [← e] at hl; exact absurd hl (by decide)
  exact ⟨h.run_is_builtin_none hl h1, h.run_peek_ne hv 'r' [] hr,
    h.run_peek_ne hv 'V' [] (Ne.symm h2), h.run_peek_ne hv 'K' [] (Ne.symm h3),
    h.run_peek_ne hv 'U' [] (Ne.symm h4), h.run_peek_ne hv 'F' [] (Ne.symm h5),
    h.run_peek_ne hv 'A' [] (Ne.symm h6)⟩

/-- Run of `_type` on a pointer: the pointee is parsed, the decorator is inserted at its
insertion point and the result is recorded as a substitution. -/
theorem type_pointer_run (fuel : Nat) {s t : Mangle} {r : List Char} (p : Nat)
    (hv : s.valid = true) (h : At s ('P' :: r))
    (hin : _type fuel (s.setMpos (s.mpos + 1)) = Res.ok ((), t)) (htv : t.valid = true)
    (hip : insertion_point s.plain.length t = Res.ok (p, t)) (hp : p ≤ t.plain.length)
    (hfit : t.plain.length +
      (if (pchar t.plain p == '(' || pchar t.plain p == '[') = true then 3 else 1) < t.size)
    (hroom : t.substitions.length < 20) :
    _type (fuel + 1) s = Res.ok ((), { t with
      plain := t.plain.take p ++
        (if (pchar t.plain p == '(' || pchar t.plain p == '[') = true then "(*)".toList
          else "*".toList) ++ t.plain.drop p,
      substitions := t.substitions ++ [(t.plain.take p ++
        (if (pchar t.plain p == '(' || pchar t.plain p == '[') = true then "(*)".toList
          else "*".toList) ++ t.plain.drop p).drop s.plain.length] }) := by
  obtain ⟨b0, b1, b2, b3, b4, b5, b6⟩ := type_front_peeks hv h (by decide)
    ⟨by decide, by decide, by decide, by decide, by decide, by decide⟩
  have mP := h.run_match_true hv "P" (isPrefixOf_single _ _)
  have hPl : "P".length = 1 := rfl
  rw [hPl] at mP
  rw [_type]
  simp only [run_bind, run_getS, andThen_ok, hv, if_true, current_position, run_pure, b0, b1,
    b2, b3, b4, b5, b6, Bool.or_self, Bool.false_eq_true, if_false, mP, hin, hip]
  by_cases hb : (pchar t.plain p == '(' || pchar t.plain p == '[') = true
  · rw [if_pos hb] at hfit
    have hi := run_insert t p "(*)".toList htv hp (by decide) (by
      simp only [String.toList]; simp only [List.length_cons, List.length_nil]; omega)
    rw [if_pos hb, run_bind, hi, andThen_ok,
      run_add_substitution_at _ _ (by simpa using htv) (by simpa using hroom)]
    simp only [if_pos hb]
  · rw [if_neg hb] at hfit
    have hi := run_insert t p "*".toList htv hp (by decide) (by
      simp only [String.toList]; simp only [List.length_cons, List.length_nil]; omega)
    rw [if_neg hb, run_bind, hi, andThen_ok,
      run_add_substitution_at _ _ (by simpa using htv) (by simpa using hroom)]
    simp only [if_neg hb]

/-- Run of `_type` on a type qualified by `K`: ` const` is written behind the type and the
result is recorded as a substitution. -/
theorem type_const_run (fuel : Nat) {s t : Mangle} {c : Char} {r : List Char}
    (hv : s.valid = true) (h : At s ('K' :: c :: r))
    (hc : c ≠ 'r' ∧ c ≠ 'V' ∧ c ≠ 'K' ∧ c ≠ 'R' ∧ c ≠ 'O')
    (hin : _type fuel (s.setMpos (s.mpos + 1)) = Res.ok ((), t)) (htv : t.valid = true)
    (hne : t.plain ≠ [])
    (hlast : " ([<,:".toList.contains (pchar t.plain (t.plain.length - 1)) = false)
    (hfit : t.plain.length + 6 < t.size) (hroom : t.substitions.length < 20) :
    _type (fuel + 1) s = Res.ok ((), { t with
      plain := t.plain ++ " const".toList,
      substitions := t.substitions ++ [(t.plain ++ " const".toList).drop s.plain.length] }) := by
  have b0 := h.run_is_builtin_none (by decide) (by decide)
  have b1 := h.run_peek_ne hv 'r' [] (by decide)
  have b2 := h.run_peek_ne hv 'V' [] (by decide)
  have b3 : peek "K" s = Res.ok (true, s) := by
    rw [h.run_peek hv]; congr 2
  have hq := run_qualifier_pre_const false h hc
  have hqp := run_qualifier_post_const t htv hne hlast hfit
  rw [_type]
  simp only [run_bind, run_getS, andThen_ok, hv, if_true, current_position, run_pure, b0, b1,
    b2, b3, Bool.or_true, Bool.false_or, hq, hin, hqp,
    run_add_substitution_at _ _ (show ({ t with plain := t.plain ++ " const".toList }
      : Mangle).valid = true from htv) (show ({ t with plain := t.plain ++ " const".toList }
      : Mangle).substitions.length < 20 from hroom)]

theorem seq_head (w r : List Char) (hw : ∀ c ∈ w, isdigit c = true ∨ isupper c = true) :
    ∃ c2 r2, w ++ '_' :: r = c2 :: r2 ∧ islower c2 = false ∧
      (isdigit c2 || isupper c2 || c2 == '_') = true := by
  cases w with
  | nil => exact ⟨'_', r, rfl, by decide, by decide⟩
  | cons c w2 =>
    refine ⟨c, w2 ++ '_' :: r, rfl, ?_, ?_⟩
    · rcases hw c (List.mem_cons_self _ _) with h | h
      · simp only [isdigit, islower, Bool.and_eq_true, decide_eq_true_eq] at h ⊢
        simp only [Bool.and_eq_false_iff, decide_eq_false_iff_not]
        omega
      · simp only [isupper, islower, Bool.and_eq_true, decide_eq_true_eq] at h ⊢
        simp only [Bool.and_eq_false_iff, decide_eq_false_iff_not]
        omega
    · rcases hw c (List.mem_cons_self _ _) with h | h <;> simp [h]

/-- Run of `_type` on a substitution `S<seq-id>_` whose index is in the table and that is
not followed by template arguments: the recorded text is appended. -/
theorem type_substitution_run (fuel : Nat) {s : Mangle} (w r : List Char)
    (hv : s.valid = true) (h : At s ('S' :: (w ++ '_' :: r)))
    (hw : ∀ c ∈ w, isdigit c = true ∨ isupper c = true)
    (hidx : seq_index w < s.substitions.length)
    (hI : "I".toList.isPrefixOf r = false)
    (hfit : s.plain.length + (s.substitions.getD (seq_index w) []).length < s.size) :
    _type (fuel + 2) s = Res.ok ((), { s with
      plain := s.plain ++ s.substitions.getD (seq_index w) [],
      mpos := s.mpos + (w.length + 2) }) := by
  obtain ⟨c2, r2, hc2, hlow, hseq⟩ := seq_head w r hw
  have h' : At s ('S' :: c2 :: r2) := by rw [← hc2]; exact h
  obtain ⟨b0, b1, b2, b3, b4, b5, b6⟩ := type_front_peeks hv h' (by decide)
    ⟨by decide, by decide, by decide, by decide, by decide, by decide⟩
  have mP := h'.run_match_false hv "P" (isPrefixOf_cons_ne _ _ _ _ (by decide))
  have mR := h'.run_match_false hv "R" (isPrefixOf_cons_ne _ _ _ _ (by decide))
  have mO := h'.run_match_false hv "O" (isPrefixOf_cons_ne _ _ _ _ (by decide))
  have hab := h'.run_is_abbreviation_seq hlow
  have pS : peek_substitution s = Res.ok (true, s) := by
    have p1 : peek "S" s = Res.ok (true, s) := by
      rw [h'.run_peek hv]; congr 2
    simp only [peek_substitution, run_bind, p1, andThen_ok, if_true, h'.run_look1,
      List.headD_cons, run_pure, hseq]
  have hsub := substitution_run s w r hv h hw
  rw [if_neg (by omega), Mangle.append_fits _ _ (by simpa [Mangle.setMpos] using hv)
    (by simpa [Mangle.setMpos] using hfit)] at hsub
  have hat : At ({ s.setMpos (s.mpos + (w.length + 2)) with
      plain := (s.setMpos (s.mpos + (w.length + 2))).plain ++
        s.substitions.getD (seq_index w) [] } : Mangle) r := by
    have := h.moved (w.length + 2) (by simp)
    refine ⟨this.1, ?_⟩
    have h2 := this.2
    have e : ('S' :: (w ++ '_' :: r)).drop (w.length + 2) = r := by
      have : w.length + 2 = (w.length + 1) + 1 := rfl
      rw [this, List.drop_succ_cons, ← List.drop_drop, List.drop_left]
      rfl
    rw [e] at h2
    exact h2
  rw [_type]
  simp only [run_bind, run_getS, andThen_ok, hv, if_true, current_position, run_pure, b0, b1,
    b2, b3, b4, b5, b6, Bool.or_self, Bool.false_eq_true, if_false, mP, mR, mO, hab, pS, hsub,
    template_args_skip fuel hat hI]
  simp only [Mangle.setMpos, hv]

/-- Run of `_type` in front of a nested name. -/
theorem type_nested_dispatch (fuel : Nat) {s : Mangle} {r : List Char} (hv : s.valid = true)
    (h : At s ('N' :: r)) : _type (fuel + 1) s = _nested_name fuel s := by
  obtain ⟨b0, b1, b2, b3, b4, b5, b6⟩ := type_front_peeks hv h (by decide)
    ⟨by decide, by decide, by decide, by decide, by decide, by decide⟩
  have mP := h.run_match_false hv "P" (isPrefixOf_cons_ne _ _ _ _ (by decide))
  have mR := h.run_match_false hv "R" (isPrefixOf_cons_ne _ _ _ _ (by decide))
  have mO := h.run_match_false hv "O" (isPrefixOf_cons_ne _ _ _ _ (by decide))
  have hab := h.run_is_abbreviation_ne (by decide)
  have pS := h.run_peek_substitution_ne hv (by decide)
  have pT := h.run_peek_template_param_ne hv (by decide)
  have pN : peek "N" s = Res.ok (true, s) := by
    rw [h.run_peek hv]; congr 2
    exact isPrefixOf_single _ _
  rw [_type]
  simp only [run_bind, run_getS, andThen_ok, hv, if_true, current_position, run_pure, b0, b1,
    b2, b3, b4, b5, b6, Bool.or_self, Bool.false_eq_true, if_false, mP, mR, mO, hab, pS, pT, pN]

/-- One round of the parameter loop of `_function_encoding` at function nesting level
zero, for a parameter whose text is not a first `void`. -/
theorem function_encoding_loop_step (fuel count : Nat) {s t : Mangle} {c : Char}
    {r : List Char} (hv : s.valid = true) (h : At s (c :: r))
    (hc : c ≠ NUL ∧ c ≠ '.' ∧ c ≠ '@') (hfn : s.func_nest = 0)
    (hfit : s.plain.length + 1 < s.size)
    (hty : _type fuel { s with
      plain := s.plain ++ (if count > 0 then ",".toList else []),
      parameter_base := s.parameter_base.set 0 (some s.plain.length) } = Res.ok ((), t))
    (hnv : ¬ (count = 0 ∧ t.plain.drop s.plain.length = "void".toList)) :
    function_encoding_loop (fuel + 1) count s = function_encoding_loop fuel (count + 1) t := by
  have hos := h.run_on_sentinel_false hv hc.1 hc.2.1 hc.2.2
  obtain ⟨v, p, sz, m, k, n, tc, q, fn, pb0, ss, ts⟩ := s
  simp only at hv hfn hfit hty hnv
  subst hv hfn
  have hspb : set_parameter_base p.length ⟨true, p, sz, m, k, n, tc, q, 0, pb0, ss, ts⟩
      = Res.ok ((), ⟨true, p, sz, m, k, n, tc, q, 0, pb0.set 0 (some p.length), ss, ts⟩) := by
    simp only [set_parameter_base, run_bind, run_getS, andThen_ok, run_ite]
    rw [if_pos (by decide), run_modifyS]
    rfl
  have hca := cond_append_run count
    ⟨true, p, sz, m, k, n, tc, q, 0, pb0.set 0 (some p.length), ss, ts⟩ rfl (by
      simp only; split
      · simp only [String.toList]; simp only [List.length_cons, List.length_nil]; omega
      · simp only [List.length_nil]; omega)
  simp only at hca
  have hz : ¬ ((0 : Int) > 0) := by decide
  have hcond : (decide (count = 0) && t.plain.drop p.length == "void".toList) = false := by
    rw [Bool.and_eq_false_iff]
    by_cases h0 : count = 0
    · right
      exact beq_eq_false_iff_ne.mpr (fun e => hnv ⟨h0, e⟩)
    · left
      exact decide_eq_false h0
  rw [function_encoding_loop]
  simp only [run_bind, hos, andThen_ok, Bool.false_eq_true, if_false, run_getS, hz, run_pure,
    current_position, hspb, ite_bind_run, hca, hty, text_at, hcond]

/-- The parameter loop of `_function_encoding` at the end of the input. -/
theorem function_encoding_loop_end (fuel count : Nat) {s : Mangle} (h : At s []) :
    function_encoding_loop (fuel + 1) count s = Res.ok ((), s) := by
  rw [function_encoding_loop]
  simp only [run_bind, h.run_on_sentinel_nil, andThen_ok, if_true, run_pure]

/-! ## Substitutions that refer to a qualified type and to a pointer -/

theorem types_names_last :
    ∀ e ∈ types, e.1.toList.length = 1 →
      (e.2.toList != [] &&
        !(" ([<,:".toList.contains (pchar e.2.toList (e.2.toList.length - 1)))) = true := by
  decide

/-- The name of a builtin type ends in a character that is not a separator. -/
theorem builtin_name_last (c : Char) (nm pre : List Char) (h : builtin_name c = some nm) :
    nm ≠ [] ∧
      " ([<,:".toList.contains (pchar (pre ++ nm) ((pre ++ nm).length - 1)) = false := by
  obtain ⟨e, he, h1, h2⟩ := builtin_name_spec c nm h
  have := types_names_last e he (by rw [h1]; rfl)
  rw [h2] at this
  simp only [Bool.and_eq_true, bne_iff_ne, ne_eq, Bool.not_eq_true'] at this
  refine ⟨this.1, ?_⟩
  have hl : 0 < nm.length := List.length_pos.mpr this.1
  have e2 : (pre ++ nm).length - 1 = pre.length + (nm.length - 1) := by
    simp only [List.length_append]; omega
  rw [e2, pchar_append_right]
  exact this.2

theorem builtin_code_plain (c : Char) (nm : List Char) (h : builtin_name c = some nm) :
    c ≠ 'r' ∧ c ≠ 'V' ∧ c ≠ 'K' ∧ c ≠ 'R' ∧ c ≠ 'O' := by
  have hl := builtin_name_lower c nm h
  refine ⟨?_, ?_, ?_, ?_, ?_⟩
  · intro e
    have hr : builtin_name 'r' = none := by decide
    rw [e, hr] at h; cases h
  · intro e; rw [e] at hl; exact absurd hl (by decide)
  · intro e; rw [e] at hl; exact absurd hl (by decide)
  · intro e; rw [e] at hl; exact absurd hl (by decide)
  · intro e; rw [e] at hl; exact absurd hl (by decide)

/-- Run of `_type` on a pointer to a const builtin type: the text is the name, ` const`
and `*`; the const-qualified type is recorded first, the pointer after it. -/
theorem type_pointer_const_run (g : Nat) {s : Mangle} {c : Char} {r nm : List Char}
    (hv : s.valid = true) (h : At s ('P' :: 'K' :: c :: r)) (hc : builtin_name c = some nm)
    (hfit : s.plain.length + nm.length + 7 < s.size)
    (hroom : s.substitions.length + 2 ≤ 20) :
    _type (g + 3) s = Res.ok ((), { s with
      plain := s.plain ++ (nm ++ " const*".toList),
      mpos := s.mpos + 3,
      substitions := s.substitions ++ [nm ++ " const".toList, nm ++ " const*".toList] }) := by
  obtain ⟨v, p, sz, m, k, n, tc, q, fn, pb0, ss, ts⟩ := s
  simp only at hv hfit hroom
  subst hv
  obtain ⟨hnm, hlast⟩ := builtin_name_last c nm p hc
  have h6 : (" const".toList).length = 6 := rfl
  have hb := type_builtin_run g (s := ⟨true, p, sz, m, k + 1 + 1, n, tc, q, fn, pb0, ss, ts⟩)
    (c := c) (r := r) (n := nm) rfl ⟨h.next.next.1, h.next.next.2⟩ hc (by simp only; omega)
  simp only at hb
  have hk := type_const_run (g + 1) (s := ⟨true, p, sz, m, k + 1, n, tc, q, fn, pb0, ss, ts⟩)
    (c := c) (r := r) rfl ⟨h.next.1, h.next.2⟩ (builtin_code_plain c nm hc) hb rfl
    (by simp [hnm]) hlast (by simp only [List.length_append]; omega) (by simp only; omega)
  simp only [List.drop_left, List.append_assoc] at hk
  have hip := insertion_point_const
    (⟨true, p ++ (nm ++ " const".toList), sz, m, k + 1 + 1 + 1, n, tc, q, fn, pb0,
      ss ++ [nm ++ " const".toList], ts⟩ : Mangle) p nm c rfl rfl hc
  simp only at hip
  have hp := type_pointer_run (g + 2) (s := ⟨true, p, sz, m, k, n, tc, q, fn, pb0, ss, ts⟩)
    (r := 'K' :: c :: r) (p ++ (nm ++ " const".toList)).length rfl h hk rfl hip
    (Nat.le_refl _)
    (by
      have hnul : pchar (p ++ (nm ++ " const".toList)) (p ++ (nm ++ " const".toList)).length
          = NUL := pchar_beyond _ _ (Nat.le_refl _)
      have hnb : ¬ ((NUL == '(' || NUL == '[') = true) := by decide
      show (p ++ (nm ++ " const".toList)).length +
        (if (pchar (p ++ (nm ++ " const".toList)) (p ++ (nm ++ " const".toList)).length == '('
          || pchar (p ++ (nm ++ " const".toList)) (p ++ (nm ++ " const".toList)).length == '[')
          = true then 3 else 1) < sz
      rw [hnul, if_neg hnb]
      simp only [List.length_append, h6]; omega)
    (by simp only [List.length_append, List.length_cons, List.length_nil]; omega)
  rw [hp]
  have hnul : pchar (p ++ (nm ++ " const".toList)) (p ++ (nm ++ " const".toList)).length
      = NUL := pchar_beyond _ _ (Nat.le_refl _)
  have hnb : ¬ ((NUL == '(' || NUL == '[') = true) := by decide
  simp only [hnul, hnb, if_false, List.take_length, List.drop_length, List.append_nil,
    List.append_assoc, List.drop_left]
  simp only [String.toList, List.cons_append, List.nil_append]
  rfl

/-- Run of `_function_encoding` on `3fooPK`, a builtin code and a substitution `S_` or
`S0_`: the second parameter repeats the const-qualified type or the pointer. -/
theorem substitution_param_run (g : Nat) (s : Mangle) (c : Char) (nm w : List Char)
    (hv : s.valid = true) (hp : s.plain = []) (hn : s.nest = 0) (hfn : s.func_nest = 0)
    (hq : s.qualifiers = []) (hss : s.substitions = [])
    (h : At s (Nat.toDigits 10 "foo".toList.length ++
      ("foo".toList ++ ('P' :: 'K' :: c :: 'S' :: (w ++ '_' :: [])))))
    (hc : builtin_name c = some nm) (hw : w = [] ∨ w = ['0'])
    (hfit : 2 * nm.length + 20 < s.size) :
    ∃ t, _function_encoding (g + 5) s = Res.ok ((), t) ∧ t.valid = true ∧
      t.plain = "foo(".toList ++ (nm ++ " const*".toList) ++ ",".toList ++
        (if w = [] then nm ++ " const".toList else nm ++ " const*".toList) ++ ")".toList := by
  obtain ⟨v, p, sz, m, k, n, tc, q, fn, pb0, ss, ts⟩ := s
  simp only at hv hp hn hfn hq hss hfit
  subst hv hp hn hfn hq hss
  have h6 : (" const".toList).length = 6 := rfl
  have h7 : (" const*".toList).length = 7 := rfl
  have hwl : w.length ≤ 1 := by rcases hw with e | e <;> rw [e] <;> decide
  have hwc : ∀ x ∈ w, isdigit x = true ∨ isupper x = true := by
    rcases hw with e | e <;> rw [e] <;> decide
  have hname := name_source_run (g + 3)
    (s := ⟨true, [], sz, m, k, 0, tc, [], 0, pb0, [], ts⟩) "foo".toList
    ('P' :: 'K' :: c :: 'S' :: (w ++ '_' :: [])) rfl h
    (by
      intro x hx
      simp only [String.toList, List.cons_append, List.head?_cons, Option.some.injEq] at hx
      rw [← hx]; decide)
    (by simp only [String.toList, List.length_append, List.length_cons, List.length_nil]; omega)
    (by simp only [String.toList, List.length_cons, List.length_nil]; omega)
    (isPrefixOf_cons_ne _ _ _ _ (by decide))
  simp only at hname
  have hat1 : At (⟨true, [] ++ "foo".toList, sz, m,
      k + (Nat.toDigits 10 "foo".toList.length).length + "foo".toList.length, 0, tc, [], 0,
      pb0, [], ts⟩ : Mangle) ('P' :: 'K' :: c :: 'S' :: (w ++ '_' :: [])) := by
    have := At.after_source (w := "foo".toList)
      (r := 'P' :: 'K' :: c :: 'S' :: (w ++ '_' :: [])) (by simpa [source_code] using h)
      ([] ++ "foo".toList)
    exact ⟨this.1, this.2⟩
  -- the first parameter
  have hty1 := type_pointer_const_run g
    (s := ⟨true, [] ++ "foo".toList ++ "(".toList, sz, m,
      k + (Nat.toDigits 10 "foo".toList.length).length + "foo".toList.length, 1, tc, [], 0,
      pb0.set 0 (some ([] ++ "foo".toList ++ "(".toList).length), [], ts⟩)
    (c := c) (r := 'S' :: (w ++ '_' :: [])) rfl ⟨hat1.1, hat1.2⟩ hc
    (by simp only [String.toList, List.length_append, List.length_cons, List.length_nil]; omega)
    (by simp)
  simp only at hty1
  have hstep1 := function_encoding_loop_step (g + 3) 0
    (s := ⟨true, [] ++ "foo".toList ++ "(".toList, sz, m,
      k + (Nat.toDigits 10 "foo".toList.length).length + "foo".toList.length, 1, tc, [], 0, pb0,
      [], ts⟩) rfl ⟨hat1.1, hat1.2⟩ (by decide) rfl
    (by simp only [String.toList, List.length_append, List.length_cons, List.length_nil]; omega)
    (by
      simp only [gt_iff_lt, lt_self_iff_false, if_false, List.append_nil]
      exact hty1)
    (by
      intro hcon
      have h2 := hcon.2
      simp only at h2
      rw [List.drop_left] at h2
      have := congrArg List.length h2
      rw [List.length_append, h7] at this
      simp only [String.toList, List.length_cons, List.length_nil] at this
      omega)
  -- the second parameter
  have hat2 : At (⟨true, [] ++ "foo".toList ++ "(".toList ++ (nm ++ " const*".toList), sz, m,
      k + (Nat.toDigits 10 "foo".toList.length).length + "foo".toList.length + 3, 1, tc, [], 0,
      pb0.set 0 (some ([] ++ "foo".toList ++ "(".toList).length),
      [] ++ [nm ++ " const".toList, nm ++ " const*".toList], ts⟩ : Mangle)
      ('S' :: (w ++ '_' :: [])) := by
    have := hat1.moved 3 (by simp)
    exact ⟨this.1, this.2⟩
  have hidx : seq_index w < 2 := by rcases hw with e | e <;> rw [e] <;> decide
  have hget : ([] ++ [nm ++ " const".toList, nm ++ " const*".toList]).getD (seq_index w) []
      = (if w = [] then nm ++ " const".toList else nm ++ " const*".toList) := by
    rcases hw with e | e
    · rw [e]; rfl
    · rw [e]
      have : seq_index ['0'] = 1 := by decide
      rw [this]
      simp
  have hgl : ((if w = [] then nm ++ " const".toList else nm ++ " const*".toList)).length
      ≤ nm.length + 7 := by
    split <;> simp only [List.length_append, h6, h7] <;> omega
  have hty2 := type_substitution_run g
    (s := ⟨true, [] ++ "foo".toList ++ "(".toList ++ (nm ++ " const*".toList) ++ ",".toList,
      sz, m,
      k + (Nat.toDigits 10 "foo".toList.length).length + "foo".toList.length + 3, 1, tc, [], 0,
      (pb0.set 0 (some ([] ++ "foo".toList ++ "(".toList).length)).set 0
        (some ([] ++ "foo".toList ++ "(".toList ++ (nm ++ " const*".toList)).length),
      [] ++ [nm ++ " const".toList, nm ++ " const*".toList], ts⟩)
    w [] rfl ⟨hat2.1, hat2.2⟩ hwc (by simpa using hidx) (by decide)
    (by
      rw [hget]
      simp only [String.toList, List.length_append, List.length_cons, List.length_nil, h7]
        at hgl ⊢
      omega)
  simp only [hget] at hty2
  have hstep2 := function_encoding_loop_step (g + 2) 1
    (s := ⟨true, [] ++ "foo".toList ++ "(".toList ++ (nm ++ " const*".toList), sz, m,
      k + (Nat.toDigits 10 "foo".toList.length).length + "foo".toList.length + 3, 1, tc, [], 0,
      pb0.set 0 (some ([] ++ "foo".toList ++ "(".toList).length),
      [] ++ [nm ++ " const".toList, nm ++ " const*".toList], ts⟩) rfl hat2 (by decide) rfl
    (by
      simp only [String.toList, List.length_append, List.length_cons, List.length_nil, h7]
      omega)
    (by
      simp only [Nat.lt_add_one, gt_iff_lt, if_true]
      exact hty2)
    (by intro hcon; exact absurd hcon.1 (by decide))
  have hat3 : At (⟨true, [] ++ "foo".toList ++ "(".toList ++ (nm ++ " const*".toList) ++
      ",".toList ++ (if w = [] then nm ++ " const".toList else nm ++ " const*".toList), sz, m,
      k + (Nat.toDigits 10 "foo".toList.length).length + "foo".toList.length + 3 +
        (w.length + 2), 1, tc, [], 0,
      (pb0.set 0 (some ([] ++ "foo".toList ++ "(".toList).length)).set 0
        (some ([] ++ "foo".toList ++ "(".toList ++ (nm ++ " const*".toList)).length),
      [] ++ [nm ++ " const".toList, nm ++ " const*".toList], ts⟩ : Mangle) [] := by
    have := hat2.moved (w.length + 2) (by simp)
    refine ⟨this.1, ?_⟩
    have h2 := this.2
    have e : ('S' :: (w ++ '_' :: [])).drop (w.length + 2) = [] := by
      have : w.length + 2 = (w.length + 1) + 1 := rfl
      rw [this, List.drop_succ_cons, ← List.drop_drop, List.drop_left]
      rfl
    rw [e] at h2
    exact h2
  have hend := function_encoding_loop_end (g + 1) 2 hat3
  have hloop := hstep1.trans (hstep2.trans hend)
  have hfr := function_encoding_frame (g + 4) hname rfl rfl hat1 (by decide)
    (show ([] ++ "foo".toList : List Char) ≠ [] from by decide)
    (show (pchar ([] ++ "foo".toList) (([] ++ "foo".toList : List Char).length - 1) == '>')
      = false from by decide)
    (by simp only [String.toList, List.length_append, List.length_cons, List.length_nil]; omega)
    hloop rfl rfl (Or.inl rfl)
    (by
      simp only [String.toList, List.length_append, List.length_cons, List.length_nil, h7,
        if_true] at hgl ⊢
      omega)
  refine ⟨_, hfr, rfl, ?_⟩
  simp only [if_true, List.append_nil, List.nil_append, List.append_assoc, String.toList,
    List.cons_append]

/-- The whole of `demangle` on `_Z3fooPK`, a builtin code and `S_` or `S0_`. -/
theorem demangle_substitution_param (fuel : Nat) (plain : List Char) (size : Nat) (c : Char)
    (nm w : List Char) (hc : builtin_name c = some nm) (hw : w = [] ∨ w = ['0'])
    (hsize : 2 * nm.length + 20 < size) (hfuel : 5 ≤ fuel) :
    demangle fuel plain size ("_Z".toList ++ (Nat.toDigits 10 "foo".toList.length ++
        ("foo".toList ++ ('P' :: 'K' :: c :: 'S' :: (w ++ '_' :: [])))))
      = Res.ok (true, "foo(".toList ++ (nm ++ " const*".toList) ++ ",".toList ++
          (if w = [] then nm ++ " const".toList else nm ++ " const*".toList) ++ ")".toList) := by
  obtain ⟨g, rfl⟩ : ∃ g, fuel = g + 5 := ⟨fuel - 5, by omega⟩
  have hat := initial_at size (Nat.toDigits 10 "foo".toList.length ++
    ("foo".toList ++ ('P' :: 'K' :: c :: 'S' :: (w ++ '_' :: []))))
  obtain ⟨t, ht, htv, htp⟩ := substitution_param_run g _ c nm w rfl rfl rfl rfl rfl rfl hat hc hw
    (by simp only [initial]; omega)
  have hat2 : At (initial size ("_Z".toList ++ (Nat.toDigits 10 "foo".toList.length ++
      ("foo".toList ++ ('P' :: 'K' :: c :: 'S' :: (w ++ '_' :: []))))))
      ('3' :: ("foo".toList ++ ('P' :: 'K' :: c :: 'S' :: (w ++ '_' :: [])))) := hat
  have henc := encoding_digit_run (g + 5) _ '3' _ rfl hat2 (by decide)
  rw [ht] at henc
  have hd := demangle_of_encoding (g + 5) plain size _ t (by omega)
    (by
      intro x hx
      have h3 : Nat.toDigits 10 "foo".toList.length = ['3'] := by decide
      rw [h3] at hx
      simp only [String.toList, List.cons_append, List.nil_append, List.mem_cons,
        List.mem_append, List.not_mem_nil, or_false] at hx
      rcases hx with e | e | e | e | e | e | e | e | hx | e
      · rw [e]; decide
      · rw [e]; decide
      · rw [e]; decide
      · rw [e]; decide
      · rw [e]; decide
      · rw [e]; decide
      · rw [e]; exact (builtin_name_not_special c nm hc).1
      · rw [e]; decide
      · rcases hw with e2 | e2
        · rw [e2] at hx; cases hx
        · rw [e2] at hx
          simp only [List.mem_singleton] at hx
          rw [hx]; decide
      · rw [e]; decide) henc
  rw [hd, htv, htp]

/-- C11: for a one-letter builtin type code `c` with the name `nm`, `demangle` on
`_Z3fooPK`, the code and `S_` returns true with `foo(` + `nm` + ` const*,` + `nm` +
` const)`, and with `S0_` in place of `S_` it returns true with `foo(` + `nm` +
` const*,` + `nm` + ` const*)`: the const-qualified type was recorded first and the
pointer second.  The capacity is taken above the length of the longer text and the step
budget at least five. -/
theorem substitutions_in_completion_order (fuel : Nat) (plain : List Char) (size : Nat)
    (c : Char) (nm : List Char) (hc : builtin_name c = some nm)
    (hsize : ("foo(".toList ++ nm ++ " const*,".toList ++ nm ++ " const*)".toList).length
      < size)
    (hfuel : 5 ≤ fuel) :
    demangle fuel plain size ("_Z3fooPK".toList ++ [c] ++ "S_".toList)
        = Res.ok (true,
          "foo(".toList ++ nm ++ " const*,".toList ++ nm ++ " const)".toList) ∧
      demangle fuel plain size ("_Z3fooPK".toList ++ [c] ++ "S0_".toList)
        = Res.ok (true,
          "foo(".toList ++ nm ++ " const*,".toList ++ nm ++ " const*)".toList) := by
  have hs : 2 * nm.length + 20 < size := by
    simp only [String.toList, List.length_append, List.length_cons, List.length_nil] at hsize
    omega
  have h1 := demangle_substitution_param fuel plain size c nm [] hc (Or.inl rfl) hs hfuel
  have h2 := demangle_substitution_param fuel plain size c nm ['0'] hc (Or.inr rfl) hs hfuel
  have e1 : "_Z3fooPK".toList ++ [c] ++ "S_".toList
      = "_Z".toList ++ (Nat.toDigits 10 "foo".toList.length ++
        ("foo".toList ++ ('P' :: 'K' :: c :: 'S' :: ([] ++ '_' :: [])))) := by
    have h3 : Nat.toDigits 10 "foo".toList.length = ['3'] := by decide
    rw [h3]
    simp [String.toList]
  have e2 : "_Z3fooPK".toList ++ [c] ++ "S0_".toList
      = "_Z".toList ++ (Nat.toDigits 10 "foo".toList.length ++
        ("foo".toList ++ ('P' :: 'K' :: c :: 'S' :: (['0'] ++ '_' :: [])))) := by
    have h3 : Nat.toDigits 10 "foo".toList.length = ['3'] := by decide
    rw [h3]
    simp [String.toList]
  rw [e1, e2, h1, h2]
  simp [String.toList]

theorem substitutions_in_completion_order_witness :
    demangle 20 [] 256 "_Z3fooPKiS_".toList
        = Res.ok (true, "foo(int const*,int const)".toList) ∧
      demangle 20 [] 256 "_Z3fooPKiS0_".toList
        = Res.ok (true, "foo(int const*,int const*)".toList) :=
  substitutions_in_completion_order 20 [] 256 'i' "int".toList (by decide) (by decide)
    (by decide)

/-! ## Nested names and the substitutions they record -/

/-- Run of `_nested_name` inside a parameter list (nesting level one) on a name whose first
component is a substitution and whose other components are source names: every prefix,
the complete name included, is recorded as a substitution. -/
theorem nested_name_subst_run (g : Nat) (s : Mangle) (w : List Char)
    (todo : List (List Char)) (r : List Char) (hv : s.valid = true) (hn : s.nest = 1)
    (h : At s ('N' :: 'S' :: (w ++ '_' :: ((todo.map source_code).flatten ++ 'E' :: r))))
    (hw : ∀ c ∈ w, isdigit c = true ∨ isupper c = true)
    (hidx : seq_index w < s.substitions.length) (htodo : todo ≠ [])
    (hids : ∀ x ∈ todo, is_identifier x = true)
    (hlen : (todo.map source_code).flatten.length + 1 + r.length < 2147483647)
    (hfit : s.plain.length +
      (qualified (s.substitions.getD (seq_index w) [] :: todo)).length < s.size)
    (hroom : s.substitions.length + todo.length ≤ 20)
    (hfuel : todo.length ≤ g) :
    _nested_name (g + 2) s = Res.ok ((), { s with
      plain := s.plain ++ qualified (s.substitions.getD (seq_index w) [] :: todo),
      mpos := s.mpos + 1 + (w.length + 2) + (todo.map source_code).flatten.length + 1,
      substitions := s.substitions ++
        (List.range (todo.length - 1)).map
          (fun j => qualified ([s.substitions.getD (seq_index w) []] ++ todo.take (j + 1))) ++
        [qualified ([s.substitions.getD (seq_index w) []] ++ todo)] }) := by
  obtain ⟨w2, rest2, hr2⟩ := List.exists_cons_of_ne_nil htodo
  obtain ⟨d2, ds2, hd2, hdd2⟩ := source_code_cons w2
  obtain ⟨c2, r2, hc2, hlow, hseq⟩ :=
    seq_head w ((todo.map source_code).flatten ++ 'E' :: r) hw
  rw [qualified_cons, List.length_append] at hfit
  obtain ⟨v, p, sz, m, mp, n, tc, q0, fn, pb0, ss, ts⟩ := s
  simp only at hv hn hfit hroom hidx
  subst hv hn
  have hN := h.run_expect_true rfl "N" (isPrefixOf_single _ _)
  have hNl : "N".length = 1 := rfl
  have hs2 : toShort (1 + 1) = 2 := by decide
  have hs1 : toShort (2 + -1) = 1 := by decide
  have hat1 : At (⟨true, p, sz, m, mp + 1, 2, tc, q0, fn, pb0, ss, ts⟩ : Mangle)
      ('S' :: (w ++ '_' :: ((todo.map source_code).flatten ++ 'E' :: r))) :=
    ⟨h.next.1, h.next.2⟩
  have hat1' : At (⟨true, p, sz, m, mp + 1, 2, tc, q0, fn, pb0, ss, ts⟩ : Mangle)
      ('S' :: c2 :: r2) := by rw [← hc2]; exact hat1
  have hqp := run_qualifier_pre_none true hat1
    ⟨by decide, by decide, by decide, by decide, by decide⟩
  have pDt := hat1.run_peek_ne rfl 'D' ['t'] (by decide)
  have pDT := hat1.run_peek_ne rfl 'D' ['T'] (by decide)
  have hab := hat1'.run_is_abbreviation_seq hlow
  have pS : peek_substitution (⟨true, p, sz, m, mp + 1, 2, tc, q0, fn, pb0, ss, ts⟩ : Mangle)
      = Res.ok (true, ⟨true, p, sz, m, mp + 1, 2, tc, q0, fn, pb0, ss, ts⟩) := by
    have p1 : peek "S" (⟨true, p, sz, m, mp + 1, 2, tc, q0, fn, pb0, ss, ts⟩ : Mangle)
        = Res.ok (true, ⟨true, p, sz, m, mp + 1, 2, tc, q0, fn, pb0, ss, ts⟩) := by
      rw [hat1'.run_peek rfl]; congr 2
    simp only [peek_substitution, run_bind, p1, andThen_ok, if_true, hat1'.run_look1,
      List.headD_cons, run_pure, hseq]
  have hsub := substitution_run (⟨true, p, sz, m, mp + 1, 2, tc, q0, fn, pb0, ss, ts⟩ : Mangle)
    w ((todo.map source_code).flatten ++ 'E' :: r) rfl hat1 hw
  rw [if_neg (by simp only; omega), Mangle.append_fits _ _ rfl (by
    simp only [Mangle.setMpos]; omega)] at hsub
  simp only [Mangle.setMpos] at hsub
  have hat2 : At (⟨true, p ++ ss.getD (seq_index w) [], sz, m, mp + 1 + (w.length + 2), 2, tc,
      q0, fn, pb0, ss, ts⟩ : Mangle) ((todo.map source_code).flatten ++ 'E' :: r) := by
    have := hat1.moved (w.length + 2) (by simp)
    refine ⟨this.1, ?_⟩
    have h2 := this.2
    have e : ('S' :: (w ++ '_' :: ((todo.map source_code).flatten ++ 'E' :: r))).drop
        (w.length + 2) = (todo.map source_code).flatten ++ 'E' :: r := by
      have : w.length + 2 = (w.length + 1) + 1 := rfl
      rw [this, List.drop_succ_cons, ← List.drop_drop, List.drop_left]
      rfl
    rw [e] at h2
    exact h2
  have hat2' : At (⟨true, p ++ ss.getD (seq_index w) [], sz, m, mp + 1 + (w.length + 2), 2, tc,
      q0, fn, pb0, ss, ts⟩ : Mangle)
      (d2 :: (ds2 ++ ((rest2.map source_code).flatten ++ 'E' :: r))) := by
    have e : (todo.map source_code).flatten ++ 'E' :: r
        = d2 :: (ds2 ++ ((rest2.map source_code).flatten ++ 'E' :: r)) := by
      rw [hr2]
      simp only [List.map_cons, List.flatten_cons, hd2, List.cons_append, List.append_assoc]
    rw [← e]; exact hat2
  have mE := hat2'.run_match_false rfl "E"
    (isPrefixOf_cons_ne _ _ _ _ (digit_ne_of_not_digit hdd2 'E' (by decide)))
  have hloop := nested_name_loop_run p todo [ss.getD (seq_index w) []] (g + 1)
    (⟨true, p ++ ss.getD (seq_index w) [], sz, m, mp + 1 + (w.length + 2), 2, tc,
      q0, fn, pb0, ss, ts⟩ : Mangle) r htodo (by simp) (by omega) rfl
    (by simp [qualified, List.intercalate]) hat2 hids hlen
    (by simp only [List.length_append]; omega)
    (by simp only; omega)
  have h2gt : (2 : Int) > 1 := by decide
  simp only [h2gt, if_true] at hloop
  rw [_nested_name]
  simp only [run_bind, hN, andThen_ok, if_true, add_nest, run_modifyS, Mangle.setMpos,
    Mangle.setNest, hs2, hNl, hqp, current_position, run_getS, run_pure, pDt, pDT, Bool.or_self,
    Bool.false_eq_true, if_false, hab, pS, hsub, mE, hloop, h2gt, run_qualifier_post_nil, hs1,
    List.singleton_append]

theorem scope_prefixes_pair (a f : List Char) : scope_prefixes [a, f] = [a] := by
  simp [scope_prefixes, qualified, List.intercalate, List.range_succ]

theorem qualified_pair (a f : List Char) : qualified [a, f] = a ++ "::".toList ++ f := by
  simp [qualified, List.intercalate, String.toList]

/-- Run of `_function_encoding` on the nested name `a::f` with the parameters `NS_`, a
source name `A`, `E`, and `S0_`: the first parameter is `a::A`, built on the substitution
`a`, and the second repeats it. -/
theorem nested_params_run (j : Nat) (s : Mangle) (a f A : List Char)
    (hv : s.valid = true) (hp : s.plain = []) (hn : s.nest = 0) (hfn : s.func_nest = 0)
    (hss : s.substitions = [])
    (h : At s ('N' :: ([] ++ (([a, f].map source_code).flatten ++ 'E' ::
      ('N' :: 'S' :: ([] ++ '_' :: (([A].map source_code).flatten ++ 'E' ::
        ('S' :: (['0'] ++ '_' :: [])))))))))
    (ha : is_identifier a = true) (hf : is_identifier f = true) (hA : is_identifier A = true)
    (hlen : (source_code a ++ source_code f ++ source_code A).length < 2147483600)
    (hfit : a.length + f.length + 2 * (a.length + A.length) + 9 < s.size) :
    ∃ t, _function_encoding (j + 6) s = Res.ok ((), t) ∧ t.valid = true ∧
      t.plain = a ++ "::".toList ++ f ++ "(".toList ++ (a ++ "::".toList ++ A) ++ ",".toList
        ++ (a ++ "::".toList ++ A) ++ ")".toList := by
  obtain ⟨v, p, sz, m, k, n, tc, q0, fn, pb0, ss, ts⟩ := s
  simp only at hv hp hn hfn hss hfit
  subst hv hp hn hfn hss
  have hc2 : ("::".toList).length = 2 := rfl
  have hqaf : (qualified [a, f]).length = a.length + 2 + f.length := by
    rw [qualified_pair]; simp only [List.length_append, hc2]
  have hqaA : (qualified [a, A]).length = a.length + 2 + A.length := by
    rw [qualified_pair]; simp only [List.length_append, hc2]
  simp only [List.length_append] at hlen
  have hL1 : (([a, f].map source_code).flatten).length
      = (source_code a).length + (source_code f).length := by
    simp
  have hL2 : (([A].map source_code).flatten).length = (source_code A).length := by
    simp
  have hws : ∀ x ∈ [a, f], is_identifier x = true := by
    intro x hx
    simp only [List.mem_cons, List.mem_singleton, List.not_mem_nil, or_false] at hx
    rcases hx with e | e <;> rw [e] <;> assumption
  have hnn := nested_name_run (j + 2) ⟨true, [], sz, m, k, 0, tc, q0, 0, pb0, [], ts⟩ [] a [f]
    ('N' :: 'S' :: ([] ++ '_' :: (([A].map source_code).flatten ++ 'E' ::
      ('S' :: (['0'] ++ '_' :: []))))) (Or.inl rfl) rfl rfl h hws (by simp)
    (by
      simp only [List.length_cons, List.length_append, List.length_nil, hL2, hL1]
      omega)
    (by simp only [List.length_nil, hqaf]; omega) (by simp) (by simp)
  simp only [scope_prefixes_pair, List.nil_append, List.length_nil, Nat.add_zero] at hnn
  have hname := name_nested_run (j + 4) rfl h hnn
  have hat1 : At (⟨true, qualified [a, f], sz, m,
      k + 1 + (([a, f].map source_code).flatten).length + 1, 0, tc, [], 0, pb0, [a], ts⟩
      : Mangle) ('N' :: 'S' :: ([] ++ '_' :: (([A].map source_code).flatten ++ 'E' ::
        ('S' :: (['0'] ++ '_' :: []))))) := by
    have h1 := h.next
    have h2 := h1.moved ((([a, f].map source_code).flatten).length + 1)
      (by simp only [List.length_append, List.length_cons, List.nil_append]; omega)
    have e : ([] ++ (([a, f].map source_code).flatten ++ 'E' ::
        ('N' :: 'S' :: ([] ++ '_' :: (([A].map source_code).flatten ++ 'E' ::
          ('S' :: (['0'] ++ '_' :: []))))))).drop
        ((([a, f].map source_code).flatten).length + 1)
        = ('N' :: 'S' :: ([] ++ '_' :: (([A].map source_code).flatten ++ 'E' ::
          ('S' :: (['0'] ++ '_' :: []))))) := by
      rw [List.nil_append, ← List.drop_drop, List.drop_left]
      rfl
    rw [e] at h2
    refine ⟨?_, ?_⟩
    · have := h2.1; simp only [Mangle.setMpos] at this ⊢; omega
    · have := h2.2; simp only [Mangle.setMpos] at this ⊢
      rw [← this]; congr 1
  -- the first parameter
  have hsi : seq_index [] = 0 := by decide
  have hty1 := nested_name_subst_run (j + 1)
    ⟨true, qualified [a, f] ++ "(".toList, sz, m,
      k + 1 + (([a, f].map source_code).flatten).length + 1, 1, tc, [], 0,
      pb0.set 0 (some (qualified [a, f] ++ "(".toList).length), [a], ts⟩ [] [A]
    ('S' :: (['0'] ++ '_' :: [])) rfl rfl ⟨hat1.1, hat1.2⟩ (by simp)
    (by simp [hsi]) (by simp)
    (by
      intro x hx
      simp only [List.mem_singleton] at hx
      rw [hx]; exact hA)
    (by simp only [hL2, List.length_cons, List.length_append, List.length_nil]; omega)
    (by
      simp only [hsi, List.getD_cons_zero, hqaA, List.length_append, hqaf]
      have : ("(".toList).length = 1 := rfl
      omega)
    (by simp) (by simp)
  simp only [hsi, List.getD_cons_zero, List.length_cons, List.length_nil, Nat.zero_add,
    Nat.sub_self, List.range_zero, List.map_nil, List.append_nil, List.singleton_append]
    at hty1
  have hdisp := type_nested_dispatch (j + 3)
    (s := ⟨true, qualified [a, f] ++ "(".toList, sz, m,
      k + 1 + (([a, f].map source_code).flatten).length + 1, 1, tc, [], 0,
      pb0.set 0 (some (qualified [a, f] ++ "(".toList).length), [a], ts⟩) rfl
    ⟨hat1.1, hat1.2⟩
  rw [hty1] at hdisp
  have hstep1 := function_encoding_loop_step (j + 4) 0
    (s := ⟨true, qualified [a, f] ++ "(".toList, sz, m,
      k + 1 + (([a, f].map source_code).flatten).length + 1, 1, tc, [], 0, pb0, [a], ts⟩)
    rfl ⟨hat1.1, hat1.2⟩ (by decide) rfl
    (by
      have : ("(".toList).length = 1 := rfl
      simp only [List.length_append, hqaf, this]; omega)
    (by
      simp only [gt_iff_lt, lt_self_iff_false, if_false, List.append_nil]
      exact hdisp)
    (by
      intro hcon
      have h2 := hcon.2
      simp only at h2
      rw [List.drop_left, qualified_pair] at h2
      have hm : ':' ∈ a ++ "::".toList ++ A := by simp [String.toList]
      rw [h2] at hm
      exact absurd hm (by decide))
  -- the second parameter
  have hat2 : At (⟨true, qualified [a, f] ++ "(".toList ++ qualified [a, A], sz, m,
      k + 1 + (([a, f].map source_code).flatten).length + 1 + 1 + (0 + 2) +
        (([A].map source_code).flatten).length + 1, 1, tc, [], 0,
      pb0.set 0 (some (qualified [a, f] ++ "(".toList).length), [a, qualified [a, A]], ts⟩
      : Mangle) ('S' :: (['0'] ++ '_' :: [])) := by
    have h2 := hat1.moved (1 + (0 + 2) + (([A].map source_code).flatten).length + 1)
      (by simp only [List.length_append, List.length_cons, List.nil_append]; omega)
    have e : ('N' :: 'S' :: ([] ++ '_' :: (([A].map source_code).flatten ++ 'E' ::
          ('S' :: (['0'] ++ '_' :: []))))).drop
        (1 + (0 + 2) + (([A].map source_code).flatten).length + 1)
        = 'S' :: (['0'] ++ '_' :: []) := by
      have : 1 + (0 + 2) + (([A].map source_code).flatten).length + 1
          = ((([A].map source_code).flatten).length + 1) + 1 + 1 + 1 := by omega
      rw [this, List.drop_succ_cons, List.drop_succ_cons, List.nil_append, List.drop_succ_cons,
        ← List.drop_drop, List.drop_left]
      rfl
    rw [e] at h2
    refine ⟨?_, ?_⟩
    · have := h2.1; simp only [Mangle.setMpos] at this ⊢; omega
    · have := h2.2; simp only [Mangle.setMpos] at this ⊢
      rw [← this]; congr 1; omega
  have hs1 : seq_index ['0'] = 1 := by decide
  have hty2 := type_substitution_run (j + 1)
    (s := ⟨true, qualified [a, f] ++ "(".toList ++ qualified [a, A] ++ ",".toList, sz, m,
      k + 1 + (([a, f].map source_code).flatten).length + 1 + 1 + (0 + 2) +
        (([A].map source_code).flatten).length + 1, 1, tc, [], 0,
      (pb0.set 0 (some (qualified [a, f] ++ "(".toList).length)).set 0
        (some (qualified [a, f] ++ "(".toList ++ qualified [a, A]).length),
      [a, qualified [a, A]], ts⟩)
    ['0'] [] rfl ⟨hat2.1, hat2.2⟩ (by decide) (by simp [hs1]) (by decide)
    (by
      have h1 : ("(".toList).length = 1 := rfl
      have h3 : (",".toList).length = 1 := rfl
      simp only [hs1, List.getD_cons_succ, List.getD_cons_zero, List.length_append, hqaf, hqaA,
        h1, h3]
      omega)
  simp only [hs1, List.getD_cons_succ, List.getD_cons_zero] at hty2
  have hstep2 := function_encoding_loop_step (j + 3) 1
    (s := ⟨true, qualified [a, f] ++ "(".toList ++ qualified [a, A], sz, m,
      k + 1 + (([a, f].map source_code).flatten).length + 1 + 1 + (0 + 2) +
        (([A].map source_code).flatten).length + 1, 1, tc, [], 0,
      pb0.set 0 (some (qualified [a, f] ++ "(".toList).length), [a, qualified [a, A]], ts⟩)
    rfl hat2 (by decide) rfl
    (by
      have h1 : ("(".toList).length = 1 := rfl
      simp only [List.length_append, hqaf, hqaA, h1]; omega)
    (by
      simp only [Nat.lt_add_one, gt_iff_lt, if_true]
      exact hty2)
    (by intro hcon; exact absurd hcon.1 (by decide))
  have hat3 : At (⟨true, qualified [a, f] ++ "(".toList ++ qualified [a, A] ++ ",".toList ++
      qualified [a, A], sz, m,
      k + 1 + (([a, f].map source_code).flatten).length + 1 + 1 + (0 + 2) +
        (([A].map source_code).flatten).length + 1 + (['0'].length + 2), 1, tc, [], 0,
      (pb0.set 0 (some (qualified [a, f] ++ "(".toList).length)).set 0
        (some (qualified [a, f] ++ "(".toList ++ qualified [a, A]).length),
      [a, qualified [a, A]], ts⟩ : Mangle) [] := by
    have := hat2.moved (['0'].length + 2) (by simp)
    exact ⟨this.1, this.2⟩
  have hend := function_encoding_loop_end (j + 2) 2 hat3
  have hloop := hstep1.trans (hstep2.trans hend)
  have hlast : (pchar (qualified [a, f]) ((qualified [a, f]).length - 1) == '>') = false := by
    have := (pchar_last_ident (a ++ "::".toList) f hf).1
    rw [qualified_pair]
    exact this
  have hne : qualified [a, f] ≠ [] := by
    intro e
    have := congrArg List.length e
    rw [hqaf] at this
    simp at this
  have hfr := function_encoding_frame (j + 5) hname rfl rfl hat1 (by decide) hne hlast
    (by simp only [hqaf]; omega) hloop rfl rfl (Or.inl rfl)
    (by
      have h1 : ("(".toList).length = 1 := rfl
      have h3 : (",".toList).length = 1 := rfl
      simp only [List.length_append, hqaf, hqaA, h1, h3, if_true]
      omega)
  refine ⟨_, hfr, rfl, ?_⟩
  simp only [if_true, List.append_nil, qualified_pair, List.append_assoc]

/-- C19: in a nested name at nesting level zero that consists of two or more source names
`p1 ... pk` between `N` and `E`, `_nested_name` writes `p1::...::pk` and adds to the
substitution table exactly the proper prefixes `p1`, `p1::p2`, ..., `p1::...::p(k-1)`, in
this order; the complete name is not added.  Hence, for C identifiers `a`, `f`, `A`,
`demangle` on `_ZN`, the source names `a` and `f`, `ENS_`, the source name `A` and `ES0_`
returns true with `a::f(a::A,a::A)`: `S_` is `a` and `S0_` is `a::A`.  The text is taken to
fit the buffer, the table to have room, the input to be shorter than the range of `int`
and the step budget to cover the components. -/
theorem nested_prefixes_recorded :
    (∀ (fuel : Nat) (s : Mangle) (ws : List (List Char)) (r : List Char),
        s.valid = true → s.nest = 0 →
        At s ('N' :: ((ws.map source_code).flatten ++ 'E' :: r)) →
        (∀ w ∈ ws, is_identifier w = true) → 2 ≤ ws.length →
        ((ws.map source_code).flatten).length + 1 + r.length < 2147483647 →
        s.plain.length + (qualified ws).length < s.size →
        s.substitions.length + ws.length ≤ 20 →
        ws.length + 1 ≤ fuel →
        ∃ t, _nested_name fuel s = Res.ok ((), t) ∧ t.valid = true ∧
          t.plain = s.plain ++ qualified ws ∧
          t.substitions = s.substitions ++ scope_prefixes ws) ∧
    (∀ (fuel : Nat) (plain : List Char) (size : Nat) (a f A : List Char),
        is_identifier a = true → is_identifier f = true → is_identifier A = true →
        (source_code a ++ source_code f ++ source_code A).length < 2147483600 →
        (a ++ "::".toList ++ f ++ "(".toList ++ (a ++ "::".toList ++ A) ++ ",".toList
          ++ (a ++ "::".toList ++ A) ++ ")".toList).length < size →
        6 ≤ fuel →
        demangle fuel plain size
            ("_ZN".toList ++ source_code a ++ source_code f ++ "ENS_".toList ++ source_code A
              ++ "ES0_".toList)
          = Res.ok (true, a ++ "::".toList ++ f ++ "(".toList ++ (a ++ "::".toList ++ A)
              ++ ",".toList ++ (a ++ "::".toList ++ A) ++ ")".toList)) := by
  constructor
  · intro fuel s ws r hv hn h hws hk hlen hfit hroom hfuel
    obtain ⟨w, rest, rfl⟩ : ∃ w rest, ws = w :: rest := by
      cases ws with
      | nil => simp at hk
      | cons w rest => exact ⟨w, rest, rfl⟩
    have hrest : rest ≠ [] := by
      intro e; rw [e] at hk; simp at hk
    obtain ⟨g, rfl⟩ : ∃ g, fuel = g + 2 := ⟨fuel - 2, by simp at hfuel; omega⟩
    have hrun := nested_name_run g s [] w rest r (Or.inl rfl) hv hn
      (by simpa using h) hws hrest hlen hfit hroom
      (by simp only [List.length_cons] at hfuel; omega)
    exact ⟨_, hrun, hv, rfl, rfl⟩
  · intro fuel plain size a f A ha hf hA hlen hsize hfuel
    obtain ⟨j, rfl⟩ : ∃ j, fuel = j + 6 := ⟨fuel - 6, by omega⟩
    have e1 : "_ZN".toList ++ source_code a ++ source_code f ++ "ENS_".toList ++ source_code A
          ++ "ES0_".toList
        = "_Z".toList ++ ('N' :: ([] ++ (([a, f].map source_code).flatten ++ 'E' ::
          ('N' :: 'S' :: ([] ++ '_' :: (([A].map source_code).flatten ++ 'E' ::
            ('S' :: (['0'] ++ '_' :: [])))))))) := by
      simp [String.toList]
    have hat := initial_at size ('N' :: ([] ++ (([a, f].map source_code).flatten ++ 'E' ::
      ('N' :: 'S' :: ([] ++ '_' :: (([A].map source_code).flatten ++ 'E' ::
        ('S' :: (['0'] ++ '_' :: []))))))))
    obtain ⟨t, ht, htv, htp⟩ := nested_params_run j _ a f A rfl rfl rfl rfl rfl hat ha hf hA
      hlen
      (by
        simp only [String.toList, List.length_append, List.length_cons, List.length_nil]
          at hsize
        simp only [initial]
        omega)
    have henc := encoding_plain_run (j + 6) _ 'N' _ rfl hat (by decide)
    rw [ht] at henc
    have hd := demangle_of_encoding (j + 6) plain size _ t (by omega)
      (by
        intro c hc
        simp only [List.map_cons, List.map_nil, List.flatten_cons, List.flatten_nil,
          List.append_nil, List.nil_append, List.mem_cons, List.mem_append,
          List.mem_singleton, List.not_mem_nil, or_false] at hc
        rcases hc with e | (hc | hc) | e | e | e | e | hc | e | e | e | e
        · rw [e]; decide
        · exact source_code_no_nul a ha c hc
        · exact source_code_no_nul f hf c hc
        · rw [e]; decide
        · rw [e]; decide
        · rw [e]; decide
        · rw [e]; decide
        · exact source_code_no_nul A hA c hc
        · rw [e]; decide
        · rw [e]; decide
        · rw [e]; decide
        · rw [e]; decide) henc
    rw [e1, hd, htv, htp]

theorem nested_prefixes_recorded_witness :
    (∃ t, _nested_name 20 (initial 256 "_ZN1a3fooENS_1AES0_".toList) = Res.ok ((), t) ∧
        t.valid = true ∧ t.plain = "a::foo".toList ∧ t.substitions = ["a".toList]) ∧
      demangle 20 [] 256 "_ZN1a3fooENS_1AES0_".toList
        = Res.ok (true, "a::foo(a::A,a::A)".toList) :=
  ⟨nested_prefixes_recorded.1 20 (initial 256 "_ZN1a3fooENS_1AES0_".toList)
      ["a".toList, "foo".toList] "NS_1AES0_".toList rfl rfl ⟨by decide, rfl⟩ (by decide)
      (by decide) (by decide) (by decide) (by decide) (by decide),
    nested_prefixes_recorded.2 20 [] 256 "a".toList "foo".toList "A".toList (by decide)
      (by decide) (by decide) (by decide) (by decide) (by decide)⟩

/-! ## A function template with one builtin argument -/

/-- Run of the loop of `_template_args` on one builtin code and the closing `E`: the name
of the type is written and recorded as a template parameter. -/
theorem template_args_loop_single (fuel : Nat) {s : Mangle} {a : Char} {r nm : List Char}
    (hv : s.valid = true) (h : At s (a :: 'E' :: r)) (ha : builtin_name a = some nm)
    (hfit : s.plain.length + nm.length < s.size)
    (h1 : s.tpl_subst.length < 10) (h2 : s.substitions.length < 10) :
    template_args_loop (fuel + 2) 0 s = Res.ok ((), { s with
      plain := s.plain ++ nm, mpos := s.mpos + 2, tpl_subst := s.tpl_subst ++ [nm] }) := by
  obtain ⟨-, -, -, nE, -, -⟩ := builtin_name_not_special a nm ha
  obtain ⟨v, p, sz, m, k, n, tc, q, fn, pb0, ss, ts⟩ := s
  simp only at hv hfit h1 h2
  subst hv
  have mE := h.run_match_false rfl "E" (isPrefixOf_cons_ne _ _ _ _ (Ne.symm nE))
  have hty := type_builtin_run fuel (s := ⟨true, p, sz, m, k, n, tc, q, fn, pb0, ss, ts⟩)
    rfl h ha hfit
  simp only at hty
  have htp := run_add_template_at
    (⟨true, p ++ nm, sz, m, k + 1, n, tc, q, fn, pb0, ss, ts⟩ : Mangle) p.length rfl h1 h2
  simp only [List.drop_left] at htp
  have hat2 : At (⟨true, p ++ nm, sz, m, k + 1, n, tc, q, fn, pb0, ss, ts ++ [nm]⟩ : Mangle)
      ('E' :: r) := ⟨h.next.1, h.next.2⟩
  have mE2 := hat2.run_match_true rfl "E" (isPrefixOf_single _ _)
  have hEl : "E".length = 1 := rfl
  have h00 : ¬ (0 > 0) := by decide
  rw [template_args_loop]
  simp only [run_bind, run_getS, andThen_ok, if_true, mE, Bool.false_eq_true, if_false, h00,
    run_pure, current_position, hty, htp]
  rw [template_args_loop]
  simp only [run_bind, run_getS, andThen_ok, if_true, mE2, run_pure, Mangle.setMpos, hEl]

/-- Run of `_template_args` on `I`, one builtin code and `E`, when no template parameter
was recorded before. -/
theorem template_args_single (fuel : Nat) {s : Mangle} {a : Char} {r nm : List Char}
    (hv : s.valid = true) (h : At s ('I' :: a :: 'E' :: r)) (ha : builtin_name a = some nm)
    (hfit : s.plain.length + nm.length + 2 < s.size)
    (h1 : s.tpl_subst = []) (h2 : s.substitions.length < 10) :
    _template_args (fuel + 3) s = Res.ok ((), { s with
      plain := s.plain ++ ("<".toList ++ nm ++ ">".toList), mpos := s.mpos + 3,
      tpl_subst := [nm] }) := by
  obtain ⟨v, p, sz, m, k, n, tc, q, fn, pb0, ss, ts⟩ := s
  simp only at hv hfit h1 h2
  subst hv h1
  have mI := h.run_match_true rfl "I" (isPrefixOf_single _ _)
  have hIl : "I".length = 1 := rfl
  have hlt : ("<".toList).length = 1 := rfl
  have hap1 : (⟨true, p, sz, m, k + 1, n, tc, q, fn, pb0, ss, []⟩ : Mangle).append "<".toList
      = ⟨true, p ++ "<".toList, sz, m, k + 1, n, tc, q, fn, pb0, ss, []⟩ := by
    rw [Mangle.append_fits _ _ rfl (by simp only [hlt]; omega)]
  have hloop := template_args_loop_single fuel
    (s := ⟨true, p ++ "<".toList, sz, m, k + 1, n, tc, q, fn, pb0, ss, []⟩)
    rfl ⟨h.next.1, h.next.2⟩ ha (by simp only [List.length_append, hlt]; omega)
    (by simp) h2
  simp only at hloop
  have hap2 : (⟨true, p ++ "<".toList ++ nm, sz, m, k + 1 + 2, n, tc, q, fn, pb0, ss,
      [] ++ [nm]⟩ : Mangle).append ">".toList
      = ⟨true, p ++ "<".toList ++ nm ++ ">".toList, sz, m, k + 1 + 2, n, tc, q, fn, pb0, ss,
        [] ++ [nm]⟩ := by
    rw [Mangle.append_fits _ _ rfl (by
      have : (">".toList).length = 1 := rfl
      simp only [List.length_append, hlt, this]; omega)]
  have h00 : ¬ (([] : List (List Char)).length > 0) := by simp
  rw [_template_args]
  simp only [run_bind, mI, andThen_ok, if_true, run_getS, Demangle.append, run_modifyS,
    Mangle.setMpos, hIl, hap1, hloop, hap2, h00, if_false, run_pure]
  simp only [List.nil_append, List.append_assoc]

/-- Run of `_name` on a source name followed by template arguments with one builtin code:
the name is recorded as a substitution and the argument as a template parameter. -/
theorem name_template_run (fuel : Nat) {s : Mangle} (w r : List Char) (a : Char)
    (nm : List Char) (hv : s.valid = true)
    (h : At s (Nat.toDigits 10 w.length ++ (w ++ 'I' :: a :: 'E' :: r)))
    (hw : is_identifier w = true) (ha : builtin_name a = some nm)
    (hlen : w.length + 3 + r.length < 2147483647)
    (hfit : s.plain.length + w.length + nm.length + 2 < s.size)
    (h1 : s.tpl_subst = []) (h2 : s.substitions.length < 9) :
    _name (fuel + 4) s = Res.ok ((), { s with
      plain := s.plain ++ w ++ ("<".toList ++ nm ++ ">".toList),
      mpos := s.mpos + (Nat.toDigits 10 w.length).length + w.length + 3,
      substitions := s.substitions ++ [w],
      tpl_subst := [nm] }) := by
  obtain ⟨hne, hall, hval⟩ := toDigits_spec w.length
  obtain ⟨d, ds, hd⟩ := List.exists_cons_of_ne_nil hne
  have hdd : isdigit d = true := hall d (by rw [hd]; exact List.mem_cons_self _ _)
  have h' : At s (d :: (ds ++ (w ++ 'I' :: a :: 'E' :: r))) := by rw [hd] at h; exact h
  have ne := fun (k : Char) (hk : isdigit k = false) => digit_ne_of_not_digit hdd k hk
  have pN := h'.run_peek_ne hv 'N' [] (ne _ (by decide))
  have pZ := h'.run_peek_ne hv 'Z' [] (ne _ (by decide))
  have pS := h'.run_peek_substitution_ne hv (Ne.symm (ne _ (by decide)))
  have pC : peek_ctor_dtor s = Res.ok (false, s) := by
    have hC := ne 'C' (by decide)
    have hD := ne 'D' (by decide)
    simp only [peek_ctor_dtor, run_bind, run_getS, andThen_ok, hv, if_true, h'.run_rest,
      run_pure]
    congr 2
    simp [List.isPrefixOf, hC, hD]
  have hl0 : look 0 s = Res.ok (d, s) := by rw [h'.run_look0]; rfl
  have hsn := source_name_run w ('I' :: a :: 'E' :: r) hv h (identifier_head _ _ hw)
    (by simp only [List.length_append, List.length_cons]; omega) (by omega)
  obtain ⟨v, p, sz, m, k, n, tc, q, fn, pb0, ss, ts⟩ := s
  simp only at hv hfit h1 h2 hsn pN pZ pS pC hl0
  subst hv h1
  have hat : At (⟨true, p ++ w, sz, m, k + (Nat.toDigits 10 w.length).length + w.length, n,
      tc, q, fn, pb0, ss, []⟩ : Mangle) ('I' :: a :: 'E' :: r) := by
    have := At.after_source (w := w) (r := 'I' :: a :: 'E' :: r)
      (by simpa [source_code] using h) (p ++ w)
    exact ⟨this.1, this.2⟩
  have pI : peek "I" (⟨true, p ++ w, sz, m, k + (Nat.toDigits 10 w.length).length + w.length,
      n, tc, q, fn, pb0, ss, []⟩ : Mangle) = Res.ok (true, ⟨true, p ++ w, sz, m,
      k + (Nat.toDigits 10 w.length).length + w.length, n, tc, q, fn, pb0, ss, []⟩) := by
    rw [hat.run_peek rfl]; congr 2
  have hsub := run_add_substitution_at (⟨true, p ++ w, sz, m,
      k + (Nat.toDigits 10 w.length).length + w.length, n, tc, q, fn, pb0, ss, []⟩ : Mangle)
      p.length rfl (by simp only; omega)
  simp only [List.drop_left] at hsub
  have hta := template_args_single fuel (s := ⟨true, p ++ w, sz, m,
      k + (Nat.toDigits 10 w.length).length + w.length, n, tc, q, fn, pb0, ss ++ [w], []⟩)
    rfl ⟨hat.1, hat.2⟩ ha (by simp only [List.length_append]; omega) rfl
    (by simp only [List.length_append, List.length_cons, List.length_nil]; omega)
  simp only at hta
  rw [_name]
  simp only [run_bind, current_position, run_getS, andThen_ok, run_pure, if_true,
    pN, pZ, h'.run_is_abbreviation_digit hdd, pS, h'.run_is_operator_digit hdd, pC, hl0, hdd,
    hsn, pI, hsub, hta, Bool.false_eq_true, if_false, Option.isSome_none, reduceCtorEq, run_ite]

/-- Run of `_function_encoding` around its parameter loop for a name that ends in template
arguments and a builtin return type: the return type is parsed behind the name, erased,
and inserted with a space in front of the name when the parameter list is closed. -/
theorem function_encoding_ret_frame (fuel : Nat) {s t u : Mangle} {c : Char}
    {r nm : List Char}
    (hname : _name (fuel + 1) s = Res.ok ((), t)) (htv : t.valid = true) (htn : t.nest = 0)
    (htc : t.is_typecast_op = false)
    (hat : At t (c :: r)) (hc : builtin_name c = some nm)
    (hne : t.plain ≠ []) (hlast : (pchar t.plain (t.plain.length - 1) == '>') = true)
    (hfit1 : t.plain.length + nm.length < t.size) (hfit1b : t.plain.length + 1 < t.size)
    (hloop : function_encoding_loop (fuel + 1) 0 { t with
      plain := t.plain ++ "(".toList, mpos := t.mpos + 1, nest := 1 } = Res.ok ((), u))
    (huv : u.valid = true) (hun : u.nest = 1) (hq : u.qualifiers = [])
    (hfit2 : u.plain.length + 1 + nm.length + 1 < u.size) :
    _function_encoding (fuel + 2) s = Res.ok ((), { u with
      nest := 0, plain := nm ++ " ".toList ++ (u.plain ++ ")".toList) }) := by
  obtain ⟨n1, n2, n3, -, -, -⟩ := builtin_name_not_special c nm hc
  have hos := hat.run_on_sentinel_false htv n1 n2 n3
  obtain ⟨v, p, sz, m, k, n, tc, q, fn, pb0, ss, ts⟩ := t
  obtain ⟨v2, p2, sz2, m2, k2, n2', tc2, q2, fn2, pb2, ss2, ts2⟩ := u
  simp only at htv htn htc hne hlast hfit1 hfit1b hloop huv hun hq hfit2 hos
  subst htv htn htc huv hun hq
  have hz : ¬ ((0 : Int) > 0) := by decide
  have hnl : ¬ (p.length = 0) := by
    intro e; exact hne (List.length_eq_zero.mp e)
  have hs1 : toShort (0 + 1) = 1 := by decide
  have hs0 : toShort (1 + -1) = 0 := by decide
  have hp1 : ("(".toList).length = 1 := rfl
  have hty := type_builtin_run fuel (s := ⟨true, p, sz, m, k, 1, false, q, fn, pb0, ss, ts⟩)
    rfl ⟨hat.1, hat.2⟩ hc hfit1
  simp only at hty
  have hip := insertion_point_builtin
    (⟨true, p ++ nm, sz, m, k + 1, 1, false, q, fn, pb0, ss, ts⟩ : Mangle) p nm c rfl rfl hc
  simp only at hip
  have hap1 : ((⟨true, (p ++ nm).take p.length, sz, m, k + 1, 1, false, q, fn, pb0, ss, ts⟩
      : Mangle).append "(".toList)
      = ⟨true, p ++ "(".toList, sz, m, k + 1, 1, false, q, fn, pb0, ss, ts⟩ := by
    rw [Mangle.append_fits _ _ rfl (by
      simp only [List.take_left, hp1]; omega)]
    simp only [List.take_left]
  have hap2 : ((⟨true, p2, sz2, m2, k2, 0, tc2, [], fn2, pb2, ss2, ts2⟩ : Mangle).append
      ")".toList)
      = ⟨true, p2 ++ ")".toList, sz2, m2, k2, 0, tc2, [], fn2, pb2, ss2, ts2⟩ := by
    rw [Mangle.append_fits _ _ rfl (by
      simp only [String.toList]; simp only [List.length_cons, List.length_nil]; omega)]
  have hlen1 : (p2 ++ ")".toList).length = p2.length + 1 := by
    simp only [List.length_append, String.toList]; rfl
  have hins := run_insert
    (⟨true, p2 ++ ")".toList, sz2, m2, k2, 0, tc2, [], fn2, pb2, ss2, ts2⟩ : Mangle) 0
    (nm ++ " ".toList) rfl (Nat.zero_le _) (by simp [String.toList])
    (by
      show (p2 ++ ")".toList).length + (nm ++ " ".toList).length < sz2
      rw [hlen1]
      simp only [List.length_append, String.toList]; simp only [List.length_cons,
        List.length_nil]; omega)
  simp only [List.take_zero, List.drop_zero, List.nil_append] at hins
  rw [_function_encoding]
  simp only [run_bind, hname, andThen_ok, hos, run_getS, Bool.false_eq_true, if_false, hz,
    run_pure, hnl, add_nest, run_modifyS, Mangle.setNest, hlast, Bool.not_false,
    Bool.and_self, if_true, current_position, hs1, hty, text_at, List.drop_left, hip,
    truncate, Mangle.truncate, Demangle.append, hap1, hloop, hs0, hap2,
    run_qualifier_post_nil, List.length_append, Nat.add_sub_cancel_left, run_cassert,
    Nat.le_refl, decide_True, hins]

/-- Run of `_function_encoding` on the function template `f` with one builtin template
argument, a builtin return type and one builtin parameter. -/
theorem template_function_run (g : Nat) (s : Mangle) (a rt pc : Char) (A R P : List Char)
    (hv : s.valid = true) (hp : s.plain = []) (hn : s.nest = 0) (hfn : s.func_nest = 0)
    (htc : s.is_typecast_op = false) (hq : s.qualifiers = []) (hss : s.substitions = [])
    (hts : s.tpl_subst = [])
    (h : At s (Nat.toDigits 10 "f".toList.length ++
      ("f".toList ++ 'I' :: a :: 'E' :: rt :: [pc])))
    (ha : builtin_name a = some A) (hr : builtin_name rt = some R)
    (hpc : builtin_name pc = some P)
    (hfit : R.length + A.length + P.length + 6 < s.size) :
    ∃ t, _function_encoding (g + 5) s = Res.ok ((), t) ∧ t.valid = true ∧
      t.plain = R ++ " ".toList ++ ("f".toList ++ ("<".toList ++ A ++ ">".toList) ++
        "(".toList ++ (if pc = 'v' then [] else P) ++ ")".toList) := by
  obtain ⟨v, p, sz, m, k, n, tc, q0, fn, pb0, ss, ts⟩ := s
  simp only at hv hp hn hfn htc hq hss hts hfit
  subst hv hp hn hfn htc hq hss hts
  have hl1 : ("<".toList).length = 1 := rfl
  have hl2 : (">".toList).length = 1 := rfl
  have hl3 : ("f".toList).length = 1 := rfl
  have hl4 : ("(".toList).length = 1 := rfl
  have hname := name_template_run g
    (s := ⟨true, [], sz, m, k, 0, false, [], 0, pb0, [], []⟩) "f".toList (rt :: [pc]) a A rfl h
    (by decide) ha (by simp only [hl3, List.length_cons, List.length_nil]; omega)
    (by simp only [List.length_nil, hl3]; omega) rfl (by simp)
  simp only at hname
  have hat1 : At (⟨true, [] ++ "f".toList ++ ("<".toList ++ A ++ ">".toList), sz, m,
      k + (Nat.toDigits 10 "f".toList.length).length + "f".toList.length + 3, 0, false, [], 0,
      pb0, [] ++ ["f".toList], [A]⟩ : Mangle) (rt :: [pc]) := by
    have h1 := At.after_source (w := "f".toList) (r := 'I' :: a :: 'E' :: rt :: [pc])
      (by simpa [source_code] using h) ([] ++ "f".toList ++ ("<".toList ++ A ++ ">".toList))
    have h2 := h1.moved 3 (by simp)
    exact ⟨h2.1, h2.2⟩
  have hsp : (params_text 0 [pc]).length = P.length := by
    simp [params_text, hpc]
  obtain ⟨pb, hloop⟩ := function_encoding_loop_top [pc] (g + 4)
    ⟨true, [] ++ "f".toList ++ ("<".toList ++ A ++ ">".toList) ++ "(".toList, sz, m,
      k + (Nat.toDigits 10 "f".toList.length).length + "f".toList.length + 3 + 1, 1, false, [],
      0, pb0, [] ++ ["f".toList], [A]⟩
    (by simp) rfl ⟨hat1.next.1, hat1.next.2⟩ rfl
    (by
      intro x hx
      simp only [List.mem_singleton] at hx
      rw [hx, hpc]; rfl)
    (by simp)
    (by
      rw [hsp]
      simp only [List.length_append, List.length_nil, hl1, hl2, hl3, hl4]
      omega)
  simp only at hloop
  have hsl := shown_params_le [pc]
  rw [hsp] at hsl
  have hlast : (pchar ([] ++ "f".toList ++ ("<".toList ++ A ++ ">".toList))
      (([] ++ "f".toList ++ ("<".toList ++ A ++ ">".toList)).length - 1) == '>') = true := by
    have e : [] ++ "f".toList ++ ("<".toList ++ A ++ ">".toList)
        = ("f".toList ++ "<".toList ++ A) ++ ">".toList := by
      simp only [List.nil_append, List.append_assoc]
    rw [e]
    have e2 : (("f".toList ++ "<".toList ++ A) ++ ">".toList).length - 1
        = ("f".toList ++ "<".toList ++ A).length + 0 := by
      simp only [List.length_append, hl2]; omega
    rw [e2, pchar_append_right]
    rfl
  have hfr := function_encoding_ret_frame (g + 3) hname rfl rfl rfl hat1 hr
    (by simp [String.toList]) hlast
    (by simp only [List.length_append, List.length_nil, hl1, hl2, hl3]; omega)
    (by simp only [List.length_append, List.length_nil, hl1, hl2, hl3]; omega)
    hloop rfl rfl rfl
    (by
      simp only [List.length_append, List.length_nil, hl1, hl2, hl3, hl4]
      omega)
  refine ⟨_, hfr, rfl, ?_⟩
  have hsh : shown_params [pc] = (if pc = 'v' then [] else P) := by
    unfold shown_params
    by_cases hv : pc = 'v'
    · simp [hv]
    · have : ¬ ([pc] = ['v']) := by simpa using hv
      rw [if_neg this, if_neg hv]
      simp [params_text, hpc]
  simp only [hsh, List.nil_append, List.append_assoc]

/-- C14 (counterexample): for the codes `i`, `i`, `v` the parameter list of the output is
empty, it is not the name `void` of the code `v`. -/
theorem template_lone_void_parameter :
    demangle 20 [] 256 "_Z1fIiEiv".toList = Res.ok (true, "int f<int>()".toList) ∧
      builtin_name 'v' = some "void".toList := by
  decide

/-! ## The insertion point in the text of a function type -/

/-- The loop of `insertion_point` on a text without `*` behind `base`: no parenthesis is
followed by a pointer decorator, so the mark stays where it is. -/
theorem insertion_loop_no_star (txt : List Char) (base : Nat)
    (hns : ∀ i, base ≤ i → pchar txt i ≠ '*') (n : Nat) :
    insertion_loop txt (n + 1) base base 0 = (base, base) := by
  have hge := skip_to_paren_ge txt (txt.length + 2) (base + 0)
  have haux : ∀ i, base ≤ i → (pchar txt i != '*') = true := by
    intro i hi
    exact bne_iff_ne.mpr (hns i hi)
  rw [insertion_loop]
  simp only
  split
  · rfl
  · rw [if_pos (haux _ (by
      split_ifs <;> (try simp only [skip_stars]) <;> omega))]

/-- The backward scan of `find_matching` from a `)` over a text without parentheses to the
`(` in front of it. -/
theorem find_matching_scan_back (x y : List Char)
    (hy : ∀ c ∈ y, c ≠ '(' ∧ c ≠ ')') : ∀ (k n : Nat), k ≤ y.length → k + 1 ≤ n →
    find_matching_scan (x ++ '(' :: (y ++ [')'])) ')' '(' false 0 n (x.length + 1 + k) 0
      = x.length := by
  have hpos : ∀ k, k ≤ y.length →
      pchar (x ++ '(' :: (y ++ [')'])) (x.length + 1 + k) ≠ '(' := by
    intro k hk
    rw [Nat.add_assoc, pchar_append_right]
    unfold pchar
    rw [Nat.add_comm 1 k, List.getD_cons_succ]
    by_cases hlt : k < y.length
    · rw [List.getD_eq_getElem _ _ (by simp; omega), List.getElem_append_left hlt]
      exact (hy _ (List.getElem_mem _)).1
    · have : k = y.length := by omega
      rw [this, List.getD_eq_getElem _ _ (by simp), List.getElem_append_right (by omega)]
      simp
  have hopen : pchar (x ++ '(' :: (y ++ [')'])) x.length = '(' := by
    have := pchar_append_right x ('(' :: (y ++ [')'])) 0
    rw [Nat.add_zero] at this
    rw [this]; rfl
  intro k
  induction k with
  | zero =>
    intro n _ hn
    obtain ⟨n', rfl⟩ : ∃ n', n = n' + 1 := ⟨n - 1, by omega⟩
    rw [find_matching_scan]
    have h1 := hpos 0 (Nat.zero_le _)
    simp only [Nat.add_zero] at h1 ⊢
    have hc : ((x.length + 1 != 0) &&
        (pchar (x ++ '(' :: (y ++ [')'])) (x.length + 1) != '(' || decide ((0 : Int) > 0)))
        = true := by
      simp [h1]
    rw [if_pos hc]
    simp only [Bool.false_eq_true, if_false, Nat.add_sub_cancel, hopen]
    have e1 : (('(' : Char) == ')') = false := by decide
    simp only [e1, Bool.false_eq_true, if_false, beq_self_eq_true, if_true]
    cases n' with
    | zero => rfl
    | succ n2 =>
      rw [find_matching_scan]
      have hc2 : ¬ (((x.length != 0) &&
          (pchar (x ++ '(' :: (y ++ [')'])) x.length != '(' || decide ((0 : Int) - 1 > 0)))
          = true) := by
        simp [hopen]
      rw [if_neg hc2]
  | succ k ih =>
    intro n hk hn
    obtain ⟨n', rfl⟩ : ∃ n', n = n' + 1 := ⟨n - 1, by omega⟩
    rw [find_matching_scan]
    have h1 := hpos (k + 1) hk
    have hc : ((x.length + 1 + (k + 1) != 0) &&
        (pchar (x ++ '(' :: (y ++ [')'])) (x.length + 1 + (k + 1)) != '(' ||
          decide ((0 : Int) > 0))) = true := by
      simp [h1]
    rw [if_pos hc]
    simp only [Bool.false_eq_true, if_false]
    have e : x.length + 1 + (k + 1) - 1 = x.length + 1 + k := by omega
    rw [e]
    have h2 := hpos k (by omega)
    have h3 : pchar (x ++ '(' :: (y ++ [')'])) (x.length + 1 + k) ≠ ')' := by
      rw [Nat.add_assoc, pchar_append_right]
      unfold pchar
      rw [Nat.add_comm 1 k, List.getD_cons_succ]
      rw [List.getD_eq_getElem _ _ (by simp; omega), List.getElem_append_left (by omega)]
      exact (hy _ (List.getElem_mem _)).2
    simp only [beq_eq_false_iff_ne.mpr h3, beq_eq_false_iff_ne.mpr h2, Bool.false_eq_true,
      if_false]
    exact ih n' (by omega) (by omega)

theorem name_char_spec (x : Char) (h : name_char x = true) :
    plain_char x = true ∧ x ≠ '*' ∧ x ≠ NUL ∧ x ≠ ':' ∧ x ≠ ',' := by
  have key : ∀ y : Char, name_char y = false → x ≠ y := by
    intro y hy e
    rw [e, hy] at h
    cases h
  have h1 := key '(' (by decide)
  have h2 := key ')' (by decide)
  have h3 := key '[' (by decide)
  have h4 := key ']' (by decide)
  have h5 := key '<' (by decide)
  have h6 := key '>' (by decide)
  refine ⟨?_, key _ (by decide), key _ (by decide), key _ (by decide), key _ (by decide)⟩
  simp [plain_char, h1, h2, h3, h4, h5, h6]

theorem types_names_chars :
    ∀ e ∈ types, e.1.toList.length = 1 → e.2.toList.all name_char = true := by
  decide

/-- The names of the one-letter builtin codes consist of letters, digits, underscores and
spaces. -/
theorem builtin_name_chars (c : Char) (nm : List Char) (h : builtin_name c = some nm) :
    ∀ x ∈ nm, name_char x = true := by
  obtain ⟨e, he, h1, h2⟩ := builtin_name_spec c nm h
  have := types_names_chars e he (by rw [h1]; rfl)
  rw [h2, List.all_eq_true] at this
  exact this

/-- For a text whose last character is neither `t` nor a space, `check_func_array` inspects
the last character. -/
theorem array_probe_end (x : List Char) (b : Char) (hb : b ≠ 't' ∧ b ≠ ' ') :
    array_probe (x ++ [b]) = (x ++ [b]).length - 1 := by
  have hnc : ((x ++ [b]).drop ((x ++ [b]).length - 1 - 4) == "const".toList) = false := by
    rw [beq_eq_false_iff_ne]
    intro e
    have h1 : (x ++ [b]) = (x ++ [b]).take ((x ++ [b]).length - 1 - 4)
        ++ ['c', 'o', 'n', 's'] ++ ['t'] := by
      conv_lhs => rw [← List.take_append_drop ((x ++ [b]).length - 1 - 4) (x ++ [b]), e]
      simp [String.toList]
    have h2 := List.append_inj' h1 rfl
    have h3 := h2.2
    simp only [List.cons.injEq, and_true] at h3
    exact hb.1 h3
  have hlast : pchar (x ++ [b]) ((x ++ [b]).length - 1) = b := by
    have : (x ++ [b]).length - 1 = x.length + 0 := by simp
    rw [this, pchar_append_right]; rfl
  unfold array_probe
  simp only [hnc, Bool.and_false, Bool.false_eq_true, if_false, hlast]
  have : (b == ' ') = false := beq_eq_false_iff_ne.mpr hb.2
  simp only [this, Bool.and_false, Bool.false_eq_true, if_false]

/-- Run of `find_matching` from the closing parenthesis of a parameter list without inner
parentheses: the match is the opening parenthesis. -/
theorem find_matching_back (s : Mangle) (x y : List Char)
    (hy : ∀ c ∈ y, c ≠ '(' ∧ c ≠ ')') :
    find_matching (x ++ '(' :: (y ++ [')'])) 0 ((x ++ '(' :: (y ++ [')'])).length - 1) ')' s
      = Res.ok (some x.length, s) := by
  have hlen : (x ++ '(' :: (y ++ [')'])).length - 1 = x.length + 1 + y.length := by
    simp only [List.length_append, List.length_cons, List.length_nil]; omega
  have hb : bracket ')' = some ('(', false) := by decide
  have hscan := find_matching_scan_back x y hy y.length (x.length + 1 + y.length - 0 + 1)
    (Nat.le_refl _) (by omega)
  have hopen : pchar (x ++ '(' :: (y ++ [')'])) x.length = '(' := by
    have := pchar_append_right x ('(' :: (y ++ [')'])) 0
    rw [Nat.add_zero] at this
    rw [this]; rfl
  rw [hlen]
  simp only [find_matching, run_bind, run_cassert, Nat.zero_le, decide_True, if_true,
    andThen_ok, hb, Bool.false_eq_true, if_false, hscan, hopen, beq_self_eq_true, run_pure]

/-- Run of `check_func_array` on a type name followed by a parameter list in parentheses:
the text is a function, and the result is the offset of its opening parenthesis. -/
theorem check_func_array_call (t : Mangle) (pre R y : List Char) (hv : t.valid = true)
    (hplain : t.plain = pre ++ R ++ '(' :: (y ++ [')'])) (hR : R ≠ [])
    (hRc : ∀ x ∈ R, name_char x = true) (hy : ∀ x ∈ y, name_char x = true) :
    check_func_array pre.length t = Res.ok (some (pre ++ R).length, t) := by
  have hRl : 0 < R.length := List.length_pos.mpr hR
  have hyp : ∀ c ∈ y, c ≠ '(' ∧ c ≠ ')' := by
    intro c hc
    have := plain_char_ne c (name_char_spec c (hy c hc)).1
    exact ⟨this.1, this.2.1⟩
  have htxt : pre ++ R ++ '(' :: (y ++ [')']) = (pre ++ R ++ '(' :: y) ++ [')'] := by
    simp only [List.append_assoc, List.cons_append]
  have hnz : ¬ ((pre ++ R ++ '(' :: (y ++ [')'])).length - pre.length = 0) := by
    simp only [List.length_append, List.length_cons]; omega
  have h0 : (pchar (pre ++ R ++ '(' :: (y ++ [')'])) pre.length == '(') = false := by
    rw [List.append_assoc]
    have := pchar_mem_right pre (R ++ '(' :: (y ++ [')'])) pre.length (Nat.le_refl _)
      (by simp only [List.length_append, List.length_cons]; omega)
    have e := pchar_append_right pre (R ++ '(' :: (y ++ [')'])) 0
    rw [Nat.add_zero] at e
    rw [e]
    obtain ⟨r0, rs, hr⟩ := List.exists_cons_of_ne_nil hR
    rw [hr]
    have h1 := (plain_char_ne r0 (name_char_spec r0 (hRc r0 (by
      rw [hr]; exact List.mem_cons_self _ _))).1).1
    exact beq_eq_false_iff_ne.mpr h1
  have hprobe : array_probe (pre ++ R ++ '(' :: (y ++ [')']))
      = (pre ++ R ++ '(' :: (y ++ [')'])).length - 1 := by
    rw [htxt]
    exact array_probe_end _ ')' ⟨by decide, by decide⟩
  have hlast : pchar (pre ++ R ++ '(' :: (y ++ [')']))
      ((pre ++ R ++ '(' :: (y ++ [')'])).length - 1) = ')' := by
    rw [htxt]
    have : ((pre ++ R ++ '(' :: y) ++ [')']).length - 1 = (pre ++ R ++ '(' :: y).length + 0 := by
      simp only [List.length_append, List.length_cons, List.length_nil]; omega
    rw [this, pchar_append_right]; rfl
  have hfm := find_matching_back t (pre ++ R) y hyp
  have hopen : pchar (pre ++ R ++ '(' :: (y ++ [')'])) (pre ++ R).length = '(' := by
    have := pchar_append_right (pre ++ R) ('(' :: (y ++ [')'])) 0
    rw [Nat.add_zero] at this
    rw [this]; rfl
  have hge : pre.length ≤ (pre ++ R).length := by simp
  simp only [check_func_array, run_bind, run_getS, andThen_ok, hv, Bool.not_true, Bool.false_or,
    decide_eq_true_eq, hplain, hnz, if_false, h0, Bool.false_eq_true, run_pure, run_ite]
  have hfold : (if (decide ((if (decide ((pre ++ R ++ '(' :: (y ++ [')'])).length - 1 ≥ 5) &&
        (pre ++ R ++ '(' :: (y ++ [')'])).drop ((pre ++ R ++ '(' :: (y ++ [')'])).length - 1 - 4)
          == "const".toList) = true
      then (pre ++ R ++ '(' :: (y ++ [')'])).length - 1 - 5
      else (pre ++ R ++ '(' :: (y ++ [')'])).length - 1) > 0) &&
      pchar (pre ++ R ++ '(' :: (y ++ [')']))
        (if (decide ((pre ++ R ++ '(' :: (y ++ [')'])).length - 1 ≥ 5) &&
        (pre ++ R ++ '(' :: (y ++ [')'])).drop ((pre ++ R ++ '(' :: (y ++ [')'])).length - 1 - 4)
          == "const".toList) = true
      then (pre ++ R ++ '(' :: (y ++ [')'])).length - 1 - 5
      else (pre ++ R ++ '(' :: (y ++ [')'])).length - 1) == ' ') = true
      then (if (decide ((pre ++ R ++ '(' :: (y ++ [')'])).length - 1 ≥ 5) &&
        (pre ++ R ++ '(' :: (y ++ [')'])).drop ((pre ++ R ++ '(' :: (y ++ [')'])).length - 1 - 4)
          == "const".toList) = true
      then (pre ++ R ++ '(' :: (y ++ [')'])).length - 1 - 5
      else (pre ++ R ++ '(' :: (y ++ [')'])).length - 1) - 1
      else (if (decide ((pre ++ R ++ '(' :: (y ++ [')'])).length - 1 ≥ 5) &&
        (pre ++ R ++ '(' :: (y ++ [')'])).drop ((pre ++ R ++ '(' :: (y ++ [')'])).length - 1 - 4)
          == "const".toList) = true
      then (pre ++ R ++ '(' :: (y ++ [')'])).length - 1 - 5
      else (pre ++ R ++ '(' :: (y ++ [')'])).length - 1))
      = array_probe (pre ++ R ++ '(' :: (y ++ [')'])) := rfl
  rw [hfold, hprobe]
  simp only [hlast, beq_self_eq_true, if_true, run_bind, hfm, andThen_ok, run_cassert, hopen,
    run_pure, hge, decide_True, Bool.true_or, Bool.and_self]

/-- Run of `insertion_point` on a type name followed by a parameter list in parentheses: a
decorator goes in front of the opening parenthesis. -/
theorem insertion_point_call (t : Mangle) (pre R y : List Char) (hv : t.valid = true)
    (hplain : t.plain = pre ++ R ++ '(' :: (y ++ [')'])) (hR : R ≠ [])
    (hRc : ∀ x ∈ R, name_char x = true) (hy : ∀ x ∈ y, name_char x = true) :
    insertion_point pre.length t = Res.ok ((pre ++ R).length, t) := by
  have hng : ¬ (pre.length > (pre ++ R ++ '(' :: (y ++ [')'])).length) := by
    simp only [List.length_append]; omega
  have hns : ∀ i, pre.length ≤ i → pchar (pre ++ R ++ '(' :: (y ++ [')'])) i ≠ '*' := by
    intro i hi
    by_cases h2 : i < (pre ++ R ++ '(' :: (y ++ [')'])).length
    · rw [List.append_assoc] at h2 ⊢
      have hm := pchar_mem_right pre (R ++ '(' :: (y ++ [')'])) i hi h2
      generalize pchar (pre ++ (R ++ '(' :: (y ++ [')']))) i = z at hm
      simp only [List.mem_append, List.mem_cons, List.mem_singleton, List.not_mem_nil,
        or_false] at hm
      rcases hm with hm | hm | hm | hm
      · exact (name_char_spec z (hRc z hm)).2.1
      · rw [hm]; decide
      · exact (name_char_spec z (hy z hm)).2.1
      · rw [hm]; decide
    · rw [pchar_beyond _ _ (by omega)]; decide
  have hc := check_func_array_call t pre R y hv hplain hR hRc hy
  have hl : (pre ++ R ++ '(' :: (y ++ [')'])).length + 2
      = ((pre ++ R ++ '(' :: (y ++ [')'])).length + 1) + 1 := rfl
  simp only [insertion_point, run_bind, run_getS, andThen_ok, hplain, hng, if_false, hl,
    insertion_loop_no_star _ _ hns, hc, run_pure, run_ite]

/-! ## Symbolic runs of function types and pointers to them -/

theorem builtin_void_iff (c : Char) (nm : List Char) (h : builtin_name c = some nm) :
    nm = "void".toList ↔ c = 'v' := by
  constructor
  · intro e
    rw [e] at h
    exact builtin_name_void c h
  · intro e
    rw [e, builtin_name_v] at h
    cases h
    rfl

/-- Run of the loop of `_function_type` on one builtin code and the closing `E`: the name
is written, and erased again when it is `void`. -/
theorem function_type_loop_single (fuel : Nat) {s : Mangle} {c : Char} {r nm : List Char}
    (hv : s.valid = true) (h : At s (c :: 'E' :: r)) (hc : builtin_name c = some nm)
    (hfn : s.func_nest = 1) (hfit : s.plain.length + nm.length < s.size) :
    function_type_loop (fuel + 2) 0 s = Res.ok ((), { s with
      plain := s.plain ++ (if c = 'v' then [] else nm), mpos := s.mpos + 1,
      parameter_base := s.parameter_base.set 1 (some s.plain.length) }) := by
  obtain ⟨-, -, -, nE, -, -⟩ := builtin_name_not_special c nm hc
  obtain ⟨v, p, sz, m, k, n, tc, q, fn, pb0, ss, ts⟩ := s
  simp only at hv hfit hfn
  subst hv hfn
  have pE := h.run_peek_ne rfl 'E' [] (Ne.symm nE)
  have hspb : set_parameter_base p.length ⟨true, p, sz, m, k, n, tc, q, 1, pb0, ss, ts⟩
      = Res.ok ((), ⟨true, p, sz, m, k, n, tc, q, 1, pb0.set 1 (some p.length), ss, ts⟩) := by
    simp only [set_parameter_base, run_bind, run_getS, andThen_ok, run_ite]
    rw [if_pos (by decide), run_modifyS]
    rfl
  have hty := type_builtin_run fuel
    (s := ⟨true, p, sz, m, k, n, tc, q, 1, pb0.set 1 (some p.length), ss, ts⟩)
    rfl ⟨h.1, h.2⟩ hc hfit
  simp only at hty
  have hat2 : ∀ p2, At (⟨true, p2, sz, m, k + 1, n, tc, q, 1, pb0.set 1 (some p.length), ss,
      ts⟩ : Mangle) ('E' :: r) := fun _ => ⟨h.next.1, h.next.2⟩
  have pE2 : ∀ p2, peek "E" (⟨true, p2, sz, m, k + 1, n, tc, q, 1, pb0.set 1 (some p.length),
      ss, ts⟩ : Mangle) = Res.ok (true, ⟨true, p2, sz, m, k + 1, n, tc, q, 1,
      pb0.set 1 (some p.length), ss, ts⟩) := by
    intro p2
    rw [(hat2 p2).run_peek rfl]
    congr 2 <;> exact isPrefixOf_single _ _
  have h00 : ¬ (0 > 0) := by decide
  rw [function_type_loop]
  simp only [run_bind, run_getS, andThen_ok, pE, Bool.not_false, Bool.and_self, if_true,
    current_position, run_pure, hspb, h00, if_false, hty, text_at, List.drop_left,
    decide_True, Bool.true_and]
  by_cases hvd : c = 'v'
  · have hnm := (builtin_void_iff c nm hc).mpr hvd
    subst hnm
    simp only [beq_self_eq_true, if_true, run_bind, pE2, andThen_ok, truncate, run_modifyS,
      Mangle.truncate, List.take_left, hvd]
    rw [function_type_loop]
    simp only [run_bind, run_getS, andThen_ok, pE2, Bool.not_true, Bool.and_false,
      Bool.false_eq_true, if_false, run_pure, List.append_nil]
  · have hnv : (nm == "void".toList) = false :=
      beq_eq_false_iff_ne.mpr (fun e => hvd ((builtin_void_iff c nm hc).mp e))
    simp only [hnv, Bool.false_eq_true, if_false, run_pure, andThen_ok, hvd]
    rw [function_type_loop]
    simp only [run_bind, run_getS, andThen_ok, pE2, Bool.not_true, Bool.and_false,
      Bool.false_eq_true, if_false, run_pure]

theorem getD_set_other (l : List (Option Nat)) (x : Option Nat) :
    (l.set 1 x).getD 0 none = l.getD 0 none := by
  cases l with
  | nil => rfl
  | cons a l2 =>
    cases l2 with
    | nil => rfl
    | cons b l3 => rfl

/-- Run of `_function_type` at function nesting level zero on `F`, a builtin return type,
one builtin parameter and `E`: the text is the return type and the parameter in
parentheses.  The base of the enclosing parameter, when there is one, lies in the text and
no bracket stands behind it. -/
theorem function_type_run (fuel : Nat) {s : Mangle} {rc pc : Char} {r R P : List Char}
    (hv : s.valid = true) (h : At s ('F' :: rc :: pc :: 'E' :: r))
    (hr : builtin_name rc = some R) (hp : builtin_name pc = some P)
    (hfn : s.func_nest = 0)
    (hpb : ∀ b, s.parameter_base.getD 0 none = some b →
      b ≤ s.plain.length ∧ ∀ x ∈ s.plain.drop b, plain_char x = true)
    (hfit : s.plain.length + R.length + P.length + 2 < s.size) :
    _function_type (fuel + 3) s = Res.ok ((), { s with
      plain := s.plain ++ R ++ '(' :: ((if pc = 'v' then [] else P) ++ [')']),
      mpos := s.mpos + 4,
      parameter_base := s.parameter_base.set 1 (some (s.plain ++ R ++ "(".toList).length) }) := by
  obtain ⟨v, p, sz, m, k, n, tc, q, fn, pb0, ss, ts⟩ := s
  simp only at hv hfit hfn hpb
  subst hv hfn
  have eF := h.run_expect_true rfl "F" (isPrefixOf_single _ _)
  have hFl : "F".length = 1 := rfl
  have hEl : "E".length = 1 := rfl
  have hs1 : toShort (0 + 1) = 1 := by decide
  have hs0 : toShort (1 + -1) = 0 := by decide
  have hl1 : ("(".toList).length = 1 := rfl
  have hl2 : (")".toList).length = 1 := rfl
  have hPl : (if pc = 'v' then [] else P).length ≤ P.length := by
    split <;> simp
  have hty := type_builtin_run (fuel + 1)
    (s := ⟨true, p, sz, m, k + 1, n, tc, q, 0, pb0, ss, ts⟩)
    rfl ⟨h.next.1, h.next.2⟩ hr (by simp only; omega)
  simp only at hty
  have hap1 : (⟨true, p ++ R, sz, m, k + 1 + 1, n, tc, q, 1, pb0, ss, ts⟩ : Mangle).append
      "(".toList = ⟨true, p ++ R ++ "(".toList, sz, m, k + 1 + 1, n, tc, q, 1, pb0, ss, ts⟩ := by
    rw [Mangle.append_fits _ _ rfl (by simp only [List.length_append, hl1]; omega)]
  have hloop := function_type_loop_single fuel
    (s := ⟨true, p ++ R ++ "(".toList, sz, m, k + 1 + 1, n, tc, q, 1, pb0, ss, ts⟩)
    rfl ⟨h.next.next.1, h.next.next.2⟩ hp rfl
    (by simp only [List.length_append, hl1]; omega)
  simp only at hloop
  have hap2 : (⟨true, p ++ R ++ "(".toList ++ (if pc = 'v' then [] else P), sz, m,
      k + 1 + 1 + 1, n, tc, q, 1,
      pb0.set 1 (some (p ++ R ++ "(".toList).length), ss, ts⟩ : Mangle).append ")".toList
      = ⟨true, p ++ R ++ "(".toList ++ (if pc = 'v' then [] else P) ++ ")".toList, sz, m,
      k + 1 + 1 + 1, n, tc, q, 1,
      pb0.set 1 (some (p ++ R ++ "(".toList).length), ss, ts⟩ := by
    rw [Mangle.append_fits _ _ rfl (by simp only [List.length_append, hl1, hl2]; omega)]
  have hat3 : At (⟨true, p ++ R ++ "(".toList ++ (if pc = 'v' then [] else P) ++ ")".toList,
      sz, m, k + 1 + 1 + 1, n, tc, q, 1,
      pb0.set 1 (some (p ++ R ++ "(".toList).length), ss, ts⟩ : Mangle) ('E' :: r) :=
    ⟨h.next.next.next.1, h.next.next.next.2⟩
  have eE := hat3.run_expect_true rfl "E" (isPrefixOf_single _ _)
  have hgpb : get_parameter_base (⟨true,
      p ++ R ++ "(".toList ++ (if pc = 'v' then [] else P) ++ ")".toList, sz, m,
      k + 1 + 1 + 1 + 1, n, tc, q, 0,
      pb0.set 1 (some (p ++ R ++ "(".toList).length), ss, ts⟩ : Mangle)
      = Res.ok (pb0.getD 0 none, ⟨true,
      p ++ R ++ "(".toList ++ (if pc = 'v' then [] else P) ++ ")".toList, sz, m,
      k + 1 + 1 + 1 + 1, n, tc, q, 0,
      pb0.set 1 (some (p ++ R ++ "(".toList).length), ss, ts⟩) := by
    simp only [get_parameter_base, run_bind, run_getS, andThen_ok, run_ite]
    rw [if_pos (show (decide ((0 : Int) ≤ 0) && decide ((0 : Int) < (MAX_FUNC_NESTING : Int)))
      = true from by decide), run_pure]
    congr 2
    exact getD_set_other pb0 _
  have h15 : (decide ((1 : Int) < (MAX_FUNC_NESTING : Int))) = true := by decide
  have hfinal : p ++ R ++ "(".toList ++ (if pc = 'v' then [] else P) ++ ")".toList
      = p ++ R ++ '(' :: ((if pc = 'v' then [] else P) ++ [')']) := by
    simp only [String.toList, List.append_assoc, List.cons_append, List.nil_append]
  rw [_function_type]
  simp only [run_bind, eF, andThen_ok, if_true, Mangle.setMpos, hFl, hty, current_position,
    run_getS, run_pure, add_func_nest, run_modifyS, Mangle.setFuncNest, hs1, run_cassert, h15,
    Demangle.append, hap1, hloop, hap2, eE, hEl, hs0, hgpb]
  cases hb : pb0.getD 0 none with
  | none =>
    simp only [run_pure, hfinal, Nat.add_assoc]
  | some b =>
    obtain ⟨hb1, hb2⟩ := hpb b hb
    obtain ⟨x, a2, b2, hnm, hab, hbb⟩ := builtin_name_tail rc R hr
    have htake : (p ++ R ++ "(".toList ++ (if pc = 'v' then [] else P) ++ ")".toList).take
        (p ++ R).length = p ++ R := by
      rw [List.append_assoc, List.append_assoc, List.take_left]
    have hdrop : (p ++ R ++ "(".toList ++ (if pc = 'v' then [] else P) ++ ")".toList).drop
        (p ++ R).length = "(".toList ++ (if pc = 'v' then [] else P) ++ ")".toList := by
      rw [List.append_assoc, List.append_assoc, List.drop_left, List.append_assoc]
    have hsplit : p ++ R = p.take b ++ (p.drop b ++ R) := by
      rw [← List.append_assoc, List.take_append_drop]
    have hip := insertion_point_word
      (⟨true, p ++ R, sz, m, k + 1 + 1 + 1 + 1, n, tc, q, 0,
        pb0.set 1 (some (p ++ R ++ "(".toList).length), ss, ts⟩ : Mangle)
      (p.take b) (p.drop b ++ R) rfl hsplit (by rw [hnm]; simp)
      (by
        intro y hy
        rcases List.mem_append.mp hy with hy | hy
        · exact hb2 y hy
        · exact builtin_name_plain rc R hr y hy)
      (by
        rw [← hsplit, hnm, ← List.append_assoc, array_probe_last _ _ _ hab hbb]
        simp only [List.length_append, List.length_take, List.length_cons, List.length_nil]
        omega)
    have hbl : (p.take b).length = b := by
      rw [List.length_take]; omega
    rw [hbl] at hip
    simp only at hip
    have hins := run_insert
      (⟨true, p ++ R, sz, m, k + 1 + 1 + 1 + 1, n, tc, q, 0,
        pb0.set 1 (some (p ++ R ++ "(".toList).length), ss, ts⟩ : Mangle)
      (p ++ R).length ("(".toList ++ (if pc = 'v' then [] else P) ++ ")".toList) rfl
      (Nat.le_refl _) (by simp [String.toList])
      (by simp only [List.length_append, hl1, hl2]; omega)
    simp only [List.take_length, List.drop_length, List.append_nil] at hins
    simp only [text_at, run_bind, run_getS, andThen_ok, run_pure, truncate, run_modifyS,
      Mangle.truncate, htake, hdrop, hip, hins]
    simp only [String.toList, List.append_assoc, List.cons_append, List.nil_append,
      Nat.add_assoc]

/-- Run of `_type` on a function type with a builtin return type and one builtin
parameter: the text of the function type is recorded as a substitution. -/
theorem type_function_run (fuel : Nat) {s : Mangle} {rc pc : Char} {r R P : List Char}
    (hv : s.valid = true) (h : At s ('F' :: rc :: pc :: 'E' :: r))
    (hr : builtin_name rc = some R) (hp : builtin_name pc = some P)
    (hfn : s.func_nest = 0)
    (hpb : ∀ b, s.parameter_base.getD 0 none = some b →
      b ≤ s.plain.length ∧ ∀ x ∈ s.plain.drop b, plain_char x = true)
    (hfit : s.plain.length + R.length + P.length + 2 < s.size)
    (hroom : s.substitions.length < 20) :
    _type (fuel + 4) s = Res.ok ((), { s with
      plain := s.plain ++ R ++ '(' :: ((if pc = 'v' then [] else P) ++ [')']),
      mpos := s.mpos + 4,
      parameter_base := s.parameter_base.set 1 (some (s.plain ++ R ++ "(".toList).length),
      substitions := s.substitions ++ [R ++ '(' :: ((if pc = 'v' then [] else P) ++ [')'])] })
    := by
  obtain ⟨v, p, sz, m, k, n, tc, q, fn, pb0, ss, ts⟩ := s
  simp only at hv hfit hroom hfn hpb
  subst hv hfn
  have b0 := h.run_is_builtin_none (by decide) (by decide)
  have b1 := h.run_peek_ne rfl 'r' [] (by decide)
  have b2 := h.run_peek_ne rfl 'V' [] (by decide)
  have b3 := h.run_peek_ne rfl 'K' [] (by decide)
  have b4 := h.run_peek_ne rfl 'U' [] (by decide)
  have b5 : peek "F" (⟨true, p, sz, m, k, n, tc, q, 0, pb0, ss, ts⟩ : Mangle)
      = Res.ok (true, ⟨true, p, sz, m, k, n, tc, q, 0, pb0, ss, ts⟩) := by
    rw [h.run_peek rfl]
    congr 2 <;> exact isPrefixOf_single _ _
  have hft := function_type_run fuel
    (s := ⟨true, p, sz, m, k, n, tc, q, 0, pb0, ss, ts⟩) rfl h hr hp rfl hpb hfit
  simp only at hft
  have hsub := run_add_substitution_at
    (⟨true, p ++ R ++ '(' :: ((if pc = 'v' then [] else P) ++ [')']), sz, m, k + 4, n, tc, q,
      0, pb0.set 1 (some (p ++ R ++ "(".toList).length), ss, ts⟩ : Mangle) p.length rfl hroom
  simp only [List.append_assoc, List.drop_left] at hsub
  rw [_type]
  simp only [run_bind, run_getS, andThen_ok, if_true, current_position, run_pure, b0, b1,
    b2, b3, b4, b5, Bool.or_self, Bool.false_eq_true, if_false, hft, List.append_assoc, hsub]

/-- Run of `_type` on a pointer to a builtin type: `*` is written behind the name. -/
theorem type_pointer_builtin_run (fuel : Nat) {s : Mangle} {rc : Char} {r R : List Char}
    (hv : s.valid = true) (h : At s ('P' :: rc :: r)) (hr : builtin_name rc = some R)
    (hfit : s.plain.length + R.length + 1 < s.size) (hroom : s.substitions.length < 20) :
    _type (fuel + 2) s = Res.ok ((), { s with
      plain := s.plain ++ (R ++ "*".toList), mpos := s.mpos + 2,
      substitions := s.substitions ++ [R ++ "*".toList] }) := by
  obtain ⟨v, p, sz, m, k, n, tc, q, fn, pb0, ss, ts⟩ := s
  simp only at hv hfit hroom
  subst hv
  have hb := type_builtin_run fuel (s := ⟨true, p, sz, m, k + 1, n, tc, q, fn, pb0, ss, ts⟩)
    rfl ⟨h.next.1, h.next.2⟩ hr (by simp only; omega)
  simp only at hb
  have hip := insertion_point_builtin
    (⟨true, p ++ R, sz, m, k + 1 + 1, n, tc, q, fn, pb0, ss, ts⟩ : Mangle) p R rc rfl rfl hr
  simp only at hip
  have hnul : pchar (p ++ R) (p ++ R).length = NUL := pchar_beyond _ _ (Nat.le_refl _)
  have hnb : ¬ ((NUL == '(' || NUL == '[') = true) := by decide
  have hp := type_pointer_run (fuel + 1) (s := ⟨true, p, sz, m, k, n, tc, q, fn, pb0, ss, ts⟩)
    (p ++ R).length rfl h hb rfl hip (Nat.le_refl _)
    (by
      show (p ++ R).length + (if (pchar (p ++ R) (p ++ R).length == '(' ||
        pchar (p ++ R) (p ++ R).length == '[') = true then 3 else 1) < sz
      rw [hnul, if_neg hnb]
      simp only [List.length_append]; omega)
    hroom
  rw [hp]
  simp only [hnul, hnb, if_false, List.take_length, List.drop_length, List.append_nil,
    List.append_assoc, List.drop_left, Nat.add_assoc, Bool.false_eq_true]

/-- Run of `_type` on a pointer to a function type with a builtin return type and one
builtin parameter: the decorator `(*)` goes in front of the parameter list; the function
type and the pointer are recorded as substitutions. -/
theorem type_function_pointer_run (fuel : Nat) {s : Mangle} {rc pc : Char}
    {r R P : List Char} (hv : s.valid = true) (h : At s ('P' :: 'F' :: rc :: pc :: 'E' :: r))
    (hr : builtin_name rc = some R) (hp : builtin_name pc = some P)
    (hfn : s.func_nest = 0)
    (hpb : ∀ b, s.parameter_base.getD 0 none = some b →
      b ≤ s.plain.length ∧ ∀ x ∈ s.plain.drop b, plain_char x = true)
    (hfit : s.plain.length + R.length + P.length + 5 < s.size)
    (hroom : s.substitions.length + 2 ≤ 20) :
    _type (fuel + 5) s = Res.ok ((), { s with
      plain := s.plain ++ (R ++ "(*)".toList ++ '(' :: ((if pc = 'v' then [] else P) ++ [')'])),
      mpos := s.mpos + 5,
      parameter_base := s.parameter_base.set 1 (some (s.plain ++ R ++ "(".toList).length),
      substitions := s.substitions ++ [R ++ '(' :: ((if pc = 'v' then [] else P) ++ [')']),
        R ++ "(*)".toList ++ '(' :: ((if pc = 'v' then [] else P) ++ [')'])] }) := by
  obtain ⟨v, p, sz, m, k, n, tc, q, fn, pb0, ss, ts⟩ := s
  simp only at hv hfit hroom hfn hpb
  subst hv hfn
  obtain ⟨hRne, -⟩ := builtin_name_last rc R [] hr
  have hPl : (if pc = 'v' then [] else P).length ≤ P.length := by
    split <;> simp
  have hPc : ∀ x ∈ (if pc = 'v' then [] else P), name_char x = true := by
    intro x hx
    split at hx
    · cases hx
    · exact builtin_name_chars pc P hp x hx
  have hf := type_function_run fuel
    (s := ⟨true, p, sz, m, k + 1, n, tc, q, 0, pb0, ss, ts⟩) rfl ⟨h.next.1, h.next.2⟩ hr hp rfl
    hpb (by simp only; omega) (by simp only; omega)
  simp only at hf
  have hip := insertion_point_call
    (⟨true, p ++ R ++ '(' :: ((if pc = 'v' then [] else P) ++ [')']), sz, m, k + 1 + 4, n, tc,
      q, 0, pb0.set 1 (some (p ++ R ++ "(".toList).length),
      ss ++ [R ++ '(' :: ((if pc = 'v' then [] else P) ++ [')'])], ts⟩ : Mangle)
    p R (if pc = 'v' then [] else P) rfl rfl hRne (builtin_name_chars rc R hr) hPc
  simp only at hip
  have hopen : pchar (p ++ R ++ '(' :: ((if pc = 'v' then [] else P) ++ [')'])) (p ++ R).length
      = '(' := by
    have := pchar_append_right (p ++ R) ('(' :: ((if pc = 'v' then [] else P) ++ [')'])) 0
    rw [Nat.add_zero] at this
    rw [this]; rfl
  have hyes : (('(' : Char) == '(' || ('(' : Char) == '[') = true := by decide
  have hp := type_pointer_run (fuel + 4) (s := ⟨true, p, sz, m, k, n, tc, q, 0, pb0, ss, ts⟩)
    (p ++ R).length rfl h hf rfl hip
    (by simp only [List.length_append, List.length_cons]; omega)
    (by
      show (p ++ R ++ '(' :: ((if pc = 'v' then [] else P) ++ [')'])).length +
        (if (pchar (p ++ R ++ '(' :: ((if pc = 'v' then [] else P) ++ [')'])) (p ++ R).length
            == '(' ||
          pchar (p ++ R ++ '(' :: ((if pc = 'v' then [] else P) ++ [')'])) (p ++ R).length
            == '[') = true then 3 else 1) < sz
      rw [hopen, if_pos hyes]
      simp only [List.length_append, List.length_cons, List.length_nil]; omega)
    (by simp only [List.length_append, List.length_cons, List.length_nil]; omega)
  rw [hp]
  simp only [hopen, hyes, if_true, List.take_left, List.drop_left]
  simp only [List.append_assoc, List.drop_left, Nat.add_assoc, List.singleton_append]

/-- Run of `_type` on a class type given by a source name that is not followed by
template arguments: the name is written and recorded as a substitution. -/
theorem type_source_run (fuel : Nat) {s : Mangle} (w r : List Char) (hv : s.valid = true)
    (h : At s (Nat.toDigits 10 w.length ++ (w ++ r)))
    (hw : is_identifier w = true)
    (hlen : (w ++ r).length < 2147483647)
    (hfit : s.plain.length + w.length < s.size)
    (hI : "I".toList.isPrefixOf r = false) (hroom : s.substitions.length < 20) :
    _type (fuel + 2) s = Res.ok ((), { s with
      plain := s.plain ++ w,
      mpos := s.mpos + (Nat.toDigits 10 w.length).length + w.length,
      substitions := s.substitions ++ [w] }) := by
  obtain ⟨hne, hall, hval⟩ := toDigits_spec w.length
  obtain ⟨d, ds, hd⟩ := List.exists_cons_of_ne_nil hne
  have hdd : isdigit d = true := hall d (by rw [hd]; exact List.mem_cons_self _ _)
  have hdl : islower d = false := by
    simp only [isdigit, islower, Bool.and_eq_true, decide_eq_true_eq] at hdd ⊢
    simp only [Bool.and_eq_false_iff, decide_eq_false_iff_not]
    omega
  have h' : At s (d :: (ds ++ (w ++ r))) := by rw [hd] at h; exact h
  have ne := fun (k : Char) (hk : isdigit k = false) => digit_ne_of_not_digit hdd k hk
  obtain ⟨b0, b1, b2, b3, b4, b5, b6⟩ := type_front_peeks hv h' hdl
    ⟨Ne.symm (ne _ (by decide)), Ne.symm (ne _ (by decide)), Ne.symm (ne _ (by decide)),
      Ne.symm (ne _ (by decide)), Ne.symm (ne _ (by decide)), Ne.symm (ne _ (by decide))⟩
  have mP := h'.run_match_false hv "P" (isPrefixOf_cons_ne _ _ _ _ (ne _ (by decide)))
  have mR := h'.run_match_false hv "R" (isPrefixOf_cons_ne _ _ _ _ (ne _ (by decide)))
  have mO := h'.run_match_false hv "O" (isPrefixOf_cons_ne _ _ _ _ (ne _ (by decide)))
  have hab := h'.run_is_abbreviation_digit hdd
  have pS := h'.run_peek_substitution_ne hv (Ne.symm (ne _ (by decide)))
  have pT := h'.run_peek_template_param_ne hv (Ne.symm (ne _ (by decide)))
  have pN := h'.run_peek_ne hv 'N' [] (ne _ (by decide))
  have pZ := h'.run_peek_ne hv 'Z' [] (ne _ (by decide))
  have pM := h'.run_peek_ne hv 'M' [] (ne _ (by decide))
  have pL := h'.run_peek_ne hv 'L' [] (ne _ (by decide))
  have hl0 : look 0 s = Res.ok (d, s) := by rw [h'.run_look0]; rfl
  have hsn := source_name_run w r hv h (identifier_head _ _ hw) hlen hfit
  obtain ⟨v, p, sz, m, k, n, tc, q, fn, pb0, ss, ts⟩ := s
  simp only at hv hfit hroom hsn b0 b1 b2 b3 b4 b5 b6 mP mR mO hab pS pT pN pZ pM pL hl0
  subst hv
  have hsub := run_add_substitution_at (⟨true, p ++ w, sz, m,
    k + (Nat.toDigits 10 w.length).length + w.length, n, tc, q, fn, pb0, ss, ts⟩ : Mangle)
    p.length rfl hroom
  simp only [List.drop_left] at hsub
  have hat : At (⟨true, p ++ w, sz, m, k + (Nat.toDigits 10 w.length).length + w.length, n,
      tc, q, fn, pb0, ss ++ [w], ts⟩ : Mangle) r := by
    have := At.after_source (w := w) (r := r) (by simpa [source_code] using h) (p ++ w)
    exact ⟨this.1, this.2⟩
  rw [_type]
  simp only [run_bind, run_getS, andThen_ok, if_true, current_position, run_pure, b0, b1,
    b2, b3, b4, b5, b6, Bool.or_self, Bool.false_eq_true, if_false, mP, mR, mO, hab, pS, pT, pN,
    pZ, pM, pL, hl0, hdd, hsn, hsub, template_args_skip fuel hat hI]

/-- Run of `_type` in front of a pointer to member. -/
theorem type_member_dispatch (fuel : Nat) {s : Mangle} {r : List Char} (hv : s.valid = true)
    (h : At s ('M' :: r)) : _type (fuel + 1) s = _pointer_to_member_type fuel s := by
  obtain ⟨b0, b1, b2, b3, b4, b5, b6⟩ := type_front_peeks hv h (by decide)
    ⟨by decide, by decide, by decide, by decide, by decide, by decide⟩
  have mP := h.run_match_false hv "P" (isPrefixOf_cons_ne _ _ _ _ (by decide))
  have mR := h.run_match_false hv "R" (isPrefixOf_cons_ne _ _ _ _ (by decide))
  have mO := h.run_match_false hv "O" (isPrefixOf_cons_ne _ _ _ _ (by decide))
  have hab := h.run_is_abbreviation_ne (by decide)
  have pS := h.run_peek_substitution_ne hv (by decide)
  have pT := h.run_peek_template_param_ne hv (by decide)
  have pN := h.run_peek_ne hv 'N' [] (by decide)
  have pZ := h.run_peek_ne hv 'Z' [] (by decide)
  have pM : peek "M" s = Res.ok (true, s) := by
    rw [h.run_peek hv]
    congr 2 <;> exact isPrefixOf_single _ _
  rw [_type]
  simp only [run_bind, run_getS, andThen_ok, hv, if_true, current_position, run_pure, b0, b1,
    b2, b3, b4, b5, b6, Bool.or_self, Bool.false_eq_true, if_false, mP, mR, mO, hab, pS, pT, pN,
    pZ, pM]

/-- Run of `_type` on a pointer to a member function of the class `w`, with a builtin
return type and one builtin parameter: the decorator ` (w::*)` goes in front of the
parameter list; the class, the function type and the pointer are recorded. -/
theorem type_member_pointer_run (fuel : Nat) {s : Mangle} {rc pc : Char}
    {r R P : List Char} (w : List Char) (hv : s.valid = true)
    (h : At s ('M' :: (Nat.toDigits 10 w.length ++ (w ++ 'F' :: rc :: pc :: 'E' :: r))))
    (hw : is_identifier w = true)
    (hlen : (w ++ 'F' :: rc :: pc :: 'E' :: r).length < 2147483647)
    (hr : builtin_name rc = some R) (hp : builtin_name pc = some P)
    (hfn : s.func_nest = 0)
    (hpb : ∀ b, s.parameter_base.getD 0 none = some b →
      b ≤ s.plain.length ∧ ∀ x ∈ s.plain.drop b, plain_char x = true)
    (hfit : s.plain.length + R.length + P.length + w.length + 8 < s.size)
    (hroom : s.substitions.length + 3 ≤ 20) :
    _type (fuel + 6) s = Res.ok ((), { s with
      plain := s.plain ++ (R ++ " (".toList ++ w ++ "::*)".toList
        ++ '(' :: ((if pc = 'v' then [] else P) ++ [')'])),
      mpos := s.mpos + 1 + (Nat.toDigits 10 w.length).length + w.length + 4,
      parameter_base := s.parameter_base.set 1 (some (s.plain ++ R ++ "(".toList).length),
      substitions := s.substitions ++ [w, R ++ '(' :: ((if pc = 'v' then [] else P) ++ [')']),
        R ++ " (".toList ++ w ++ "::*)".toList
          ++ '(' :: ((if pc = 'v' then [] else P) ++ [')'])] }) := by
  rw [type_member_dispatch (fuel + 5) hv h]
  have hex := h.run_expect_true hv "M" (isPrefixOf_single _ _)
  obtain ⟨v, p, sz, m, k, n, tc, q, fn, pb0, ss, ts⟩ := s
  simp only at hv hfit hroom hfn hpb hex
  subst hv hfn
  obtain ⟨hRne, -⟩ := builtin_name_last rc R [] hr
  have hPl : (if pc = 'v' then [] else P).length ≤ P.length := by
    split <;> simp
  have hPc : ∀ x ∈ (if pc = 'v' then [] else P), name_char x = true := by
    intro x hx
    split at hx
    · cases hx
    · exact builtin_name_chars pc P hp x hx
  have hI : "I".toList.isPrefixOf ('F' :: rc :: pc :: 'E' :: r) = false := by
    simp [List.isPrefixOf]
  have hc : _type (fuel + 4) (⟨true, p, sz, m, k + 1, n, tc, q, 0, pb0, ss, ts⟩ : Mangle) = _ :=
    type_source_run (fuel + 2) w ('F' :: rc :: pc :: 'E' :: r) rfl ⟨h.next.1, h.next.2⟩ hw hlen
      (by simp only; omega) hI (by simp only; omega)
  simp only at hc
  have hat : At (⟨true, p, sz, m, k + 1 + (Nat.toDigits 10 w.length).length + w.length, n,
      tc, q, 0, pb0, ss ++ [w], ts⟩ : Mangle) ('F' :: rc :: pc :: 'E' :: r) := by
    have := At.after_source (w := w) (r := 'F' :: rc :: pc :: 'E' :: r)
      (s := ⟨true, p, sz, m, k + 1, n, tc, q, 0, pb0, ss, ts⟩)
      (by simpa [source_code] using h.next) p
    exact ⟨this.1, this.2⟩
  have hf := type_function_run fuel rfl hat hr hp rfl hpb (by simp only; omega)
    (by simp only [List.length_append, List.length_cons, List.length_nil]; omega)
  simp only at hf
  generalize (if pc = 'v' then [] else P) = P' at hf hPl hPc ⊢
  have hip := insertion_point_call
    (⟨true, p ++ R ++ '(' :: (P' ++ [')']), sz, m,
      k + 1 + (Nat.toDigits 10 w.length).length + w.length + 4, n, tc,
      q, 0, pb0.set 1 (some (p ++ R ++ "(".toList).length),
      ss ++ [w] ++ [R ++ '(' :: (P' ++ [')'])], ts⟩ : Mangle)
    p R P' rfl rfl hRne (builtin_name_chars rc R hr) hPc
  simp only at hip
  have hopen : pchar (p ++ R ++ '(' :: (P' ++ [')'])) (p ++ R).length = '(' := by
    have := pchar_append_right (p ++ R) ('(' :: (P' ++ [')'])) 0
    rw [Nat.add_zero] at this
    rw [this]; rfl
  have hi1 := run_insert
    (⟨true, p ++ R ++ '(' :: (P' ++ [')']), sz, m,
      k + 1 + (Nat.toDigits 10 w.length).length + w.length + 4, n, tc,
      q, 0, pb0.set 1 (some (p ++ R ++ "(".toList).length),
      ss ++ [w] ++ [R ++ '(' :: (P' ++ [')'])], ts⟩ : Mangle)
    (p ++ R).length " ()".toList rfl
    (by simp only [List.length_append, List.length_cons]; omega) (by decide)
    (by
      show (p ++ R ++ '(' :: (P' ++ [')'])).length + 3 < sz
      simp only [List.length_append, List.length_cons, List.length_nil]; omega)
  simp only [List.take_left, List.drop_left] at hi1
  have hsplit : p ++ R ++ " ()".toList ++ '(' :: (P' ++ [')'])
      = (p ++ R ++ " (".toList) ++ (')' :: '(' :: (P' ++ [')'])) := by
    simp [List.append_assoc]
  have hl2 : (p ++ R).length + 2 = (p ++ R ++ " (".toList).length := by
    simp only [List.length_append, String.toList, List.length_cons, List.length_nil]
  have hi2 := run_insert
    (⟨true, (p ++ R ++ " (".toList) ++ (')' :: '(' :: (P' ++ [')'])), sz, m,
      k + 1 + (Nat.toDigits 10 w.length).length + w.length + 4, n, tc,
      q, 0, pb0.set 1 (some (p ++ R ++ "(".toList).length),
      ss ++ [w] ++ [R ++ '(' :: (P' ++ [')'])], ts⟩ : Mangle)
    (p ++ R ++ " (".toList).length (w ++ "::*".toList) rfl
    (by simp only [List.length_append, List.length_cons]; omega) (by simp)
    (by
      show ((p ++ R ++ " (".toList) ++ (')' :: '(' :: (P' ++ [')']))).length
        + (w ++ "::*".toList).length < sz
      simp only [List.length_append, List.length_cons, List.length_nil, String.toList]
      omega)
  simp only [List.take_left, List.drop_left] at hi2
  have hsub := run_add_substitution_at
    (⟨true, p ++ R ++ " (".toList ++ (w ++ "::*".toList) ++ (')' :: '(' :: (P' ++ [')'])), sz, m,
      k + 1 + (Nat.toDigits 10 w.length).length + w.length + 4, n, tc,
      q, 0, pb0.set 1 (some (p ++ R ++ "(".toList).length),
      ss ++ [w] ++ [R ++ '(' :: (P' ++ [')'])], ts⟩ : Mangle) p.length rfl
    (by simp only [List.length_append, List.length_cons, List.length_nil]; omega)
  rw [_pointer_to_member_type]
  simp only [run_bind, andThen_ok, hex, if_true, current_position, run_getS, run_pure,
    Mangle.setMpos, String.length, List.length_cons, List.length_nil, Nat.zero_add, hc, text_at,
    List.drop_left, truncate, run_modifyS, Mangle.truncate, List.take_left, hf, hip, hopen,
    beq_self_eq_true, hi1, hsplit, hl2, hi2, hsub]
  simp [List.append_assoc]

/-- The whole of `demangle` on the function `f` with one parameter whose type code begins
with `P` or `M`, given the run of `_type` on that code inside the parameter list. -/
theorem demangle_single_param (g : Nat) (plain : List Char) (size : Nat) (c : Char)
    (r X : List Char) (pb : List (Option Nat)) (ss : List (List Char))
    (hc : c = 'P' ∨ c = 'M') (hnul : ∀ x ∈ r, x ≠ NUL) (hlen : r.length < 2147483640)
    (hX : X ≠ "void".toList) (hsize : X.length + 3 < size)
    (hty : _type (g + 1) ⟨true, "f(".toList, size, "_Z".toList ++ ('1' :: 'f' :: c :: r), 4, 1,
        false, [], 0, (List.replicate MAX_FUNC_NESTING none).set 0 (some 2), [], []⟩
      = Res.ok ((), ⟨true, "f(".toList ++ X, size, "_Z".toList ++ ('1' :: 'f' :: c :: r),
          4 + (c :: r).length, 1, false, [], 0, pb, ss, []⟩)) :
    demangle (g + 3) plain size ("_Z".toList ++ ('1' :: 'f' :: c :: r))
      = Res.ok (true, "f(".toList ++ X ++ ")".toList) := by
  have hcs : c ≠ NUL ∧ c ≠ '.' ∧ c ≠ '@' ∧ c ≠ 'I' := by
    rcases hc with e | e <;> rw [e] <;> decide
  have hat := initial_at size ('1' :: 'f' :: c :: r)
  have hname := name_source_run (g + 1)
    (s := initial size ("_Z".toList ++ ('1' :: 'f' :: c :: r))) "f".toList (c :: r) rfl hat
    (by
      intro x hx
      simp only [String.toList, List.cons_append, List.head?_cons, Option.some.injEq] at hx
      rw [← hx]; decide)
    (by simp only [String.toList, List.length_append, List.length_cons, List.length_nil]; omega)
    (by simp only [initial, String.toList, List.length_cons, List.length_nil]; omega)
    (isPrefixOf_cons_ne _ _ _ _ (Ne.symm hcs.2.2.2))
  have hat1 : At (⟨true, "f".toList, size, "_Z".toList ++ ('1' :: 'f' :: c :: r), 4, 0, false,
      [], 0, List.replicate MAX_FUNC_NESTING none, [], []⟩ : Mangle) (c :: r) := by
    have := hat.moved 2 (by simp)
    exact ⟨this.1, this.2⟩
  have hstep := function_encoding_loop_step (g + 1) 0
    (s := ⟨true, "f(".toList, size, "_Z".toList ++ ('1' :: 'f' :: c :: r), 4, 1, false,
      [], 0, List.replicate MAX_FUNC_NESTING none, [], []⟩) rfl ⟨hat1.1, hat1.2⟩
    ⟨hcs.1, hcs.2.1, hcs.2.2.1⟩ rfl
    (by simp only [String.toList, List.length_cons, List.length_nil]; omega)
    hty
    (by
      intro hcon
      have h2 := hcon.2
      simp only at h2
      rw [List.drop_left] at h2
      exact hX h2)
  have hat3 : At (⟨true, "f(".toList ++ X, size, "_Z".toList ++ ('1' :: 'f' :: c :: r),
      4 + (c :: r).length, 1, false, [], 0, pb, ss, []⟩ : Mangle) [] := by
    have := hat1.moved (c :: r).length (by simp)
    refine ⟨?_, ?_⟩
    · have h1 := this.1; exact h1
    · have h2 := this.2
      rw [List.drop_length] at h2
      exact h2
  have hend := function_encoding_loop_end g 1 hat3
  have hloop := hstep.trans hend
  have hfr := function_encoding_frame (g + 2) hname rfl rfl (t := ⟨true, "f".toList, size,
      "_Z".toList ++ ('1' :: 'f' :: c :: r), 4, 0, false,
      [], 0, List.replicate MAX_FUNC_NESTING none, [], []⟩) hat1 ⟨hcs.1, hcs.2.1, hcs.2.2.1⟩
    (show ("f".toList : List Char) ≠ [] from by decide)
    (show (pchar ("f".toList) (("f".toList : List Char).length - 1) == '>')
      = false from by decide)
    (by simp only [String.toList, List.length_cons, List.length_nil]; omega)
    hloop rfl rfl (Or.inl rfl)
    (by
      simp only [String.toList, List.length_append, List.length_cons, List.length_nil,
        if_true]
      omega)
  have hat2 : At (initial size ("_Z".toList ++ ('1' :: 'f' :: c :: r)))
      ('1' :: ('f' :: c :: r)) := hat
  have henc := encoding_digit_run (g + 3) _ '1' _ rfl hat2 (by decide)
  rw [hfr] at henc
  have hd := demangle_of_encoding (g + 3) plain size _ _ (by omega)
    (by
      intro x hx
      simp only [List.mem_cons] at hx
      rcases hx with e | e | e | hx
      · rw [e]; decide
      · rw [e]; decide
      · rw [e]; exact hcs.1
      · exact hnul x hx) henc
  rw [hd]
  simp only [if_true, List.append_nil]

/-- The parameter base of the first parameter of `f` stands at the end of the text. -/
theorem first_param_base (b : Nat)
    (hb : ((List.replicate MAX_FUNC_NESTING (none : Option Nat)).set 0 (some 2)).getD 0 none
      = some b) :
    b ≤ ("f(".toList).length ∧ ∀ x ∈ ("f(".toList).drop b, plain_char x = true := by
  have e : ((List.replicate MAX_FUNC_NESTING (none : Option Nat)).set 0 (some 2)).getD 0 none
      = some 2 := by decide
  rw [e] at hb
  have hb2 : 2 = b := Option.some.inj hb
  subst hb2
  refine ⟨by decide, ?_⟩
  intro x hx
  cases hx

/-- The cursor behind the name of the function `f`. -/
theorem first_param_at (pl : List Char) (sz : Nat) (l : List Char) (n : Int)
    (pb : List (Option Nat)) :
    At (⟨true, pl, sz, "_Z".toList ++ ('1' :: 'f' :: l), 4, n, false, [], 0, pb, [], []⟩
      : Mangle) l :=
  ⟨by simp [String.toList], rfl⟩

/-- The function `f` with a pointer to a builtin type as its parameter. -/
theorem demangle_pointer_param (g : Nat) (plain : List Char) (size : Nat) (rc pc : Char)
    (R P : List Char) (hr : builtin_name rc = some R) (hp : builtin_name pc = some P)
    (hsize : ("f(".toList ++ R ++ " (S::*)(".toList ++ P ++ "))".toList).length < size) :
    demangle (g + 8) plain size ("_Z1fP".toList ++ [rc])
      = Res.ok (true, "f(".toList ++ R ++ "*)".toList) := by
  have hsz : R.length + P.length + 12 < size := by
    simp only [String.toList, List.length_append, List.length_cons, List.length_nil] at hsize
    omega
  have hrn := (builtin_name_not_special rc R hr).1
  have hpn := (builtin_name_not_special pc P hp).1
  have hPl : (if pc = 'v' then [] else P).length ≤ P.length := by
    split <;> simp
  have hty := type_pointer_builtin_run (g + 4)
    (s := ⟨true, "f(".toList, size, "_Z".toList ++ ('1' :: 'f' :: 'P' :: [rc]), 4, 1,
      false, [], 0, (List.replicate MAX_FUNC_NESTING none).set 0 (some 2), [], []⟩)
    (r := []) rfl (first_param_at _ _ _ _ _) hr
    (by simp only [String.toList, List.length_cons, List.length_nil]; omega)
    (Nat.zero_lt_succ _)
  simp only at hty
  have hd := demangle_single_param (g + 5) plain size 'P' [rc] (R ++ "*".toList) _ _
    (Or.inl rfl)
    (by
      intro x hx
      rw [List.mem_singleton] at hx
      rw [hx]; exact hrn)
    (by simp)
    (by
      intro e
      have := congrArg List.reverse e
      simp [String.toList] at this)
    (by simp only [String.toList, List.length_append, List.length_cons, List.length_nil]; omega)
    hty
  have e1 : "_Z1fP".toList ++ [rc] = "_Z".toList ++ ('1' :: 'f' :: 'P' :: [rc]) := rfl
  rw [e1, hd]
  simp only [String.toList, List.append_assoc, List.cons_append, List.nil_append]

/-- The function `f` with a pointer to a function type as its parameter. -/
theorem demangle_function_pointer_param (g : Nat) (plain : List Char) (size : Nat) (rc pc : Char)
    (R P : List Char) (hr : builtin_name rc = some R) (hp : builtin_name pc = some P)
    (hsize : ("f(".toList ++ R ++ " (S::*)(".toList ++ P ++ "))".toList).length < size) :
    demangle (g + 8) plain size ("_Z1fPF".toList ++ [rc, pc] ++ "E".toList)
      = Res.ok (true, "f(".toList ++ R ++ "(*)(".toList ++ (if pc = 'v' then [] else P)
          ++ "))".toList) := by
  have hsz : R.length + P.length + 12 < size := by
    simp only [String.toList, List.length_append, List.length_cons, List.length_nil] at hsize
    omega
  have hrn := (builtin_name_not_special rc R hr).1
  have hpn := (builtin_name_not_special pc P hp).1
  have hPl : (if pc = 'v' then [] else P).length ≤ P.length := by
    split <;> simp
  have hty := type_function_pointer_run (g + 1)
    (s := ⟨true, "f(".toList, size, "_Z".toList ++ ('1' :: 'f' :: 'P' :: 'F' :: rc :: pc :: 'E' :: []), 4, 1,
      false, [], 0, (List.replicate MAX_FUNC_NESTING none).set 0 (some 2), [], []⟩)
    (r := []) rfl (first_param_at _ _ _ _ _) hr hp rfl first_param_base
    (by simp only [String.toList, List.length_cons, List.length_nil]; omega)
    (by simp)
  simp only at hty
  have hd := demangle_single_param (g + 5) plain size 'P' ('F' :: rc :: pc :: 'E' :: [])
    (R ++ "(*)".toList ++ '(' :: ((if pc = 'v' then [] else P) ++ [')'])) _ _
    (Or.inl rfl)
    (by
      intro x hx
      simp only [List.mem_cons, List.not_mem_nil, or_false] at hx
      rcases hx with e | e | e | e
      · rw [e]; decide
      · rw [e]; exact hrn
      · rw [e]; exact hpn
      · rw [e]; decide)
    (by simp)
    (by
      intro e
      have := congrArg List.reverse e
      simp [String.toList] at this)
    (by
      simp only [String.toList, List.length_append, List.length_cons, List.length_nil]
      omega)
    hty
  have e1 : "_Z1fPF".toList ++ [rc, pc] ++ "E".toList
      = "_Z".toList ++ ('1' :: 'f' :: 'P' :: 'F' :: rc :: pc :: 'E' :: []) := rfl
  rw [e1, hd]
  simp only [String.toList, List.append_assoc, List.cons_append, List.nil_append]

/-- The function `f` with a pointer to a member function of `S` as its parameter. -/
theorem demangle_member_pointer_param (g : Nat) (plain : List Char) (size : Nat) (rc pc : Char)
    (R P : List Char) (hr : builtin_name rc = some R) (hp : builtin_name pc = some P)
    (hsize : ("f(".toList ++ R ++ " (S::*)(".toList ++ P ++ "))".toList).length < size) :
    demangle (g + 8) plain size ("_Z1fM1SF".toList ++ [rc, pc] ++ "E".toList)
      = Res.ok (true, "f(".toList ++ R ++ " (S::*)(".toList ++ (if pc = 'v' then [] else P)
          ++ "))".toList) := by
  have hsz : R.length + P.length + 12 < size := by
    simp only [String.toList, List.length_append, List.length_cons, List.length_nil] at hsize
    omega
  have hrn := (builtin_name_not_special rc R hr).1
  have hpn := (builtin_name_not_special pc P hp).1
  have hPl : (if pc = 'v' then [] else P).length ≤ P.length := by
    split <;> simp
  have h1 : Nat.toDigits 10 "S".toList.length = ['1'] := by decide
  have hat : At (⟨true, "f(".toList, size,
      "_Z".toList ++ ('1' :: 'f' :: 'M' :: '1' :: 'S' :: 'F' :: rc :: pc :: 'E' :: []), 4, 1,
      false, [], 0, (List.replicate MAX_FUNC_NESTING none).set 0 (some 2), [], []⟩ : Mangle)
      ('M' :: (Nat.toDigits 10 "S".toList.length ++
        ("S".toList ++ 'F' :: rc :: pc :: 'E' :: []))) := by
    rw [h1]
    exact first_param_at _ _ _ _ _
  have hty := type_member_pointer_run g "S".toList rfl hat (by decide)
    (by simp only [String.toList, List.length_append, List.length_cons, List.length_nil]; omega)
    hr hp rfl first_param_base
    (by simp only [String.toList, List.length_cons, List.length_nil]; omega)
    (Nat.le_of_ble_eq_true rfl)
  have hS : "S".toList.length = 1 := rfl
  rw [h1] at hty
  simp only [hS, List.length_cons, List.length_nil, Nat.add_assoc, Nat.reduceAdd] at hty
  have hd := demangle_single_param (g + 5) plain size 'M'
    ('1' :: 'S' :: 'F' :: rc :: pc :: 'E' :: [])
    (R ++ " (".toList ++ "S".toList ++ "::*)".toList
      ++ '(' :: ((if pc = 'v' then [] else P) ++ [')'])) _ _
    (Or.inr rfl)
    (by
      intro x hx
      simp only [List.mem_cons, List.not_mem_nil, or_false] at hx
      rcases hx with e | e | e | e | e | e
      · rw [e]; decide
      · rw [e]; decide
      · rw [e]; decide
      · rw [e]; exact hrn
      · rw [e]; exact hpn
      · rw [e]; decide)
    (by simp)
    (by
      intro e
      have := congrArg List.reverse e
      simp [String.toList] at this)
    (by
      simp only [String.toList, List.length_append, List.length_cons, List.length_nil]
      omega)
    hty
  have e1 : "_Z1fM1SF".toList ++ [rc, pc] ++ "E".toList
      = "_Z".toList ++ ('1' :: 'f' :: 'M' :: '1' :: 'S' :: 'F' :: rc :: pc :: 'E' :: [])
    := rfl
  rw [e1, hd]
  simp only [String.toList, List.append_assoc, List.cons_append, List.nil_append]

/-! ## Builtin codes of one and of two letters -/

theorem code_name_spec (cd nm : List Char) (h : code_name cd = some nm) :
    ∃ e ∈ types, e.1.toList = cd ∧ e.2.toList = nm := by
  unfold code_name at h
  cases hi : table_index (fun a => a.toList == cd) types 0 with
  | none => rw [hi] at h; cases h
  | some i =>
    rw [hi] at h
    simp only [Option.map_some', Option.some.injEq] at h
    have hq := (table_index_some _ _ _ _ hi).2
    simp only [Nat.sub_zero, beq_iff_eq] at hq
    rcases getD_mem_or_default types i ("", "") with hm | hm
    · exact ⟨_, hm, hq, h⟩
    · rw [hm] at hq
      have hn : table_index (fun a => a.toList == ("", "").1.toList) types 0 = none := by
        decide
      rw [← hq, hn] at hi
      cases hi

/-- A one-letter code is looked up as before. -/
theorem code_name_single (c : Char) : code_name [c] = builtin_name c := rfl

theorem types_single_not_D : ∀ e ∈ types, e.1.toList.length = 1 → e.1.toList ≠ ['D'] := by
  decide

/-- The first letter of a code of `types` is none of the characters that end a parameter
list, and no letter of a code is NUL. -/
theorem types_code_heads :
    ∀ e ∈ types, (match e.1.toList with
      | [] => false
      | c :: _ => c != NUL && c != '.' && c != '@' && c != 'E' && c != 'I' && !isdigit c)
        = true ∧ e.1.toList.all (fun x => x != NUL) = true := by
  decide

theorem code_name_head (cd nm : List Char) (h : code_name cd = some nm) :
    ∃ c r, cd = c :: r ∧ c ≠ NUL ∧ c ≠ '.' ∧ c ≠ '@' ∧ c ≠ 'E' ∧ c ≠ 'I' ∧
      isdigit c = false ∧ ∀ x ∈ cd, x ≠ NUL := by
  obtain ⟨e, he, h1, -⟩ := code_name_spec cd nm h
  have := types_code_heads e he
  rw [h1] at this
  match cd, this with
  | c :: r, ⟨ha, hb⟩ =>
    simp only [Bool.and_eq_true, bne_iff_ne, ne_eq, Bool.not_eq_true'] at ha
    refine ⟨c, r, rfl, ha.1.1.1.1.1, ha.1.1.1.1.2, ha.1.1.1.2, ha.1.1.2, ha.1.2, ha.2, ?_⟩
    intro x hx
    have := List.all_eq_true.mp hb x hx
    simpa using this

theorem code_name_void (cd : List Char) (h : code_name cd = some "void".toList) :
    cd = ['v'] := by
  obtain ⟨e, he, h1, h2⟩ := code_name_spec cd _ h
  have h3 : e.2 = "void" := String.ext h2
  have h4 := types_void e he h3
  rw [h4] at h1
  exact h1.symm

/-- Run of `is_builtin_type` in front of a builtin code. -/
theorem At.run_is_builtin_code {s : Mangle} {cd r nm : List Char} (h : At s (cd ++ r))
    (hc : code_name cd = some nm) :
    ∃ i, is_builtin_type s = Res.ok (some i, s) ∧ (entry types i).1.length = cd.length ∧
      (entry types i).2.toList = nm := by
  obtain ⟨e0, he0, h01, -⟩ := code_name_spec cd nm hc
  unfold code_name at hc
  cases hi : table_index (fun a => a.toList == cd) types 0 with
  | none => rw [hi] at hc; cases hc
  | some i =>
    rw [hi] at hc
    simp only [Option.map_some', Option.some.injEq] at hc
    have hq := (table_index_some _ _ _ _ hi).2
    simp only [Nat.sub_zero, beq_iff_eq] at hq
    have hlen : (entry types i).1.length = cd.length := by
      show (entry types i).1.data.length = cd.length
      have h2 : (entry types i).1.data = cd := hq
      rw [h2]
    refine ⟨i, ?_, hlen, hc⟩
    have hcdl : 1 ≤ cd.length := by
      rcases types_code_shape e0 he0 with ⟨x, hx⟩ | ⟨y, hy⟩
      · rw [← h01, hx]; exact Nat.le_refl _
      · rw [← h01, hy]; simp
    simp only [is_builtin_type, run_bind, h.run_rest, andThen_ok, run_ite, run_pure]
    rw [if_neg (by simp only [List.length_append]; omega)]
    congr 2
    rw [← hi]
    apply table_index_congr
    intro e he
    have hel : e.1.length = e.1.toList.length := rfl
    rw [hel]
    rcases types_code_shape e0 he0 with ⟨c, hcd⟩ | ⟨d, hcd⟩
    · rw [h01] at hcd
      subst hcd
      have hD : c ≠ 'D' := by
        intro e2
        exact types_single_not_D e0 he0 (by rw [h01]; rfl) (by rw [h01, e2])
      rcases types_code_shape e he with ⟨x, hx⟩ | ⟨y, hy⟩
      · rw [hx]
        by_cases hxc : x = c
        · subst hxc; simp [List.isPrefixOf]
        · simp [List.isPrefixOf, hxc]
      · rw [hy]
        simp [List.isPrefixOf, hD.symm]
    · rw [h01] at hcd
      subst hcd
      rcases types_code_shape e he with ⟨x, hx⟩ | ⟨y, hy⟩
      · have hxD : x ≠ 'D' := by
          intro e2
          exact types_single_not_D e he (by rw [hx]; rfl) (by rw [hx, e2])
        rw [hx]
        simp [List.isPrefixOf, hxD]
      · rw [hy]
        by_cases hyd : y = d
        · subst hyd; simp [List.isPrefixOf]
        · simp [List.isPrefixOf, hyd]

/-- Run of `_type` on a builtin code of one or two letters. -/
theorem type_code_run (fuel : Nat) {s : Mangle} {cd r n : List Char}
    (hv : s.valid = true) (h : At s (cd ++ r)) (hc : code_name cd = some n)
    (hfit : s.plain.length + n.length < s.size) :
    _type (fuel + 1) s = Res.ok ((), { s with
      valid := true, plain := s.plain ++ n, mpos := s.mpos + cd.length }) := by
  obtain ⟨i, h1, h2, h3⟩ := h.run_is_builtin_code hc
  simp only [_type, run_bind, run_getS, andThen_ok, hv, if_true, current_position, run_pure, h1,
    h2, h3, advance, run_modifyS, Demangle.append]
  rw [Mangle.append_fits _ _ (by simpa [Mangle.setMpos] using hv)
    (by simpa [Mangle.setMpos] using hfit)]
  simp only [Mangle.setMpos, hv]

/-- The parameter loop of `_function_encoding` at function nesting level zero on builtin
codes of one or two letters, when the list is not the lone code `v`. -/
theorem function_encoding_loop_codes : ∀ (cds : List (List Char)) (fuel count : Nat)
    (s : Mangle),
    cds.length + 1 ≤ fuel → s.valid = true → At s cds.flatten → s.func_nest = 0 →
    (∀ cd ∈ cds, (code_name cd).isSome = true) →
    (count = 0 → cds ≠ [['v']]) →
    s.plain.length + (codes_text count cds).length < s.size →
    ∃ pb, function_encoding_loop fuel count s = Res.ok ((), { s with
      valid := true, plain := s.plain ++ codes_text count cds,
      mpos := s.mpos + cds.flatten.length, parameter_base := pb }) := by
  intro cds
  induction cds with
  | nil =>
    intro fuel count s hf hv h hfn _ _ _
    obtain ⟨f, rfl⟩ : ∃ f, fuel = f + 1 := ⟨fuel - 1, by simp at hf; omega⟩
    refine ⟨s.parameter_base, ?_⟩
    have h' : At s [] := h
    simp only [function_encoding_loop, run_bind, h'.run_on_sentinel_nil, andThen_ok, if_true,
      run_pure, codes_text, List.append_nil, List.flatten_nil, List.length_nil, Nat.add_zero,
      ← hv]
  | cons cd r ih =>
    intro fuel count s hf hv h hfn hcodes hcv hfit
    obtain ⟨f, rfl⟩ : ∃ f, fuel = f + 1 + 1 := ⟨fuel - 2, by simp at hf; omega⟩
    obtain ⟨nm, hnm⟩ := Option.isSome_iff_exists.mp (hcodes cd (List.mem_cons_self _ _))
    obtain ⟨c, cr, hcd, n1, n2, n3, -, -, -, -⟩ := code_name_head cd nm hnm
    have h0 : At s (cd ++ r.flatten) := h
    have h1 : At s (c :: (cr ++ r.flatten)) := by rw [hcd] at h0; exact h0
    have hos := h1.run_on_sentinel_false hv n1 n2 n3
    simp only [codes_text, hnm, Option.getD_some, List.length_append] at hfit
    obtain ⟨v, p, sz, m, k, n, tc, q, fn, pb0, ss, ts⟩ := s
    simp only at hv hfn hfit
    subst hv hfn
    have hspb : set_parameter_base p.length ⟨true, p, sz, m, k, n, tc, q, 0, pb0, ss, ts⟩
        = Res.ok ((), ⟨true, p, sz, m, k, n, tc, q, 0, pb0.set 0 (some p.length), ss, ts⟩) := by
      simp only [set_parameter_base, run_bind, run_getS, andThen_ok, run_ite]
      rw [if_pos (by decide), run_modifyS]
      rfl
    have hca := cond_append_run count
      ⟨true, p, sz, m, k, n, tc, q, 0, pb0.set 0 (some p.length), ss, ts⟩ rfl (by simp only; omega)
    simp only at hca
    have hty := type_code_run f
      (s := ⟨true, p ++ (if count > 0 then ",".toList else []), sz, m, k, n, tc, q, 0,
        pb0.set 0 (some p.length), ss, ts⟩) (r := r.flatten) (n := nm)
      rfl ⟨h0.1, h0.2⟩ hnm (by simp only [List.length_append]; omega)
    simp only at hty
    have hz : ¬ ((0 : Int) > 0) := by decide
    have hat3 : At ⟨true, p ++ ((if count > 0 then ",".toList else []) ++ nm), sz, m,
        k + cd.length, n, tc, q, 0, pb0.set 0 (some p.length), ss, ts⟩ r.flatten := by
      have := h0.moved cd.length (by simp)
      refine ⟨this.1, ?_⟩
      have h2 := this.2
      rw [List.drop_left] at h2
      exact h2
    obtain ⟨pb, hih⟩ := ih (f + 1) (count + 1)
      ⟨true, p ++ ((if count > 0 then ",".toList else []) ++ nm), sz, m, k + cd.length, n,
        tc, q, 0, pb0.set 0 (some p.length), ss, ts⟩
      (by simp only [List.length_cons] at hf; omega) rfl hat3 rfl
      (fun c hc => hcodes c (List.mem_cons_of_mem _ hc)) (fun h0 => by omega)
      (by simp only [List.length_append]; omega)
    simp only at hih
    refine ⟨pb, ?_⟩
    rw [function_encoding_loop]
    simp only [run_bind, hos, andThen_ok, Bool.false_eq_true, if_false,
      run_getS, hz, run_pure, current_position, hspb, ite_bind_run, hca, hty,
      text_at, List.drop_append_of_le_length, List.append_assoc, List.drop_left]
    have hfin : (⟨true, p ++ ((if count > 0 then ",".toList else []) ++
          (nm ++ codes_text (count + 1) r)), sz, m, k + cd.length + r.flatten.length, n, tc, q,
          0, pb, ss, ts⟩ : Mangle)
        = ⟨true, p ++ codes_text count (cd :: r), sz, m, k + (cd :: r).flatten.length, n, tc,
            q, 0, pb, ss, ts⟩ := by
      simp only [codes_text, hnm, Option.getD_some, List.append_assoc, List.flatten_cons,
        List.length_append, Mangle.mk.injEq, true_and, and_true]
      omega
    by_cases hcond : (decide (count = 0) &&
        (if count > 0 then ",".toList else []) ++ nm == "void".toList) = true
    · rw [run_ite, if_pos hcond]
      simp only [Bool.and_eq_true, decide_eq_true_eq, beq_iff_eq] at hcond
      obtain ⟨hc0, hvoid⟩ := hcond
      subst hc0
      simp only [gt_iff_lt, lt_self_iff_false, if_false, List.nil_append] at hvoid
      subst hvoid
      have hcv' := code_name_void cd hnm
      cases r with
      | nil => rw [hcv'] at hcv; exact absurd rfl (hcv rfl)
      | cons cd2 r2 =>
        obtain ⟨nm2, hnm2⟩ :=
          Option.isSome_iff_exists.mp
            (hcodes cd2 (List.mem_cons_of_mem _ (List.mem_cons_self _ _)))
        obtain ⟨c2, cr2, hcd2, m1, m2, m3, -, -, -, -⟩ := code_name_head cd2 nm2 hnm2
        have hat4 : At ⟨true, p ++ ((if 0 > 0 then ",".toList else []) ++ "void".toList), sz, m,
            k + cd.length, n, tc, q, 0, pb0.set 0 (some p.length), ss, ts⟩
            (c2 :: (cr2 ++ r2.flatten)) := by
          have := hat3
          rw [List.flatten_cons, hcd2] at this
          exact this
        have hos2 := hat4.run_on_sentinel_false rfl m1 m2 m3
        simp only [gt_iff_lt, lt_self_iff_false, if_false, List.nil_append] at hos2 hih hfin ⊢
        simp only [run_bind, hos2, andThen_ok, run_getS, Bool.false_eq_true, if_false, hz,
          run_pure, hih, List.append_assoc, gt_iff_lt, lt_self_iff_false]
        rw [← hfin]
    · rw [run_ite, if_neg hcond]
      simp only [run_bind, run_pure, andThen_ok, hih, List.append_assoc]
      rw [← hfin]

/-- The parameter loop of a function encoding at nesting level zero on builtin codes of
one or two letters, from the first parameter on. -/
theorem function_encoding_loop_codes_top (cds : List (List Char)) (fuel : Nat) (s : Mangle)
    (hf : cds.length + 1 ≤ fuel) (hv : s.valid = true) (h : At s cds.flatten)
    (hfn : s.func_nest = 0)
    (hcodes : ∀ cd ∈ cds, (code_name cd).isSome = true) (hne : cds ≠ [])
    (hfit : s.plain.length + (codes_text 0 cds).length < s.size) :
    ∃ pb, function_encoding_loop fuel 0 s = Res.ok ((), { s with
      valid := true, plain := s.plain ++ shown_codes cds, mpos := s.mpos + cds.flatten.length,
      parameter_base := pb }) := by
  by_cases hvd : cds = [['v']]
  · subst hvd
    have hfit4 : s.plain.length + 4 < s.size := by
      have e : (codes_text 0 [['v']]).length = 4 := by decide
      rw [e] at hfit; exact hfit
    obtain ⟨pb, hl⟩ := function_encoding_loop_void fuel s hf hv h hfn hfit4
    refine ⟨pb, ?_⟩
    rw [hl]
    simp only [shown_codes, if_true, List.append_nil, List.flatten_cons, List.flatten_nil,
      List.length_cons, List.length_nil]
  · obtain ⟨pb, hl⟩ := function_encoding_loop_codes cds fuel 0 s hf hv h hfn hcodes
      (fun _ => hvd) hfit
    refine ⟨pb, ?_⟩
    rw [hl]
    simp only [shown_codes, if_neg hvd]

theorem codes_text_succ (count : Nat) (cds : List (List Char)) :
    codes_text (count + 1) cds
      = (cds.map (fun cd => ",".toList ++ (code_name cd).getD [])).flatten := by
  induction cds generalizing count with
  | nil => rfl
  | cons c r ih =>
    simp only [codes_text, Nat.succ_pos, gt_iff_lt, if_true, ih, List.map_cons, List.flatten_cons,
      List.append_assoc]

theorem codes_text_zero (cds : List (List Char)) :
    codes_text 0 cds
      = ",".toList.intercalate (cds.map (fun cd => (code_name cd).getD [])) := by
  cases cds with
  | nil => rfl
  | cons c r =>
    rw [List.map_cons, intercalate_cons, List.map_map]
    simp only [codes_text, gt_iff_lt, lt_self_iff_false, if_false, List.nil_append,
      codes_text_succ, Nat.zero_add]
    rfl

theorem shown_codes_le (cds : List (List Char)) :
    (shown_codes cds).length ≤ (codes_text 0 cds).length := by
  unfold shown_codes; split
  · simp
  · exact Nat.le_refl _

theorem codes_flatten_no_nul (cds : List (List Char))
    (hcodes : ∀ cd ∈ cds, (code_name cd).isSome = true) : ∀ c ∈ cds.flatten, c ≠ NUL := by
  intro c hc
  obtain ⟨cd, hcd, hc2⟩ := List.mem_flatten.mp hc
  obtain ⟨nm, hnm⟩ := Option.isSome_iff_exists.mp (hcodes cd hcd)
  obtain ⟨_, _, _, _, _, _, _, _, _, hall⟩ := code_name_head cd nm hnm
  exact hall c hc2

/-- Run of `_function_encoding` on the nested name of a constructor (`k` is `C`) or a
destructor (`k` is `D`) of the class `C`, followed by builtin codes of one or two letters. -/
theorem ctor_encoding_codes_run (g : Nat) (s : Mangle) (C : List Char)
    (cds : List (List Char)) (k : Char)
    (hk : k = 'C' ∨ k = 'D')
    (hv : s.valid = true) (hp : s.plain = []) (hn : s.nest = 0) (hfn : s.func_nest = 0)
    (htc : s.is_typecast_op = false) (hss : s.substitions = [])
    (h : At s ('N' :: ([] ++ (source_code C ++ k :: '1' :: 'E' :: cds.flatten))))
    (hid : is_identifier C = true)
    (hcodes : ∀ cd ∈ cds, (code_name cd).isSome = true) (hne : cds ≠ [])
    (hlen : C.length + cds.flatten.length < 2147483640)
    (hfit : C.length + 3 + C.length + 1 + (codes_text 0 cds).length + 1 < s.size)
    (hfuel : cds.length ≤ g + 3) :
    ∃ t, _function_encoding (g + 5) s = Res.ok ((), t) ∧ t.valid = true ∧
      t.plain = C ++ "::".toList ++ ((if k = 'D' then "~".toList else []) ++ C) ++
        ("(".toList ++ (shown_codes cds ++ ")".toList)) := by
  obtain ⟨hCne, hCid, -⟩ := identifier_chars C hid
  obtain ⟨cd1, rest1, hcds⟩ := List.exists_cons_of_ne_nil hne
  obtain ⟨nm1, hnm1⟩ :=
    Option.isSome_iff_exists.mp (hcodes cd1 (by rw [hcds]; exact List.mem_cons_self _ _))
  obtain ⟨c1, cr1, hcd1, n1, n2, n3, -, -, -, -⟩ := code_name_head cd1 nm1 hnm1
  have hcs : cds.flatten = c1 :: (cr1 ++ rest1.flatten) := by
    rw [hcds, List.flatten_cons, hcd1]; rfl
  obtain ⟨v, p, sz, m, mp, n, tc, q0, fn, pb0, ss, ts⟩ := s
  simp only at hv hp hn hfn htc hss hfit
  subst hv hp hn hfn htc hss
  have htl : (if k = 'D' then "~".toList else []).length ≤ 1 := by
    split <;> simp [String.toList]
  have hcolon : "::".toList.length = 2 := rfl
  have hkMI : k ≠ 'M' ∧ k ≠ 'I' := by
    rcases hk with e | e <;> rw [e] <;> decide
  have hkE : k ≠ 'E' := by
    rcases hk with e | e <;> rw [e] <;> decide
  have hcd : (k = 'C' ∧ (('1' : Char) = '1' ∨ ('1' : Char) = '2' ∨ ('1' : Char) = '3')) ∨
      (k = 'D' ∧ (('1' : Char) = '0' ∨ ('1' : Char) = '1' ∨ ('1' : Char) = '2')) := by
    rcases hk with e | e
    · exact Or.inl ⟨e, Or.inl rfl⟩
    · exact Or.inr ⟨e, Or.inr (Or.inl rfl)⟩
  -- the cursor behind the class name
  have hat1 : At (⟨true, [] ++ C, sz, m,
      mp + 1 + ([] : List Char).length + (Nat.toDigits 10 C.length).length + C.length, 1, false,
      q0, 0, pb0, [] ++ [C], ts⟩ : Mangle) (k :: '1' :: 'E' :: cds.flatten) := by
    have h2 : At (⟨true, [], sz, m, mp + 1, 0, false, q0, 0, pb0, [], ts⟩ : Mangle)
        (source_code C ++ k :: '1' :: 'E' :: cds.flatten) := ⟨h.next.1, h.next.2⟩
    have := At.after_source (w := C) h2 ([] ++ C)
    exact ⟨this.1, this.2⟩
  have hun := unqualified_ctor_run g (s := ⟨true, [] ++ C ++ "::".toList, sz, m,
      mp + 1 + ([] : List Char).length + (Nat.toDigits 10 C.length).length + C.length, 1, false,
      q0, 0, pb0, [] ++ [C], ts⟩) [] C k '1' ('E' :: cds.flatten) rfl ⟨hat1.1, hat1.2⟩ rfl hCne hCid
    (by intro x hx; cases hx) hcd
    (by simp only [List.length_append, List.nil_append, hcolon]; omega)
  simp only at hun
  have hat2 : At (⟨true, [] ++ C ++ "::".toList ++ ((if k = 'D' then "~".toList else []) ++ C),
      sz, m,
      mp + 1 + ([] : List Char).length + (Nat.toDigits 10 C.length).length + C.length + 2, 1,
      false, q0, 0, pb0, [] ++ [C], ts⟩ : Mangle) ('E' :: cds.flatten) := by
    have := hat1.moved 2 (by simp)
    exact ⟨this.1, this.2⟩
  have hloop := nested_name_loop_last (g + 1) ([] : List Char).length (s := ⟨true, [] ++ C, sz, m,
      mp + 1 + ([] : List Char).length + (Nat.toDigits 10 C.length).length + C.length, 1, false,
      q0, 0, pb0, [] ++ [C], ts⟩) rfl hat1 hkMI
    (by simp only [List.length_append, List.nil_append]; omega) hun rfl hat2
    (by simp)
  have h1gt : ¬ ((1 : Int) > 1) := by decide
  simp only [h1gt, if_false] at hloop
  have hnn := nested_name_head (g + 1) (s := ⟨true, [], sz, m, mp, 0, false, q0, 0, pb0, [], ts⟩)
    [] C ('1' :: 'E' :: cds.flatten) k (Or.inl rfl) rfl rfl h hid hkE
    (by simp only [List.length_cons]; omega)
    (by simp only [List.length_nil]; omega) (by simp) hloop rfl
  simp only at hnn
  have hname := name_nested_run (g + 3) rfl h hnn
  have hat3 : At (⟨true, [] ++ C ++ "::".toList ++ ((if k = 'D' then "~".toList else []) ++ C),
      sz, m,
      mp + 1 + ([] : List Char).length + (Nat.toDigits 10 C.length).length + C.length + 2 + 1,
      0, false, [], 0, pb0, [] ++ [C], ts⟩ : Mangle) (c1 :: (cr1 ++ rest1.flatten)) := by
    have := hat2.next
    rw [hcs] at this
    exact ⟨this.1, this.2⟩
  have hlast := (pchar_last_ident
    ([] ++ C ++ "::".toList ++ (if k = 'D' then "~".toList else [])) C hid).1
  simp only [← List.append_assoc] at hlast
  have hplen : ([] ++ C ++ "::".toList ++ ((if k = 'D' then "~".toList else []) ++ C)).length
      ≤ C.length + 3 + C.length := by
    simp only [List.length_append, List.nil_append, hcolon]; omega
  obtain ⟨pb, hfl⟩ := function_encoding_loop_codes_top cds (g + 4)
    ⟨true, [] ++ C ++ "::".toList ++ ((if k = 'D' then "~".toList else []) ++ C) ++ "(".toList,
      sz, m,
      mp + 1 + ([] : List Char).length + (Nat.toDigits 10 C.length).length + C.length + 2 + 1,
      1, false, [], 0, pb0, [] ++ [C], ts⟩
    (by omega) rfl (by rw [hcs]; exact ⟨hat3.1, hat3.2⟩) rfl hcodes hne
    (by
      have : ("(".toList).length = 1 := rfl
      simp only [List.length_append, this] at hplen ⊢
      omega)
  simp only at hfl
  have hsl := shown_codes_le cds
  have hfr := function_encoding_frame (g + 4) hname rfl rfl hat3 ⟨n1, n2, n3⟩
    (by simp [hCne])
    (by simpa [List.append_assoc] using hlast)
    (by simp only at hplen ⊢; omega) hfl rfl rfl (Or.inl rfl)
    (by
      have : ("(".toList).length = 1 := rfl
      simp only [List.length_append, this, if_true] at hplen ⊢
      omega)
  refine ⟨_, hfr, rfl, ?_⟩
  simp only [List.nil_append, if_true, List.append_nil, List.append_assoc]

/-- The whole of `demangle` on the nested name of a constructor or destructor with
builtin codes of one or two letters as parameters. -/
theorem demangle_ctor_codes_run (fuel : Nat) (plain : List Char) (size : Nat) (C : List Char)
    (cds : List (List Char)) (k : Char) (hk : k = 'C' ∨ k = 'D')
    (hid : is_identifier C = true)
    (hcodes : ∀ cd ∈ cds, (code_name cd).isSome = true) (hne : cds ≠ [])
    (hlen : C.length + cds.flatten.length < 2147483640)
    (hsize : 2 * C.length + 5 +
      (",".toList.intercalate (cds.map (fun cd => (code_name cd).getD []))).length < size)
    (hfuel : 5 ≤ fuel ∧ cds.length + 2 ≤ fuel) :
    demangle fuel plain size ("_Z".toList ++ ('N' :: ([] ++ (source_code C ++
        k :: '1' :: 'E' :: cds.flatten))))
      = Res.ok (true,
          C ++ "::".toList ++ ((if k = 'D' then "~".toList else []) ++ C) ++
            ("(".toList ++ (shown_codes cds ++ ")".toList))) := by
  obtain ⟨g, rfl⟩ : ∃ g, fuel = g + 5 := ⟨fuel - 5, by omega⟩
  have hat := initial_at size ('N' :: ([] ++ (source_code C ++ k :: '1' :: 'E' :: cds.flatten)))
  obtain ⟨t, ht, htv, htp⟩ := ctor_encoding_codes_run g _ C cds k hk rfl rfl rfl rfl rfl rfl hat
    hid hcodes hne hlen
    (by rw [codes_text_zero]; simp only [initial]; omega) (by omega)
  have henc := encoding_plain_run (g + 5) _ 'N' _ rfl hat (by decide)
  rw [ht] at henc
  have hd := demangle_of_encoding (g + 5) plain size _ t (by omega)
    (by
      intro c hc
      simp only [List.nil_append, List.mem_cons, List.mem_append] at hc
      rcases hc with e | hc | e | e | e | hc
      · rw [e]; decide
      · exact source_code_no_nul C hid c hc
      · rw [e]; rcases hk with e2 | e2 <;> rw [e2] <;> decide
      · rw [e]; decide
      · rw [e]; decide
      · exact codes_flatten_no_nul cds hcodes c hc) henc
  rw [hd, htv, htp]

/-- C13: for a C identifier `C` and a non-empty list `codes` of builtin type codes, each a
code of one or two letters of the table `types`, `demangle` on `_ZN`, the decimal length
of `C`, `C`, `C1E` and the codes returns true with `C::C(` + the builtin names joined by
commas + `)`, and with `D1E` in place of `C1E` it returns true with `C::~C(` + the names +
`)`; a lone code `v` leaves the parentheses empty.  The capacity is taken above the length
of the destructor text with all parameter names written, the input shorter than the range
of `int`, and the step budget at least five and two more than the number of codes. -/
theorem demangle_ctor_dtor (fuel : Nat) (plain : List Char) (size : Nat) (C : List Char)
    (codes : List (List Char))
    (hid : is_identifier C = true)
    (hcodes : ∀ cd ∈ codes, (code_name cd).isSome = true) (hne : codes ≠ [])
    (hlen : C.length + codes.flatten.length < 2147483640)
    (hsize : 2 * C.length + 5 +
      (",".toList.intercalate (codes.map (fun cd => (code_name cd).getD []))).length < size)
    (hfuel : 5 ≤ fuel ∧ codes.length + 2 ≤ fuel) :
    demangle fuel plain size
        ("_ZN".toList ++ (Nat.toDigits 10 C.length ++ C) ++ "C1E".toList ++ codes.flatten)
      = Res.ok (true, C ++ "::".toList ++ C ++ "(".toList ++
          (if codes = [['v']] then []
            else ",".toList.intercalate (codes.map (fun cd => (code_name cd).getD []))) ++
          ")".toList) ∧
    demangle fuel plain size
        ("_ZN".toList ++ (Nat.toDigits 10 C.length ++ C) ++ "D1E".toList ++ codes.flatten)
      = Res.ok (true, C ++ "::~".toList ++ C ++ "(".toList ++
          (if codes = [['v']] then []
            else ",".toList.intercalate (codes.map (fun cd => (code_name cd).getD []))) ++
          ")".toList) := by
  have h1 := demangle_ctor_codes_run fuel plain size C codes 'C' (Or.inl rfl) hid hcodes hne
    hlen hsize hfuel
  have h2 := demangle_ctor_codes_run fuel plain size C codes 'D' (Or.inr rfl) hid hcodes hne
    hlen hsize hfuel
  have e1 : "_ZN".toList ++ (Nat.toDigits 10 C.length ++ C) ++ "C1E".toList ++ codes.flatten
      = "_Z".toList ++ ('N' :: ([] ++ (source_code C ++ 'C' :: '1' :: 'E' :: codes.flatten)))
      := by
    simp [String.toList, source_code]
  have e2 : "_ZN".toList ++ (Nat.toDigits 10 C.length ++ C) ++ "D1E".toList ++ codes.flatten
      = "_Z".toList ++ ('N' :: ([] ++ (source_code C ++ 'D' :: '1' :: 'E' :: codes.flatten)))
      := by
    simp [String.toList, source_code]
  rw [e1, e2, h1, h2]
  have hC : ¬ (('C' : Char) = 'D') := by decide
  simp only [shown_codes, codes_text_zero, hC, if_false, if_true, List.nil_append,
    List.append_assoc, String.toList, List.cons_append, and_self]

theorem demangle_ctor_dtor_witness :
    demangle 20 [] 256 "_ZN10GameOfLifeC1Eii".toList
        = Res.ok (true, "GameOfLife::GameOfLife(int,int)".toList) ∧
      demangle 20 [] 256 "_ZN10GameOfLifeD1Eii".toList
        = Res.ok (true, "GameOfLife::~GameOfLife(int,int)".toList) :=
  demangle_ctor_dtor 20 [] 256 "GameOfLife".toList [['i'], ['i']] (by decide) (by decide)
    (by decide) (by decide) (by decide) (by decide)

/-! ## The two tables -/

/-- The return state of a production is reached by primitive updates. -/
theorem production_run_reach {fuel : Nat} {s t : Mangle} (h : production_run fuel s t) :
    Reach s t := by
  have P := productions_sound fuel
  rcases h with h | h | h | h | h | h | h | h | h | h | h | h | h | h | h | h | h | h | h | h |
    h | ⟨q, h⟩ | ⟨n, b, q, h⟩
  · exact (Sound.encoding fuel).run _ _ _ h
  · exact P.p_function_encoding.run _ _ _ h
  · exact P.p_name.run _ _ _ h
  · exact P.p_nested_name.run _ _ _ h
  · exact P.p_local_name.run _ _ _ h
  · exact P.p_unqualified_name.run _ _ _ h
  · exact P.p_operator.run _ _ _ h
  · exact P.p_type.run _ _ _ h
  · exact P.p_function_type.run _ _ _ h
  · exact P.p_pointer_to_member_type.run _ _ _ h
  · exact P.p_array.run _ _ _ h
  · exact P.p_template_args.run _ _ _ h
  · exact P.p_extended_qualifier.run _ _ _ h
  · exact Sound.source_name.run _ _ _ h
  · exact Sound.substitution.run _ _ _ h
  · exact Sound.template_param.run _ _ _ h
  · exact Sound.ctor_dtor_name.run _ _ _ h
  · exact Sound.unnamed_type_name.run _ _ _ h
  · exact Sound.expr_primary.run _ _ _ h
  · exact Sound.discriminator.run _ _ _ h
  · exact Sound.decltype.run _ _ _ h
  · exact (Sound.qualifier_post q).run _ _ _ h
  · exact (Sound.qualifier_pre n b).run _ _ _ h

theorem Step.subst_extends {s t : Mangle} (h : Step s t) :
    s.substitions <+: t.substitions := by
  cases h <;> try exact List.prefix_refl _
  · unfold Mangle.append; split_ifs <;> exact List.prefix_refl _
  · unfold Mangle.splice; split_ifs <;> exact List.prefix_refl _
  · exact List.prefix_append _ _

theorem Reach.table_extends {s t : Mangle} (h : Reach s t) :
    s.substitions <+: t.substitions := by
  induction h with
  | refl => exact List.prefix_refl _
  | tail _ hst ih => exact ih.trans hst.subst_extends

theorem Step.bounds_kept {s t : Mangle} (h : Step s t) (hs : tables_bounded s) :
    tables_bounded t := by
  cases h <;> try exact hs
  · unfold Mangle.append; split_ifs <;> exact hs
  · unfold Mangle.splice; split_ifs <;> exact hs
  · rename_i text hv hlt
    refine ⟨?_, hs.2⟩
    simp only [Mangle.pushSubst, List.length_append, List.length_cons, List.length_nil]
    omega
  · rename_i text hv hlt hlt2
    refine ⟨hs.1, ?_⟩
    simp only [Mangle.pushTpl, List.length_append, List.length_cons, List.length_nil]
    omega
  · rename_i k hk
    refine ⟨hs.1, ?_⟩
    have := hs.2
    simp only [Mangle.dropTpl, List.length_drop]
    omega

theorem Reach.tables_stay_bounded {s t : Mangle} (h : Reach s t) (hs : tables_bounded s) :
    tables_bounded t := by
  induction h with
  | refl => exact hs
  | tail _ hst ih => exact hst.bounds_kept ih

theorem initial_bounded (size : Nat) (mangled : List Char) :
    tables_bounded (initial size mangled) :=
  ⟨Nat.zero_le _, Nat.zero_le _⟩

/-- Run of `_function_encoding` on a name that ends the input, at function nesting level
zero: the data-symbol branch returns without a look at the text. -/
theorem function_encoding_data (fuel : Nat) {s t : Mangle}
    (hname : _name fuel s = Res.ok ((), t)) (hat : At t []) (hfn : t.func_nest = 0) :
    _function_encoding (fuel + 1) s = Res.ok ((), t) := by
  have hz : ¬ ((0 : Int) > 0) := by decide
  rw [_function_encoding]
  simp only [run_bind, hname, andThen_ok, hat.run_on_sentinel_nil, run_getS, if_true, run_pure,
    hfn, hz, if_false]

/-- The whole of `demangle` on `_Z0`, for every capacity. -/
theorem demangle_empty_name (g : Nat) (plain : List Char) (size : Nat) (hsize : 0 < size) :
    demangle (g + 2) plain size "_Z0".toList = Res.ok (true, []) := by
  have hat := initial_at size ['0']
  have hname := name_source_run g (s := initial size ("_Z".toList ++ ['0'])) [] [] rfl hat
    (by intro c hc; cases hc) (by decide) (by simpa [initial] using hsize) (by decide)
  have hat1 : At ({ initial size ("_Z".toList ++ ['0']) with
      plain := (initial size ("_Z".toList ++ ['0'])).plain ++ [],
      mpos := (initial size ("_Z".toList ++ ['0'])).mpos +
        (Nat.toDigits 10 ([] : List Char).length).length + ([] : List Char).length } : Mangle)
      [] := by
    have := hat.moved 1 (by simp)
    exact ⟨this.1, this.2⟩
  have hfe := function_encoding_data (g + 1) hname hat1 rfl
  have hat2 : At (initial size ("_Z".toList ++ ['0'])) ('0' :: []) := hat
  have henc := encoding_digit_run (g + 2) _ '0' _ rfl hat2 (by decide)
  rw [hfe] at henc
  have hd := demangle_of_encoding (g + 2) plain size ['0'] _ hsize
    (by intro c hc; rw [List.mem_singleton] at hc; rw [hc]; decide) henc
  exact hd

/-- C25: a source name of length zero leaves the output empty and is accepted all the
same.  For every capacity and every step budget from two on, `demangle` on `_Z0` returns
true with the empty text: `_function_encoding` returns at the end of the input before it
tests whether the name is empty.  The same holds in front of a clone suffix, in front of
a library suffix, for a second `0` and after `L`. -/
theorem empty_name_accepted :
    (∀ (fuel : Nat) (plain : List Char) (size : Nat), 0 < size → 2 ≤ fuel →
      demangle fuel plain size "_Z0".toList = Res.ok (true, [])) ∧
    demangle 20 [] 256 "_Z0.clone".toList = Res.ok (true, []) ∧
    demangle 20 [] 256 "_Z0@@VER".toList = Res.ok (true, []) ∧
    demangle 20 [] 256 "_Z00".toList = Res.ok (true, []) ∧
    demangle 20 [] 256 "_ZL0".toList = Res.ok (true, []) := by
  refine ⟨?_, by decide!, by decide!, by decide!, by decide!⟩
  intro fuel plain size hsize hfuel
  obtain ⟨g, rfl⟩ : ∃ g, fuel = g + 2 := ⟨fuel - 2, by omega⟩
  exact demangle_empty_name g plain size hsize

theorem empty_name_accepted_witness :
    demangle 2 "old".toList 1 "_Z0".toList = Res.ok (true, []) :=
  empty_name_accepted.1 2 "old".toList 1 (by decide) (by decide)

/-! ## The partner of a bracket -/

/-- Run of `find_matching` in terms of its scan. -/
theorem find_matching_run (txt : List Char) (head tail : Nat) (c m : Char) (fwd : Bool)
    (s : Mangle) (hle : head ≤ tail) (hb : bracket c = some (m, fwd)) :
    find_matching txt head tail c s
      = Res.ok ((if pchar txt (find_matching_scan txt c m fwd (if fwd then tail else head)
            (tail - head + 1) (if fwd then head else tail) 0) == m
          then some (find_matching_scan txt c m fwd (if fwd then tail else head)
            (tail - head + 1) (if fwd then head else tail) 0)
          else none), s) := by
  simp only [find_matching, run_bind, run_cassert, hle, decide_True, if_true, andThen_ok, hb,
    run_pure]

/-- C27: `find_matching` does not count the bracket it starts from, so the first closer
behind a nested opener ends the scan.  On the text `(a(b)c)` the scan forward from the
first `(` returns the offset 4 of the inner `)`, not the offset 6 of the partner, and the
scan backward from the last `)` returns the offset 2 of the inner `(`, not 0.  Without
nesting the partner is found, and without a partner in the slice the result is null.  In
`demangle` the pointer decorator of a pointer to a function that takes a pointer to a
function goes into the inner parameter list. -/
theorem find_matching_nested (s : Mangle) :
    find_matching "(a(b)c)".toList 0 6 '(' s = Res.ok (some 4, s) ∧
    find_matching "(a(b)c)".toList 0 6 ')' s = Res.ok (some 2, s) ∧
    find_matching "(abc)".toList 0 4 '(' s = Res.ok (some 4, s) ∧
    find_matching "(abc".toList 0 3 '(' s = Res.ok (none, s) ∧
    demangle 20 [] 256 "_Z1fPFvPFvvEE".toList
      = Res.ok (true, "f(void(void(*)(*)()))".toList) := by
  refine ⟨?_, ?_, ?_, ?_, by decide!⟩
  · rw [find_matching_run _ 0 6 '(' ')' true s (by decide) (by decide)]; rfl
  · rw [find_matching_run _ 0 6 ')' '(' false s (by decide) (by decide)]; rfl
  · rw [find_matching_run _ 0 4 '(' ')' true s (by decide) (by decide)]; rfl
  · rw [find_matching_run _ 0 3 '(' ')' true s (by decide) (by decide)]; rfl

/-! ## The guards of `add_substitution` -/

/-- C28: `add_substitution` with the template flag tests the count of the type
substitutions against the capacity of the template-parameter table.  In a valid state with
fewer than 10 template parameters the text is appended to the template-parameter table
when there are fewer than 10 type substitutions, and the call changes nothing when there
are 10 or more; with the type flag the text is appended whenever the substitution table
holds fewer than 20 entries.  When the selected table is full the assertion in front of
the test fails.  So `_Z1fIPPPPPPPPPiEvT_`, where the name and the nine pointers make 10
substitutions in front of the end of the template argument, loses its template parameter
and fails at `T_`, while with eight pointers the parameter is found. -/
theorem add_substitution_wrong_counter :
    (∀ (s : Mangle) (text : List Char), s.valid = true → s.tpl_subst.length < 10 →
      10 ≤ s.substitions.length → add_substitution text true s = Res.ok ((), s)) ∧
    (∀ (s : Mangle) (text : List Char), s.valid = true → s.tpl_subst.length < 10 →
      s.substitions.length < 10 →
      add_substitution text true s
        = Res.ok ((), { s with tpl_subst := s.tpl_subst ++ [text] })) ∧
    (∀ (s : Mangle) (text : List Char), s.valid = true → s.substitions.length < 20 →
      add_substitution text false s
        = Res.ok ((), { s with substitions := s.substitions ++ [text] })) ∧
    (∀ (s : Mangle) (text : List Char), s.valid = true → 10 ≤ s.tpl_subst.length →
      add_substitution text true s = Res.error Fault.assertion) ∧
    (∀ (s : Mangle) (text : List Char), s.valid = true → 20 ≤ s.substitions.length →
      add_substitution text false s = Res.error Fault.assertion) ∧
    demangle 20 [] 256 "_Z1fIPPPPPPPPPiEvT_".toList
      = Res.ok (false, "f<int*********>(".toList) ∧
    demangle 20 [] 256 "_Z1fIPPPPPPPPiEvT_".toList
      = Res.ok (true, "void f<int********>(int********)".toList) := by
  refine ⟨?_, ?_, ?_, ?_, ?_, by decide!, by decide!⟩
  · intro s text hv ht hs
    have hn : ¬ (s.substitions.length < 10) := by omega
    simp only [add_substitution, run_bind, run_getS, andThen_ok, hv, if_true, run_cassert,
      MAX_TEMPLATE_SUBST, ht, decide_True, hn, if_false, run_pure, run_ite]
  · intro s text hv ht hs
    simp only [add_substitution, run_bind, run_getS, andThen_ok, hv, if_true, run_cassert,
      MAX_TEMPLATE_SUBST, ht, decide_True, hs, run_modifyS, Mangle.pushTpl, run_ite]
  · intro s text hv hs
    simp only [add_substitution, run_bind, run_getS, andThen_ok, hv, if_true,
      Bool.false_eq_true, if_false, run_cassert, MAX_SUBSTITUTIONS, hs, decide_True,
      run_modifyS, Mangle.pushSubst, run_ite]
  · intro s text hv ht
    have hn : ¬ (s.tpl_subst.length < 10) := by omega
    simp only [add_substitution, run_bind, run_getS, andThen_ok, hv, if_true, run_cassert,
      MAX_TEMPLATE_SUBST, hn, decide_False, Bool.false_eq_true, if_false, run_ite]
    rfl
  · intro s text hv hs
    have hn : ¬ (s.substitions.length < 20) := by omega
    simp only [add_substitution, run_bind, run_getS, andThen_ok, hv, if_true,
      Bool.false_eq_true, if_false, run_cassert, MAX_SUBSTITUTIONS, hn, decide_False, run_ite]
    rfl

theorem add_substitution_wrong_counter_witness :
    add_substitution "int".toList true
        ⟨true, [], 256, [], 0, 0, false, [], 0, [],
          [[], [], [], [], [], [], [], [], [], []], []⟩
      = Res.ok ((), ⟨true, [], 256, [], 0, 0, false, [], 0, [],
          [[], [], [], [], [], [], [], [], [], []], []⟩) :=
  add_substitution_wrong_counter.1 _ _ rfl (by decide) (by decide)

/-! ## A substitution that is not terminated -/

/-- The loop of `_substitution` on a seq-id that ends the input: the loop stops at the
sentinel. -/
theorem subst_seq_loop_end : ∀ (w : List Char) (n index : Nat) (s : Mangle),
    w.length + 1 ≤ n → s.valid = true → At s w →
    (∀ c ∈ w, isdigit c = true ∨ isupper c = true) →
    subst_seq_loop n index s
      = Res.ok (some (seq_value w index), s.setMpos (s.mpos + w.length)) := by
  intro w
  induction w with
  | nil =>
    intro n index s hn hv h _
    obtain ⟨m, rfl⟩ : ∃ m, n = m + 1 := ⟨n - 1, by simp at hn; omega⟩
    have l0 := h.run_look0
    simp only [List.headD_nil] at l0
    have hne : (NUL != '_') = true := by decide
    rw [subst_seq_loop]
    simp only [run_bind, l0, andThen_ok, hne, if_true, h.run_on_sentinel_nil,
      run_pure, seq_value, List.foldl_nil, List.length_nil, Nat.add_zero]
    rfl
  | cons c w ih =>
    intro n index s hn hv h hw
    obtain ⟨m, rfl⟩ : ∃ m, n = m + 1 := ⟨n - 1, by simp at hn; omega⟩
    have hc := hw c (List.mem_cons_self _ _)
    obtain ⟨c1, c2, c3, c4⟩ := base36_not_special c hc
    have l0 := h.run_look0
    simp only [List.headD_cons] at l0
    have hne : (c != '_') = true := bne_iff_ne.mpr c4
    have hos := h.run_on_sentinel_false hv c1 c2 c3
    have ih2 := ih m ((index * 36 + (if isdigit c then c.toNat - 48 else c.toNat - 65 + 10))
        % SIZE_MOD) (s.setMpos (s.mpos + 1))
      (by simp only [List.length_cons] at hn; omega) hv h.next
      (fun x hx => hw x (List.mem_cons_of_mem _ hx))
    have hfin : (s.setMpos (s.mpos + 1)).setMpos ((s.setMpos (s.mpos + 1)).mpos + w.length)
        = s.setMpos (s.mpos + (c :: w).length) := by
      simp only [Mangle.setMpos, List.length_cons, Mangle.mk.injEq, true_and, and_true]
      omega
    rw [hfin] at ih2
    rw [subst_seq_loop]
    simp only [run_bind, l0, andThen_ok, hne, if_true, hos, Bool.false_eq_true, if_false]
    by_cases hd : isdigit c = true
    · simp only [hd, if_true, run_bind, advance, run_modifyS, andThen_ok] at ih2 ⊢
      rw [seq_value_cons]
      simp only [hd, if_true]
      exact ih2
    · have hu : isupper c = true := by
        rcases hc with h1 | h1
        · exact absurd h1 hd
        · exact h1
      simp only [hd, hu, if_true, if_false, run_bind, advance, run_modifyS, andThen_ok,
        Bool.false_eq_true] at ih2 ⊢
      rw [seq_value_cons]
      simp only [hd, if_false, Bool.false_eq_true]
      exact ih2

/-- The run of `_substitution` on `S` and a non-empty seq-id at the end of the input: the
missing `_` clears `valid`, and nothing is appended. -/
theorem substitution_unterminated (s : Mangle) (c : Char) (w : List Char)
    (hv : s.valid = true) (h : At s ('S' :: c :: w))
    (hw : ∀ x ∈ c :: w, isdigit x = true ∨ isupper x = true) :
    _substitution s
      = Res.ok ((), { s with valid := false, mpos := s.mpos + (w.length + 2) }) := by
  have e1 := h.run_expect_true hv "S" (isPrefixOf_single 'S' _)
  have h1 : At (s.setMpos (s.mpos + 1)) (c :: w) := h.next
  have hlen : "S".length = 1 := rfl
  rw [hlen] at e1
  have hc := hw c (List.mem_cons_self _ _)
  obtain ⟨c1, c2, c3, c4⟩ := base36_not_special c hc
  have l0 := h1.run_look0
  simp only [List.headD_cons] at l0
  have hne : (c != '_') = true := bne_iff_ne.mpr c4
  have hloop := subst_seq_loop_end (c :: w) ((c :: w).length + 1) 0 (s.setMpos (s.mpos + 1))
    (Nat.le_refl _) hv h1 hw
  have h2 : At ((s.setMpos (s.mpos + 1)).setMpos ((s.setMpos (s.mpos + 1)).mpos
      + (c :: w).length)) [] := by
    have := h1.moved (c :: w).length (by simp)
    rw [List.drop_length] at this
    exact this
  have e2 := h2.run_expect_false (by simpa [Mangle.setMpos] using hv) "_" (by decide)
  obtain ⟨v, p, sz, m, k, n, tc, q, fn, pb0, ss, ts⟩ := s
  simp only at hv
  subst hv
  simp only [Mangle.setMpos, Mangle.invalidate, List.length_cons] at e1 l0 hloop e2 h1
  simp only [_substitution, run_bind, e1, andThen_ok, if_true, l0, h1.run_rest, hne,
    List.length_cons, hloop, run_pure, Option.map_some', e2, run_getS]
  have hk : k + 1 + (w.length + 1) = k + (w.length + 2) := by omega
  by_cases hi : (seq_value (c :: w) 0 + 1) % SIZE_MOD ≥ ss.length
  · rw [run_ite, if_pos hi]
    simp only [invalidate, run_modifyS, Mangle.invalidate, hk]
  · rw [run_ite, if_neg hi]
    simp only [Demangle.append, run_modifyS, Mangle.append, Bool.false_eq_true, if_false, hk]

/-- Run of `_name` on `S` and a non-empty seq-id at the end of the input. -/
theorem name_substitution_unterminated (fuel : Nat) (s : Mangle) (c : Char) (w : List Char)
    (hv : s.valid = true) (h : At s ('S' :: c :: w))
    (hw : ∀ x ∈ c :: w, isdigit x = true ∨ isupper x = true) :
    _name (fuel + 1) s
      = Res.ok ((), { s with valid := false, mpos := s.mpos + (w.length + 2) }) := by
  have hc := hw c (List.mem_cons_self _ _)
  have hlow : islower c = false := by
    rcases hc with h1 | h1
    · simp only [isdigit, islower, Bool.and_eq_true, decide_eq_true_eq] at h1 ⊢
      simp only [Bool.and_eq_false_iff, decide_eq_false_iff_not]
      omega
    · simp only [isupper, islower, Bool.and_eq_true, decide_eq_true_eq] at h1 ⊢
      simp only [Bool.and_eq_false_iff, decide_eq_false_iff_not]
      omega
  have hseq : (isdigit c || isupper c || c == '_') = true := by
    rcases hc with h1 | h1 <;> simp [h1]
  have pN := h.run_peek_ne hv 'N' [] (by decide)
  have pZ := h.run_peek_ne hv 'Z' [] (by decide)
  have hab := h.run_is_abbreviation_seq hlow
  have pS : peek_substitution s = Res.ok (true, s) := by
    have p1 : peek "S" s = Res.ok (true, s) := by
      rw [h.run_peek hv]; congr 2
    simp only [peek_substitution, run_bind, p1, andThen_ok, if_true, h.run_look1,
      List.headD_cons, run_pure, hseq]
  have hsub := substitution_unterminated s c w hv h hw
  have pI : peek "I" ({ s with valid := false, mpos := s.mpos + (w.length + 2) } : Mangle)
      = Res.ok (false, { s with valid := false, mpos := s.mpos + (w.length + 2) }) := by
    simp only [peek, run_bind, run_getS, andThen_ok, Bool.false_eq_true, if_false, run_pure]
  have hno : ¬ ((none : Option Nat) = some 0) := by simp
  rw [_name]
  simp only [run_bind, current_position, run_getS, andThen_ok, run_pure, hv, if_true, pN, pZ,
    hab, hno, if_false, pS, hsub, pI, Bool.false_eq_true]

/-- Run of `_function_encoding` when the name clears `valid`, at function nesting level
zero. -/
theorem function_encoding_name_fails (fuel : Nat) {s t : Mangle}
    (hname : _name fuel s = Res.ok ((), t)) (hv : t.valid = false) (hfn : t.func_nest = 0) :
    _function_encoding (fuel + 1) s = Res.ok ((), t) := by
  have hz : ¬ ((0 : Int) > 0) := by decide
  rw [_function_encoding]
  simp only [run_bind, hname, andThen_ok, run_on_sentinel_invalid t hv, run_getS, if_true,
    run_pure, hfn, hz, if_false]

/-- C26: a substitution reference that is not terminated by `_` is rejected.  For every
non-empty string `w` of digits and upper-case letters, every capacity and every step
budget from two on, `demangle` on `_ZS` + `w` returns false and leaves the output empty;
`_ZSA` is such an input.  Inside a nested name, `_ZNSA` is rejected as well. -/
theorem unterminated_substitution_rejected :
    (∀ (fuel : Nat) (plain : List Char) (size : Nat) (w : List Char),
      w ≠ [] → (∀ x ∈ w, isdigit x = true ∨ isupper x = true) → 0 < size → 2 ≤ fuel →
      demangle fuel plain size ("_ZS".toList ++ w) = Res.ok (false, [])) ∧
    demangle 20 [] 256 "_ZSA".toList = Res.ok (false, []) ∧
    demangle 20 [] 256 "_ZNSA".toList = Res.ok (false, []) := by
  refine ⟨?_, by decide!, by decide!⟩
  intro fuel plain size w hne hw hsize hfuel
  obtain ⟨g, rfl⟩ : ∃ g, fuel = g + 2 := ⟨fuel - 2, by omega⟩
  obtain ⟨c, r, rfl⟩ := List.exists_cons_of_ne_nil hne
  have hat := initial_at size ('S' :: c :: r)
  have hname := name_substitution_unterminated g _ c r rfl hat hw
  have hfe := function_encoding_name_fails (g + 1) hname rfl rfl
  have henc := encoding_plain_run (g + 2) _ 'S' _ rfl hat (by decide)
  rw [hfe] at henc
  have hd := demangle_of_encoding (g + 2) plain size ('S' :: c :: r) _ hsize
    (by
      intro x hx
      rcases List.mem_cons.mp hx with e | hx
      · rw [e]; decide
      · exact (base36_not_special x (hw x hx)).1) henc
  exact hd

theorem unterminated_substitution_rejected_witness :
    demangle 2 "old".toList 1 ("_ZS".toList ++ "1Z".toList) = Res.ok (false, []) :=
  unterminated_substitution_rejected.1 2 "old".toList 1 "1Z".toList (by decide) (by decide)
    (by decide) (by decide)

/-! ## Template parameters -/

/-- The part of `_template_param` behind the index: the closing `_`, the range test, the
append and the new substitution. -/
theorem template_param_tail (s : Mangle) (r : List Char) (index : Nat) (hv : s.valid = true)
    (h : At s ('_' :: r)) :
    (do
      let _ ← expect "_"
      let s ← getS
      if index ≥ s.tpl_subst.length then invalidate
      else do
        append (s.tpl_subst.getD index [])
        add_substitution (s.tpl_subst.getD index []) false : M Unit) s
      = if index ≥ s.tpl_subst.length then
          Res.ok ((), { s with valid := false, mpos := s.mpos + 1 })
        else if s.plain.length + (s.tpl_subst.getD index []).length < s.size then
          (if s.substitions.length < 20 then
            Res.ok ((), { s with
              plain := s.plain ++ s.tpl_subst.getD index [], mpos := s.mpos + 1,
              substitions := s.substitions ++ [s.tpl_subst.getD index []] })
          else Res.error Fault.assertion)
        else Res.ok ((), { s with valid := false, mpos := s.mpos + 1 }) := by
  have e1 := h.run_expect_true hv "_" (isPrefixOf_single '_' _)
  have hlen : "_".length = 1 := rfl
  rw [hlen] at e1
  obtain ⟨v, p, sz, m, k, n, tc, q, fn, pb0, ss, ts⟩ := s
  simp only at hv
  subst hv
  simp only [Mangle.setMpos] at e1
  simp only [run_bind, e1, andThen_ok, run_getS]
  by_cases hi : index ≥ ts.length
  · rw [run_ite, if_pos hi, if_pos hi]
    simp only [invalidate, run_modifyS, Mangle.invalidate]
  · rw [run_ite, if_neg hi, if_neg hi]
    by_cases hf : p.length + (ts.getD index []).length < sz
    · rw [if_pos hf]
      have ha : Demangle.append (ts.getD index [])
          (⟨true, p, sz, m, k + 1, n, tc, q, fn, pb0, ss, ts⟩ : Mangle)
          = Res.ok ((), ⟨true, p ++ ts.getD index [], sz, m, k + 1, n, tc, q, fn, pb0, ss, ts⟩)
          := by
        simp only [Demangle.append, run_modifyS]
        rw [Mangle.append_fits _ _ rfl hf]
      simp only [run_bind, ha, andThen_ok]
      by_cases hr : ss.length < 20
      · rw [if_pos hr]
        simp only [add_substitution, run_bind, run_getS, andThen_ok, if_true,
          Bool.false_eq_true, if_false, run_cassert, MAX_SUBSTITUTIONS, hr, decide_True,
          run_modifyS, Mangle.pushSubst, run_ite]
      · rw [if_neg hr]
        simp only [add_substitution, run_bind, run_getS, andThen_ok, if_true,
          Bool.false_eq_true, if_false, run_cassert, MAX_SUBSTITUTIONS, hr, decide_False,
          run_ite]
        rfl
    · rw [if_neg hf]
      have ha : Demangle.append (ts.getD index [])
          (⟨true, p, sz, m, k + 1, n, tc, q, fn, pb0, ss, ts⟩ : Mangle)
          = Res.ok ((), ⟨false, p, sz, m, k + 1, n, tc, q, fn, pb0, ss, ts⟩) := by
        simp only [Demangle.append, run_modifyS, Mangle.append, if_true, hf, if_false]
      simp only [run_bind, ha, andThen_ok, add_substitution, run_getS, Bool.false_eq_true,
        if_false, run_pure]

/-- Run of `_template_param` on `T_`: the index is 0. -/
theorem template_param_first (s : Mangle) (r : List Char) (hv : s.valid = true)
    (h : At s ('T' :: '_' :: r)) :
    _template_param s
      = if 0 ≥ s.tpl_subst.length then
          Res.ok ((), { s with valid := false, mpos := s.mpos + 2 })
        else if s.plain.length + (s.tpl_subst.getD 0 []).length < s.size then
          (if s.substitions.length < 20 then
            Res.ok ((), { s with
              plain := s.plain ++ s.tpl_subst.getD 0 [], mpos := s.mpos + 2,
              substitions := s.substitions ++ [s.tpl_subst.getD 0 []] })
          else Res.error Fault.assertion)
        else Res.ok ((), { s with valid := false, mpos := s.mpos + 2 }) := by
  have e1 := h.run_expect_true hv "T" (isPrefixOf_single 'T' _)
  have hlen : "T".length = 1 := rfl
  rw [hlen] at e1
  have h1 : At (s.setMpos (s.mpos + 1)) ('_' :: r) := h.next
  have l0 := h1.run_look0
  simp only [List.headD_cons] at l0
  have ht := template_param_tail (s.setMpos (s.mpos + 1)) r 0 hv h1
  unfold _template_param
  simp only [run_bind, e1, andThen_ok, if_true, l0, h1.run_rest, bne_self_eq_false,
    Bool.false_eq_true, if_false, run_pure]
  simp only [run_bind] at ht
  rw [ht]
  simp only [Mangle.setMpos, Nat.add_assoc, Nat.reduceAdd]

/-- Run of `_template_param` on `T`, the decimal numeral of `n` and `_`: the index is
`n + 1`. -/
theorem template_param_numbered (s : Mangle) (n : Nat) (r : List Char) (hv : s.valid = true)
    (h : At s ('T' :: (Nat.toDigits 10 n ++ '_' :: r))) (hn : n < 2147483647) :
    _template_param s
      = if n + 1 ≥ s.tpl_subst.length then
          Res.ok ((), { s with
            valid := false, mpos := s.mpos + ((Nat.toDigits 10 n).length + 2) })
        else if s.plain.length + (s.tpl_subst.getD (n + 1) []).length < s.size then
          (if s.substitions.length < 20 then
            Res.ok ((), { s with
              plain := s.plain ++ s.tpl_subst.getD (n + 1) [],
              mpos := s.mpos + ((Nat.toDigits 10 n).length + 2),
              substitions := s.substitions ++ [s.tpl_subst.getD (n + 1) []] })
          else Res.error Fault.assertion)
        else Res.ok ((), { s with
          valid := false, mpos := s.mpos + ((Nat.toDigits 10 n).length + 2) }) := by
  obtain ⟨hne, hall, hval⟩ := toDigits_spec n
  obtain ⟨d, ds, hd⟩ := List.exists_cons_of_ne_nil hne
  have hdd : isdigit d = true := hall d (by rw [hd]; exact List.mem_cons_self _ _)
  have hdu : d ≠ '_' := by
    intro e; rw [e] at hdd; exact absurd hdd (by decide)
  have e1 := h.run_expect_true hv "T" (isPrefixOf_single 'T' _)
  have hlen : "T".length = 1 := rfl
  rw [hlen] at e1
  have h1 : At (s.setMpos (s.mpos + 1)) (Nat.toDigits 10 n ++ '_' :: r) := h.next
  have l0 : look 0 (s.setMpos (s.mpos + 1)) = Res.ok (d, s.setMpos (s.mpos + 1)) := by
    rw [h1.run_look0, hd]; rfl
  have hne2 : (d != '_') = true := bne_iff_ne.mpr hdu
  have hst := strtol_toDigits n ('_' :: r)
    (by intro c hc; simp only [List.head?_cons, Option.some.injEq] at hc; rw [← hc]; decide)
    (by simp only [LONG_MAX]; omega)
  have h2 := h1.moved (Nat.toDigits 10 n).length (by simp)
  simp only [List.drop_left] at h2
  have hti : toInt32 (n : Int) = (n : Int) := toInt32_of_lt n (by omega)
  have hnm : ¬ ((n : Int) = INT_MAX) := by simp only [INT_MAX]; omega
  have hts : toSize ((n : Int) + 1) = n + 1 := by
    simp only [toSize, SIZE_MOD]
    omega
  have ht := template_param_tail _ r (n + 1) (by simpa [Mangle.setMpos] using hv) h2
  unfold _template_param
  simp only [run_bind, e1, andThen_ok, if_true, l0, h1.run_rest, hne2, hst, advance,
    run_modifyS, hti, hnm, if_false, run_pure, hts]
  simp only [run_bind] at ht
  rw [ht]
  simp only [Mangle.setMpos, Nat.add_assoc, Nat.reduceAdd]
  have e : 1 + ((Nat.toDigits 10 n).length + 1) = (Nat.toDigits 10 n).length + 2 := by omega
  rw [e]

theorem operators_codes_unique :
    ∀ e ∈ operators, ∀ f ∈ operators, e.1 = f.1 → e = f := by
  decide

theorem operators_code_length : ∀ e ∈ operators, e.1.toList.length = 2 := by
  decide

/-- Run of `append_space` in terms of `lead_space`. -/
theorem run_append_lead (t : Mangle) (hv : t.valid = true)
    (hfit : t.plain.length + (lead_space t.plain).length < t.size) :
    append_space t = Res.ok ((), { t with plain := t.plain ++ lead_space t.plain }) := by
  unfold lead_space at hfit ⊢
  by_cases hpos : t.plain.length > 0
  · by_cases hlast : " ([<,:".toList.contains (pchar t.plain (t.plain.length - 1)) = false
    · rw [if_pos ⟨hpos, hlast⟩] at hfit ⊢
      exact run_append_space t hv (List.length_pos.mp hpos) hlast (by
        simp only [String.toList] at hfit
        simp only [List.length_cons, List.length_nil] at hfit
        omega)
    · rw [if_neg (fun hh => hlast hh.2)]
      have hl : " ([<,:".toList.contains (pchar t.plain (t.plain.length - 1)) = true :=
        (Bool.not_eq_false _).mp hlast
      simp only [append_space, run_bind, run_getS, andThen_ok, hpos, if_true, hl, run_pure,
        run_ite, List.append_nil]
  · rw [if_neg (fun hh => hpos hh.1)]
    simp only [append_space, run_bind, run_getS, andThen_ok, hpos, if_false, run_pure, run_ite,
      List.append_nil]

theorem table_index_found (p : String → Bool) (tab : List (String × String)) :
    ∀ i, table_index p tab i = none → ∀ e ∈ tab, p e.1 = false := by
  induction tab with
  | nil => intro i _ e he; cases he
  | cons x tab ih =>
    intro i h e he
    unfold table_index at h
    by_cases hp : p x.1 = true
    · rw [if_pos hp] at h; cases h
    · rw [if_neg hp] at h
      rcases List.mem_cons.mp he with e1 | e1
      · rw [e1]; simpa using hp
      · exact ih (i + 1) h e e1

/-- Run of `is_operator` in front of the code of a record of the table. -/
theorem At.run_is_operator_code {s : Mangle} {r : List Char} (e : String × String)
    (he : e ∈ operators) (h : At s (e.1.toList ++ r)) :
    ∃ i, is_operator s = Res.ok (some i, s) ∧ entry operators i = e := by
  have hl2 := operators_code_length e he
  have htake : (e.1.toList ++ r).take 2 = e.1.toList := by
    rw [← hl2, List.take_left]
  cases hi : table_index (fun a => a.toList == e.1.toList) operators 0 with
  | none =>
    have := table_index_found _ _ 0 hi e he
    simp at this
  | some i =>
    have hq := (table_index_some _ _ _ _ hi).2
    simp only [Nat.sub_zero, beq_iff_eq] at hq
    refine ⟨i, ?_, ?_⟩
    · simp only [is_operator, run_bind, h.run_rest, andThen_ok, run_ite, run_pure,
        List.length_append, hl2, htake]
      rw [if_neg (by omega), hi]
    · rcases getD_mem_or_default operators i ("", "") with hm | hm
      · exact operators_codes_unique _ hm e he (String.ext hq)
      · unfold entry
        rw [hm] at hq
        rw [← hq] at hl2
        exact absurd hl2 (by decide)

/-- Run of `_operator` on the code of a record of the operator table other than the
typecast `cv`. -/
theorem operator_run (fuel : Nat) (s : Mangle) (r : List Char) (e : String × String)
    (he : e ∈ operators) (hcv : e.1 ≠ "cv") (hv : s.valid = true)
    (h : At s (e.1.toList ++ r))
    (hfit : s.plain.length + (lead_space s.plain).length + (operator_text e.2.toList).length
      < s.size) :
    _operator (fuel + 1) s = Res.ok ((), { s with
      plain := s.plain ++ lead_space s.plain ++ operator_text e.2.toList,
      mpos := s.mpos + 2 }) := by
  obtain ⟨i, hop, hent⟩ := h.run_is_operator_code e he
  have hl2 := operators_code_length e he
  have hi0 : ¬ (i = 0) := by
    intro e0
    rw [e0] at hent
    apply hcv
    rw [← hent]
    rfl
  have hlen : ¬ ((e.1.toList ++ r).length < 2) := by
    simp only [List.length_append, hl2]; omega
  have h8 : ("operator".toList).length = 8 := rfl
  obtain ⟨v, p, sz, m, k, n, tc, q, fn, pb0, ss, ts⟩ := s
  simp only at hv hfit
  subst hv
  simp only [operator_text, List.length_append, h8] at hfit
  have hsp := run_append_lead (⟨true, p, sz, m, k + 2, n, tc, q, fn, pb0, ss, ts⟩ : Mangle) rfl
    (by simp only; omega)
  simp only at hsp
  have ha1 : Demangle.append "operator".toList
      (⟨true, p ++ lead_space p, sz, m, k + 2, n, tc, q, fn, pb0, ss, ts⟩ : Mangle)
      = Res.ok ((), ⟨true, p ++ lead_space p ++ "operator".toList, sz, m, k + 2, n, tc, q, fn,
          pb0, ss, ts⟩) := by
    simp only [Demangle.append, run_modifyS]
    rw [Mangle.append_fits _ _ rfl (by simp only [List.length_append, h8]; omega)]
  have ha2 : (if isalpha (pchar e.2.toList 0) then Demangle.append " ".toList else pure ())
      (⟨true, p ++ lead_space p ++ "operator".toList, sz, m, k + 2, n, tc, q, fn, pb0, ss, ts⟩
        : Mangle)
      = Res.ok ((), ⟨true, p ++ lead_space p ++ "operator".toList ++
          (if isalpha (pchar e.2.toList 0) then " ".toList else []), sz, m, k + 2, n, tc, q,
          fn, pb0, ss, ts⟩) := by
    by_cases hal : isalpha (pchar e.2.toList 0) = true
    · simp only [hal, if_true] at hfit ⊢
      simp only [Demangle.append, run_modifyS]
      rw [Mangle.append_fits _ _ rfl (by
        simp only [List.length_append, h8]; omega)]
    · simp only [hal, Bool.false_eq_true, if_false, run_pure, List.append_nil]
  have ha3 : Demangle.append e.2.toList
      (⟨true, p ++ lead_space p ++ "operator".toList ++
        (if isalpha (pchar e.2.toList 0) then " ".toList else []), sz, m, k + 2, n, tc, q, fn,
        pb0, ss, ts⟩ : Mangle)
      = Res.ok ((), ⟨true, p ++ lead_space p ++ "operator".toList ++
          (if isalpha (pchar e.2.toList 0) then " ".toList else []) ++ e.2.toList, sz, m,
          k + 2, n, tc, q, fn, pb0, ss, ts⟩) := by
    simp only [Demangle.append, run_modifyS]
    rw [Mangle.append_fits _ _ rfl (by
      simp only [List.length_append, h8]; omega)]
  rw [_operator]
  simp only [run_bind, run_getS, andThen_ok, if_true, h.run_rest, hlen, if_false, hop, advance,
    run_modifyS, Mangle.setMpos, hsp, ha1, hi0, hent, ite_bind_run, ha2, ha3]
  simp only [operator_text, List.append_assoc]

/-- C23: for every record of the operator table other than the typecast `cv`, with the
symbol `sym`, `_operator` in front of the two-letter code moves the cursor behind the code
and appends `operator` followed by `sym`, with one space between them exactly when `sym`
begins with a letter.  In front of `operator` stands the space of `append_space` when the
text so far is not empty and does not end in a separator; a name begins at the start of
the text or behind `::`, where there is none.  `_Zrm1XS_` gives `operator%(X,X)` and
`_ZN1AdlEPv` gives `A::operator delete(void*)`. -/
theorem operator_symbol_appended :
    (∀ (fuel : Nat) (s : Mangle) (r : List Char) (e : String × String),
      e ∈ operators → e.1 ≠ "cv" → s.valid = true → At s (e.1.toList ++ r) →
      s.plain.length + (lead_space s.plain).length + (operator_text e.2.toList).length
        < s.size →
      _operator (fuel + 1) s = Res.ok ((), { s with
        plain := s.plain ++ lead_space s.plain ++ operator_text e.2.toList,
        mpos := s.mpos + 2 })) ∧
    (∀ e ∈ operators, operator_text e.2.toList
      = "operator".toList ++ (if isalpha (pchar e.2.toList 0) then " ".toList else [])
          ++ e.2.toList) ∧
    lead_space [] = [] ∧ lead_space "A::".toList = [] ∧
    operator_text "%".toList = "operator%".toList ∧
    operator_text "delete".toList = "operator delete".toList ∧
    demangle 20 [] 256 "_Zrm1XS_".toList = Res.ok (true, "operator%(X,X)".toList) ∧
    demangle 20 [] 256 "_ZN1AdlEPv".toList
      = Res.ok (true, "A::operator delete(void*)".toList) := by
  refine ⟨?_, ?_, by decide, by decide, by decide, by decide, by decide!, by decide!⟩
  · intro fuel s r e he hcv hv h hfit
    exact operator_run fuel s r e he hcv hv h hfit
  · intro e _
    rfl

theorem operator_symbol_appended_witness :
    _operator 1 ⟨true, "A::".toList, 256, "dlEPv".toList, 0, 1, false, [], 0, [], [], []⟩
      = Res.ok ((), ⟨true, "A::operator delete".toList, 256, "dlEPv".toList, 2, 1, false, [],
          0, [], [], []⟩) :=
  operator_symbol_appended.1 0
    ⟨true, "A::".toList, 256, "dlEPv".toList, 0, 1, false, [], 0, [], [], []⟩ "EPv".toList
    ("dl", "delete") (by decide) (by decide) rfl ⟨Nat.zero_le _, rfl⟩ (by decide)

/-! ## The typecast operator -/

/-- Run of `_operator` on the typecast code `cv`: the target type is written behind
`operator` and a space, and the flag `is_typecast_op` is set. -/
theorem operator_typecast_run (fuel : Nat) {s t : Mangle} (r : List Char)
    (hv : s.valid = true) (h : At s ('c' :: 'v' :: r))
    (hfit : s.plain.length + (lead_space s.plain).length + 9 < s.size)
    (hin : _type fuel { s with
      plain := s.plain ++ lead_space s.plain ++ "operator ".toList, mpos := s.mpos + 2 }
      = Res.ok ((), t)) :
    _operator (fuel + 1) s = Res.ok ((), { t with is_typecast_op := true }) := by
  have hop : is_operator s = Res.ok (some 0, s) := by
    simp only [is_operator, run_bind, h.run_rest, andThen_ok, run_ite, run_pure,
      List.length_cons]
    rw [if_neg (by omega)]
    rfl
  have hlen : ¬ (('c' :: 'v' :: r).length < 2) := by
    simp only [List.length_cons]; omega
  have h8 : ("operator".toList).length = 8 := rfl
  obtain ⟨v, p, sz, m, k, n, tc, q, fn, pb0, ss, ts⟩ := s
  simp only at hv hfit hin
  subst hv
  have hsp := run_append_lead (⟨true, p, sz, m, k + 2, n, tc, q, fn, pb0, ss, ts⟩ : Mangle) rfl
    (by simp only; omega)
  simp only at hsp
  have ha1 : Demangle.append "operator".toList
      (⟨true, p ++ lead_space p, sz, m, k + 2, n, tc, q, fn, pb0, ss, ts⟩ : Mangle)
      = Res.ok ((), ⟨true, p ++ lead_space p ++ "operator".toList, sz, m, k + 2, n, tc, q, fn,
          pb0, ss, ts⟩) := by
    simp only [Demangle.append, run_modifyS]
    rw [Mangle.append_fits _ _ rfl (by simp only [List.length_append, h8]; omega)]
  have ha2 : Demangle.append " ".toList
      (⟨true, p ++ lead_space p ++ "operator".toList, sz, m, k + 2, n, tc, q, fn, pb0, ss, ts⟩
        : Mangle)
      = Res.ok ((), ⟨true, p ++ lead_space p ++ "operator ".toList, sz, m, k + 2, n, tc, q,
          fn, pb0, ss, ts⟩) := by
    simp only [Demangle.append, run_modifyS]
    rw [Mangle.append_fits _ _ rfl (by
      simp only [List.length_append, h8, String.toList, List.length_cons, List.length_nil]
      omega)]
    simp only [String.toList, List.append_assoc, List.cons_append, List.nil_append]
  rw [_operator]
  simp only [run_bind, run_getS, andThen_ok, if_true, h.run_rest, hlen, if_false, hop, advance,
    run_modifyS, Mangle.setMpos, hsp, ha1, ha2, hin, set_typecast, Mangle.setTypecast]

/-- Run of `_unqualified_name` in front of the typecast code `cv`. -/
theorem unqualified_typecast_run (fuel : Nat) {s t : Mangle} (r : List Char)
    (hv : s.valid = true) (h : At s ('c' :: 'v' :: r))
    (hop : _operator fuel s = Res.ok ((), t)) :
    _unqualified_name (fuel + 1) s = Res.ok ((), t) := by
  have mDC := h.run_match_false hv "DC" (isPrefixOf_cons_ne _ _ _ _ (by decide))
  have pUt := h.run_peek_ne hv 'U' ['t'] (by decide)
  have l0 := h.run_look0
  simp only [List.headD_cons] at l0
  have hd : isdigit 'c' = false := by decide
  have mL := h.run_match_false hv "L" (isPrefixOf_cons_ne _ _ _ _ (by decide))
  have pC : peek_ctor_dtor s = Res.ok (false, s) := by
    simp only [peek_ctor_dtor, run_bind, run_getS, andThen_ok, hv, if_true, h.run_rest,
      run_pure]
    congr 2
  have hio : is_operator s = Res.ok (some 0, s) := by
    simp only [is_operator, run_bind, h.run_rest, andThen_ok, run_ite, run_pure,
      List.length_cons]
    rw [if_neg (by omega)]
    rfl
  rw [_unqualified_name]
  simp only [run_bind, run_getS, andThen_ok, hv, if_true, mDC, Bool.false_eq_true, if_false,
    pUt, l0, hd, mL, pC, hio, Option.isSome_some, hop]

theorem types_names_end :
    ∀ e ∈ types, (e.2.toList != [] &&
      pchar e.2.toList (e.2.toList.length - 1) != '>') = true := by
  decide

/-- The name of a builtin type is not empty and does not end in `>`. -/
theorem code_name_end (cd nm pre : List Char) (h : code_name cd = some nm) :
    nm ≠ [] ∧ (pchar (pre ++ nm) ((pre ++ nm).length - 1) == '>') = false := by
  obtain ⟨e, he, -, h2⟩ := code_name_spec cd nm h
  have := types_names_end e he
  rw [h2] at this
  simp only [Bool.and_eq_true, bne_iff_ne, ne_eq] at this
  refine ⟨this.1, ?_⟩
  have hl : 0 < nm.length := List.length_pos.mpr this.1
  have e1 : (pre ++ nm).length - 1 = pre.length + (nm.length - 1) := by
    simp only [List.length_append]; omega
  rw [e1, pchar_append_right]
  exact beq_eq_false_iff_ne.mpr this.2

/-- Run of `_function_encoding` on the nested name of a class `C` and a typecast operator
to a builtin type, without parameters. -/
theorem typecast_encoding_run (g : Nat) (s : Mangle) (C cd nm : List Char)
    (hv : s.valid = true) (hp : s.plain = []) (hn : s.nest = 0) (hfn : s.func_nest = 0)
    (hss : s.substitions = [])
    (h : At s ('N' :: ([] ++ (source_code C ++ 'c' :: 'v' :: (cd ++ ['E', 'v'])))))
    (hid : is_identifier C = true) (hcd : code_name cd = some nm)
    (hlen : C.length < 2147483600)
    (hfit : C.length + nm.length + 16 < s.size) :
    ∃ t, _function_encoding (g + 7) s = Res.ok ((), t) ∧ t.valid = true ∧
      t.is_typecast_op = true ∧
      t.plain = C ++ "::operator ".toList ++ nm ++ "()".toList := by
  obtain ⟨hCne, hCid, -⟩ := identifier_chars C hid
  obtain ⟨c1, cr1, hcd1, -, -, -, -, -, -, -⟩ := code_name_head cd nm hcd
  have hcdl : cd.length ≤ 2 := by
    obtain ⟨e, he, h1, -⟩ := code_name_spec cd nm hcd
    rcases types_code_lengths e he with hx | ⟨hx, -⟩ <;> rw [← h1, hx] <;> decide
  obtain ⟨v, p, sz, m, mp, n, tc, q0, fn, pb0, ss, ts⟩ := s
  simp only at hv hp hn hfn hss hfit
  subst hv hp hn hfn hss
  have hcolon : "::".toList.length = 2 := rfl
  have hop9 : "operator ".toList.length = 9 := rfl
  have hlastC := (pchar_last_ident [] C hid).1
  -- the cursor behind the class name
  have hat1 : At (⟨true, [] ++ C, sz, m,
      mp + 1 + ([] : List Char).length + (Nat.toDigits 10 C.length).length + C.length, 1, tc,
      q0, 0, pb0, [] ++ [C], ts⟩ : Mangle) ('c' :: 'v' :: (cd ++ ['E', 'v'])) := by
    have h2 : At (⟨true, [], sz, m, mp + 1, 0, tc, q0, 0, pb0, [], ts⟩ : Mangle)
        (source_code C ++ 'c' :: 'v' :: (cd ++ ['E', 'v'])) := ⟨h.next.1, h.next.2⟩
    have := At.after_source (w := C) h2 ([] ++ C)
    exact ⟨this.1, this.2⟩
  have hlead : lead_space ([] ++ C ++ "::".toList) = [] := by
    unfold lead_space
    rw [if_neg]
    intro hh
    have h2 := hh.2
    have e1 : ([] ++ C ++ "::".toList).length - 1 = ([] ++ C).length + 1 := by
      simp only [List.length_append, hcolon]; omega
    rw [e1, pchar_append_right] at h2
    exact absurd h2 (by decide)
  have hat2 : At (⟨true, [] ++ C ++ "::".toList ++ [] ++ "operator ".toList, sz, m,
      mp + 1 + ([] : List Char).length + (Nat.toDigits 10 C.length).length + C.length + 2, 1,
      tc, q0, 0, pb0, [] ++ [C], ts⟩ : Mangle) (cd ++ ['E', 'v']) := by
    have := hat1.moved 2 (by simp)
    exact ⟨this.1, this.2⟩
  have hty := type_code_run g (s := ⟨true,
      [] ++ C ++ "::".toList ++ [] ++ "operator ".toList, sz, m,
      mp + 1 + ([] : List Char).length + (Nat.toDigits 10 C.length).length + C.length + 2, 1,
      tc, q0, 0, pb0, [] ++ [C], ts⟩) rfl hat2 hcd
    (by simp only [List.length_append, List.length_nil, hcolon, hop9]; omega)
  simp only at hty
  have hopr := operator_typecast_run (g + 1) (s := ⟨true, [] ++ C ++ "::".toList, sz, m,
      mp + 1 + ([] : List Char).length + (Nat.toDigits 10 C.length).length + C.length, 1, tc,
      q0, 0, pb0, [] ++ [C], ts⟩) (cd ++ ['E', 'v']) rfl ⟨hat1.1, hat1.2⟩
    (by simp only [hlead, List.length_append, List.length_nil, hcolon]; omega)
    (by rw [hlead]; exact hty)
  simp only at hopr
  have hun := unqualified_typecast_run (g + 2) (cd ++ ['E', 'v']) rfl
    (s := ⟨true, [] ++ C ++ "::".toList, sz, m,
      mp + 1 + ([] : List Char).length + (Nat.toDigits 10 C.length).length + C.length, 1, tc,
      q0, 0, pb0, [] ++ [C], ts⟩) ⟨hat1.1, hat1.2⟩ hopr
  have hat3 : At (⟨true, [] ++ C ++ "::".toList ++ [] ++ "operator ".toList ++ nm, sz, m,
      mp + 1 + ([] : List Char).length + (Nat.toDigits 10 C.length).length + C.length + 2
        + cd.length, 1, true, q0, 0, pb0, [] ++ [C], ts⟩ : Mangle) ('E' :: ['v']) := by
    have := hat2.moved cd.length (by simp)
    refine ⟨this.1, ?_⟩
    have h2 := this.2
    rw [List.drop_left] at h2
    exact h2
  have hloop := nested_name_loop_last (g + 3) ([] : List Char).length (s := ⟨true, [] ++ C, sz,
      m, mp + 1 + ([] : List Char).length + (Nat.toDigits 10 C.length).length + C.length, 1, tc,
      q0, 0, pb0, [] ++ [C], ts⟩) rfl hat1 (by decide)
    (by simp only [List.length_append, List.nil_append]; omega) hun rfl hat3
    (by simp)
  have h1gt : ¬ ((1 : Int) > 1) := by decide
  simp only [h1gt, if_false] at hloop
  have hnn := nested_name_head (g + 3) (s := ⟨true, [], sz, m, mp, 0, tc, q0, 0, pb0, [], ts⟩)
    [] C ('v' :: (cd ++ ['E', 'v'])) 'c' (Or.inl rfl) rfl rfl h hid (by decide)
    (by simp only [List.length_cons, List.length_append, List.length_nil]; omega)
    (by simp only [List.length_nil]; omega) (by simp) hloop rfl
  simp only at hnn
  have hname := name_nested_run (g + 5) rfl h hnn
  have hat4 : At (⟨true, [] ++ C ++ "::".toList ++ [] ++ "operator ".toList ++ nm, sz, m,
      mp + 1 + ([] : List Char).length + (Nat.toDigits 10 C.length).length + C.length + 2
        + cd.length + 1, 0, true, [], 0, pb0, [] ++ [C], ts⟩ : Mangle) ['v'] := by
    have := hat3.next
    exact ⟨this.1, this.2⟩
  have hpl : ([] ++ C ++ "::".toList ++ [] ++ "operator ".toList ++ nm).length
      = C.length + 11 + nm.length := by
    simp only [List.length_append, List.nil_append, List.length_nil, hcolon, hop9]
  obtain ⟨pb, hfl⟩ := function_encoding_loop_void (g + 6)
    ⟨true, [] ++ C ++ "::".toList ++ [] ++ "operator ".toList ++ nm ++ "(".toList, sz, m,
      mp + 1 + ([] : List Char).length + (Nat.toDigits 10 C.length).length + C.length + 2
        + cd.length + 1, 1, true, [], 0, pb0, [] ++ [C], ts⟩
    (by omega) rfl ⟨hat4.1, hat4.2⟩ rfl
    (by
      have : ("(".toList).length = 1 := rfl
      simp only [List.length_append, this] at hpl ⊢
      omega)
  simp only at hfl
  have hend := (code_name_end cd nm ([] ++ C ++ "::".toList ++ [] ++ "operator ".toList) hcd)
  have hfr := function_encoding_frame (g + 6) hname rfl rfl hat4 (by decide)
    (by simp [hCne])
    hend.2
    (by simp only at hpl ⊢; omega) hfl rfl rfl (Or.inl rfl)
    (by
      have : ("(".toList).length = 1 := rfl
      simp only [List.length_append, this, if_true] at hpl ⊢
      omega)
  refine ⟨_, hfr, rfl, rfl, ?_⟩
  simp only [List.nil_append, if_true, List.append_nil, List.append_assoc, String.toList,
    List.cons_append]

/-- The whole of `demangle` on a typecast operator of the class `C` to a builtin type. -/
theorem demangle_typecast_run (g : Nat) (plain : List Char) (size : Nat) (C cd nm : List Char)
    (hid : is_identifier C = true) (hcd : code_name cd = some nm)
    (hlen : C.length < 2147483600)
    (hsize : C.length + nm.length + 16 < size) :
    demangle (g + 7) plain size ("_Z".toList ++ ('N' :: ([] ++ (source_code C ++
        'c' :: 'v' :: (cd ++ ['E', 'v'])))))
      = Res.ok (true, C ++ "::operator ".toList ++ nm ++ "()".toList) := by
  have hat := initial_at size ('N' :: ([] ++ (source_code C ++ 'c' :: 'v' :: (cd ++ ['E', 'v']))))
  obtain ⟨t, ht, htv, -, htp⟩ := typecast_encoding_run g _ C cd nm rfl rfl rfl rfl rfl hat
    hid hcd hlen (by simp only [initial]; omega)
  have henc := encoding_plain_run (g + 7) _ 'N' _ rfl hat (by decide)
  rw [ht] at henc
  obtain ⟨_, _, _, _, _, _, _, _, _, hall⟩ := code_name_head cd nm hcd
  have hd := demangle_of_encoding (g + 7) plain size _ t (by omega)
    (by
      intro c hc
      simp only [List.nil_append, List.mem_cons, List.mem_append, List.not_mem_nil,
        or_false] at hc
      rcases hc with e | hc | e | e | hc | e | e
      · rw [e]; decide
      · exact source_code_no_nul C hid c hc
      · rw [e]; decide
      · rw [e]; decide
      · exact hall c hc
      · rw [e]; decide
      · rw [e]; decide) henc
  rw [hd, htv, htp]

/-- C22: the typecast operator code `cv` followed by a type renders as `operator ` and the
rendered type, and the flag `is_typecast_op` that it sets keeps `_function_encoding` from
taking the next type for a return type.  For a C identifier `C` and a builtin code `cd`
with the name `nm`, `demangle` on `_ZN`, the source name of `C`, `cv`, the code and `Ev`
returns true with `C::operator nm()`; the capacity is taken above the length of the text
with the transient `(void`, and the step budget at least seven.  The symbol of the test
suite gives the text of the claim.  A target type that ends in template arguments is not
followed by a return type (`_ZN1Acv1BIiEEv`), while the member `B<int>` of `A` is
(`_ZN1A1BIiEEv`). -/
theorem typecast_operator_rendered :
    (∀ (fuel : Nat) (plain : List Char) (size : Nat) (C cd nm : List Char),
      is_identifier C = true → code_name cd = some nm → C.length < 2147483600 →
      (C ++ "::operator ".toList ++ nm ++ "(void".toList).length < size → 7 ≤ fuel →
      demangle fuel plain size
          ("_ZN".toList ++ (Nat.toDigits 10 C.length ++ C) ++ "cv".toList ++ cd ++ "Ev".toList)
        = Res.ok (true, C ++ "::operator ".toList ++ nm ++ "()".toList)) ∧
    demangle 40 [] 256
        "_ZNK5boost6spirit5matchI13rcs_deltatextEcvMNS0_4impl5dummyEFvvEEv".toList
      = Res.ok (true, ("boost::spirit::match<rcs_deltatext>::operator " ++
          "void (boost::spirit::impl::dummy::*)()() const").toList) ∧
    (final_state 20 256 "_ZN1AcviEv".toList).map (fun s => s.is_typecast_op) = some true ∧
    demangle 20 [] 256 "_ZN1Acv1BIiEEv".toList
      = Res.ok (true, "A::operator B<int>()".toList) ∧
    demangle 20 [] 256 "_ZN1A1BIiEEv".toList = Res.ok (true, "void A::B<int>()".toList) := by
  refine ⟨?_, by decide!, by decide!, by decide!, by decide!⟩
  intro fuel plain size C cd nm hid hcd hlen hsize hfuel
  obtain ⟨g, rfl⟩ : ∃ g, fuel = g + 7 := ⟨fuel - 7, by omega⟩
  have hsz : C.length + nm.length + 16 < size := by
    simp only [String.toList, List.length_append, List.length_cons, List.length_nil] at hsize
    omega
  have h1 := demangle_typecast_run g plain size C cd nm hid hcd hlen hsz
  have e1 : "_ZN".toList ++ (Nat.toDigits 10 C.length ++ C) ++ "cv".toList ++ cd ++ "Ev".toList
      = "_Z".toList ++ ('N' :: ([] ++ (source_code C ++ 'c' :: 'v' :: (cd ++ ['E', 'v']))))
      := by
    simp [String.toList, source_code]
  rw [e1, h1]

theorem typecast_operator_rendered_witness :
    demangle 20 [] 256 "_ZN1AcviEv".toList = Res.ok (true, "A::operator int()".toList) :=
  typecast_operator_rendered.1 20 [] 256 "A".toList "i".toList "int".toList (by decide)
    (by decide) (by decide) (by decide) (by decide)

theorem array_subs_length (T : List Char) : ∀ (ds : List (Option Nat)),
    (array_subs T ds).length = ds.length := by
  intro ds
  induction ds with
  | nil => rfl
  | cons d tl ih => simp only [array_subs, List.length_append, ih, List.length_cons, List.length_nil]

/-! ## Symbolic runs of `_array` -/

theorem isdigit_ne (c x : Char) (h : isdigit c = true) (hx : isdigit x = false) : c ≠ x := by
  intro e; rw [e, hx] at h; cases h

/-- Run of the scan for the `_` behind a dimension that is a digit string. -/
theorem array_scan_run : ∀ (w : List Char) (n : Nat) (s : Mangle) (r : List Char),
    s.valid = true → At s (w ++ '_' :: r) → (∀ c ∈ w, isdigit c = true) → w.length < n →
    array_scan n s = Res.ok ((), s.setMpos (s.mpos + w.length)) := by
  intro w
  induction w with
  | nil =>
    intro n s r hv h _ hn
    obtain ⟨n, rfl⟩ : ∃ k, n = k + 1 := ⟨n - 1, by simp at hn; omega⟩
    have hl := h.run_look0
    simp only [List.nil_append, List.headD_cons] at hl
    simp only [array_scan, run_bind, hl, andThen_ok, bne_self_eq_false, Bool.false_eq_true,
      if_false, run_pure, List.length_nil, Nat.add_zero, Mangle.setMpos]
  | cons c w ih =>
    intro n s r hv h hd hn
    obtain ⟨n, rfl⟩ : ∃ k, n = k + 1 := ⟨n - 1, by simp at hn; omega⟩
    have hc := hd c (List.mem_cons_self _ _)
    have hl := h.run_look0
    simp only [List.cons_append, List.headD_cons] at hl
    have hne : (c != '_') = true := bne_iff_ne.mpr (isdigit_ne c '_' hc (by decide))
    have hs := h.run_on_sentinel_false hv (isdigit_ne c NUL hc (by decide))
      (isdigit_ne c '.' hc (by decide)) (isdigit_ne c '@' hc (by decide))
    have hi := ih n (s.setMpos (s.mpos + 1)) r (by simpa [Mangle.setMpos] using hv) h.next
      (fun x hx => hd x (List.mem_cons_of_mem _ hx))
      (by simp only [List.length_cons] at hn; omega)
    simp only [Mangle.setMpos] at hi
    simp only [array_scan, run_bind, hl, andThen_ok, hne, if_true, hs, Bool.false_eq_true,
      if_false, run_pure, advance, run_modifyS, Mangle.setMpos, List.length_cons]
    rw [hi, show s.mpos + (w.length + 1) = s.mpos + 1 + w.length from by omega]

theorem dim_code_digits (d : Option Nat) : ∀ c ∈ dim_code d, isdigit c = true := by
  cases d with
  | none => intro c hc; cases hc
  | some n => exact (toDigits_spec n).2.1

/-- Run of the head of the first loop of `_array`: the dimension is skipped and the `_`
behind it is consumed. -/
theorem array_dims_head (s : Mangle) (d : Option Nat) (rest : List Char)
    (hv : s.valid = true) (h : At s (dim_code d ++ '_' :: rest)) :
    array_scan (s.mangled.length - s.mpos + 2) s
        = Res.ok ((), s.setMpos (s.mpos + (dim_code d).length)) ∧
      expect "_" (s.setMpos (s.mpos + (dim_code d).length))
        = Res.ok (true, s.setMpos (s.mpos + (dim_code d).length + 1)) ∧
      At (s.setMpos (s.mpos + (dim_code d).length + 1)) rest := by
  have hlen : (dim_code d).length + 1 ≤ s.mangled.length - s.mpos := by
    have := congrArg List.length h.2
    simp only [List.length_drop, List.length_append, List.length_cons] at this
    omega
  have h1 := h.moved (dim_code d).length (by simp)
  rw [List.drop_left] at h1
  have h2 := h1.next
  refine ⟨array_scan_run _ _ s rest hv h (dim_code_digits d) (by omega), ?_, h2⟩
  exact h1.run_expect_true (by simpa [Mangle.setMpos] using hv) "_" (isPrefixOf_single _ _)

/-- Run of the first loop of `_array` over at most ten dimensions: the cursor positions
of the dimensions are collected and the cursor stands behind the last `_`. -/
theorem array_dims_run : ∀ (ds : List (Option Nat)) (n : Nat) (stack : List Nat) (s : Mangle)
    (r : List Char), ds ≠ [] → s.valid = true → At s (dims_code ds ++ r) →
    "A".toList.isPrefixOf r = false → stack.length + ds.length ≤ MAX_ARRAYDIM →
    ds.length ≤ n →
    array_dims n stack s = Res.ok (stack ++ dim_positions s.mpos ds,
      s.setMpos (s.mpos + (dims_code ds).length)) := by
  intro ds
  induction ds with
  | nil => intro n stack s r h; exact absurd rfl h
  | cons d tl ih =>
    intro n stack s r _ hv h hr hlen hn
    obtain ⟨n, rfl⟩ : ∃ k, n = k + 1 := ⟨n - 1, by simp only [List.length_cons] at hn; omega⟩
    cases tl with
    | nil =>
      simp only [dims_code, List.append_assoc, List.singleton_append] at h
      obtain ⟨a1, a2, a3⟩ := array_dims_head s d r hv h
      have hm := a3.run_match_false (by simpa [Mangle.setMpos] using hv) "A" hr
      simp only [Mangle.setMpos] at a1 a2 hm
      rw [array_dims]
      simp only [run_bind, run_getS, andThen_ok, a1, a2, hm, Bool.false_eq_true,
        if_false, run_pure, ite_self, run_ite, dim_positions, dims_code, Mangle.setMpos,
        List.length_append, List.length_cons, List.length_nil]
      simp only [Nat.add_assoc, Nat.zero_add]
    | cons e tl =>
      simp only [dims_code, List.append_assoc, List.cons_append] at h
      obtain ⟨a1, a2, a3⟩ := array_dims_head s d _ hv h
      have hm := a3.run_match_true (by simpa [Mangle.setMpos] using hv) "A"
        (isPrefixOf_single _ _)
      have hi := ih n (stack ++ [s.mpos]) (s.setMpos (s.mpos + (dim_code d).length + 1 + 1)) r
        (by simp) (by simpa [Mangle.setMpos] using hv) a3.next hr
        (by simp only [List.length_append, List.length_cons, List.length_nil] at hlen ⊢; omega)
        (by simp only [List.length_cons] at hn ⊢; omega)
      have hlt : (stack ++ [s.mpos]).length < MAX_ARRAYDIM := by
        simp only [List.length_append, List.length_cons, List.length_nil] at hlen ⊢; omega
      have hAl : "A".length = 1 := rfl
      rw [hAl] at hm
      simp only [Mangle.setMpos] at a1 a2 hm hi
      rw [array_dims]
      simp only [run_bind, run_getS, andThen_ok, a1, a2, hm, hlt, if_true, run_ite, hi,
        dim_positions, dims_code, Mangle.setMpos, List.append_assoc, List.singleton_append,
        List.length_append, List.length_cons]
      rw [if_pos (by simpa using hlt)]
      have e1 : s.mpos + (dim_code d).length + 1 + 1 = s.mpos + (dim_code d).length + 2 := rfl
      have e2 : s.mpos + (dim_code d).length + 1 + 1 + (dims_code (e :: tl)).length
          = s.mpos + ((dim_code d).length + ((dims_code (e :: tl)).length + 1 + 1)) := by omega
      rw [e1, e2]

theorem dims_text_append (xs ys : List (Option Nat)) :
    dims_text (xs ++ ys) = dims_text xs ++ dims_text ys := by
  induction xs with
  | nil => rfl
  | cons x xs ih => simp only [List.cons_append, dims_text, ih, List.append_assoc, List.append_eq]

theorem dims_text_reverse_length (xs : List (Option Nat)) :
    (dims_text xs.reverse).length = (dims_text xs).length := by
  induction xs with
  | nil => rfl
  | cons x xs ih =>
    simp only [List.reverse_cons, dims_text_append, dims_text, List.length_append, ih,
      List.append_nil]
    omega

theorem array_subs_snoc (E : List Char) (d : Option Nat) : ∀ (xs : List (Option Nat)),
    array_subs E (xs ++ [d])
      = (E ++ dim_text d) :: (array_subs E xs).map (fun x => x ++ dim_text d) := by
  intro xs
  induction xs with
  | nil => simp [array_subs, dims_text]
  | cons x xs ih =>
    simp only [List.cons_append, array_subs, List.append_eq, ih, List.map_append,
      List.map_cons, List.map_nil, dims_text, dims_text_append, List.append_assoc,
      List.cons_append, List.append_nil, List.nil_append]

theorem dim_text_ne (d : Option Nat) : dim_text d ≠ [] := by
  cases d <;> simp [dim_text]

/-- The text that the second loop of `_array` builds for a dimension. -/
theorem array_field (d : Option Nat) (rest : List Char)
    (hd : ∀ n, d = some n → n ≤ ULONG_MAX) :
    (if isdigit ((dim_code d ++ '_' :: rest).headD NUL) = true then
        "[".toList ++ Nat.toDigits 10 (strtoul (dim_code d ++ '_' :: rest)) ++ "]".toList
      else "[]".toList) = dim_text d := by
  cases d with
  | none =>
    simp only [dim_code, List.nil_append, List.headD_cons, dim_text]
    rw [if_neg (by decide)]
  | some n =>
    obtain ⟨hne, hall, hval⟩ := toDigits_spec n
    obtain ⟨c, cs, hc⟩ := List.exists_cons_of_ne_nil hne
    have hcd : isdigit c = true := hall c (by rw [hc]; exact List.mem_cons_self _ _)
    have hrun : digitRun (Nat.toDigits 10 n ++ '_' :: rest) = Nat.toDigits 10 n :=
      takeWhile_append_stop _ _ hall (by
        intro x hx
        simp only [List.head?_cons, Option.some.injEq] at hx
        rw [← hx]; decide)
    have hs : strtoul (Nat.toDigits 10 n ++ '_' :: rest) = n := by
      unfold strtoul
      rw [hrun, hval]
      exact Nat.min_eq_right (hd n rfl)
    simp only [dim_code, dim_text, hs]
    rw [hc, List.cons_append, List.headD_cons, if_pos hcd]

/-- Run of the second loop of `_array`: every dimension is inserted at the same offset,
so that the dimension handled last stands first, and every round records the text from
`mark` as a substitution. -/
theorem array_emit_run (m : List Char) (mark : Nat) (A : List Char) :
    ∀ (ps : List Nat) (ds : List (Option Nat)),
    List.Forall₂ (fun p d => p ≤ m.length ∧ ∃ rest, m.drop p = dim_code d ++ '_' :: rest)
      ps ds →
    ∀ (s : Mangle) (B : List Char), s.valid = true → s.mangled = m → s.plain = A ++ B →
    mark ≤ A.length → (∀ n, some n ∈ ds → n ≤ ULONG_MAX) →
    A.length + B.length + (dims_text ds).length < s.size →
    s.substitions.length + ds.length ≤ 20 →
    ∃ q, array_emit mark A.length ps s = Res.ok ((), { s with
      plain := A ++ dims_text ds.reverse ++ B, mpos := q,
      substitions := s.substitions
        ++ (array_subs (A.drop mark) ds.reverse).map (fun x => x ++ B) }) := by
  intro ps ds hf
  induction hf with
  | nil =>
    intro s B hv hm hp hmark hd hfit hroom
    refine ⟨s.mpos, ?_⟩
    simp only [array_emit, run_pure, List.reverse_nil, dims_text, array_subs, List.map_nil,
      List.append_nil, ← hp]
  | @cons p d ps ds hpd hrest ih =>
    intro s B hv hm hp hmark hd hfit hroom
    obtain ⟨hple, rest, hdrop⟩ := hpd
    obtain ⟨v, pl, sz, mg, k, n, tc, qf, fn, pb, ss, ts⟩ := s
    simp only at hv hm hp hfit hroom
    subst hv
    subst hp
    rw [← hm] at hple hdrop
    have hat : At (⟨true, A ++ B, sz, mg, p, n, tc, qf, fn, pb, ss, ts⟩ : Mangle)
        (dim_code d ++ '_' :: rest) := ⟨hple, hdrop⟩
    have hl := hat.run_look0
    have hr := hat.run_rest
    have hfield := array_field d rest (fun n hn => hd n (by rw [hn]; exact List.mem_cons_self _ _))
    have hlenT : (dims_text (d :: ds)).length = (dim_text d).length + (dims_text ds).length := by
      simp only [dims_text, List.length_append]
    have hi := run_insert (⟨true, A ++ B, sz, mg, p, n, tc, qf, fn, pb, ss, ts⟩ : Mangle)
      A.length (dim_text d) rfl
      (by simp only [List.length_append]; omega) (dim_text_ne d)
      (by simp only [List.length_append] at hfit ⊢; omega)
    simp only [List.take_left, List.drop_left] at hi
    have ha := run_add_substitution_at
      (⟨true, A ++ dim_text d ++ B, sz, mg, p, n, tc, qf, fn, pb, ss, ts⟩ : Mangle) mark rfl
      (by simp only [List.length_cons] at hroom ⊢; omega)
    simp only at ha
    have hdm : (A ++ dim_text d ++ B).drop mark = A.drop mark ++ dim_text d ++ B := by
      rw [List.append_assoc, List.drop_append_of_le_length hmark, List.append_assoc]
    rw [hdm] at ha
    obtain ⟨q, hq⟩ := ih
      (⟨true, A ++ dim_text d ++ B, sz, mg, p, n, tc, qf, fn, pb,
        ss ++ [A.drop mark ++ dim_text d ++ B], ts⟩ : Mangle)
      (dim_text d ++ B) rfl hm
      (by simp only [List.append_assoc])
      hmark (fun n hn => hd n (List.mem_cons_of_mem _ hn))
      (by simp only [List.length_append] at hlenT hfit ⊢; omega)
      (by simp only [List.length_append, List.length_cons, List.length_nil] at hroom ⊢; omega)
    refine ⟨q, ?_⟩
    rw [array_emit]
    simp only [run_bind, set_mpos, run_modifyS, andThen_ok, Mangle.setMpos, hl, hr, hfield,
      hi, ha, hq]
    simp only [List.reverse_cons, dims_text_append, array_subs_snoc, dims_text,
      List.append_assoc, List.append_nil, List.map_cons, List.map_map, List.singleton_append,
      List.cons_append, List.nil_append, Function.comp_def]

/-- The saved cursor positions of the first loop of `_array` stand in front of the
dimensions. -/
theorem dim_positions_spec (m : List Char) : ∀ (ds : List (Option Nat)) (p : Nat)
    (r : List Char), p ≤ m.length → m.drop p = dims_code ds ++ r →
    List.Forall₂ (fun p d => p ≤ m.length ∧ ∃ rest, m.drop p = dim_code d ++ '_' :: rest)
      (dim_positions p ds) ds := by
  intro ds
  induction ds with
  | nil => intro p r _ _; exact List.Forall₂.nil
  | cons d tl ih =>
    intro p r hp h
    cases tl with
    | nil =>
      simp only [dims_code, List.append_assoc, List.singleton_append] at h
      exact List.Forall₂.cons ⟨hp, r, h⟩ List.Forall₂.nil
    | cons e tl =>
      simp only [dims_code, List.append_assoc, List.cons_append] at h
      have hlen := congrArg List.length h
      simp only [List.length_drop, List.length_append, List.length_cons] at hlen
      have h2 : m.drop (p + (dim_code d).length + 2) = dims_code (e :: tl) ++ r := by
        rw [Nat.add_assoc, ← List.drop_drop, h, ← List.drop_drop, List.drop_left]
        rfl
      exact List.Forall₂.cons ⟨hp, _, h⟩ (ih _ r (by omega) h2)

/-- Run of `_array` on at most ten literal dimensions: the dimensions are written behind
the element type in source order, and every dimension records a substitution, the
innermost array first. -/
theorem array_run (fuel : Nat) {s t : Mangle} (ds : List (Option Nat)) (r : List Char)
    (hv : s.valid = true) (h : At s ('A' :: (dims_code ds ++ r))) (hne : ds ≠ [])
    (hk : ds.length ≤ MAX_ARRAYDIM) (hr : "A".toList.isPrefixOf r = false)
    (hd : ∀ n, some n ∈ ds → n ≤ ULONG_MAX)
    (hin : _type fuel (s.setMpos (s.mpos + 1 + (dims_code ds).length)) = Res.ok ((), t))
    (htv : t.valid = true) (htm : t.mangled = s.mangled)
    (hmark : s.plain.length ≤ t.plain.length)
    (hfit : t.plain.length + (dims_text ds).length < t.size)
    (hroom : t.substitions.length + ds.length ≤ 20) :
    _array (fuel + 1) s = Res.ok ((), { t with
      plain := t.plain ++ dims_text ds,
      substitions := t.substitions ++ array_subs (t.plain.drop s.plain.length) ds }) := by
  have hA := h.run_expect_true hv "A" (isPrefixOf_single _ _)
  have hAl : "A".length = 1 := rfl
  rw [hAl] at hA
  have h1 := h.next
  have hdims := array_dims_run ds MAX_ARRAYDIM [] (s.setMpos (s.mpos + 1)) r hne
    (by simpa [Mangle.setMpos] using hv) h1 hr (by simpa using hk) hk
  have hpos := dim_positions_spec s.mangled ds (s.mpos + 1) r h1.1 h1.2
  obtain ⟨q, hq⟩ := array_emit_run s.mangled s.plain.length t.plain
    (dim_positions (s.mpos + 1) ds).reverse ds.reverse (List.forall₂_reverse_iff.mpr hpos) t []
    htv htm (List.append_nil _).symm hmark
    (fun n hn => hd n (List.mem_reverse.mp hn))
    (by rw [dims_text_reverse_length]; simpa using hfit)
    (by rw [List.length_reverse]; exact hroom)
  simp only [List.reverse_reverse, List.append_nil, List.map_id_fun, id_eq,
    List.map_id_fun'] at hq
  simp only [Mangle.setMpos, List.nil_append] at hA hdims hin
  rw [_array]
  simp only [run_bind, hA, andThen_ok, if_true, hdims, current_position, run_getS, run_pure,
    hin, htv, hq, set_mpos, run_modifyS, Mangle.setMpos]

theorem types_code_not_A : ∀ e ∈ types, "A".toList.isPrefixOf e.1.toList = false := by
  decide

theorem code_name_not_A (cd nm r : List Char) (h : code_name cd = some nm) :
    "A".toList.isPrefixOf (cd ++ r) = false := by
  obtain ⟨e, he, h1, -⟩ := code_name_spec cd nm h
  have h2 := types_code_not_A e he
  rw [h1] at h2
  obtain ⟨c, x, hcd, -⟩ := code_name_head cd nm h
  subst hcd
  have hne : 'A' ≠ c := by
    intro e2
    rw [← e2] at h2
    simp [String.toList, List.isPrefixOf] at h2
  exact isPrefixOf_cons_ne 'A' c [] (x ++ r) hne

/-- Run of `_type` on an array type with at most ten literal dimensions. -/
theorem type_array_run (fuel : Nat) {s t : Mangle} (ds : List (Option Nat)) (r : List Char)
    (hv : s.valid = true) (h : At s ('A' :: (dims_code ds ++ r))) (hne : ds ≠ [])
    (hk : ds.length ≤ MAX_ARRAYDIM) (hr : "A".toList.isPrefixOf r = false)
    (hd : ∀ n, some n ∈ ds → n ≤ ULONG_MAX)
    (hin : _type fuel (s.setMpos (s.mpos + 1 + (dims_code ds).length)) = Res.ok ((), t))
    (htv : t.valid = true) (htm : t.mangled = s.mangled)
    (hmark : s.plain.length ≤ t.plain.length)
    (hfit : t.plain.length + (dims_text ds).length < t.size)
    (hroom : t.substitions.length + ds.length ≤ 20) :
    _type (fuel + 2) s = Res.ok ((), { t with
      plain := t.plain ++ dims_text ds,
      substitions := t.substitions ++ array_subs (t.plain.drop s.plain.length) ds }) := by
  have b0 := h.run_is_builtin_none (by decide) (by decide)
  have b1 := h.run_peek_ne hv 'r' [] (by decide)
  have b2 := h.run_peek_ne hv 'V' [] (by decide)
  have b3 := h.run_peek_ne hv 'K' [] (by decide)
  have b4 := h.run_peek_ne hv 'U' [] (by decide)
  have b5 := h.run_peek_ne hv 'F' [] (by decide)
  have b6 : peek "A" s = Res.ok (true, s) := by
    have e : "A".toList.isPrefixOf ('A' :: (dims_code ds ++ r)) = true :=
      isPrefixOf_single _ _
    rw [h.run_peek hv, e]
  have ha := array_run fuel ds r hv h hne hk hr hd hin htv htm hmark hfit hroom
  rw [_type]
  simp only [run_bind, run_getS, andThen_ok, hv, if_true, current_position, run_pure, b0, b1,
    b2, b3, b4, b5, b6, Bool.or_self, Bool.false_eq_true, if_false, ha]

/-- Run of `_type` on an array of a builtin type with at most ten literal dimensions: the
name of the element type is followed by the dimensions in source order, and the table of
substitutions gains one entry for every dimension. -/
theorem type_array_code_run (fuel : Nat) {s : Mangle} (ds : List (Option Nat))
    (cd T r : List Char) (hv : s.valid = true) (h : At s ('A' :: (dims_code ds ++ (cd ++ r))))
    (hne : ds ≠ []) (hk : ds.length ≤ MAX_ARRAYDIM) (hd : ∀ n, some n ∈ ds → n ≤ ULONG_MAX)
    (hcd : code_name cd = some T)
    (hfit : s.plain.length + T.length + (dims_text ds).length < s.size)
    (hroom : s.substitions.length + ds.length ≤ 20) :
    _type (fuel + 3) s = Res.ok ((), { s with
      plain := s.plain ++ T ++ dims_text ds,
      mpos := s.mpos + 1 + (dims_code ds).length + cd.length,
      substitions := s.substitions ++ array_subs T ds }) := by
  obtain ⟨v, p, sz, m, k, n, tc, q, fn, pb0, ss, ts⟩ := s
  simp only at hv hfit hroom
  subst hv
  have h1 := (h.next).moved (dims_code ds).length (by simp)
  rw [List.drop_left] at h1
  have hc := type_code_run fuel
    (s := ⟨true, p, sz, m, k + 1 + (dims_code ds).length, n, tc, q, fn, pb0, ss, ts⟩)
    rfl ⟨h1.1, h1.2⟩ hcd (by simp only; omega)
  simp only at hc
  have := type_array_run (fuel + 1) (s := ⟨true, p, sz, m, k, n, tc, q, fn, pb0, ss, ts⟩) ds
    (cd ++ r) rfl h hne hk (code_name_not_A cd T r hcd) hd hc rfl rfl
    (by simp) (by simp only [List.length_append]; omega) hroom
  simp only [List.drop_left] at this
  exact this

/-- The function `f` with one parameter whose code starts with a character that neither
ends the input nor opens template arguments: the text of the parameter stands between the
parentheses. -/
theorem demangle_one_param (g : Nat) (plain : List Char) (size : Nat) (c : Char)
    (r X : List Char) (pb : List (Option Nat)) (ss : List (List Char))
    (hcs : c ≠ NUL ∧ c ≠ '.' ∧ c ≠ '@' ∧ c ≠ 'I') (hnul : ∀ x ∈ r, x ≠ NUL) (hlen : r.length < 2147483640)
    (hX : X ≠ "void".toList) (hsize : X.length + 3 < size)
    (hty : _type (g + 1) ⟨true, "f(".toList, size, "_Z".toList ++ ('1' :: 'f' :: c :: r), 4, 1,
        false, [], 0, (List.replicate MAX_FUNC_NESTING none).set 0 (some 2), [], []⟩
      = Res.ok ((), ⟨true, "f(".toList ++ X, size, "_Z".toList ++ ('1' :: 'f' :: c :: r),
          4 + (c :: r).length, 1, false, [], 0, pb, ss, []⟩)) :
    demangle (g + 3) plain size ("_Z".toList ++ ('1' :: 'f' :: c :: r))
      = Res.ok (true, "f(".toList ++ X ++ ")".toList) := by
  have hat := initial_at size ('1' :: 'f' :: c :: r)
  have hname := name_source_run (g + 1)
    (s := initial size ("_Z".toList ++ ('1' :: 'f' :: c :: r))) "f".toList (c :: r) rfl hat
    (by
      intro x hx
      simp only [String.toList, List.cons_append, List.head?_cons, Option.some.injEq] at hx
      rw [← hx]; decide)
    (by simp only [String.toList, List.length_append, List.length_cons, List.length_nil]; omega)
    (by simp only [initial, String.toList, List.length_cons, List.length_nil]; omega)
    (isPrefixOf_cons_ne _ _ _ _ (Ne.symm hcs.2.2.2))
  have hat1 : At (⟨true, "f".toList, size, "_Z".toList ++ ('1' :: 'f' :: c :: r), 4, 0, false,
      [], 0, List.replicate MAX_FUNC_NESTING none, [], []⟩ : Mangle) (c :: r) := by
    have := hat.moved 2 (by simp)
    exact ⟨this.1, this.2⟩
  have hstep := function_encoding_loop_step (g + 1) 0
    (s := ⟨true, "f(".toList, size, "_Z".toList ++ ('1' :: 'f' :: c :: r), 4, 1, false,
      [], 0, List.replicate MAX_FUNC_NESTING none, [], []⟩) rfl ⟨hat1.1, hat1.2⟩
    ⟨hcs.1, hcs.2.1, hcs.2.2.1⟩ rfl
    (by simp only [String.toList, List.length_cons, List.length_nil]; omega)
    hty
    (by
      intro hcon
      have h2 := hcon.2
      simp only at h2
      rw [List.drop_left] at h2
      exact hX h2)
  have hat3 : At (⟨true, "f(".toList ++ X, size, "_Z".toList ++ ('1' :: 'f' :: c :: r),
      4 + (c :: r).length, 1, false, [], 0, pb, ss, []⟩ : Mangle) [] := by
    have := hat1.moved (c :: r).length (by simp)
    refine ⟨?_, ?_⟩
    · have h1 := this.1; exact h1
    · have h2 := this.2
      rw [List.drop_length] at h2
      exact h2
  have hend := function_encoding_loop_end g 1 hat3
  have hloop := hstep.trans hend
  have hfr := function_encoding_frame (g + 2) hname rfl rfl (t := ⟨true, "f".toList, size,
      "_Z".toList ++ ('1' :: 'f' :: c :: r), 4, 0, false,
      [], 0, List.replicate MAX_FUNC_NESTING none, [], []⟩) hat1 ⟨hcs.1, hcs.2.1, hcs.2.2.1⟩
    (show ("f".toList : List Char) ≠ [] from by decide)
    (show (pchar ("f".toList) (("f".toList : List Char).length - 1) == '>')
      = false from by decide)
    (by simp only [String.toList, List.length_cons, List.length_nil]; omega)
    hloop rfl rfl (Or.inl rfl)
    (by
      simp only [String.toList, List.length_append, List.length_cons, List.length_nil,
        if_true]
      omega)
  have hat2 : At (initial size ("_Z".toList ++ ('1' :: 'f' :: c :: r)))
      ('1' :: ('f' :: c :: r)) := hat
  have henc := encoding_digit_run (g + 3) _ '1' _ rfl hat2 (by decide)
  rw [hfr] at henc
  have hd := demangle_of_encoding (g + 3) plain size _ _ (by omega)
    (by
      intro x hx
      simp only [List.mem_cons] at hx
      rcases hx with e | e | e | hx
      · rw [e]; decide
      · rw [e]; decide
      · rw [e]; exact hcs.1
      · exact hnul x hx) henc
  rw [hd]
  simp only [if_true, List.append_nil]

theorem dims_code_chars : ∀ (ds : List (Option Nat)), ∀ x ∈ dims_code ds, x ≠ NUL := by
  have hdig : ∀ (d : Option Nat), ∀ x ∈ dim_code d, x ≠ NUL :=
    fun d x hx => isdigit_ne x NUL (dim_code_digits d x hx) (by decide)
  intro ds
  induction ds with
  | nil => intro x hx; cases hx
  | cons d tl ih =>
    intro x hx
    cases tl with
    | nil =>
      simp only [dims_code, List.mem_append, List.mem_singleton] at hx
      rcases hx with hx | hx
      · exact hdig d x hx
      · rw [hx]; decide
    | cons e tl =>
      simp only [dims_code, List.mem_append, List.mem_cons] at hx
      rcases hx with hx | hx | hx | hx
      · exact hdig d x hx
      · rw [hx]; decide
      · rw [hx]; decide
      · exact ih x hx

theorem dims_text_bracket (ds : List (Option Nat)) (hne : ds ≠ []) : ']' ∈ dims_text ds := by
  cases ds with
  | nil => exact absurd rfl hne
  | cons d tl =>
    simp only [dims_text, List.mem_append]
    left
    cases d <;> simp [dim_text]

/-- The function `f` with an array of a builtin type as its parameter: the name of the
element type is followed by the dimensions in source order. -/
theorem demangle_array_param (g : Nat) (plain : List Char) (size : Nat)
    (ds : List (Option Nat)) (cd T : List Char) (hne : ds ≠ [])
    (hk : ds.length ≤ MAX_ARRAYDIM) (hd : ∀ n, some n ∈ ds → n ≤ ULONG_MAX)
    (hcd : code_name cd = some T) (hlen : (dims_code ds).length < 2147483000)
    (hsize : T.length + (dims_text ds).length + 3 < size) :
    demangle (g + 5) plain size ("_Z1fA".toList ++ (dims_code ds ++ cd))
      = Res.ok (true, "f(".toList ++ T ++ dims_text ds ++ ")".toList) := by
  obtain ⟨c0, r0, hc0, -, -, -, -, -, -, hnn⟩ := code_name_head cd T hcd
  have hcl : cd.length ≤ 2 := by
    obtain ⟨e, he, h1, -⟩ := code_name_spec cd T hcd
    rw [← h1]
    rcases types_code_lengths e he with h2 | h2
    · omega
    · omega
  have hty := type_array_code_run g
    (s := ⟨true, "f(".toList, size, "_Z".toList ++ ('1' :: 'f' :: 'A' :: (dims_code ds ++ cd)),
      4, 1, false, [], 0, (List.replicate MAX_FUNC_NESTING none).set 0 (some 2), [], []⟩)
    ds cd T [] rfl
    (by rw [List.append_nil]; exact first_param_at _ _ _ _ _) hne hk hd hcd
    (by simp only [String.toList, List.length_cons, List.length_nil]; omega)
    (by simp only [List.length_nil, Nat.zero_add]; unfold MAX_ARRAYDIM at hk; omega)
  simp only [List.nil_append] at hty
  have hmp : 4 + 1 + (dims_code ds).length + cd.length
      = 4 + ('A' :: (dims_code ds ++ cd)).length := by
    simp only [List.length_cons, List.length_append]; omega
  rw [hmp] at hty
  have hd2 := demangle_one_param (g + 2) plain size 'A' (dims_code ds ++ cd)
    (T ++ dims_text ds) _ _
    ⟨by decide, by decide, by decide, by decide⟩
    (by
      intro x hx
      rcases List.mem_append.mp hx with hx | hx
      · exact dims_code_chars ds x hx
      · exact hnn x hx)
    (by simp only [List.length_append]; omega)
    (by
      intro e
      have := dims_text_bracket ds hne
      have h2 : ']' ∈ T ++ dims_text ds := List.mem_append_right _ this
      rw [e] at h2
      exact absurd h2 (by decide))
    (by simp only [List.length_append]; omega)
    (by rw [← List.append_assoc]; exact hty)
  have e1 : "_Z1fA".toList ++ (dims_code ds ++ cd)
      = "_Z".toList ++ ('1' :: 'f' :: 'A' :: (dims_code ds ++ cd)) := rfl
  rw [e1, hd2]
  simp only [List.append_assoc]

/-- The backward scan of `find_matching` from a `]` over a text without brackets to the
`[` in front of it. -/
theorem bracket_scan_back (x y z : List Char)
    (hy : ∀ c ∈ y, c ≠ '[' ∧ c ≠ ']') : ∀ (k n : Nat), k ≤ y.length → k + 1 ≤ n →
    find_matching_scan (x ++ '[' :: (y ++ ']' :: z)) ']' '[' false 0 n (x.length + 1 + k) 0
      = x.length := by
  have hpos : ∀ k, k ≤ y.length →
      pchar (x ++ '[' :: (y ++ ']' :: z)) (x.length + 1 + k) ≠ '[' := by
    intro k hk
    rw [Nat.add_assoc, pchar_append_right]
    unfold pchar
    rw [Nat.add_comm 1 k, List.getD_cons_succ]
    by_cases hlt : k < y.length
    · rw [List.getD_eq_getElem _ _ (by simp; omega), List.getElem_append_left hlt]
      exact (hy _ (List.getElem_mem _)).1
    · have : k = y.length := by omega
      rw [this, List.getD_eq_getElem _ _ (by simp), List.getElem_append_right (by omega)]
      simp
  have hopen : pchar (x ++ '[' :: (y ++ ']' :: z)) x.length = '[' := by
    have := pchar_append_right x ('[' :: (y ++ ']' :: z)) 0
    rw [Nat.add_zero] at this
    rw [this]; rfl
  intro k
  induction k with
  | zero =>
    intro n _ hn
    obtain ⟨n', rfl⟩ : ∃ n', n = n' + 1 := ⟨n - 1, by omega⟩
    rw [find_matching_scan]
    have h1 := hpos 0 (Nat.zero_le _)
    simp only [Nat.add_zero] at h1 ⊢
    have hc : ((x.length + 1 != 0) &&
        (pchar (x ++ '[' :: (y ++ ']' :: z)) (x.length + 1) != '[' || decide ((0 : Int) > 0)))
        = true := by
      simp [h1]
    rw [if_pos hc]
    simp only [Bool.false_eq_true, if_false, Nat.add_sub_cancel, hopen]
    have e1 : (('[' : Char) == ']') = false := by decide
    simp only [e1, Bool.false_eq_true, if_false, beq_self_eq_true, if_true]
    cases n' with
    | zero => rfl
    | succ n2 =>
      rw [find_matching_scan]
      have hc2 : ¬ (((x.length != 0) &&
          (pchar (x ++ '[' :: (y ++ ']' :: z)) x.length != '[' || decide ((0 : Int) - 1 > 0)))
          = true) := by
        simp [hopen]
      rw [if_neg hc2]
  | succ k ih =>
    intro n hk hn
    obtain ⟨n', rfl⟩ : ∃ n', n = n' + 1 := ⟨n - 1, by omega⟩
    rw [find_matching_scan]
    have h1 := hpos (k + 1) hk
    have hc : ((x.length + 1 + (k + 1) != 0) &&
        (pchar (x ++ '[' :: (y ++ ']' :: z)) (x.length + 1 + (k + 1)) != '[' ||
          decide ((0 : Int) > 0))) = true := by
      simp [h1]
    rw [if_pos hc]
    simp only [Bool.false_eq_true, if_false]
    have e : x.length + 1 + (k + 1) - 1 = x.length + 1 + k := by omega
    rw [e]
    have h2 := hpos k (by omega)
    have h3 : pchar (x ++ '[' :: (y ++ ']' :: z)) (x.length + 1 + k) ≠ ']' := by
      rw [Nat.add_assoc, pchar_append_right]
      unfold pchar
      rw [Nat.add_comm 1 k, List.getD_cons_succ]
      rw [List.getD_eq_getElem _ _ (by simp; omega), List.getElem_append_left (by omega)]
      exact (hy _ (List.getElem_mem _)).2
    simp only [beq_eq_false_iff_ne.mpr h3, beq_eq_false_iff_ne.mpr h2, Bool.false_eq_true,
      if_false]
    exact ih n' (by omega) (by omega)

/-- Run of `find_matching` from the closing bracket of a dimension: the match is the
opening bracket. -/
theorem find_matching_bracket (s : Mangle) (x y z : List Char)
    (hy : ∀ c ∈ y, c ≠ '[' ∧ c ≠ ']') :
    find_matching (x ++ '[' :: (y ++ ']' :: z)) 0 (x.length + 1 + y.length) ']' s
      = Res.ok (some x.length, s) := by
  have hb : bracket ']' = some ('[', false) := by decide
  have hscan := bracket_scan_back x y z hy y.length (x.length + 1 + y.length - 0 + 1)
    (Nat.le_refl _) (by omega)
  have hopen : pchar (x ++ '[' :: (y ++ ']' :: z)) x.length = '[' := by
    have := pchar_append_right x ('[' :: (y ++ ']' :: z)) 0
    rw [Nat.add_zero] at this
    rw [this]; rfl
  simp only [find_matching, run_bind, run_cassert, Nat.zero_le, decide_True, if_true,
    andThen_ok, hb, Bool.false_eq_true, if_false, hscan, hopen, beq_self_eq_true, run_pure]

theorem pchar_append_lt (a b : List Char) (i : Nat) (h : i < a.length) :
    pchar (a ++ b) i = pchar a i := by
  unfold pchar
  exact List.getD_append _ _ _ _ h

theorem dim_text_eq (d : Option Nat) : dim_text d = '[' :: (dim_code d ++ [']']) := by
  cases d <;> rfl

theorem dim_code_plain (d : Option Nat) : ∀ c ∈ dim_code d, c ≠ '[' ∧ c ≠ ']' :=
  fun c hc => ⟨isdigit_ne c '[' (dim_code_digits d c hc) (by decide),
    isdigit_ne c ']' (dim_code_digits d c hc) (by decide)⟩

theorem dims_text_last (ds : List (Option Nat)) (hne : ds ≠ []) :
    ∃ w, dims_text ds = w ++ [']'] := by
  rcases List.eq_nil_or_concat ds with h | ⟨i2, e, h⟩
  · exact absurd h hne
  · refine ⟨dims_text i2 ++ '[' :: dim_code e, ?_⟩
    rw [h, List.concat_eq_append, dims_text_append]
    simp only [dims_text, dim_text_eq, List.append_nil, List.append_assoc, List.cons_append]

/-- Run of the loop of `check_func_array` over the dimensions behind a type name: the
result is the offset of the first opening bracket. -/
theorem check_array_loop_run (X : List Char) (base : Nat) (s : Mangle) (hX : X ≠ [])
    (hlast : pchar X (X.length - 1) ≠ ']') (hbase : base ≤ X.length) :
    ∀ (ds : List (Option Nat)), ds ≠ [] → ∀ (z : List Char) (n : Nat), ds.length + 1 ≤ n →
    check_array_loop (X ++ dims_text ds ++ z) base n ((X ++ dims_text ds).length - 1) s
      = Res.ok (X.length, s) := by
  have hXl : 0 < X.length := List.length_pos.mpr hX
  intro ds
  induction ds using List.reverseRecOn with
  | nil => intro h; exact absurd rfl h
  | append_singleton init d ih =>
    intro _ z n hn
    obtain ⟨n, rfl⟩ : ∃ k, n = k + 1 := ⟨n - 1, by omega⟩
    have htxt : X ++ dims_text (init ++ [d]) ++ z
        = (X ++ dims_text init) ++ '[' :: (dim_code d ++ ']' :: z) := by
      rw [dims_text_append]
      simp only [dims_text, dim_text_eq, List.append_nil, List.append_assoc, List.cons_append,
        List.nil_append]
    have hp : (X ++ dims_text (init ++ [d])).length - 1
        = (X ++ dims_text init).length + 1 + (dim_code d).length := by
      rw [dims_text_append]
      simp only [dims_text, dim_text_eq, List.append_nil, List.length_append, List.length_cons,
        List.length_nil]
      omega
    have hclose : pchar ((X ++ dims_text init) ++ '[' :: (dim_code d ++ ']' :: z))
        ((X ++ dims_text init).length + 1 + (dim_code d).length) = ']' := by
      rw [Nat.add_assoc, pchar_append_right]
      unfold pchar
      rw [Nat.add_comm 1, List.getD_cons_succ, List.getD_eq_getElem _ _ (by simp),
        List.getElem_append_right (by omega)]
      simp
    have hopen : pchar ((X ++ dims_text init) ++ '[' :: (dim_code d ++ ']' :: z))
        (X ++ dims_text init).length = '[' := by
      have := pchar_append_right (X ++ dims_text init) ('[' :: (dim_code d ++ ']' :: z)) 0
      rw [Nat.add_zero] at this
      rw [this]; rfl
    have hfm := find_matching_bracket s (X ++ dims_text init) (dim_code d) z (dim_code_plain d)
    rw [htxt, hp, check_array_loop]
    simp only [hclose, beq_self_eq_true, if_true, run_bind, hfm, andThen_ok, run_cassert,
      hopen]
    by_cases hi : init = []
    · subst hi
      simp only [dims_text, List.append_nil] at hopen ⊢
      have h1 : pchar (X ++ '[' :: (dim_code d ++ ']' :: z)) (X.length - 1) ≠ ']' := by
        rw [pchar_append_lt _ _ _ (by omega)]
        exact hlast
      simp only [beq_eq_false_iff_ne.mpr h1, Bool.and_false, Bool.false_eq_true, if_false]
      obtain ⟨n2, rfl⟩ : ∃ k, n = k + 1 := ⟨n - 1, by
        simp only [List.length_append, List.length_cons, List.length_nil] at hn; omega⟩
      rw [check_array_loop]
      simp only [hopen]
      rw [if_neg (by decide)]
      rfl
    · obtain ⟨w, hw⟩ := dims_text_last init hi
      have hwl : (X ++ dims_text init).length = X.length + w.length + 1 := by
        rw [hw]; simp only [List.length_append, List.length_cons, List.length_nil]; omega
      have h1 : pchar ((X ++ dims_text init) ++ '[' :: (dim_code d ++ ']' :: z))
          ((X ++ dims_text init).length - 1) = ']' := by
        rw [pchar_append_lt _ _ _ (by omega), hw, ← List.append_assoc]
        have : (X ++ w ++ [']']).length - 1 = (X ++ w).length + 0 := by
          simp only [List.length_append, List.length_cons, List.length_nil]; omega
        rw [this, pchar_append_right]; rfl
      have hgt : (X ++ dims_text init).length > base := by omega
      simp only [h1, hgt, decide_True, beq_self_eq_true, Bool.and_self, if_true]
      have := ih hi (dim_text d ++ z) n (by
        simp only [List.length_append, List.length_cons, List.length_nil] at hn; omega)
      rw [← this]
      congr 1
      simp only [dim_text_eq, List.append_assoc, List.cons_append, List.nil_append]

theorem dims_text_long : ∀ (ds : List (Option Nat)), 2 * ds.length ≤ (dims_text ds).length := by
  intro ds
  induction ds with
  | nil => simp [dims_text]
  | cons d tl ih =>
    simp only [dims_text, dim_text_eq, List.length_append, List.length_cons, List.length_nil]
    omega

/-- Run of `check_func_array` on a type name followed by array dimensions: the text is an
array, and the result is the offset of its first opening bracket. -/
theorem check_func_array_dims (t : Mangle) (pre T : List Char) (ds : List (Option Nat))
    (hv : t.valid = true) (hplain : t.plain = pre ++ T ++ dims_text ds) (hT : T ≠ [])
    (hTc : ∀ x ∈ T, name_char x = true) (hne : ds ≠ []) :
    check_func_array pre.length t = Res.ok (some (pre ++ T).length, t) := by
  have hTl : 0 < T.length := List.length_pos.mpr hT
  have hdl := dims_text_long ds
  have hdsl : 0 < ds.length := List.length_pos.mpr hne
  obtain ⟨w, hw⟩ := dims_text_last ds hne
  have hnz : ¬ ((pre ++ T ++ dims_text ds).length - pre.length = 0) := by
    simp only [List.length_append]; omega
  have h0 : (pchar (pre ++ T ++ dims_text ds) pre.length == '(') = false := by
    rw [List.append_assoc]
    have e := pchar_append_right pre (T ++ dims_text ds) 0
    rw [Nat.add_zero] at e
    rw [e]
    obtain ⟨r0, rs, hr⟩ := List.exists_cons_of_ne_nil hT
    rw [hr]
    have h1 := (plain_char_ne r0 (name_char_spec r0 (hTc r0 (by
      rw [hr]; exact List.mem_cons_self _ _))).1).1
    exact beq_eq_false_iff_ne.mpr h1
  have htxt : pre ++ T ++ dims_text ds = (pre ++ T ++ w) ++ [']'] := by
    rw [hw]; simp only [List.append_assoc]
  have hprobe : array_probe (pre ++ T ++ dims_text ds)
      = (pre ++ T ++ dims_text ds).length - 1 := by
    rw [htxt]
    exact array_probe_end _ ']' ⟨by decide, by decide⟩
  have hlast : pchar (pre ++ T ++ dims_text ds) ((pre ++ T ++ dims_text ds).length - 1)
      = ']' := by
    rw [htxt]
    have : ((pre ++ T ++ w) ++ [']']).length - 1 = (pre ++ T ++ w).length + 0 := by
      simp only [List.length_append, List.length_cons, List.length_nil]; omega
    rw [this, pchar_append_right]; rfl
  have hXlast : pchar (pre ++ T) ((pre ++ T).length - 1) ≠ ']' := by
    have hm := pchar_last_mem pre T hT
    exact (plain_char_ne _ (name_char_spec _ (hTc _ hm)).1).2.2.2.1
  have hloop := check_array_loop_run (pre ++ T) pre.length t (by simp [hT]) hXlast (by simp)
    ds hne [] ((pre ++ T ++ dims_text ds).length - 1 + 1) (by
      simp only [List.length_append]; omega)
  rw [List.append_nil] at hloop
  have hopen : pchar (pre ++ T ++ dims_text ds) (pre ++ T).length = '[' := by
    have := pchar_append_right (pre ++ T) (dims_text ds) 0
    rw [Nat.add_zero] at this
    rw [this]
    cases ds with
    | nil => exact absurd rfl hne
    | cons d tl => simp only [dims_text, dim_text_eq, List.cons_append]; rfl
  have hge : pre.length ≤ (pre ++ T).length := by simp
  have hnp : ((']' : Char) == ')') = false := by decide
  simp only [check_func_array, run_bind, run_getS, andThen_ok, hv, Bool.not_true, Bool.false_or,
    decide_eq_true_eq, hplain, hnz, if_false, h0, Bool.false_eq_true, run_pure, run_ite]
  generalize pre ++ T ++ dims_text ds = txt at hprobe hlast hloop hopen ⊢
  have hfold : (if (decide ((if (decide (txt.length - 1 ≥ 5) &&
        txt.drop (txt.length - 1 - 4) == "const".toList) = true
      then txt.length - 1 - 5 else txt.length - 1) > 0) &&
      pchar txt (if (decide (txt.length - 1 ≥ 5) &&
        txt.drop (txt.length - 1 - 4) == "const".toList) = true
      then txt.length - 1 - 5 else txt.length - 1) == ' ') = true
      then (if (decide (txt.length - 1 ≥ 5) &&
        txt.drop (txt.length - 1 - 4) == "const".toList) = true
      then txt.length - 1 - 5 else txt.length - 1) - 1
      else (if (decide (txt.length - 1 ≥ 5) &&
        txt.drop (txt.length - 1 - 4) == "const".toList) = true
      then txt.length - 1 - 5 else txt.length - 1))
      = array_probe txt := rfl
  rw [hfold, hprobe]
  simp only [hlast, hnp, beq_self_eq_true, if_true, Bool.false_eq_true, if_false, hloop,
    andThen_ok, hopen, run_pure, hge, decide_True, Bool.or_true, Bool.and_self]

theorem dims_text_no_star : ∀ (ds : List (Option Nat)), ∀ x ∈ dims_text ds, x ≠ '*' := by
  intro ds
  induction ds with
  | nil => intro x hx; cases hx
  | cons d tl ih =>
    intro x hx
    simp only [dims_text, dim_text_eq, List.mem_append, List.mem_cons, List.mem_singleton,
      List.not_mem_nil, or_false] at hx
    rcases hx with (hx | hx | hx) | hx
    · rw [hx]; decide
    · exact isdigit_ne x '*' (dim_code_digits d x hx) (by decide)
    · rw [hx]; decide
    · exact ih x hx

/-- Run of `insertion_point` on a type name followed by array dimensions: a decorator goes
in front of the first opening bracket. -/
theorem insertion_point_dims (t : Mangle) (pre T : List Char) (ds : List (Option Nat))
    (hv : t.valid = true) (hplain : t.plain = pre ++ T ++ dims_text ds) (hT : T ≠ [])
    (hTc : ∀ x ∈ T, name_char x = true) (hne : ds ≠ []) :
    insertion_point pre.length t = Res.ok ((pre ++ T).length, t) := by
  have hng : ¬ (pre.length > (pre ++ T ++ dims_text ds).length) := by
    simp only [List.length_append]; omega
  have hns : ∀ i, pre.length ≤ i → pchar (pre ++ T ++ dims_text ds) i ≠ '*' := by
    intro i hi
    by_cases h2 : i < (pre ++ T ++ dims_text ds).length
    · rw [List.append_assoc] at h2 ⊢
      have hm := pchar_mem_right pre (T ++ dims_text ds) i hi h2
      generalize pchar (pre ++ (T ++ dims_text ds)) i = z at hm
      rcases List.mem_append.mp hm with hm | hm
      · exact (name_char_spec z (hTc z hm)).2.1
      · exact dims_text_no_star ds z hm
    · rw [pchar_beyond _ _ (by omega)]; decide
  have hc := check_func_array_dims t pre T ds hv hplain hT hTc hne
  have hl : (pre ++ T ++ dims_text ds).length + 2
      = ((pre ++ T ++ dims_text ds).length + 1) + 1 := rfl
  simp only [insertion_point, run_bind, run_getS, andThen_ok, hplain, hng, if_false, hl,
    insertion_loop_no_star _ _ hns, hc, run_pure, run_ite]

/-- Run of `_type` on a pointer to an array of a builtin type with at most ten literal
dimensions: the decorator `(*)` goes in front of the brackets; the arrays and the pointer
are recorded as substitutions. -/
theorem type_pointer_array_run (fuel : Nat) {s : Mangle} (ds : List (Option Nat)) (c : Char)
    (T r : List Char) (hv : s.valid = true)
    (h : At s ('P' :: 'A' :: (dims_code ds ++ ([c] ++ r)))) (hne : ds ≠ [])
    (hk : ds.length ≤ MAX_ARRAYDIM) (hd : ∀ n, some n ∈ ds → n ≤ ULONG_MAX)
    (hc : builtin_name c = some T)
    (hfit : s.plain.length + T.length + (dims_text ds).length + 3 < s.size)
    (hroom : s.substitions.length + ds.length < 20) :
    _type (fuel + 4) s = Res.ok ((), { s with
      plain := s.plain ++ T ++ "(*)".toList ++ dims_text ds,
      mpos := s.mpos + 1 + 1 + (dims_code ds).length + 1,
      substitions := s.substitions ++ array_subs T ds
        ++ [T ++ "(*)".toList ++ dims_text ds] }) := by
  obtain ⟨v, p, sz, m, k, n, tc, q, fn, pb0, ss, ts⟩ := s
  simp only at hv hfit hroom
  subst hv
  have hT : T ≠ [] := by
    obtain ⟨x, a, b, hnm, -, -⟩ := builtin_name_tail c T hc
    rw [hnm]; simp
  have hb := type_array_code_run fuel
    (s := ⟨true, p, sz, m, k + 1, n, tc, q, fn, pb0, ss, ts⟩) ds [c] T r
    rfl ⟨h.next.1, h.next.2⟩ hne hk hd hc (by simp only; omega) (by simp only; omega)
  simp only [List.length_cons, List.length_nil, Nat.zero_add] at hb
  have hip := insertion_point_dims
    (⟨true, p ++ T ++ dims_text ds, sz, m, k + 1 + 1 + (dims_code ds).length + 1, n, tc, q, fn,
      pb0, ss ++ array_subs T ds, ts⟩ : Mangle) p T ds rfl rfl hT
    (builtin_name_chars c T hc) hne
  simp only at hip
  have hopen : pchar (p ++ T ++ dims_text ds) (p ++ T).length = '[' := by
    have := pchar_append_right (p ++ T) (dims_text ds) 0
    rw [Nat.add_zero] at this
    rw [this]
    cases ds with
    | nil => exact absurd rfl hne
    | cons d tl => simp only [dims_text, dim_text_eq, List.cons_append]; rfl
  have hbr : (('[' : Char) == '(' || ('[' : Char) == '[') = true := by decide
  have hp := type_pointer_run (fuel + 3) (s := ⟨true, p, sz, m, k, n, tc, q, fn, pb0, ss, ts⟩)
    (p ++ T).length rfl h hb rfl hip (by simp)
    (by
      show (p ++ T ++ dims_text ds).length + (if (pchar (p ++ T ++ dims_text ds)
        (p ++ T).length == '(' || pchar (p ++ T ++ dims_text ds) (p ++ T).length == '[')
        = true then 3 else 1) < sz
      rw [hopen, if_pos hbr]
      simp only [List.length_append]; omega)
    (by simp only [List.length_append, array_subs_length]; omega)
  rw [hp]
  simp only [hopen, hbr, if_true, List.take_left, List.drop_left]
  simp only [List.append_assoc, List.drop_left]

/-- The function `f` with a pointer to an array of a builtin type as its parameter: the
decorator `(*)` stands between the name of the element type and the dimensions. -/
theorem demangle_pointer_array_param (g : Nat) (plain : List Char) (size : Nat)
    (ds : List (Option Nat)) (c : Char) (T : List Char) (hne : ds ≠ [])
    (hk : ds.length ≤ MAX_ARRAYDIM) (hd : ∀ n, some n ∈ ds → n ≤ ULONG_MAX)
    (hc : builtin_name c = some T) (hlen : (dims_code ds).length < 2147483000)
    (hsize : T.length + (dims_text ds).length + 6 < size) :
    demangle (g + 6) plain size ("_Z1fPA".toList ++ (dims_code ds ++ [c]))
      = Res.ok (true, "f(".toList ++ T ++ "(*)".toList ++ dims_text ds ++ ")".toList) := by
  have hcn := (builtin_name_not_special c T hc).1
  have hty := type_pointer_array_run g
    (s := ⟨true, "f(".toList, size,
      "_Z".toList ++ ('1' :: 'f' :: 'P' :: 'A' :: (dims_code ds ++ [c])),
      4, 1, false, [], 0, (List.replicate MAX_FUNC_NESTING none).set 0 (some 2), [], []⟩)
    ds c T [] rfl (first_param_at _ _ _ _ _) hne hk hd hc
    (by simp only [String.toList, List.length_cons, List.length_nil]; omega)
    (by simp only [List.length_nil, Nat.zero_add]; unfold MAX_ARRAYDIM at hk; omega)
  simp only [List.nil_append] at hty
  have hmp : 4 + 1 + 1 + (dims_code ds).length + 1
      = 4 + ('P' :: 'A' :: (dims_code ds ++ [c])).length := by
    simp only [List.length_cons, List.length_append, List.length_nil]; omega
  rw [hmp] at hty
  have hd2 := demangle_single_param (g + 3) plain size 'P' ('A' :: (dims_code ds ++ [c]))
    (T ++ "(*)".toList ++ dims_text ds) _ _ (Or.inl rfl)
    (by
      intro x hx
      rcases List.mem_cons.mp hx with hx | hx
      · rw [hx]; decide
      · rcases List.mem_append.mp hx with hx | hx
        · exact dims_code_chars ds x hx
        · rw [List.mem_singleton] at hx
          rw [hx]; exact hcn)
    (by simp only [List.length_cons, List.length_append, List.length_nil]; omega)
    (by
      intro e
      have := dims_text_bracket ds hne
      have h2 : ']' ∈ T ++ "(*)".toList ++ dims_text ds := List.mem_append_right _ this
      rw [e] at h2
      exact absurd h2 (by decide))
    (by
      simp only [String.toList, List.length_append, List.length_cons, List.length_nil]
      omega)
    (by simp only [← List.append_assoc] at hty ⊢; exact hty)
  have e1 : "_Z1fPA".toList ++ (dims_code ds ++ [c])
      = "_Z".toList ++ ('1' :: 'f' :: 'P' :: 'A' :: (dims_code ds ++ [c])) := rfl
  rw [e1, hd2]
  simp only [List.append_assoc]

/-! ## Array types: the claim -/

/-- C24: an array type with the dimensions `d1 ... dk` renders as the element type followed
by `[d1][d2]...[dk]` in source order and registers `k` substitutions, as long as there are
at most ten dimensions.  For a builtin element type with the code `cd` and the name `T` and
for dimensions that are decimal numbers below `2^64` or empty (rendered `[]`), `demangle`
on the function `f` with the array as its parameter returns true with `f(` + `T` +
`[d1]...[dk]` + `)`, and with a pointer to the array, for a one-letter code, with `f(` +
`T` + `(*)` + `[d1]...[dk]` + `)`; the production `_type` appends `T` + `[d1]...[dk]` and
adds the `k` texts `T[dk]`, ..., `T[d1]...[dk]` to the table of substitutions.  The three
symbols of the claim give `f(int[37],int(*)[37])`, `foo(int[30][])` and
`koo(int(*)[28][30])`.  The first loop of `_array` collects ten dimensions at most; an
eleventh is parsed as a part of the element type, so that its bracket comes first: the
dimensions 1 to 11 are written `[11][1][2]...[10]`. -/
theorem array_dimensions_rendered :
    (∀ (fuel : Nat) (plain : List Char) (size : Nat) (ds : List (Option Nat))
        (cd T : List Char),
      ds ≠ [] → ds.length ≤ MAX_ARRAYDIM → (∀ n, some n ∈ ds → n ≤ ULONG_MAX) →
      code_name cd = some T → (dims_code ds).length < 2147483000 →
      T.length + (dims_text ds).length + 6 < size → 6 ≤ fuel →
      demangle fuel plain size ("_Z1fA".toList ++ (dims_code ds ++ cd))
        = Res.ok (true, "f(".toList ++ T ++ dims_text ds ++ ")".toList) ∧
      (∀ c, cd = [c] →
        demangle fuel plain size ("_Z1fPA".toList ++ (dims_code ds ++ cd))
          = Res.ok (true, "f(".toList ++ T ++ "(*)".toList ++ dims_text ds ++ ")".toList))) ∧
    (∀ (fuel : Nat) (s : Mangle) (ds : List (Option Nat)) (cd T r : List Char),
      s.valid = true → At s ('A' :: (dims_code ds ++ (cd ++ r))) →
      ds ≠ [] → ds.length ≤ MAX_ARRAYDIM → (∀ n, some n ∈ ds → n ≤ ULONG_MAX) →
      code_name cd = some T →
      s.plain.length + T.length + (dims_text ds).length < s.size →
      s.substitions.length + ds.length ≤ 20 → 3 ≤ fuel →
      _type fuel s = Res.ok ((), { s with
        plain := s.plain ++ T ++ dims_text ds,
        mpos := s.mpos + 1 + (dims_code ds).length + cd.length,
        substitions := s.substitions ++ array_subs T ds }) ∧
      (array_subs T ds).length = ds.length) ∧
    demangle 20 [] 256 "_Z1fA37_iPS_".toList
      = Res.ok (true, "f(int[37],int(*)[37])".toList) ∧
    demangle 20 [] 256 "_Z3fooA30_A_i".toList = Res.ok (true, "foo(int[30][])".toList) ∧
    demangle 20 [] 256 "_Z3kooPA28_A30_i".toList
      = Res.ok (true, "koo(int(*)[28][30])".toList) ∧
    demangle 30 [] 256 "_Z1fA1_A2_A3_A4_A5_A6_A7_A8_A9_A10_A11_i".toList
      = Res.ok (true, "f(int[11][1][2][3][4][5][6][7][8][9][10])".toList) := by
  refine ⟨?_, ?_, by decide!, by decide!, by decide!, by decide!⟩
  · intro fuel plain size ds cd T hne hk hd hcd hlen hsize hfuel
    obtain ⟨g, rfl⟩ : ∃ g, fuel = g + 6 := ⟨fuel - 6, by omega⟩
    refine ⟨demangle_array_param (g + 1) plain size ds cd T hne hk hd hcd hlen (by omega), ?_⟩
    intro c hc
    subst hc
    exact demangle_pointer_array_param g plain size ds c T hne hk hd hcd hlen hsize
  · intro fuel s ds cd T r hv h hne hk hd hcd hfit hroom hfuel
    obtain ⟨g, rfl⟩ : ∃ g, fuel = g + 3 := ⟨fuel - 3, by omega⟩
    exact ⟨type_array_code_run g ds cd T r hv h hne hk hd hcd hfit hroom,
      array_subs_length T ds⟩

theorem array_dimensions_rendered_witness :
    demangle 20 [] 256 ("_Z1fA".toList ++ (dims_code [some 30, none] ++ ['i']))
        = Res.ok (true, "f(".toList ++ "int".toList ++ dims_text [some 30, none]
            ++ ")".toList) ∧
      (∀ c, ['i'] = [c] →
        demangle 20 [] 256 ("_Z1fPA".toList ++ (dims_code [some 30, none] ++ ['i']))
          = Res.ok (true, "f(".toList ++ "int".toList ++ "(*)".toList
              ++ dims_text [some 30, none] ++ ")".toList)) :=
  array_dimensions_rendered.1 20 [] 256 [some 30, none] ['i'] "int".toList (by decide)
    (by decide)
    (by
      intro n hn
      simp only [List.mem_cons, Option.some.injEq, List.mem_singleton, List.not_mem_nil,
        or_false, reduceCtorEq] at hn
      rw [hn]; decide)
    (by decide) (by decide) (by decide) (by decide)

/-! ## The primitives `peek`, `match`, `expect` -/

theorem isPrefixOf_iff_append : ∀ (k l : List Char),
    k.isPrefixOf l = true ↔ ∃ r, l = k ++ r := by
  intro k
  induction k with
  | nil => intro l; simp [List.isPrefixOf]
  | cons a k ih =>
    intro l
    cases l with
    | nil => simp [List.isPrefixOf]
    | cons b l =>
      simp only [List.isPrefixOf, Bool.and_eq_true, beq_iff_eq, List.cons_append,
        List.cons.injEq, ih l]
      constructor
      · rintro ⟨rfl, r, rfl⟩
        exact ⟨r, rfl, rfl⟩
      · rintro ⟨r, rfl, rfl⟩
        exact ⟨rfl, r, rfl⟩

theorem run_peek_cursor (s : Mangle) (kw : String)
    (h : s.valid = true → s.mpos ≤ s.mangled.length) :
    peek kw s = Res.ok (starts_with s kw, s) := by
  cases hv : s.valid with
  | false =>
    simp only [peek, run_bind, run_getS, andThen_ok, hv, Bool.false_eq_true, if_false, run_pure,
      starts_with, Bool.false_and]
  | true =>
    have hat : At s (s.mangled.drop s.mpos) := ⟨h hv, rfl⟩
    rw [hat.run_peek hv]
    simp only [starts_with, hv, Bool.true_and]

theorem run_match_cursor (s : Mangle) (kw : String)
    (h : s.valid = true → s.mpos ≤ s.mangled.length) :
    match_ kw s = Res.ok (starts_with s kw,
      if starts_with s kw = true then s.setMpos (s.mpos + kw.length) else s) := by
  simp only [match_, run_bind, run_peek_cursor s kw h, andThen_ok]
  cases starts_with s kw with
  | false => simp only [Bool.false_eq_true, if_false, run_pure]
  | true => simp only [if_true, advance, run_modifyS, run_pure, andThen_ok, run_bind]

theorem run_expect_cursor (s : Mangle) (kw : String)
    (h : s.valid = true → s.mpos ≤ s.mangled.length) :
    expect kw s = Res.ok (starts_with s kw,
      if starts_with s kw = true then s.setMpos (s.mpos + kw.length)
      else { s with valid := false }) := by
  cases hv : s.valid with
  | false =>
    have e : starts_with s kw = false := by simp only [starts_with, hv, Bool.false_and]
    simp only [expect, run_bind, run_getS, andThen_ok, hv, Bool.false_eq_true, if_false,
      run_pure, e]
    congr 2
    cases s
    simp only at hv
    subst hv
    rfl
  | true =>
    simp only [expect, run_bind, run_getS, andThen_ok, hv, if_true, run_match_cursor s kw h]
    cases starts_with s kw with
    | false =>
      simp only [Bool.false_eq_true, if_false, invalidate, run_modifyS, run_pure, andThen_ok,
        run_bind, Mangle.invalidate]
    | true => simp only [if_true, run_pure]

/-- C36: for a state whose cursor stands inside the input when `valid` holds, `peek`
returns true exactly when `valid` holds and the input at the cursor starts with the
keyword, and it never changes the state; `match` returns the same answer, moves the cursor
forward by the length of the keyword when the answer is true and leaves the state alone
otherwise; `expect` moves the cursor like `match`, clears `valid` when the answer is false,
and its return value is the value of `valid` in the resulting state. -/
theorem peek_match_expect (s : Mangle) (kw : String)
    (h : s.valid = true → s.mpos ≤ s.mangled.length) :
    (starts_with s kw = true ↔
      s.valid = true ∧ ∃ r, s.mangled.drop s.mpos = kw.toList ++ r) ∧
    peek kw s = Res.ok (starts_with s kw, s) ∧
    match_ kw s = Res.ok (starts_with s kw,
      if starts_with s kw = true then s.setMpos (s.mpos + kw.length) else s) ∧
    (∃ t, expect kw s = Res.ok (t.valid, t) ∧ t.valid = starts_with s kw ∧
      t = if starts_with s kw = true then s.setMpos (s.mpos + kw.length)
        else { s with valid := false }) := by
  refine ⟨?_, run_peek_cursor s kw h, run_match_cursor s kw h, ?_⟩
  · simp only [starts_with, Bool.and_eq_true, isPrefixOf_iff_append]
  · refine ⟨_, ?_, ?_, rfl⟩
    · rw [run_expect_cursor s kw h]
      congr 2
      cases hb : starts_with s kw with
      | false => simp only [Bool.false_eq_true, if_false]
      | true =>
        have : s.valid = true := by
          simp only [starts_with, Bool.and_eq_true] at hb
          exact hb.1
        simp only [if_true, Mangle.setMpos, this]
    · cases hb : starts_with s kw with
      | false => simp only [Bool.false_eq_true, if_false]
      | true =>
        have : s.valid = true := by
          simp only [starts_with, Bool.and_eq_true] at hb
          exact hb.1
        simp only [if_true, Mangle.setMpos, this]

theorem peek_match_expect_witness :
    (starts_with (initial 64 "_Z1fv".toList) "1f" = true ↔
      (initial 64 "_Z1fv".toList).valid = true ∧
        ∃ r, (initial 64 "_Z1fv".toList).mangled.drop (initial 64 "_Z1fv".toList).mpos
          = "1f".toList ++ r) ∧
    peek "1f" (initial 64 "_Z1fv".toList)
      = Res.ok (starts_with (initial 64 "_Z1fv".toList) "1f", initial 64 "_Z1fv".toList) ∧
    match_ "1f" (initial 64 "_Z1fv".toList)
      = Res.ok (starts_with (initial 64 "_Z1fv".toList) "1f",
        if starts_with (initial 64 "_Z1fv".toList) "1f" = true then
          (initial 64 "_Z1fv".toList).setMpos ((initial 64 "_Z1fv".toList).mpos + "1f".length)
        else initial 64 "_Z1fv".toList) ∧
    (∃ t, expect "1f" (initial 64 "_Z1fv".toList) = Res.ok (t.valid, t) ∧
      t.valid = starts_with (initial 64 "_Z1fv".toList) "1f" ∧
      t = if starts_with (initial 64 "_Z1fv".toList) "1f" = true then
          (initial 64 "_Z1fv".toList).setMpos ((initial 64 "_Z1fv".toList).mpos + "1f".length)
        else { initial 64 "_Z1fv".toList with valid := false }) :=
  peek_match_expect (initial 64 "_Z1fv".toList) "1f" (fun _ => by decide)

/-! ## The primitives `append_space` and `insert` -/

theorem pchar_snoc (p : List Char) (c : Char) : pchar (p ++ [c]) ((p ++ [c]).length - 1) = c := by
  have : (p ++ [c]).length - 1 = p.length + 0 := by simp
  rw [this, pchar_append_right]; rfl

theorem separators_contains (c : Char) :
    " ([<,:".toList.contains c = decide (c ∈ separators) := by
  simp only [String.toList, separators, List.contains, List.elem_eq_mem]

theorem Mangle.append_invalid (s : Mangle) (t : List Char) (hv : s.valid = false) :
    s.append t = s := by
  unfold Mangle.append
  rw [if_neg (by rw [hv]; decide)]

theorem Mangle.append_full (s : Mangle) (t : List Char) (hv : s.valid = true)
    (h : ¬ (s.plain.length + t.length < s.size)) : s.append t = { s with valid := false } := by
  unfold Mangle.append
  rw [if_pos hv, if_neg h]

/-- Run of `append_space` on any state, by cases on the text. -/
theorem run_append_space_cases (s : Mangle) :
    append_space s = Res.ok ((),
      if s.plain = [] then s
      else if pchar s.plain (s.plain.length - 1) ∈ separators then s
      else s.append [' ']) := by
  by_cases he : s.plain = []
  · have hl : ¬ (s.plain.length > 0) := by rw [he]; decide
    rw [if_pos he]
    simp only [append_space, run_bind, run_getS, andThen_ok, hl, if_false, run_pure, run_ite]
  · have hl : s.plain.length > 0 := List.length_pos.mpr he
    simp only [append_space, run_bind, run_getS, andThen_ok, hl, if_true, he, if_false,
      run_ite, separators_contains, decide_eq_true_eq]
    by_cases hs : pchar s.plain (s.plain.length - 1) ∈ separators
    · simp only [hs, if_true, run_pure]
    · simp only [hs, if_false, Demangle.append, run_modifyS]
      rfl

/-- C38: on a valid state with room for one more character, `append_space` appends
exactly one space when the text is not empty and its last character is none of the
separators space, `(`, `[`, `<`, `,` and `:`; on every state with an empty text or with a
separator as the last character it changes nothing, and so it does when `valid` is clear;
without room for the space it clears `valid` and leaves the text alone.  On every state,
applying it twice gives the same state as applying it once. -/
theorem append_space_once :
    (∀ (s : Mangle) (p : List Char) (c : Char), s.valid = true → s.plain = p ++ [c] →
      c ∉ separators → s.plain.length + 1 < s.size →
      append_space s = Res.ok ((), { s with plain := p ++ [c] ++ [' '] })) ∧
    (∀ (s : Mangle), s.plain = [] → append_space s = Res.ok ((), s)) ∧
    (∀ (s : Mangle) (p : List Char) (c : Char), s.plain = p ++ [c] → c ∈ separators →
      append_space s = Res.ok ((), s)) ∧
    (∀ (s : Mangle), s.valid = false → append_space s = Res.ok ((), s)) ∧
    (∀ (s : Mangle) (p : List Char) (c : Char), s.valid = true → s.plain = p ++ [c] →
      c ∉ separators → ¬ (s.plain.length + 1 < s.size) →
      append_space s = Res.ok ((), { s with valid := false })) ∧
    (∀ (s : Mangle), (do append_space; append_space : M Unit) s = append_space s) := by
  refine ⟨?_, ?_, ?_, ?_, ?_, ?_⟩
  · intro s p c hv hp hc hfit
    have hne : s.plain ≠ [] := by rw [hp]; simp
    have hl : pchar s.plain (s.plain.length - 1) = c := by rw [hp]; exact pchar_snoc p c
    rw [run_append_space_cases, if_neg hne, hl, if_neg hc,
      Mangle.append_fits s _ hv (by simpa using hfit), hp]
  · intro s hp
    rw [run_append_space_cases, if_pos hp]
  · intro s p c hp hc
    have hne : s.plain ≠ [] := by rw [hp]; simp
    have hl : pchar s.plain (s.plain.length - 1) = c := by rw [hp]; exact pchar_snoc p c
    rw [run_append_space_cases, if_neg hne, hl, if_pos hc]
  · intro s hv
    rw [run_append_space_cases, Mangle.append_invalid s _ hv]
    simp only [ite_self]
  · intro s p c hv hp hc hfit
    have hne : s.plain ≠ [] := by rw [hp]; simp
    have hl : pchar s.plain (s.plain.length - 1) = c := by rw [hp]; exact pchar_snoc p c
    rw [run_append_space_cases, if_neg hne, hl, if_neg hc,
      Mangle.append_full s _ hv (by simpa using hfit)]
  · intro s
    rw [run_bind, run_append_space_cases s]
    by_cases he : s.plain = []
    · simp only [he, if_true, andThen_ok]
      rw [run_append_space_cases, if_pos he]
    · rw [if_neg he]
      by_cases hs : pchar s.plain (s.plain.length - 1) ∈ separators
      · simp only [hs, if_true, andThen_ok]
        rw [run_append_space_cases, if_neg he, if_pos hs]
      · simp only [hs, if_false, andThen_ok]
        rw [run_append_space_cases]
        by_cases hv : s.valid = true
        · by_cases hfit : s.plain.length + [' '].length < s.size
          · rw [Mangle.append_fits s _ hv hfit]
            have h1 : s.plain ++ [' '] ≠ [] := by simp
            have h2 : pchar (s.plain ++ [' ']) ((s.plain ++ [' ']).length - 1) ∈ separators := by
              rw [pchar_snoc]; decide
            simp only [h1, if_false, h2, if_true]
          · rw [Mangle.append_full s _ hv hfit]
            simp only [he, if_false, hs]
            rw [Mangle.append_invalid _ _ rfl]
        · have hv2 : s.valid = false := by simpa using hv
          rw [Mangle.append_invalid s _ hv2]
          simp only [he, if_false, hs]
          rw [Mangle.append_invalid s _ hv2]

theorem append_space_once_witness :
    append_space ⟨true, "int".toList, 64, [], 0, 0, false, [], 0, [], [], []⟩
      = Res.ok ((), { (⟨true, "int".toList, 64, [], 0, 0, false, [], 0, [], [], []⟩ : Mangle)
          with plain := "in".toList ++ ['t'] ++ [' '] }) :=
  append_space_once.1 ⟨true, "int".toList, 64, [], 0, 0, false, [], 0, [], [], []⟩
    "in".toList 't' rfl rfl (by decide) (by decide)

/-- Run of `insert` in front of the end of the text: the text must not be empty. -/
theorem run_insert_inside (s : Mangle) (p q text : List Char) (hv : s.valid = true)
    (hp : s.plain = p ++ q) (hq : q ≠ []) :
    insert p.length text s =
      if text = [] then Res.error Fault.assertion
      else Res.ok ((), s.splice p.length text) := by
  have hql : 0 < q.length := List.length_pos.mpr hq
  have h1 : p.length ≤ (p ++ q).length := by simp
  have h2 : ¬ (p.length = (p ++ q).length) := by simp only [List.length_append]; omega
  simp only [insert, run_bind, run_getS, andThen_ok, hv, if_true, hp, run_cassert, h1,
    decide_True, h2, if_false, run_ite]
  by_cases ht : text = []
  · subst ht
    simp only [List.length_nil, Nat.lt_irrefl, decide_False, Bool.false_eq_true, if_false,
      andThen_error, if_true]
  · have hl : 0 < text.length := List.length_pos.mpr ht
    simp only [hl, decide_True, if_true, andThen_ok, run_modifyS, ht, if_false]

/-- At the end of the text `insert` is `append`, on every state. -/
theorem insert_at_end (s : Mangle) (text : List Char) :
    insert s.plain.length text s = Demangle.append text s := by
  cases hv : s.valid with
  | false =>
    simp only [insert, run_bind, run_getS, andThen_ok, hv, Bool.false_eq_true, if_false,
      run_pure, Demangle.append, run_modifyS, Mangle.append]
  | true =>
    simp only [insert, run_bind, run_getS, andThen_ok, hv, if_true, run_cassert, le_refl,
      decide_True, run_ite]

/-- C37 (amended): on a valid state with the text `p ++ q` and room for the new text,
`insert` at the offset of `q` with a text that is not empty, or with any text when `q` is
empty, produces `p ++ text ++ q` and changes nothing else; at the end of the text `insert`
is equal to `append` on every state. -/
theorem insert_splices :
    (∀ (s : Mangle) (p q text : List Char), s.valid = true → s.plain = p ++ q →
      p.length + q.length + text.length < s.size → (text ≠ [] ∨ q = []) →
      insert p.length text s = Res.ok ((), { s with plain := p ++ text ++ q })) ∧
    (∀ (s : Mangle) (text : List Char),
      insert s.plain.length text s = Demangle.append text s) := by
  refine ⟨?_, insert_at_end⟩
  intro s p q text hv hp hfit hne
  by_cases hq : q = []
  · subst hq
    rw [List.append_nil] at hp
    have := insert_at_end s text
    rw [hp] at this
    rw [this]
    simp only [Demangle.append, run_modifyS]
    rw [Mangle.append_fits s text hv (by rw [hp]; simpa using hfit), hp, List.append_nil]
  · have ht : text ≠ [] := hne.resolve_right hq
    rw [run_insert_inside s p q text hv hp hq, if_neg ht]
    unfold Mangle.splice
    rw [if_pos (by rw [hp, List.length_append]; exact hfit), hp, List.take_left,
      List.drop_left]

theorem insert_splices_witness :
    insert "f(int".toList.length "(*)".toList
        ⟨true, "f(int(int)".toList, 64, [], 0, 0, false, [], 0, [], [], []⟩
      = Res.ok ((), { (⟨true, "f(int(int)".toList, 64, [], 0, 0, false, [], 0, [], [], []⟩
          : Mangle) with plain := "f(int".toList ++ "(*)".toList ++ "(int)".toList }) :=
  insert_splices.1 ⟨true, "f(int(int)".toList, 64, [], 0, 0, false, [], 0, [], [], []⟩
    "f(int".toList "(int)".toList "(*)".toList rfl rfl (by decide) (Or.inl (by decide))

/-- C37 (counterexample): with an empty text and the mark in front of the end of the
output, `insert` stops at its assertion `ln2 > 0`; it does not return with the output
unchanged. -/
theorem insert_empty_text_asserts :
    (⟨true, "a".toList, 64, [], 0, 0, false, [], 0, [], [], []⟩ : Mangle).plain
        = [] ++ "a".toList ∧
      ([] : List Char).length + "a".toList.length + ([] : List Char).length < 64 ∧
      insert ([] : List Char).length []
        ⟨true, "a".toList, 64, [], 0, 0, false, [], 0, [], [], []⟩
        = Res.error Fault.assertion := by
  decide

/-! ## The number scanner `get_number` -/

/-- Run of the loop of `get_number` on a run of digits that fits the buffer: every digit is
copied and counted. -/
theorem get_number_loop_run (size : Nat) (hex : Bool) : ∀ (run : List Char) (n i : Nat)
    (field rest : List Char) (k : Nat),
    (∀ c ∈ run, (isdigit c || (hex && isxdigit c)) = true) →
    (∀ c, rest.head? = some c → (isdigit c || (hex && isxdigit c)) = false) →
    field.length = i → i + run.length < size → run.length + 1 ≤ n →
    get_number_loop size hex n i field (run ++ rest) k
      = (i + run.length, field ++ run, k + run.length) := by
  intro run
  induction run with
  | nil =>
    intro n i field rest k _ hr _ _ hn
    obtain ⟨n, rfl⟩ : ∃ m, n = m + 1 := ⟨n - 1, by simp at hn; omega⟩
    cases rest with
    | nil => simp [get_number_loop]
    | cons c l =>
      simp only [List.nil_append, get_number_loop, hr c rfl, Bool.false_eq_true, if_false,
        List.length_nil, Nat.add_zero, List.append_nil]
  | cons c run ih =>
    intro n i field rest k hd hr hf hi hn
    obtain ⟨n, rfl⟩ : ∃ m, n = m + 1 := ⟨n - 1, by simp at hn; omega⟩
    simp only [List.length_cons] at hi hn
    have hc := hd c (List.mem_cons_self _ _)
    have hlt : i < size - 1 := by omega
    have hnf : ¬ (i < field.length) := by omega
    simp only [List.cons_append, get_number_loop, hc, if_true, hlt, hnf, if_false,
      List.append_eq]
    rw [ih n (i + 1) (field ++ [c]) rest (k + 1) (fun x hx => hd x (List.mem_cons_of_mem _ hx))
      hr (by simp [hf]) (by omega) (by omega)]
    simp only [List.length_cons, List.append_assoc, List.singleton_append, Nat.add_assoc,
      Nat.add_comm 1]

/-- Run of `get_number` on a run of digits that fits the buffer. -/
theorem get_number_run (size : Nat) (hex : Bool) (s : Mangle) (run rest : List Char)
    (h : At s (run ++ rest))
    (hd : ∀ c ∈ run, (isdigit c || (hex && isxdigit c)) = true)
    (hr : ∀ c, rest.head? = some c → (isdigit c || (hex && isxdigit c)) = false)
    (hk : run.length < size) :
    get_number size hex s = Res.ok (run, s.setMpos (s.mpos + run.length)) := by
  have hl := get_number_loop_run size hex run (2 * (run ++ rest).length + 2) 0 [] rest 0 hd hr
    rfl (by omega) (by simp only [List.length_append]; omega)
  simp only [get_number, run_bind, h.run_rest, andThen_ok, hl, advance, run_modifyS, run_pure,
    Nat.zero_add, List.nil_append]

/-- C35: on a cursor in front of a maximal run of `k` digit characters (hexadecimal digits
too when `hex` is set) with `k < size`, `get_number` counts `k`, leaves the cursor right
behind the run and stores the run.  For `k >= size` the source does not: the cursor only
moves while the counter is below `size - 1`; from then on only the counter goes up, until it
wraps to zero, and the run goes on at the start of the buffer.  With `size = 64` and a run of
64 digits the count is 1 and the first character of the buffer is the last digit, and
`demangle` shows that text in its output. -/
theorem get_number_counts :
    (∀ (size : Nat) (hex : Bool) (s : Mangle) (run rest : List Char),
      At s (run ++ rest) →
      (∀ c ∈ run, (isdigit c || (hex && isxdigit c)) = true) →
      (∀ c, rest.head? = some c → (isdigit c || (hex && isxdigit c)) = false) →
      run.length < size →
      get_number_loop size hex (2 * (run ++ rest).length + 2) 0 [] (run ++ rest) 0
        = (run.length, run, run.length) ∧
      get_number size hex s = Res.ok (run, s.setMpos (s.mpos + run.length))) ∧
    get_number_loop 64 false 130 0 []
        "1234567890123456789012345678901234567890123456789012345678901234".toList 0
      = (1, "423456789012345678901234567890123456789012345678901234567890123".toList, 64) ∧
    demangle 30 [] 256
        "_Z1fILi1234567890123456789012345678901234567890123456789012345678901234EEvv".toList
      = Res.ok (true,
        "void f<423456789012345678901234567890123456789012345678901234567890123>()".toList) := by
  refine ⟨?_, by decide!, by decide!⟩
  intro size hex s run rest h hd hr hk
  refine ⟨?_, get_number_run size hex s run rest h hd hr hk⟩
  have := get_number_loop_run size hex run (2 * (run ++ rest).length + 2) 0 [] rest 0 hd hr
    rfl (by omega) (by simp only [List.length_append]; omega)
  simpa using this

theorem get_number_counts_witness :
    get_number_loop 64 false (2 * ("123".toList ++ "E".toList).length + 2) 0 []
        ("123".toList ++ "E".toList) 0
        = (("123".toList).length, "123".toList, ("123".toList).length) ∧
      get_number 64 false ⟨true, [], 64, "_ZLi123E".toList, 4, 0, false, [], 0, [], [], []⟩
        = Res.ok ("123".toList,
          (⟨true, [], 64, "_ZLi123E".toList, 4, 0, false, [], 0, [], [], []⟩ : Mangle).setMpos
            ((⟨true, [], 64, "_ZLi123E".toList, 4, 0, false, [], 0, [], [], []⟩ : Mangle).mpos
              + ("123".toList).length)) :=
  get_number_counts.1 64 false ⟨true, [], 64, "_ZLi123E".toList, 4, 0, false, [], 0, [], [], []⟩
    "123".toList "E".toList ⟨by decide, rfl⟩ (by decide) (by decide) (by decide)

/-! ## Source names -/

/-- Run of `_source_name` on a cursor that does not stand on a digit: `valid` is cleared. -/
theorem source_name_no_digit (s : Mangle) (l : List Char) (hv : s.valid = true) (h : At s l)
    (hl : ∀ c, l.head? = some c → isdigit c = false) :
    _source_name s = Res.ok ((), { s with valid := false }) := by
  have hd : isdigit (l.headD NUL) = false := by
    cases l with
    | nil => decide
    | cons c l => exact hl c rfl
  simp only [_source_name, run_bind, run_getS, andThen_ok, hv, if_true, h.run_look0, hd,
    Bool.false_eq_true, if_false, invalidate, run_modifyS, Mangle.invalidate]

/-- Run of `_source_name` on a decimal length below `2^31` that is followed by fewer
characters: the digits are consumed and `valid` is cleared. -/
theorem source_name_short (s : Mangle) (n : Nat) (l : List Char) (hv : s.valid = true)
    (h : At s (Nat.toDigits 10 n ++ l))
    (hl : ∀ c, l.head? = some c → isdigit c = false)
    (hlt : l.length < n) (hn : n < 2147483648) :
    _source_name s = Res.ok ((), { s with
      valid := false, mpos := s.mpos + (Nat.toDigits 10 n).length }) := by
  obtain ⟨hne, hall, hval⟩ := toDigits_spec n
  obtain ⟨d, ds, hd⟩ := List.exists_cons_of_ne_nil hne
  have hdd : isdigit d = true := hall d (by rw [hd]; exact List.mem_cons_self _ _)
  have hst := strtol_toDigits n l hl (by simp only [LONG_MAX]; omega)
  have h1 := h.moved (Nat.toDigits 10 n).length (by simp)
  simp only [List.drop_left] at h1
  have hl0 : look 0 s = Res.ok (d, s) := by
    rw [h.run_look0, hd]; rfl
  have hnl : toInt32 (l.length : Int) < toInt32 (n : Int) := by
    rw [toInt32_of_lt _ (by omega), toInt32_of_lt _ hn]
    omega
  simp only [_source_name, run_bind, run_getS, andThen_ok, hv, if_true, hl0, hdd]
  simp only [h.run_rest, andThen_ok, hst, run_bind]
  simp only [advance, run_modifyS, andThen_ok, h1.run_rest]
  rw [run_bind, h1.run_rest, andThen_ok]
  rw [run_ite, if_pos hnl]
  simp only [invalidate, run_modifyS, Mangle.invalidate, Mangle.setMpos]

/-- C34: on a valid state whose cursor stands on the decimal length of `w` followed by the
characters `w` (input shorter than `2^31`, room for `w` in the output), `_source_name`
appends exactly `w` and moves the cursor behind the digits and `w`; on a cursor that does
not stand on a digit it clears `valid` and leaves the output alone; so it does on a length
`n` below `2^31` that is followed by fewer than `n` characters.  The length is converted to
`int`, so a length of `2^32 + 3` counts as 3: the name `foo` behind `4294967299` is
appended, and `demangle` returns true although fewer characters remain than the length
says. -/
theorem source_name_length_checked :
    (∀ (s : Mangle) (w r : List Char), s.valid = true →
      At s (Nat.toDigits 10 w.length ++ (w ++ r)) →
      (∀ c, (w ++ r).head? = some c → isdigit c = false) →
      (w ++ r).length < 2147483647 → s.plain.length + w.length < s.size →
      _source_name s = Res.ok ((), { s with
        plain := s.plain ++ w,
        mpos := s.mpos + (Nat.toDigits 10 w.length).length + w.length })) ∧
    (∀ (s : Mangle) (l : List Char), s.valid = true → At s l →
      (∀ c, l.head? = some c → isdigit c = false) →
      _source_name s = Res.ok ((), { s with valid := false })) ∧
    (∀ (s : Mangle) (n : Nat) (l : List Char), s.valid = true →
      At s (Nat.toDigits 10 n ++ l) → (∀ c, l.head? = some c → isdigit c = false) →
      l.length < n → n < 2147483648 →
      _source_name s = Res.ok ((), { s with
        valid := false, mpos := s.mpos + (Nat.toDigits 10 n).length })) ∧
    _source_name (initial 64 "_Z4294967299foo".toList)
      = Res.ok ((), { initial 64 "_Z4294967299foo".toList with
          plain := "foo".toList, mpos := 15 }) ∧
    demangle 10 [] 64 "_Z4294967299foo".toList = Res.ok (true, "foo".toList) := by
  refine ⟨?_, ?_, ?_, by decide!, by decide!⟩
  · intro s w r hv h hw hlen hfit
    exact source_name_run w r hv h hw hlen hfit
  · intro s l hv h hl
    exact source_name_no_digit s l hv h hl
  · intro s n l hv h hl hlt hn
    exact source_name_short s n l hv h hl hlt hn

theorem source_name_length_checked_witness :
    _source_name (initial 64 "_Z3fooi".toList) = Res.ok ((), { initial 64 "_Z3fooi".toList with
        plain := (initial 64 "_Z3fooi".toList).plain ++ "foo".toList,
        mpos := (initial 64 "_Z3fooi".toList).mpos
          + (Nat.toDigits 10 ("foo".toList).length).length + ("foo".toList).length }) :=
  source_name_length_checked.1 (initial 64 "_Z3fooi".toList) "foo".toList "i".toList rfl
    ⟨by decide, by decide⟩ (by decide) (by decide) (by decide)

/-! ## The seq-id of a substitution as a base-36 number -/

theorem base36_fold_ge : ∀ (w : List Char) (i : Nat),
    i ≤ w.foldl (fun v c => v * 36 + base36_digit c) i := by
  intro w
  induction w with
  | nil => intro i; exact Nat.le_refl _
  | cons c w ih =>
    intro i
    simp only [List.foldl_cons]
    exact Nat.le_trans (by omega) (ih _)

theorem seq_value_exact : ∀ (w : List Char) (i : Nat),
    w.foldl (fun v c => v * 36 + base36_digit c) i < SIZE_MOD →
    seq_value w i = w.foldl (fun v c => v * 36 + base36_digit c) i := by
  intro w
  induction w with
  | nil => intro i _; rfl
  | cons c w ih =>
    intro i h
    simp only [List.foldl_cons] at h
    have h1 := base36_fold_ge w (i * 36 + base36_digit c)
    have h2 : (i * 36 + base36_digit c) % SIZE_MOD = i * 36 + base36_digit c :=
      Nat.mod_eq_of_lt (by omega)
    have e : seq_value (c :: w) i = seq_value w ((i * 36 + base36_digit c) % SIZE_MOD) := by
      simp only [seq_value, List.foldl_cons, base36_digit]
    rw [e, h2, ih _ h]
    simp only [List.foldl_cons]

/-- Below `2^64` the index computed by `_substitution` is the index of the
specification. -/
theorem seq_index_spec (w : List Char) (h : spec_index w < SIZE_MOD) :
    seq_index w = spec_index w := by
  unfold seq_index spec_index at *
  by_cases hw : w = []
  · simp only [hw, if_true]
  · simp only [hw, if_false] at h ⊢
    have := seq_value_exact w 0 (by unfold base36 at h; omega)
    rw [this]
    exact Nat.mod_eq_of_lt h

/-- C31 (amended): `_substitution` maps the seq-id to a table index as a base-36 number
plus one, where the digits are `0` to `9` and the capital letters `A` to `Z`: `S_` is
index 0, `S0_` is index 1 and `SA_` is index 11.  On a valid state with at most twenty
substitutions, the cursor on `S`, a seq-id `w` of such digits and `_`, an index inside the
table and room for the entry in the output, it appends exactly the stored entry, moves the
cursor behind the `_` and changes nothing else, so that no substitution is added. -/
theorem substitution_base36 :
    (∀ (s : Mangle) (w r : List Char), s.valid = true →
      At s ('S' :: (w ++ '_' :: r)) → (∀ c ∈ w, isdigit c = true ∨ isupper c = true) →
      s.substitions.length ≤ MAX_SUBSTITUTIONS → spec_index w < s.substitions.length →
      s.plain.length + (s.substitions.getD (spec_index w) []).length < s.size →
      _substitution s = Res.ok ((), { s with
        plain := s.plain ++ s.substitions.getD (spec_index w) [],
        mpos := s.mpos + (w.length + 2) })) ∧
    spec_index [] = 0 ∧ spec_index "0".toList = 1 ∧ spec_index "1".toList = 2 ∧
    spec_index "A".toList = 11 ∧ spec_index "Z".toList = 36 ∧ spec_index "10".toList = 37 ∧
    demangle 30 [] 256 "_Z1fPPPPPPPPPPPPiSA_".toList
      = Res.ok (true, "f(int************,int************)".toList) := by
  refine ⟨?_, by decide, by decide, by decide, by decide, by decide, by decide, by decide!⟩
  intro s w r hv h hw hmax hidx hfit
  have hlt : spec_index w < SIZE_MOD := by
    unfold MAX_SUBSTITUTIONS at hmax
    unfold SIZE_MOD
    omega
  rw [substitution_run s w r hv h hw, seq_index_spec w hlt, if_neg (by omega),
    Mangle.append_fits _ _ (by simpa [Mangle.setMpos] using hv)
      (by simpa [Mangle.setMpos] using hfit)]
  simp only [Mangle.setMpos]

theorem substitution_base36_witness :
    _substitution ⟨true, "f(".toList, 64, "_Z1fiSA_".toList, 5, 0, false, [], 0, [],
        List.replicate 11 "x".toList ++ ["int".toList], []⟩
      = Res.ok ((), { (⟨true, "f(".toList, 64, "_Z1fiSA_".toList, 5, 0, false, [], 0, [],
          List.replicate 11 "x".toList ++ ["int".toList], []⟩ : Mangle) with
        plain := "f(".toList
          ++ (List.replicate 11 "x".toList ++ ["int".toList]).getD (spec_index "A".toList) [],
        mpos := 5 + (("A".toList).length + 2) }) :=
  substitution_base36.1 ⟨true, "f(".toList, 64, "_Z1fiSA_".toList, 5, 0, false, [], 0, [],
      List.replicate 11 "x".toList ++ ["int".toList], []⟩ "A".toList [] rfl
    ⟨by decide, by decide⟩ (by decide) (by decide) (by decide) (by decide)

/-- C31 (counterexample): a small letter is no digit of a seq-id.  On `Sa_` with twelve
entries in the table `_substitution` clears `valid` and appends nothing, and `demangle`
fails on a symbol that ends in `Sa_` where it succeeds with `SA_`. -/
theorem substitution_small_letter :
    _substitution ⟨true, "f(".toList, 64, "_Z1fiSa_".toList, 5, 0, false, [], 0, [],
        List.replicate 11 "x".toList ++ ["int".toList], []⟩
      = Res.ok ((), ⟨false, "f(".toList, 64, "_Z1fiSa_".toList, 6, 0, false, [], 0, [],
          List.replicate 11 "x".toList ++ ["int".toList], []⟩) ∧
    demangle 30 [] 256 "_Z1fPPPPPPPPPPPPiSa_".toList
      = Res.ok (false, "f(int************,std::allocator,".toList) := by
  refine ⟨by decide!, by decide!⟩

/-! ## Sticky validity -/

theorem Mangle.invalidate_invalid (s : Mangle) (hv : s.valid = false) : s.invalidate = s := by
  cases s
  simp only at hv
  subst hv
  rfl

theorem run_peek_invalid (s : Mangle) (hv : s.valid = false) (kw : String) :
    peek kw s = Res.ok (false, s) := by
  simp only [peek, run_bind, run_getS, andThen_ok, hv, Bool.false_eq_true, if_false, run_pure]

theorem run_match_invalid (s : Mangle) (hv : s.valid = false) (kw : String) :
    match_ kw s = Res.ok (false, s) := by
  simp only [match_, run_bind, run_peek_invalid s hv, andThen_ok, Bool.false_eq_true, if_false,
    run_pure]

theorem run_append_invalid (s : Mangle) (hv : s.valid = false) (t : List Char) :
    Demangle.append t s = Res.ok ((), s) := by
  simp only [Demangle.append, run_modifyS, Mangle.append_invalid s t hv]

theorem run_invalidate_invalid (s : Mangle) (hv : s.valid = false) :
    invalidate s = Res.ok ((), s) := by
  simp only [invalidate, run_modifyS, Mangle.invalidate_invalid s hv]

theorem inert_append_space : Inert append_space := by
  intro s hv
  rw [run_append_space_cases, Mangle.append_invalid s _ hv]
  simp only [ite_self]

theorem inert_insert (mark : Nat) (t : List Char) : Inert (insert mark t) := by
  intro s hv
  simp only [insert, run_bind, run_getS, andThen_ok, hv, Bool.false_eq_true, if_false, run_pure]

theorem inert_qualifier_post : ∀ (q : List Char), Inert (_qualifier_post q) := by
  intro q
  induction q with
  | nil => intro s _; rfl
  | cons c q ih =>
    intro s hv
    rw [_qualifier_post]
    split_ifs <;>
      simp only [run_bind, inert_append_space s hv, run_append_invalid s hv, andThen_ok,
        run_pure, ih s hv]

theorem inert_source_name : Inert _source_name := by
  intro s hv
  simp only [_source_name, run_bind, run_getS, andThen_ok, hv, Bool.false_eq_true, if_false,
    run_pure]

theorem inert_substitution : Inert _substitution := by
  intro s hv
  simp only [_substitution, run_bind, run_expect_invalid s hv, andThen_ok, Bool.false_eq_true,
    if_false, run_pure]

theorem inert_template_param : Inert _template_param := by
  intro s hv
  simp only [_template_param, run_bind, run_expect_invalid s hv, andThen_ok,
    Bool.false_eq_true, if_false, run_pure]

theorem inert_ctor_dtor_name : Inert _ctor_dtor_name := by
  intro s hv
  simp only [_ctor_dtor_name, run_bind, run_getS, andThen_ok, hv, Bool.false_eq_true, if_false,
    run_pure]

theorem inert_unnamed_type_name : Inert _unnamed_type_name := by
  intro s hv
  simp only [_unnamed_type_name, run_bind, run_expect_invalid s hv, andThen_ok,
    Bool.false_eq_true, if_false, run_pure]

theorem inert_expr_primary : Inert _expr_primary := by
  intro s hv
  simp only [_expr_primary, run_bind, run_expect_invalid s hv, andThen_ok, Bool.false_eq_true,
    if_false, run_pure]

theorem inert_discriminator : Inert _discriminator := by
  intro s hv
  simp only [_discriminator, run_bind, run_match_invalid s hv, andThen_ok, Bool.false_eq_true,
    if_false, run_pure]

theorem inert_decltype : Inert _decltype := by
  intro s hv
  simp only [_decltype, run_bind, run_match_invalid s hv, run_expect_invalid s hv, andThen_ok,
    Bool.false_eq_true, if_false, run_pure, run_getS, hv]

theorem inert_type (fuel : Nat) : Inert (_type (fuel + 1)) := by
  intro s hv
  simp only [_type, run_bind, run_getS, andThen_ok, hv, Bool.false_eq_true, if_false, run_pure]

theorem inert_unqualified_name (fuel : Nat) : Inert (_unqualified_name (fuel + 1)) := by
  intro s hv
  simp only [_unqualified_name, run_bind, run_getS, andThen_ok, hv, Bool.false_eq_true,
    if_false, run_pure]

theorem inert_operator (fuel : Nat) : Inert (_operator (fuel + 1)) := by
  intro s hv
  simp only [_operator, run_bind, run_getS, andThen_ok, hv, Bool.false_eq_true, if_false,
    run_pure]

theorem inert_function_type (fuel : Nat) : Inert (_function_type (fuel + 1)) := by
  intro s hv
  simp only [_function_type, run_bind, run_expect_invalid s hv, andThen_ok, Bool.false_eq_true,
    if_false, run_pure]

theorem inert_pointer_to_member_type (fuel : Nat) :
    Inert (_pointer_to_member_type (fuel + 1)) := by
  intro s hv
  simp only [_pointer_to_member_type, run_bind, run_expect_invalid s hv, andThen_ok,
    Bool.false_eq_true, if_false, run_pure]

theorem inert_array (fuel : Nat) : Inert (_array (fuel + 1)) := by
  intro s hv
  simp only [_array, run_bind, run_expect_invalid s hv, andThen_ok, Bool.false_eq_true,
    if_false, run_pure]

theorem inert_template_args (fuel : Nat) : Inert (_template_args (fuel + 1)) := by
  intro s hv
  simp only [_template_args, run_bind, run_match_invalid s hv, andThen_ok, Bool.false_eq_true,
    if_false, run_pure]

theorem inert_extended_qualifier (fuel : Nat) : Inert (_extended_qualifier (fuel + 1)) := by
  intro s hv
  simp only [_extended_qualifier, run_bind, run_match_invalid s hv, andThen_ok,
    Bool.false_eq_true, if_false, run_pure]

theorem inert_local_name (fuel : Nat) : Inert (_local_name (fuel + 1)) := by
  intro s hv
  simp only [_local_name, run_bind, run_expect_invalid s hv, andThen_ok, Bool.false_eq_true,
    if_false, run_pure]

theorem inert_nested_name (fuel : Nat) : Inert (_nested_name (fuel + 1)) := by
  intro s hv
  simp only [_nested_name, run_bind, run_expect_invalid s hv, andThen_ok, Bool.false_eq_true,
    if_false, run_pure]

theorem inert_name (fuel : Nat) : Inert (_name (fuel + 1)) := by
  intro s hv
  rw [_name]
  simp only [run_bind, current_position, run_getS, andThen_ok, run_pure, hv,
    Bool.false_eq_true, if_false, if_true, run_peek_invalid s hv]

theorem inert_function_encoding (fuel : Nat) : Inert (_function_encoding (fuel + 2)) := by
  intro s hv
  rw [_function_encoding]
  simp only [run_bind, inert_name fuel s hv, andThen_ok, run_on_sentinel_invalid s hv,
    run_getS, if_true, run_pure]
  split
  · exact run_invalidate_invalid s hv
  · rfl

theorem inert_encoding (fuel : Nat) : Inert (_encoding (fuel + 2)) := by
  intro s hv
  simp only [_encoding, run_bind, run_match_invalid s hv, andThen_ok, Bool.false_eq_true,
    if_false, inert_function_encoding fuel s hv]

/-- An `expect` or a `peek` that answers true was run on a state with `valid` set and
leaves `valid` set. -/
theorem guard_valid (kw : String) (s t : Mangle)
    (h : peek kw s = Res.ok (true, t) ∨ expect kw s = Res.ok (true, t)) :
    s.valid = true ∧ t.valid = true := by
  cases hv : s.valid with
  | false =>
    rcases h with h | h
    · rw [run_peek_invalid s hv kw] at h
      simp only [Res.ok.injEq, Prod.mk.injEq, Bool.false_eq_true, false_and] at h
    · rw [run_expect_invalid s hv kw] at h
      simp only [Res.ok.injEq, Prod.mk.injEq, Bool.false_eq_true, false_and] at h
  | true =>
    refine ⟨rfl, ?_⟩
    by_cases hc : s.mpos ≤ s.mangled.length
    · rcases h with h | h
      · rw [run_peek_cursor s kw (fun _ => hc)] at h
        simp only [Res.ok.injEq, Prod.mk.injEq] at h
        rw [← h.2]; exact hv
      · rw [run_expect_cursor s kw (fun _ => hc)] at h
        simp only [Res.ok.injEq, Prod.mk.injEq] at h
        rw [← h.2, if_pos h.1]
        exact hv
    · have hr : rest s = Res.error Fault.undefined := by
        simp only [rest, if_neg hc]
      rcases h with h | h
      · simp only [peek, run_bind, run_getS, andThen_ok, hv, if_true, hr, andThen_error,
          reduceCtorEq] at h
      · simp only [expect, match_, peek, run_bind, run_getS, andThen_ok, hv, if_true, hr,
          andThen_error, reduceCtorEq] at h

/-- On a state whose cursor stands inside the input, `_qualifier_pre` returns the
qualifier letters and moves the cursor behind them; nothing else of the state changes. -/
theorem qualifier_pre_cursor (n : Nat) (b : Bool) (s : Mangle)
    (h : s.mpos ≤ s.mangled.length) :
    ∃ q, _qualifier_pre n b s = Res.ok (q, s.setMpos (s.mpos + q.length)) := by
  have hat : At s (s.mangled.drop s.mpos) := ⟨h, rfl⟩
  simp only [_qualifier_pre, run_bind, hat.run_rest, andThen_ok, advance, run_modifyS, run_pure]
  exact ⟨_, by rw [List.length_append]⟩

/-- C32: validity is sticky.  With a step budget of at least two, every production that
tests `valid` returns on every state with `valid` clear and leaves the whole state as it
is, so `valid` stays clear and the output text, the cursor and both tables are unchanged;
`_qualifier_post` does so for every list of qualifiers; `peek`, `match` and `expect` answer
false and change nothing, and `append`, `append_space` and `insert` change nothing.
`_qualifier_pre` has no test of its own: its callers `_nested_name` and `_type` enter it
only behind an `expect` or a `peek` that answered true, and such an answer is given on a
state with `valid` set only and leaves `valid` set; on every state with the cursor inside
the input `_qualifier_pre` changes nothing but the cursor. -/
theorem invalid_state_inert (fuel : Nat) (hf : 2 ≤ fuel) :
    Inert (_encoding fuel) ∧ Inert (_function_encoding fuel) ∧ Inert (_name fuel) ∧
    Inert (_nested_name fuel) ∧ Inert (_local_name fuel) ∧ Inert (_unqualified_name fuel) ∧
    Inert (_operator fuel) ∧ Inert (_type fuel) ∧ Inert (_function_type fuel) ∧
    Inert (_pointer_to_member_type fuel) ∧ Inert (_array fuel) ∧
    Inert (_template_args fuel) ∧ Inert (_extended_qualifier fuel) ∧
    Inert _source_name ∧ Inert _substitution ∧ Inert _template_param ∧
    Inert _ctor_dtor_name ∧ Inert _unnamed_type_name ∧ Inert _expr_primary ∧
    Inert _discriminator ∧ Inert _decltype ∧ (∀ q, Inert (_qualifier_post q)) ∧
    (∀ (kw : String) (s : Mangle), s.valid = false →
      peek kw s = Res.ok (false, s) ∧ match_ kw s = Res.ok (false, s) ∧
      expect kw s = Res.ok (false, s)) ∧
    (∀ t, Inert (Demangle.append t)) ∧ Inert append_space ∧
    (∀ mark t, Inert (insert mark t)) ∧
    (∀ (kw : String) (s t : Mangle),
      peek kw s = Res.ok (true, t) ∨ expect kw s = Res.ok (true, t) →
      s.valid = true ∧ t.valid = true) ∧
    (∀ (n : Nat) (b : Bool) (s : Mangle), s.mpos ≤ s.mangled.length →
      ∃ q, _qualifier_pre n b s = Res.ok (q, s.setMpos (s.mpos + q.length))) := by
  obtain ⟨g, rfl⟩ : ∃ g, fuel = g + 2 := ⟨fuel - 2, by omega⟩
  exact ⟨inert_encoding g, inert_function_encoding g, inert_name (g + 1),
    inert_nested_name (g + 1), inert_local_name (g + 1), inert_unqualified_name (g + 1),
    inert_operator (g + 1), inert_type (g + 1), inert_function_type (g + 1),
    inert_pointer_to_member_type (g + 1), inert_array (g + 1), inert_template_args (g + 1),
    inert_extended_qualifier (g + 1), inert_source_name, inert_substitution,
    inert_template_param, inert_ctor_dtor_name, inert_unnamed_type_name, inert_expr_primary,
    inert_discriminator, inert_decltype, inert_qualifier_post,
    fun kw s hv => ⟨run_peek_invalid s hv kw, run_match_invalid s hv kw,
      run_expect_invalid s hv kw⟩,
    fun t s hv => run_append_invalid s hv t, inert_append_space, inert_insert,
    guard_valid, qualifier_pre_cursor⟩

theorem invalid_state_inert_witness :
    _encoding 2 ⟨false, "f(".toList, 64, "_Z1fKi".toList, 4, 0, false, [], 0, [], [], []⟩
      = Res.ok ((), ⟨false, "f(".toList, 64, "_Z1fKi".toList, 4, 0, false, [], 0, [], [], []⟩) :=
  (invalid_state_inert 2 (by decide)).1 _ rfl

/-! ## The limit of the function nesting -/

/-- When the return type of a function type leaves `func_nest` at 4, `_function_type`
raises it to 5 and stops at its assertion. -/
theorem function_type_limit (fuel : Nat) {s t : Mangle} {r : List Char}
    (hv : s.valid = true) (h : At s ('F' :: r))
    (hin : _type fuel (s.setMpos (s.mpos + 1)) = Res.ok ((), t)) (hn : t.func_nest = 4) :
    _function_type (fuel + 1) s = Res.error Fault.assertion := by
  have hF := h.run_expect_true hv "F" (isPrefixOf_single _ _)
  have hFl : "F".length = 1 := rfl
  rw [hFl] at hF
  have h5 : toShort (4 + 1) = 5 := by decide
  rw [_function_type]
  simp only [run_bind, hF, andThen_ok, if_true, hin, current_position, run_getS, run_pure,
    add_func_nest, run_modifyS, Mangle.setFuncNest, hn, h5, run_cassert]
  rfl

/-- C33: the limit of the function nesting is not a parse failure in the source.  A
function type that raises `func_nest` to 5 stops at the assertion of `_function_type`, so
`demangle` does not return on five nested function types; `_local_name` raises `func_nest`
without a test, so that with five nested local names `demangle` returns true, and when the
innermost function has a parameter, `parameter_base` is written at the index 5. -/
theorem nesting_limit_not_enforced :
    (∀ (fuel : Nat) (s t : Mangle) (r : List Char), s.valid = true → At s ('F' :: r) →
      _type fuel (s.setMpos (s.mpos + 1)) = Res.ok ((), t) → t.func_nest = 4 →
      _function_type (fuel + 1) s = Res.error Fault.assertion) ∧
    demangle 40 [] 256 "_Z1fPFvPFvPFvPFvvEEEE".toList
      = Res.ok (true, "f(void(void(*)(void(*)(void(*)(*)()))))".toList) ∧
    demangle 40 [] 256 "_Z1fPFvPFvPFvPFvPFvvEEEEE".toList = Res.error Fault.assertion ∧
    demangle 40 [] 256 "_ZZZZZZ1fE1gE1hE1iE1jE1k".toList
      = Res.ok (true, "f()::g()::h()::i()::j()::k".toList) ∧
    set_parameter_base 0 ⟨true, "f(".toList, 256, "_ZZZZZZ1fvE1gE1hE1iE1jE1k".toList, 9, 1,
        false, [], 5, List.replicate MAX_FUNC_NESTING none, [], []⟩
      = Res.error Fault.undefined ∧
    demangle 40 [] 256 "_ZZZZZZ1fvE1gE1hE1iE1jE1k".toList = Res.error Fault.undefined := by
  refine ⟨?_, by decide!, by decide!, by decide!, by decide!, by decide!⟩
  intro fuel s t r hv h hin hn
  exact function_type_limit fuel hv h hin hn

theorem nesting_limit_not_enforced_witness :
    _function_type (1 + 1)
        ⟨true, "f(".toList, 256, "_Z1fFvvE".toList, 4, 1, false, [], 4,
          List.replicate MAX_FUNC_NESTING none, [], []⟩
      = Res.error Fault.assertion :=
  nesting_limit_not_enforced.1 1
    ⟨true, "f(".toList, 256, "_Z1fFvvE".toList, 4, 1, false, [], 4,
      List.replicate MAX_FUNC_NESTING none, [], []⟩
    ⟨true, "f(void".toList, 256, "_Z1fFvvE".toList, 6, 1, false, [], 4,
      List.replicate MAX_FUNC_NESTING none, [], []⟩
    "vvE".toList rfl ⟨by decide, by decide⟩ (by decide) rfl

/-! ## The cursor and the end of the input -/

/-- Run of `_discriminator` on a `_` that ends the input: the branch for a single digit
moves the cursor over the terminating NUL. -/
theorem discriminator_past_end (s : Mangle) (hv : s.valid = true) (h : At s ['_']) :
    _discriminator s = Res.ok ((), s.setMpos (s.mangled.length + 1)) := by
  have hlen : s.mpos + 1 = s.mangled.length := by
    have := congrArg List.length h.2
    simp only [List.length_drop, List.length_cons, List.length_nil] at this
    have := h.1
    omega
  have m1 := h.run_match_true hv "_" (isPrefixOf_single _ _)
  have h1 : At (s.setMpos (s.mpos + 1)) [] := h.next
  have hl : "_".length = 1 := rfl
  rw [hl] at m1
  have m2 := h1.run_match_false (by simpa [Mangle.setMpos] using hv) "_" rfl
  simp only [_discriminator, run_bind, m1, andThen_ok, if_true, m2, Bool.false_eq_true,
    if_false, advance, run_modifyS]
  simp only [Mangle.setMpos]
  rw [← hlen]

/-- At the end of the input the loop of `_array` that looks for `_` steps over the
terminating NUL and reads behind it. -/
theorem array_scan_past_end (n : Nat) (s : Mangle) (h : At s []) :
    array_scan (n + 2) s = Res.error Fault.undefined := by
  have hlen : s.mpos = s.mangled.length := by
    have := congrArg List.length h.2
    simp only [List.length_drop, List.length_nil] at this
    have := h.1
    omega
  have l1 := h.run_look0
  simp only [List.headD_nil] at l1
  have hn : (NUL != '_') = true := by decide
  have hl2 : ∀ t : Mangle, t.mangled = s.mangled → t.mpos = s.mpos + 1 →
      look 0 t = Res.error Fault.undefined := by
    intro t h1 h2
    unfold look
    rw [if_neg (by rw [h1, h2]; omega), if_neg (by rw [h1, h2]; omega)]
  rw [array_scan]
  simp only [run_bind, l1, andThen_ok, hn, if_true, h.run_on_sentinel_nil, invalidate,
    run_modifyS, advance, run_ite]
  rw [array_scan, run_bind, hl2 (s.invalidate.setMpos (s.invalidate.mpos + 1)) rfl rfl]
  rfl

/-- C39: the cursor can leave the input.  On a `_` that ends the input `_discriminator`
sets the cursor behind the terminating NUL; in `demangle` on `_ZL1a_` the cursor reaches
the offset 7 of an input of length 6 and the next test reads there.  At the end of the
input the loop of `_array` that looks for `_` moves on over the NUL and reads behind it, as
in `demangle` on `_ZmmAtl`. -/
theorem cursor_leaves_input :
    (∀ (s : Mangle), s.valid = true → At s ['_'] →
      _discriminator s = Res.ok ((), s.setMpos (s.mangled.length + 1))) ∧
    (do let _ ← match_ "L"; _source_name; _discriminator : M Unit)
        (initial 64 "_ZL1a_".toList)
      = Res.ok ((), { initial 64 "_ZL1a_".toList with plain := "a".toList, mpos := 7 }) ∧
    ("_ZL1a_".toList).length = 6 ∧
    demangle 20 [] 64 "_ZL1a_".toList = Res.error Fault.undefined ∧
    (∀ (n : Nat) (s : Mangle), At s [] → array_scan (n + 2) s = Res.error Fault.undefined) ∧
    demangle 20 [] 64 "_ZmmAtl".toList = Res.error Fault.undefined ∧
    demangle 20 [] 64 "_Z1fA3".toList = Res.error Fault.undefined := by
  exact ⟨discriminator_past_end, by decide!, by decide, by decide!, array_scan_past_end,
    by decide!, by decide!⟩

theorem cursor_leaves_input_witness :
    _discriminator ⟨true, "a".toList, 64, "_ZL1a_".toList, 5, 0, false, [], 0, [], [], []⟩
      = Res.ok ((),
        (⟨true, "a".toList, 64, "_ZL1a_".toList, 5, 0, false, [], 0, [], [], []⟩ : Mangle).setMpos
          ((⟨true, "a".toList, 64, "_ZL1a_".toList, 5, 0, false, [], 0, [], [], []⟩
            : Mangle).mangled.length + 1)) :=
  cursor_leaves_input.1 ⟨true, "a".toList, 64, "_ZL1a_".toList, 5, 0, false, [], 0, [], [], []⟩
    rfl ⟨by decide, by decide⟩

/-! ## The result and the capacity of the buffer -/

/-- In front of the end of the text, `insert` of a text that does not fit changes nothing:
`valid` stays set. -/
theorem run_insert_no_room (s : Mangle) (p q text : List Char) (hv : s.valid = true)
    (hp : s.plain = p ++ q) (hq : q ≠ []) (ht : text ≠ [])
    (hfull : ¬ (p.length + q.length + text.length < s.size)) :
    insert p.length text s = Res.ok ((), s) := by
  rw [run_insert_inside s p q text hv hp hq, if_neg ht]
  unfold Mangle.splice
  rw [if_neg (by rw [hp, List.length_append]; exact hfull)]

/-- C40: the result depends on the spare capacity.  In front of the end of the text
`insert` drops a text that does not fit and leaves `valid` set, so a small buffer can change
the text: `_Z1fPFiiE` gives `f(int(int))` with the capacities 12 and 13, fails with the
capacity 14, and gives `f(int(*)(int))` from the capacity 15 on. -/
theorem capacity_changes_result :
    (∀ (s : Mangle) (p q text : List Char), s.valid = true → s.plain = p ++ q → q ≠ [] →
      text ≠ [] → ¬ (p.length + q.length + text.length < s.size) →
      insert p.length text s = Res.ok ((), s)) ∧
    demangle 20 [] 12 "_Z1fPFiiE".toList = Res.ok (true, "f(int(int))".toList) ∧
    demangle 20 [] 13 "_Z1fPFiiE".toList = Res.ok (true, "f(int(int))".toList) ∧
    demangle 20 [] 14 "_Z1fPFiiE".toList = Res.ok (false, "f(int(*)(int)".toList) ∧
    demangle 20 [] 15 "_Z1fPFiiE".toList = Res.ok (true, "f(int(*)(int))".toList) ∧
    demangle 20 [] 256 "_Z1fPFiiE".toList = Res.ok (true, "f(int(*)(int))".toList) := by
  exact ⟨run_insert_no_room, by decide!, by decide!, by decide!, by decide!, by decide!⟩

theorem capacity_changes_result_witness :
    insert "f(int".toList.length "(*)".toList
        ⟨true, "f(int(int)".toList, 12, [], 0, 0, false, [], 0, [], [], []⟩
      = Res.ok ((), ⟨true, "f(int(int)".toList, 12, [], 0, 0, false, [], 0, [], [], []⟩) :=
  capacity_changes_result.1 ⟨true, "f(int(int)".toList, 12, [], 0, 0, false, [], 0, [], [], []⟩
    "f(int".toList "(int)".toList "(*)".toList rfl rfl (by decide) (by decide) (by decide)

/-! ## Names of builtin codes as pointees and return types -/

theorem types_code_words :
    ∀ e ∈ types, e.1.toList ≠ ['D', 'c'] →
      e.2.toList.all (fun x => plain_char x && x != '*') = true := by
  decide

/-- The name of a builtin code other than `Dc` has no bracket and no `*`. -/
theorem code_name_words (cd nm : List Char) (h : code_name cd = some nm)
    (hD : cd ≠ ['D', 'c']) : ∀ x ∈ nm, plain_char x = true ∧ x ≠ '*' := by
  obtain ⟨e, he, h1, h2⟩ := code_name_spec cd nm h
  have := types_code_words e he (by rw [h1]; exact hD)
  rw [h2, List.all_eq_true] at this
  intro x hx
  have h3 := this x hx
  simp only [Bool.and_eq_true, bne_iff_ne, ne_eq] at h3
  exact h3

theorem types_code_tail :
    ∀ e ∈ types,
      (match e.2.toList.reverse with
        | b :: a :: _ => !(a == 's' && b == 't') && b != ' '
        | _ => false) = true := by
  decide

/-- The name of a builtin code does not end in `const` nor in a space. -/
theorem code_name_tail (cd nm : List Char) (h : code_name cd = some nm) :
    ∃ x a b, nm = x ++ [a, b] ∧ ¬ (a = 's' ∧ b = 't') ∧ b ≠ ' ' := by
  obtain ⟨e, he, -, h2⟩ := code_name_spec cd nm h
  have := types_code_tail e he
  rw [h2] at this
  cases hr : nm.reverse with
  | nil => rw [hr] at this; cases this
  | cons b l =>
    cases l with
    | nil => rw [hr] at this; cases this
    | cons a l2 =>
      rw [hr] at this
      simp only [Bool.and_eq_true, Bool.not_eq_true', Bool.and_eq_false_iff, beq_eq_false_iff_ne,
        bne_iff_ne, ne_eq] at this
      refine ⟨l2.reverse, a, b, ?_, ?_, this.2⟩
      · have := congrArg List.reverse hr
        simpa using this
      · intro hab
        rcases this.1 with h3 | h3
        · exact h3 hab.1
        · exact h3 hab.2

/-- Run of `insertion_point` on the name of a builtin code other than `Dc`: a decorator
goes to the end of the text. -/
theorem insertion_point_code (t : Mangle) (pre nm cd : List Char)
    (hv : t.valid = true) (hplain : t.plain = pre ++ nm) (hc : code_name cd = some nm)
    (hD : cd ≠ ['D', 'c']) :
    insertion_point pre.length t = Res.ok (t.plain.length, t) := by
  obtain ⟨x, a, b, hnm, hab, hb⟩ := code_name_tail cd nm hc
  apply insertion_point_word t pre nm hv hplain (by rw [hnm]; simp)
    (fun y hy => (code_name_words cd nm hc hD y hy).1)
  rw [hnm, ← List.append_assoc, array_probe_last _ _ _ hab hb]
  simp only [List.length_append, List.length_cons, List.length_nil]
  omega

/-- A builtin code has one or two letters. -/
theorem code_name_short (cd nm : List Char) (h : code_name cd = some nm) : cd.length ≤ 2 := by
  obtain ⟨e, he, h1, -⟩ := code_name_spec cd nm h
  rcases types_code_shape e he with ⟨x, hx⟩ | ⟨y, hy⟩
  · rw [← h1, hx]; simp
  · rw [← h1, hy]; simp

theorem code_void_iff (cd nm : List Char) (h : code_name cd = some nm) :
    nm = "void".toList ↔ cd = ['v'] := by
  constructor
  · intro e
    rw [e] at h
    exact code_name_void cd h
  · intro e
    rw [e] at h
    have h2 : code_name ['v'] = some "void".toList := by decide
    rw [h2] at h
    exact (Option.some.inj h).symm

/-- Run of `check_func_array` on a text without brackets followed by a parameter list in
parentheses without inner brackets: the text is a function, and the result is the offset
of its opening parenthesis. -/
theorem check_func_array_list (t : Mangle) (pre R y : List Char) (hv : t.valid = true)
    (hplain : t.plain = pre ++ R ++ '(' :: (y ++ [')'])) (hR : R ≠ [])
    (hRc : ∀ x ∈ R, plain_char x = true) (hy : ∀ x ∈ y, plain_char x = true) :
    check_func_array pre.length t = Res.ok (some (pre ++ R).length, t) := by
  have hRl : 0 < R.length := List.length_pos.mpr hR
  have hyp : ∀ c ∈ y, c ≠ '(' ∧ c ≠ ')' := by
    intro c hc
    have := plain_char_ne c (hy c hc)
    exact ⟨this.1, this.2.1⟩
  have htxt : pre ++ R ++ '(' :: (y ++ [')']) = (pre ++ R ++ '(' :: y) ++ [')'] := by
    simp only [List.append_assoc, List.cons_append]
  have hnz : ¬ ((pre ++ R ++ '(' :: (y ++ [')'])).length - pre.length = 0) := by
    simp only [List.length_append, List.length_cons]; omega
  have h0 : (pchar (pre ++ R ++ '(' :: (y ++ [')'])) pre.length == '(') = false := by
    rw [List.append_assoc]
    have e := pchar_append_right pre (R ++ '(' :: (y ++ [')'])) 0
    rw [Nat.add_zero] at e
    rw [e]
    obtain ⟨r0, rs, hr⟩ := List.exists_cons_of_ne_nil hR
    rw [hr]
    have h1 := (plain_char_ne r0 (hRc r0 (by rw [hr]; exact List.mem_cons_self _ _))).1
    exact beq_eq_false_iff_ne.mpr h1
  have hprobe : array_probe (pre ++ R ++ '(' :: (y ++ [')']))
      = (pre ++ R ++ '(' :: (y ++ [')'])).length - 1 := by
    rw [htxt]
    exact array_probe_end _ ')' ⟨by decide, by decide⟩
  have hlast : pchar (pre ++ R ++ '(' :: (y ++ [')']))
      ((pre ++ R ++ '(' :: (y ++ [')'])).length - 1) = ')' := by
    rw [htxt]
    have : ((pre ++ R ++ '(' :: y) ++ [')']).length - 1 = (pre ++ R ++ '(' :: y).length + 0 := by
      simp only [List.length_append, List.length_cons, List.length_nil]; omega
    rw [this, pchar_append_right]; rfl
  have hfm := find_matching_back t (pre ++ R) y hyp
  have hopen : pchar (pre ++ R ++ '(' :: (y ++ [')'])) (pre ++ R).length = '(' := by
    have := pchar_append_right (pre ++ R) ('(' :: (y ++ [')'])) 0
    rw [Nat.add_zero] at this
    rw [this]; rfl
  have hge : pre.length ≤ (pre ++ R).length := by simp
  simp only [check_func_array, run_bind, run_getS, andThen_ok, hv, Bool.not_true, Bool.false_or,
    decide_eq_true_eq, hplain, hnz, if_false, h0, Bool.false_eq_true, run_pure, run_ite]
  have hfold : (if (decide ((if (decide ((pre ++ R ++ '(' :: (y ++ [')'])).length - 1 ≥ 5) &&
        (pre ++ R ++ '(' :: (y ++ [')'])).drop ((pre ++ R ++ '(' :: (y ++ [')'])).length - 1 - 4)
          == "const".toList) = true
      then (pre ++ R ++ '(' :: (y ++ [')'])).length - 1 - 5
      else (pre ++ R ++ '(' :: (y ++ [')'])).length - 1) > 0) &&
      pchar (pre ++ R ++ '(' :: (y ++ [')']))
        (if (decide ((pre ++ R ++ '(' :: (y ++ [')'])).length - 1 ≥ 5) &&
        (pre ++ R ++ '(' :: (y ++ [')'])).drop ((pre ++ R ++ '(' :: (y ++ [')'])).length - 1 - 4)
          == "const".toList) = true
      then (pre ++ R ++ '(' :: (y ++ [')'])).length - 1 - 5
      else (pre ++ R ++ '(' :: (y ++ [')'])).length - 1) == ' ') = true
      then (if (decide ((pre ++ R ++ '(' :: (y ++ [')'])).length - 1 ≥ 5) &&
        (pre ++ R ++ '(' :: (y ++ [')'])).drop ((pre ++ R ++ '(' :: (y ++ [')'])).length - 1 - 4)
          == "const".toList) = true
      then (pre ++ R ++ '(' :: (y ++ [')'])).length - 1 - 5
      else (pre ++ R ++ '(' :: (y ++ [')'])).length - 1) - 1
      else (if (decide ((pre ++ R ++ '(' :: (y ++ [')'])).length - 1 ≥ 5) &&
        (pre ++ R ++ '(' :: (y ++ [')'])).drop ((pre ++ R ++ '(' :: (y ++ [')'])).length - 1 - 4)
          == "const".toList) = true
      then (pre ++ R ++ '(' :: (y ++ [')'])).length - 1 - 5
      else (pre ++ R ++ '(' :: (y ++ [')'])).length - 1))
      = array_probe (pre ++ R ++ '(' :: (y ++ [')'])) := rfl
  rw [hfold, hprobe]
  simp only [hlast, beq_self_eq_true, if_true, run_bind, hfm, andThen_ok, run_cassert, hopen,
    run_pure, hge, decide_True, Bool.true_or, Bool.and_self]

/-- Run of `insertion_point` on a text without brackets and without `*`, followed by a
parameter list in parentheses of the same kind: a decorator goes in front of the opening
parenthesis. -/
theorem insertion_point_list (t : Mangle) (pre R y : List Char) (hv : t.valid = true)
    (hplain : t.plain = pre ++ R ++ '(' :: (y ++ [')'])) (hR : R ≠ [])
    (hRc : ∀ x ∈ R, plain_char x = true ∧ x ≠ '*')
    (hy : ∀ x ∈ y, plain_char x = true ∧ x ≠ '*') :
    insertion_point pre.length t = Res.ok ((pre ++ R).length, t) := by
  have hng : ¬ (pre.length > (pre ++ R ++ '(' :: (y ++ [')'])).length) := by
    simp only [List.length_append]; omega
  have hns : ∀ i, pre.length ≤ i → pchar (pre ++ R ++ '(' :: (y ++ [')'])) i ≠ '*' := by
    intro i hi
    by_cases h2 : i < (pre ++ R ++ '(' :: (y ++ [')'])).length
    · rw [List.append_assoc] at h2 ⊢
      have hm := pchar_mem_right pre (R ++ '(' :: (y ++ [')'])) i hi h2
      generalize pchar (pre ++ (R ++ '(' :: (y ++ [')']))) i = z at hm
      simp only [List.mem_append, List.mem_cons, List.mem_singleton, List.not_mem_nil,
        or_false] at hm
      rcases hm with hm | hm | hm | hm
      · exact (hRc z hm).2
      · rw [hm]; decide
      · exact (hy z hm).2
      · rw [hm]; decide
    · rw [pchar_beyond _ _ (by omega)]; decide
  have hc := check_func_array_list t pre R y hv hplain hR (fun x hx => (hRc x hx).1)
    (fun x hx => (hy x hx).1)
  have hl : (pre ++ R ++ '(' :: (y ++ [')'])).length + 2
      = ((pre ++ R ++ '(' :: (y ++ [')'])).length + 1) + 1 := rfl
  simp only [insertion_point, run_bind, run_getS, andThen_ok, hplain, hng, if_false, hl,
    insertion_loop_no_star _ _ hns, hc, run_pure, run_ite]

/-- Run of the loop of `_function_type` on one builtin code of one or two letters and the
closing `E`: the name is written, and erased again when it is `void`. -/
theorem function_type_loop_code (fuel : Nat) {s : Mangle} {cd r nm : List Char}
    (hv : s.valid = true) (h : At s (cd ++ 'E' :: r)) (hc : code_name cd = some nm)
    (hfn : s.func_nest = 1) (hfit : s.plain.length + nm.length < s.size) :
    function_type_loop (fuel + 2) 0 s = Res.ok ((), { s with
      plain := s.plain ++ (if cd = ['v'] then [] else nm), mpos := s.mpos + cd.length,
      parameter_base := s.parameter_base.set 1 (some s.plain.length) }) := by
  obtain ⟨c, cr, hcd, -, -, -, nE, -, -, -⟩ := code_name_head cd nm hc
  have h1 : At s (c :: (cr ++ 'E' :: r)) := by rw [hcd] at h; exact h
  obtain ⟨v, p, sz, m, k, n, tc, q, fn, pb0, ss, ts⟩ := s
  simp only at hv hfit hfn
  subst hv hfn
  have pE := h1.run_peek_ne rfl 'E' [] (Ne.symm nE)
  have hspb : set_parameter_base p.length ⟨true, p, sz, m, k, n, tc, q, 1, pb0, ss, ts⟩
      = Res.ok ((), ⟨true, p, sz, m, k, n, tc, q, 1, pb0.set 1 (some p.length), ss, ts⟩) := by
    simp only [set_parameter_base, run_bind, run_getS, andThen_ok, run_ite]
    rw [if_pos (by decide), run_modifyS]
    rfl
  have hty := type_code_run fuel
    (s := ⟨true, p, sz, m, k, n, tc, q, 1, pb0.set 1 (some p.length), ss, ts⟩)
    rfl ⟨h.1, h.2⟩ hc hfit
  simp only at hty
  have hat2 : ∀ p2, At (⟨true, p2, sz, m, k + cd.length, n, tc, q, 1,
      pb0.set 1 (some p.length), ss, ts⟩ : Mangle) ('E' :: r) := by
    intro p2
    have := h.moved cd.length (by simp)
    rw [List.drop_left] at this
    exact ⟨this.1, this.2⟩
  have pE2 : ∀ p2, peek "E" (⟨true, p2, sz, m, k + cd.length, n, tc, q, 1,
      pb0.set 1 (some p.length), ss, ts⟩ : Mangle) = Res.ok (true, ⟨true, p2, sz, m,
      k + cd.length, n, tc, q, 1, pb0.set 1 (some p.length), ss, ts⟩) := by
    intro p2
    rw [(hat2 p2).run_peek rfl]
    congr 2 <;> exact isPrefixOf_single _ _
  have h00 : ¬ (0 > 0) := by decide
  rw [function_type_loop]
  simp only [run_bind, run_getS, andThen_ok, pE, Bool.not_false, Bool.and_self, if_true,
    current_position, run_pure, hspb, h00, if_false, hty, text_at, List.drop_left,
    decide_True, Bool.true_and]
  by_cases hvd : cd = ['v']
  · have hnm := (code_void_iff cd nm hc).mpr hvd
    subst hnm
    rw [if_pos hvd]
    simp only [beq_self_eq_true, if_true, run_bind, pE2, andThen_ok, truncate, run_modifyS,
      Mangle.truncate, List.take_left]
    rw [function_type_loop]
    simp only [run_bind, run_getS, andThen_ok, pE2, Bool.not_true, Bool.and_false,
      Bool.false_eq_true, if_false, run_pure, List.append_nil]
  · have hnv : (nm == "void".toList) = false :=
      beq_eq_false_iff_ne.mpr (fun e => hvd ((code_void_iff cd nm hc).mp e))
    rw [if_neg hvd]
    simp only [hnv, Bool.false_eq_true, if_false, run_pure, andThen_ok]
    rw [function_type_loop]
    simp only [run_bind, run_getS, andThen_ok, pE2, Bool.not_true, Bool.and_false,
      Bool.false_eq_true, if_false, run_pure]

/-- Run of `_function_type` at function nesting level zero on `F`, a builtin return type
other than `Dc`, one builtin parameter and `E`, the codes of one or two letters: the text
is the return type and the parameter in parentheses.  The base of the enclosing parameter,
when there is one, lies in the text and no bracket stands behind it. -/
theorem function_type_code_run (fuel : Nat) {s : Mangle} {rc pc r R P : List Char}
    (hv : s.valid = true) (h : At s ('F' :: (rc ++ (pc ++ 'E' :: r))))
    (hr : code_name rc = some R) (hrD : rc ≠ ['D', 'c']) (hp : code_name pc = some P)
    (hfn : s.func_nest = 0)
    (hpb : ∀ b, s.parameter_base.getD 0 none = some b →
      b ≤ s.plain.length ∧ ∀ x ∈ s.plain.drop b, plain_char x = true)
    (hfit : s.plain.length + R.length + P.length + 2 < s.size) :
    _function_type (fuel + 3) s = Res.ok ((), { s with
      plain := s.plain ++ R ++ '(' :: ((if pc = ['v'] then [] else P) ++ [')']),
      mpos := s.mpos + 1 + rc.length + pc.length + 1,
      parameter_base := s.parameter_base.set 1 (some (s.plain ++ R ++ "(".toList).length) }) := by
  obtain ⟨v, p, sz, m, k, n, tc, q, fn, pb0, ss, ts⟩ := s
  simp only at hv hfit hfn hpb
  subst hv hfn
  have eF := h.run_expect_true rfl "F" (isPrefixOf_single _ _)
  have hFl : "F".length = 1 := rfl
  have hEl : "E".length = 1 := rfl
  have hs1 : toShort (0 + 1) = 1 := by decide
  have hs0 : toShort (1 + -1) = 0 := by decide
  have hl1 : ("(".toList).length = 1 := rfl
  have hl2 : (")".toList).length = 1 := rfl
  have hPl : (if pc = ['v'] then [] else P).length ≤ P.length := by
    split <;> simp
  have hty := type_code_run (fuel + 1)
    (s := ⟨true, p, sz, m, k + 1, n, tc, q, 0, pb0, ss, ts⟩)
    rfl ⟨h.next.1, h.next.2⟩ hr (by simp only; omega)
  simp only at hty
  have hap1 : (⟨true, p ++ R, sz, m, k + 1 + rc.length, n, tc, q, 1, pb0, ss, ts⟩ : Mangle).append
      "(".toList = ⟨true, p ++ R ++ "(".toList, sz, m, k + 1 + rc.length, n, tc, q, 1, pb0, ss,
        ts⟩ := by
    rw [Mangle.append_fits _ _ rfl (by simp only [List.length_append, hl1]; omega)]
  have hatp : At (⟨true, p ++ R ++ "(".toList, sz, m, k + 1 + rc.length, n, tc, q, 1, pb0, ss,
      ts⟩ : Mangle) (pc ++ 'E' :: r) := by
    have := h.next.moved rc.length (by simp)
    rw [List.drop_left] at this
    exact ⟨this.1, this.2⟩
  have hloop := function_type_loop_code fuel
    (s := ⟨true, p ++ R ++ "(".toList, sz, m, k + 1 + rc.length, n, tc, q, 1, pb0, ss, ts⟩)
    rfl hatp hp rfl
    (by simp only [List.length_append, hl1]; omega)
  simp only at hloop
  have hap2 : (⟨true, p ++ R ++ "(".toList ++ (if pc = ['v'] then [] else P), sz, m,
      k + 1 + rc.length + pc.length, n, tc, q, 1,
      pb0.set 1 (some (p ++ R ++ "(".toList).length), ss, ts⟩ : Mangle).append ")".toList
      = ⟨true, p ++ R ++ "(".toList ++ (if pc = ['v'] then [] else P) ++ ")".toList, sz, m,
      k + 1 + rc.length + pc.length, n, tc, q, 1,
      pb0.set 1 (some (p ++ R ++ "(".toList).length), ss, ts⟩ := by
    rw [Mangle.append_fits _ _ rfl (by simp only [List.length_append, hl1, hl2]; omega)]
  have hat3 : At (⟨true, p ++ R ++ "(".toList ++ (if pc = ['v'] then [] else P) ++ ")".toList,
      sz, m, k + 1 + rc.length + pc.length, n, tc, q, 1,
      pb0.set 1 (some (p ++ R ++ "(".toList).length), ss, ts⟩ : Mangle) ('E' :: r) := by
    have := hatp.moved pc.length (by simp)
    rw [List.drop_left] at this
    exact ⟨this.1, this.2⟩
  have eE := hat3.run_expect_true rfl "E" (isPrefixOf_single _ _)
  have hgpb : get_parameter_base (⟨true,
      p ++ R ++ "(".toList ++ (if pc = ['v'] then [] else P) ++ ")".toList, sz, m,
      k + 1 + rc.length + pc.length + 1, n, tc, q, 0,
      pb0.set 1 (some (p ++ R ++ "(".toList).length), ss, ts⟩ : Mangle)
      = Res.ok (pb0.getD 0 none, ⟨true,
      p ++ R ++ "(".toList ++ (if pc = ['v'] then [] else P) ++ ")".toList, sz, m,
      k + 1 + rc.length + pc.length + 1, n, tc, q, 0,
      pb0.set 1 (some (p ++ R ++ "(".toList).length), ss, ts⟩) := by
    simp only [get_parameter_base, run_bind, run_getS, andThen_ok, run_ite]
    rw [if_pos (show (decide ((0 : Int) ≤ 0) && decide ((0 : Int) < (MAX_FUNC_NESTING : Int)))
      = true from by decide), run_pure]
    congr 2
    exact getD_set_other pb0 _
  have h15 : (decide ((1 : Int) < (MAX_FUNC_NESTING : Int))) = true := by decide
  have hfinal : p ++ R ++ "(".toList ++ (if pc = ['v'] then [] else P) ++ ")".toList
      = p ++ R ++ '(' :: ((if pc = ['v'] then [] else P) ++ [')']) := by
    simp only [String.toList, List.append_assoc, List.cons_append, List.nil_append]
  rw [_function_type]
  simp only [run_bind, eF, andThen_ok, if_true, Mangle.setMpos, hFl, hty, current_position,
    run_getS, run_pure, add_func_nest, run_modifyS, Mangle.setFuncNest, hs1, run_cassert, h15,
    Demangle.append, hap1, hloop, hap2, eE, hEl, hs0, hgpb]
  cases hb : pb0.getD 0 none with
  | none =>
    simp only [run_pure, hfinal]
  | some b =>
    obtain ⟨hb1, hb2⟩ := hpb b hb
    obtain ⟨x, a2, b2, hnm, hab, hbb⟩ := code_name_tail rc R hr
    have htake : (p ++ R ++ "(".toList ++ (if pc = ['v'] then [] else P) ++ ")".toList).take
        (p ++ R).length = p ++ R := by
      rw [List.append_assoc, List.append_assoc, List.take_left]
    have hdrop : (p ++ R ++ "(".toList ++ (if pc = ['v'] then [] else P) ++ ")".toList).drop
        (p ++ R).length = "(".toList ++ (if pc = ['v'] then [] else P) ++ ")".toList := by
      rw [List.append_assoc, List.append_assoc, List.drop_left, List.append_assoc]
    have hsplit : p ++ R = p.take b ++ (p.drop b ++ R) := by
      rw [← List.append_assoc, List.take_append_drop]
    have hip := insertion_point_word
      (⟨true, p ++ R, sz, m, k + 1 + rc.length + pc.length + 1, n, tc, q, 0,
        pb0.set 1 (some (p ++ R ++ "(".toList).length), ss, ts⟩ : Mangle)
      (p.take b) (p.drop b ++ R) rfl hsplit (by rw [hnm]; simp)
      (by
        intro y hy
        rcases List.mem_append.mp hy with hy | hy
        · exact hb2 y hy
        · exact (code_name_words rc R hr hrD y hy).1)
      (by
        rw [← hsplit, hnm, ← List.append_assoc, array_probe_last _ _ _ hab hbb]
        simp only [List.length_append, List.length_take, List.length_cons, List.length_nil]
        omega)
    have hbl : (p.take b).length = b := by
      rw [List.length_take]; omega
    rw [hbl] at hip
    simp only at hip
    have hins := run_insert
      (⟨true, p ++ R, sz, m, k + 1 + rc.length + pc.length + 1, n, tc, q, 0,
        pb0.set 1 (some (p ++ R ++ "(".toList).length), ss, ts⟩ : Mangle)
      (p ++ R).length ("(".toList ++ (if pc = ['v'] then [] else P) ++ ")".toList) rfl
      (Nat.le_refl _) (by simp [String.toList])
      (by simp only [List.length_append, hl1, hl2]; omega)
    simp only [List.take_length, List.drop_length, List.append_nil] at hins
    simp only [text_at, run_bind, run_getS, andThen_ok, run_pure, truncate, run_modifyS,
      Mangle.truncate, htake, hdrop, hip, hins]
    simp only [String.toList, List.append_assoc, List.cons_append, List.nil_append]

/-- Run of `_type` on a function type with a builtin return type other than `Dc` and one
builtin parameter: the text of the function type is recorded as a substitution. -/
theorem type_function_code_run (fuel : Nat) {s : Mangle} {rc pc r R P : List Char}
    (hv : s.valid = true) (h : At s ('F' :: (rc ++ (pc ++ 'E' :: r))))
    (hr : code_name rc = some R) (hrD : rc ≠ ['D', 'c']) (hp : code_name pc = some P)
    (hfn : s.func_nest = 0)
    (hpb : ∀ b, s.parameter_base.getD 0 none = some b →
      b ≤ s.plain.length ∧ ∀ x ∈ s.plain.drop b, plain_char x = true)
    (hfit : s.plain.length + R.length + P.length + 2 < s.size)
    (hroom : s.substitions.length < 20) :
    _type (fuel + 4) s = Res.ok ((), { s with
      plain := s.plain ++ R ++ '(' :: ((if pc = ['v'] then [] else P) ++ [')']),
      mpos := s.mpos + 1 + rc.length + pc.length + 1,
      parameter_base := s.parameter_base.set 1 (some (s.plain ++ R ++ "(".toList).length),
      substitions := s.substitions ++ [R ++ '(' :: ((if pc = ['v'] then [] else P) ++ [')'])] })
    := by
  obtain ⟨v, p, sz, m, k, n, tc, q, fn, pb0, ss, ts⟩ := s
  simp only at hv hfit hroom hfn hpb
  subst hv hfn
  have b0 := h.run_is_builtin_none (by decide) (by decide)
  have b1 := h.run_peek_ne rfl 'r' [] (by decide)
  have b2 := h.run_peek_ne rfl 'V' [] (by decide)
  have b3 := h.run_peek_ne rfl 'K' [] (by decide)
  have b4 := h.run_peek_ne rfl 'U' [] (by decide)
  have b5 : peek "F" (⟨true, p, sz, m, k, n, tc, q, 0, pb0, ss, ts⟩ : Mangle)
      = Res.ok (true, ⟨true, p, sz, m, k, n, tc, q, 0, pb0, ss, ts⟩) := by
    rw [h.run_peek rfl]
    congr 2 <;> exact isPrefixOf_single _ _
  have hft := function_type_code_run fuel
    (s := ⟨true, p, sz, m, k, n, tc, q, 0, pb0, ss, ts⟩) rfl h hr hrD hp rfl hpb hfit
  simp only at hft
  have hsub := run_add_substitution_at
    (⟨true, p ++ R ++ '(' :: ((if pc = ['v'] then [] else P) ++ [')']), sz, m,
      k + 1 + rc.length + pc.length + 1, n, tc, q,
      0, pb0.set 1 (some (p ++ R ++ "(".toList).length), ss, ts⟩ : Mangle) p.length rfl hroom
  simp only [List.append_assoc, List.drop_left] at hsub
  rw [_type]
  simp only [run_bind, run_getS, andThen_ok, if_true, current_position, run_pure, b0, b1,
    b2, b3, b4, b5, Bool.or_self, Bool.false_eq_true, if_false, hft, List.append_assoc, hsub]

/-- Run of `_type` on a pointer to a builtin type other than `Dc`: `*` is written behind
the name. -/
theorem type_pointer_code_run (fuel : Nat) {s : Mangle} {rc r R : List Char}
    (hv : s.valid = true) (h : At s ('P' :: (rc ++ r))) (hr : code_name rc = some R)
    (hrD : rc ≠ ['D', 'c'])
    (hfit : s.plain.length + R.length + 1 < s.size) (hroom : s.substitions.length < 20) :
    _type (fuel + 2) s = Res.ok ((), { s with
      plain := s.plain ++ (R ++ "*".toList), mpos := s.mpos + 1 + rc.length,
      substitions := s.substitions ++ [R ++ "*".toList] }) := by
  obtain ⟨v, p, sz, m, k, n, tc, q, fn, pb0, ss, ts⟩ := s
  simp only at hv hfit hroom
  subst hv
  have hb := type_code_run fuel (s := ⟨true, p, sz, m, k + 1, n, tc, q, fn, pb0, ss, ts⟩)
    rfl ⟨h.next.1, h.next.2⟩ hr (by simp only; omega)
  simp only at hb
  have hip := insertion_point_code
    (⟨true, p ++ R, sz, m, k + 1 + rc.length, n, tc, q, fn, pb0, ss, ts⟩ : Mangle) p R rc
    rfl rfl hr hrD
  simp only at hip
  have hnul : pchar (p ++ R) (p ++ R).length = NUL := pchar_beyond _ _ (Nat.le_refl _)
  have hnb : ¬ ((NUL == '(' || NUL == '[') = true) := by decide
  have hp := type_pointer_run (fuel + 1) (s := ⟨true, p, sz, m, k, n, tc, q, fn, pb0, ss, ts⟩)
    (p ++ R).length rfl h hb rfl hip (Nat.le_refl _)
    (by
      show (p ++ R).length + (if (pchar (p ++ R) (p ++ R).length == '(' ||
        pchar (p ++ R) (p ++ R).length == '[') = true then 3 else 1) < sz
      rw [hnul, if_neg hnb]
      simp only [List.length_append]; omega)
    hroom
  rw [hp]
  simp only [hnul, hnb, if_false, List.take_length, List.drop_length, List.append_nil,
    List.append_assoc, List.drop_left, Bool.false_eq_true]

/-- Run of `_type` on a pointer to a function type with a builtin return type and one
builtin parameter, both other than `Dc`: the decorator `(*)` goes in front of the parameter
list; the function type and the pointer are recorded as substitutions. -/
theorem type_function_pointer_code_run (fuel : Nat) {s : Mangle} {rc pc r R P : List Char}
    (hv : s.valid = true) (h : At s ('P' :: 'F' :: (rc ++ (pc ++ 'E' :: r))))
    (hr : code_name rc = some R) (hrD : rc ≠ ['D', 'c'])
    (hp : code_name pc = some P) (hpD : pc ≠ ['D', 'c'])
    (hfn : s.func_nest = 0)
    (hpb : ∀ b, s.parameter_base.getD 0 none = some b →
      b ≤ s.plain.length ∧ ∀ x ∈ s.plain.drop b, plain_char x = true)
    (hfit : s.plain.length + R.length + P.length + 5 < s.size)
    (hroom : s.substitions.length + 2 ≤ 20) :
    _type (fuel + 5) s = Res.ok ((), { s with
      plain := s.plain ++ (R ++ "(*)".toList ++ '(' :: ((if pc = ['v'] then [] else P) ++ [')'])),
      mpos := s.mpos + 1 + 1 + rc.length + pc.length + 1,
      parameter_base := s.parameter_base.set 1 (some (s.plain ++ R ++ "(".toList).length),
      substitions := s.substitions ++ [R ++ '(' :: ((if pc = ['v'] then [] else P) ++ [')']),
        R ++ "(*)".toList ++ '(' :: ((if pc = ['v'] then [] else P) ++ [')'])] }) := by
  obtain ⟨v, p, sz, m, k, n, tc, q, fn, pb0, ss, ts⟩ := s
  simp only at hv hfit hroom hfn hpb
  subst hv hfn
  obtain ⟨hRne, -⟩ := code_name_end rc R [] hr
  have hPl : (if pc = ['v'] then [] else P).length ≤ P.length := by
    split <;> simp
  have hPc : ∀ x ∈ (if pc = ['v'] then [] else P), plain_char x = true ∧ x ≠ '*' := by
    intro x hx
    split at hx
    · cases hx
    · exact code_name_words pc P hp hpD x hx
  have hf := type_function_code_run fuel
    (s := ⟨true, p, sz, m, k + 1, n, tc, q, 0, pb0, ss, ts⟩) rfl ⟨h.next.1, h.next.2⟩ hr hrD hp
    rfl hpb (by simp only; omega) (by simp only; omega)
  simp only at hf
  have hip := insertion_point_list
    (⟨true, p ++ R ++ '(' :: ((if pc = ['v'] then [] else P) ++ [')']), sz, m,
      k + 1 + 1 + rc.length + pc.length + 1, n, tc,
      q, 0, pb0.set 1 (some (p ++ R ++ "(".toList).length),
      ss ++ [R ++ '(' :: ((if pc = ['v'] then [] else P) ++ [')'])], ts⟩ : Mangle)
    p R (if pc = ['v'] then [] else P) rfl rfl hRne (code_name_words rc R hr hrD) hPc
  simp only at hip
  have hopen : pchar (p ++ R ++ '(' :: ((if pc = ['v'] then [] else P) ++ [')'])) (p ++ R).length
      = '(' := by
    have := pchar_append_right (p ++ R) ('(' :: ((if pc = ['v'] then [] else P) ++ [')'])) 0
    rw [Nat.add_zero] at this
    rw [this]; rfl
  have hyes : (('(' : Char) == '(' || ('(' : Char) == '[') = true := by decide
  have hp := type_pointer_run (fuel + 4) (s := ⟨true, p, sz, m, k, n, tc, q, 0, pb0, ss, ts⟩)
    (p ++ R).length rfl h hf rfl hip
    (by simp only [List.length_append, List.length_cons]; omega)
    (by
      show (p ++ R ++ '(' :: ((if pc = ['v'] then [] else P) ++ [')'])).length +
        (if (pchar (p ++ R ++ '(' :: ((if pc = ['v'] then [] else P) ++ [')'])) (p ++ R).length
            == '(' ||
          pchar (p ++ R ++ '(' :: ((if pc = ['v'] then [] else P) ++ [')'])) (p ++ R).length
            == '[') = true then 3 else 1) < sz
      rw [hopen, if_pos hyes]
      simp only [List.length_append, List.length_cons, List.length_nil]; omega)
    (by simp only [List.length_append, List.length_cons, List.length_nil]; omega)
  rw [hp]
  simp only [hopen, hyes, if_true, List.take_left, List.drop_left]
  simp only [List.append_assoc, List.drop_left, List.singleton_append]

/-- Run of `_type` on a pointer to a member function of the class `w`, with a builtin
return type and one builtin parameter, both other than `Dc`: the decorator ` (w::*)` goes
in front of the parameter list; the class, the function type and the pointer are
recorded. -/
theorem type_member_pointer_code_run (fuel : Nat) {s : Mangle} {rc pc r R P : List Char}
    (w : List Char) (hv : s.valid = true)
    (h : At s ('M' :: (Nat.toDigits 10 w.length ++ (w ++ 'F' :: (rc ++ (pc ++ 'E' :: r))))))
    (hw : is_identifier w = true)
    (hlen : (w ++ 'F' :: (rc ++ (pc ++ 'E' :: r))).length < 2147483647)
    (hr : code_name rc = some R) (hrD : rc ≠ ['D', 'c'])
    (hp : code_name pc = some P) (hpD : pc ≠ ['D', 'c'])
    (hfn : s.func_nest = 0)
    (hpb : ∀ b, s.parameter_base.getD 0 none = some b →
      b ≤ s.plain.length ∧ ∀ x ∈ s.plain.drop b, plain_char x = true)
    (hfit : s.plain.length + R.length + P.length + w.length + 8 < s.size)
    (hroom : s.substitions.length + 3 ≤ 20) :
    _type (fuel + 6) s = Res.ok ((), { s with
      plain := s.plain ++ (R ++ " (".toList ++ w ++ "::*)".toList
        ++ '(' :: ((if pc = ['v'] then [] else P) ++ [')'])),
      mpos := s.mpos + 1 + (Nat.toDigits 10 w.length).length + w.length + 1 + rc.length
        + pc.length + 1,
      parameter_base := s.parameter_base.set 1 (some (s.plain ++ R ++ "(".toList).length),
      substitions := s.substitions ++ [w, R ++ '(' :: ((if pc = ['v'] then [] else P) ++ [')']),
        R ++ " (".toList ++ w ++ "::*)".toList
          ++ '(' :: ((if pc = ['v'] then [] else P) ++ [')'])] }) := by
  rw [type_member_dispatch (fuel + 5) hv h]
  have hex := h.run_expect_true hv "M" (isPrefixOf_single _ _)
  obtain ⟨v, p, sz, m, k, n, tc, q, fn, pb0, ss, ts⟩ := s
  simp only at hv hfit hroom hfn hpb hex
  subst hv hfn
  obtain ⟨hRne, -⟩ := code_name_end rc R [] hr
  have hPl : (if pc = ['v'] then [] else P).length ≤ P.length := by
    split <;> simp
  have hPc : ∀ x ∈ (if pc = ['v'] then [] else P), plain_char x = true ∧ x ≠ '*' := by
    intro x hx
    split at hx
    · cases hx
    · exact code_name_words pc P hp hpD x hx
  have hI : "I".toList.isPrefixOf ('F' :: (rc ++ (pc ++ 'E' :: r))) = false := by
    simp [List.isPrefixOf]
  have hc : _type (fuel + 4) (⟨true, p, sz, m, k + 1, n, tc, q, 0, pb0, ss, ts⟩ : Mangle) = _ :=
    type_source_run (fuel + 2) w ('F' :: (rc ++ (pc ++ 'E' :: r))) rfl ⟨h.next.1, h.next.2⟩ hw
      hlen (by simp only; omega) hI (by simp only; omega)
  simp only at hc
  have hat : At (⟨true, p, sz, m, k + 1 + (Nat.toDigits 10 w.length).length + w.length, n,
      tc, q, 0, pb0, ss ++ [w], ts⟩ : Mangle) ('F' :: (rc ++ (pc ++ 'E' :: r))) := by
    have := At.after_source (w := w) (r := 'F' :: (rc ++ (pc ++ 'E' :: r)))
      (s := ⟨true, p, sz, m, k + 1, n, tc, q, 0, pb0, ss, ts⟩)
      (by simpa [source_code] using h.next) p
    exact ⟨this.1, this.2⟩
  have hf := type_function_code_run fuel rfl hat hr hrD hp rfl hpb (by simp only; omega)
    (by simp only [List.length_append, List.length_cons, List.length_nil]; omega)
  simp only at hf
  generalize (if pc = ['v'] then [] else P) = P' at hf hPl hPc ⊢
  have hip := insertion_point_list
    (⟨true, p ++ R ++ '(' :: (P' ++ [')']), sz, m,
      k + 1 + (Nat.toDigits 10 w.length).length + w.length + 1 + rc.length + pc.length + 1,
      n, tc,
      q, 0, pb0.set 1 (some (p ++ R ++ "(".toList).length),
      ss ++ [w] ++ [R ++ '(' :: (P' ++ [')'])], ts⟩ : Mangle)
    p R P' rfl rfl hRne (code_name_words rc R hr hrD) hPc
  simp only at hip
  have hopen : pchar (p ++ R ++ '(' :: (P' ++ [')'])) (p ++ R).length = '(' := by
    have := pchar_append_right (p ++ R) ('(' :: (P' ++ [')'])) 0
    rw [Nat.add_zero] at this
    rw [this]; rfl
  have hi1 := run_insert
    (⟨true, p ++ R ++ '(' :: (P' ++ [')']), sz, m,
      k + 1 + (Nat.toDigits 10 w.length).length + w.length + 1 + rc.length + pc.length + 1,
      n, tc,
      q, 0, pb0.set 1 (some (p ++ R ++ "(".toList).length),
      ss ++ [w] ++ [R ++ '(' :: (P' ++ [')'])], ts⟩ : Mangle)
    (p ++ R).length " ()".toList rfl
    (by simp only [List.length_append, List.length_cons]; omega) (by decide)
    (by
      show (p ++ R ++ '(' :: (P' ++ [')'])).length + 3 < sz
      simp only [List.length_append, List.length_cons, List.length_nil]; omega)
  simp only [List.take_left, List.drop_left] at hi1
  have hsplit : p ++ R ++ " ()".toList ++ '(' :: (P' ++ [')'])
      = (p ++ R ++ " (".toList) ++ (')' :: '(' :: (P' ++ [')'])) := by
    simp [List.append_assoc]
  have hl2 : (p ++ R).length + 2 = (p ++ R ++ " (".toList).length := by
    simp only [List.length_append, String.toList, List.length_cons, List.length_nil]
  have hi2 := run_insert
    (⟨true, (p ++ R ++ " (".toList) ++ (')' :: '(' :: (P' ++ [')'])), sz, m,
      k + 1 + (Nat.toDigits 10 w.length).length + w.length + 1 + rc.length + pc.length + 1,
      n, tc,
      q, 0, pb0.set 1 (some (p ++ R ++ "(".toList).length),
      ss ++ [w] ++ [R ++ '(' :: (P' ++ [')'])], ts⟩ : Mangle)
    (p ++ R ++ " (".toList).length (w ++ "::*".toList) rfl
    (by simp only [List.length_append, List.length_cons]; omega) (by simp)
    (by
      show ((p ++ R ++ " (".toList) ++ (')' :: '(' :: (P' ++ [')']))).length
        + (w ++ "::*".toList).length < sz
      simp only [List.length_append, List.length_cons, List.length_nil, String.toList]
      omega)
  simp only [List.take_left, List.drop_left] at hi2
  have hsub := run_add_substitution_at
    (⟨true, p ++ R ++ " (".toList ++ (w ++ "::*".toList) ++ (')' :: '(' :: (P' ++ [')'])), sz, m,
      k + 1 + (Nat.toDigits 10 w.length).length + w.length + 1 + rc.length + pc.length + 1,
      n, tc,
      q, 0, pb0.set 1 (some (p ++ R ++ "(".toList).length),
      ss ++ [w] ++ [R ++ '(' :: (P' ++ [')'])], ts⟩ : Mangle) p.length rfl
    (by simp only [List.length_append, List.length_cons, List.length_nil]; omega)
  rw [_pointer_to_member_type]
  simp only [run_bind, andThen_ok, hex, if_true, current_position, run_getS, run_pure,
    Mangle.setMpos, String.length, List.length_cons, List.length_nil, Nat.zero_add, hc, text_at,
    List.drop_left, truncate, run_modifyS, Mangle.truncate, List.take_left, hf, hip, hopen,
    beq_self_eq_true, hi1, hsplit, hl2, hi2, hsub]
  simp [List.append_assoc]

/-- The function `f` with a pointer to a builtin type other than `Dc` as its parameter. -/
theorem demangle_pointer_code (g : Nat) (plain : List Char) (size : Nat) (rc R : List Char)
    (hr : code_name rc = some R) (hrD : rc ≠ ['D', 'c'])
    (hsize : ("f(".toList ++ R ++ "*)".toList).length < size) :
    demangle (g + 8) plain size ("_Z1fP".toList ++ rc)
      = Res.ok (true, "f(".toList ++ R ++ "*)".toList) := by
  have hsz : R.length + 4 < size := by
    simp only [String.toList, List.length_append, List.length_cons, List.length_nil] at hsize
    omega
  obtain ⟨-, -, -, -, -, -, -, -, -, hrn⟩ := code_name_head rc R hr
  have hrl := code_name_short rc R hr
  have hty := type_pointer_code_run (g + 4)
    (s := ⟨true, "f(".toList, size, "_Z".toList ++ ('1' :: 'f' :: 'P' :: (rc ++ [])), 4, 1,
      false, [], 0, (List.replicate MAX_FUNC_NESTING none).set 0 (some 2), [], []⟩)
    (r := []) rfl (first_param_at _ _ _ _ _) hr hrD
    (by simp only [String.toList, List.length_cons, List.length_nil]; omega)
    (Nat.zero_lt_succ _)
  simp only at hty
  have em : 4 + 1 + rc.length = 4 + ('P' :: (rc ++ [])).length := by
    simp only [List.length_cons, List.length_append, List.length_nil]; omega
  rw [em] at hty
  have hd := demangle_one_param (g + 5) plain size 'P' (rc ++ []) (R ++ "*".toList) _ _
    ⟨by decide, by decide, by decide, by decide⟩
    (by
      intro x hx
      rw [List.append_nil] at hx
      exact hrn x hx)
    (by simp only [List.length_append, List.length_nil]; omega)
    (by
      intro e
      have := congrArg List.reverse e
      simp [String.toList] at this)
    (by simp only [String.toList, List.length_append, List.length_cons, List.length_nil]; omega)
    hty
  have e1 : "_Z1fP".toList ++ rc = "_Z".toList ++ ('1' :: 'f' :: 'P' :: (rc ++ [])) := by
    simp [String.toList]
  rw [e1, hd]
  simp only [String.toList, List.append_assoc, List.cons_append, List.nil_append]

/-- The function `f` with a pointer to a function type as its parameter; the codes of the
return type and of the parameter are builtin codes other than `Dc`. -/
theorem demangle_function_pointer_code (g : Nat) (plain : List Char) (size : Nat)
    (rc pc R P : List Char)
    (hr : code_name rc = some R) (hrD : rc ≠ ['D', 'c'])
    (hp : code_name pc = some P) (hpD : pc ≠ ['D', 'c'])
    (hsize : ("f(".toList ++ R ++ "(*)(".toList ++ P ++ "))".toList).length < size) :
    demangle (g + 8) plain size ("_Z1fPF".toList ++ rc ++ pc ++ "E".toList)
      = Res.ok (true, "f(".toList ++ R ++ "(*)(".toList ++ (if pc = ['v'] then [] else P)
          ++ "))".toList) := by
  have hsz : R.length + P.length + 8 < size := by
    simp only [String.toList, List.length_append, List.length_cons, List.length_nil] at hsize
    omega
  obtain ⟨-, -, -, -, -, -, -, -, -, hrn⟩ := code_name_head rc R hr
  obtain ⟨-, -, -, -, -, -, -, -, -, hpn⟩ := code_name_head pc P hp
  have hrl := code_name_short rc R hr
  have hpl := code_name_short pc P hp
  have hPl : (if pc = ['v'] then [] else P).length ≤ P.length := by
    split <;> simp
  have hty := type_function_pointer_code_run (g + 1)
    (s := ⟨true, "f(".toList, size,
      "_Z".toList ++ ('1' :: 'f' :: 'P' :: 'F' :: (rc ++ (pc ++ 'E' :: []))), 4, 1,
      false, [], 0, (List.replicate MAX_FUNC_NESTING none).set 0 (some 2), [], []⟩)
    (r := []) rfl (first_param_at _ _ _ _ _) hr hrD hp hpD rfl first_param_base
    (by simp only [String.toList, List.length_cons, List.length_nil]; omega)
    (by simp)
  simp only at hty
  have em : 4 + 1 + 1 + rc.length + pc.length + 1
      = 4 + ('P' :: 'F' :: (rc ++ (pc ++ 'E' :: []))).length := by
    simp only [List.length_cons, List.length_append, List.length_nil]; omega
  rw [em] at hty
  have hd := demangle_one_param (g + 5) plain size 'P' ('F' :: (rc ++ (pc ++ 'E' :: [])))
    (R ++ "(*)".toList ++ '(' :: ((if pc = ['v'] then [] else P) ++ [')'])) _ _
    ⟨by decide, by decide, by decide, by decide⟩
    (by
      intro x hx
      simp only [List.mem_cons, List.mem_append, List.not_mem_nil, or_false] at hx
      rcases hx with e | e | e | e
      · rw [e]; decide
      · exact hrn x e
      · exact hpn x e
      · rw [e]; decide)
    (by simp only [List.length_cons, List.length_append, List.length_nil]; omega)
    (by
      intro e
      have := congrArg List.reverse e
      simp [String.toList] at this)
    (by
      simp only [String.toList, List.length_append, List.length_cons, List.length_nil]
      omega)
    hty
  have e1 : "_Z1fPF".toList ++ rc ++ pc ++ "E".toList
      = "_Z".toList ++ ('1' :: 'f' :: 'P' :: 'F' :: (rc ++ (pc ++ 'E' :: []))) := by
    simp [String.toList]
  rw [e1, hd]
  simp only [String.toList, List.append_assoc, List.cons_append, List.nil_append]

/-- The function `f` with a pointer to a member function of `S` as its parameter; the
codes of the return type and of the parameter are builtin codes other than `Dc`. -/
theorem demangle_member_pointer_code (g : Nat) (plain : List Char) (size : Nat)
    (rc pc R P : List Char)
    (hr : code_name rc = some R) (hrD : rc ≠ ['D', 'c'])
    (hp : code_name pc = some P) (hpD : pc ≠ ['D', 'c'])
    (hsize : ("f(".toList ++ R ++ " (S::*)(".toList ++ P ++ "))".toList).length < size) :
    demangle (g + 8) plain size ("_Z1fM1SF".toList ++ rc ++ pc ++ "E".toList)
      = Res.ok (true, "f(".toList ++ R ++ " (S::*)(".toList ++ (if pc = ['v'] then [] else P)
          ++ "))".toList) := by
  have hsz : R.length + P.length + 12 < size := by
    simp only [String.toList, List.length_append, List.length_cons, List.length_nil] at hsize
    omega
  obtain ⟨-, -, -, -, -, -, -, -, -, hrn⟩ := code_name_head rc R hr
  obtain ⟨-, -, -, -, -, -, -, -, -, hpn⟩ := code_name_head pc P hp
  have hrl := code_name_short rc R hr
  have hpl := code_name_short pc P hp
  have hPl : (if pc = ['v'] then [] else P).length ≤ P.length := by
    split <;> simp
  have h1 : Nat.toDigits 10 "S".toList.length = ['1'] := by decide
  have hat : At (⟨true, "f(".toList, size,
      "_Z".toList ++ ('1' :: 'f' :: 'M' :: '1' :: 'S' :: 'F' :: (rc ++ (pc ++ 'E' :: []))), 4, 1,
      false, [], 0, (List.replicate MAX_FUNC_NESTING none).set 0 (some 2), [], []⟩ : Mangle)
      ('M' :: (Nat.toDigits 10 "S".toList.length ++
        ("S".toList ++ 'F' :: (rc ++ (pc ++ 'E' :: []))))) := by
    rw [h1]
    exact first_param_at _ _ _ _ _
  have hty := type_member_pointer_code_run g "S".toList rfl hat (by decide)
    (by simp only [String.toList, List.length_append, List.length_cons, List.length_nil]; omega)
    hr hrD hp hpD rfl first_param_base
    (by simp only [String.toList, List.length_cons, List.length_nil]; omega)
    (Nat.le_of_ble_eq_true rfl)
  have hS : "S".toList.length = 1 := rfl
  rw [h1] at hty
  simp only [hS, List.length_cons, List.length_nil] at hty
  have em : 4 + 1 + (0 + 1) + 1 + 1 + rc.length + pc.length + 1
      = 4 + ('M' :: '1' :: 'S' :: 'F' :: (rc ++ (pc ++ 'E' :: []))).length := by
    simp only [List.length_cons, List.length_append, List.length_nil]; omega
  rw [em] at hty
  have hd := demangle_one_param (g + 5) plain size 'M'
    ('1' :: 'S' :: 'F' :: (rc ++ (pc ++ 'E' :: [])))
    (R ++ " (".toList ++ "S".toList ++ "::*)".toList
      ++ '(' :: ((if pc = ['v'] then [] else P) ++ [')'])) _ _
    ⟨by decide, by decide, by decide, by decide⟩
    (by
      intro x hx
      simp only [List.mem_cons, List.mem_append, List.not_mem_nil, or_false] at hx
      rcases hx with e | e | e | e | e | e
      · rw [e]; decide
      · rw [e]; decide
      · rw [e]; decide
      · exact hrn x e
      · exact hpn x e
      · rw [e]; decide)
    (by simp only [List.length_cons, List.length_append, List.length_nil]; omega)
    (by
      intro e
      have := congrArg List.reverse e
      simp [String.toList] at this)
    (by
      simp only [String.toList, List.length_append, List.length_cons, List.length_nil]
      omega)
    hty
  have e1 : "_Z1fM1SF".toList ++ rc ++ pc ++ "E".toList
      = "_Z".toList ++ ('1' :: 'f' :: 'M' :: '1' :: 'S' :: 'F' :: (rc ++ (pc ++ 'E' :: []))) := by
    simp [String.toList]
  rw [e1, hd]
  simp only [String.toList, List.append_assoc, List.cons_append, List.nil_append]

/-- C15: a pointer decorator is spliced at the insertion point of the pointee text.  For
builtin type codes `rc` and `pc` of one or two letters other than `Dc`, with the names `R`
and `P`, `demangle` on the function `f` with the one parameter `P` + `rc` returns true
with `f(` + `R` + `*)`; with the parameter `PF` + `rc` + `pc` + `E` it returns true with
`f(` + `R` + `(*)(` + `P` + `))`, and with `M1SF` + `rc` + `pc` + `E` it returns true with
`f(` + `R` + ` (S::*)(` + `P` + `))`, where in both the inner parentheses are empty when
`pc` is `v`.  The capacity is taken above the length of the text with `P` and the step
budget at least eight.  The symbol `_Z1fPFvvEM1SFvvE` gives `f(void(*)(),void (S::*)())`.
For the code `Dc` the decorator is misplaced: its name `decltype(auto)` ends in a
parenthesised part, which is taken for a parameter list, so that `_Z1fPDc` gives
`f(decltype(*)(auto))` where the pointee followed by `*` is `decltype(auto)*`, and the
same happens with `Dc` as the return type or the parameter of the function type.  Only with
the return type `Dc` and the parameter `Da` the misplaced parts read `(auto)` alike and the
text comes out as for the other codes. -/
theorem pointer_decorator_spliced :
    (∀ (fuel : Nat) (plain : List Char) (size : Nat) (rc R : List Char),
      code_name rc = some R → rc ≠ ['D', 'c'] →
      ("f(".toList ++ R ++ "*)".toList).length < size → 8 ≤ fuel →
      demangle fuel plain size ("_Z1fP".toList ++ rc)
        = Res.ok (true, "f(".toList ++ R ++ "*)".toList)) ∧
    (∀ (fuel : Nat) (plain : List Char) (size : Nat) (rc pc R P : List Char),
      code_name rc = some R → code_name pc = some P → rc ≠ ['D', 'c'] → pc ≠ ['D', 'c'] →
      ("f(".toList ++ R ++ "(*)(".toList ++ P ++ "))".toList).length < size → 8 ≤ fuel →
      demangle fuel plain size ("_Z1fPF".toList ++ rc ++ pc ++ "E".toList)
        = Res.ok (true, "f(".toList ++ R ++ "(*)(".toList ++ (if pc = ['v'] then [] else P)
            ++ "))".toList)) ∧
    (∀ (fuel : Nat) (plain : List Char) (size : Nat) (rc pc R P : List Char),
      code_name rc = some R → code_name pc = some P → rc ≠ ['D', 'c'] → pc ≠ ['D', 'c'] →
      ("f(".toList ++ R ++ " (S::*)(".toList ++ P ++ "))".toList).length < size → 8 ≤ fuel →
      demangle fuel plain size ("_Z1fM1SF".toList ++ rc ++ pc ++ "E".toList)
        = Res.ok (true, "f(".toList ++ R ++ " (S::*)(".toList ++
            (if pc = ['v'] then [] else P) ++ "))".toList)) ∧
    demangle 20 [] 256 "_Z1fPFvvEM1SFvvE".toList
      = Res.ok (true, "f(void(*)(),void (S::*)())".toList) ∧
    code_name "Dc".toList = some "decltype(auto)".toList ∧
    demangle 20 [] 256 "_Z1fPDc".toList = Res.ok (true, "f(decltype(*)(auto))".toList) ∧
    demangle 20 [] 256 "_Z1fPFDciE".toList
      = Res.ok (true, "f(decltype(int)(*)(auto))".toList) ∧
    demangle 20 [] 256 "_Z1fPFiDcE".toList
      = Res.ok (true, "f(int(decltype(*)(auto)))".toList) ∧
    demangle 20 [] 256 "_Z1fM1SFDciE".toList
      = Res.ok (true, "f(decltype(int) (S::*)(auto))".toList) ∧
    demangle 20 [] 256 "_Z1fM1SFiDcE".toList
      = Res.ok (true, "f(int(decltype (S::*)(auto)))".toList) ∧
    demangle 20 [] 256 "_Z1fPFDcDaE".toList
      = Res.ok (true, "f(decltype(auto)(*)(auto))".toList) ∧
    demangle 20 [] 256 "_Z1fM1SFDcDaE".toList
      = Res.ok (true, "f(decltype(auto) (S::*)(auto))".toList) := by
  refine ⟨?_, ?_, ?_, by decide!, by decide, by decide!, by decide!, by decide!, by decide!,
    by decide!, by decide!, by decide!⟩
  · intro fuel plain size rc R hr hrD hsize hfuel
    obtain ⟨g, rfl⟩ : ∃ g, fuel = g + 8 := ⟨fuel - 8, by omega⟩
    exact demangle_pointer_code g plain size rc R hr hrD hsize
  · intro fuel plain size rc pc R P hr hp hrD hpD hsize hfuel
    obtain ⟨g, rfl⟩ : ∃ g, fuel = g + 8 := ⟨fuel - 8, by omega⟩
    exact demangle_function_pointer_code g plain size rc pc R P hr hrD hp hpD hsize
  · intro fuel plain size rc pc R P hr hp hrD hpD hsize hfuel
    obtain ⟨g, rfl⟩ : ∃ g, fuel = g + 8 := ⟨fuel - 8, by omega⟩
    exact demangle_member_pointer_code g plain size rc pc R P hr hrD hp hpD hsize

theorem pointer_decorator_spliced_witness :
    demangle 20 [] 64 ("_Z1fP".toList ++ "Dn".toList)
        = Res.ok (true, "f(".toList ++ "std::nullptr_t".toList ++ "*)".toList) ∧
      demangle 20 [] 64 ("_Z1fPF".toList ++ "i".toList ++ "Dn".toList ++ "E".toList)
        = Res.ok (true, "f(".toList ++ "int".toList ++ "(*)(".toList ++
            (if "Dn".toList = ['v'] then [] else "std::nullptr_t".toList) ++ "))".toList) ∧
      demangle 20 [] 64 ("_Z1fM1SF".toList ++ "Ds".toList ++ "c".toList ++ "E".toList)
        = Res.ok (true, "f(".toList ++ "char16_t".toList ++ " (S::*)(".toList ++
            (if "c".toList = ['v'] then [] else "char".toList) ++ "))".toList) :=
  ⟨pointer_decorator_spliced.1 20 [] 64 "Dn".toList "std::nullptr_t".toList (by decide)
      (by decide) (by decide) (by decide),
    pointer_decorator_spliced.2.1 20 [] 64 "i".toList "Dn".toList "int".toList
      "std::nullptr_t".toList (by decide) (by decide) (by decide) (by decide) (by decide)
      (by decide),
    pointer_decorator_spliced.2.2.1 20 [] 64 "Ds".toList "c".toList "char16_t".toList
      "char".toList (by decide) (by decide) (by decide) (by decide) (by decide) (by decide)⟩

/-! ## A function template with one builtin argument of one or two letters -/

/-- Run of the loop of `_template_args` on one builtin code of one or two letters and the
closing `E`: the name of the type is written and recorded as a template parameter. -/
theorem template_args_loop_code (fuel : Nat) {s : Mangle} {a r nm : List Char}
    (hv : s.valid = true) (h : At s (a ++ 'E' :: r)) (ha : code_name a = some nm)
    (hfit : s.plain.length + nm.length < s.size)
    (h1 : s.tpl_subst.length < 10) (h2 : s.substitions.length < 10) :
    template_args_loop (fuel + 2) 0 s = Res.ok ((), { s with
      plain := s.plain ++ nm, mpos := s.mpos + a.length + 1,
      tpl_subst := s.tpl_subst ++ [nm] }) := by
  obtain ⟨c, cr, hcd, -, -, -, nE, -, -, -⟩ := code_name_head a nm ha
  have hh : At s (c :: (cr ++ 'E' :: r)) := by rw [hcd] at h; exact h
  obtain ⟨v, p, sz, m, k, n, tc, q, fn, pb0, ss, ts⟩ := s
  simp only at hv hfit h1 h2
  subst hv
  have mE := hh.run_match_false rfl "E" (isPrefixOf_cons_ne _ _ _ _ (Ne.symm nE))
  have hty := type_code_run fuel (s := ⟨true, p, sz, m, k, n, tc, q, fn, pb0, ss, ts⟩)
    rfl h ha hfit
  simp only at hty
  have htp := run_add_template_at
    (⟨true, p ++ nm, sz, m, k + a.length, n, tc, q, fn, pb0, ss, ts⟩ : Mangle) p.length rfl
    h1 h2
  simp only [List.drop_left] at htp
  have hat2 : At (⟨true, p ++ nm, sz, m, k + a.length, n, tc, q, fn, pb0, ss,
      ts ++ [nm]⟩ : Mangle) ('E' :: r) := by
    have := h.moved a.length (by simp)
    rw [List.drop_left] at this
    exact ⟨this.1, this.2⟩
  have mE2 := hat2.run_match_true rfl "E" (isPrefixOf_single _ _)
  have hEl : "E".length = 1 := rfl
  have h00 : ¬ (0 > 0) := by decide
  rw [template_args_loop]
  simp only [run_bind, run_getS, andThen_ok, if_true, mE, Bool.false_eq_true, if_false, h00,
    run_pure, current_position, hty, htp]
  rw [template_args_loop]
  simp only [run_bind, run_getS, andThen_ok, if_true, mE2, run_pure, Mangle.setMpos, hEl]

/-- Run of `_template_args` on `I`, one builtin code of one or two letters and `E`, when
no template parameter was recorded before. -/
theorem template_args_code (fuel : Nat) {s : Mangle} {a r nm : List Char}
    (hv : s.valid = true) (h : At s ('I' :: (a ++ 'E' :: r))) (ha : code_name a = some nm)
    (hfit : s.plain.length + nm.length + 2 < s.size)
    (h1 : s.tpl_subst = []) (h2 : s.substitions.length < 10) :
    _template_args (fuel + 3) s = Res.ok ((), { s with
      plain := s.plain ++ ("<".toList ++ nm ++ ">".toList), mpos := s.mpos + 1 + a.length + 1,
      tpl_subst := [nm] }) := by
  obtain ⟨v, p, sz, m, k, n, tc, q, fn, pb0, ss, ts⟩ := s
  simp only at hv hfit h1 h2
  subst hv h1
  have mI := h.run_match_true rfl "I" (isPrefixOf_single _ _)
  have hIl : "I".length = 1 := rfl
  have hlt : ("<".toList).length = 1 := rfl
  have hap1 : (⟨true, p, sz, m, k + 1, n, tc, q, fn, pb0, ss, []⟩ : Mangle).append "<".toList
      = ⟨true, p ++ "<".toList, sz, m, k + 1, n, tc, q, fn, pb0, ss, []⟩ := by
    rw [Mangle.append_fits _ _ rfl (by simp only [hlt]; omega)]
  have hloop := template_args_loop_code fuel
    (s := ⟨true, p ++ "<".toList, sz, m, k + 1, n, tc, q, fn, pb0, ss, []⟩)
    rfl ⟨h.next.1, h.next.2⟩ ha (by simp only [List.length_append, hlt]; omega)
    (by simp) h2
  simp only at hloop
  have hap2 : (⟨true, p ++ "<".toList ++ nm, sz, m, k + 1 + a.length + 1, n, tc, q, fn, pb0, ss,
      [] ++ [nm]⟩ : Mangle).append ">".toList
      = ⟨true, p ++ "<".toList ++ nm ++ ">".toList, sz, m, k + 1 + a.length + 1, n, tc, q, fn,
        pb0, ss, [] ++ [nm]⟩ := by
    rw [Mangle.append_fits _ _ rfl (by
      have : (">".toList).length = 1 := rfl
      simp only [List.length_append, hlt, this]; omega)]
  have h00 : ¬ (([] : List (List Char)).length > 0) := by simp
  rw [_template_args]
  simp only [run_bind, mI, andThen_ok, if_true, run_getS, Demangle.append, run_modifyS,
    Mangle.setMpos, hIl, hap1, hloop, hap2, h00, if_false, run_pure]
  simp only [List.nil_append, List.append_assoc]

/-- Run of `_name` on a source name followed by template arguments with one builtin code
of one or two letters: the name is recorded as a substitution and the argument as a
template parameter. -/
theorem name_template_code_run (fuel : Nat) {s : Mangle} (w r a : List Char)
    (nm : List Char) (hv : s.valid = true)
    (h : At s (Nat.toDigits 10 w.length ++ (w ++ 'I' :: (a ++ 'E' :: r))))
    (hw : is_identifier w = true) (ha : code_name a = some nm)
    (hlen : w.length + 4 + r.length < 2147483647)
    (hfit : s.plain.length + w.length + nm.length + 2 < s.size)
    (h1 : s.tpl_subst = []) (h2 : s.substitions.length < 9) :
    _name (fuel + 4) s = Res.ok ((), { s with
      plain := s.plain ++ w ++ ("<".toList ++ nm ++ ">".toList),
      mpos := s.mpos + (Nat.toDigits 10 w.length).length + w.length + 1 + a.length + 1,
      substitions := s.substitions ++ [w],
      tpl_subst := [nm] }) := by
  have hal := code_name_short a nm ha
  obtain ⟨hne, hall, hval⟩ := toDigits_spec w.length
  obtain ⟨d, ds, hd⟩ := List.exists_cons_of_ne_nil hne
  have hdd : isdigit d = true := hall d (by rw [hd]; exact List.mem_cons_self _ _)
  have h' : At s (d :: (ds ++ (w ++ 'I' :: (a ++ 'E' :: r)))) := by rw [hd] at h; exact h
  have ne := fun (k : Char) (hk : isdigit k = false) => digit_ne_of_not_digit hdd k hk
  have pN := h'.run_peek_ne hv 'N' [] (ne _ (by decide))
  have pZ := h'.run_peek_ne hv 'Z' [] (ne _ (by decide))
  have pS := h'.run_peek_substitution_ne hv (Ne.symm (ne _ (by decide)))
  have pC : peek_ctor_dtor s = Res.ok (false, s) := by
    have hC := ne 'C' (by decide)
    have hD := ne 'D' (by decide)
    simp only [peek_ctor_dtor, run_bind, run_getS, andThen_ok, hv, if_true, h'.run_rest,
      run_pure]
    congr 2
    simp [List.isPrefixOf, hC, hD]
  have hl0 : look 0 s = Res.ok (d, s) := by rw [h'.run_look0]; rfl
  have hsn := source_name_run w ('I' :: (a ++ 'E' :: r)) hv h (identifier_head _ _ hw)
    (by simp only [List.length_append, List.length_cons]; omega) (by omega)
  obtain ⟨v, p, sz, m, k, n, tc, q, fn, pb0, ss, ts⟩ := s
  simp only at hv hfit h1 h2 hsn pN pZ pS pC hl0
  subst hv h1
  have hat : At (⟨true, p ++ w, sz, m, k + (Nat.toDigits 10 w.length).length + w.length, n,
      tc, q, fn, pb0, ss, []⟩ : Mangle) ('I' :: (a ++ 'E' :: r)) := by
    have := At.after_source (w := w) (r := 'I' :: (a ++ 'E' :: r))
      (by simpa [source_code] using h) (p ++ w)
    exact ⟨this.1, this.2⟩
  have pI : peek "I" (⟨true, p ++ w, sz, m, k + (Nat.toDigits 10 w.length).length + w.length,
      n, tc, q, fn, pb0, ss, []⟩ : Mangle) = Res.ok (true, ⟨true, p ++ w, sz, m,
      k + (Nat.toDigits 10 w.length).length + w.length, n, tc, q, fn, pb0, ss, []⟩) := by
    rw [hat.run_peek rfl]
    congr 2 <;> exact isPrefixOf_single _ _
  have hsub := run_add_substitution_at (⟨true, p ++ w, sz, m,
      k + (Nat.toDigits 10 w.length).length + w.length, n, tc, q, fn, pb0, ss, []⟩ : Mangle)
      p.length rfl (by simp only; omega)
  simp only [List.drop_left] at hsub
  have hta := template_args_code fuel (s := ⟨true, p ++ w, sz, m,
      k + (Nat.toDigits 10 w.length).length + w.length, n, tc, q, fn, pb0, ss ++ [w], []⟩)
    rfl ⟨hat.1, hat.2⟩ ha (by simp only [List.length_append]; omega) rfl
    (by simp only [List.length_append, List.length_cons, List.length_nil]; omega)
  simp only at hta
  rw [_name]
  simp only [run_bind, current_position, run_getS, andThen_ok, run_pure, if_true,
    pN, pZ, h'.run_is_abbreviation_digit hdd, pS, h'.run_is_operator_digit hdd, pC, hl0, hdd,
    hsn, pI, hsub, hta, Bool.false_eq_true, if_false, Option.isSome_none, reduceCtorEq, run_ite]

/-- Run of `_function_encoding` around its parameter loop for a name that ends in template
arguments and a builtin return type of one or two letters other than `Dc`: the return type
is parsed behind the name, erased, and inserted with a space in front of the name when the
parameter list is closed. -/
theorem function_encoding_ret_code (fuel : Nat) {s t u : Mangle} {cd r nm : List Char}
    (hname : _name (fuel + 1) s = Res.ok ((), t)) (htv : t.valid = true) (htn : t.nest = 0)
    (htc : t.is_typecast_op = false)
    (hat : At t (cd ++ r)) (hc : code_name cd = some nm) (hD : cd ≠ ['D', 'c'])
    (hne : t.plain ≠ []) (hlast : (pchar t.plain (t.plain.length - 1) == '>') = true)
    (hfit1 : t.plain.length + nm.length < t.size) (hfit1b : t.plain.length + 1 < t.size)
    (hloop : function_encoding_loop (fuel + 1) 0 { t with
      plain := t.plain ++ "(".toList, mpos := t.mpos + cd.length, nest := 1 }
        = Res.ok ((), u))
    (huv : u.valid = true) (hun : u.nest = 1) (hq : u.qualifiers = [])
    (hfit2 : u.plain.length + 1 + nm.length + 1 < u.size) :
    _function_encoding (fuel + 2) s = Res.ok ((), { u with
      nest := 0, plain := nm ++ " ".toList ++ (u.plain ++ ")".toList) }) := by
  obtain ⟨c, cr, hcd, n1, n2, n3, -, -, -, -⟩ := code_name_head cd nm hc
  have hh : At t (c :: (cr ++ r)) := by rw [hcd] at hat; exact hat
  have hos := hh.run_on_sentinel_false htv n1 n2 n3
  obtain ⟨v, p, sz, m, k, n, tc, q, fn, pb0, ss, ts⟩ := t
  obtain ⟨v2, p2, sz2, m2, k2, n2', tc2, q2, fn2, pb2, ss2, ts2⟩ := u
  simp only at htv htn htc hne hlast hfit1 hfit1b hloop huv hun hq hfit2 hos
  subst htv htn htc huv hun hq
  have hz : ¬ ((0 : Int) > 0) := by decide
  have hnl : ¬ (p.length = 0) := by
    intro e; exact hne (List.length_eq_zero.mp e)
  have hs1 : toShort (0 + 1) = 1 := by decide
  have hs0 : toShort (1 + -1) = 0 := by decide
  have hp1 : ("(".toList).length = 1 := rfl
  have hty := type_code_run fuel (s := ⟨true, p, sz, m, k, 1, false, q, fn, pb0, ss, ts⟩)
    rfl ⟨hat.1, hat.2⟩ hc hfit1
  simp only at hty
  have hip := insertion_point_code
    (⟨true, p ++ nm, sz, m, k + cd.length, 1, false, q, fn, pb0, ss, ts⟩ : Mangle) p nm cd
    rfl rfl hc hD
  simp only at hip
  have hap1 : ((⟨true, (p ++ nm).take p.length, sz, m, k + cd.length, 1, false, q, fn, pb0, ss,
      ts⟩ : Mangle).append "(".toList)
      = ⟨true, p ++ "(".toList, sz, m, k + cd.length, 1, false, q, fn, pb0, ss, ts⟩ := by
    rw [Mangle.append_fits _ _ rfl (by
      simp only [List.take_left, hp1]; omega)]
    simp only [List.take_left]
  have hap2 : ((⟨true, p2, sz2, m2, k2, 0, tc2, [], fn2, pb2, ss2, ts2⟩ : Mangle).append
      ")".toList)
      = ⟨true, p2 ++ ")".toList, sz2, m2, k2, 0, tc2, [], fn2, pb2, ss2, ts2⟩ := by
    rw [Mangle.append_fits _ _ rfl (by
      simp only [String.toList]; simp only [List.length_cons, List.length_nil]; omega)]
  have hlen1 : (p2 ++ ")".toList).length = p2.length + 1 := by
    simp only [List.length_append, String.toList]; rfl
  have hins := run_insert
    (⟨true, p2 ++ ")".toList, sz2, m2, k2, 0, tc2, [], fn2, pb2, ss2, ts2⟩ : Mangle) 0
    (nm ++ " ".toList) rfl (Nat.zero_le _) (by simp [String.toList])
    (by
      show (p2 ++ ")".toList).length + (nm ++ " ".toList).length < sz2
      rw [hlen1]
      simp only [List.length_append, String.toList]; simp only [List.length_cons,
        List.length_nil]; omega)
  simp only [List.take_zero, List.drop_zero, List.nil_append] at hins
  rw [_function_encoding]
  simp only [run_bind, hname, andThen_ok, hos, run_getS, Bool.false_eq_true, if_false, hz,
    run_pure, hnl, add_nest, run_modifyS, Mangle.setNest, hlast, Bool.not_false,
    Bool.and_self, if_true, current_position, hs1, hty, text_at, List.drop_left, hip,
    truncate, Mangle.truncate, Demangle.append, hap1, hloop, hs0, hap2,
    run_qualifier_post_nil, List.length_append, Nat.add_sub_cancel_left, run_cassert,
    Nat.le_refl, decide_True, hins]

/-- Run of `_function_encoding` on the function template `f` with one builtin template
argument, a builtin return type other than `Dc` and one builtin parameter, the codes of
one or two letters. -/
theorem template_function_code_run (g : Nat) (s : Mangle) (a rt pc A R P : List Char)
    (hv : s.valid = true) (hp : s.plain = []) (hn : s.nest = 0) (hfn : s.func_nest = 0)
    (htc : s.is_typecast_op = false) (hq : s.qualifiers = []) (hss : s.substitions = [])
    (hts : s.tpl_subst = [])
    (h : At s (Nat.toDigits 10 "f".toList.length ++
      ("f".toList ++ 'I' :: (a ++ 'E' :: (rt ++ [pc].flatten)))))
    (ha : code_name a = some A) (hr : code_name rt = some R) (hrD : rt ≠ ['D', 'c'])
    (hpc : code_name pc = some P)
    (hfit : R.length + A.length + P.length + 6 < s.size) :
    ∃ t, _function_encoding (g + 5) s = Res.ok ((), t) ∧ t.valid = true ∧
      t.plain = R ++ " ".toList ++ ("f".toList ++ ("<".toList ++ A ++ ">".toList) ++
        "(".toList ++ (if pc = ['v'] then [] else P) ++ ")".toList) := by
  have hrl := code_name_short rt R hr
  have hpl := code_name_short pc P hpc
  obtain ⟨v, p, sz, m, k, n, tc, q0, fn, pb0, ss, ts⟩ := s
  simp only at hv hp hn hfn htc hq hss hts hfit
  subst hv hp hn hfn htc hq hss hts
  have hl1 : ("<".toList).length = 1 := rfl
  have hl2 : (">".toList).length = 1 := rfl
  have hl3 : ("f".toList).length = 1 := rfl
  have hl4 : ("(".toList).length = 1 := rfl
  have hname := name_template_code_run g
    (s := ⟨true, [], sz, m, k, 0, false, [], 0, pb0, [], []⟩) "f".toList (rt ++ [pc].flatten) a A
    rfl h (by decide) ha
    (by
      simp only [hl3, List.length_append, List.flatten_cons, List.flatten_nil,
        List.append_nil]
      omega)
    (by simp only [List.length_nil, hl3]; omega) rfl (by simp)
  simp only at hname
  have hat1 : At (⟨true, [] ++ "f".toList ++ ("<".toList ++ A ++ ">".toList), sz, m,
      k + (Nat.toDigits 10 "f".toList.length).length + "f".toList.length + 1 + a.length + 1,
      0, false, [], 0, pb0, [] ++ ["f".toList], [A]⟩ : Mangle) (rt ++ [pc].flatten) := by
    have h1 := At.after_source (w := "f".toList) (r := 'I' :: (a ++ 'E' :: (rt ++ [pc].flatten)))
      (by simpa [source_code] using h) ([] ++ "f".toList ++ ("<".toList ++ A ++ ">".toList))
    have h2 := h1.next.moved a.length (by simp)
    rw [List.drop_left] at h2
    have h3 := h2.next
    exact ⟨h3.1, h3.2⟩
  have hat2 : At (⟨true, [] ++ "f".toList ++ ("<".toList ++ A ++ ">".toList) ++ "(".toList, sz,
      m,
      k + (Nat.toDigits 10 "f".toList.length).length + "f".toList.length + 1 + a.length + 1
        + rt.length,
      1, false, [], 0, pb0, [] ++ ["f".toList], [A]⟩ : Mangle) [pc].flatten := by
    have h2 := hat1.moved rt.length (by simp)
    rw [List.drop_left] at h2
    exact ⟨h2.1, h2.2⟩
  have hsp : (codes_text 0 [pc]).length = P.length := by
    simp [codes_text, hpc]
  obtain ⟨pb, hloop⟩ := function_encoding_loop_codes_top [pc] (g + 4)
    ⟨true, [] ++ "f".toList ++ ("<".toList ++ A ++ ">".toList) ++ "(".toList, sz, m,
      k + (Nat.toDigits 10 "f".toList.length).length + "f".toList.length + 1 + a.length + 1
        + rt.length, 1, false, [],
      0, pb0, [] ++ ["f".toList], [A]⟩
    (by simp) rfl hat2 rfl
    (by
      intro x hx
      simp only [List.mem_singleton] at hx
      rw [hx, hpc]; rfl)
    (by simp)
    (by
      rw [hsp]
      simp only [List.length_append, List.length_nil, hl1, hl2, hl3, hl4]
      omega)
  simp only at hloop
  have hsl := shown_codes_le [pc]
  rw [hsp] at hsl
  have hlast : (pchar ([] ++ "f".toList ++ ("<".toList ++ A ++ ">".toList))
      (([] ++ "f".toList ++ ("<".toList ++ A ++ ">".toList)).length - 1) == '>') = true := by
    have e : [] ++ "f".toList ++ ("<".toList ++ A ++ ">".toList)
        = ("f".toList ++ "<".toList ++ A) ++ ">".toList := by
      simp only [List.nil_append, List.append_assoc]
    rw [e]
    have e2 : (("f".toList ++ "<".toList ++ A) ++ ">".toList).length - 1
        = ("f".toList ++ "<".toList ++ A).length + 0 := by
      simp only [List.length_append, hl2]; omega
    rw [e2, pchar_append_right]
    rfl
  have hfr := function_encoding_ret_code (g + 3) hname rfl rfl rfl hat1 hr hrD
    (by simp [String.toList]) hlast
    (by simp only [List.length_append, List.length_nil, hl1, hl2, hl3]; omega)
    (by simp only [List.length_append, List.length_nil, hl1, hl2, hl3]; omega)
    hloop rfl rfl rfl
    (by
      simp only [List.length_append, List.length_nil, hl1, hl2, hl3, hl4]
      omega)
  refine ⟨_, hfr, rfl, ?_⟩
  have hsh : shown_codes [pc] = (if pc = ['v'] then [] else P) := by
    unfold shown_codes
    by_cases hv : pc = ['v']
    · simp [hv]
    · have : ¬ ([pc] = [['v']]) := by simpa using hv
      rw [if_neg this, if_neg hv]
      simp [codes_text, hpc]
  simp only [hsh, List.nil_append, List.append_assoc]

/-- C14 (amended): for builtin type codes `a`, `r`, `p` of one or two letters with the
names `A`, `R`, `P`, the code `r` other than `Dc`, `demangle` on `_Z1fI` + `a` + `E` + `r`
+ `p` returns true with `R`, one space, `f<A>(`, the parameter and `)`: the name ends in
`>`, so the first type behind it is the return type and is written in front of the name.
The parameter is `P` when `p` is not `v`, and nothing when `p` is `v`.  The capacity is
taken above the length of `R f<A>(P)` and the step budget at least five.  With the return
type `Dc` the text is split inside the name `decltype(auto)`: `_Z1fIiEDci` gives
`decltypef<int>(int)(auto)`. -/
theorem template_return_type :
    (∀ (fuel : Nat) (plain : List Char) (size : Nat) (a r p A R P : List Char),
      code_name a = some A → code_name r = some R → code_name p = some P →
      r ≠ ['D', 'c'] →
      (R ++ " f<".toList ++ A ++ ">(".toList ++ P ++ ")".toList).length < size →
      5 ≤ fuel →
      demangle fuel plain size ("_Z1fI".toList ++ a ++ "E".toList ++ r ++ p)
        = Res.ok (true, R ++ " f<".toList ++ A ++ ">(".toList ++
            (if p = ['v'] then [] else P) ++ ")".toList)) ∧
    code_name "Dc".toList = some "decltype(auto)".toList ∧
    demangle 20 [] 256 "_Z1fIiEDci".toList
      = Res.ok (true, "decltypef<int>(int)(auto)".toList) := by
  refine ⟨?_, by decide, by decide!⟩
  intro fuel plain size a r p A R P ha hr hp hrD hsize hfuel
  obtain ⟨g, rfl⟩ : ∃ g, fuel = g + 5 := ⟨fuel - 5, by omega⟩
  have h1 : Nat.toDigits 10 "f".toList.length = ['1'] := by decide
  have e1 : "_Z1fI".toList ++ a ++ "E".toList ++ r ++ p
      = "_Z".toList ++ (Nat.toDigits 10 "f".toList.length ++
        ("f".toList ++ 'I' :: (a ++ 'E' :: (r ++ [p].flatten)))) := by
    rw [h1]
    simp [String.toList]
  have hat := initial_at size (Nat.toDigits 10 "f".toList.length ++
    ("f".toList ++ 'I' :: (a ++ 'E' :: (r ++ [p].flatten))))
  obtain ⟨t, ht, htv, htp⟩ := template_function_code_run g _ a r p A R P rfl rfl rfl rfl rfl
    rfl rfl rfl hat ha hr hrD hp
    (by
      simp only [String.toList, List.length_append, List.length_cons, List.length_nil]
        at hsize
      simp only [initial]
      omega)
  have hat2 : At (initial size ("_Z".toList ++ (Nat.toDigits 10 "f".toList.length ++
      ("f".toList ++ 'I' :: (a ++ 'E' :: (r ++ [p].flatten))))))
      ('1' :: ("f".toList ++ 'I' :: (a ++ 'E' :: (r ++ [p].flatten)))) := hat
  have henc := encoding_digit_run (g + 5) _ '1' _ rfl hat2 (by decide)
  rw [ht] at henc
  obtain ⟨-, -, -, -, -, -, -, -, -, han⟩ := code_name_head a A ha
  obtain ⟨-, -, -, -, -, -, -, -, -, hrn⟩ := code_name_head r R hr
  obtain ⟨-, -, -, -, -, -, -, -, -, hpn⟩ := code_name_head p P hp
  have hd := demangle_of_encoding (g + 5) plain size _ t (by omega)
    (by
      intro x hx
      rw [h1] at hx
      simp only [String.toList, List.cons_append, List.nil_append, List.mem_cons,
        List.mem_append, List.flatten_cons, List.flatten_nil, List.append_nil,
        List.not_mem_nil, or_false] at hx
      rcases hx with e | e | e | e | e | e | e
      · rw [e]; decide
      · rw [e]; decide
      · rw [e]; decide
      · exact han x e
      · rw [e]; decide
      · exact hrn x e
      · exact hpn x e) henc
  rw [e1, hd, htv, htp]
  simp [String.toList]

theorem template_return_type_witness :
    demangle 20 [] 256 ("_Z1fI".toList ++ "Dc".toList ++ "E".toList ++ "v".toList ++ "Dn".toList)
      = Res.ok (true, "void".toList ++ " f<".toList ++ "decltype(auto)".toList ++ ">(".toList ++
          (if "Dn".toList = ['v'] then [] else "std::nullptr_t".toList) ++ ")".toList) :=
  template_return_type.1 20 [] 256 "Dc".toList "v".toList "Dn".toList "decltype(auto)".toList
    "void".toList "std::nullptr_t".toList (by decide) (by decide) (by decide) (by decide)
    (by decide) (by decide)

/-! ## A suffix behind a discriminator -/

/-- Run of `_discriminator` on a `_` that is followed by one more character other than
`_`: the character is stepped over without a test, whatever it is. -/
theorem discriminator_skips (s : Mangle) (c : Char) (r : List Char) (hv : s.valid = true)
    (h : At s ('_' :: c :: r)) (hc : c ≠ '_') :
    _discriminator s = Res.ok ((), s.setMpos (s.mpos + 2)) := by
  have m1 := h.run_match_true hv "_" (isPrefixOf_single _ _)
  have h1 : At (s.setMpos (s.mpos + 1)) (c :: r) := h.next
  have hl : "_".length = 1 := rfl
  rw [hl] at m1
  have m2 := h1.run_match_false (by simpa [Mangle.setMpos] using hv) "_"
    (isPrefixOf_cons_ne _ _ _ _ (Ne.symm hc))
  simp only [_discriminator, run_bind, m1, andThen_ok, if_true, m2, Bool.false_eq_true,
    if_false, advance, run_modifyS]
  simp only [Mangle.setMpos, Nat.add_assoc]

/-- C7: a suffix is not always ignored.  `_discriminator` steps over the character behind
its `_` without a test, whatever it is.  In `demangle` on `_ZL1a_` that character is the
terminating NUL: the text `a` is complete, the cursor stands at offset 7 of an input of
length 6, and the next test reads behind the NUL.  On `_ZL1a_.x` the character is the `.`
of the suffix `.x`: it is stepped over, the `x` behind it is read as a parameter type, and
`demangle` returns true with `a(long long)`.  Whenever the run on the input alone returns
true without such a read, the run on the input with a suffix that begins with `.` or with
`@@` returns true with the same text, for inputs shorter than 2^31 characters. -/
theorem suffix_behind_discriminator :
    (∀ (s : Mangle) (c : Char) (r : List Char), s.valid = true → At s ('_' :: c :: r) →
      c ≠ '_' → _discriminator s = Res.ok ((), s.setMpos (s.mpos + 2))) ∧
    (do let _ ← match_ "L"; _source_name; _discriminator : M Unit)
        (initial 64 "_ZL1a_".toList)
      = Res.ok ((), { initial 64 "_ZL1a_".toList with plain := "a".toList, mpos := 7 }) ∧
    demangle 20 [] 64 "_ZL1a_".toList = Res.error Fault.undefined ∧
    (do let _ ← match_ "L"; _source_name; _discriminator : M Unit)
        (initial 64 ("_ZL1a_".toList ++ ".x".toList))
      = Res.ok ((), { initial 64 ("_ZL1a_".toList ++ ".x".toList) with
          plain := "a".toList, mpos := 7 }) ∧
    demangle 20 [] 64 ("_ZL1a_".toList ++ ".x".toList)
      = Res.ok (true, "a(long long)".toList) ∧
    (∀ (fuel : Nat) (plain : List Char) (size : Nat) (m s t : List Char),
      (∃ r, s = '.' :: r) ∨ (∃ r, s = '@' :: '@' :: r) →
      m.length + s.length < 2147483648 →
      demangle fuel plain size m = Res.ok (true, t) →
      demangle fuel plain size (m ++ s) = Res.ok (true, t)) := by
  refine ⟨discriminator_skips, by decide, by decide, by decide, by decide, ?_⟩
  intro fuel plain size m s t hs hlen h
  exact demangle_ignores_suffix fuel plain size m s t hs hlen h

theorem suffix_behind_discriminator_witness :
    _discriminator
        ⟨true, "a".toList, 64, "_ZL1a_.x".toList, 5, 0, false, [], 0, [], [], []⟩
      = Res.ok ((), ⟨true, "a".toList, 64, "_ZL1a_.x".toList, 7, 0, false, [], 0, [], [], []⟩) :=
  suffix_behind_discriminator.1 _ '.' "x".toList rfl ⟨by decide, by decide⟩ (by decide)

/-! ## A dropped insert and the balance of the output -/

/-- C6: the output of a successful run is not always bracket-balanced.  `insert` leaves
out a text for which the buffer has no room, and other than `append` it does not clear
`valid`.  On `_Z1fIiEPFivEv` the return type `int(*)()` is split at its insertion point and
written around the name: the rear part `)()` is appended, the front part `int(*` is
inserted in front of the name.  With the capacity 16 the front part has no room and is left
out, and `demangle` returns true with `f<int>())()`, in which the pair `()` is not
balanced; with the capacity 17 it returns true with `int(*f<int>())()`, which is balanced
in all three pairs.  For a function with a C identifier as its name and one-letter builtin
parameter codes, in a buffer that holds the name, the parentheses and the names of all the
parameters, `demangle` returns true with a text that is balanced in each of the pairs `()`,
`[]` and `<>`.  The name of an operator is written as the table `operators` has it, so its
`<` and `>` stand in the output: `_ZlsRK1XS1_` gives `operator<<(X const&,X const&)`. -/
theorem dropped_insert_unbalanced :
    demangle 20 [] 16 "_Z1fIiEPFivEv".toList = Res.ok (true, "f<int>())()".toList) ∧
    balanced '(' ')' "f<int>())()".toList = false ∧
    demangle 20 [] 17 "_Z1fIiEPFivEv".toList = Res.ok (true, "int(*f<int>())()".toList) ∧
    (balanced '(' ')' "int(*f<int>())()".toList = true ∧
      balanced '[' ']' "int(*f<int>())()".toList = true ∧
      balanced '<' '>' "int(*f<int>())()".toList = true) ∧
    (∀ (fuel : Nat) (plain : List Char) (size : Nat) (name codes : List Char),
      is_identifier name = true →
      (∀ c ∈ codes, (builtin_name c).isSome = true) →
      codes ≠ [] →
      name.length + codes.length < 2147483647 →
      name.length + 2 + (params_text 0 codes).length < size →
      codes.length + 2 ≤ fuel →
      ∃ out, demangle fuel plain size
          ("_Z".toList ++ (Nat.toDigits 10 name.length ++ (name ++ codes)))
          = Res.ok (true, out) ∧
        balanced '(' ')' out = true ∧ balanced '[' ']' out = true ∧
        balanced '<' '>' out = true) ∧
    demangle 20 [] 256 "_ZlsRK1XS1_".toList
      = Res.ok (true, "operator<<(X const&,X const&)".toList) ∧
    balanced '<' '>' "operator<<(X const&,X const&)".toList = false := by
  refine ⟨by decide!, by decide, by decide!, by decide, ?_, by decide!, by decide⟩
  intro fuel plain size name codes hid hcodes hne hlen hsize hfuel
  exact simple_output_balanced fuel plain size name codes hid hcodes hne hlen hsize hfuel

theorem dropped_insert_unbalanced_witness :
    ∃ out, demangle 20 [] 256
        ("_Z".toList ++ (Nat.toDigits 10 "foo".toList.length ++ ("foo".toList ++ "ci".toList)))
        = Res.ok (true, out) ∧
      balanced '(' ')' out = true ∧ balanced '[' ']' out = true ∧
      balanced '<' '>' out = true :=
  dropped_insert_unbalanced.2.2.2.2.1 20 [] 256 "foo".toList "ci".toList (by decide) (by decide)
    (by decide) (by decide) (by decide) (by decide)

end Demangle
